import Mathlib

/-!
# Red-black tree engine of `s21_rbtree.h`, with the adapters `set` and `multiset`

The nodes of the tree live in a memory `Mem` with one map per field of `Node`; a pointer is an
`Option Nat` (`none` for `nullptr`). Every method is a function on the memory that returns
`none` where the C++ would dereference a null pointer (or where the fuel of a loop runs out;
the public entry points pass enough fuel, which the theorems prove).
-/

namespace s21

/-!
# Red-black tree engine of `s21_rbtree.h`: heap model

The C++ tree is a pointer structure (`Node` with `parent_`, `left_`, `right_`, `red_`, `key_`)
hanging off a header node.  The embedding keeps it a pointer structure: a node is an address
(`Nat`), a `Node*` is an `Option Nat` (`none` is `nullptr`), and the memory is one map per field.
A write `p->left_ = q` is an update of the `left_` map at address `p`.

Every function returns in `Option`; `none` stands for "no result": a null pointer was
dereferenced (undefined behaviour in C++) or a loop did not finish within its fuel
(the C++ loop would not terminate).  Loops carry a fuel argument; the public operations
pass the allocation frontier `next`, which bounds the number of nodes and hence every
path length of a well-formed tree.
-/

/-- Point update of a field map. -/
def upd {α : Type} (f : Nat → α) (a : Nat) (v : α) : Nat → α :=
  fun x => if x = a then v else f x

/-- A `Node*`: `none` is `nullptr`. -/
abbrev Ptr := Option Nat

/-- The memory holding every `Node`, one map per field of `struct Node`, and the allocation
frontier `next` (every address handed out by `new` is below it). -/
structure Mem (K : Type) where
  parent_ : Nat → Ptr
  left_ : Nat → Ptr
  right_ : Nat → Ptr
  red_ : Nat → Bool
  key_ : Nat → K
  next : Nat

/-- The fields of the `RBTree` object itself (`lt_` is the ambient comparator). -/
structure RBTree where
  header_ : Nat
  size_ : Nat
deriving DecidableEq, Repr

namespace Mem

variable {K : Type}

/-- Write `a->parent_ = v`. -/
def setParent (m : Mem K) (a : Nat) (v : Ptr) : Mem K := { m with parent_ := upd m.parent_ a v }
/-- Write `a->left_ = v`. -/
def setLeft (m : Mem K) (a : Nat) (v : Ptr) : Mem K := { m with left_ := upd m.left_ a v }
/-- Write `a->right_ = v`. -/
def setRight (m : Mem K) (a : Nat) (v : Ptr) : Mem K := { m with right_ := upd m.right_ a v }
/-- Write `a->red_ = v`. -/
def setRed (m : Mem K) (a : Nat) (v : Bool) : Mem K := { m with red_ := upd m.red_ a v }

/-- Allocation `new Node(key)`: parent, left and right null, red, the key stored. -/
def newNode (m : Mem K) (key : K) : Mem K × Nat :=
  ({ parent_ := upd m.parent_ m.next none
     left_ := upd m.left_ m.next none
     right_ := upd m.right_ m.next none
     red_ := upd m.red_ m.next true
     key_ := upd m.key_ m.next key
     next := m.next + 1 }, m.next)

/-- Method `Node::InitNode`. -/
def InitNode (m : Mem K) (a : Nat) : Mem K :=
  (((m.setParent a none).setLeft a none).setRight a none).setRed a true

/-- Test `x == nullptr || x->red_ == false`. -/
def nullOrBlack (m : Mem K) (x : Ptr) : Bool :=
  match x with
  | none => true
  | some a => m.red_ a == false

/-- Test `x != nullptr && x->red_`. -/
def nonNullRed (m : Mem K) (x : Ptr) : Bool :=
  match x with
  | none => false
  | some a => m.red_ a

end Mem

section Engine

variable {K : Type} (lt : K → K → Bool)

/-- Accessor `RBTree::Root`: the header's parent link. -/
def Root (m : Mem K) (hdr : Nat) : Ptr := m.parent_ hdr

/-- Constructor `RBTree()`: a fresh header node (default key), size 0. -/
def RBTree.mk0 [Inhabited K] (m : Mem K) : Mem K × RBTree :=
  let r := m.newNode default
  (r.1, { header_ := r.2, size_ := 0 })

/-- The memory before anything was allocated. -/
def Mem.init [Inhabited K] : Mem K :=
  { parent_ := fun _ => none, left_ := fun _ => none, right_ := fun _ => none,
    red_ := fun _ => true, key_ := fun _ => default, next := 0 }

/-- Loop of the private `RBTree::Find(key, start, &node)`; the state is
`(ret, curNode, parNode)`, the result `(ret, *node)`. -/
def FindLoop (m : Mem K) (key : K) : Nat → Int → Ptr → Nat → Option (Int × Nat)
  | _, ret, none, parNode => some (ret, parNode)
  | 0, _, some _, _ => none
  | fuel + 1, _, some c, _ =>
    if lt key (m.key_ c) then FindLoop m key fuel (-1) (m.left_ c) c
    else if lt (m.key_ c) key then FindLoop m key fuel 1 (m.right_ c) c
    else some (0, c)

/-- Private `RBTree::Find(key, start, &node)`: returns `(ret, *node)`. -/
def FindFrom (m : Mem K) (hdr : Nat) (key : K) (start : Ptr) : Option (Int × Nat) :=
  FindLoop lt m key m.next (-1) start hdr

/-- Public `RBTree::Find(key)`. -/
def Find (m : Mem K) (t : RBTree) (key : K) : Option Ptr := do
  let r ← FindFrom lt m t.header_ key (Root m t.header_)
  if r.1 = 0 then pure (some r.2) else pure (some t.header_)

/-- Method `RBTree::Contains`. -/
def Contains (m : Mem K) (t : RBTree) (key : K) : Option Bool := do
  let r ← FindFrom lt m t.header_ key (Root m t.header_)
  pure (r.1 == 0)

/-- Method `RBTree::RotateLeft`. -/
def RotateLeft (m : Mem K) (hdr : Nat) (node : Nat) : Option (Mem K) := do
  let rightNode ← m.right_ node
  let m := m.setParent rightNode (m.parent_ node)
  let m ←
    (if Root m hdr = some node then pure (m.setParent hdr (some rightNode))
     else do
      let p ← m.parent_ node
      (if m.left_ p = some node then pure (m.setLeft p (some rightNode))
       else pure (m.setRight p (some rightNode))))
  let m := m.setRight node (m.left_ rightNode)
  let m := match m.left_ rightNode with
    | some rl => m.setParent rl (some node)
    | none => m
  let m := m.setParent node (some rightNode)
  pure (m.setLeft rightNode (some node))

/-- Method `RBTree::RotateRight`. -/
def RotateRight (m : Mem K) (hdr : Nat) (node : Nat) : Option (Mem K) := do
  let leftNode ← m.left_ node
  let m := m.setParent leftNode (m.parent_ node)
  let m ←
    (if Root m hdr = some node then pure (m.setParent hdr (some leftNode))
     else do
      let p ← m.parent_ node
      (if m.right_ p = some node then pure (m.setRight p (some leftNode))
       else pure (m.setLeft p (some leftNode))))
  let m := m.setLeft node (m.right_ leftNode)
  let m := match m.right_ leftNode with
    | some lr => m.setParent lr (some node)
    | none => m
  let m := m.setParent node (some leftNode)
  pure (m.setRight leftNode (some node))

/-- The `while` loop of `RBTree::InsertFixup`; returns the memory and the final `node`. -/
def InsertFixupLoop (hdr : Nat) : Nat → Mem K → Nat → Option (Mem K × Nat)
  | 0, _, _ => none
  | fuel + 1, m, node =>
    if Root m hdr = some node then pure (m, node)
    else do
      let p ← m.parent_ node
      if m.red_ p = false then pure (m, node)
      else do
        let g ← m.parent_ p
        if some p = m.left_ g then
          let uncleNode := m.right_ g
          if m.nonNullRed uncleNode then do
            let u ← uncleNode
            let m := m.setRed p false
            let m := m.setRed u false
            let p1 ← m.parent_ node
            let g1 ← m.parent_ p1
            let m := m.setRed g1 true
            let p2 ← m.parent_ node
            let g2 ← m.parent_ p2
            InsertFixupLoop hdr fuel m g2
          else do
            let (m, node) ←
              (if some node = m.right_ p then do
                let m ← RotateLeft m hdr p
                pure (m, p)
               else pure (m, node))
            let p1 ← m.parent_ node
            let m := m.setRed p1 false
            let p2 ← m.parent_ node
            let g2 ← m.parent_ p2
            let m := m.setRed g2 true
            let p3 ← m.parent_ node
            let g3 ← m.parent_ p3
            let m ← RotateRight m hdr g3
            InsertFixupLoop hdr fuel m node
        else
          let uncleNode := m.left_ g
          if m.nonNullRed uncleNode then do
            let u ← uncleNode
            let m := m.setRed p false
            let m := m.setRed u false
            let p1 ← m.parent_ node
            let g1 ← m.parent_ p1
            let m := m.setRed g1 true
            let p2 ← m.parent_ node
            let g2 ← m.parent_ p2
            InsertFixupLoop hdr fuel m g2
          else do
            let (m, node) ←
              (if some node = m.left_ p then do
                let m ← RotateRight m hdr p
                pure (m, p)
               else pure (m, node))
            let p1 ← m.parent_ node
            let m := m.setRed p1 false
            let p2 ← m.parent_ node
            let g2 ← m.parent_ p2
            let m := m.setRed g2 true
            let p3 ← m.parent_ node
            let g3 ← m.parent_ p3
            let m ← RotateLeft m hdr g3
            InsertFixupLoop hdr fuel m node

/-- Method `RBTree::InsertFixup`: the loop, then the root is forced black. -/
def InsertFixup (m : Mem K) (hdr : Nat) (node : Nat) : Option (Mem K) := do
  let (m, node) ← InsertFixupLoop hdr m.next m node
  if Root m hdr = some node then pure (m.setRed node false) else pure m

/-- The `while (ret == 0)` loop of `RBTree::InsertNode`; the state is `(ret, parNode)`.
The result is `Sum.inl parNode` for the early `return {iterator(parNode), false}` and
`Sum.inr (ret, parNode)` when the loop is left. -/
def InsertDescend (m : Mem K) (hdr : Nat) (key : K) (uniq : Bool) :
    Nat → Int → Nat → Option (Nat ⊕ (Int × Nat))
  | 0, _, _ => none
  | fuel + 1, ret, parNode =>
    if ret = 0 then
      if uniq then some (Sum.inl parNode)
      else
        match m.right_ parNode with
        | some start => do
          let r ← FindFrom lt m hdr key (some start)
          InsertDescend m hdr key uniq fuel r.1 r.2
        | none => some (Sum.inr (ret, parNode))
    else some (Sum.inr (ret, parNode))

/-- Method `RBTree::InsertNode(newNode, uniq)`: returns the memory, the tree object and the
pair `(iterator, bool)`. -/
def InsertNode (m : Mem K) (t : RBTree) (newNode : Nat) (uniq : Bool) :
    Option (Mem K × RBTree × Ptr × Bool) := do
  let r ← FindFrom lt m t.header_ (m.key_ newNode) (Root m t.header_)
  let d ← InsertDescend lt m t.header_ (m.key_ newNode) uniq m.next r.1 r.2
  match d with
  | Sum.inl parNode => pure (m, t, some parNode, false)
  | Sum.inr (ret, parNode) =>
    let m :=
      if t.size_ = 0 then (m.setParent t.header_ (some newNode)).setParent newNode (some t.header_)
      else
        let m := m.setParent newNode (some parNode)
        if ret = -1 then m.setLeft parNode (some newNode)
        else m.setRight parNode (some newNode)
    do
      let m ← InsertFixup m t.header_ newNode
      pure (m, { t with size_ := t.size_ + 1 }, some newNode, true)

/-- Method `RBTree::InsertKey(key, uniq)`; `delete newNode` leaves the memory as it is. -/
def InsertKey (m : Mem K) (t : RBTree) (key : K) (uniq : Bool) :
    Option (Mem K × RBTree × Ptr × Bool) :=
  let a := m.newNode key
  InsertNode lt a.1 t a.2 uniq

/-- Method `RBTree::Size`. -/
def Size (t : RBTree) : Nat := t.size_

/-- Method `RBTree::End`: the iterator on the header. -/
def End (t : RBTree) : Ptr := some t.header_

/-- Loop of `RBTree::SearchMin` (and of `Minimum`, and the descent of `NextNode`):
`while (node->left_ != nullptr) node = node->left_`. -/
def SearchMin (m : Mem K) : Nat → Nat → Option Nat
  | 0, _ => none
  | fuel + 1, node =>
    match m.left_ node with
    | some l => SearchMin m fuel l
    | none => some node

/-- Loop of `RBTree::SearchMax` (and of `Maximum`, and the descent of `PrevNode`). -/
def SearchMax (m : Mem K) : Nat → Nat → Option Nat
  | 0, _ => none
  | fuel + 1, node =>
    match m.right_ node with
    | some r => SearchMax m fuel r
    | none => some node

/-- Method `RBTree::Minimum`: dereferences the root. -/
def Minimum (m : Mem K) (hdr : Nat) : Option Nat := do
  let node ← Root m hdr
  SearchMin m m.next node

/-- Method `RBTree::Begin` (non-const). -/
def Begin (m : Mem K) (t : RBTree) : Option Ptr :=
  if t.size_ = 0 then pure (End t)
  else do
    let node ← Minimum m t.header_
    pure (some node)

/-- Climb of `Node::NextNode`:
`while (node->parent_ != nullptr && node->parent_->right_ == node) node = node->parent_`. -/
def NextNodeUp (m : Mem K) : Nat → Nat → Option Nat
  | 0, _ => none
  | fuel + 1, node =>
    match m.parent_ node with
    | some p => if m.right_ p = some node then NextNodeUp m fuel p else some node
    | none => some node

/-- Method `Node::NextNode` (the step of `operator++`); the result is a `Node*`. -/
def NextNode (m : Mem K) (node : Nat) : Option Ptr :=
  match m.right_ node with
  | some r => do
    let x ← SearchMin m m.next r
    pure (some x)
  | none => do
    let x ← NextNodeUp m m.next node
    pure (m.parent_ x)

/-- Climb of `Node::PrevNode`. -/
def PrevNodeUp (m : Mem K) : Nat → Nat → Option Nat
  | 0, _ => none
  | fuel + 1, node =>
    match m.parent_ node with
    | some p => if m.left_ p = some node then PrevNodeUp m fuel p else some node
    | none => some node

/-- Method `Node::PrevNode` (the step of `operator--`). -/
def PrevNode (m : Mem K) (node : Nat) : Option Ptr :=
  match m.left_ node with
  | some l => do
    let x ← SearchMax m m.next l
    pure (some x)
  | none => do
    let x ← PrevNodeUp m m.next node
    pure (m.parent_ x)

/-- Loop of `RBTree::Lower_Bound`; the state is `(start, res)`. -/
def LowerBoundLoop (m : Mem K) (key : K) : Nat → Ptr → Ptr → Option Ptr
  | _, none, res => some res
  | 0, some _, _ => none
  | fuel + 1, some s, res =>
    if lt (m.key_ s) key = false then LowerBoundLoop m key fuel (m.left_ s) (some s)
    else LowerBoundLoop m key fuel (m.right_ s) res

/-- Method `RBTree::Lower_Bound`. -/
def Lower_Bound (m : Mem K) (t : RBTree) (key : K) : Option Ptr :=
  LowerBoundLoop lt m key m.next (Root m t.header_) (End t)

/-- Loop of `RBTree::Upper_Bound`; the state is `(start, res)`. -/
def UpperBoundLoop (m : Mem K) (key : K) : Nat → Ptr → Ptr → Option Ptr
  | _, none, res => some res
  | 0, some _, _ => none
  | fuel + 1, some s, res =>
    if lt key (m.key_ s) then UpperBoundLoop m key fuel (m.left_ s) (some s)
    else UpperBoundLoop m key fuel (m.right_ s) res

/-- Method `RBTree::Upper_Bound`. -/
def Upper_Bound (m : Mem K) (t : RBTree) (key : K) : Option Ptr :=
  UpperBoundLoop lt m key m.next (Root m t.header_) (End t)

/-- Loop of `multiset::count`: `while (low != up && *low == key) { ++ret; ++low; }`. -/
def countLoop [BEq K] (m : Mem K) (key : K) (up : Ptr) : Nat → Ptr → Nat → Option Nat
  | 0, _, _ => none
  | fuel + 1, low, ret =>
    if low = up then some ret
    else do
      let l ← low
      if m.key_ l == key then do
        let nxt ← NextNode m l
        countLoop m key up fuel nxt (ret + 1)
      else some ret

/-- Method `multiset::count`. -/
def count [BEq K] (m : Mem K) (t : RBTree) (key : K) : Option Nat := do
  let low ← Lower_Bound lt m t key
  if low = End t then pure 0
  else do
    let l ← low
    if m.key_ l != key then pure 0
    else do
      let up ← Upper_Bound lt m t key
      countLoop m key up m.next low 0

/-- Method `RBTree::Height`: the black height from `node`, or `-1`. -/
def Height (m : Mem K) : Nat → Ptr → Option Int
  | _, none => some 0
  | 0, some _ => none
  | fuel + 1, some n => do
    let left ← Height m fuel (m.left_ n)
    let right ← Height m fuel (m.right_ n)
    if left = -1 ∨ right = -1 ∨ left ≠ right then pure (-1)
    else pure (left + (if m.red_ n = false then 1 else 0))

/-- Method `RBTree::BlackHeight`. -/
def BlackHeight (m : Mem K) (t : RBTree) : Option Int :=
  Height m m.next (Root m t.header_)

/-- Method `RBTree::SwapNodes`. -/
def SwapNodes (m : Mem K) (hdr : Nat) (node other : Nat) : Option (Mem K) := do
  let op ← m.parent_ other
  let m := if m.left_ op = some other then m.setLeft op (some node) else m.setRight op (some node)
  let m ←
    (if Root m hdr = some node then pure (m.setParent hdr (some other))
     else do
      let np ← m.parent_ node
      (if m.left_ np = some node then pure (m.setLeft np (some other))
       else pure (m.setRight np (some other))))
  let m := (m.setParent node (m.parent_ other)).setParent other (m.parent_ node)
  let m := (m.setLeft node (m.left_ other)).setLeft other (m.left_ node)
  let m := (m.setRight node (m.right_ other)).setRight other (m.right_ node)
  let m := (m.setRed node (m.red_ other)).setRed other (m.red_ node)
  let m := match m.left_ node with
    | some c => m.setParent c (some node)
    | none => m
  let m := match m.right_ node with
    | some c => m.setParent c (some node)
    | none => m
  let m := match m.left_ other with
    | some c => m.setParent c (some other)
    | none => m
  let m := match m.right_ other with
    | some c => m.setParent c (some other)
    | none => m
  pure m

/-- The `while` loop of `RBTree::ExtractFixup`; the state is `(del, parent)`. -/
def ExtractFixupLoop (hdr : Nat) : Nat → Mem K → Nat → Ptr → Option (Mem K)
  | 0, _, _, _ => none
  | fuel + 1, m, del, parent =>
    if Root m hdr = some del ∨ m.red_ del = true then pure m
    else do
      let p ← parent
      if some del = m.left_ p then do
        let brother ← m.right_ p
        let (m, p, brother) ←
          (if m.red_ brother then do
            let m := (m.setRed brother (m.red_ p)).setRed p (m.red_ brother)
            let m ← RotateLeft m hdr p
            let p1 ← m.parent_ del
            let b1 ← m.right_ p1
            pure (m, p1, b1)
           else pure (m, p, brother))
        if m.red_ brother = false ∧ m.nullOrBlack (m.left_ brother) ∧
            m.nullOrBlack (m.right_ brother) then
          let m := m.setRed brother true
          if m.red_ p = true then pure (m.setRed p false)
          else ExtractFixupLoop hdr fuel m p (m.parent_ p)
        else do
          let (m, brother) ←
            (if m.nonNullRed (m.left_ brother) ∧ m.nullOrBlack (m.right_ brother) then do
              let bl ← m.left_ brother
              let m := (m.setRed brother (m.red_ bl)).setRed bl (m.red_ brother)
              let m ← RotateRight m hdr brother
              let b1 ← m.right_ p
              pure (m, b1)
             else pure (m, brother))
          let br ← m.right_ brother
          let m := m.setRed br false
          let m := m.setRed brother (m.red_ p)
          let m := m.setRed p false
          RotateLeft m hdr p
      else do
        let brother ← m.left_ p
        let (m, p, brother) ←
          (if m.red_ brother then do
            let m := (m.setRed brother (m.red_ p)).setRed p (m.red_ brother)
            let m ← RotateRight m hdr p
            let p1 ← m.parent_ del
            let b1 ← m.left_ p1
            pure (m, p1, b1)
           else pure (m, p, brother))
        if m.red_ brother = false ∧ m.nullOrBlack (m.left_ brother) ∧
            m.nullOrBlack (m.right_ brother) then
          let m := m.setRed brother true
          if m.red_ p = true then pure (m.setRed p false)
          else ExtractFixupLoop hdr fuel m p (m.parent_ p)
        else do
          let (m, brother) ←
            (if m.nonNullRed (m.right_ brother) ∧ m.nullOrBlack (m.left_ brother) then do
              let br ← m.right_ brother
              let m := (m.setRed brother (m.red_ br)).setRed br (m.red_ brother)
              let m ← RotateLeft m hdr brother
              let b1 ← m.left_ p
              pure (m, b1)
             else pure (m, brother))
          let bl ← m.left_ brother
          let m := m.setRed bl false
          let m := m.setRed brother (m.red_ p)
          let m := m.setRed p false
          RotateRight m hdr p

/-- Method `RBTree::ExtractFixup`. -/
def ExtractFixup (m : Mem K) (hdr : Nat) (node : Nat) : Option (Mem K) :=
  ExtractFixupLoop hdr m.next m node (m.parent_ node)

/-- Method `RBTree::ExtractNode`: returns the memory, the tree object and the extracted
`Node*`. -/
def ExtractNode (m : Mem K) (t : RBTree) (pos : Ptr) : Option (Mem K × RBTree × Ptr) :=
  if pos = End t then pure (m, t, none)
  else do
    let node ← pos
    let m ←
      (if m.left_ node ≠ none ∧ m.right_ node ≠ none then do
        let r ← m.right_ node
        let change ← SearchMin m m.next r
        SwapNodes m t.header_ node change
       else pure m)
    let m ←
      (if m.red_ node = false ∧
          ((m.left_ node ≠ none ∧ m.right_ node = none) ∨
           (m.right_ node ≠ none ∧ m.left_ node = none)) then do
        let child ← (if m.left_ node ≠ none then m.left_ node else m.right_ node)
        SwapNodes m t.header_ node child
       else pure m)
    let m ←
      (if m.red_ node = false ∧ m.left_ node = none ∧ m.right_ node = none then
        ExtractFixup m t.header_ node
       else pure m)
    let m ←
      (if Root m t.header_ = some node then pure (m.setParent t.header_ none)
       else do
        let p ← m.parent_ node
        (if m.left_ p = some node then pure (m.setLeft p none)
         else pure (m.setRight p none)))
    pure (m.InitNode node, { t with size_ := t.size_ - 1 }, some node)

/-- Method `RBTree::Erase`; `delete` leaves the memory as it is. -/
def Erase (m : Mem K) (t : RBTree) (pos : Ptr) : Option (Mem K × RBTree) :=
  if pos = End t then pure (m, t)
  else do
    let r ← ExtractNode m t pos
    pure (r.1, r.2.1)

/-- The idiom `for (; it != stop; ++it)`: the nodes the iterator visits before it reaches
`stop`. -/
def iterFrom (m : Mem K) (stop : Ptr) : Nat → Ptr → Option (List Nat)
  | 0, _ => none
  | fuel + 1, it =>
    if it = stop then some []
    else do
      let a ← it
      let nxt ← NextNode m a
      let rest ← iterFrom m stop fuel nxt
      pure (a :: rest)

/-- The idiom `for (auto it = Begin(); it != End(); ++it)`: the nodes in iteration order. -/
def toList (m : Mem K) (t : RBTree) : Option (List Nat) := do
  let b ← Begin m t
  iterFrom m (End t) (m.next + 1) b

/-- The keys in iteration order (`*it` for every visited `it`). -/
def keys (m : Mem K) (t : RBTree) : Option (List K) := do
  let l ← toList m t
  pure (l.map m.key_)

end Engine

variable {K : Type}

/-! ## Shapes, invariants and the parts of the operations the proofs talk about -/

/-- The shape of a tree in memory: which address sits where. -/
inductive Sh where
  | nil : Sh
  | node (l : Sh) (a : Nat) (r : Sh) : Sh
deriving DecidableEq, Repr

namespace Sh

/-- The pointer to the root of a shape. -/
def ptr : Sh → Ptr
  | nil => none
  | node _ a _ => some a

/-- The addresses of a shape in in-order (left subtree, node, right subtree). -/
def addrs : Sh → List Nat
  | nil => []
  | node l a r => l.addrs ++ a :: r.addrs

/-- Number of nodes on the longest root-to-leaf path. -/
def depth : Sh → Nat
  | nil => 0
  | node l _ r => max l.depth r.depth + 1

end Sh

/-- The links of memory realise the shape `s` below the parent pointer `par`: every node's
`left_`/`right_` point to the roots of its subtrees and its `parent_` to the node above. -/
def Rep (P L R : Nat → Ptr) : Sh → Ptr → Prop
  | Sh.nil, _ => True
  | Sh.node l a r, par =>
    P a = par ∧ L a = l.ptr ∧ R a = r.ptr ∧ Rep P L R l (some a) ∧ Rep P L R r (some a)

/-- One step of a path from a subtree up to the root: the hole is the left child of `a`
(with right sibling `r`) or the right child of `a` (with left sibling `l`). -/
inductive Frame where
  | left (a : Nat) (r : Sh) : Frame
  | right (l : Sh) (a : Nat) : Frame
deriving DecidableEq, Repr

/-- The address of a frame's node. -/
def Frame.addr : Frame → Nat
  | Frame.left a _ => a
  | Frame.right _ a => a

/-- The sibling subtree of a frame. -/
def Frame.sib : Frame → Sh
  | Frame.left _ r => r
  | Frame.right l _ => l

/-- Fill the hole of the context `c` (innermost frame first) with `s`. -/
def plug : List Frame → Sh → Sh
  | [], s => s
  | Frame.left a r :: c, s => plug c (Sh.node s a r)
  | Frame.right l a :: c, s => plug c (Sh.node l a s)

/-- Addresses of the context that come before the hole in in-order. -/
def ctxBefore : List Frame → List Nat
  | [] => []
  | Frame.left _ _ :: c => ctxBefore c
  | Frame.right l a :: c => ctxBefore c ++ (l.addrs ++ [a])

/-- Addresses of the context that come after the hole in in-order. -/
def ctxAfter : List Frame → List Nat
  | [] => []
  | Frame.left a r :: c => (a :: r.addrs) ++ ctxAfter c
  | Frame.right _ _ :: c => ctxAfter c

/-- The address of the node right above the hole (the header for the empty context). -/
def ctxPar (hdr : Nat) : List Frame → Nat
  | [] => hdr
  | f :: _ => f.addr

/-- The links of memory realise the context `c` around a hole whose pointer is `p`:
the innermost frame's child link is `p`, and the outermost node hangs off the header. -/
def RepC (P L R : Nat → Ptr) (hdr : Nat) : List Frame → Ptr → Prop
  | [], p => P hdr = p
  | Frame.left a r :: c, p =>
    L a = p ∧ R a = r.ptr ∧ P a = some (ctxPar hdr c) ∧ Rep P L R r (some a) ∧
      RepC P L R hdr c (some a)
  | Frame.right l a :: c, p =>
    R a = p ∧ L a = l.ptr ∧ P a = some (ctxPar hdr c) ∧ Rep P L R l (some a) ∧
      RepC P L R hdr c (some a)

/-- All addresses of a context (frames' nodes and sibling subtrees). -/
def ctxAddrs : List Frame → List Nat
  | [] => []
  | Frame.left a r :: c => a :: r.addrs ++ ctxAddrs c
  | Frame.right l a :: c => a :: l.addrs ++ ctxAddrs c

/-- The memory holds a well-formed tree of shape `sh` under the header `hdr`: the header's
parent link is the root, the header has no children, all links agree with the shape, no
address occurs twice, and every address has been allocated. -/
structure WF (m : Mem K) (hdr : Nat) (sh : Sh) : Prop where
  root : m.parent_ hdr = sh.ptr
  hleft : m.left_ hdr = none
  hright : m.right_ hdr = none
  rep : Rep m.parent_ m.left_ m.right_ sh (some hdr)
  nodup : (hdr :: sh.addrs).Nodup
  bound : ∀ a ∈ hdr :: sh.addrs, a < m.next

/-- Well-formedness seen from a subtree `s` in its context `c`. -/
structure WFz (m : Mem K) (hdr : Nat) (c : List Frame) (s : Sh) : Prop where
  repc : RepC m.parent_ m.left_ m.right_ hdr c s.ptr
  rep : Rep m.parent_ m.left_ m.right_ s (some (ctxPar hdr c))
  hleft : m.left_ hdr = none
  hright : m.right_ hdr = none
  nodup : (hdr :: (s.addrs ++ ctxAddrs c)).Nodup
  bound : ∀ a ∈ hdr :: (s.addrs ++ ctxAddrs c), a < m.next

/-- Redirect the link that points to the hole of the context. -/
def holeSet (m : Mem K) (hdr : Nat) (c : List Frame) (q : Ptr) : Mem K :=
  match c with
  | [] => m.setParent hdr q
  | Frame.left a _ :: _ => m.setLeft a q
  | Frame.right _ a :: _ => m.setRight a q

/-- The relinking idiom of `RotateLeft`, `SwapNodes` and `ExtractNode`:
`if (node == Root()) Root() = q; else if (node->parent_->left_ == node) node->parent_->left_ = q;
else node->parent_->right_ = q;`. -/
def relinkL (m : Mem K) (hdr : Nat) (node : Nat) (q : Ptr) : Option (Mem K) :=
  if Root m hdr = some node then pure (m.setParent hdr q)
  else do
    let p ← m.parent_ node
    if m.left_ p = some node then pure (m.setLeft p q)
    else pure (m.setRight p q)

/-- The relinking idiom of `RotateRight` (the right link is tested first). -/
def relinkR (m : Mem K) (hdr : Nat) (node : Nat) (q : Ptr) : Option (Mem K) :=
  if Root m hdr = some node then pure (m.setParent hdr q)
  else do
    let p ← m.parent_ node
    if m.right_ p = some node then pure (m.setRight p q)
    else pure (m.setLeft p q)

/-- Number of black nodes on the left-most path of a shape. -/
def bh (red : Nat → Bool) : Sh → Nat
  | Sh.nil => 0
  | Sh.node l a _ => bh red l + (if red a then 0 else 1)

/-- Every path from a node down to a null link crosses the same number of black nodes. -/
def Bal (red : Nat → Bool) : Sh → Prop
  | Sh.nil => True
  | Sh.node l _ r => bh red l = bh red r ∧ Bal red l ∧ Bal red r

/-- The root of the shape is black (or the shape is empty). -/
def isBlk (red : Nat → Bool) : Sh → Prop
  | Sh.nil => True
  | Sh.node _ a _ => red a = false

/-- No red node has a red child. -/
def NoRR (red : Nat → Bool) : Sh → Prop
  | Sh.nil => True
  | Sh.node l a r => (red a = true → isBlk red l ∧ isBlk red r) ∧ NoRR red l ∧ NoRR red r

/-- Balance of a context around a hole of black height `h`. -/
def CtxBal (red : Nat → Bool) : List Frame → Nat → Prop
  | [], _ => True
  | Frame.left a r :: c, h =>
    bh red r = h ∧ Bal red r ∧ CtxBal red c (h + (if red a then 0 else 1))
  | Frame.right l a :: c, h =>
    bh red l = h ∧ Bal red l ∧ CtxBal red c (h + (if red a then 0 else 1))

/-- The node right above the hole is black (or the hole is at the root). -/
def ctxTopBlk (red : Nat → Bool) : List Frame → Prop
  | [] => True
  | f :: _ => red f.addr = false

/-- No red node of the context has a red child, the hole not counted. -/
def CtxNoRR (red : Nat → Bool) : List Frame → Prop
  | [] => True
  | f :: c =>
    NoRR red f.sib ∧ (red f.addr = true → isBlk red f.sib ∧ ctxTopBlk red c) ∧ CtxNoRR red c

/-- The root of the plugged tree is black, where `p` says so for the empty context. -/
def CtxRootBlk (red : Nat → Bool) : List Frame → Prop → Prop
  | [], p => p
  | f :: c, _ => CtxRootBlk red c (red f.addr = false)

/-- The colour properties the tree has between operations. -/
structure RB (red : Nat → Bool) (sh : Sh) : Prop where
  rootBlack : isBlk red sh
  noRedRed : NoRR red sh
  balanced : Bal red sh

/-- Result of the fix-up loop: a well-formed tree on the same addresses (in the same order),
free of red-red pairs and balanced, whose root is black unless it is the returned node. -/
def FixupPost (m m' : Mem K) (hdr : Nat) (node' : Nat) (c : List Frame) (s : Sh) : Prop :=
  ∃ sh', WF m' hdr sh' ∧ sh'.addrs = (plug c s).addrs ∧ NoRR m'.red_ sh' ∧ Bal m'.red_ sh' ∧
    (isBlk m'.red_ sh' ∨ sh'.ptr = some node') ∧ m'.key_ = m.key_ ∧ m'.next = m.next

/-- The state of the insertion fix-up loop: the subtree `s` rooted at the red node `x` sits
in the context `c`; everything is in order except that the node above `x` may be red. -/
structure FixInv (m : Mem K) (hdr : Nat) (c : List Frame) (s : Sh) (x : Nat) : Prop where
  wf : WFz m hdr c s
  ptr : s.ptr = some x
  red : m.red_ x = true
  norr : NoRR m.red_ s
  bal : Bal m.red_ s
  cnorr : CtxNoRR m.red_ c
  cbal : CtxBal m.red_ c (bh m.red_ s)
  croot : CtxRootBlk m.red_ c True

/-- The context was walked by going left exactly at the nodes where `p` holds. -/
def CtxDir (p : Nat → Bool) : List Frame → Prop
  | [] => True
  | Frame.left a _ :: c => p a = true ∧ CtxDir p c
  | Frame.right _ a :: c => p a = false ∧ CtxDir p c

/-- The context was walked by `Find`: left where `key` is less, right where it is greater. -/
def CtxFind (lt : K → K → Bool) (k : Nat → K) (key : K) : List Frame → Prop
  | [] => True
  | Frame.left a _ :: c => lt key (k a) = true ∧ CtxFind lt k key c
  | Frame.right _ a :: c => lt key (k a) = false ∧ lt (k a) key = true ∧ CtxFind lt k key c

/-- How the pair `(ret, parNode)` left by a descent names the hole of the context. -/
def Attach (hdr : Nat) (c : List Frame) (ret : Int) (par : Nat) : Prop :=
  match c with
  | [] => par = hdr
  | Frame.left a _ :: _ => par = a ∧ ret = -1
  | Frame.right _ a :: _ => par = a ∧ ret ≠ -1

/-- Outcome of the private `Find` started on the subtree `s`: either the node `n` holding an
equivalent key is found (`ret = 0`), or the walk ends at a null link. -/
def FindRes (lt : K → K → Bool) (k : Nat → K) (key : K) (s : Sh) (ret0 : Int) (par0 : Nat)
    (ret : Int) (n : Nat) : Prop :=
  (ret = 0 ∧ ∃ d l r, s = plug d (Sh.node l n r) ∧ CtxFind lt k key d ∧
      lt key (k n) = false ∧ lt (k n) key = false) ∨
  (ret ≠ 0 ∧ ∃ d, s = plug d Sh.nil ∧ CtxFind lt k key d ∧
      (d = [] → ret = ret0 ∧ n = par0) ∧ (d ≠ [] → Attach 0 d ret n))

/-- Outcome of the descent of `InsertNode`. -/
def DescRes (lt : K → K → Bool) (k : Nat → K) (key : K) (hdr : Nat) (sh : Sh) (uniq : Bool) :
    Nat ⊕ (Int × Nat) → Prop
  | Sum.inl n => uniq = true ∧ ∃ c l r, sh = plug c (Sh.node l n r) ∧
      lt key (k n) = false ∧ lt (k n) key = false ∧ CtxFind lt k key c
  | Sum.inr (ret, n) => ∃ c, sh = plug c Sh.nil ∧ CtxDir (fun a => lt key (k a)) c ∧
      (uniq = true → CtxFind lt k key c) ∧ Attach hdr c ret n

/-- The writes of `InsertNode` that hang `newNode` below `parNode` (or make it the root). -/
def linkNode (m : Mem K) (t : RBTree) (newNode : Nat) (ret : Int) (parNode : Nat) : Mem K :=
  if t.size_ = 0 then (m.setParent t.header_ (some newNode)).setParent newNode (some t.header_)
  else
    let m := m.setParent newNode (some parNode)
    if ret = -1 then m.setLeft parNode (some newNode)
    else m.setRight parNode (some newNode)

/-- The state invariant between operations: well-formed links, the element count, and the
colour invariants. -/
structure Inv (m : Mem K) (t : RBTree) (sh : Sh) : Prop where
  wf : WF m t.header_ sh
  size : t.size_ = sh.addrs.length
  rb : RB m.red_ sh

/-- The result of `Height` computed on the shape. -/
def hgt (red : Nat → Bool) : Sh → Int
  | Sh.nil => 0
  | Sh.node l a r =>
    if hgt red l = -1 ∨ hgt red r = -1 ∨ hgt red l ≠ hgt red r then -1
    else hgt red l + (if red a = false then 1 else 0)

/-- The comparator is a strict weak ordering. -/
structure SWO (lt : K → K → Bool) : Prop where
  irrefl : ∀ a, lt a a = false
  trans : ∀ a b c, lt a b = true → lt b c = true → lt a c = true
  incomp : ∀ a b c, lt a b = false → lt b a = false → lt b c = false → lt c b = false →
    lt a c = false ∧ lt c a = false

/-- The addresses are listed in non-decreasing order of their keys. -/
def Ordered (lt : K → K → Bool) (k : Nat → K) (L : List Nat) : Prop :=
  L.Pairwise (fun a b => lt (k b) (k a) = false)

/-- A context made of left frames only (a left spine). -/
def AllLeft : List Frame → Prop
  | [] => True
  | Frame.left _ _ :: c => AllLeft c
  | Frame.right _ _ :: _ => False

/-- The node after the hole of a context in in-order, the header if there is none. -/
def ctxNext (hdr : Nat) : List Frame → Nat
  | [] => hdr
  | Frame.left a _ :: _ => a
  | Frame.right _ _ :: c => ctxNext hdr c

/-- What a bound loop returns: the node after the hole, or the incoming `res`. -/
def boundRes (d : List Frame) (res : Ptr) : Ptr :=
  match (ctxAfter d).head? with
  | some a => some a
  | none => res

/-- Equivalence of keys under the comparator: neither is less than the other. -/
def equiv (lt : K → K → Bool) (a b : K) : Bool := !lt a b && !lt b a

/-- The address `a` is a leaf of the shape. -/
def Leaf (a : Nat) : Sh → Prop
  | Sh.nil => False
  | Sh.node l x r => (x = a ∧ l = Sh.nil ∧ r = Sh.nil) ∨ Leaf a l ∨ Leaf a r

/-- The loop invariant of `ExtractFixup`: the subtree `s` rooted at the black node `del`
contains the leaf `a` that is about to be removed; counting `a` as weightless, `s` is balanced
but one black node short of what its context expects. -/
structure DelInv (m : Mem K) (hdr a : Nat) (c : List Frame) (s : Sh) (del : Nat) : Prop where
  wf : WFz m hdr c s
  ptr : s.ptr = some del
  blk : m.red_ del = false
  leaf : Leaf a s
  norr : NoRR m.red_ s
  bal : Bal (upd m.red_ a true) s
  cnorr : CtxNoRR m.red_ c
  cbal : CtxBal m.red_ c (bh (upd m.red_ a true) s + 1)
  croot : CtxRootBlk m.red_ c True

/-- Result of the extraction fix-up: a well-formed tree on the same addresses in the same
order, in which `a` is still a leaf, free of red-red pairs, with a black root, and balanced
once `a` is not counted. -/
def ExtPost (m m' : Mem K) (hdr a : Nat) (sh : Sh) : Prop :=
  ∃ sh', WF m' hdr sh' ∧ sh'.addrs = sh.addrs ∧ Leaf a sh' ∧ NoRR m'.red_ sh' ∧
    isBlk m'.red_ sh' ∧ Bal (upd m'.red_ a true) sh' ∧ m'.key_ = m.key_ ∧ m'.next = m.next

/-- The transposition of the two addresses `a` and `y`. -/
def swp (a y x : Nat) : Nat := if x = a then y else if x = y then a else x

namespace Sh

/-- Rename the addresses of a shape. -/
def map (f : Nat → Nat) : Sh → Sh
  | nil => nil
  | node l x r => node (map f l) (f x) (map f r)

end Sh

/-- Rename the addresses of a frame. -/
def Frame.map (f : Nat → Nat) : Frame → Frame
  | Frame.left a r => Frame.left (f a) (Sh.map f r)
  | Frame.right l a => Frame.right (Sh.map f l) (f a)

/-- The idiom `if (x) x->parent_ = node;`. -/
def fixPar (m : Mem K) (ch : Ptr) (node : Nat) : Mem K :=
  match ch with
  | some c => m.setParent c (some node)
  | none => m

/-- The second half of `SwapNodes`: exchange the links and colours of the two nodes and
redirect the parent links of their children. -/
def swapTail (m : Mem K) (node other : Nat) : Mem K :=
  let m := (m.setParent node (m.parent_ other)).setParent other (m.parent_ node)
  let m := (m.setLeft node (m.left_ other)).setLeft other (m.left_ node)
  let m := (m.setRight node (m.right_ other)).setRight other (m.right_ node)
  let m := (m.setRed node (m.red_ other)).setRed other (m.red_ node)
  let m := fixPar m (m.left_ node) node
  let m := fixPar m (m.right_ node) node
  let m := fixPar m (m.left_ other) other
  fixPar m (m.right_ other) other

/-- First step of `ExtractNode`: a node with two children changes places with its
successor. -/
def swapSucc (m : Mem K) (hdr node : Nat) : Option (Mem K) :=
  if m.left_ node ≠ none ∧ m.right_ node ≠ none then do
    let r ← m.right_ node
    let change ← SearchMin m m.next r
    SwapNodes m hdr node change
  else pure m

/-- Second step of `ExtractNode`: a black node with one child changes places with it. -/
def swapChild (m : Mem K) (hdr node : Nat) : Option (Mem K) :=
  if m.red_ node = false ∧
      ((m.left_ node ≠ none ∧ m.right_ node = none) ∨
       (m.right_ node ≠ none ∧ m.left_ node = none)) then do
    let child ← (if m.left_ node ≠ none then m.left_ node else m.right_ node)
    SwapNodes m hdr node child
  else pure m

/-- Third step of `ExtractNode`: a black leaf is rebalanced before it is taken out. -/
def fixLeaf (m : Mem K) (hdr node : Nat) : Option (Mem K) :=
  if m.red_ node = false ∧ m.left_ node = none ∧ m.right_ node = none then
    ExtractFixup m hdr node
  else pure m

/-- States of a tree reached from the empty tree by `InsertKey` (in either mode) and `Erase`
(at `End()` or at an element of the tree). -/
inductive Reachable [Inhabited K] (lt : K → K → Bool) : Mem K → RBTree → Prop
  | init (m0 : Mem K) : Reachable lt (RBTree.mk0 m0).1 (RBTree.mk0 m0).2
  | insert {m : Mem K} {t : RBTree} {m' : Mem K} {t' : RBTree} {it : Ptr} {ok : Bool}
      (key : K) (uniq : Bool) : Reachable lt m t →
      InsertKey lt m t key uniq = some (m', t', it, ok) → Reachable lt m' t'
  | erase {m : Mem K} {t : RBTree} {m' : Mem K} {t' : RBTree} (pos : Ptr) :
      Reachable lt m t →
      (pos = End t ∨ ∃ L a, toList m t = some L ∧ a ∈ L ∧ pos = some a) →
      Erase m t pos = some (m', t') → Reachable lt m' t'

/-- The comparator `std::less` on natural-number keys. -/
def ltN (a b : Nat) : Bool := decide (a < b)

/-- The loop of the initializer-list constructors of `set` (`uniq = true`) and `multiset`
(`uniq = false`): `for (auto const &item : items) tree_->InsertKey(item, uniq);`. -/
def insertItems (lt : K → K → Bool) (uniq : Bool) :
    List K → Mem K × RBTree → Option (Mem K × RBTree)
  | [], s => some s
  | k :: ks, s => do
    let r ← InsertKey lt s.1 s.2 k uniq
    insertItems lt uniq ks (r.1, r.2.1)

/-- The order the tree keeps at every node: no key of the left subtree is greater than the
node's key and no key of the right subtree is less. -/
def WeakOrder (lt : K → K → Bool) (k : Nat → K) : Sh → Prop
  | Sh.nil => True
  | Sh.node l a r => (∀ x ∈ l.addrs, lt (k a) (k x) = false) ∧
      (∀ x ∈ r.addrs, lt (k x) (k a) = false) ∧ WeakOrder lt k l ∧ WeakOrder lt k r

/-- The stricter order: every key of the left subtree is less than the node's key and no key
of the right subtree is less. -/
def StrictLeft (lt : K → K → Bool) (k : Nat → K) : Sh → Prop
  | Sh.nil => True
  | Sh.node l a r => (∀ x ∈ l.addrs, lt (k x) (k a) = true) ∧
      (∀ x ∈ r.addrs, lt (k x) (k a) = false) ∧ StrictLeft lt k l ∧ StrictLeft lt k r

/-- The `set<int>{5, 3, 8, 1, 4}` of the scenario, in the memory it was built in. -/
def exSet : Mem Nat × RBTree :=
  (insertItems ltN true [5, 3, 8, 1, 4] (RBTree.mk0 Mem.init)).getD (RBTree.mk0 Mem.init)

/-- The shape of `exSet`. -/
def shSet : Sh :=
  Sh.node (Sh.node (Sh.node Sh.nil 4 Sh.nil) 2 (Sh.node Sh.nil 5 Sh.nil)) 1
    (Sh.node Sh.nil 3 Sh.nil)

/-- The `multiset<int>{3, 3, 3}`, in the memory it was built in. -/
def exDup : Mem Nat × RBTree :=
  (insertItems ltN false [3, 3, 3] (RBTree.mk0 Mem.init)).getD (RBTree.mk0 Mem.init)

/-- The shape of `exDup`. -/
def shDup : Sh := Sh.node (Sh.node Sh.nil 1 Sh.nil) 2 (Sh.node Sh.nil 3 Sh.nil)

/-- Method `RBTree::DeleteByKey`; `delete` leaves the memory as it is. -/
def DeleteByKey (lt : K → K → Bool) (m : Mem K) (t : RBTree) (key : K) :
    Option (Mem K × RBTree) := do
  let node ← Find lt m t key
  if node = End t then pure (m, t)
  else do
    let r ← ExtractNode m t node
    pure (r.1, r.2.1)

/-- No two of the listed nodes hold equivalent keys. -/
def NoEquiv (lt : K → K → Bool) (k : Nat → K) (L : List Nat) : Prop :=
  L.Pairwise (fun a b => equiv lt (k a) (k b) = false)

/-- States of a tree reached from the empty tree by unique-mode `InsertKey` and `Erase`. -/
inductive ReachableUniq [Inhabited K] (lt : K → K → Bool) : Mem K → RBTree → Prop
  | init (m0 : Mem K) : ReachableUniq lt (RBTree.mk0 m0).1 (RBTree.mk0 m0).2
  | insert {m : Mem K} {t : RBTree} {m' : Mem K} {t' : RBTree} {it : Ptr} {ok : Bool}
      (key : K) : ReachableUniq lt m t →
      InsertKey lt m t key true = some (m', t', it, ok) → ReachableUniq lt m' t'
  | erase {m : Mem K} {t : RBTree} {m' : Mem K} {t' : RBTree} (pos : Ptr) :
      ReachableUniq lt m t →
      (pos = End t ∨ ∃ L a, toList m t = some L ∧ a ∈ L ∧ pos = some a) →
      Erase m t pos = some (m', t') → ReachableUniq lt m' t'

/-- Method `RBTree::Begin() const`: the minimum, without the test for the empty tree that the
non-const `Begin()` has. -/
def BeginConst (m : Mem K) (t : RBTree) : Option Ptr := do
  let node ← Minimum m t.header_
  pure (some node)

/-- The loop of `RBTree::operator==`:
`for (...; it != End(); ++it, ++itOther) if (*it != *itOther) return false;` then
`return true`. -/
def eqLoop [BEq K] (m : Mem K) (stop : Ptr) : Nat → Ptr → Ptr → Option Bool
  | 0, _, _ => none
  | fuel + 1, it, itOther =>
    if it = stop then some true
    else do
      let a ← it
      let b ← itOther
      if m.key_ a != m.key_ b then some false
      else do
        let na ← NextNode m a
        let nb ← NextNode m b
        eqLoop m stop fuel na nb

/-- Method `RBTree::operator==`. -/
def opEq [BEq K] (m : Mem K) (t other : RBTree) : Option Bool :=
  if Size t ≠ Size other then some false
  else do
    let it ← BeginConst m t
    let itOther ← BeginConst m other
    eqLoop m (End t) (m.next + 1) it itOther

/-- The loop of `RBTree::operator!=`:
`for (...; it != End(); ++it, ++itOther) if (*it != *itOther) return true;` then
`return false`. -/
def neLoop [BEq K] (m : Mem K) (stop : Ptr) : Nat → Ptr → Ptr → Option Bool
  | 0, _, _ => none
  | fuel + 1, it, itOther =>
    if it = stop then some false
    else do
      let a ← it
      let b ← itOther
      if m.key_ a != m.key_ b then some true
      else do
        let na ← NextNode m a
        let nb ← NextNode m b
        neLoop m stop fuel na nb

/-- Method `RBTree::operator!=`. -/
def opNe [BEq K] (m : Mem K) (t other : RBTree) : Option Bool :=
  if Size t ≠ Size other then some true
  else do
    let it ← BeginConst m t
    let itOther ← BeginConst m other
    neLoop m (End t) (m.next + 1) it itOther

/-- Method `RBTree::DeleteSubTree`: the recursion visits the whole subtree; `delete` leaves
the memory as it is, so the result says only that the recursion has returned. -/
def DeleteSubTree (m : Mem K) : Nat → Ptr → Option Unit
  | _, none => some ()
  | 0, some _ => none
  | fuel + 1, some n =>
    match DeleteSubTree m fuel (m.left_ n) with
    | none => none
    | some _ => DeleteSubTree m fuel (m.right_ n)

/-- Method `RBTree::Clear`. -/
def Clear (m : Mem K) (t : RBTree) : Option (Mem K × RBTree) :=
  match DeleteSubTree m m.next (Root m t.header_) with
  | none => none
  | some _ => some (m.setParent t.header_ none, { t with size_ := 0 })

/-- Method `RBTree::Swap` on the pair `(*this, other)`: header and size change hands (the
comparator is ambient). -/
def Swap (t other : RBTree) : RBTree × RBTree :=
  ({ header_ := other.header_, size_ := other.size_ },
   { header_ := t.header_, size_ := t.size_ })

/-- One guarded line of the `try` block of `CopyNodes`,
`if (node->left_) copy->left_ = CopyNodes(node->left_, copy);` or its twin for `right_`:
`cp` is the recursive call and `setLink` the write of the link. The flag of the result says
whether the call threw. -/
def copyChild (cp : Mem K → Nat → Ptr → Option (Mem K × Ptr))
    (setLink : Mem K → Nat → Ptr → Mem K) (m : Mem K) (child : Ptr) (copy : Nat) :
    Option (Mem K × Bool) :=
  match child with
  | some c =>
    match cp m c (some copy) with
    | none => none
    | some (m1, some cc) => some (setLink m1 copy (some cc), false)
    | some (m1, none) => some (m1, true)
  | none => some (m, false)

/-- The `catch (...)` block of `CopyNodes`: `DeleteSubTree(copy); throw;`. -/
def copyCatch (m : Mem K) (copy : Nat) : Option (Mem K × Ptr) :=
  (DeleteSubTree m m.next (some copy)).map (fun _ => (m, none))

/-- Method `RBTree::CopyNodes`. The predicate `throws` says for which keys the copy
constructor of the key type raises an exception. The result is the memory and the `Node*`
returned, with `none` in its place when an exception leaves the function: either
`new Node{node->key_}` threw, or a recursive call threw and the `catch` block ran. -/
def CopyNodes (throws : K → Bool) : Nat → Mem K → Nat → Ptr → Option (Mem K × Ptr)
  | 0, _, _, _ => none
  | fuel + 1, m, node, parent =>
    if throws (m.key_ node) then some (m, none)
    else
      let copy := m.next
      let m1 := (m.newNode (m.key_ node)).1
      let m2 := m1.setRed copy (m1.red_ node)
      match copyChild (CopyNodes throws fuel) Mem.setLeft m2 (m2.left_ node) copy with
      | none => none
      | some (m3, true) => copyCatch m3 copy
      | some (m3, false) =>
        match copyChild (CopyNodes throws fuel) Mem.setRight m3 (m3.right_ node) copy with
        | none => none
        | some (m4, true) => copyCatch m4 copy
        | some (m4, false) => some (m4.setParent copy parent, some copy)

/-- Method `RBTree::CopyTree`. The last component of the result says whether an exception
left the function. -/
def CopyTree (throws : K → Bool) (m : Mem K) (t other : RBTree) :
    Option (Mem K × RBTree × Bool) :=
  if Size other = 0 then some (m, t, false)
  else
    match Root m other.header_ with
    | none => none
    | some root =>
      match CopyNodes throws m.next m root none with
      | none => none
      | some (m1, none) => some (m1, t, true)
      | some (m1, some c) =>
        match Clear m1 t with
        | none => none
        | some (m2, t2) =>
          let m3 := m2.setParent t2.header_ (some c)
          match Root m3 t2.header_ with
          | none => none
          | some rt => some (m3.setParent rt (some t2.header_),
              { t2 with size_ := other.size_ }, false)

/-- Copy constructor `RBTree(const RBTree& other)`: a fresh header, size 0, then
`CopyTree(other)`. -/
def copyConstruct [Inhabited K] (throws : K → Bool) (m : Mem K) (other : RBTree) :
    Option (Mem K × RBTree × Bool) :=
  CopyTree throws (RBTree.mk0 m).1 (RBTree.mk0 m).2 other

/-- Destructor `~RBTree()`: `Clear()`, then the header is deleted (the memory stays as it
is). -/
def destroy (m : Mem K) (t : RBTree) : Option (Mem K) :=
  (Clear m t).map (fun r => r.1)

/-- The statement `return *this;` of the two assignment operators, whose return type is
`RBTree` by value: a temporary is copy-constructed from `*this` and destroyed at the end of
the full expression. The tree object `t` itself is handed back. -/
def returnCopy [Inhabited K] (throws : K → Bool) (m : Mem K) (t : RBTree) :
    Option (Mem K × RBTree × Bool) :=
  match copyConstruct throws m t with
  | none => none
  | some (m1, _, true) => some (m1, t, true)
  | some (m1, tmp, false) => (destroy m1 tmp).map (fun m2 => (m2, t, false))

/-- Copy assignment `operator=(const RBTree& other)`; two tree objects are the same object
exactly when they have the same header. -/
def copyAssign [Inhabited K] (throws : K → Bool) (m : Mem K) (t other : RBTree) :
    Option (Mem K × RBTree × Bool) :=
  if t.header_ = other.header_ then returnCopy throws m t
  else
    match Clear m t with
    | none => none
    | some (m1, t1) =>
      match CopyTree throws m1 t1 other with
      | none => none
      | some (m2, t2, true) => some (m2, t2, true)
      | some (m2, t2, false) => returnCopy throws m2 t2

/-- Move constructor `RBTree(RBTree&& other)`: the default constructor, then `Swap(other)`.
The result is the memory, the new tree object and `other`. -/
def moveConstruct [Inhabited K] (m : Mem K) (other : RBTree) : Mem K × RBTree × RBTree :=
  ((RBTree.mk0 m).1, Swap (RBTree.mk0 m).2 other)

/-- Move assignment `operator=(RBTree&& other) noexcept`: the result is the memory and the
two tree objects `(*this, other)`. An exception raised by the copy of `return *this;` cannot
leave a `noexcept` function, the program ends: no result. -/
def moveAssign [Inhabited K] (throws : K → Bool) (m : Mem K) (t other : RBTree) :
    Option (Mem K × RBTree × RBTree) :=
  if t.header_ = other.header_ then
    match returnCopy throws m t with
    | some (m1, t1, false) => some (m1, t1, other)
    | _ => none
  else
    match Clear m t with
    | none => none
    | some (m1, t1) =>
      match returnCopy throws m1 (Swap t1 other).1 with
      | some (m2, t2, false) => some (m2, t2, (Swap t1 other).2)
      | _ => none

/-- The memory `m'` has the fields of `m` at every address satisfying `S`. -/
structure AgreeOn (S : Nat → Prop) (m m' : Mem K) : Prop where
  parent : ∀ x, S x → m'.parent_ x = m.parent_ x
  left : ∀ x, S x → m'.left_ x = m.left_ x
  right : ∀ x, S x → m'.right_ x = m.right_ x
  red : ∀ x, S x → m'.red_ x = m.red_ x
  key : ∀ x, S x → m'.key_ x = m.key_ x

/-- The shape of the copy that `CopyNodes` builds when the next free address is `n`: the
nodes are allocated in pre-order. -/
def copySh : Nat → Sh → Sh
  | _, Sh.nil => Sh.nil
  | n, Sh.node l _ r => Sh.node (copySh (n + 1) l) n (copySh (n + 1 + l.addrs.length) r)

/-- Two shapes of the same form whose nodes have the same colours place by place. -/
def ColEq (red red' : Nat → Bool) : Sh → Sh → Prop
  | Sh.nil, Sh.nil => True
  | Sh.node l a r, Sh.node l' a' r' =>
    red' a' = red a ∧ ColEq red red' l l' ∧ ColEq red red' r r'
  | _, _ => False

/-- In the memory `m'` the shape `c'` is a copy of the shape `c` of the memory `m`: linked
below `par`, with the same keys in the same order and the same colours. -/
structure IsCopy (m m' : Mem K) (c c' : Sh) (par : Ptr) : Prop where
  rep : Rep m'.parent_ m'.left_ m'.right_ c' par
  keys : c'.addrs.map m'.key_ = c.addrs.map m.key_
  col : ColEq m.red_ m'.red_ c c'

/-- The first two statements of `CopyNodes`: the copy is allocated and takes the colour of
the node. -/
def copyInit (m : Mem K) (node : Nat) : Mem K :=
  (m.newNode (m.key_ node)).1.setRed m.next ((m.newNode (m.key_ node)).1.red_ node)

/-- What `CopyNodes` has built in `m'` from the subtree `s` of `m`. -/
structure CopyPost (m m' : Mem K) (s : Sh) (par : Ptr) : Prop where
  next : m'.next = m.next + s.addrs.length
  agree : AgreeOn (fun x => x < m.next) m m'
  copy : IsCopy m m' s (copySh m.next s) par

/-- The state of `CopyNodes` between the lines of its `try` block: the copy `m.next` of the
node `a` with the subtrees built so far. -/
structure CopyMid (m m' : Mem K) (a : Nat) (l r : Sh) (base : Nat) : Prop where
  next : m'.next = base + r.addrs.length
  agree : AgreeOn (fun x => x < m.next) m m'
  left : m'.left_ m.next = (copySh (m.next + 1) l).ptr
  right : m'.right_ m.next = (copySh base r).ptr
  red : m'.red_ m.next = m.red_ a
  key : m'.key_ m.next = m.key_ a
  copyL : IsCopy m m' l (copySh (m.next + 1) l) (some m.next)
  copyR : IsCopy m m' r (copySh base r) (some m.next)

/-- The `set<int>{10, 20}`, built in the memory that already holds `exSet`. -/
def exDest : Mem Nat × RBTree :=
  (insertItems ltN true [10, 20] (RBTree.mk0 exSet.1)).getD (RBTree.mk0 exSet.1)

/-- The shape of `exDest`. -/
def shDest : Sh := Sh.node Sh.nil 7 (Sh.node Sh.nil 8 Sh.nil)

/-- A second empty tree, built in the memory that already holds the empty tree
`(RBTree.mk0 Mem.init).2`. -/
def exEmpty : Mem Nat × RBTree := RBTree.mk0 (RBTree.mk0 Mem.init).1

/-- Every link stored at an address of `S` points into `S`. -/
structure Closed (S : Nat → Prop) (m : Mem K) : Prop where
  parent : ∀ {a b}, S a → m.parent_ a = some b → S b
  left : ∀ {a b}, S a → m.left_ a = some b → S b
  right : ∀ {a b}, S a → m.right_ a = some b → S b

/-- The memory `m'` comes from `m` by writes inside the set `S`, which is closed in `m'`:
nothing outside `S` has changed, no key has changed, nothing was allocated. -/
structure Local (S : Nat → Prop) (m m' : Mem K) : Prop where
  closed : Closed S m'
  agree : AgreeOn (fun x => ¬ S x) m m'
  next : m'.next = m.next
  key : m'.key_ = m.key_

/-- A pointer that is null or inside `S`. -/
def InS (S : Nat → Prop) (p : Ptr) : Prop := ∀ b, p = some b → S b

/-- The `while (it != other.End())` loop of `RBTree::Merge`; the state is the memory, the two
tree objects `(*this, other)` and the iterator `it` on `other`. -/
def MergeLoop (lt : K → K → Bool) :
    Nat → Mem K → RBTree → RBTree → Ptr → Option (Mem K × RBTree × RBTree)
  | 0, _, _, _, _ => none
  | fuel + 1, m, t, other, it =>
    if it ≠ End other then do
      let cur ← it
      let res ← Find lt m t (m.key_ cur)
      if res = End t then do
        let nxt ← NextNode m cur
        let r ← ExtractNode m other (some cur)
        let node ← r.2.2
        let r2 ← InsertNode lt r.1 t node true
        MergeLoop lt fuel r2.1 r2.2.1 r.2.1 nxt
      else do
        let nxt ← NextNode m cur
        MergeLoop lt fuel m t other nxt
    else some (m, t, other)

/-- Method `RBTree::Merge`: the result is the memory and the two tree objects
`(*this, other)`; two tree objects are the same object exactly when they have the same
header. -/
def Merge (lt : K → K → Bool) (m : Mem K) (t other : RBTree) :
    Option (Mem K × RBTree × RBTree) :=
  if t.header_ ≠ other.header_ then do
    let it ← Begin m other
    MergeLoop lt m.next m t other it
  else some (m, t, other)

/-- The `while (other.size_ > 0)` loop of `RBTree::MergeMulti`, for two distinct tree
objects; the state is the memory, the two tree objects `(*this, other)` and the iterator `it`
on `other`. -/
def MergeMultiLoop (lt : K → K → Bool) :
    Nat → Mem K → RBTree → RBTree → Ptr → Option (Mem K × RBTree × RBTree)
  | 0, _, _, _, _ => none
  | fuel + 1, m, t, other, it =>
    if other.size_ > 0 then do
      let node ← it
      let nxt ← NextNode m node
      let m := match m.left_ node with
        | some l => m.setParent l (m.parent_ node)
        | none => m
      let m := match m.right_ node with
        | some r => m.setParent r (m.parent_ node)
        | none => m
      let p ← m.parent_ node
      let m := if m.left_ p = some node then m.setLeft p none else m
      let p ← m.parent_ node
      let m := if m.right_ p = some node then m.setRight p none else m
      let m := m.InitNode node
      let r ← InsertNode lt m t node false
      MergeMultiLoop lt fuel r.1 r.2.1 { other with size_ := other.size_ - 1 } nxt
    else some (m, t, other)

/-- Method `RBTree::MergeMulti`, for two distinct tree objects: the result is the memory and
the two tree objects `(*this, other)`. The loop runs `other.size_` times. -/
def MergeMulti (lt : K → K → Bool) (m : Mem K) (t other : RBTree) :
    Option (Mem K × RBTree × RBTree) := do
  let it ← Begin m other
  let r ← MergeMultiLoop lt (other.size_ + 1) m t other it
  pure (r.1.setParent r.2.2.header_ none, r.2.1, r.2.2)

/-- Left side of the `ExtractFixup` loop, red brother: colour swap, rotation, and the new
`parent` and `brother`. -/
def efRedL (m : Mem K) (hdr del p brother : Nat) : Option (Mem K × Nat × Nat) :=
  if m.red_ brother then do
    let m := (m.setRed brother (m.red_ p)).setRed p (m.red_ brother)
    let m ← RotateLeft m hdr p
    let p1 ← m.parent_ del
    let b1 ← m.right_ p1
    pure (m, p1, b1)
  else pure (m, p, brother)

/-- Left side of the `ExtractFixup` loop, black brother whose near child is red and far child
black: colour swap, rotation, and the new `brother`. -/
def efNearL (m : Mem K) (hdr p brother : Nat) : Option (Mem K × Nat) :=
  if m.nonNullRed (m.left_ brother) ∧ m.nullOrBlack (m.right_ brother) then do
    let bl ← m.left_ brother
    let m := (m.setRed brother (m.red_ bl)).setRed bl (m.red_ brother)
    let m ← RotateRight m hdr brother
    let b1 ← m.right_ p
    pure (m, b1)
  else pure (m, brother)

/-- Left side of the `ExtractFixup` loop after the red-brother step; `loop` is the next round
of the loop. -/
def efRestL (hdr : Nat) (loop : Mem K → Nat → Ptr → Option (Mem K)) (m : Mem K)
    (p brother : Nat) : Option (Mem K) :=
  if m.red_ brother = false ∧ m.nullOrBlack (m.left_ brother) ∧
      m.nullOrBlack (m.right_ brother) then
    let m := m.setRed brother true
    if m.red_ p = true then pure (m.setRed p false)
    else loop m p (m.parent_ p)
  else do
    let (m, brother) ← efNearL m hdr p brother
    let br ← m.right_ brother
    let m := m.setRed br false
    let m := m.setRed brother (m.red_ p)
    let m := m.setRed p false
    RotateLeft m hdr p

/-- Right side of the `ExtractFixup` loop, red brother. -/
def efRedR (m : Mem K) (hdr del p brother : Nat) : Option (Mem K × Nat × Nat) :=
  if m.red_ brother then do
    let m := (m.setRed brother (m.red_ p)).setRed p (m.red_ brother)
    let m ← RotateRight m hdr p
    let p1 ← m.parent_ del
    let b1 ← m.left_ p1
    pure (m, p1, b1)
  else pure (m, p, brother)

/-- Right side of the `ExtractFixup` loop, black brother whose near child is red and far
child black. -/
def efNearR (m : Mem K) (hdr p brother : Nat) : Option (Mem K × Nat) :=
  if m.nonNullRed (m.right_ brother) ∧ m.nullOrBlack (m.left_ brother) then do
    let br ← m.right_ brother
    let m := (m.setRed brother (m.red_ br)).setRed br (m.red_ brother)
    let m ← RotateLeft m hdr brother
    let b1 ← m.left_ p
    pure (m, b1)
  else pure (m, brother)

/-- Right side of the `ExtractFixup` loop after the red-brother step. -/
def efRestR (hdr : Nat) (loop : Mem K → Nat → Ptr → Option (Mem K)) (m : Mem K)
    (p brother : Nat) : Option (Mem K) :=
  if m.red_ brother = false ∧ m.nullOrBlack (m.left_ brother) ∧
      m.nullOrBlack (m.right_ brother) then
    let m := m.setRed brother true
    if m.red_ p = true then pure (m.setRed p false)
    else loop m p (m.parent_ p)
  else do
    let (m, brother) ← efNearR m hdr p brother
    let bl ← m.left_ brother
    let m := m.setRed bl false
    let m := m.setRed brother (m.red_ p)
    let m := m.setRed p false
    RotateRight m hdr p

/-- The node `x` has a key equivalent to the key of one of the nodes of `L`. -/
def heldIn (lt : K → K → Bool) (k : Nat → K) (L : List Nat) (x : Nat) : Bool :=
  L.any (fun n => equiv lt (k n) (k x))

/-- The memory after `RBTree::MergeMulti` has cut out the node `a`, which has no left child,
the right child `r`, and the parent `up` whose right link does not lead to `a`: the parent
link of `r`, the left link of `up`, `InitNode`. -/
def cutOut (m : Mem K) (a : Nat) (r : Ptr) (up : Nat) : Mem K :=
  let m1 := match r with
    | some x => m.setParent x (some up)
    | none => m
  let m2 := if m.left_ up = some a then m1.setLeft up none else m1
  m2.InitNode a

/-- The nodes of a path with their right subtrees, in order. -/
def spineAddrs : List (Nat × Sh) → List Nat
  | [] => []
  | (a, r) :: rest => a :: r.addrs ++ spineAddrs rest

/-- The lowest node of a path, or `top` when the path is empty. -/
def spineTop (top : Nat) : List (Nat × Sh) → Nat
  | [] => top
  | (b, _) :: _ => b

/-- The links of memory realise the path `sp`, listed from its lowest node up to the node
below `top`: every node points up to the next one and down to its right subtree, and the left
link of the next one leads back or is null. -/
def SpineRep (P L R : Nat → Ptr) (top : Nat) : List (Nat × Sh) → Prop
  | [] => True
  | (a, r) :: rest => P a = some (spineTop top rest) ∧ R a = r.ptr ∧ Rep P L R r (some a) ∧
      (L (spineTop top rest) = some a ∨ L (spineTop top rest) = none) ∧ SpineRep P L R top rest

/-- The lowest node of the path has no left child. -/
def headLeftNone (L : Nat → Ptr) : List (Nat × Sh) → Prop
  | [] => True
  | (a, _) :: _ => L a = none

/-- The path from the leftmost node of `s` up to its root, followed by `acc`. -/
def leftSpine : Sh → List (Nat × Sh) → List (Nat × Sh)
  | Sh.nil, acc => acc
  | Sh.node l a r, acc => leftSpine l ((a, r) :: acc)

/-- What is left of `other` while `MergeMulti` runs. -/
structure Spine (m : Mem K) (hdr : Nat) (sp : List (Nat × Sh)) : Prop where
  rep : SpineRep m.parent_ m.left_ m.right_ hdr sp
  head : headLeftNone m.left_ sp
  hleft : m.left_ hdr = none
  hright : m.right_ hdr = none
  nodup : (hdr :: spineAddrs sp).Nodup
  bound : ∀ a ∈ hdr :: spineAddrs sp, a < m.next

/-- The `set<int>{4, 10, 3}`, built in the memory that already holds `exSet`. -/
def exOther : Mem Nat × RBTree :=
  (insertItems ltN true [4, 10, 3] (RBTree.mk0 exSet.1)).getD (RBTree.mk0 exSet.1)

/-- The shape of `exOther`. -/
def shOther : Sh := Sh.node (Sh.node Sh.nil 9 Sh.nil) 7 (Sh.node Sh.nil 8 Sh.nil)

/-- A context made of right frames only (a right spine). -/
def AllRight : List Frame → Prop
  | [] => True
  | Frame.right _ _ :: c => AllRight c
  | Frame.left _ _ :: _ => False

/-- The node before the hole of a context in in-order, the header if there is none. -/
def ctxPrev (hdr : Nat) : List Frame → Nat
  | [] => hdr
  | Frame.right _ a :: _ => a
  | Frame.left _ _ :: c => ctxPrev hdr c

/-- The recursive in-order traversal of the nodes under the pointer: the left subtree, the
node, the right subtree. -/
def inorder (m : Mem K) : Nat → Ptr → Option (List Nat)
  | _, none => some []
  | 0, some _ => none
  | fuel + 1, some n => do
    let l ← inorder m fuel (m.left_ n)
    let r ← inorder m fuel (m.right_ n)
    pure (l ++ n :: r)

/-- The number of nodes reached from the pointer along `left_` and `right_` links. -/
def countNodes (m : Mem K) : Nat → Ptr → Option Nat
  | _, none => some 0
  | 0, some _ => none
  | fuel + 1, some n => do
    let l ← countNodes m fuel (m.left_ n)
    let r ← countNodes m fuel (m.right_ n)
    pure (l + r + 1)

/-- The iterator after `n` applications of `operator++`. -/
def advance (m : Mem K) : Nat → Ptr → Option Ptr
  | 0, it => some it
  | n + 1, it => do
    let a ← it
    let nxt ← NextNode m a
    advance m n nxt

/-- The iterator after `n` applications of `operator--`. -/
def retreat (m : Mem K) : Nat → Ptr → Option Ptr
  | 0, it => some it
  | n + 1, it => do
    let a ← it
    let prv ← PrevNode m a
    retreat m n prv

/-- Consistency of the links of the tree whose nodes are `L`: the header's parent is null
exactly when there is no node; the root's parent is the header; the children of a node point
back to it and are nodes of the tree; every node has a parent, the header or a node. -/
def LinksOK (m : Mem K) (hdr : Nat) (L : List Nat) : Prop :=
  (m.parent_ hdr = none ↔ L = []) ∧
  (∀ r, Root m hdr = some r → m.parent_ r = some hdr ∧ r ∈ L) ∧
  (∀ n ∈ L, (∀ c, m.left_ n = some c → m.parent_ c = some n ∧ c ∈ L) ∧
    (∀ c, m.right_ n = some c → m.parent_ c = some n ∧ c ∈ L) ∧
    m.parent_ n ≠ none ∧ ∃ p, m.parent_ n = some p ∧ (p = hdr ∨ p ∈ L))

/-- The paths from the pointer down to a null link, each as the list of its nodes, top
first. -/
def rootPaths (m : Mem K) : Nat → Ptr → Option (List (List Nat))
  | _, none => some [[]]
  | 0, some _ => none
  | fuel + 1, some n => do
    let l ← rootPaths m fuel (m.left_ n)
    let r ← rootPaths m fuel (m.right_ n)
    pure ((l ++ r).map (fun p => n :: p))

/-- The number of black nodes of a path. -/
def blacks (m : Mem K) (p : List Nat) : Nat :=
  (p.filter (fun a => !m.red_ a)).length

/-- The paths of a shape from its root down to a null link. -/
def Sh.paths : Sh → List (List Nat)
  | Sh.nil => [[]]
  | Sh.node l a r => (l.paths ++ r.paths).map (fun p => a :: p)

/-- The `set<int>{5}`, in the memory it was built in. -/
def exOne : Mem Nat × RBTree :=
  (insertItems ltN true [5] (RBTree.mk0 Mem.init)).getD (RBTree.mk0 Mem.init)

/-- The shape of `exOne`. -/
def shOne : Sh := Sh.node Sh.nil 1 Sh.nil

/-- The cells of a tree object: its header and the nodes of its iteration. -/
def cells (m : Mem K) (t : RBTree) : List Nat := t.header_ :: (toList m t).getD []

/-- A tree that satisfies the invariant and whose keys are in order. -/
def Good (lt : K → K → Bool) (m : Mem K) (t : RBTree) : Prop :=
  ∃ sh, Inv m t sh ∧ Ordered lt m.key_ sh.addrs

/-- The invariant of the live trees of a program: each one is good, and no two of them share
a cell. -/
def WorldInv (lt : K → K → Bool) (m : Mem K) (ts : List RBTree) : Prop :=
  (∀ t ∈ ts, Good lt m t) ∧ ts.Pairwise (fun t u => ∀ x ∈ cells m t, x ∉ cells m u)

/-- The states a program reaches from the empty memory: the memory and the tree objects that
are alive. Trees are made by the default constructor, the copy constructor and the move
constructor, and changed by `InsertKey` (either mode, accepted or rejected), `Erase` (at
`End()` or at a node of the tree), `DeleteByKey`, `Clear`, `Merge`, `MergeMulti` (between two
different trees), `Swap`, the copy and the move assignment; a tree can be destroyed. The
operations act on the first trees of the list, which can be put in any order. A copy whose
key copy throws leaves the state it leaves (`throws` says which keys throw when copied). -/
inductive World [Inhabited K] (lt : K → K → Bool) : Mem K → List RBTree → Prop
  | init : World lt Mem.init []
  | reorder {m : Mem K} {ts ts' : List RBTree} : World lt m ts → ts.Perm ts' → World lt m ts'
  | create {m : Mem K} {ts : List RBTree} : World lt m ts →
      World lt (RBTree.mk0 m).1 ((RBTree.mk0 m).2 :: ts)
  | destroy {m m' : Mem K} {t : RBTree} {ts : List RBTree} : World lt m (t :: ts) →
      destroy m t = some m' → World lt m' ts
  | insert {m m' : Mem K} {t t' : RBTree} {ts : List RBTree} {it : Ptr} {ok : Bool} (key : K)
      (uniq : Bool) : World lt m (t :: ts) →
      InsertKey lt m t key uniq = some (m', t', it, ok) → World lt m' (t' :: ts)
  | erase {m m' : Mem K} {t t' : RBTree} {ts : List RBTree} (pos : Ptr) :
      World lt m (t :: ts) →
      (pos = End t ∨ ∃ L a, toList m t = some L ∧ a ∈ L ∧ pos = some a) →
      Erase m t pos = some (m', t') → World lt m' (t' :: ts)
  | deleteByKey {m m' : Mem K} {t t' : RBTree} {ts : List RBTree} (key : K) :
      World lt m (t :: ts) → DeleteByKey lt m t key = some (m', t') → World lt m' (t' :: ts)
  | clear {m m' : Mem K} {t t' : RBTree} {ts : List RBTree} : World lt m (t :: ts) →
      Clear m t = some (m', t') → World lt m' (t' :: ts)
  | merge {m m' : Mem K} {t u t' u' : RBTree} {ts : List RBTree} :
      World lt m (t :: u :: ts) → Merge lt m t u = some (m', t', u') →
      World lt m' (t' :: u' :: ts)
  | mergeSelf {m m' : Mem K} {t t' u' : RBTree} {ts : List RBTree} :
      World lt m (t :: ts) → Merge lt m t t = some (m', t', u') → World lt m' (t' :: ts)
  | mergeMulti {m m' : Mem K} {t u t' u' : RBTree} {ts : List RBTree} :
      World lt m (t :: u :: ts) → MergeMulti lt m t u = some (m', t', u') →
      World lt m' (t' :: u' :: ts)
  | swap {m : Mem K} {t u : RBTree} {ts : List RBTree} : World lt m (t :: u :: ts) →
      World lt m ((Swap t u).1 :: (Swap t u).2 :: ts)
  | copyConstruct {m m' : Mem K} {t c : RBTree} {ts : List RBTree} (throws : K → Bool) :
      World lt m (t :: ts) → copyConstruct throws m t = some (m', c, false) →
      World lt m' (c :: t :: ts)
  | copyConstructThrow {m m' : Mem K} {t c : RBTree} {ts : List RBTree} (throws : K → Bool) :
      World lt m (t :: ts) → copyConstruct throws m t = some (m', c, true) →
      World lt m' (t :: ts)
  | copyAssign {m m' : Mem K} {d t d' : RBTree} {ts : List RBTree} {flag : Bool}
      (throws : K → Bool) : World lt m (d :: t :: ts) →
      copyAssign throws m d t = some (m', d', flag) → World lt m' (d' :: t :: ts)
  | copyAssignSelf {m m' : Mem K} {t t' : RBTree} {ts : List RBTree} {flag : Bool}
      (throws : K → Bool) : World lt m (t :: ts) →
      copyAssign throws m t t = some (m', t', flag) → World lt m' (t' :: ts)
  | moveConstruct {m m' : Mem K} {t a t' : RBTree} {ts : List RBTree} :
      World lt m (t :: ts) → moveConstruct m t = (m', a, t') → World lt m' (a :: t' :: ts)
  | moveAssign {m m' : Mem K} {d t d' t' : RBTree} {ts : List RBTree} (throws : K → Bool) :
      World lt m (d :: t :: ts) → moveAssign throws m d t = some (m', d', t') →
      World lt m' (d' :: t' :: ts)
  | moveAssignSelf {m m' : Mem K} {t t' t'' : RBTree} {ts : List RBTree}
      (throws : K → Bool) : World lt m (t :: ts) →
      moveAssign throws m t t = some (m', t', t'') → World lt m' (t' :: ts)

/-- The loop of `Insert_Many` (`uniq = true`) and of `Insert_Many_Multi` (`uniq = false`) over
the arguments: `new Node(arg)`, `InsertNode(newNode, uniq)`, `delete newNode` when the
insertion is refused (the memory stays as it is), `res.push_back(in)`. -/
def InsertManyLoop (lt : K → K → Bool) (uniq : Bool) :
    List K → Mem K → RBTree → List (Ptr × Bool) → Option (Mem K × RBTree × List (Ptr × Bool))
  | [], m, t, res => some (m, t, res)
  | arg :: args, m, t, res => do
    let a := m.newNode arg
    let r ← InsertNode lt a.1 t a.2 uniq
    InsertManyLoop lt uniq args r.1 r.2.1 (res ++ [r.2.2])

/-- Method `RBTree::Insert_Many(args...)`: the memory, the tree object and the vector of
pairs `(iterator, bool)`. -/
def Insert_Many (lt : K → K → Bool) (m : Mem K) (t : RBTree) (args : List K) :
    Option (Mem K × RBTree × List (Ptr × Bool)) :=
  InsertManyLoop lt true args m t []

/-- Method `RBTree::Insert_Many_Multi(args...)`. -/
def Insert_Many_Multi (lt : K → K → Bool) (m : Mem K) (t : RBTree) (args : List K) :
    Option (Mem K × RBTree × List (Ptr × Bool)) :=
  InsertManyLoop lt false args m t []

/-- What `Insert_Many` is compared with: the calls `InsertKey(k1, uniq)`, ...,
`InsertKey(kn, uniq)` made one after another, with the pairs they return, in the order of
the calls. -/
def insertEach (lt : K → K → Bool) (uniq : Bool) :
    List K → Mem K → RBTree → Option (Mem K × RBTree × List (Ptr × Bool))
  | [], m, t => some (m, t, [])
  | k :: ks, m, t => do
    let r ← InsertKey lt m t k uniq
    let s ← insertEach lt uniq ks r.1 r.2.1
    pure (s.1, s.2.1, r.2.2 :: s.2.2)

/-- The keys in iteration order after `InsertKey(k, uniq)`, in terms of the keys `KA` before:
in unique mode a key equivalent to one of `KA` changes nothing; otherwise `k` goes after the
keys that are not greater and before the greater ones. -/
def insKey (lt : K → K → Bool) (uniq : Bool) (KA : List K) (k : K) : List K :=
  if uniq && KA.any (fun x => equiv lt x k) then KA
  else KA.takeWhile (fun x => !lt k x) ++ k :: KA.dropWhile (fun x => !lt k x)

/-- The flags that the successive insertions of `ks` return, from the keys `KA` before. -/
def flagsOf (lt : K → K → Bool) (uniq : Bool) : List K → List K → List Bool
  | _, [] => []
  | KA, k :: ks =>
    (!(uniq && KA.any (fun x => equiv lt x k))) :: flagsOf lt uniq (insKey lt uniq KA k) ks

/-- The proper ancestors of a node, nearest first: the nodes met on the way up the parent
links, the header left out. -/
def ancestors (m : Mem K) (hdr : Nat) : Nat → Nat → List Nat
  | 0, _ => []
  | fuel + 1, x =>
    match m.parent_ x with
    | some p => if p = hdr then [] else p :: ancestors m hdr fuel p
    | none => []

/-- The tree `{5, 3, 8, 1, 4}` after `SwapNodes` of the node of key 8 (the right child of the
root) with the node of key 3 (the left child of the root). -/
def exSwap : Mem Nat := (SwapNodes exSet.1 exSet.2.header_ 3 2).getD exSet.1

section Upd
variable {α : Type}

@[simp] theorem upd_same (f : Nat → α) (a : Nat) (v : α) : upd f a v a = v := by
  simp [upd]

@[simp] theorem upd_ne (f : Nat → α) {a x : Nat} (v : α) (h : x ≠ a) : upd f a v x = f x := by
  simp [upd, h]

@[simp] theorem upd_ne' (f : Nat → α) {a x : Nat} (v : α) (h : a ≠ x) : upd f a v x = f x := by
  simp [upd, Ne.symm h]

theorem upd_apply (f : Nat → α) (a x : Nat) (v : α) :
    upd f a v x = if x = a then v else f x := rfl

end Upd

namespace Mem

@[simp] theorem setParent_parent (m : Mem K) (a : Nat) (v : Ptr) :
    (m.setParent a v).parent_ = upd m.parent_ a v := rfl

@[simp] theorem setParent_left (m : Mem K) (a : Nat) (v : Ptr) :
    (m.setParent a v).left_ = m.left_ := rfl

@[simp] theorem setParent_right (m : Mem K) (a : Nat) (v : Ptr) :
    (m.setParent a v).right_ = m.right_ := rfl

@[simp] theorem setParent_red (m : Mem K) (a : Nat) (v : Ptr) :
    (m.setParent a v).red_ = m.red_ := rfl

@[simp] theorem setParent_key (m : Mem K) (a : Nat) (v : Ptr) :
    (m.setParent a v).key_ = m.key_ := rfl

@[simp] theorem setParent_next (m : Mem K) (a : Nat) (v : Ptr) :
    (m.setParent a v).next = m.next := rfl

@[simp] theorem setLeft_parent (m : Mem K) (a : Nat) (v : Ptr) :
    (m.setLeft a v).parent_ = m.parent_ := rfl

@[simp] theorem setLeft_left (m : Mem K) (a : Nat) (v : Ptr) :
    (m.setLeft a v).left_ = upd m.left_ a v := rfl

@[simp] theorem setLeft_right (m : Mem K) (a : Nat) (v : Ptr) :
    (m.setLeft a v).right_ = m.right_ := rfl

@[simp] theorem setLeft_red (m : Mem K) (a : Nat) (v : Ptr) :
    (m.setLeft a v).red_ = m.red_ := rfl

@[simp] theorem setLeft_key (m : Mem K) (a : Nat) (v : Ptr) :
    (m.setLeft a v).key_ = m.key_ := rfl

@[simp] theorem setLeft_next (m : Mem K) (a : Nat) (v : Ptr) :
    (m.setLeft a v).next = m.next := rfl

@[simp] theorem setRight_parent (m : Mem K) (a : Nat) (v : Ptr) :
    (m.setRight a v).parent_ = m.parent_ := rfl

@[simp] theorem setRight_left (m : Mem K) (a : Nat) (v : Ptr) :
    (m.setRight a v).left_ = m.left_ := rfl

@[simp] theorem setRight_right (m : Mem K) (a : Nat) (v : Ptr) :
    (m.setRight a v).right_ = upd m.right_ a v := rfl

@[simp] theorem setRight_red (m : Mem K) (a : Nat) (v : Ptr) :
    (m.setRight a v).red_ = m.red_ := rfl

@[simp] theorem setRight_key (m : Mem K) (a : Nat) (v : Ptr) :
    (m.setRight a v).key_ = m.key_ := rfl

@[simp] theorem setRight_next (m : Mem K) (a : Nat) (v : Ptr) :
    (m.setRight a v).next = m.next := rfl

@[simp] theorem setRed_parent (m : Mem K) (a : Nat) (v : Bool) :
    (m.setRed a v).parent_ = m.parent_ := rfl

@[simp] theorem setRed_left (m : Mem K) (a : Nat) (v : Bool) :
    (m.setRed a v).left_ = m.left_ := rfl

@[simp] theorem setRed_right (m : Mem K) (a : Nat) (v : Bool) :
    (m.setRed a v).right_ = m.right_ := rfl

@[simp] theorem setRed_red (m : Mem K) (a : Nat) (v : Bool) :
    (m.setRed a v).red_ = upd m.red_ a v := rfl

@[simp] theorem setRed_key (m : Mem K) (a : Nat) (v : Bool) :
    (m.setRed a v).key_ = m.key_ := rfl

@[simp] theorem setRed_next (m : Mem K) (a : Nat) (v : Bool) :
    (m.setRed a v).next = m.next := rfl

end Mem

namespace Sh

@[simp] theorem ptr_nil : ptr nil = none := rfl

@[simp] theorem ptr_node (l : Sh) (a : Nat) (r : Sh) : ptr (node l a r) = some a := rfl

@[simp] theorem addrs_nil : addrs nil = [] := rfl

@[simp] theorem addrs_node (l : Sh) (a : Nat) (r : Sh) :
    addrs (node l a r) = l.addrs ++ a :: r.addrs := rfl

@[simp] theorem depth_nil : depth nil = 0 := rfl

@[simp] theorem depth_node (l : Sh) (a : Nat) (r : Sh) :
    depth (node l a r) = max l.depth r.depth + 1 := rfl

theorem ptr_eq_none {s : Sh} : s.ptr = none ↔ s = nil := by
  cases s <;> simp

theorem ptr_mem {s : Sh} {a : Nat} (h : s.ptr = some a) : a ∈ s.addrs := by
  cases s with
  | nil => simp at h
  | node l b r => simp at h; simp [h]

theorem depth_le_length (s : Sh) : s.depth ≤ s.addrs.length := by
  induction s with
  | nil => simp
  | node l a r ihl ihr => simp; omega

end Sh

@[simp] theorem Rep_nil (P L R : Nat → Ptr) (par : Ptr) : Rep P L R Sh.nil par := trivial

theorem Rep_node (P L R : Nat → Ptr) (l : Sh) (a : Nat) (r : Sh) (par : Ptr) :
    Rep P L R (Sh.node l a r) par ↔
      (P a = par ∧ L a = l.ptr ∧ R a = r.ptr ∧ Rep P L R l (some a) ∧ Rep P L R r (some a)) :=
  Iff.rfl

theorem Rep_congr {P L R P' L' R' : Nat → Ptr} {s : Sh}
    (h : ∀ a ∈ s.addrs, P' a = P a ∧ L' a = L a ∧ R' a = R a) (par : Ptr) :
    Rep P' L' R' s par ↔ Rep P L R s par := by
  induction s generalizing par with
  | nil => simp
  | node l a r ihl ihr =>
    have ha := h a (by simp)
    have hl : ∀ x ∈ l.addrs, P' x = P x ∧ L' x = L x ∧ R' x = R x :=
      fun x hx => h x (by simp [hx])
    have hr : ∀ x ∈ r.addrs, P' x = P x ∧ L' x = L x ∧ R' x = R x :=
      fun x hx => h x (by simp [hx])
    simp only [Rep_node, ha.1, ha.2.1, ha.2.2, ihl hl, ihr hr]

@[simp] theorem Rep_updP {P L R : Nat → Ptr} {s : Sh} {x : Nat} (v par : Ptr)
    (h : x ∉ s.addrs) : Rep (upd P x v) L R s par ↔ Rep P L R s par :=
  Rep_congr (fun a ha => by
    have : a ≠ x := fun e => h (e ▸ ha)
    simp [this]) par

@[simp] theorem Rep_updL {P L R : Nat → Ptr} {s : Sh} {x : Nat} (v par : Ptr)
    (h : x ∉ s.addrs) : Rep P (upd L x v) R s par ↔ Rep P L R s par :=
  Rep_congr (fun a ha => by
    have : a ≠ x := fun e => h (e ▸ ha)
    simp [this]) par

@[simp] theorem Rep_updR {P L R : Nat → Ptr} {s : Sh} {x : Nat} (v par : Ptr)
    (h : x ∉ s.addrs) : Rep P L (upd R x v) s par ↔ Rep P L R s par :=
  Rep_congr (fun a ha => by
    have : a ≠ x := fun e => h (e ▸ ha)
    simp [this]) par

/-- Only the root's `parent_` link depends on the parent pointer. -/
theorem Rep_reparent {P L R : Nat → Ptr} {s : Sh} {par : Ptr} (par' : Ptr)
    (h : Rep P L R s par) (hnd : s.addrs.Nodup) :
    Rep (match s.ptr with | some x => upd P x par' | none => P) L R s par' := by
  cases s with
  | nil => simp
  | node l a r =>
    simp only [Sh.addrs_node, List.nodup_append, List.nodup_cons] at hnd
    obtain ⟨hl, ⟨har, hr⟩, hd⟩ := hnd
    have hal : a ∉ l.addrs := fun hx => List.disjoint_left.1 hd hx (by simp)
    obtain ⟨_, h2, h3, h4, h5⟩ := h
    simp only [Sh.ptr_node, Rep_node, upd_same, true_and]
    exact ⟨h2, h3, (Rep_updP _ _ hal).2 h4, (Rep_updP _ _ har).2 h5⟩

@[simp] theorem plug_nil (s : Sh) : plug [] s = s := rfl

@[simp] theorem plug_left (a : Nat) (r : Sh) (c : List Frame) (s : Sh) :
    plug (Frame.left a r :: c) s = plug c (Sh.node s a r) := rfl

@[simp] theorem plug_right (l : Sh) (a : Nat) (c : List Frame) (s : Sh) :
    plug (Frame.right l a :: c) s = plug c (Sh.node l a s) := rfl

@[simp] theorem ctxPar_nil (hdr : Nat) : ctxPar hdr [] = hdr := rfl

@[simp] theorem ctxPar_cons (hdr : Nat) (f : Frame) (c : List Frame) :
    ctxPar hdr (f :: c) = f.addr := rfl

@[simp] theorem Frame.addr_left (a : Nat) (r : Sh) : (Frame.left a r).addr = a := rfl

@[simp] theorem Frame.addr_right (l : Sh) (a : Nat) : (Frame.right l a).addr = a := rfl

theorem plug_addrs (c : List Frame) (s : Sh) :
    (plug c s).addrs = ctxBefore c ++ s.addrs ++ ctxAfter c := by
  induction c generalizing s with
  | nil => simp [ctxBefore, ctxAfter]
  | cons f c ih =>
    cases f with
    | left a r => simp [ih, ctxBefore, ctxAfter]
    | right l a => simp [ih, ctxBefore, ctxAfter]

theorem plug_ptr_cons (f : Frame) (c : List Frame) (s s' : Sh) :
    (plug (f :: c) s).ptr = (plug (f :: c) s').ptr := by
  induction c generalizing f s s' with
  | nil => cases f <;> simp
  | cons g c ih =>
    cases f with
    | left a r => exact ih g _ _
    | right l a => exact ih g _ _

theorem plug_append (c d : List Frame) (s : Sh) : plug (c ++ d) s = plug d (plug c s) := by
  induction c generalizing s with
  | nil => rfl
  | cons f c ih => cases f <;> simp [ih]

/-- Every address of a shape is the root of a subtree in some context. -/
theorem exists_plug_of_mem {s : Sh} {a : Nat} (h : a ∈ s.addrs) :
    ∃ c l r, s = plug c (Sh.node l a r) := by
  induction s with
  | nil => simp at h
  | node l b r ihl ihr =>
    simp only [Sh.addrs_node, List.mem_append, List.mem_cons] at h
    rcases h with h | h | h
    · obtain ⟨c, l', r', e⟩ := ihl h
      exact ⟨c ++ [Frame.left b r], l', r', by simp [plug_append, e]⟩
    · exact ⟨[], l, r, by simp [h]⟩
    · obtain ⟨c, l', r', e⟩ := ihr h
      exact ⟨c ++ [Frame.right l b], l', r', by simp [plug_append, e]⟩

theorem rep_plug {P L R : Nat → Ptr} {hdr : Nat} (c : List Frame) (s : Sh) :
    (P hdr = (plug c s).ptr ∧ Rep P L R (plug c s) (some hdr)) ↔
      (RepC P L R hdr c s.ptr ∧ Rep P L R s (some (ctxPar hdr c))) := by
  induction c generalizing s with
  | nil => simp [RepC]
  | cons f c ih =>
    cases f with
    | left a r =>
      simp only [plug_left, ih, RepC, Rep_node, Sh.ptr_node, ctxPar_cons, Frame.addr_left]
      tauto
    | right l a =>
      simp only [plug_right, ih, RepC, Rep_node, Sh.ptr_node, ctxPar_cons, Frame.addr_right]
      tauto

theorem plug_addrs_perm (c : List Frame) (s : Sh) :
    (plug c s).addrs.Perm (s.addrs ++ ctxAddrs c) := by
  induction c generalizing s with
  | nil => simp [ctxAddrs]
  | cons f c ih =>
    cases f with
    | left a r =>
      refine (ih _).trans ?_
      simp only [Sh.addrs_node, ctxAddrs, List.append_assoc, List.cons_append]
      exact List.Perm.refl _
    | right l a =>
      refine (ih _).trans ?_
      simp only [Sh.addrs_node, ctxAddrs, List.append_assoc, List.cons_append]
      refine List.perm_middle.trans (List.Perm.trans ?_ List.perm_middle.symm)
      refine List.Perm.cons a ?_
      rw [← List.append_assoc, ← List.append_assoc]
      exact List.Perm.append_right _ List.perm_append_comm

theorem RepC_congr {P L R P' L' R' : Nat → Ptr} {hdr : Nat} {c : List Frame}
    (h : ∀ a ∈ hdr :: ctxAddrs c, P' a = P a ∧ L' a = L a ∧ R' a = R a) (p : Ptr) :
    RepC P' L' R' hdr c p ↔ RepC P L R hdr c p := by
  induction c generalizing p with
  | nil => simp [RepC, (h hdr (by simp)).1]
  | cons f c ih =>
    have hc : ∀ a ∈ hdr :: ctxAddrs c, P' a = P a ∧ L' a = L a ∧ R' a = R a := by
      intro a ha
      apply h
      cases f <;> simp only [ctxAddrs, List.mem_cons, List.mem_append] at ha ⊢ <;> tauto
    cases f with
    | left a r =>
      have ha := h a (by simp [ctxAddrs])
      have hr : ∀ x ∈ r.addrs, P' x = P x ∧ L' x = L x ∧ R' x = R x :=
        fun x hx => h x (by simp [ctxAddrs, hx])
      simp only [RepC, ha.1, ha.2.1, ha.2.2, Rep_congr hr, ih hc]
    | right l a =>
      have ha := h a (by simp [ctxAddrs])
      have hl : ∀ x ∈ l.addrs, P' x = P x ∧ L' x = L x ∧ R' x = R x :=
        fun x hx => h x (by simp [ctxAddrs, hx])
      simp only [RepC, ha.1, ha.2.1, ha.2.2, Rep_congr hl, ih hc]

@[simp] theorem RepC_updP {P L R : Nat → Ptr} {hdr : Nat} {c : List Frame} {x : Nat} (v p : Ptr)
    (hh : hdr ≠ x) (h : x ∉ ctxAddrs c) :
    RepC (upd P x v) L R hdr c p ↔ RepC P L R hdr c p :=
  RepC_congr (fun a ha => by
    have : a ≠ x := by
      rintro rfl
      simp only [List.mem_cons] at ha
      rcases ha with ha | ha
      · exact hh ha.symm
      · exact h ha
    simp [this]) p

@[simp] theorem RepC_updL {P L R : Nat → Ptr} {hdr : Nat} {c : List Frame} {x : Nat} (v p : Ptr)
    (hh : hdr ≠ x) (h : x ∉ ctxAddrs c) :
    RepC P (upd L x v) R hdr c p ↔ RepC P L R hdr c p :=
  RepC_congr (fun a ha => by
    have : a ≠ x := by
      rintro rfl
      simp only [List.mem_cons] at ha
      rcases ha with ha | ha
      · exact hh ha.symm
      · exact h ha
    simp [this]) p

@[simp] theorem RepC_updR {P L R : Nat → Ptr} {hdr : Nat} {c : List Frame} {x : Nat} (v p : Ptr)
    (hh : hdr ≠ x) (h : x ∉ ctxAddrs c) :
    RepC P L (upd R x v) hdr c p ↔ RepC P L R hdr c p :=
  RepC_congr (fun a ha => by
    have : a ≠ x := by
      rintro rfl
      simp only [List.mem_cons] at ha
      rcases ha with ha | ha
      · exact hh ha.symm
      · exact h ha
    simp [this]) p

theorem wf_iff_wfz (m : Mem K) (hdr : Nat) (c : List Frame) (s : Sh) :
    WF m hdr (plug c s) ↔ WFz m hdr c s := by
  have hp := plug_addrs_perm c s
  have hp' : (hdr :: (plug c s).addrs).Perm (hdr :: (s.addrs ++ ctxAddrs c)) := hp.cons hdr
  constructor
  · intro h
    have := (rep_plug c s).1 ⟨h.root, h.rep⟩
    exact ⟨this.1, this.2, h.hleft, h.hright, hp'.nodup_iff.1 h.nodup,
      fun a ha => h.bound a (hp'.mem_iff.2 ha)⟩
  · intro h
    have := (rep_plug c s).2 ⟨h.repc, h.rep⟩
    exact ⟨this.1, h.hleft, h.hright, this.2, hp'.nodup_iff.2 h.nodup,
      fun a ha => h.bound a (hp'.mem_iff.1 ha)⟩

theorem WF.toZ {m : Mem K} {hdr : Nat} {c : List Frame} {s : Sh} (h : WF m hdr (plug c s)) :
    WFz m hdr c s := (wf_iff_wfz m hdr c s).1 h

theorem WFz.toWF {m : Mem K} {hdr : Nat} {c : List Frame} {s : Sh} (h : WFz m hdr c s) :
    WF m hdr (plug c s) := (wf_iff_wfz m hdr c s).2 h

/-- Moving the focus: the same tree seen one level up. -/
theorem WFz.up_left {m : Mem K} {hdr : Nat} {c : List Frame} {s : Sh} {a : Nat} {r : Sh}
    (h : WFz m hdr (Frame.left a r :: c) s) : WFz m hdr c (Sh.node s a r) :=
  WF.toZ (c := c) (by simpa using h.toWF)

theorem WFz.up_right {m : Mem K} {hdr : Nat} {c : List Frame} {s : Sh} {a : Nat} {l : Sh}
    (h : WFz m hdr (Frame.right l a :: c) s) : WFz m hdr c (Sh.node l a s) :=
  WF.toZ (c := c) (by simpa using h.toWF)

theorem WFz.down_left {m : Mem K} {hdr : Nat} {c : List Frame} {s : Sh} {a : Nat} {r : Sh}
    (h : WFz m hdr c (Sh.node s a r)) : WFz m hdr (Frame.left a r :: c) s :=
  WF.toZ (c := Frame.left a r :: c) (by simpa using h.toWF)

theorem WFz.down_right {m : Mem K} {hdr : Nat} {c : List Frame} {s : Sh} {a : Nat} {l : Sh}
    (h : WFz m hdr c (Sh.node l a s)) : WFz m hdr (Frame.right l a :: c) s :=
  WF.toZ (c := Frame.right l a :: c) (by simpa using h.toWF)

/-- The header's parent link of a non-empty context is a node of the context. -/
theorem RepC_root_mem {P L R : Nat → Ptr} {hdr : Nat} {f : Frame} {c : List Frame} {p : Ptr}
    (h : RepC P L R hdr (f :: c) p) : ∃ x ∈ ctxAddrs (f :: c), P hdr = some x := by
  induction c generalizing f p with
  | nil =>
    cases f with
    | left a r => exact ⟨a, by simp [ctxAddrs], by simpa [RepC] using h.2.2.2.2⟩
    | right l a => exact ⟨a, by simp [ctxAddrs], by simpa [RepC] using h.2.2.2.2⟩
  | cons g c ih =>
    cases f with
    | left a r =>
      obtain ⟨x, hx, e⟩ := ih h.2.2.2.2
      exact ⟨x, by simp only [ctxAddrs, List.mem_cons, List.mem_append] at hx ⊢; tauto, e⟩
    | right l a =>
      obtain ⟨x, hx, e⟩ := ih h.2.2.2.2
      exact ⟨x, by simp only [ctxAddrs, List.mem_cons, List.mem_append] at hx ⊢; tauto, e⟩

@[simp] theorem holeSet_red (m : Mem K) (hdr : Nat) (c : List Frame) (q : Ptr) :
    (holeSet m hdr c q).red_ = m.red_ := by
  rcases c with _ | ⟨f, c⟩
  · rfl
  · cases f <;> rfl

@[simp] theorem holeSet_key (m : Mem K) (hdr : Nat) (c : List Frame) (q : Ptr) :
    (holeSet m hdr c q).key_ = m.key_ := by
  rcases c with _ | ⟨f, c⟩
  · rfl
  · cases f <;> rfl

@[simp] theorem holeSet_next (m : Mem K) (hdr : Nat) (c : List Frame) (q : Ptr) :
    (holeSet m hdr c q).next = m.next := by
  rcases c with _ | ⟨f, c⟩
  · rfl
  · cases f <;> rfl

theorem holeSet_parent (m : Mem K) (hdr : Nat) (c : List Frame) (q : Ptr) {x : Nat}
    (hx : hdr ≠ x) : (holeSet m hdr c q).parent_ x = m.parent_ x := by
  rcases c with _ | ⟨f, c⟩
  · simp [holeSet, hx]
  · cases f <;> rfl

theorem holeSet_left (m : Mem K) (hdr : Nat) (c : List Frame) (q : Ptr) {x : Nat}
    (hx : x ∉ ctxAddrs c) : (holeSet m hdr c q).left_ x = m.left_ x := by
  rcases c with _ | ⟨f, c⟩
  · rfl
  · cases f with
    | left a r =>
      have : x ≠ a := fun e => hx (by simp [ctxAddrs, e])
      simp [holeSet, this]
    | right l a => rfl

theorem holeSet_right (m : Mem K) (hdr : Nat) (c : List Frame) (q : Ptr) {x : Nat}
    (hx : x ∉ ctxAddrs c) : (holeSet m hdr c q).right_ x = m.right_ x := by
  rcases c with _ | ⟨f, c⟩
  · rfl
  · cases f with
    | left a r => rfl
    | right l a =>
      have : x ≠ a := fun e => hx (by simp [ctxAddrs, e])
      simp [holeSet, this]

theorem holeSet_hleft (m : Mem K) (hdr : Nat) (c : List Frame) (q : Ptr)
    (hx : hdr ∉ ctxAddrs c) : (holeSet m hdr c q).left_ hdr = m.left_ hdr :=
  holeSet_left m hdr c q hx

theorem holeSet_repC {m : Mem K} {hdr : Nat} {c : List Frame} {p : Ptr} (q : Ptr)
    (h : RepC m.parent_ m.left_ m.right_ hdr c p) (hnd : (hdr :: ctxAddrs c).Nodup) :
    RepC (holeSet m hdr c q).parent_ (holeSet m hdr c q).left_ (holeSet m hdr c q).right_
      hdr c q := by
  rcases c with _ | ⟨f, c⟩
  · simp [holeSet, RepC]
  · cases f with
    | left a r =>
      simp only [ctxAddrs, List.cons_append, List.nodup_cons, List.mem_cons, List.mem_append,
        List.nodup_append, not_or] at hnd
      obtain ⟨⟨h1, h2, h3⟩, ⟨h4, h5⟩, h6, h7, h8⟩ := hnd
      obtain ⟨_, g2, g3, g4, g5⟩ := h
      refine ⟨by simp [holeSet], g2, g3, ?_, ?_⟩
      · simpa [holeSet, h4] using g4
      · refine (RepC_congr (fun x hx => ?_) _).2 g5
        have : x ≠ a := by
          rintro rfl
          simp only [List.mem_cons] at hx
          rcases hx with hx | hx
          · exact h1 hx.symm
          · exact h5 hx
        simp [holeSet, this]
    | right l a =>
      simp only [ctxAddrs, List.cons_append, List.nodup_cons, List.mem_cons, List.mem_append,
        List.nodup_append, not_or] at hnd
      obtain ⟨⟨h1, h2, h3⟩, ⟨h4, h5⟩, h6, h7, h8⟩ := hnd
      obtain ⟨_, g2, g3, g4, g5⟩ := h
      refine ⟨by simp [holeSet], g2, g3, ?_, ?_⟩
      · simpa [holeSet, h4] using g4
      · refine (RepC_congr (fun x hx => ?_) _).2 g5
        have : x ≠ a := by
          rintro rfl
          simp only [List.mem_cons] at hx
          rcases hx with hx | hx
          · exact h1 hx.symm
          · exact h5 hx
        simp [holeSet, this]

theorem relinkL_eq {m : Mem K} {hdr : Nat} {c : List Frame} {x : Nat} (q : Ptr)
    (h : RepC m.parent_ m.left_ m.right_ hdr c (some x)) (hp : m.parent_ x = some (ctxPar hdr c))
    (hx : x ∉ ctxAddrs c) : relinkL m hdr x q = some (holeSet m hdr c q) := by
  rcases c with _ | ⟨f, c⟩
  · simp only [RepC] at h
    simp [relinkL, Root, h, holeSet]
  · obtain ⟨y, hy, e⟩ := RepC_root_mem h
    have hne : m.parent_ hdr ≠ some x := by
      rw [e]; rintro ⟨rfl⟩; exact hx hy
    cases f with
    | left a r =>
      simp only [ctxPar_cons, Frame.addr_left] at hp
      simp [relinkL, Root, hne, hp, h.1, holeSet]
    | right l a =>
      simp only [ctxPar_cons, Frame.addr_right] at hp
      have : m.left_ a ≠ some x := by
        rw [h.2.1]; intro e2
        exact hx (by simp [ctxAddrs, Sh.ptr_mem e2])
      simp [relinkL, Root, hne, hp, this, holeSet]

theorem relinkR_eq {m : Mem K} {hdr : Nat} {c : List Frame} {x : Nat} (q : Ptr)
    (h : RepC m.parent_ m.left_ m.right_ hdr c (some x)) (hp : m.parent_ x = some (ctxPar hdr c))
    (hx : x ∉ ctxAddrs c) : relinkR m hdr x q = some (holeSet m hdr c q) := by
  rcases c with _ | ⟨f, c⟩
  · simp only [RepC] at h
    simp [relinkR, Root, h, holeSet]
  · obtain ⟨y, hy, e⟩ := RepC_root_mem h
    have hne : m.parent_ hdr ≠ some x := by
      rw [e]; rintro ⟨rfl⟩; exact hx hy
    cases f with
    | right l a =>
      simp only [ctxPar_cons, Frame.addr_right] at hp
      simp [relinkR, Root, hne, hp, h.1, holeSet]
    | left a r =>
      simp only [ctxPar_cons, Frame.addr_left] at hp
      have : m.right_ a ≠ some x := by
        rw [h.2.1]; intro e2
        exact hx (by simp [ctxAddrs, Sh.ptr_mem e2])
      simp [relinkR, Root, hne, hp, this, holeSet]

@[simp] theorem Rep_holeSet {m : Mem K} {hdr : Nat} {c : List Frame} {s : Sh} (q par : Ptr)
    (hh : hdr ∉ s.addrs) (hd : s.addrs.Disjoint (ctxAddrs c)) :
    Rep (holeSet m hdr c q).parent_ (holeSet m hdr c q).left_ (holeSet m hdr c q).right_ s par ↔
      Rep m.parent_ m.left_ m.right_ s par :=
  Rep_congr (fun x hx => by
    have h1 : hdr ≠ x := fun e => hh (e ▸ hx)
    have h2 : x ∉ ctxAddrs c := fun h => hd hx h
    exact ⟨holeSet_parent m hdr c q h1, holeSet_left m hdr c q h2, holeSet_right m hdr c q h2⟩) par

theorem RotateLeft_eq (m : Mem K) (hdr node : Nat) :
    RotateLeft m hdr node = (do
      let rightNode ← m.right_ node
      let m1 := m.setParent rightNode (m.parent_ node)
      let m2 ← relinkL m1 hdr node (some rightNode)
      let m3 := m2.setRight node (m2.left_ rightNode)
      let m4 := match m3.left_ rightNode with
        | some rl => m3.setParent rl (some node)
        | none => m3
      let m5 := m4.setParent node (some rightNode)
      pure (m5.setLeft rightNode (some node))) := rfl

theorem RotateLeft_spec {m : Mem K} {hdr : Nat} {c : List Frame} {l rl rr : Sh} {a b : Nat}
    (h : WFz m hdr c (Sh.node l a (Sh.node rl b rr))) :
    ∃ m', RotateLeft m hdr a = some m' ∧ WFz m' hdr c (Sh.node (Sh.node l a rl) b rr) ∧
      m'.red_ = m.red_ ∧ m'.key_ = m.key_ ∧ m'.next = m.next := by
  obtain ⟨hrepc, hrep, hhl, hhr, hnd, hb⟩ := h
  have hnd' : (hdr :: ((Sh.node (Sh.node l a rl) b rr).addrs ++ ctxAddrs c)).Nodup := by
    simpa using hnd
  have hb' : ∀ x ∈ hdr :: ((Sh.node (Sh.node l a rl) b rr).addrs ++ ctxAddrs c),
      x < m.next := by
    intro x hx; apply hb; simpa using hx
  cases rl with
  | nil =>
    obtain ⟨pa, la, ra, repl, pb, lb, rb, -, reprr⟩ := hrep
    simp only [Sh.addrs_node, Sh.addrs_nil, List.nodup_cons, List.mem_cons, List.mem_append,
      List.nodup_append, List.append_assoc, List.cons_append, List.nil_append, not_or,
      List.disjoint_cons_right, List.disjoint_append_right, List.disjoint_cons_left,
      List.disjoint_append_left] at hnd
    have hm1 : RepC (m.setParent b (m.parent_ a)).parent_ (m.setParent b (m.parent_ a)).left_
        (m.setParent b (m.parent_ a)).right_ hdr c (some a) := by
      simpa [hnd] using hrepc
    have hrl := relinkL_eq (some b) hm1 (by simp [pa, hnd]) (by simp [hnd])
    have hlb : (holeSet (m.setParent b (m.parent_ a)) hdr c (some b)).left_ b = none := by
      rw [holeSet_left _ _ _ _ (by simp [hnd])]; exact lb
    have hrepc' := holeSet_repC (some b) hm1 (by simp [hnd])
    rw [RotateLeft_eq]
    simp only [ra, Sh.ptr_node, Option.bind_eq_bind, Option.some_bind, hrl, Mem.setRight_left,
      hlb]
    refine ⟨_, rfl, ⟨?_, ?_, ?_, ?_, hnd', ?_⟩, ?_, ?_, ?_⟩
    · simpa [hnd] using hrepc'
    · simp only [Rep_node]
      refine ⟨?_, ?_, ?_, ⟨?_, ?_, ?_, ?_, ?_⟩, ?_⟩
      · simp [hnd, holeSet_parent, pa]
      · simp
      · simp [hnd, holeSet_right, rb]
      · simp
      · simp [hnd, holeSet_left, la]
      · simp
      · simpa [hnd] using repl
      · simp
      · simpa [hnd] using reprr
    · simp [holeSet_left, hnd, hhl]
    · simp [holeSet_right, hnd, hhr]
    · simpa using hb'
    · simp
    · simp
    · simp
  | node rll y rlr =>
    obtain ⟨pa, la, ra, repl, pb, lb, rb, ⟨pq, lq, rq, reprll, reprlr⟩, reprr⟩ := hrep
    simp only [Sh.addrs_node, List.nodup_cons, List.mem_cons, List.mem_append,
      List.nodup_append, List.append_assoc, List.cons_append, not_or,
      List.disjoint_cons_right, List.disjoint_append_right, List.disjoint_cons_left,
      List.disjoint_append_left] at hnd
    have hm1 : RepC (m.setParent b (m.parent_ a)).parent_ (m.setParent b (m.parent_ a)).left_
        (m.setParent b (m.parent_ a)).right_ hdr c (some a) := by
      simpa [hnd] using hrepc
    have hrl := relinkL_eq (some b) hm1 (by simp [pa, hnd]) (by simp [hnd])
    have hlb : (holeSet (m.setParent b (m.parent_ a)) hdr c (some b)).left_ b = some y := by
      rw [holeSet_left _ _ _ _ (by simp [hnd])]; exact lb
    have hrepc' := holeSet_repC (some b) hm1 (by simp [hnd])
    rw [RotateLeft_eq]
    simp only [ra, Sh.ptr_node, Option.bind_eq_bind, Option.some_bind, hrl, Mem.setRight_left,
      hlb]
    refine ⟨_, rfl, ⟨?_, ?_, ?_, ?_, hnd', ?_⟩, ?_, ?_, ?_⟩
    · simpa [hnd] using hrepc'
    · simp only [Rep_node]
      refine ⟨?_, ?_, ?_, ⟨?_, ?_, ?_, ?_, ?_, ?_, ?_, ?_, ?_⟩, ?_⟩
      · simp [hnd, holeSet_parent, pa]
      · simp
      · simp [hnd, holeSet_right, rb]
      · simp [hnd]
      · simp [hnd, holeSet_left, la]
      · simp
      · simpa [hnd] using repl
      · simp [hnd]
      · simp [hnd, holeSet_left, lq]
      · simp [hnd, holeSet_right, rq]
      · simpa [hnd] using reprll
      · simpa [hnd] using reprlr
      · simpa [hnd] using reprr
    · simp [holeSet_left, hnd, hhl]
    · simp [holeSet_right, hnd, hhr]
    · simpa using hb'
    · simp
    · simp
    · simp

theorem RotateRight_eq (m : Mem K) (hdr node : Nat) :
    RotateRight m hdr node = (do
      let leftNode ← m.left_ node
      let m1 := m.setParent leftNode (m.parent_ node)
      let m2 ← relinkR m1 hdr node (some leftNode)
      let m3 := m2.setLeft node (m2.right_ leftNode)
      let m4 := match m3.right_ leftNode with
        | some lr => m3.setParent lr (some node)
        | none => m3
      let m5 := m4.setParent node (some leftNode)
      pure (m5.setRight leftNode (some node))) := rfl

theorem RotateRight_spec {m : Mem K} {hdr : Nat} {c : List Frame} {ll lr r : Sh} {a b : Nat}
    (h : WFz m hdr c (Sh.node (Sh.node ll b lr) a r)) :
    ∃ m', RotateRight m hdr a = some m' ∧ WFz m' hdr c (Sh.node ll b (Sh.node lr a r)) ∧
      m'.red_ = m.red_ ∧ m'.key_ = m.key_ ∧ m'.next = m.next := by
  obtain ⟨hrepc, hrep, hhl, hhr, hnd, hb⟩ := h
  have hnd' : (hdr :: ((Sh.node ll b (Sh.node lr a r)).addrs ++ ctxAddrs c)).Nodup := by
    simpa using hnd
  have hb' : ∀ x ∈ hdr :: ((Sh.node ll b (Sh.node lr a r)).addrs ++ ctxAddrs c),
      x < m.next := by
    intro x hx; apply hb; simpa using hx
  cases lr with
  | nil =>
    obtain ⟨pa, la, ra, ⟨pb, lb, rb, repll, -⟩, repr⟩ := hrep
    simp only [Sh.addrs_node, Sh.addrs_nil, List.nodup_cons, List.mem_cons, List.mem_append,
      List.nodup_append, List.append_assoc, List.cons_append, List.nil_append, not_or,
      List.disjoint_cons_right, List.disjoint_append_right, List.disjoint_cons_left,
      List.disjoint_append_left] at hnd
    have hm1 : RepC (m.setParent b (m.parent_ a)).parent_ (m.setParent b (m.parent_ a)).left_
        (m.setParent b (m.parent_ a)).right_ hdr c (some a) := by
      simpa [hnd] using hrepc
    have hrl := relinkR_eq (some b) hm1 (by simp [pa, hnd]) (by simp [hnd])
    have hlb : (holeSet (m.setParent b (m.parent_ a)) hdr c (some b)).right_ b = none := by
      rw [holeSet_right _ _ _ _ (by simp [hnd])]; exact rb
    have hrepc' := holeSet_repC (some b) hm1 (by simp [hnd])
    rw [RotateRight_eq]
    simp only [la, Sh.ptr_node, Option.bind_eq_bind, Option.some_bind, hrl, Mem.setLeft_right,
      hlb]
    refine ⟨_, rfl, ⟨?_, ?_, ?_, ?_, hnd', ?_⟩, ?_, ?_, ?_⟩
    · simpa [hnd] using hrepc'
    · simp only [Rep_node]
      refine ⟨?_, ?_, ?_, ?_, ⟨?_, ?_, ?_, ?_, ?_⟩⟩
      · simp [hnd, holeSet_parent, pa]
      · simp [hnd, holeSet_left, lb]
      · simp
      · simpa [hnd] using repll
      · simp
      · simp
      · simp [hnd, holeSet_right, ra]
      · simp
      · simpa [hnd] using repr
    · simp [holeSet_left, hnd, hhl]
    · simp [holeSet_right, hnd, hhr]
    · simpa using hb'
    · simp
    · simp
    · simp
  | node lrl y lrr =>
    obtain ⟨pa, la, ra, ⟨pb, lb, rb, repll, ⟨pq, lq, rq, replrl, replrr⟩⟩, repr⟩ := hrep
    simp only [Sh.addrs_node, List.nodup_cons, List.mem_cons, List.mem_append,
      List.nodup_append, List.append_assoc, List.cons_append, not_or,
      List.disjoint_cons_right, List.disjoint_append_right, List.disjoint_cons_left,
      List.disjoint_append_left] at hnd
    have hm1 : RepC (m.setParent b (m.parent_ a)).parent_ (m.setParent b (m.parent_ a)).left_
        (m.setParent b (m.parent_ a)).right_ hdr c (some a) := by
      simpa [hnd] using hrepc
    have hrl := relinkR_eq (some b) hm1 (by simp [pa, hnd]) (by simp [hnd])
    have hlb : (holeSet (m.setParent b (m.parent_ a)) hdr c (some b)).right_ b = some y := by
      rw [holeSet_right _ _ _ _ (by simp [hnd])]; exact rb
    have hrepc' := holeSet_repC (some b) hm1 (by simp [hnd])
    rw [RotateRight_eq]
    simp only [la, Sh.ptr_node, Option.bind_eq_bind, Option.some_bind, hrl, Mem.setLeft_right,
      hlb]
    refine ⟨_, rfl, ⟨?_, ?_, ?_, ?_, hnd', ?_⟩, ?_, ?_, ?_⟩
    · simpa [hnd] using hrepc'
    · simp only [Rep_node]
      refine ⟨?_, ?_, ?_, ?_, ⟨?_, ?_, ?_, ⟨?_, ?_, ?_, ?_, ?_⟩, ?_⟩⟩
      · simp [hnd, holeSet_parent, pa]
      · simp [hnd, holeSet_left, lb]
      · simp [hnd]
      · simpa [hnd] using repll
      · simp
      · simp
      · simp [hnd, holeSet_right, ra]
      · simp [hnd]
      · simp [hnd, holeSet_left, lq]
      · simp [hnd, holeSet_right, rq]
      · simpa [hnd] using replrl
      · simpa [hnd] using replrr
      · simpa [hnd] using repr
    · simp [holeSet_left, hnd, hhl]
    · simp [holeSet_right, hnd, hhr]
    · simpa using hb'
    · simp
    · simp
    · simp

@[simp] theorem bh_nil (red : Nat → Bool) : bh red Sh.nil = 0 := rfl

@[simp] theorem bh_node (red : Nat → Bool) (l : Sh) (a : Nat) (r : Sh) :
    bh red (Sh.node l a r) = bh red l + (if red a then 0 else 1) := rfl

@[simp] theorem Bal_nil (red : Nat → Bool) : Bal red Sh.nil := trivial

@[simp] theorem Bal_node (red : Nat → Bool) (l : Sh) (a : Nat) (r : Sh) :
    Bal red (Sh.node l a r) ↔ (bh red l = bh red r ∧ Bal red l ∧ Bal red r) := Iff.rfl

@[simp] theorem isBlk_nil (red : Nat → Bool) : isBlk red Sh.nil := trivial

@[simp] theorem isBlk_node (red : Nat → Bool) (l : Sh) (a : Nat) (r : Sh) :
    isBlk red (Sh.node l a r) ↔ red a = false := Iff.rfl

@[simp] theorem NoRR_nil (red : Nat → Bool) : NoRR red Sh.nil := trivial

@[simp] theorem NoRR_node (red : Nat → Bool) (l : Sh) (a : Nat) (r : Sh) :
    NoRR red (Sh.node l a r) ↔
      ((red a = true → isBlk red l ∧ isBlk red r) ∧ NoRR red l ∧ NoRR red r) := Iff.rfl

theorem bh_congr {red red' : Nat → Bool} {s : Sh} (h : ∀ a ∈ s.addrs, red' a = red a) :
    bh red' s = bh red s := by
  induction s with
  | nil => rfl
  | node l a r ihl _ =>
    simp only [bh_node, h a (by simp), ihl (fun x hx => h x (by simp [hx]))]

theorem Bal_congr {red red' : Nat → Bool} {s : Sh} (h : ∀ a ∈ s.addrs, red' a = red a) :
    Bal red' s ↔ Bal red s := by
  induction s with
  | nil => simp
  | node l a r ihl ihr =>
    have hl : ∀ x ∈ l.addrs, red' x = red x := fun x hx => h x (by simp [hx])
    have hr : ∀ x ∈ r.addrs, red' x = red x := fun x hx => h x (by simp [hx])
    simp only [Bal_node, bh_congr hl, bh_congr hr, ihl hl, ihr hr]

theorem isBlk_congr {red red' : Nat → Bool} {s : Sh} (h : ∀ a ∈ s.addrs, red' a = red a) :
    isBlk red' s ↔ isBlk red s := by
  cases s with
  | nil => simp
  | node l a r => simp only [isBlk_node, h a (by simp)]

theorem NoRR_congr {red red' : Nat → Bool} {s : Sh} (h : ∀ a ∈ s.addrs, red' a = red a) :
    NoRR red' s ↔ NoRR red s := by
  induction s with
  | nil => simp
  | node l a r ihl ihr =>
    have hl : ∀ x ∈ l.addrs, red' x = red x := fun x hx => h x (by simp [hx])
    have hr : ∀ x ∈ r.addrs, red' x = red x := fun x hx => h x (by simp [hx])
    simp only [NoRR_node, h a (by simp), isBlk_congr hl, isBlk_congr hr, ihl hl, ihr hr]

@[simp] theorem bh_upd {red : Nat → Bool} {s : Sh} {x : Nat} (v : Bool) (h : x ∉ s.addrs) :
    bh (upd red x v) s = bh red s :=
  bh_congr (fun a ha => upd_ne _ _ (fun e => h (e ▸ ha)))

@[simp] theorem Bal_upd {red : Nat → Bool} {s : Sh} {x : Nat} (v : Bool) (h : x ∉ s.addrs) :
    Bal (upd red x v) s ↔ Bal red s :=
  Bal_congr (fun a ha => upd_ne _ _ (fun e => h (e ▸ ha)))

@[simp] theorem isBlk_upd {red : Nat → Bool} {s : Sh} {x : Nat} (v : Bool) (h : x ∉ s.addrs) :
    isBlk (upd red x v) s ↔ isBlk red s :=
  isBlk_congr (fun a ha => upd_ne _ _ (fun e => h (e ▸ ha)))

@[simp] theorem NoRR_upd {red : Nat → Bool} {s : Sh} {x : Nat} (v : Bool) (h : x ∉ s.addrs) :
    NoRR (upd red x v) s ↔ NoRR red s :=
  NoRR_congr (fun a ha => upd_ne _ _ (fun e => h (e ▸ ha)))

@[simp] theorem Frame.sib_left (a : Nat) (r : Sh) : (Frame.left a r).sib = r := rfl

@[simp] theorem Frame.sib_right (l : Sh) (a : Nat) : (Frame.right l a).sib = l := rfl

theorem bh_plug_congr (red : Nat → Bool) (c : List Frame) {s s' : Sh}
    (h : bh red s = bh red s') : bh red (plug c s) = bh red (plug c s') := by
  induction c generalizing s s' with
  | nil => simpa using h
  | cons f c ih =>
    cases f with
    | left a r => exact ih (by simp [h])
    | right l a => exact ih (by simp)

theorem Bal_plug (red : Nat → Bool) (c : List Frame) (s : Sh) :
    Bal red (plug c s) ↔ (Bal red s ∧ CtxBal red c (bh red s)) := by
  induction c generalizing s with
  | nil => simp [CtxBal]
  | cons f c ih =>
    cases f with
    | left a r =>
      simp only [plug_left, ih, Bal_node, CtxBal, bh_node]
      constructor
      · rintro ⟨⟨h1, h2, h3⟩, h4⟩; exact ⟨h2, h1.symm, h3, h4⟩
      · rintro ⟨h2, h1, h3, h4⟩; exact ⟨⟨h1.symm, h2, h3⟩, h4⟩
    | right l a =>
      simp only [plug_right, ih, Bal_node, CtxBal, bh_node]
      constructor
      · rintro ⟨⟨h1, h2, h3⟩, h4⟩; exact ⟨h3, h1, h2, h1 ▸ h4⟩
      · rintro ⟨h2, h1, h3, h4⟩; exact ⟨⟨h1, h3, h2⟩, h1 ▸ h4⟩

theorem NoRR_plug (red : Nat → Bool) (c : List Frame) (s : Sh) :
    NoRR red (plug c s) ↔
      (NoRR red s ∧ CtxNoRR red c ∧ (ctxTopBlk red c ∨ isBlk red s)) := by
  induction c generalizing s with
  | nil => simp [CtxNoRR, ctxTopBlk]
  | cons f c ih =>
    cases f with
    | left a r =>
      simp only [plug_left, ih, NoRR_node, CtxNoRR, ctxTopBlk, isBlk_node, Frame.sib_left,
        Frame.addr_left]
      cases red a <;> simp <;> tauto
    | right l a =>
      simp only [plug_right, ih, NoRR_node, CtxNoRR, ctxTopBlk, isBlk_node, Frame.sib_right,
        Frame.addr_right]
      cases red a <;> simp <;> tauto

theorem isBlk_plug (red : Nat → Bool) (c : List Frame) (s : Sh) :
    isBlk red (plug c s) ↔ CtxRootBlk red c (isBlk red s) := by
  induction c generalizing s with
  | nil => simp [CtxRootBlk]
  | cons f c ih =>
    cases f with
    | left a r => simp only [plug_left, ih, CtxRootBlk, isBlk_node, Frame.addr_left]
    | right l a => simp only [plug_right, ih, CtxRootBlk, isBlk_node, Frame.addr_right]

theorem CtxBal_congr {red red' : Nat → Bool} {c : List Frame}
    (h : ∀ a ∈ ctxAddrs c, red' a = red a) (n : Nat) : CtxBal red' c n ↔ CtxBal red c n := by
  induction c generalizing n with
  | nil => simp [CtxBal]
  | cons f c ih =>
    have hc : ∀ a ∈ ctxAddrs c, red' a = red a := by
      intro a ha; apply h
      cases f <;> simp [ctxAddrs, ha]
    cases f with
    | left a r =>
      have hr : ∀ x ∈ r.addrs, red' x = red x := fun x hx => h x (by simp [ctxAddrs, hx])
      simp only [CtxBal, bh_congr hr, Bal_congr hr, h a (by simp [ctxAddrs]), ih hc]
    | right l a =>
      have hl : ∀ x ∈ l.addrs, red' x = red x := fun x hx => h x (by simp [ctxAddrs, hx])
      simp only [CtxBal, bh_congr hl, Bal_congr hl, h a (by simp [ctxAddrs]), ih hc]

theorem ctxTopBlk_congr {red red' : Nat → Bool} {c : List Frame}
    (h : ∀ a ∈ ctxAddrs c, red' a = red a) : ctxTopBlk red' c ↔ ctxTopBlk red c := by
  rcases c with _ | ⟨f, c⟩
  · simp [ctxTopBlk]
  · cases f with
    | left a r => simp only [ctxTopBlk, Frame.addr_left, h a (by simp [ctxAddrs])]
    | right l a => simp only [ctxTopBlk, Frame.addr_right, h a (by simp [ctxAddrs])]

theorem CtxNoRR_congr {red red' : Nat → Bool} {c : List Frame}
    (h : ∀ a ∈ ctxAddrs c, red' a = red a) : CtxNoRR red' c ↔ CtxNoRR red c := by
  induction c with
  | nil => simp [CtxNoRR]
  | cons f c ih =>
    have hc : ∀ a ∈ ctxAddrs c, red' a = red a := by
      intro a ha; apply h
      cases f <;> simp [ctxAddrs, ha]
    cases f with
    | left a r =>
      have hr : ∀ x ∈ r.addrs, red' x = red x := fun x hx => h x (by simp [ctxAddrs, hx])
      simp only [CtxNoRR, Frame.sib_left, Frame.addr_left, NoRR_congr hr, isBlk_congr hr,
        h a (by simp [ctxAddrs]), ih hc, ctxTopBlk_congr hc]
    | right l a =>
      have hl : ∀ x ∈ l.addrs, red' x = red x := fun x hx => h x (by simp [ctxAddrs, hx])
      simp only [CtxNoRR, Frame.sib_right, Frame.addr_right, NoRR_congr hl, isBlk_congr hl,
        h a (by simp [ctxAddrs]), ih hc, ctxTopBlk_congr hc]

theorem CtxRootBlk_congr {red red' : Nat → Bool} {c : List Frame}
    (h : ∀ a ∈ ctxAddrs c, red' a = red a) (p : Prop) :
    CtxRootBlk red' c p ↔ CtxRootBlk red c p := by
  induction c generalizing p with
  | nil => simp [CtxRootBlk]
  | cons f c ih =>
    have hc : ∀ a ∈ ctxAddrs c, red' a = red a := by
      intro a ha; apply h
      cases f <;> simp [ctxAddrs, ha]
    cases f with
    | left a r => simp only [CtxRootBlk, Frame.addr_left, h a (by simp [ctxAddrs]), ih hc]
    | right l a => simp only [CtxRootBlk, Frame.addr_right, h a (by simp [ctxAddrs]), ih hc]

@[simp] theorem CtxBal_upd {red : Nat → Bool} {c : List Frame} {x : Nat} (v : Bool) (n : Nat)
    (h : x ∉ ctxAddrs c) : CtxBal (upd red x v) c n ↔ CtxBal red c n :=
  CtxBal_congr (fun a ha => by
    have : a ≠ x := fun e => h (e ▸ ha)
    simp [this]) n

@[simp] theorem CtxNoRR_upd {red : Nat → Bool} {c : List Frame} {x : Nat} (v : Bool)
    (h : x ∉ ctxAddrs c) : CtxNoRR (upd red x v) c ↔ CtxNoRR red c :=
  CtxNoRR_congr (fun a ha => upd_ne _ _ (fun e => h (e ▸ ha)))

@[simp] theorem ctxTopBlk_upd {red : Nat → Bool} {c : List Frame} {x : Nat} (v : Bool)
    (h : x ∉ ctxAddrs c) : ctxTopBlk (upd red x v) c ↔ ctxTopBlk red c :=
  ctxTopBlk_congr (fun a ha => upd_ne _ _ (fun e => h (e ▸ ha)))

@[simp] theorem CtxRootBlk_upd {red : Nat → Bool} {c : List Frame} {x : Nat} (v : Bool)
    (p : Prop) (h : x ∉ ctxAddrs c) : CtxRootBlk (upd red x v) c p ↔ CtxRootBlk red c p :=
  CtxRootBlk_congr (fun a ha => by
    have : a ≠ x := fun e => h (e ▸ ha)
    simp [this]) p

theorem CtxRootBlk_cons (red : Nat → Bool) (f : Frame) (c : List Frame) (p q : Prop) :
    CtxRootBlk red (f :: c) p ↔ CtxRootBlk red (f :: c) q := Iff.rfl

theorem WFz.parent_eq {m : Mem K} {hdr : Nat} {c : List Frame} {l r : Sh} {a : Nat}
    (h : WFz m hdr c (Sh.node l a r)) : m.parent_ a = some (ctxPar hdr c) := h.rep.1

theorem WFz.left_eq {m : Mem K} {hdr : Nat} {c : List Frame} {l r : Sh} {a : Nat}
    (h : WFz m hdr c (Sh.node l a r)) : m.left_ a = l.ptr := h.rep.2.1

theorem WFz.right_eq {m : Mem K} {hdr : Nat} {c : List Frame} {l r : Sh} {a : Nat}
    (h : WFz m hdr c (Sh.node l a r)) : m.right_ a = r.ptr := h.rep.2.2.1

theorem WFz.root_nil {m : Mem K} {hdr : Nat} {s : Sh} (h : WFz m hdr [] s) :
    Root m hdr = s.ptr := h.repc

theorem WFz.root_cons {m : Mem K} {hdr : Nat} {f : Frame} {c : List Frame} {l r : Sh} {a : Nat}
    (h : WFz m hdr (f :: c) (Sh.node l a r)) : Root m hdr ≠ some a := by
  obtain ⟨y, hy, e⟩ := RepC_root_mem h.repc
  have hnd := h.nodup
  simp only [Sh.addrs_node, List.nodup_cons, List.mem_cons, List.mem_append, List.nodup_append,
    List.append_assoc, List.cons_append, not_or, List.disjoint_cons_right,
    List.disjoint_append_right, List.disjoint_cons_left, List.disjoint_append_left] at hnd
  unfold Root
  rw [e]
  rintro ⟨rfl⟩
  simp [hnd] at hy

theorem WFz.setRed_iff {m : Mem K} {hdr : Nat} {c : List Frame} {s : Sh} (x : Nat) (v : Bool) :
    WFz (m.setRed x v) hdr c s ↔ WFz m hdr c s :=
  ⟨fun h => ⟨h.repc, h.rep, h.hleft, h.hright, h.nodup, h.bound⟩,
   fun h => ⟨h.repc, h.rep, h.hleft, h.hright, h.nodup, h.bound⟩⟩

theorem WFz.of_eq {m m' : Mem K} {hdr : Nat} {c : List Frame} {s : Sh}
    (h : WFz m hdr c s) (hp : m'.parent_ = m.parent_) (hl : m'.left_ = m.left_)
    (hr : m'.right_ = m.right_) (hn : m'.next = m.next) : WFz m' hdr c s :=
  ⟨by rw [hp, hl, hr]; exact h.repc, by rw [hp, hl, hr]; exact h.rep, by rw [hl]; exact h.hleft,
    by rw [hr]; exact h.hright, h.nodup, by rw [hn]; exact h.bound⟩

theorem ctx_length_le (c : List Frame) : c.length ≤ (ctxAddrs c).length := by
  induction c with
  | nil => simp
  | cons f c ih => cases f <;> simp [ctxAddrs] <;> omega

theorem nodup_bound_length {L : List Nat} {n : Nat} (hnd : L.Nodup) (hb : ∀ a ∈ L, a < n) :
    L.length ≤ n := by
  have h1 : L.toFinset ⊆ Finset.range n := by
    intro a ha
    simp only [List.mem_toFinset] at ha
    simpa using hb a ha
  have h2 := Finset.card_le_card h1
  rw [List.toFinset_card_of_nodup hnd] at h2
  simpa using h2

theorem WFz.ctx_length_lt {m : Mem K} {hdr : Nat} {c : List Frame} {s : Sh}
    (h : WFz m hdr c s) : c.length + s.addrs.length < m.next := by
  have := nodup_bound_length h.nodup h.bound
  have := ctx_length_le c
  simp only [List.length_cons, List.length_append] at *
  omega

theorem InsertFixupLoop_exit_root {m : Mem K} {hdr x : Nat} (fuel : Nat)
    (h : Root m hdr = some x) : InsertFixupLoop hdr (fuel + 1) m x = some (m, x) := by
  simp [InsertFixupLoop, h]

theorem InsertFixupLoop_exit_black {m : Mem K} {hdr x p : Nat} (fuel : Nat)
    (h : Root m hdr ≠ some x) (hp : m.parent_ x = some p) (hb : m.red_ p = false) :
    InsertFixupLoop hdr (fuel + 1) m x = some (m, x) := by
  simp [InsertFixupLoop, h, hp, hb]

theorem InsertFixupLoop_recolorL {m : Mem K} {hdr x p g u : Nat} (fuel : Nat)
    (h : Root m hdr ≠ some x) (hp : m.parent_ x = some p) (hr : m.red_ p = true)
    (hg : m.parent_ p = some g) (hl : m.left_ g = some p) (hu : m.right_ g = some u)
    (hur : m.red_ u = true) :
    InsertFixupLoop hdr (fuel + 1) m x =
      InsertFixupLoop hdr fuel (((m.setRed p false).setRed u false).setRed g true) g := by
  simp [InsertFixupLoop, h, hp, hr, hg, hl, hu, hur, Mem.nonNullRed]

theorem InsertFixupLoop_recolorR {m : Mem K} {hdr x p g u : Nat} (fuel : Nat)
    (h : Root m hdr ≠ some x) (hp : m.parent_ x = some p) (hr : m.red_ p = true)
    (hg : m.parent_ p = some g) (hl : m.left_ g ≠ some p) (hu : m.left_ g = some u)
    (hur : m.red_ u = true) :
    InsertFixupLoop hdr (fuel + 1) m x =
      InsertFixupLoop hdr fuel (((m.setRed p false).setRed u false).setRed g true) g := by
  have hpu : p ≠ u := by
    rintro rfl
    exact hl hu
  simp [InsertFixupLoop, h, hp, hr, hg, hpu, hu, hur, Mem.nonNullRed]

theorem InsertFixupLoop_zigzigL {m : Mem K} {hdr x p g : Nat} (fuel : Nat)
    (h : Root m hdr ≠ some x) (hp : m.parent_ x = some p) (hr : m.red_ p = true)
    (hg : m.parent_ p = some g) (hl : m.left_ g = some p)
    (hu : m.nonNullRed (m.right_ g) = false) (hx : m.right_ p ≠ some x) :
    InsertFixupLoop hdr (fuel + 1) m x =
      (RotateRight ((m.setRed p false).setRed g true) hdr g).bind
        (fun m' => InsertFixupLoop hdr fuel m' x) := by
  have hx' : ¬ (some x = m.right_ p) := fun e => hx e.symm
  simp [InsertFixupLoop, h, hp, hr, hg, hl, hu, hx']

theorem InsertFixupLoop_zigzagL {m m1 : Mem K} {hdr x p g : Nat} (fuel : Nat)
    (h : Root m hdr ≠ some x) (hp : m.parent_ x = some p) (hr : m.red_ p = true)
    (hg : m.parent_ p = some g) (hl : m.left_ g = some p)
    (hu : m.nonNullRed (m.right_ g) = false) (hx : m.right_ p = some x)
    (h1 : RotateLeft m hdr p = some m1) (hp1 : m1.parent_ p = some x)
    (hg1 : m1.parent_ x = some g) :
    InsertFixupLoop hdr (fuel + 1) m x =
      (RotateRight ((m1.setRed x false).setRed g true) hdr g).bind
        (fun m' => InsertFixupLoop hdr fuel m' p) := by
  simp [InsertFixupLoop, h, hp, hr, hg, hl, hu, hx, h1, hp1, hg1]

theorem InsertFixupLoop_zigzigR {m : Mem K} {hdr x p g : Nat} (fuel : Nat)
    (h : Root m hdr ≠ some x) (hp : m.parent_ x = some p) (hr : m.red_ p = true)
    (hg : m.parent_ p = some g) (hl : m.left_ g ≠ some p)
    (hu : m.nonNullRed (m.left_ g) = false) (hx : m.left_ p ≠ some x) :
    InsertFixupLoop hdr (fuel + 1) m x =
      (RotateLeft ((m.setRed p false).setRed g true) hdr g).bind
        (fun m' => InsertFixupLoop hdr fuel m' x) := by
  have hx' : ¬ (some x = m.left_ p) := fun e => hx e.symm
  have hl' : ¬ (some p = m.left_ g) := fun e => hl e.symm
  simp [InsertFixupLoop, h, hp, hr, hg, hl', hu, hx']

theorem InsertFixupLoop_zigzagR {m m1 : Mem K} {hdr x p g : Nat} (fuel : Nat)
    (h : Root m hdr ≠ some x) (hp : m.parent_ x = some p) (hr : m.red_ p = true)
    (hg : m.parent_ p = some g) (hl : m.left_ g ≠ some p)
    (hu : m.nonNullRed (m.left_ g) = false) (hx : m.left_ p = some x)
    (h1 : RotateRight m hdr p = some m1) (hp1 : m1.parent_ p = some x)
    (hg1 : m1.parent_ x = some g) :
    InsertFixupLoop hdr (fuel + 1) m x =
      (RotateLeft ((m1.setRed x false).setRed g true) hdr g).bind
        (fun m' => InsertFixupLoop hdr fuel m' p) := by
  have hl' : ¬ (some p = m.left_ g) := fun e => hl e.symm
  simp [InsertFixupLoop, h, hp, hr, hg, hl', hu, hx, h1, hp1, hg1]

theorem nonNullRed_ptr (m : Mem K) (s : Sh) :
    m.nonNullRed s.ptr = false ↔ isBlk m.red_ s := by
  cases s <;> simp [Mem.nonNullRed]

theorem fix_exit_black {m : Mem K} {hdr x : Nat} {f : Frame} {c : List Frame} {l r : Sh}
    (fuel : Nat) (h : FixInv m hdr (f :: c) (Sh.node l x r) x) (hb : m.red_ f.addr = false) :
    ∃ m' node', InsertFixupLoop hdr (fuel + 1) m x = some (m', node') ∧
      FixupPost m m' hdr node' (f :: c) (Sh.node l x r) := by
  refine ⟨m, x, InsertFixupLoop_exit_black fuel h.wf.root_cons h.wf.parent_eq hb, ?_⟩
  refine ⟨_, h.wf.toWF, rfl, ?_, ?_, Or.inl ?_, rfl, rfl⟩
  · exact (NoRR_plug _ _ _).2 ⟨h.norr, h.cnorr, Or.inl hb⟩
  · exact (Bal_plug _ _ _).2 ⟨h.bal, h.cbal⟩
  · exact (isBlk_plug _ _ _).2 h.croot

theorem fix_zigzigL {m : Mem K} {hdr x p g : Nat} {c : List Frame} {l r fsib u : Sh}
    (fuel : Nat)
    (h : FixInv m hdr (Frame.left p fsib :: Frame.left g u :: c) (Sh.node l x r) x)
    (hr : m.red_ p = true) (hu : isBlk m.red_ u) :
    ∃ m' node', InsertFixupLoop hdr (fuel + 1 + 1) m x = some (m', node') ∧
      FixupPost m m' hdr node' (Frame.left p fsib :: Frame.left g u :: c) (Sh.node l x r) := by
  obtain ⟨wf, -, hx, norr, bal, cnorr, cbal, croot⟩ := h
  have wfp := wf.up_left
  have wfg := wfp.up_left
  have hnd := wfg.nodup
  simp only [Sh.addrs_node, List.nodup_cons, List.mem_cons, List.mem_append, List.nodup_append,
    List.append_assoc, List.cons_append, not_or, List.disjoint_cons_right,
    List.disjoint_append_right, List.disjoint_cons_left, List.disjoint_append_left] at hnd
  have hxr : m.right_ p ≠ some x := by
    rw [wfp.right_eq]; intro e
    have := Sh.ptr_mem e
    simp [hnd] at this
  have hpx : m.parent_ x = some p := wf.parent_eq
  have hpp : m.parent_ p = some g := wfp.parent_eq
  have hstep := InsertFixupLoop_zigzigL (fuel + 1) wf.root_cons hpx hr hpp
    wfg.left_eq (by rw [wfg.right_eq]; exact (nonNullRed_ptr m u).2 hu) hxr
  have wfg2 : WFz ((m.setRed p false).setRed g true) hdr c
      (Sh.node (Sh.node (Sh.node l x r) p fsib) g u) :=
    (WFz.setRed_iff _ _).2 ((WFz.setRed_iff _ _).2 wfg)
  obtain ⟨m3, hrot, wf3, hred3, hkey3, hnext3⟩ := RotateRight_spec wfg2
  have wfx3 : WFz m3 hdr (Frame.left p (Sh.node fsib g u) :: c) (Sh.node l x r) :=
    wf3.down_left
  have hpx3 : m3.parent_ x = some p := wfx3.parent_eq
  have hexit := @InsertFixupLoop_exit_black K m3 hdr x p fuel wfx3.root_cons hpx3
    (by simp [hred3, hnd])
  refine ⟨m3, x, by rw [hstep, hrot]; simpa using hexit, ?_⟩
  simp only [CtxNoRR, CtxBal, CtxRootBlk, Frame.addr_left, Frame.sib_left, hr, ctxTopBlk,
    forall_true_left, ite_true, Nat.add_zero] at cnorr cbal croot
  obtain ⟨nf, ⟨bf, bg⟩, nu, -, cn⟩ := cnorr
  obtain ⟨e1, bf', e2, bu, cb⟩ := cbal
  simp only [bg, Bool.false_eq_true, ite_false] at cb croot
  refine ⟨_, wf3.toWF, ?_, ?_, ?_, Or.inl ?_, by simp [hkey3], by simp [hnext3]⟩
  · simp [plug_addrs]
  · rw [NoRR_plug]
    simp only [hred3, Mem.setRed_red]
    refine ⟨?_, ?_, Or.inr ?_⟩
    · have n1 : NoRR (upd (upd m.red_ p false) g true) (Sh.node l x r) := by
        simpa [hnd] using norr
      have n2 : NoRR (upd (upd m.red_ p false) g true) fsib := by simpa [hnd] using nf
      have n3 : NoRR (upd (upd m.red_ p false) g true) u := by simpa [hnd] using nu
      have n4 : isBlk (upd (upd m.red_ p false) g true) fsib := by simpa [hnd] using bf
      have n5 : isBlk (upd (upd m.red_ p false) g true) u := by simpa [hnd] using hu
      simp only [NoRR_node, isBlk_node]
      exact ⟨fun hh => by simp [hnd] at hh, n1, fun _ => ⟨n4, n5⟩, n2, n3⟩
    · simpa [hnd] using cn
    · simp [hnd]
  · rw [Bal_plug]
    simp only [hred3, Mem.setRed_red]
    have b1 : Bal (upd (upd m.red_ p false) g true) (Sh.node l x r) := by
      simpa [hnd] using bal
    have b2 : Bal (upd (upd m.red_ p false) g true) fsib := by simpa [hnd] using bf'
    have b3 : Bal (upd (upd m.red_ p false) g true) u := by simpa [hnd] using bu
    have h1 : bh (upd (upd m.red_ p false) g true) (Sh.node l x r) =
        bh m.red_ (Sh.node l x r) := by simp [hnd]
    have h2 : bh (upd (upd m.red_ p false) g true) fsib = bh m.red_ fsib := by simp [hnd]
    have h3 : bh (upd (upd m.red_ p false) g true) u = bh m.red_ u := by simp [hnd]
    refine ⟨⟨?_, b1, ?_, b2, b3⟩, ?_⟩
    · simp only [bh_node, h1, h2, upd_same]
      simp only [bh_node] at e1
      simp [e1]
    · rw [h2, h3, e1, e2]
    · have : bh (upd (upd m.red_ p false) g true) (Sh.node (Sh.node l x r) p (Sh.node fsib g u))
          = bh m.red_ (Sh.node l x r) + 1 := by
        rw [bh_node, h1]
        simp [hnd]
      rw [this]
      simpa [hnd] using cb
  · rw [isBlk_plug]
    simp only [hred3, Mem.setRed_red, isBlk_node]
    have : upd (upd m.red_ p false) g true p = false := by simp [hnd]
    simp only [this]
    simpa [hnd] using croot

theorem FixupPost.transfer {m0 m m' : Mem K} {hdr node' : Nat} {c0 c : List Frame} {s0 s : Sh}
    (h : FixupPost m m' hdr node' c s) (ha : (plug c s).addrs = (plug c0 s0).addrs)
    (hk : m.key_ = m0.key_) (hn : m.next = m0.next) : FixupPost m0 m' hdr node' c0 s0 := by
  obtain ⟨sh', h1, h2, h3, h4, h5, h6, h7⟩ := h
  exact ⟨sh', h1, h2.trans ha, h3, h4, h5, h6.trans hk, h7.trans hn⟩

theorem fix_zigzagL {m : Mem K} {hdr x p g : Nat} {c : List Frame} {l r fsib u : Sh}
    (fuel : Nat)
    (h : FixInv m hdr (Frame.right fsib p :: Frame.left g u :: c) (Sh.node l x r) x)
    (hr : m.red_ p = true) (hu : isBlk m.red_ u) :
    ∃ m' node', InsertFixupLoop hdr (fuel + 1 + 1) m x = some (m', node') ∧
      FixupPost m m' hdr node' (Frame.right fsib p :: Frame.left g u :: c) (Sh.node l x r) := by
  obtain ⟨wf, -, hx, norr, bal, cnorr, cbal, croot⟩ := h
  have wfp := wf.up_right
  have wfg := wfp.up_left
  have hnd := wfg.nodup
  simp only [Sh.addrs_node, List.nodup_cons, List.mem_cons, List.mem_append, List.nodup_append,
    List.append_assoc, List.cons_append, not_or, List.disjoint_cons_right,
    List.disjoint_append_right, List.disjoint_cons_left, List.disjoint_append_left] at hnd
  obtain ⟨m1, hrot, wf1, hred1, hkey1, hnext1⟩ := RotateLeft_spec wfp
  have wfp1 : WFz m1 hdr (Frame.left x r :: Frame.left g u :: c) (Sh.node fsib p l) :=
    wf1.down_left
  have wfx1 := wfp1.up_left
  have wfg1 := wfx1.up_left
  have hpx : m.parent_ x = some p := wf.parent_eq
  have hpp : m.parent_ p = some g := wfp.parent_eq
  have hpp1 : m1.parent_ p = some x := wfp1.parent_eq
  have hpx1 : m1.parent_ x = some g := wfx1.parent_eq
  have hunc : m.nonNullRed (m.right_ g) = false := by
    rw [wfg.right_eq]; exact (nonNullRed_ptr m u).2 hu
  have hunc1 : m1.nonNullRed (m1.right_ g) = false := by
    rw [wfg1.right_eq]; exact (nonNullRed_ptr m1 u).2 (by rw [hred1]; exact hu)
  have hstep := InsertFixupLoop_zigzagL (fuel + 1) wf.root_cons hpx hr hpp wfg.left_eq hunc
    wfp.right_eq hrot hpp1 hpx1
  have hxr1 : m1.right_ x ≠ some p := by
    rw [wfx1.right_eq]; intro e
    have := Sh.ptr_mem e
    simp [hnd] at this
  have hstep1 := InsertFixupLoop_zigzigL (fuel + 1) wfp1.root_cons hpp1
    (by rw [hred1]; exact hx) hpx1 wfg1.left_eq hunc1 hxr1
  simp only [CtxNoRR, CtxBal, CtxRootBlk, Frame.addr_left, Frame.sib_left, Frame.addr_right,
    Frame.sib_right, hr, ctxTopBlk, forall_true_left, ite_true, Nat.add_zero] at cnorr cbal croot
  obtain ⟨nf, ⟨bf, bg⟩, nu, hgu, cn⟩ := cnorr
  obtain ⟨e1, bf', e2, bu, cb⟩ := cbal
  simp only [NoRR_node, Bal_node, bh_node, hx, ite_true, Nat.add_zero, forall_true_left]
    at norr bal e1 e2 cb
  have inv1 : FixInv m1 hdr (Frame.left x r :: Frame.left g u :: c) (Sh.node fsib p l) p := by
    refine ⟨wfp1, rfl, by rw [hred1]; exact hr, ?_, ?_, ?_, ?_, ?_⟩
    · rw [hred1]
      simp only [NoRR_node]
      exact ⟨fun _ => ⟨bf, norr.1.1⟩, nf, norr.2.1⟩
    · rw [hred1]
      simp only [Bal_node]
      exact ⟨e1, bf', bal.2.1⟩
    · rw [hred1]
      simp only [CtxNoRR, Frame.addr_left, Frame.sib_left, ctxTopBlk]
      exact ⟨norr.2.2, fun _ => ⟨norr.1.2, bg⟩, nu, hgu, cn⟩
    · rw [hred1]
      simp only [CtxBal, bh_node, hr, hx, ite_true, Nat.add_zero]
      exact ⟨by omega, bal.2.2, by omega, bu, by rw [e1]; exact cb⟩
    · rw [hred1]
      exact croot
  obtain ⟨m', node', hl, hpost⟩ := fix_zigzigL fuel inv1 (by rw [hred1]; exact hx)
    (by rw [hred1]; exact hu)
  refine ⟨m', node', ?_, hpost.transfer (by simp [plug_addrs]) hkey1 hnext1⟩
  rw [hstep, ← hstep1]
  exact hl

theorem fix_zigzigR {m : Mem K} {hdr x p g : Nat} {c : List Frame} {l r fsib u : Sh}
    (fuel : Nat)
    (h : FixInv m hdr (Frame.right fsib p :: Frame.right u g :: c) (Sh.node l x r) x)
    (hr : m.red_ p = true) (hu : isBlk m.red_ u) :
    ∃ m' node', InsertFixupLoop hdr (fuel + 1 + 1) m x = some (m', node') ∧
      FixupPost m m' hdr node' (Frame.right fsib p :: Frame.right u g :: c) (Sh.node l x r) := by
  obtain ⟨wf, -, hx, norr, bal, cnorr, cbal, croot⟩ := h
  have wfp := wf.up_right
  have wfg := wfp.up_right
  have hnd := wfg.nodup
  simp only [Sh.addrs_node, List.nodup_cons, List.mem_cons, List.mem_append, List.nodup_append,
    List.append_assoc, List.cons_append, not_or, List.disjoint_cons_right,
    List.disjoint_append_right, List.disjoint_cons_left, List.disjoint_append_left] at hnd
  have hxl : m.left_ p ≠ some x := by
    rw [wfp.left_eq]; intro e
    have := Sh.ptr_mem e
    simp [hnd] at this
  have hgl : m.left_ g ≠ some p := by
    rw [wfg.left_eq]; intro e
    have := Sh.ptr_mem e
    simp [hnd] at this
  have hpx : m.parent_ x = some p := wf.parent_eq
  have hpp : m.parent_ p = some g := wfp.parent_eq
  have hstep := InsertFixupLoop_zigzigR (fuel + 1) wf.root_cons hpx hr hpp
    hgl (by rw [wfg.left_eq]; exact (nonNullRed_ptr m u).2 hu) hxl
  have wfg2 : WFz ((m.setRed p false).setRed g true) hdr c
      (Sh.node u g (Sh.node fsib p (Sh.node l x r))) :=
    (WFz.setRed_iff _ _).2 ((WFz.setRed_iff _ _).2 wfg)
  obtain ⟨m3, hrot, wf3, hred3, hkey3, hnext3⟩ := RotateLeft_spec wfg2
  have wfx3 : WFz m3 hdr (Frame.right (Sh.node u g fsib) p :: c) (Sh.node l x r) :=
    wf3.down_right
  have hpx3 : m3.parent_ x = some p := wfx3.parent_eq
  have hexit := @InsertFixupLoop_exit_black K m3 hdr x p fuel wfx3.root_cons hpx3
    (by simp [hred3, hnd])
  refine ⟨m3, x, by rw [hstep, hrot]; simpa using hexit, ?_⟩
  simp only [CtxNoRR, CtxBal, CtxRootBlk, Frame.addr_right, Frame.sib_right, hr, ctxTopBlk,
    forall_true_left, ite_true, Nat.add_zero] at cnorr cbal croot
  obtain ⟨nf, ⟨bf, bg⟩, nu, -, cn⟩ := cnorr
  obtain ⟨e1, bf', e2, bu, cb⟩ := cbal
  simp only [bg, Bool.false_eq_true, ite_false] at cb croot
  refine ⟨_, wf3.toWF, ?_, ?_, ?_, Or.inl ?_, by simp [hkey3], by simp [hnext3]⟩
  · simp [plug_addrs]
  · rw [NoRR_plug]
    simp only [hred3, Mem.setRed_red]
    refine ⟨?_, ?_, Or.inr ?_⟩
    · have n1 : NoRR (upd (upd m.red_ p false) g true) (Sh.node l x r) := by
        simpa [hnd] using norr
      have n2 : NoRR (upd (upd m.red_ p false) g true) fsib := by simpa [hnd] using nf
      have n3 : NoRR (upd (upd m.red_ p false) g true) u := by simpa [hnd] using nu
      have n4 : isBlk (upd (upd m.red_ p false) g true) fsib := by simpa [hnd] using bf
      have n5 : isBlk (upd (upd m.red_ p false) g true) u := by simpa [hnd] using hu
      simp only [NoRR_node, isBlk_node]
      exact ⟨fun hh => by simp [hnd] at hh, ⟨fun _ => ⟨n5, n4⟩, n3, n2⟩, n1⟩
    · simpa [hnd] using cn
    · simp [hnd]
  · rw [Bal_plug]
    simp only [hred3, Mem.setRed_red]
    have b1 : Bal (upd (upd m.red_ p false) g true) (Sh.node l x r) := by
      simpa [hnd] using bal
    have b2 : Bal (upd (upd m.red_ p false) g true) fsib := by simpa [hnd] using bf'
    have b3 : Bal (upd (upd m.red_ p false) g true) u := by simpa [hnd] using bu
    have h1 : bh (upd (upd m.red_ p false) g true) (Sh.node l x r) =
        bh m.red_ (Sh.node l x r) := by simp [hnd]
    have h2 : bh (upd (upd m.red_ p false) g true) fsib = bh m.red_ fsib := by simp [hnd]
    have h3 : bh (upd (upd m.red_ p false) g true) u = bh m.red_ u := by simp [hnd]
    refine ⟨⟨?_, ⟨?_, b3, b2⟩, b1⟩, ?_⟩
    · simp only [bh_node, h1, h3, upd_same]
      simp only [bh_node] at e2
      simp [e2]
    · rw [h2, h3, e1, e2]
    · have : bh (upd (upd m.red_ p false) g true) (Sh.node (Sh.node u g fsib) p (Sh.node l x r))
          = bh m.red_ (Sh.node l x r) + 1 := by
        rw [bh_node, bh_node, h3, e2]
        simp [hnd]
      rw [this]
      simpa [hnd] using cb
  · rw [isBlk_plug]
    simp only [hred3, Mem.setRed_red, isBlk_node]
    have : upd (upd m.red_ p false) g true p = false := by simp [hnd]
    simp only [this]
    simpa [hnd] using croot

theorem fix_zigzagR {m : Mem K} {hdr x p g : Nat} {c : List Frame} {l r fsib u : Sh}
    (fuel : Nat)
    (h : FixInv m hdr (Frame.left p fsib :: Frame.right u g :: c) (Sh.node l x r) x)
    (hr : m.red_ p = true) (hu : isBlk m.red_ u) :
    ∃ m' node', InsertFixupLoop hdr (fuel + 1 + 1) m x = some (m', node') ∧
      FixupPost m m' hdr node' (Frame.left p fsib :: Frame.right u g :: c) (Sh.node l x r) := by
  obtain ⟨wf, -, hx, norr, bal, cnorr, cbal, croot⟩ := h
  have wfp := wf.up_left
  have wfg := wfp.up_right
  have hnd := wfg.nodup
  simp only [Sh.addrs_node, List.nodup_cons, List.mem_cons, List.mem_append, List.nodup_append,
    List.append_assoc, List.cons_append, not_or, List.disjoint_cons_right,
    List.disjoint_append_right, List.disjoint_cons_left, List.disjoint_append_left] at hnd
  obtain ⟨m1, hrot, wf1, hred1, hkey1, hnext1⟩ := RotateRight_spec wfp
  have wfp1 : WFz m1 hdr (Frame.right l x :: Frame.right u g :: c) (Sh.node r p fsib) :=
    wf1.down_right
  have wfx1 := wfp1.up_right
  have wfg1 := wfx1.up_right
  have hpx : m.parent_ x = some p := wf.parent_eq
  have hpp : m.parent_ p = some g := wfp.parent_eq
  have hpp1 : m1.parent_ p = some x := wfp1.parent_eq
  have hpx1 : m1.parent_ x = some g := wfx1.parent_eq
  have hgl : m.left_ g ≠ some p := by
    rw [wfg.left_eq]; intro e
    have := Sh.ptr_mem e
    simp [hnd] at this
  have hgl1 : m1.left_ g ≠ some x := by
    rw [wfg1.left_eq]; intro e
    have := Sh.ptr_mem e
    simp [hnd] at this
  have hunc : m.nonNullRed (m.left_ g) = false := by
    rw [wfg.left_eq]; exact (nonNullRed_ptr m u).2 hu
  have hunc1 : m1.nonNullRed (m1.left_ g) = false := by
    rw [wfg1.left_eq]; exact (nonNullRed_ptr m1 u).2 (by rw [hred1]; exact hu)
  have hstep := InsertFixupLoop_zigzagR (fuel + 1) wf.root_cons hpx hr hpp hgl hunc
    wfp.left_eq hrot hpp1 hpx1
  have hxl1 : m1.left_ x ≠ some p := by
    rw [wfx1.left_eq]; intro e
    have := Sh.ptr_mem e
    simp [hnd] at this
  have hstep1 := InsertFixupLoop_zigzigR (fuel + 1) wfp1.root_cons hpp1
    (by rw [hred1]; exact hx) hpx1 hgl1 hunc1 hxl1
  simp only [CtxNoRR, CtxBal, CtxRootBlk, Frame.addr_left, Frame.sib_left, Frame.addr_right,
    Frame.sib_right, hr, ctxTopBlk, forall_true_left, ite_true, Nat.add_zero] at cnorr cbal croot
  obtain ⟨nf, ⟨bf, bg⟩, nu, hgu, cn⟩ := cnorr
  obtain ⟨e1, bf', e2, bu, cb⟩ := cbal
  simp only [NoRR_node, Bal_node, bh_node, hx, ite_true, Nat.add_zero, forall_true_left]
    at norr bal e1 e2 cb
  have inv1 : FixInv m1 hdr (Frame.right l x :: Frame.right u g :: c) (Sh.node r p fsib) p := by
    refine ⟨wfp1, rfl, by rw [hred1]; exact hr, ?_, ?_, ?_, ?_, ?_⟩
    · rw [hred1]
      simp only [NoRR_node]
      exact ⟨fun _ => ⟨norr.1.2, bf⟩, norr.2.2, nf⟩
    · rw [hred1]
      simp only [Bal_node]
      exact ⟨by omega, bal.2.2, bf'⟩
    · rw [hred1]
      simp only [CtxNoRR, Frame.addr_right, Frame.sib_right, ctxTopBlk]
      exact ⟨norr.2.1, fun _ => ⟨norr.1.1, bg⟩, nu, hgu, cn⟩
    · rw [hred1]
      simp only [CtxBal, bh_node, hr, hx, ite_true, Nat.add_zero]
      exact ⟨by omega, bal.2.1, by omega, bu, by rw [← bal.1]; exact cb⟩
    · rw [hred1]
      exact croot
  obtain ⟨m', node', hl, hpost⟩ := fix_zigzigR fuel inv1 (by rw [hred1]; exact hx)
    (by rw [hred1]; exact hu)
  refine ⟨m', node', ?_, hpost.transfer (by simp [plug_addrs]) hkey1 hnext1⟩
  rw [hstep, ← hstep1]
  exact hl

theorem fix_recolorLL {m : Mem K} {hdr x p g ua : Nat} {c : List Frame}
    {l r fsib ul ur : Sh} (fuel : Nat)
    (h : FixInv m hdr (Frame.left p fsib :: Frame.left g (Sh.node ul ua ur) :: c) (Sh.node l x r) x)
    (hr : m.red_ p = true) (hur : m.red_ ua = true) :
    InsertFixupLoop hdr (fuel + 1) m x =
        InsertFixupLoop hdr fuel (((m.setRed p false).setRed ua false).setRed g true) g ∧
      FixInv (((m.setRed p false).setRed ua false).setRed g true) hdr c
        (Sh.node (Sh.node (Sh.node l x r) p fsib) g (Sh.node ul ua ur)) g := by
  obtain ⟨wf, -, hx, norr, bal, cnorr, cbal, croot⟩ := h
  have wfp := wf.up_left
  have wfg := wfp.up_left
  have hnd := wfg.nodup
  simp only [Sh.addrs_node, List.nodup_cons, List.mem_cons, List.mem_append, List.nodup_append,
    List.append_assoc, List.cons_append, not_or, List.disjoint_cons_right,
    List.disjoint_append_right, List.disjoint_cons_left, List.disjoint_append_left] at hnd
  have hpx : m.parent_ x = some p := wf.parent_eq
  have hpp : m.parent_ p = some g := wfp.parent_eq
  have hstep := InsertFixupLoop_recolorL fuel wf.root_cons hpx hr hpp wfg.left_eq
    wfg.right_eq hur
  simp only [CtxNoRR, CtxBal, CtxRootBlk, Frame.addr_left, Frame.sib_left, Frame.addr_right,
    Frame.sib_right, hr, ctxTopBlk, forall_true_left, ite_true, Nat.add_zero] at cnorr cbal croot
  obtain ⟨nf, ⟨bf, bg⟩, nu, -, cn⟩ := cnorr
  obtain ⟨e1, bf', e2, bu, cb⟩ := cbal
  simp only [bg, Bool.false_eq_true, ite_false] at cb croot
  simp only [NoRR_node, Bal_node, bh_node, hx, hur, ite_true, Nat.add_zero, forall_true_left]
    at norr bal e1 e2 cb nu bu
  refine ⟨hstep, (WFz.setRed_iff _ _).2 ((WFz.setRed_iff _ _).2 ((WFz.setRed_iff _ _).2 wfg)),
    rfl, by simp, ?_, ?_, ?_, ?_, ?_⟩
  · simp only [Mem.setRed_red, NoRR_node, isBlk_node]
    have n1 : NoRR (upd (upd (upd m.red_ p false) ua false) g true) l := by
      simpa [hnd] using norr.2.1
    have n2 : NoRR (upd (upd (upd m.red_ p false) ua false) g true) r := by
      simpa [hnd] using norr.2.2
    have n3 : NoRR (upd (upd (upd m.red_ p false) ua false) g true) fsib := by
      simpa [hnd] using nf
    have n4 : NoRR (upd (upd (upd m.red_ p false) ua false) g true) ul := by
      simpa [hnd] using nu.2.1
    have n5 : NoRR (upd (upd (upd m.red_ p false) ua false) g true) ur := by
      simpa [hnd] using nu.2.2
    have n6 : isBlk (upd (upd (upd m.red_ p false) ua false) g true) l := by
      simpa [hnd] using norr.1.1
    have n7 : isBlk (upd (upd (upd m.red_ p false) ua false) g true) r := by
      simpa [hnd] using norr.1.2
    have c1 : upd (upd (upd m.red_ p false) ua false) g true p = false := by simp [hnd]
    have c2 : upd (upd (upd m.red_ p false) ua false) g true ua = false := by simp [hnd]
    have nx : NoRR (upd (upd (upd m.red_ p false) ua false) g true) (Sh.node l x r) := by
      simp only [NoRR_node]
      exact ⟨fun _ => ⟨n6, n7⟩, n1, n2⟩
    simp only [NoRR_node] at nx
    exact ⟨fun _ => ⟨c1, c2⟩, ⟨fun hh => by simp [c1] at hh, nx, n3⟩, fun hh => by simp [c2] at hh, n4, n5⟩
  · simp only [Mem.setRed_red, Bal_node, bh_node]
    have b1 : Bal (upd (upd (upd m.red_ p false) ua false) g true) l := by
      simpa [hnd] using bal.2.1
    have b2 : Bal (upd (upd (upd m.red_ p false) ua false) g true) r := by
      simpa [hnd] using bal.2.2
    have b3 : Bal (upd (upd (upd m.red_ p false) ua false) g true) fsib := by
      simpa [hnd] using bf'
    have b4 : Bal (upd (upd (upd m.red_ p false) ua false) g true) ul := by
      simpa [hnd] using bu.2.1
    have b5 : Bal (upd (upd (upd m.red_ p false) ua false) g true) ur := by
      simpa [hnd] using bu.2.2
    have h1 : bh (upd (upd (upd m.red_ p false) ua false) g true) l = bh m.red_ l := by
      simp [hnd]
    have h2 : bh (upd (upd (upd m.red_ p false) ua false) g true) r = bh m.red_ r := by
      simp [hnd]
    have h3 : bh (upd (upd (upd m.red_ p false) ua false) g true) fsib = bh m.red_ fsib := by
      simp [hnd]
    have h4 : bh (upd (upd (upd m.red_ p false) ua false) g true) ul = bh m.red_ ul := by
      simp [hnd]
    have h5 : bh (upd (upd (upd m.red_ p false) ua false) g true) ur = bh m.red_ ur := by
      simp [hnd]
    have c1 : upd (upd (upd m.red_ p false) ua false) g true p = false := by simp [hnd]
    have c2 : upd (upd (upd m.red_ p false) ua false) g true ua = false := by simp [hnd]
    have c3 : upd (upd (upd m.red_ p false) ua false) g true x = true := by simp [hnd, hx]
    simp only [h1, h2, h3, h4, h5, c1, c2, c3, ite_true, Nat.add_zero, Bool.false_eq_true,
      ite_false]
    exact ⟨by omega, ⟨by omega, ⟨by omega, b1, b2⟩, b3⟩, by omega, b4, b5⟩
  · simpa [hnd] using cn
  · have : bh (((m.setRed p false).setRed ua false).setRed g true).red_ (Sh.node (Sh.node (Sh.node l x r) p fsib) g (Sh.node ul ua ur)) =
        bh m.red_ l + 1 := by
      simp only [Mem.setRed_red, bh_node]
      have h1 : bh (upd (upd (upd m.red_ p false) ua false) g true) l = bh m.red_ l := by
        simp [hnd]
      have h3 : bh (upd (upd (upd m.red_ p false) ua false) g true) fsib = bh m.red_ fsib := by
        simp [hnd]
      have h4 : bh (upd (upd (upd m.red_ p false) ua false) g true) ul = bh m.red_ ul := by
        simp [hnd]
      have c1 : upd (upd (upd m.red_ p false) ua false) g true p = false := by simp [hnd]
      have c2 : upd (upd (upd m.red_ p false) ua false) g true ua = false := by simp [hnd]
      have c3 : upd (upd (upd m.red_ p false) ua false) g true x = true := by simp [hnd, hx]
      have c4 : upd (upd (upd m.red_ p false) ua false) g true g = true := by simp
      simp only [h1, h3, h4, c1, c2, c3, c4, ite_true, Nat.add_zero, Bool.false_eq_true,
        ite_false]
      all_goals omega
    rw [this]
    simpa [hnd] using cb
  · simpa [hnd] using croot

theorem fix_recolorRL {m : Mem K} {hdr x p g ua : Nat} {c : List Frame}
    {l r fsib ul ur : Sh} (fuel : Nat)
    (h : FixInv m hdr (Frame.right fsib p :: Frame.left g (Sh.node ul ua ur) :: c) (Sh.node l x r) x)
    (hr : m.red_ p = true) (hur : m.red_ ua = true) :
    InsertFixupLoop hdr (fuel + 1) m x =
        InsertFixupLoop hdr fuel (((m.setRed p false).setRed ua false).setRed g true) g ∧
      FixInv (((m.setRed p false).setRed ua false).setRed g true) hdr c
        (Sh.node (Sh.node fsib p (Sh.node l x r)) g (Sh.node ul ua ur)) g := by
  obtain ⟨wf, -, hx, norr, bal, cnorr, cbal, croot⟩ := h
  have wfp := wf.up_right
  have wfg := wfp.up_left
  have hnd := wfg.nodup
  simp only [Sh.addrs_node, List.nodup_cons, List.mem_cons, List.mem_append, List.nodup_append,
    List.append_assoc, List.cons_append, not_or, List.disjoint_cons_right,
    List.disjoint_append_right, List.disjoint_cons_left, List.disjoint_append_left] at hnd
  have hpx : m.parent_ x = some p := wf.parent_eq
  have hpp : m.parent_ p = some g := wfp.parent_eq
  have hstep := InsertFixupLoop_recolorL fuel wf.root_cons hpx hr hpp wfg.left_eq
    wfg.right_eq hur
  simp only [CtxNoRR, CtxBal, CtxRootBlk, Frame.addr_left, Frame.sib_left, Frame.addr_right,
    Frame.sib_right, hr, ctxTopBlk, forall_true_left, ite_true, Nat.add_zero] at cnorr cbal croot
  obtain ⟨nf, ⟨bf, bg⟩, nu, -, cn⟩ := cnorr
  obtain ⟨e1, bf', e2, bu, cb⟩ := cbal
  simp only [bg, Bool.false_eq_true, ite_false] at cb croot
  simp only [NoRR_node, Bal_node, bh_node, hx, hur, ite_true, Nat.add_zero, forall_true_left]
    at norr bal e1 e2 cb nu bu
  refine ⟨hstep, (WFz.setRed_iff _ _).2 ((WFz.setRed_iff _ _).2 ((WFz.setRed_iff _ _).2 wfg)),
    rfl, by simp, ?_, ?_, ?_, ?_, ?_⟩
  · simp only [Mem.setRed_red, NoRR_node, isBlk_node]
    have n1 : NoRR (upd (upd (upd m.red_ p false) ua false) g true) l := by
      simpa [hnd] using norr.2.1
    have n2 : NoRR (upd (upd (upd m.red_ p false) ua false) g true) r := by
      simpa [hnd] using norr.2.2
    have n3 : NoRR (upd (upd (upd m.red_ p false) ua false) g true) fsib := by
      simpa [hnd] using nf
    have n4 : NoRR (upd (upd (upd m.red_ p false) ua false) g true) ul := by
      simpa [hnd] using nu.2.1
    have n5 : NoRR (upd (upd (upd m.red_ p false) ua false) g true) ur := by
      simpa [hnd] using nu.2.2
    have n6 : isBlk (upd (upd (upd m.red_ p false) ua false) g true) l := by
      simpa [hnd] using norr.1.1
    have n7 : isBlk (upd (upd (upd m.red_ p false) ua false) g true) r := by
      simpa [hnd] using norr.1.2
    have c1 : upd (upd (upd m.red_ p false) ua false) g true p = false := by simp [hnd]
    have c2 : upd (upd (upd m.red_ p false) ua false) g true ua = false := by simp [hnd]
    have nx : NoRR (upd (upd (upd m.red_ p false) ua false) g true) (Sh.node l x r) := by
      simp only [NoRR_node]
      exact ⟨fun _ => ⟨n6, n7⟩, n1, n2⟩
    simp only [NoRR_node] at nx
    exact ⟨fun _ => ⟨c1, c2⟩, ⟨fun hh => by simp [c1] at hh, n3, nx⟩, fun hh => by simp [c2] at hh, n4, n5⟩
  · simp only [Mem.setRed_red, Bal_node, bh_node]
    have b1 : Bal (upd (upd (upd m.red_ p false) ua false) g true) l := by
      simpa [hnd] using bal.2.1
    have b2 : Bal (upd (upd (upd m.red_ p false) ua false) g true) r := by
      simpa [hnd] using bal.2.2
    have b3 : Bal (upd (upd (upd m.red_ p false) ua false) g true) fsib := by
      simpa [hnd] using bf'
    have b4 : Bal (upd (upd (upd m.red_ p false) ua false) g true) ul := by
      simpa [hnd] using bu.2.1
    have b5 : Bal (upd (upd (upd m.red_ p false) ua false) g true) ur := by
      simpa [hnd] using bu.2.2
    have h1 : bh (upd (upd (upd m.red_ p false) ua false) g true) l = bh m.red_ l := by
      simp [hnd]
    have h2 : bh (upd (upd (upd m.red_ p false) ua false) g true) r = bh m.red_ r := by
      simp [hnd]
    have h3 : bh (upd (upd (upd m.red_ p false) ua false) g true) fsib = bh m.red_ fsib := by
      simp [hnd]
    have h4 : bh (upd (upd (upd m.red_ p false) ua false) g true) ul = bh m.red_ ul := by
      simp [hnd]
    have h5 : bh (upd (upd (upd m.red_ p false) ua false) g true) ur = bh m.red_ ur := by
      simp [hnd]
    have c1 : upd (upd (upd m.red_ p false) ua false) g true p = false := by simp [hnd]
    have c2 : upd (upd (upd m.red_ p false) ua false) g true ua = false := by simp [hnd]
    have c3 : upd (upd (upd m.red_ p false) ua false) g true x = true := by simp [hnd, hx]
    simp only [h1, h2, h3, h4, h5, c1, c2, c3, ite_true, Nat.add_zero, Bool.false_eq_true,
      ite_false]
    exact ⟨by omega, ⟨by omega, b3, by omega, b1, b2⟩, by omega, b4, b5⟩
  · simpa [hnd] using cn
  · have : bh (((m.setRed p false).setRed ua false).setRed g true).red_ (Sh.node (Sh.node fsib p (Sh.node l x r)) g (Sh.node ul ua ur)) =
        bh m.red_ l + 1 := by
      simp only [Mem.setRed_red, bh_node]
      have h1 : bh (upd (upd (upd m.red_ p false) ua false) g true) l = bh m.red_ l := by
        simp [hnd]
      have h3 : bh (upd (upd (upd m.red_ p false) ua false) g true) fsib = bh m.red_ fsib := by
        simp [hnd]
      have h4 : bh (upd (upd (upd m.red_ p false) ua false) g true) ul = bh m.red_ ul := by
        simp [hnd]
      have c1 : upd (upd (upd m.red_ p false) ua false) g true p = false := by simp [hnd]
      have c2 : upd (upd (upd m.red_ p false) ua false) g true ua = false := by simp [hnd]
      have c3 : upd (upd (upd m.red_ p false) ua false) g true x = true := by simp [hnd, hx]
      have c4 : upd (upd (upd m.red_ p false) ua false) g true g = true := by simp
      simp only [h1, h3, h4, c1, c2, c3, c4, ite_true, Nat.add_zero, Bool.false_eq_true,
        ite_false]
      all_goals omega
    rw [this]
    simpa [hnd] using cb
  · simpa [hnd] using croot

theorem fix_recolorLR {m : Mem K} {hdr x p g ua : Nat} {c : List Frame}
    {l r fsib ul ur : Sh} (fuel : Nat)
    (h : FixInv m hdr (Frame.left p fsib :: Frame.right (Sh.node ul ua ur) g :: c) (Sh.node l x r) x)
    (hr : m.red_ p = true) (hur : m.red_ ua = true) :
    InsertFixupLoop hdr (fuel + 1) m x =
        InsertFixupLoop hdr fuel (((m.setRed p false).setRed ua false).setRed g true) g ∧
      FixInv (((m.setRed p false).setRed ua false).setRed g true) hdr c
        (Sh.node (Sh.node ul ua ur) g (Sh.node (Sh.node l x r) p fsib)) g := by
  obtain ⟨wf, -, hx, norr, bal, cnorr, cbal, croot⟩ := h
  have wfp := wf.up_left
  have wfg := wfp.up_right
  have hnd := wfg.nodup
  simp only [Sh.addrs_node, List.nodup_cons, List.mem_cons, List.mem_append, List.nodup_append,
    List.append_assoc, List.cons_append, not_or, List.disjoint_cons_right,
    List.disjoint_append_right, List.disjoint_cons_left, List.disjoint_append_left] at hnd
  have hpx : m.parent_ x = some p := wf.parent_eq
  have hpp : m.parent_ p = some g := wfp.parent_eq
  have hgl : m.left_ g ≠ some p := by
    rw [wfg.left_eq]; intro e
    simp only [Sh.ptr_node, Option.some.injEq] at e
    omega
  have hstep := InsertFixupLoop_recolorR fuel wf.root_cons hpx hr hpp hgl
    wfg.left_eq hur
  simp only [CtxNoRR, CtxBal, CtxRootBlk, Frame.addr_left, Frame.sib_left, Frame.addr_right,
    Frame.sib_right, hr, ctxTopBlk, forall_true_left, ite_true, Nat.add_zero] at cnorr cbal croot
  obtain ⟨nf, ⟨bf, bg⟩, nu, -, cn⟩ := cnorr
  obtain ⟨e1, bf', e2, bu, cb⟩ := cbal
  simp only [bg, Bool.false_eq_true, ite_false] at cb croot
  simp only [NoRR_node, Bal_node, bh_node, hx, hur, ite_true, Nat.add_zero, forall_true_left]
    at norr bal e1 e2 cb nu bu
  refine ⟨hstep, (WFz.setRed_iff _ _).2 ((WFz.setRed_iff _ _).2 ((WFz.setRed_iff _ _).2 wfg)),
    rfl, by simp, ?_, ?_, ?_, ?_, ?_⟩
  · simp only [Mem.setRed_red, NoRR_node, isBlk_node]
    have n1 : NoRR (upd (upd (upd m.red_ p false) ua false) g true) l := by
      simpa [hnd] using norr.2.1
    have n2 : NoRR (upd (upd (upd m.red_ p false) ua false) g true) r := by
      simpa [hnd] using norr.2.2
    have n3 : NoRR (upd (upd (upd m.red_ p false) ua false) g true) fsib := by
      simpa [hnd] using nf
    have n4 : NoRR (upd (upd (upd m.red_ p false) ua false) g true) ul := by
      simpa [hnd] using nu.2.1
    have n5 : NoRR (upd (upd (upd m.red_ p false) ua false) g true) ur := by
      simpa [hnd] using nu.2.2
    have n6 : isBlk (upd (upd (upd m.red_ p false) ua false) g true) l := by
      simpa [hnd] using norr.1.1
    have n7 : isBlk (upd (upd (upd m.red_ p false) ua false) g true) r := by
      simpa [hnd] using norr.1.2
    have c1 : upd (upd (upd m.red_ p false) ua false) g true p = false := by simp [hnd]
    have c2 : upd (upd (upd m.red_ p false) ua false) g true ua = false := by simp [hnd]
    have nx : NoRR (upd (upd (upd m.red_ p false) ua false) g true) (Sh.node l x r) := by
      simp only [NoRR_node]
      exact ⟨fun _ => ⟨n6, n7⟩, n1, n2⟩
    simp only [NoRR_node] at nx
    exact ⟨fun _ => ⟨c2, c1⟩, ⟨fun hh => by simp [c2] at hh, n4, n5⟩, fun hh => by simp [c1] at hh, nx, n3⟩
  · simp only [Mem.setRed_red, Bal_node, bh_node]
    have b1 : Bal (upd (upd (upd m.red_ p false) ua false) g true) l := by
      simpa [hnd] using bal.2.1
    have b2 : Bal (upd (upd (upd m.red_ p false) ua false) g true) r := by
      simpa [hnd] using bal.2.2
    have b3 : Bal (upd (upd (upd m.red_ p false) ua false) g true) fsib := by
      simpa [hnd] using bf'
    have b4 : Bal (upd (upd (upd m.red_ p false) ua false) g true) ul := by
      simpa [hnd] using bu.2.1
    have b5 : Bal (upd (upd (upd m.red_ p false) ua false) g true) ur := by
      simpa [hnd] using bu.2.2
    have h1 : bh (upd (upd (upd m.red_ p false) ua false) g true) l = bh m.red_ l := by
      simp [hnd]
    have h2 : bh (upd (upd (upd m.red_ p false) ua false) g true) r = bh m.red_ r := by
      simp [hnd]
    have h3 : bh (upd (upd (upd m.red_ p false) ua false) g true) fsib = bh m.red_ fsib := by
      simp [hnd]
    have h4 : bh (upd (upd (upd m.red_ p false) ua false) g true) ul = bh m.red_ ul := by
      simp [hnd]
    have h5 : bh (upd (upd (upd m.red_ p false) ua false) g true) ur = bh m.red_ ur := by
      simp [hnd]
    have c1 : upd (upd (upd m.red_ p false) ua false) g true p = false := by simp [hnd]
    have c2 : upd (upd (upd m.red_ p false) ua false) g true ua = false := by simp [hnd]
    have c3 : upd (upd (upd m.red_ p false) ua false) g true x = true := by simp [hnd, hx]
    simp only [h1, h2, h3, h4, h5, c1, c2, c3, ite_true, Nat.add_zero, Bool.false_eq_true,
      ite_false]
    exact ⟨by omega, ⟨by omega, b4, b5⟩, by omega, ⟨by omega, b1, b2⟩, b3⟩
  · simpa [hnd] using cn
  · have : bh (((m.setRed p false).setRed ua false).setRed g true).red_ (Sh.node (Sh.node ul ua ur) g (Sh.node (Sh.node l x r) p fsib)) =
        bh m.red_ l + 1 := by
      simp only [Mem.setRed_red, bh_node]
      have h1 : bh (upd (upd (upd m.red_ p false) ua false) g true) l = bh m.red_ l := by
        simp [hnd]
      have h3 : bh (upd (upd (upd m.red_ p false) ua false) g true) fsib = bh m.red_ fsib := by
        simp [hnd]
      have h4 : bh (upd (upd (upd m.red_ p false) ua false) g true) ul = bh m.red_ ul := by
        simp [hnd]
      have c1 : upd (upd (upd m.red_ p false) ua false) g true p = false := by simp [hnd]
      have c2 : upd (upd (upd m.red_ p false) ua false) g true ua = false := by simp [hnd]
      have c3 : upd (upd (upd m.red_ p false) ua false) g true x = true := by simp [hnd, hx]
      have c4 : upd (upd (upd m.red_ p false) ua false) g true g = true := by simp
      simp only [h1, h3, h4, c1, c2, c3, c4, ite_true, Nat.add_zero, Bool.false_eq_true,
        ite_false]
      all_goals omega
    rw [this]
    simpa [hnd] using cb
  · simpa [hnd] using croot

theorem fix_recolorRR {m : Mem K} {hdr x p g ua : Nat} {c : List Frame}
    {l r fsib ul ur : Sh} (fuel : Nat)
    (h : FixInv m hdr (Frame.right fsib p :: Frame.right (Sh.node ul ua ur) g :: c) (Sh.node l x r) x)
    (hr : m.red_ p = true) (hur : m.red_ ua = true) :
    InsertFixupLoop hdr (fuel + 1) m x =
        InsertFixupLoop hdr fuel (((m.setRed p false).setRed ua false).setRed g true) g ∧
      FixInv (((m.setRed p false).setRed ua false).setRed g true) hdr c
        (Sh.node (Sh.node ul ua ur) g (Sh.node fsib p (Sh.node l x r))) g := by
  obtain ⟨wf, -, hx, norr, bal, cnorr, cbal, croot⟩ := h
  have wfp := wf.up_right
  have wfg := wfp.up_right
  have hnd := wfg.nodup
  simp only [Sh.addrs_node, List.nodup_cons, List.mem_cons, List.mem_append, List.nodup_append,
    List.append_assoc, List.cons_append, not_or, List.disjoint_cons_right,
    List.disjoint_append_right, List.disjoint_cons_left, List.disjoint_append_left] at hnd
  have hpx : m.parent_ x = some p := wf.parent_eq
  have hpp : m.parent_ p = some g := wfp.parent_eq
  have hgl : m.left_ g ≠ some p := by
    rw [wfg.left_eq]; intro e
    simp only [Sh.ptr_node, Option.some.injEq] at e
    omega
  have hstep := InsertFixupLoop_recolorR fuel wf.root_cons hpx hr hpp hgl
    wfg.left_eq hur
  simp only [CtxNoRR, CtxBal, CtxRootBlk, Frame.addr_left, Frame.sib_left, Frame.addr_right,
    Frame.sib_right, hr, ctxTopBlk, forall_true_left, ite_true, Nat.add_zero] at cnorr cbal croot
  obtain ⟨nf, ⟨bf, bg⟩, nu, -, cn⟩ := cnorr
  obtain ⟨e1, bf', e2, bu, cb⟩ := cbal
  simp only [bg, Bool.false_eq_true, ite_false] at cb croot
  simp only [NoRR_node, Bal_node, bh_node, hx, hur, ite_true, Nat.add_zero, forall_true_left]
    at norr bal e1 e2 cb nu bu
  refine ⟨hstep, (WFz.setRed_iff _ _).2 ((WFz.setRed_iff _ _).2 ((WFz.setRed_iff _ _).2 wfg)),
    rfl, by simp, ?_, ?_, ?_, ?_, ?_⟩
  · simp only [Mem.setRed_red, NoRR_node, isBlk_node]
    have n1 : NoRR (upd (upd (upd m.red_ p false) ua false) g true) l := by
      simpa [hnd] using norr.2.1
    have n2 : NoRR (upd (upd (upd m.red_ p false) ua false) g true) r := by
      simpa [hnd] using norr.2.2
    have n3 : NoRR (upd (upd (upd m.red_ p false) ua false) g true) fsib := by
      simpa [hnd] using nf
    have n4 : NoRR (upd (upd (upd m.red_ p false) ua false) g true) ul := by
      simpa [hnd] using nu.2.1
    have n5 : NoRR (upd (upd (upd m.red_ p false) ua false) g true) ur := by
      simpa [hnd] using nu.2.2
    have n6 : isBlk (upd (upd (upd m.red_ p false) ua false) g true) l := by
      simpa [hnd] using norr.1.1
    have n7 : isBlk (upd (upd (upd m.red_ p false) ua false) g true) r := by
      simpa [hnd] using norr.1.2
    have c1 : upd (upd (upd m.red_ p false) ua false) g true p = false := by simp [hnd]
    have c2 : upd (upd (upd m.red_ p false) ua false) g true ua = false := by simp [hnd]
    have nx : NoRR (upd (upd (upd m.red_ p false) ua false) g true) (Sh.node l x r) := by
      simp only [NoRR_node]
      exact ⟨fun _ => ⟨n6, n7⟩, n1, n2⟩
    simp only [NoRR_node] at nx
    exact ⟨fun _ => ⟨c2, c1⟩, ⟨fun hh => by simp [c2] at hh, n4, n5⟩, fun hh => by simp [c1] at hh, n3, nx⟩
  · simp only [Mem.setRed_red, Bal_node, bh_node]
    have b1 : Bal (upd (upd (upd m.red_ p false) ua false) g true) l := by
      simpa [hnd] using bal.2.1
    have b2 : Bal (upd (upd (upd m.red_ p false) ua false) g true) r := by
      simpa [hnd] using bal.2.2
    have b3 : Bal (upd (upd (upd m.red_ p false) ua false) g true) fsib := by
      simpa [hnd] using bf'
    have b4 : Bal (upd (upd (upd m.red_ p false) ua false) g true) ul := by
      simpa [hnd] using bu.2.1
    have b5 : Bal (upd (upd (upd m.red_ p false) ua false) g true) ur := by
      simpa [hnd] using bu.2.2
    have h1 : bh (upd (upd (upd m.red_ p false) ua false) g true) l = bh m.red_ l := by
      simp [hnd]
    have h2 : bh (upd (upd (upd m.red_ p false) ua false) g true) r = bh m.red_ r := by
      simp [hnd]
    have h3 : bh (upd (upd (upd m.red_ p false) ua false) g true) fsib = bh m.red_ fsib := by
      simp [hnd]
    have h4 : bh (upd (upd (upd m.red_ p false) ua false) g true) ul = bh m.red_ ul := by
      simp [hnd]
    have h5 : bh (upd (upd (upd m.red_ p false) ua false) g true) ur = bh m.red_ ur := by
      simp [hnd]
    have c1 : upd (upd (upd m.red_ p false) ua false) g true p = false := by simp [hnd]
    have c2 : upd (upd (upd m.red_ p false) ua false) g true ua = false := by simp [hnd]
    have c3 : upd (upd (upd m.red_ p false) ua false) g true x = true := by simp [hnd, hx]
    simp only [h1, h2, h3, h4, h5, c1, c2, c3, ite_true, Nat.add_zero, Bool.false_eq_true,
      ite_false]
    exact ⟨by omega, ⟨by omega, b4, b5⟩, by omega, b3, by omega, b1, b2⟩
  · simpa [hnd] using cn
  · have : bh (((m.setRed p false).setRed ua false).setRed g true).red_ (Sh.node (Sh.node ul ua ur) g (Sh.node fsib p (Sh.node l x r))) =
        bh m.red_ l + 1 := by
      simp only [Mem.setRed_red, bh_node]
      have h1 : bh (upd (upd (upd m.red_ p false) ua false) g true) l = bh m.red_ l := by
        simp [hnd]
      have h3 : bh (upd (upd (upd m.red_ p false) ua false) g true) fsib = bh m.red_ fsib := by
        simp [hnd]
      have h4 : bh (upd (upd (upd m.red_ p false) ua false) g true) ul = bh m.red_ ul := by
        simp [hnd]
      have c1 : upd (upd (upd m.red_ p false) ua false) g true p = false := by simp [hnd]
      have c2 : upd (upd (upd m.red_ p false) ua false) g true ua = false := by simp [hnd]
      have c3 : upd (upd (upd m.red_ p false) ua false) g true x = true := by simp [hnd, hx]
      have c4 : upd (upd (upd m.red_ p false) ua false) g true g = true := by simp
      simp only [h1, h3, h4, c1, c2, c3, c4, ite_true, Nat.add_zero, Bool.false_eq_true,
        ite_false]
      all_goals omega
    rw [this]
    simpa [hnd] using cb
  · simpa [hnd] using croot

theorem isBlk_or_red (red : Nat → Bool) (u : Sh) :
    isBlk red u ∨ ∃ ul ua ur, u = Sh.node ul ua ur ∧ red ua = true := by
  cases u with
  | nil => exact Or.inl trivial
  | node ul ua ur =>
    cases h : red ua
    · exact Or.inl h
    · exact Or.inr ⟨ul, ua, ur, rfl, h⟩

theorem InsertFixupLoop_spec (hdr : Nat) :
    ∀ (n : Nat) (c : List Frame) (m : Mem K) (fuel : Nat) (l : Sh) (x : Nat) (r : Sh),
      c.length ≤ n → c.length < fuel → FixInv m hdr c (Sh.node l x r) x →
      ∃ m' node', InsertFixupLoop hdr fuel m x = some (m', node') ∧
        FixupPost m m' hdr node' c (Sh.node l x r) := by
  intro n
  induction n with
  | zero =>
    intro c m fuel l x r hn hf h
    have hc : c = [] := List.length_eq_zero.1 (Nat.le_zero.1 hn)
    subst hc
    obtain ⟨k, rfl⟩ : ∃ k, fuel = k + 1 := ⟨fuel - 1, by simp at hf; omega⟩
    refine ⟨m, x, InsertFixupLoop_exit_root k h.wf.root_nil, ?_⟩
    exact ⟨_, h.wf.toWF, rfl, h.norr, h.bal, Or.inr rfl, rfl, rfl⟩
  | succ n ih =>
    intro c m fuel l x r hn hf h
    rcases c with _ | ⟨f, c⟩
    · obtain ⟨k, rfl⟩ : ∃ k, fuel = k + 1 := ⟨fuel - 1, by simp at hf; omega⟩
      refine ⟨m, x, InsertFixupLoop_exit_root k h.wf.root_nil, ?_⟩
      exact ⟨_, h.wf.toWF, rfl, h.norr, h.bal, Or.inr rfl, rfl, rfl⟩
    · obtain ⟨k, rfl⟩ : ∃ k, fuel = k + 1 := ⟨fuel - 1, by simp at hf; omega⟩
      cases hb : m.red_ f.addr
      · exact fix_exit_black k h hb
      · rcases c with _ | ⟨g, c⟩
        · have := h.croot
          simp [CtxRootBlk, hb] at this
        · obtain ⟨k, rfl⟩ : ∃ j, k = j + 1 := ⟨k - 1, by simp at hf; omega⟩
          simp only [List.length_cons] at hn hf
          cases f with
          | left p fsib =>
            cases g with
            | left g u =>
              rcases isBlk_or_red m.red_ u with hu | ⟨ul, ua, ur, rfl, hur⟩
              · exact fix_zigzigL k h hb hu
              · obtain ⟨hstep, inv⟩ := fix_recolorLL (k + 1) h hb hur
                obtain ⟨m', node', hl, hpost⟩ := ih c _ (k + 1) _ g _ (by omega) (by omega) inv
                exact ⟨m', node', by rw [hstep]; exact hl, hpost.transfer rfl rfl rfl⟩
            | right u g =>
              rcases isBlk_or_red m.red_ u with hu | ⟨ul, ua, ur, rfl, hur⟩
              · exact fix_zigzagR k h hb hu
              · obtain ⟨hstep, inv⟩ := fix_recolorLR (k + 1) h hb hur
                obtain ⟨m', node', hl, hpost⟩ := ih c _ (k + 1) _ g _ (by omega) (by omega) inv
                exact ⟨m', node', by rw [hstep]; exact hl, hpost.transfer rfl rfl rfl⟩
          | right fsib p =>
            cases g with
            | left g u =>
              rcases isBlk_or_red m.red_ u with hu | ⟨ul, ua, ur, rfl, hur⟩
              · exact fix_zigzagL k h hb hu
              · obtain ⟨hstep, inv⟩ := fix_recolorRL (k + 1) h hb hur
                obtain ⟨m', node', hl, hpost⟩ := ih c _ (k + 1) _ g _ (by omega) (by omega) inv
                exact ⟨m', node', by rw [hstep]; exact hl, hpost.transfer rfl rfl rfl⟩
            | right u g =>
              rcases isBlk_or_red m.red_ u with hu | ⟨ul, ua, ur, rfl, hur⟩
              · exact fix_zigzigR k h hb hu
              · obtain ⟨hstep, inv⟩ := fix_recolorRR (k + 1) h hb hur
                obtain ⟨m', node', hl, hpost⟩ := ih c _ (k + 1) _ g _ (by omega) (by omega) inv
                exact ⟨m', node', by rw [hstep]; exact hl, hpost.transfer rfl rfl rfl⟩

theorem NoRR_blacken_root {red : Nat → Bool} {l r : Sh} {a : Nat}
    (h : NoRR red (Sh.node l a r)) (hl : a ∉ l.addrs) (hr : a ∉ r.addrs) :
    NoRR (upd red a false) (Sh.node l a r) := by
  simp only [NoRR_node, upd_same, Bool.false_eq_true, false_implies, true_and] at h ⊢
  exact ⟨(NoRR_upd _ hl).2 h.2.1, (NoRR_upd _ hr).2 h.2.2⟩

theorem Bal_recolor_root {red : Nat → Bool} {l r : Sh} {a : Nat} (v : Bool)
    (h : Bal red (Sh.node l a r)) (hl : a ∉ l.addrs) (hr : a ∉ r.addrs) :
    Bal (upd red a v) (Sh.node l a r) := by
  simp only [Bal_node] at h ⊢
  rw [bh_upd _ hl, bh_upd _ hr]
  exact ⟨h.1, (Bal_upd _ hl).2 h.2.1, (Bal_upd _ hr).2 h.2.2⟩

theorem WF.setRed {m : Mem K} {hdr : Nat} {sh : Sh} (h : WF m hdr sh) (x : Nat) (v : Bool) :
    WF (m.setRed x v) hdr sh :=
  ⟨h.root, h.hleft, h.hright, h.rep, h.nodup, h.bound⟩

/-- The insertion fix-up turns a tree that is in order except for a red node `x` under a
possibly red parent into a red-black tree on the same addresses. -/
theorem InsertFixup_spec {m : Mem K} {hdr : Nat} {c : List Frame} {l r : Sh} {x : Nat}
    (h : FixInv m hdr c (Sh.node l x r) x) :
    ∃ m' sh', InsertFixup m hdr x = some m' ∧ WF m' hdr sh' ∧
      sh'.addrs = (plug c (Sh.node l x r)).addrs ∧ RB m'.red_ sh' ∧
      m'.key_ = m.key_ ∧ m'.next = m.next := by
  have hlen := h.wf.ctx_length_lt
  obtain ⟨m', node', hl, sh', wf', ha, nr, bl, hroot, hk, hn⟩ :=
    InsertFixupLoop_spec hdr c.length c m m.next l x r (Nat.le_refl _) (by omega) h
  unfold InsertFixup
  simp only [hl, Option.bind_eq_bind, Option.some_bind]
  by_cases hr : Root m' hdr = some node'
  · simp only [hr, if_true]
    have hp : sh'.ptr = some node' := by rw [← wf'.root]; exact hr
    cases sh' with
    | nil => simp at hp
    | node l' a r' =>
      simp only [Sh.ptr_node, Option.some.injEq] at hp
      subst hp
      have hnd := wf'.nodup
      simp only [Sh.addrs_node, List.nodup_cons, List.mem_cons, List.mem_append,
        List.nodup_append, not_or, List.disjoint_cons_right] at hnd
      refine ⟨_, _, rfl, wf'.setRed a false, ha, ⟨?_, ?_, ?_⟩, hk, hn⟩
      · simp
      · exact NoRR_blacken_root nr hnd.2.2.2.1 hnd.2.2.1.1
      · exact Bal_recolor_root false bl hnd.2.2.2.1 hnd.2.2.1.1
  · simp only [hr, if_false]
    refine ⟨_, _, rfl, wf', ha, ⟨?_, nr, bl⟩, hk, hn⟩
    rcases hroot with h1 | h1
    · exact h1
    · exact absurd (wf'.root.trans h1) hr

theorem CtxDir_append (p : Nat → Bool) (d c : List Frame) :
    CtxDir p (d ++ c) ↔ (CtxDir p d ∧ CtxDir p c) := by
  induction d with
  | nil => simp [CtxDir]
  | cons f d ih => cases f <;> simp [CtxDir, ih, and_assoc]

theorem CtxFind_append (lt : K → K → Bool) (k : Nat → K) (key : K) (d c : List Frame) :
    CtxFind lt k key (d ++ c) ↔ (CtxFind lt k key d ∧ CtxFind lt k key c) := by
  induction d with
  | nil => simp [CtxFind]
  | cons f d ih => cases f <;> simp [CtxFind, ih, and_assoc]

theorem CtxFind.toDir {lt : K → K → Bool} {k : Nat → K} {key : K} {c : List Frame}
    (h : CtxFind lt k key c) : CtxDir (fun a => lt key (k a)) c := by
  induction c with
  | nil => trivial
  | cons f c ih =>
    cases f with
    | left a r => exact ⟨h.1, ih h.2⟩
    | right l a => exact ⟨h.1, ih h.2.2⟩

theorem Attach_cons (hdr hdr' : Nat) (f : Frame) (c c' : List Frame) (ret : Int) (par : Nat) :
    Attach hdr (f :: c) ret par ↔ Attach hdr' (f :: c') ret par := by
  cases f <;> simp [Attach]

theorem Attach_append {hdr hdr' : Nat} {d c : List Frame} {ret : Int} {par : Nat}
    (hd : d ≠ []) (h : Attach hdr' d ret par) : Attach hdr (d ++ c) ret par := by
  rcases d with _ | ⟨f, d⟩
  · exact absurd rfl hd
  · exact (Attach_cons _ _ f d (d ++ c) ret par).1 h

theorem FindLoop_spec (lt : K → K → Bool) (m : Mem K) (key : K) :
    ∀ (s : Sh) (fuel : Nat) (ret0 : Int) (par0 : Nat) (par : Ptr),
      Rep m.parent_ m.left_ m.right_ s par → s.depth ≤ fuel → ret0 ≠ 0 →
      ∃ ret n, FindLoop lt m key fuel ret0 s.ptr par0 = some (ret, n) ∧
        FindRes lt m.key_ key s ret0 par0 ret n := by
  intro s
  induction s with
  | nil =>
    intro fuel ret0 par0 par _ _ h0
    refine ⟨ret0, par0, by cases fuel <;> simp [FindLoop], Or.inr ⟨h0, [], rfl, trivial, ?_, ?_⟩⟩
    · intro _; exact ⟨rfl, rfl⟩
    · intro h; exact absurd rfl h
  | node l a r ihl ihr =>
    intro fuel ret0 par0 par hrep hd h0
    obtain ⟨k, rfl⟩ : ∃ k, fuel = k + 1 := ⟨fuel - 1, by simp at hd; omega⟩
    obtain ⟨-, hl, hr, repl, repr⟩ := hrep
    simp only [Sh.depth_node] at hd
    simp only [Sh.ptr_node, FindLoop]
    by_cases h1 : lt key (m.key_ a) = true
    · simp only [h1, if_true, hl]
      obtain ⟨ret, n, e, res⟩ := ihl k (-1) a (some a) repl (by omega) (by decide)
      refine ⟨ret, n, e, ?_⟩
      rcases res with ⟨r0, d, l', r', hs, hc, e1, e2⟩ | ⟨r0, d, hs, hc, hn, hne⟩
      · exact Or.inl ⟨r0, d ++ [Frame.left a r], l', r', by simp [plug_append, hs],
          (CtxFind_append _ _ _ _ _).2 ⟨hc, h1, trivial⟩, e1, e2⟩
      · refine Or.inr ⟨r0, d ++ [Frame.left a r], by simp [plug_append, hs],
          (CtxFind_append _ _ _ _ _).2 ⟨hc, h1, trivial⟩, fun h => by simp at h, fun _ => ?_⟩
        rcases d with _ | ⟨f, d⟩
        · obtain ⟨rfl, rfl⟩ := hn rfl
          simp [Attach]
        · exact Attach_append (by simp) (hne (by simp))
    · simp only [h1, if_false]
      simp only [Bool.not_eq_true] at h1
      by_cases h2 : lt (m.key_ a) key = true
      · simp only [h2, if_true, hr]
        obtain ⟨ret, n, e, res⟩ := ihr k 1 a (some a) repr (by omega) (by decide)
        refine ⟨ret, n, e, ?_⟩
        rcases res with ⟨r0, d, l', r', hs, hc, e1, e2⟩ | ⟨r0, d, hs, hc, hn, hne⟩
        · exact Or.inl ⟨r0, d ++ [Frame.right l a], l', r', by simp [plug_append, hs],
            (CtxFind_append _ _ _ _ _).2 ⟨hc, h1, h2, trivial⟩, e1, e2⟩
        · refine Or.inr ⟨r0, d ++ [Frame.right l a], by simp [plug_append, hs],
            (CtxFind_append _ _ _ _ _).2 ⟨hc, h1, h2, trivial⟩, fun h => by simp at h,
            fun _ => ?_⟩
          rcases d with _ | ⟨f, d⟩
          · obtain ⟨rfl, rfl⟩ := hn rfl
            simp [Attach]
          · exact Attach_append (by simp) (hne (by simp))
      · simp only [h2, if_false]
        simp only [Bool.not_eq_true] at h2
        exact ⟨0, a, rfl, Or.inl ⟨rfl, [], l, r, rfl, trivial, h1, h2⟩⟩

theorem plug_length_le (d : List Frame) (s : Sh) : s.addrs.length ≤ (plug d s).addrs.length := by
  rw [plug_addrs]
  simp only [List.length_append]
  omega

theorem WF.depth_lt {m : Mem K} {hdr : Nat} {sh : Sh} (h : WF m hdr sh) :
    sh.addrs.length < m.next := by
  have := nodup_bound_length h.nodup h.bound
  simp only [List.length_cons] at this
  omega

theorem InsertDescend_notfound (lt : K → K → Bool) (m : Mem K) (hdr : Nat) (key : K)
    (uniq : Bool) (fuel : Nat) {ret : Int} (n : Nat) (h : ret ≠ 0) :
    InsertDescend lt m hdr key uniq (fuel + 1) ret n = some (Sum.inr (ret, n)) := by
  simp [InsertDescend, h]

theorem InsertDescend_found (lt : K → K → Bool) (m : Mem K) (hdr : Nat) (key : K)
    (uniq : Bool) (sh : Sh) (hwf : WF m hdr sh) :
    ∀ (j : Nat) (c : List Frame) (l : Sh) (n : Nat) (r : Sh) (fuel : Nat),
      (Sh.node l n r).addrs.length ≤ j → j < fuel → sh = plug c (Sh.node l n r) →
      CtxDir (fun a => lt key (m.key_ a)) c → (uniq = true → CtxFind lt m.key_ key c) →
      lt key (m.key_ n) = false → lt (m.key_ n) key = false →
      ∃ res, InsertDescend lt m hdr key uniq fuel 0 n = some res ∧
        DescRes lt m.key_ key hdr sh uniq res := by
  intro j
  induction j with
  | zero =>
    intro c l n r fuel hj
    simp at hj
  | succ j ih =>
    intro c l n r fuel hj hf hsh hdir hfind e1 e2
    obtain ⟨f, rfl⟩ : ∃ f, fuel = f + 1 := ⟨fuel - 1, by omega⟩
    cases huq : uniq
    · -- duplicates allowed
      have wfz : WFz m hdr c (Sh.node l n r) := (hsh ▸ hwf).toZ
      cases r with
      | nil =>
        refine ⟨Sum.inr (0, n), by simp [InsertDescend, wfz.right_eq], ?_⟩
        exact ⟨Frame.right l n :: c, by simp [hsh], ⟨e1, hdir⟩, fun h => by simp at h,
          rfl, by decide⟩
      | node rl b rr =>
        have hr : m.right_ n = some b := wfz.right_eq
        have hrep : Rep m.parent_ m.left_ m.right_ (Sh.node rl b rr) (some n) :=
          wfz.rep.2.2.2.2
        have hdep : (Sh.node rl b rr).depth ≤ m.next := by
          have h1 := (Sh.node rl b rr).depth_le_length
          have h2 := plug_length_le (Frame.right l n :: c) (Sh.node rl b rr)
          have h3 := hwf.depth_lt
          rw [hsh] at h3
          simp only [plug_right] at h2
          omega
        obtain ⟨ret, n', hres, res⟩ := FindLoop_spec lt m key (Sh.node rl b rr) m.next (-1) hdr
          (some n) hrep hdep (by decide)
        have hff : FindFrom lt m hdr key (some b) = some (ret, n') := hres
        have hstep : InsertDescend lt m hdr key false (f + 1) 0 n =
            InsertDescend lt m hdr key false f ret n' := by
          simp [InsertDescend, hr, hff]
        rw [hstep]
        rcases res with ⟨r0, d, l', r', hs, hc, e1', e2'⟩ | ⟨r0, d, hs, hc, -, hne⟩
        · subst r0
          have hlen := plug_length_le d (Sh.node l' n' r')
          rw [← hs] at hlen
          simp only [Sh.addrs_node, List.length_append, List.length_cons] at hlen hj
          have := ih (d ++ Frame.right l n :: c) l' n' r' f
            (by simp only [Sh.addrs_node, List.length_append, List.length_cons]; omega)
            (by omega) (by rw [plug_append, ← hs]; simp [hsh])
            ((CtxDir_append _ _ _).2 ⟨hc.toDir, e1, hdir⟩) (fun h => by simp [huq] at h) e1' e2'
          simpa [huq] using this
        · have hd : d ≠ [] := by
            rintro rfl
            simp at hs
          obtain ⟨f', rfl⟩ : ∃ f', f = f' + 1 := by
            refine ⟨f - 1, ?_⟩
            simp only [Sh.addrs_node, List.length_append, List.length_cons] at hj
            omega
          refine ⟨Sum.inr (ret, n'), InsertDescend_notfound lt m hdr key false f' n' r0, ?_⟩
          exact ⟨d ++ Frame.right l n :: c, by rw [plug_append, ← hs]; simp [hsh],
            (CtxDir_append _ _ _).2 ⟨hc.toDir, e1, hdir⟩, fun h => by simp at h,
            Attach_append hd (hne hd)⟩
    · refine ⟨Sum.inl n, by simp [InsertDescend], ?_⟩
      exact ⟨rfl, c, l, r, hsh, e1, e2, hfind (by simp [huq])⟩

/-- The descent of `InsertNode` (the private `Find` from the root, then the duplicate loop)
on a well-formed tree. -/
theorem descend_spec (lt : K → K → Bool) {m : Mem K} {hdr : Nat} {sh : Sh} (key : K)
    (uniq : Bool) (hwf : WF m hdr sh) :
    ∃ r res, FindFrom lt m hdr key (Root m hdr) = some r ∧
      InsertDescend lt m hdr key uniq m.next r.1 r.2 = some res ∧
      DescRes lt m.key_ key hdr sh uniq res := by
  have hlt := hwf.depth_lt
  obtain ⟨ret, n, hres, res⟩ := FindLoop_spec lt m key sh m.next (-1) hdr (some hdr) hwf.rep
    (by have := sh.depth_le_length; omega) (by decide)
  have hff : FindFrom lt m hdr key (Root m hdr) = some (ret, n) := by
    unfold FindFrom Root
    rw [hwf.root]
    exact hres
  refine ⟨(ret, n), ?_⟩
  rcases res with ⟨r0, d, l', r', hs, hc, e1, e2⟩ | ⟨r0, d, hs, hc, hn, hne⟩
  · subst r0
    obtain ⟨res, h1, h2⟩ := InsertDescend_found lt m hdr key uniq sh hwf _ d l' n r' m.next
      (Nat.le_refl _) (by
        have := plug_length_le d (Sh.node l' n r')
        rw [← hs] at this
        omega) hs hc.toDir (fun _ => hc) e1 e2
    exact ⟨res, hff, h1, h2⟩
  · obtain ⟨f, hf⟩ : ∃ f, m.next = f + 1 := ⟨m.next - 1, by omega⟩
    refine ⟨Sum.inr (ret, n), hff, by rw [hf]; exact InsertDescend_notfound lt m hdr key uniq f n r0,
      d, hs, hc.toDir, fun _ => hc, ?_⟩
    rcases d with _ | ⟨g, d⟩
    · exact (hn rfl).2
    · exact (Attach_cons _ _ g d d ret n).1 (hne (by simp))

theorem InsertNode_eq (lt : K → K → Bool) (m : Mem K) (t : RBTree) (newNode : Nat)
    (uniq : Bool) :
    InsertNode lt m t newNode uniq = (do
      let r ← FindFrom lt m t.header_ (m.key_ newNode) (Root m t.header_)
      let d ← InsertDescend lt m t.header_ (m.key_ newNode) uniq m.next r.1 r.2
      match d with
      | Sum.inl parNode => pure (m, t, some parNode, false)
      | Sum.inr (ret, parNode) => do
        let m ← InsertFixup (linkNode m t newNode ret parNode) t.header_ newNode
        pure (m, { t with size_ := t.size_ + 1 }, some newNode, true)) := rfl

theorem linkNode_spec {m : Mem K} {t : RBTree} {c : List Frame} {ret : Int} {par x : Nat}
    (wfz : WFz m t.header_ c Sh.nil) (hat : Attach t.header_ c ret par)
    (hsz : t.size_ = 0 ↔ c = []) (hx1 : x ∉ t.header_ :: ctxAddrs c) (hx2 : x < m.next)
    (hl : m.left_ x = none) (hr : m.right_ x = none) :
    WFz (linkNode m t x ret par) t.header_ c (Sh.node Sh.nil x Sh.nil) ∧
      (linkNode m t x ret par).red_ = m.red_ ∧ (linkNode m t x ret par).key_ = m.key_ ∧
      (linkNode m t x ret par).next = m.next := by
  obtain ⟨hrepc, -, hhl, hhr, hnd, hb⟩ := wfz
  rcases c with _ | ⟨f, c⟩
  · have h0 : t.size_ = 0 := hsz.2 rfl
    simp only [ctxAddrs, List.mem_cons, List.not_mem_nil, or_false] at hx1
    have hne : t.header_ ≠ x := fun e => hx1 e.symm
    simp only [linkNode, h0, if_true]
    refine ⟨⟨?_, ?_, hhl, hhr, ?_, ?_⟩, rfl, rfl, rfl⟩
    · simp [RepC, hne]
    · simp [Rep_node, hl, hr]
    · simp [ctxAddrs, hne]
    · intro a ha
      simp only [Sh.addrs_node, Sh.addrs_nil, ctxAddrs, List.nil_append, List.append_nil,
        List.mem_cons, List.not_mem_nil, or_false] at ha
      rcases ha with rfl | rfl
      · exact hb _ (by simp)
      · exact hx2
  · have h0 : t.size_ ≠ 0 := fun h => by simpa using hsz.1 h
    cases f with
    | left a r =>
      obtain ⟨rfl, rfl⟩ := hat
      simp only [Sh.addrs_nil, List.nil_append, ctxAddrs, List.cons_append, List.nodup_cons,
        List.mem_cons, List.mem_append, List.nodup_append, not_or, List.disjoint_cons_right,
        List.disjoint_append_right, List.disjoint_cons_left, List.disjoint_append_left]
        at hnd hx1
      obtain ⟨g1, g2, g3, g4, g5⟩ := hrepc
      simp only [linkNode, h0, if_false, if_true]
      refine ⟨⟨⟨?_, ?_, ?_, ?_, ?_⟩, ?_, ?_, hhr, ?_, ?_⟩, rfl, rfl, rfl⟩
      · simp
      · simpa using g2
      · simpa [hx1] using g3
      · simpa [hnd, hx1] using g4
      · simpa [hnd, hx1, Ne.symm hx1.1] using g5
      · simp [Rep_node, hl, hr, hx1]
      · simpa [hnd] using hhl
      · simp [ctxAddrs, List.nodup_append, hnd, hx1, Ne.symm hx1.1]
      · intro y hy
        simp only [Sh.addrs_node, Sh.addrs_nil, List.nil_append, List.cons_append,
          List.mem_cons] at hy
        rcases hy with rfl | rfl | hy
        · exact hb _ (by simp)
        · exact hx2
        · exact hb _ (by
            simp only [Sh.addrs_nil, List.nil_append, List.mem_cons]; exact Or.inr hy)
    | right l a =>
      obtain ⟨rfl, hret⟩ := hat
      simp only [Sh.addrs_nil, List.nil_append, ctxAddrs, List.cons_append, List.nodup_cons,
        List.mem_cons, List.mem_append, List.nodup_append, not_or, List.disjoint_cons_right,
        List.disjoint_append_right, List.disjoint_cons_left, List.disjoint_append_left]
        at hnd hx1
      obtain ⟨g1, g2, g3, g4, g5⟩ := hrepc
      simp only [linkNode, h0, if_false, hret]
      refine ⟨⟨⟨?_, ?_, ?_, ?_, ?_⟩, ?_, hhl, ?_, ?_, ?_⟩, rfl, rfl, rfl⟩
      · simp
      · simpa using g2
      · simpa [hx1] using g3
      · simpa [hnd, hx1] using g4
      · simpa [hnd, hx1, Ne.symm hx1.1] using g5
      · simp [Rep_node, hl, hr, hx1]
      · simpa [hnd] using hhr
      · simp [ctxAddrs, List.nodup_append, hnd, hx1, Ne.symm hx1.1]
      · intro y hy
        simp only [Sh.addrs_node, Sh.addrs_nil, List.nil_append, List.cons_append,
          List.mem_cons] at hy
        rcases hy with rfl | rfl | hy
        · exact hb _ (by simp)
        · exact hx2
        · exact hb _ (by
            simp only [Sh.addrs_nil, List.nil_append, List.mem_cons]; exact Or.inr hy)

theorem plug_nil_eq_nil {c : List Frame} : plug c Sh.nil = Sh.nil ↔ c = [] := by
  constructor
  · intro h
    rcases c with _ | ⟨f, c⟩
    · rfl
    · have := congrArg Sh.addrs h
      rw [plug_addrs] at this
      cases f <;> simp [ctxBefore, ctxAfter] at this
  · rintro rfl; rfl

theorem plug_addrs_length_zero {c : List Frame} :
    (plug c Sh.nil).addrs.length = 0 ↔ c = [] := by
  constructor
  · intro h
    rcases c with _ | ⟨f, c⟩
    · rfl
    · rw [plug_addrs] at h
      cases f <;> simp [ctxBefore, ctxAfter] at h
  · rintro rfl; rfl

/-- `InsertNode` on a red-black tree: either the unique mode finds an equivalent key and
nothing changes, or the node is linked in at the end of the descent and the result is a
red-black tree again. -/
theorem InsertNode_spec (lt : K → K → Bool) {m : Mem K} {t : RBTree} {sh : Sh} {x : Nat}
    (uniq : Bool) (hwf : WF m t.header_ sh) (hsz : t.size_ = sh.addrs.length)
    (hrb : RB m.red_ sh) (hx1 : x ∉ t.header_ :: sh.addrs) (hx2 : x < m.next)
    (hl : m.left_ x = none) (hr : m.right_ x = none) (hred : m.red_ x = true) :
    (uniq = true ∧ ∃ n c l r, InsertNode lt m t x uniq = some (m, t, some n, false) ∧
        sh = plug c (Sh.node l n r) ∧ lt (m.key_ x) (m.key_ n) = false ∧
        lt (m.key_ n) (m.key_ x) = false ∧ CtxFind lt m.key_ (m.key_ x) c) ∨
    (∃ m' sh' c, InsertNode lt m t x uniq =
          some (m', { t with size_ := t.size_ + 1 }, some x, true) ∧
        WF m' t.header_ sh' ∧ RB m'.red_ sh' ∧ sh = plug c Sh.nil ∧
        sh'.addrs = (plug c (Sh.node Sh.nil x Sh.nil)).addrs ∧
        CtxDir (fun a => lt (m.key_ x) (m.key_ a)) c ∧
        (uniq = true → CtxFind lt m.key_ (m.key_ x) c) ∧
        m'.key_ = m.key_ ∧ m'.next = m.next) := by
  obtain ⟨r, res, hfind, hdesc, hres⟩ := descend_spec lt (m.key_ x) uniq hwf
  rw [InsertNode_eq]
  simp only [hfind, hdesc, Option.bind_eq_bind, Option.some_bind]
  rcases res with n | ⟨ret, par⟩
  · obtain ⟨hu, c, l, r', hs, e1, e2, hc⟩ := hres
    exact Or.inl ⟨hu, n, c, l, r', rfl, hs, e1, e2, hc⟩
  · obtain ⟨c, hs, hdir, hfc, hat⟩ := hres
    right
    subst hs
    have wfz := hwf.toZ
    have hmem : x ∉ t.header_ :: ctxAddrs c := by
      intro h
      apply hx1
      simp only [List.mem_cons] at h ⊢
      rcases h with h | h
      · exact Or.inl h
      · exact Or.inr ((plug_addrs_perm c Sh.nil).mem_iff.2 (by simpa using h))
    obtain ⟨wfl, hredl, hkeyl, hnextl⟩ := @linkNode_spec K _ _ _ ret par _ wfz hat
      (by rw [hsz]; exact plug_addrs_length_zero) hmem hx2 hl hr
    have hnd := wfl.nodup
    simp only [Sh.addrs_node, Sh.addrs_nil, List.nil_append, List.cons_append, List.nodup_cons,
      List.mem_cons, not_or] at hnd
    have inv : FixInv (linkNode m t x ret par) t.header_ c (Sh.node Sh.nil x Sh.nil) x := by
      refine ⟨wfl, rfl, by rw [hredl]; exact hred, ?_, ?_, ?_, ?_, ?_⟩
      · simp
      · simp
      · rw [hredl]; exact ((NoRR_plug _ _ _).1 hrb.noRedRed).2.1
      · rw [hredl]
        have := ((Bal_plug _ _ _).1 hrb.balanced).2
        simpa [hred] using this
      · rw [hredl]
        simpa using (isBlk_plug _ _ _).1 hrb.rootBlack
    obtain ⟨m', sh', hfix, wf', ha, rb', hk, hn⟩ := InsertFixup_spec inv
    refine ⟨m', sh', c, by simp [hfix], wf', rb', rfl, ha, hdir, hfc, hk.trans hkeyl,
      hn.trans hnextl⟩

theorem Height_spec (m : Mem K) :
    ∀ (s : Sh) (fuel : Nat) (par : Ptr), Rep m.parent_ m.left_ m.right_ s par →
      s.depth ≤ fuel → Height m fuel s.ptr = some (hgt m.red_ s) := by
  intro s
  induction s with
  | nil =>
    intro fuel par _ _
    cases fuel <;> simp [Height, hgt]
  | node l a r ihl ihr =>
    intro fuel par hrep hd
    obtain ⟨k, rfl⟩ : ∃ k, fuel = k + 1 := ⟨fuel - 1, by simp at hd; omega⟩
    obtain ⟨-, hl, hr, repl, repr⟩ := hrep
    simp only [Sh.depth_node] at hd
    simp only [Sh.ptr_node, Height, hl, hr, ihl k _ repl (by omega), ihr k _ repr (by omega),
      Option.bind_eq_bind, Option.some_bind, hgt]
    split_ifs <;> rfl

theorem hgt_of_Bal {red : Nat → Bool} {s : Sh} (h : Bal red s) : hgt red s = (bh red s : Int) := by
  induction s with
  | nil => rfl
  | node l a r ihl ihr =>
    obtain ⟨e, bl, br⟩ := h
    have h1 := ihl bl
    have h2 := ihr br
    simp only [hgt, bh_node, h1, h2, e]
    have : ¬ ((bh red r : Int) = -1 ∨ (bh red r : Int) = -1 ∨ (bh red r : Int) ≠ bh red r) := by
      omega
    rw [if_neg this]
    cases red a <;> simp

theorem Bal_of_hgt {red : Nat → Bool} {s : Sh} (h : hgt red s ≠ -1) : Bal red s := by
  induction s with
  | nil => trivial
  | node l a r ihl ihr =>
    simp only [hgt] at h
    by_cases hc : hgt red l = -1 ∨ hgt red r = -1 ∨ hgt red l ≠ hgt red r
    · simp [hc] at h
    · simp only [not_or, not_not] at hc
      have bl := ihl hc.1
      have br := ihr hc.2.1
      refine ⟨?_, bl, br⟩
      have := hc.2.2
      rw [hgt_of_Bal bl, hgt_of_Bal br] at this
      exact_mod_cast this

theorem BlackHeight_spec {m : Mem K} {t : RBTree} {sh : Sh} (h : WF m t.header_ sh) :
    BlackHeight m t = some (hgt m.red_ sh) := by
  unfold BlackHeight Root
  rw [h.root]
  exact Height_spec m sh m.next (some t.header_) h.rep
    (by have := sh.depth_le_length; have := h.depth_lt; omega)

theorem BlackHeight_of_Inv {m : Mem K} {t : RBTree} {sh : Sh} (h : Inv m t sh) :
    BlackHeight m t = some (bh m.red_ sh : Int) := by
  rw [BlackHeight_spec h.wf, hgt_of_Bal h.rb.balanced]

theorem WF.newNode {m : Mem K} {hdr : Nat} {sh : Sh} (h : WF m hdr sh) (key : K) :
    WF (m.newNode key).1 hdr sh ∧ m.next ∉ hdr :: sh.addrs := by
  have hfresh : m.next ∉ hdr :: sh.addrs := fun hx => Nat.lt_irrefl _ (h.bound _ hx)
  have hne : ∀ a ∈ hdr :: sh.addrs, a ≠ m.next := fun a ha e => hfresh (e ▸ ha)
  have hh : hdr ≠ m.next := hne hdr (by simp)
  refine ⟨⟨?_, ?_, ?_, ?_, h.nodup, ?_⟩, hfresh⟩
  · simpa [Mem.newNode, hh] using h.root
  · simpa [Mem.newNode, hh] using h.hleft
  · simpa [Mem.newNode, hh] using h.hright
  · refine (Rep_congr (fun a ha => ?_) _).2 h.rep
    have : a ≠ m.next := hne a (by simp [ha])
    simp [Mem.newNode, this]
  · intro a ha
    have := h.bound a ha
    simp only [Mem.newNode]
    omega

theorem RB_congr {red red' : Nat → Bool} {sh : Sh} (h : ∀ a ∈ sh.addrs, red' a = red a) :
    RB red' sh ↔ RB red sh :=
  ⟨fun r => ⟨(isBlk_congr h).1 r.rootBlack, (NoRR_congr h).1 r.noRedRed,
      (Bal_congr h).1 r.balanced⟩,
   fun r => ⟨(isBlk_congr h).2 r.rootBlack, (NoRR_congr h).2 r.noRedRed,
      (Bal_congr h).2 r.balanced⟩⟩

/-- Outcome of `InsertKey` on a state satisfying the invariant. The new node is the address
`m.next`; keys of old nodes are untouched. -/
theorem InsertKey_spec (lt : K → K → Bool) {m : Mem K} {t : RBTree} {sh : Sh} (key : K)
    (uniq : Bool) (h : Inv m t sh) :
    (uniq = true ∧ ∃ n c l r, InsertKey lt m t key uniq =
          some ((m.newNode key).1, t, some n, false) ∧
        sh = plug c (Sh.node l n r) ∧ lt key (m.key_ n) = false ∧
        lt (m.key_ n) key = false ∧ CtxFind lt m.key_ key c) ∨
    (∃ m' sh' c, InsertKey lt m t key uniq =
          some (m', { t with size_ := t.size_ + 1 }, some m.next, true) ∧
        Inv m' { t with size_ := t.size_ + 1 } sh' ∧ sh = plug c Sh.nil ∧
        sh'.addrs = (plug c (Sh.node Sh.nil m.next Sh.nil)).addrs ∧
        CtxDir (fun a => lt key (m.key_ a)) c ∧
        (uniq = true → CtxFind lt m.key_ key c) ∧
        m'.key_ = upd m.key_ m.next key ∧ m'.next = m.next + 1) := by
  obtain ⟨wf1, hfresh⟩ := h.wf.newNode key
  have hne : ∀ a ∈ sh.addrs, a ≠ m.next := fun a ha e => hfresh (by simp [← e, ha])
  have hkey : ∀ a ∈ sh.addrs, (m.newNode key).1.key_ a = m.key_ a := by
    intro a ha
    simp [Mem.newNode, hne a ha]
  have hkx : (m.newNode key).1.key_ m.next = key := by simp [Mem.newNode]
  have hrb : RB (m.newNode key).1.red_ sh :=
    (RB_congr (fun a ha => by simp [Mem.newNode, hne a ha])).2 h.rb
  have hdir : ∀ c : List Frame, (∀ a ∈ ctxAddrs c, a ∈ sh.addrs) →
      (CtxDir (fun a => lt key ((m.newNode key).1.key_ a)) c ↔
        CtxDir (fun a => lt key (m.key_ a)) c) := by
    intro c
    induction c with
    | nil => intro _; simp [CtxDir]
    | cons f c ih =>
      intro hc
      have hc' : ∀ a ∈ ctxAddrs c, a ∈ sh.addrs := by
        intro a ha; apply hc
        cases f <;> simp [ctxAddrs, ha]
      cases f with
      | left a r => simp only [CtxDir, hkey a (hc a (by simp [ctxAddrs])), ih hc']
      | right l a => simp only [CtxDir, hkey a (hc a (by simp [ctxAddrs])), ih hc']
  have hfind : ∀ c : List Frame, (∀ a ∈ ctxAddrs c, a ∈ sh.addrs) →
      (CtxFind lt (m.newNode key).1.key_ key c ↔ CtxFind lt m.key_ key c) := by
    intro c
    induction c with
    | nil => intro _; simp [CtxFind]
    | cons f c ih =>
      intro hc
      have hc' : ∀ a ∈ ctxAddrs c, a ∈ sh.addrs := by
        intro a ha; apply hc
        cases f <;> simp [ctxAddrs, ha]
      cases f with
      | left a r => simp only [CtxFind, hkey a (hc a (by simp [ctxAddrs])), ih hc']
      | right l a => simp only [CtxFind, hkey a (hc a (by simp [ctxAddrs])), ih hc']
  have hsub : ∀ (c : List Frame) (s : Sh), sh = plug c s → ∀ a ∈ ctxAddrs c, a ∈ sh.addrs := by
    intro c s hs a ha
    rw [hs]
    exact (plug_addrs_perm c s).mem_iff.2 (by simp [ha])
  have := InsertNode_spec lt (x := m.next) uniq wf1 h.size hrb hfresh
    (by simp [Mem.newNode]) (by simp [Mem.newNode]) (by simp [Mem.newNode])
    (by simp [Mem.newNode])
  unfold InsertKey
  rcases this with ⟨hu, n, c, l, r, e, hs, e1, e2, hc⟩ | ⟨m', sh', c, e, wf', rb', hs, ha, hd, hf,
    hk, hn⟩
  · left
    have hn : n ∈ sh.addrs := by
      rw [hs]
      exact (plug_addrs_perm c _).mem_iff.2 (by simp)
    rw [hkx, hkey n hn] at e1 e2
    rw [hkx] at hc
    exact ⟨hu, n, c, l, r, e, hs, e1, e2, (hfind c (hsub c _ hs)).1 hc⟩
  · right
    rw [hkx] at hd hf
    refine ⟨m', sh', c, e, ⟨wf', ?_, rb'⟩, hs, ha, (hdir c (hsub c _ hs)).1 hd,
      fun hu => (hfind c (hsub c _ hs)).1 (hf hu), ?_, ?_⟩
    · rw [ha, plug_addrs, h.size, hs, plug_addrs]
      simp only [Sh.addrs_node, Sh.addrs_nil, List.nil_append, List.append_nil,
        List.length_append, List.length_cons, List.length_nil]
      omega
    · rw [hk]; rfl
    · rw [hn]; rfl

theorem SWO.asymm {lt : K → K → Bool} (h : SWO lt) {a b : K} (hab : lt a b = true) :
    lt b a = false := by
  cases hba : lt b a
  · rfl
  · have := h.trans a b a hab hba
    rw [h.irrefl] at this
    exact absurd this (by decide)

/-- "Not less than" is transitive. -/
theorem SWO.ge_trans {lt : K → K → Bool} (h : SWO lt) {a b c : K} (hab : lt a b = false)
    (hbc : lt b c = false) : lt a c = false := by
  cases hac : lt a c
  · rfl
  · exfalso
    cases hba : lt b a
    · cases hcb : lt c b
      · have := (h.incomp a b c hab hba hbc hcb).1
        rw [hac] at this
        exact absurd this (by decide)
      · have := h.trans a c b hac hcb
        rw [hab] at this
        exact absurd this (by decide)
    · have := h.trans b a c hba hac
      rw [hbc] at this
      exact absurd this (by decide)

theorem Ordered_congr {lt : K → K → Bool} {k k' : Nat → K} {L : List Nat}
    (h : ∀ a ∈ L, k' a = k a) : Ordered lt k' L ↔ Ordered lt k L := by
  unfold Ordered
  constructor
  · intro hp
    refine hp.imp_of_mem ?_
    intro a b ha hb hab
    rw [← h a ha, ← h b hb]; exact hab
  · intro hp
    refine hp.imp_of_mem ?_
    intro a b ha hb hab
    rw [h a ha, h b hb]; exact hab

/-- In a context walked by a test `p` that is monotone along the key order, the addresses
before the hole fail `p` and those after it satisfy `p`. -/
theorem ctx_partition {lt : K → K → Bool} {k : Nat → K} {p : Nat → Bool}
    (hmono : ∀ a b, lt (k b) (k a) = false → p a = true → p b = true) :
    ∀ (c : List Frame) (mid : List Nat), CtxDir p c →
      Ordered lt k (ctxBefore c ++ mid ++ ctxAfter c) →
      (∀ b ∈ ctxBefore c, p b = false) ∧ (∀ a ∈ ctxAfter c, p a = true) := by
  intro c
  induction c with
  | nil => intro mid _ _; simp [ctxBefore, ctxAfter]
  | cons f c ih =>
    intro mid hdir hord
    cases f with
    | left a r =>
      obtain ⟨hp, hc⟩ := hdir
      simp only [ctxBefore, ctxAfter] at hord ⊢
      have hord' : Ordered lt k (ctxBefore c ++ (mid ++ a :: r.addrs) ++ ctxAfter c) := by
        simpa [List.append_assoc] using hord
      obtain ⟨h1, h2⟩ := ih _ hc hord'
      refine ⟨h1, ?_⟩
      intro y hy
      simp only [List.mem_append, List.mem_cons] at hy
      rcases hy with (rfl | hy) | hy
      · exact hp
      · have hsub : List.Sublist [a, y] (ctxBefore c ++ mid ++ (a :: r.addrs ++ ctxAfter c)) := by
          refine List.Sublist.trans ?_ (List.sublist_append_right _ _)
          refine List.Sublist.trans ?_ (List.sublist_append_left _ _)
          exact List.Sublist.cons₂ a (List.singleton_sublist.2 hy)
        have := List.Pairwise.sublist hsub hord
        simp only [List.pairwise_cons, List.mem_singleton, forall_eq] at this
        exact hmono a y this.1 hp
      · exact h2 y hy
    | right l a =>
      obtain ⟨hp, hc⟩ := hdir
      simp only [ctxBefore, ctxAfter] at hord ⊢
      have hord' : Ordered lt k (ctxBefore c ++ (l.addrs ++ a :: mid) ++ ctxAfter c) := by
        simpa [List.append_assoc] using hord
      obtain ⟨h1, h2⟩ := ih _ hc hord'
      refine ⟨?_, h2⟩
      intro y hy
      simp only [List.mem_append, List.mem_cons, List.mem_singleton, List.not_mem_nil,
        or_false] at hy
      rcases hy with hy | hy | rfl
      · exact h1 y hy
      · have hsub : List.Sublist [y, a]
            (ctxBefore c ++ (l.addrs ++ [a]) ++ mid ++ ctxAfter c) := by
          refine List.Sublist.trans ?_ (List.sublist_append_left _ _)
          refine List.Sublist.trans ?_ (List.sublist_append_left _ _)
          refine List.Sublist.trans ?_ (List.sublist_append_right _ _)
          exact List.Sublist.append (List.singleton_sublist.2 hy) (List.Sublist.refl _)
        have := List.Pairwise.sublist hsub hord
        simp only [List.pairwise_cons, List.mem_singleton, forall_eq] at this
        cases hpy : p y
        · rfl
        · have := hmono y a this.1 hpy
          rw [hp] at this
          exact absurd this (by decide)
      · exact hp

theorem upper_mono {lt : K → K → Bool} (h : SWO lt) (k : Nat → K) (key : K) :
    ∀ a b, lt (k b) (k a) = false → (fun a => lt key (k a)) a = true →
      (fun a => lt key (k a)) b = true := by
  intro a b hba hka
  simp only at hka ⊢
  cases hkb : lt key (k b)
  · have := h.ge_trans hkb hba
    rw [hka] at this
    exact absurd this (by decide)
  · rfl

theorem lower_mono {lt : K → K → Bool} (h : SWO lt) (k : Nat → K) (key : K) :
    ∀ a b, lt (k b) (k a) = false → (fun a => !lt (k a) key) a = true →
      (fun a => !lt (k a) key) b = true := by
  intro a b hba hka
  simp only [Bool.not_eq_true'] at hka ⊢
  exact h.ge_trans hba hka

/-- Linking a key at the end of a descent keeps the in-order key sequence sorted. -/
theorem Ordered_insert {lt : K → K → Bool} (h : SWO lt) {k : Nat → K} {key : K} {x : Nat}
    {c : List Frame} (hdir : CtxDir (fun a => lt key (k a)) c)
    (hord : Ordered lt k (plug c Sh.nil).addrs) (hx : x ∉ (plug c Sh.nil).addrs) :
    Ordered lt (upd k x key) (plug c (Sh.node Sh.nil x Sh.nil)).addrs := by
  rw [plug_addrs] at hord hx ⊢
  simp only [Sh.addrs_nil, List.append_nil, Sh.addrs_node, List.nil_append, List.mem_append,
    not_or] at hord hx ⊢
  obtain ⟨h1, h2⟩ := ctx_partition (upper_mono h k key) c [] hdir (by simpa using hord)
  have hk : ∀ a ∈ ctxBefore c ++ ctxAfter c, upd k x key a = k a := by
    intro a ha
    have : a ≠ x := by
      rintro rfl
      simp only [List.mem_append] at ha
      exact ha.elim hx.1 hx.2
    simp [this]
  have hord' := (@Ordered_congr K lt _ _ _ hk).2 hord
  unfold Ordered at hord' ⊢
  rw [List.append_assoc, List.pairwise_append] at *
  refine ⟨hord'.1, ?_, ?_⟩
  · rw [List.singleton_append, List.pairwise_cons]
    refine ⟨?_, hord'.2.1⟩
    intro a ha
    have hne : a ≠ x := fun e => hx.2 (e ▸ ha)
    simp only [upd_same, upd_ne _ _ hne]
    exact h.asymm (h2 a ha)
  · intro b hb a ha
    simp only [List.singleton_append, List.mem_cons] at ha
    rcases ha with rfl | ha
    · have hne : b ≠ a := fun e => hx.1 (e ▸ hb)
      simp only [upd_same, upd_ne _ _ hne]
      exact h1 b hb
    · exact hord'.2.2 b hb a ha

theorem AllLeft_append {d c : List Frame} : AllLeft (d ++ c) ↔ (AllLeft d ∧ AllLeft c) := by
  induction d with
  | nil => simp [AllLeft]
  | cons f d ih => cases f <;> simp [AllLeft, ih]

theorem ctxBefore_allLeft {d : List Frame} (h : AllLeft d) : ctxBefore d = [] := by
  induction d with
  | nil => rfl
  | cons f d ih =>
    cases f with
    | left a r => exact ih h
    | right l a => exact absurd h (by simp [AllLeft])

theorem SearchMin_spec (m : Mem K) :
    ∀ (s : Sh) (fuel : Nat) (par : Ptr) (a : Nat), s.ptr = some a →
      Rep m.parent_ m.left_ m.right_ s par → s.depth ≤ fuel →
      ∃ d y yr, s = plug d (Sh.node Sh.nil y yr) ∧ AllLeft d ∧ SearchMin m fuel a = some y := by
  intro s
  induction s with
  | nil => intro fuel par a h; simp at h
  | node l b r ihl _ =>
    intro fuel par a ha hrep hd
    simp only [Sh.ptr_node, Option.some.injEq] at ha
    subst ha
    obtain ⟨k, rfl⟩ : ∃ k, fuel = k + 1 := ⟨fuel - 1, by simp at hd; omega⟩
    obtain ⟨-, hl, -, repl, -⟩ := hrep
    simp only [Sh.depth_node] at hd
    cases l with
    | nil => exact ⟨[], b, r, rfl, trivial, by simp [SearchMin, hl]⟩
    | node ll x lr =>
      obtain ⟨d, y, yr, hs, hal, e⟩ := ihl k (some b) x rfl repl (by omega)
      refine ⟨d ++ [Frame.left b r], y, yr, by rw [plug_append, ← hs]; rfl,
        AllLeft_append.2 ⟨hal, trivial⟩, ?_⟩
      simp only [SearchMin, hl, Sh.ptr_node]
      exact e

theorem SearchMin_head {m : Mem K} {s : Sh} {fuel : Nat} {par : Ptr} {a : Nat}
    (ha : s.ptr = some a) (hrep : Rep m.parent_ m.left_ m.right_ s par) (hd : s.depth ≤ fuel) :
    ∃ y, SearchMin m fuel a = some y ∧ s.addrs.head? = some y := by
  obtain ⟨d, y, yr, hs, hal, e⟩ := SearchMin_spec m s fuel par a ha hrep hd
  refine ⟨y, e, ?_⟩
  rw [hs, plug_addrs, ctxBefore_allLeft hal]
  simp

theorem ctxNext_eq (hdr : Nat) (c : List Frame) : ctxNext hdr c = (ctxAfter c).headD hdr := by
  induction c with
  | nil => rfl
  | cons f c ih =>
    cases f with
    | left a r => simp [ctxNext, ctxAfter]
    | right l a => simpa [ctxNext, ctxAfter] using ih

theorem NextNodeUp_spec (m : Mem K) (hdr : Nat) :
    ∀ (c : List Frame) (l : Sh) (a : Nat) (r : Sh) (fuel : Nat),
      WFz m hdr c (Sh.node l a r) → c.length < fuel →
      ∃ y, NextNodeUp m fuel a = some y ∧ m.parent_ y = some (ctxNext hdr c) := by
  intro c
  induction c with
  | nil =>
    intro l a r fuel wfz hf
    obtain ⟨k, rfl⟩ : ∃ k, fuel = k + 1 := ⟨fuel - 1, by omega⟩
    have hp : m.parent_ a = some hdr := wfz.parent_eq
    refine ⟨a, ?_, hp⟩
    simp [NextNodeUp, hp, wfz.hright]
  | cons f c ih =>
    intro l a r fuel wfz hf
    obtain ⟨k, rfl⟩ : ∃ k, fuel = k + 1 := ⟨fuel - 1, by omega⟩
    simp only [List.length_cons] at hf
    have hnd := wfz.nodup
    cases f with
    | left p sib =>
      have hp : m.parent_ a = some p := wfz.parent_eq
      have wfp := wfz.up_left
      have hr : m.right_ p ≠ some a := by
        rw [wfp.right_eq]; intro e
        have := Sh.ptr_mem e
        simp only [Sh.addrs_node, ctxAddrs, List.nodup_cons, List.mem_cons, List.mem_append,
          List.nodup_append, List.append_assoc, List.cons_append, not_or,
          List.disjoint_cons_right, List.disjoint_append_right, List.disjoint_cons_left,
          List.disjoint_append_left] at hnd
        simp [hnd] at this
      exact ⟨a, by simp [NextNodeUp, hp, hr], hp⟩
    | right sib p =>
      have hp : m.parent_ a = some p := wfz.parent_eq
      have wfp := wfz.up_right
      have hr : m.right_ p = some a := wfp.right_eq
      obtain ⟨y, e, hy⟩ := ih sib p (Sh.node l a r) k wfp (by omega)
      exact ⟨y, by simp [NextNodeUp, hp, hr, e], hy⟩

theorem NextNode_spec {m : Mem K} {hdr : Nat} {c : List Frame} {l r : Sh} {a : Nat}
    (wfz : WFz m hdr c (Sh.node l a r)) :
    NextNode m a = some (some ((r.addrs ++ ctxAfter c).headD hdr)) := by
  have hlen := wfz.ctx_length_lt
  cases r with
  | nil =>
    obtain ⟨y, e, hy⟩ := NextNodeUp_spec m hdr c l a Sh.nil m.next wfz (by omega)
    have hr : m.right_ a = none := wfz.right_eq
    simp [NextNode, hr, e, hy, ctxNext_eq]
  | node rl b rr =>
    have hr : m.right_ a = some b := wfz.right_eq
    have hrep : Rep m.parent_ m.left_ m.right_ (Sh.node rl b rr) (some a) := wfz.rep.2.2.2.2
    have hd : (Sh.node rl b rr).depth ≤ m.next := by
      have := (Sh.node rl b rr).depth_le_length
      simp only [Sh.addrs_node, List.length_append, List.length_cons] at hlen this
      omega
    obtain ⟨y, e, hy⟩ := SearchMin_head (s := Sh.node rl b rr) rfl hrep hd
    simp only [NextNode, hr, e, Option.bind_eq_bind, Option.some_bind]
    cases hra : (Sh.node rl b rr).addrs with
    | nil => simp at hra
    | cons z zs =>
      rw [hra] at hy
      simp only [List.head?_cons, Option.some.injEq] at hy
      simp [hy]

theorem nodup_split_unique {L p1 q1 p2 q2 : List Nat} {a : Nat} (hnd : L.Nodup)
    (h1 : L = p1 ++ a :: q1) (h2 : L = p2 ++ a :: q2) : p1 = p2 ∧ q1 = q2 := by
  subst h1
  induction p1 generalizing p2 with
  | nil =>
    cases p2 with
    | nil => simpa using h2
    | cons b p2 =>
      simp only [List.nil_append, List.cons_append, List.cons.injEq] at h2
      obtain ⟨rfl, rfl⟩ := h2
      simp at hnd
  | cons b p1 ih =>
    cases p2 with
    | nil =>
      simp only [List.nil_append, List.cons_append, List.cons.injEq] at h2
      obtain ⟨rfl, rfl⟩ := h2
      simp at hnd
    | cons b' p2 =>
      simp only [List.cons_append, List.cons.injEq] at h2
      obtain ⟨rfl, h2⟩ := h2
      simp only [List.cons_append, List.nodup_cons] at hnd
      obtain ⟨e1, e2⟩ := ih hnd.2 h2
      exact ⟨by rw [e1], e2⟩

/-- The successor of a node in terms of the in-order list of addresses. -/
theorem NextNode_list {m : Mem K} {hdr : Nat} {sh : Sh} (hwf : WF m hdr sh) {pre post : List Nat}
    {a : Nat} (h : sh.addrs = pre ++ a :: post) :
    NextNode m a = some (some (post.headD hdr)) := by
  have ha : a ∈ sh.addrs := by rw [h]; simp
  obtain ⟨c, l, r, hs⟩ := exists_plug_of_mem ha
  subst hs
  have hnd : (plug c (Sh.node l a r)).addrs.Nodup := (List.nodup_cons.1 hwf.nodup).2
  have h2 : (plug c (Sh.node l a r)).addrs =
      (ctxBefore c ++ l.addrs) ++ a :: (r.addrs ++ ctxAfter c) := by
    rw [plug_addrs]; simp
  obtain ⟨-, e⟩ := nodup_split_unique hnd h h2
  rw [e]
  exact NextNode_spec hwf.toZ

theorem iterFrom_spec {m : Mem K} {hdr : Nat} {sh : Sh} (hwf : WF m hdr sh) :
    ∀ (post pre : List Nat) (fuel : Nat), sh.addrs = pre ++ post → post.length < fuel →
      iterFrom m (some hdr) fuel (some (post.headD hdr)) = some post := by
  intro post
  induction post with
  | nil =>
    intro pre fuel _ hf
    obtain ⟨k, rfl⟩ : ∃ k, fuel = k + 1 := ⟨fuel - 1, by omega⟩
    simp [iterFrom]
  | cons a post ih =>
    intro pre fuel h hf
    obtain ⟨k, rfl⟩ : ∃ k, fuel = k + 1 := ⟨fuel - 1, by omega⟩
    simp only [List.length_cons] at hf
    have hne : a ≠ hdr := by
      rintro rfl
      have := hwf.nodup
      rw [h] at this
      simp at this
    have hnext := NextNode_list hwf h
    have := ih (pre ++ [a]) k (by simp [h]) (by omega)
    simp only [iterFrom, List.headD_cons, Option.some.injEq, hne, if_false, hnext,
      Option.bind_eq_bind, Option.some_bind, this]
    rfl

theorem Begin_spec {m : Mem K} {t : RBTree} {sh : Sh} (h : Inv m t sh) :
    Begin m t = some (some (sh.addrs.headD t.header_)) := by
  unfold Begin
  by_cases h0 : t.size_ = 0
  · have : sh.addrs = [] := List.length_eq_zero.1 (h.size ▸ h0)
    simp [h0, this, End]
  · simp only [h0, if_false]
    cases hs : sh with
    | nil => rw [hs] at h; exact absurd h.size (by simpa using h0)
    | node l a r =>
      rw [hs] at h
      have hroot : Root m t.header_ = some a := h.wf.root
      have hd : (Sh.node l a r).depth ≤ m.next := by
        have := (Sh.node l a r).depth_le_length
        have := h.wf.depth_lt
        omega
      obtain ⟨y, e, hy⟩ := SearchMin_head (s := Sh.node l a r) rfl h.wf.rep hd
      simp only [Minimum, hroot, e, Option.bind_eq_bind, Option.some_bind]
      cases hra : (Sh.node l a r).addrs with
      | nil => simp at hra
      | cons z zs =>
        rw [hra] at hy
        simp only [List.head?_cons, Option.some.injEq] at hy
        simp [hy]

/-- Iterating from `Begin()` to `End()` visits the nodes in in-order. -/
theorem toList_spec {m : Mem K} {t : RBTree} {sh : Sh} (h : Inv m t sh) :
    toList m t = some sh.addrs := by
  unfold toList
  rw [Begin_spec h]
  simp only [Option.bind_eq_bind, Option.some_bind, End]
  exact iterFrom_spec h.wf sh.addrs [] (m.next + 1) rfl (by have := h.wf.depth_lt; omega)

theorem keys_spec {m : Mem K} {t : RBTree} {sh : Sh} (h : Inv m t sh) :
    keys m t = some (sh.addrs.map m.key_) := by
  simp [keys, toList_spec h]

theorem ctxAfter_append (d c : List Frame) : ctxAfter (d ++ c) = ctxAfter d ++ ctxAfter c := by
  induction d with
  | nil => rfl
  | cons f d ih => cases f <;> simp [ctxAfter, ih]

theorem ctxBefore_append (d c : List Frame) :
    ctxBefore (d ++ c) = ctxBefore c ++ ctxBefore d := by
  induction d with
  | nil => simp [ctxBefore]
  | cons f d ih => cases f <;> simp [ctxBefore, ih]

theorem boundRes_left (d : List Frame) (a : Nat) (r : Sh) (res : Ptr) :
    boundRes (d ++ [Frame.left a r]) res = boundRes d (some a) := by
  unfold boundRes
  rw [ctxAfter_append]
  cases h : ctxAfter d <;> simp [ctxAfter]

theorem boundRes_right (d : List Frame) (l : Sh) (a : Nat) (res : Ptr) :
    boundRes (d ++ [Frame.right l a]) res = boundRes d res := by
  unfold boundRes
  rw [ctxAfter_append]
  simp [ctxAfter]

theorem LowerBoundLoop_spec (lt : K → K → Bool) (m : Mem K) (key : K) :
    ∀ (s : Sh) (fuel : Nat) (par res : Ptr), Rep m.parent_ m.left_ m.right_ s par →
      s.depth ≤ fuel →
      ∃ d, s = plug d Sh.nil ∧ CtxDir (fun a => !lt (m.key_ a) key) d ∧
        LowerBoundLoop lt m key fuel s.ptr res = some (boundRes d res) := by
  intro s
  induction s with
  | nil =>
    intro fuel par res _ _
    exact ⟨[], rfl, trivial, by cases fuel <;> simp [LowerBoundLoop, boundRes, ctxAfter]⟩
  | node l a r ihl ihr =>
    intro fuel par res hrep hd
    obtain ⟨k, rfl⟩ : ∃ k, fuel = k + 1 := ⟨fuel - 1, by simp at hd; omega⟩
    obtain ⟨-, hl, hr, repl, repr⟩ := hrep
    simp only [Sh.depth_node] at hd
    simp only [Sh.ptr_node, LowerBoundLoop]
    cases h1 : lt (m.key_ a) key
    · simp only [if_true, hl]
      obtain ⟨d, hs, hc, e⟩ := ihl k (some a) (some a) repl (by omega)
      refine ⟨d ++ [Frame.left a r], by rw [plug_append, ← hs]; rfl,
        (CtxDir_append _ _ _).2 ⟨hc, by simp [CtxDir, h1]⟩, ?_⟩
      rw [e, boundRes_left]
    · simp only [Bool.true_eq_false, if_false, hr]
      obtain ⟨d, hs, hc, e⟩ := ihr k (some a) res repr (by omega)
      refine ⟨d ++ [Frame.right l a], by rw [plug_append, ← hs]; rfl,
        (CtxDir_append _ _ _).2 ⟨hc, by simp [CtxDir, h1]⟩, ?_⟩
      rw [e, boundRes_right]

theorem UpperBoundLoop_spec (lt : K → K → Bool) (m : Mem K) (key : K) :
    ∀ (s : Sh) (fuel : Nat) (par res : Ptr), Rep m.parent_ m.left_ m.right_ s par →
      s.depth ≤ fuel →
      ∃ d, s = plug d Sh.nil ∧ CtxDir (fun a => lt key (m.key_ a)) d ∧
        UpperBoundLoop lt m key fuel s.ptr res = some (boundRes d res) := by
  intro s
  induction s with
  | nil =>
    intro fuel par res _ _
    exact ⟨[], rfl, trivial, by cases fuel <;> simp [UpperBoundLoop, boundRes, ctxAfter]⟩
  | node l a r ihl ihr =>
    intro fuel par res hrep hd
    obtain ⟨k, rfl⟩ : ∃ k, fuel = k + 1 := ⟨fuel - 1, by simp at hd; omega⟩
    obtain ⟨-, hl, hr, repl, repr⟩ := hrep
    simp only [Sh.depth_node] at hd
    simp only [Sh.ptr_node, UpperBoundLoop]
    cases h1 : lt key (m.key_ a)
    · simp only [Bool.false_eq_true, if_false, hr]
      obtain ⟨d, hs, hc, e⟩ := ihr k (some a) res repr (by omega)
      refine ⟨d ++ [Frame.right l a], by rw [plug_append, ← hs]; rfl,
        (CtxDir_append _ _ _).2 ⟨hc, by simp [CtxDir, h1]⟩, ?_⟩
      rw [e, boundRes_right]
    · simp only [if_true, hl]
      obtain ⟨d, hs, hc, e⟩ := ihl k (some a) (some a) repl (by omega)
      refine ⟨d ++ [Frame.left a r], by rw [plug_append, ← hs]; rfl,
        (CtxDir_append _ _ _).2 ⟨hc, by simp [CtxDir, h1]⟩, ?_⟩
      rw [e, boundRes_left]

theorem find?_partition {p : Nat → Bool} {A B : List Nat} (hA : ∀ b ∈ A, p b = false)
    (hB : ∀ a ∈ B, p a = true) : (A ++ B).find? p = B.head? := by
  induction A with
  | nil =>
    cases B with
    | nil => rfl
    | cons b B => simp [List.find?, hB b (by simp)]
  | cons a A ih =>
    simp only [List.cons_append, List.find?, hA a (by simp)]
    exact ih (fun b hb => hA b (by simp [hb]))

/-- A bound descent with a test `p` monotone along the keys returns the first node in
in-order satisfying `p`, or the header. -/
theorem bound_first {lt : K → K → Bool} {m : Mem K} {hdr : Nat} {sh : Sh} {p : Nat → Bool}
    {d : List Frame}
    (hmono : ∀ a b, lt (m.key_ b) (m.key_ a) = false → p a = true → p b = true)
    (hord : Ordered lt m.key_ sh.addrs) (hs : sh = plug d Sh.nil) (hdir : CtxDir p d) :
    boundRes d (some hdr) = some ((sh.addrs.find? p).getD hdr) ∧
      sh.addrs = ctxBefore d ++ ctxAfter d ∧ (∀ b ∈ ctxBefore d, p b = false) ∧
      (∀ a ∈ ctxAfter d, p a = true) := by
  have ha : sh.addrs = ctxBefore d ++ ctxAfter d := by rw [hs, plug_addrs]; simp
  obtain ⟨h1, h2⟩ := ctx_partition hmono d [] hdir (by simpa [← ha] using hord)
  refine ⟨?_, ha, h1, h2⟩
  rw [ha, find?_partition h1 h2]
  unfold boundRes
  cases ctxAfter d <;> rfl

/-- `Lower_Bound` returns the first node in in-order whose key is not less than the query,
the header if there is none. -/
theorem Lower_Bound_spec {lt : K → K → Bool} (hlt : SWO lt) {m : Mem K} {t : RBTree} {sh : Sh}
    (h : Inv m t sh) (hord : Ordered lt m.key_ sh.addrs) (key : K) :
    Lower_Bound lt m t key =
      some (some ((sh.addrs.find? (fun a => !lt (m.key_ a) key)).getD t.header_)) := by
  obtain ⟨d, hs, hc, e⟩ := LowerBoundLoop_spec lt m key sh m.next (some t.header_)
    (some t.header_) h.wf.rep (by have := sh.depth_le_length; have := h.wf.depth_lt; omega)
  unfold Lower_Bound Root End
  rw [h.wf.root, e, (bound_first (lower_mono hlt m.key_ key) hord hs hc).1]

/-- `Upper_Bound` returns the first node in in-order whose key is greater than the query,
the header if there is none. -/
theorem Upper_Bound_spec {lt : K → K → Bool} (hlt : SWO lt) {m : Mem K} {t : RBTree} {sh : Sh}
    (h : Inv m t sh) (hord : Ordered lt m.key_ sh.addrs) (key : K) :
    Upper_Bound lt m t key =
      some (some ((sh.addrs.find? (fun a => lt key (m.key_ a))).getD t.header_)) := by
  obtain ⟨d, hs, hc, e⟩ := UpperBoundLoop_spec lt m key sh m.next (some t.header_)
    (some t.header_) h.wf.rep (by have := sh.depth_le_length; have := h.wf.depth_lt; omega)
  unfold Upper_Bound Root End
  rw [h.wf.root, e, (bound_first (upper_mono hlt m.key_ key) hord hs hc).1]

theorem dropWhile_mono {R : Nat → Nat → Prop} {p : Nat → Bool} {L : List Nat}
    (hp : L.Pairwise R) (hmono : ∀ a b, R a b → p a = true → p b = true) :
    ∀ x ∈ L.dropWhile (fun a => !p a), p x = true := by
  induction L with
  | nil => simp
  | cons a L ih =>
    rw [List.pairwise_cons] at hp
    cases hpa : p a
    · simp only [List.dropWhile, hpa, Bool.not_false]
      exact ih hp.2
    · simp only [List.dropWhile, hpa, Bool.not_true]
      intro x hx
      simp only [List.mem_cons] at hx
      rcases hx with rfl | hx
      · exact hpa
      · exact hmono a x (hp.1 x hx) hpa

theorem takeWhile_all {p : Nat → Bool} {L : List Nat} : ∀ x ∈ L.takeWhile p, p x = true := by
  intro x hx
  exact List.mem_takeWhile_imp hx

/-- A sorted list splits into the keys less than, equivalent to and greater than `key`. -/
theorem three_split {lt : K → K → Bool} (hlt : SWO lt) {k : Nat → K} {L : List Nat}
    (hord : Ordered lt k L) (key : K) :
    ∃ A M B, L = A ++ M ++ B ∧ (∀ a ∈ A, lt (k a) key = true) ∧
      (∀ x ∈ M, lt (k x) key = false ∧ lt key (k x) = false) ∧
      (∀ b ∈ B, lt key (k b) = true) := by
  let low := L.dropWhile (fun a => lt (k a) key)
  have hL : L = L.takeWhile (fun a => lt (k a) key) ++ low :=
    (List.takeWhile_append_dropWhile _ _).symm
  have hlow : ∀ x ∈ low, lt (k x) key = false := by
    have := dropWhile_mono (p := fun a => !lt (k a) key) hord (lower_mono hlt k key)
    intro x hx
    have h2 := this x (by simpa using hx)
    simpa using h2
  have hlowOrd : Ordered lt k low := List.Pairwise.sublist (List.dropWhile_sublist _) hord
  have hB : ∀ x ∈ low.dropWhile (fun a => !lt key (k a)), lt key (k x) = true :=
    dropWhile_mono (p := fun a => lt key (k a)) hlowOrd (upper_mono hlt k key)
  refine ⟨L.takeWhile (fun a => lt (k a) key), low.takeWhile (fun a => !lt key (k a)),
    low.dropWhile (fun a => !lt key (k a)), ?_, ?_, ?_, hB⟩
  · rw [List.append_assoc, List.takeWhile_append_dropWhile]
    exact hL
  · intro a ha
    exact takeWhile_all a ha
  · intro x hx
    have h1 := takeWhile_all x hx
    refine ⟨hlow x (List.takeWhile_sublist _ |>.subset hx), ?_⟩
    simpa using h1

theorem filter_three {lt : K → K → Bool} (hlt : SWO lt) {k : Nat → K} {A M B : List Nat}
    {key : K} (hA : ∀ a ∈ A, lt (k a) key = true)
    (hM : ∀ x ∈ M, lt (k x) key = false ∧ lt key (k x) = false)
    (hB : ∀ b ∈ B, lt key (k b) = true) :
    (A ++ M ++ B).filter (fun a => equiv lt (k a) key) = M := by
  rw [List.filter_append, List.filter_append]
  have h1 : A.filter (fun a => equiv lt (k a) key) = [] := by
    rw [List.filter_eq_nil_iff]
    intro a ha
    simp [equiv, hA a ha]
  have h2 : M.filter (fun a => equiv lt (k a) key) = M := by
    rw [List.filter_eq_self]
    intro a ha
    simp [equiv, hM a ha]
  have h3 : B.filter (fun a => equiv lt (k a) key) = [] := by
    rw [List.filter_eq_nil_iff]
    intro a ha
    simp [equiv, hB a ha]
  rw [h1, h2, h3]
  simp

theorem find_lower_three {lt : K → K → Bool} {k : Nat → K} {A M B : List Nat}
    {key : K} (hA : ∀ a ∈ A, lt (k a) key = true)
    (hM : ∀ x ∈ M, lt (k x) key = false ∧ lt key (k x) = false)
    (hB : ∀ b ∈ B, lt key (k b) = true) (hlt : SWO lt) :
    (A ++ M ++ B).find? (fun a => !lt (k a) key) = (M ++ B).head? := by
  rw [List.append_assoc]
  refine find?_partition (fun b hb => by simp [hA b hb]) ?_
  intro a ha
  simp only [List.mem_append] at ha
  rcases ha with ha | ha
  · simp [(hM a ha).1]
  · simp [hlt.asymm (hB a ha)]

theorem find_upper_three {lt : K → K → Bool} {k : Nat → K} {A M B : List Nat}
    {key : K} (hA : ∀ a ∈ A, lt (k a) key = true)
    (hM : ∀ x ∈ M, lt (k x) key = false ∧ lt key (k x) = false)
    (hB : ∀ b ∈ B, lt key (k b) = true) (hlt : SWO lt) :
    (A ++ M ++ B).find? (fun a => lt key (k a)) = B.head? := by
  refine find?_partition ?_ hB
  intro a ha
  simp only [List.mem_append] at ha
  rcases ha with ha | ha
  · exact hlt.asymm (hA a ha)
  · exact (hM a ha).2

theorem headD_ne_of {L : List Nat} {hdr a : Nat} (hh : a ≠ hdr) (ha : a ∉ L) :
    L.headD hdr ≠ a := by
  cases L with
  | nil => exact fun e => hh e.symm
  | cons b L =>
    simp only [List.headD_cons]
    intro e
    exact ha (by simp [e])

/-- Stepping with `++` from the first node of `M ++ B` until the first node of `B` visits
exactly `M`. -/
theorem iterFrom_range {m : Mem K} {hdr : Nat} {sh : Sh} (hwf : WF m hdr sh) (B : List Nat) :
    ∀ (M pre : List Nat) (fuel : Nat), sh.addrs = pre ++ M ++ B → M.length < fuel →
      iterFrom m (some (B.headD hdr)) fuel (some ((M ++ B).headD hdr)) = some M := by
  intro M
  induction M with
  | nil =>
    intro pre fuel _ hf
    obtain ⟨k, rfl⟩ : ∃ k, fuel = k + 1 := ⟨fuel - 1, by omega⟩
    simp [iterFrom]
  | cons a M ih =>
    intro pre fuel h hf
    obtain ⟨k, rfl⟩ : ∃ k, fuel = k + 1 := ⟨fuel - 1, by omega⟩
    simp only [List.length_cons] at hf
    have hnd := hwf.nodup
    rw [h] at hnd
    simp only [List.nodup_cons, List.mem_append, List.mem_cons, not_or, List.nodup_append,
      List.append_assoc, List.cons_append, List.disjoint_cons_right, List.disjoint_append_right,
      List.disjoint_cons_left, List.disjoint_append_left] at hnd
    have hne : a ≠ hdr := fun e => hnd.1.2.1 e.symm
    have hstop : B.headD hdr ≠ a := headD_ne_of hne hnd.2.2.1.1.2
    have hnext := @NextNode_list K _ _ _ hwf pre (M ++ B) a (by simp [h])
    have := ih (pre ++ [a]) k (by simp [h]) (by omega)
    simp only [iterFrom, List.cons_append, List.headD_cons, Option.some.injEq,
      Ne.symm hstop, if_false, hnext, Option.bind_eq_bind, Option.some_bind, this]
    rfl

theorem countLoop_spec [BEq K] {m : Mem K} {hdr : Nat} {sh : Sh} (hwf : WF m hdr sh)
    (key : K) (B : List Nat) :
    ∀ (M pre : List Nat) (fuel ret : Nat), sh.addrs = pre ++ M ++ B → M.length < fuel →
      (∀ x ∈ M, (m.key_ x == key) = true) →
      countLoop m key (some (B.headD hdr)) fuel (some ((M ++ B).headD hdr)) ret =
        some (ret + M.length) := by
  intro M
  induction M with
  | nil =>
    intro pre fuel ret _ hf _
    obtain ⟨k, rfl⟩ : ∃ k, fuel = k + 1 := ⟨fuel - 1, by omega⟩
    simp [countLoop]
  | cons a M ih =>
    intro pre fuel ret h hf hM
    obtain ⟨k, rfl⟩ : ∃ k, fuel = k + 1 := ⟨fuel - 1, by omega⟩
    simp only [List.length_cons] at hf
    have hnd := hwf.nodup
    rw [h] at hnd
    simp only [List.nodup_cons, List.mem_append, List.mem_cons, not_or, List.nodup_append,
      List.append_assoc, List.cons_append, List.disjoint_cons_right, List.disjoint_append_right,
      List.disjoint_cons_left, List.disjoint_append_left] at hnd
    have hne : a ≠ hdr := fun e => hnd.1.2.1 e.symm
    have hstop : B.headD hdr ≠ a := headD_ne_of hne hnd.2.2.1.1.2
    have hnext := @NextNode_list K _ _ _ hwf pre (M ++ B) a (by simp [h])
    have := ih (pre ++ [a]) k (ret + 1) (by simp [h]) (by omega)
      (fun x hx => hM x (by simp [hx]))
    simp only [countLoop, List.cons_append, List.headD_cons, Option.some.injEq,
      Ne.symm hstop, if_false, hnext, Option.bind_eq_bind, Option.some_bind,
      hM a (by simp), if_true, this, List.length_cons]
    omega

/-- `multiset::count` returns the number of elements equivalent to the key, and these are
the elements between `Lower_Bound` and `Upper_Bound`. -/
theorem count_spec [BEq K] {lt : K → K → Bool} (hlt : SWO lt)
    (hbeq : ∀ a b : K, (a == b) = equiv lt a b) {m : Mem K} {t : RBTree} {sh : Sh}
    (h : Inv m t sh) (hord : Ordered lt m.key_ sh.addrs) (key : K) :
    ∃ lo hi, Lower_Bound lt m t key = some lo ∧ Upper_Bound lt m t key = some hi ∧
      iterFrom m hi (m.next + 1) lo =
        some (sh.addrs.filter (fun a => equiv lt (m.key_ a) key)) ∧
      count lt m t key =
        some (sh.addrs.filter (fun a => equiv lt (m.key_ a) key)).length := by
  obtain ⟨A, M, B, hL, hA, hM, hB⟩ := three_split hlt hord key
  have hlo := Lower_Bound_spec hlt h hord key
  have hhi := Upper_Bound_spec hlt h hord key
  rw [hL, find_lower_three hA hM hB hlt] at hlo
  rw [hL, find_upper_three hA hM hB hlt] at hhi
  have hfil := filter_three hlt hA hM hB
  rw [← hL] at hfil
  have hlen : M.length < m.next + 1 := by
    have := h.wf.depth_lt
    rw [hL] at this
    simp only [List.length_append] at this
    omega
  have hlo' : Lower_Bound lt m t key = some (some ((M ++ B).headD t.header_)) := by
    rw [hlo]; cases (M ++ B) <;> rfl
  have hhi' : Upper_Bound lt m t key = some (some (B.headD t.header_)) := by
    rw [hhi]; cases B <;> rfl
  have hMeq : ∀ x ∈ M, (m.key_ x == key) = true := by
    intro x hx
    rw [hbeq]
    simp [equiv, hM x hx]
  refine ⟨_, _, hlo', hhi', ?_, ?_⟩
  · rw [hfil]
    exact iterFrom_range h.wf B M A (m.next + 1) hL hlen
  · rw [hfil]
    unfold count
    simp only [hlo', hhi', Option.bind_eq_bind, Option.some_bind, End]
    have hnd := h.wf.nodup
    rw [hL] at hnd
    cases M with
    | nil =>
      cases B with
      | nil => simp
      | cons b B =>
        have hb : b ≠ t.header_ := by
          rintro rfl
          simp at hnd
        have hne : (m.key_ b == key) = false := by
          rw [hbeq]
          simp [equiv, hB b (by simp)]
        simp [hb, bne, hne]
    | cons x M =>
      have hx : x ≠ t.header_ := by
        rintro rfl
        simp at hnd
      have hxe := hMeq x (by simp)
      have hlen' : (x :: M).length < m.next := by
        have := h.wf.depth_lt
        rw [hL] at this
        simp only [List.length_append] at this
        omega
      have hcl := countLoop_spec h.wf key B (x :: M) A m.next 0 hL hlen' hMeq
      simp only [List.cons_append, List.headD_cons, Option.some.injEq, hx, if_false, bne, hxe,
        Bool.not_true, Bool.false_eq_true]
      simpa using hcl

theorem nullOrBlack_ptr (m : Mem K) (s : Sh) :
    m.nullOrBlack s.ptr = true ↔ isBlk m.red_ s := by
  cases s <;> simp [Mem.nullOrBlack]

theorem ExtractFixupLoop_exit_root {m : Mem K} {hdr del : Nat} (fuel : Nat) (parent : Ptr)
    (h : Root m hdr = some del) : ExtractFixupLoop hdr (fuel + 1) m del parent = some m := by
  simp [ExtractFixupLoop, h]

/-- Left side, red brother: after the colour swap and the rotation the loop body continues
as if it had been entered in the rotated memory. -/
theorem ExtractFixupLoop_L1 {m m1 : Mem K} {hdr del p b b1 : Nat} (fuel : Nat)
    (h : Root m hdr ≠ some del) (hd : m.red_ del = false) (hl : m.left_ p = some del)
    (hb : m.right_ p = some b) (hbr : m.red_ b = true)
    (hrot : RotateLeft ((m.setRed b (m.red_ p)).setRed p true) hdr p = some m1)
    (h' : Root m1 hdr ≠ some del) (hd' : m1.red_ del = false) (hp' : m1.parent_ del = some p)
    (hl' : m1.left_ p = some del) (hb' : m1.right_ p = some b1) (hbr' : m1.red_ b1 = false) :
    ExtractFixupLoop hdr (fuel + 1) m del (some p) =
      ExtractFixupLoop hdr (fuel + 1) m1 del (some p) := by
  simp [ExtractFixupLoop, h, hd, hl, hb, hbr, hrot, h', hd', hp', hl', hb', hbr']

theorem ExtractFixupLoop_L2red {m : Mem K} {hdr del p b : Nat} (fuel : Nat)
    (h : Root m hdr ≠ some del) (hd : m.red_ del = false) (hl : m.left_ p = some del)
    (hb : m.right_ p = some b) (hbr : m.red_ b = false)
    (h1 : m.nullOrBlack (m.left_ b) = true) (h2 : m.nullOrBlack (m.right_ b) = true)
    (hp : m.red_ p = true) (hpb : p ≠ b) :
    ExtractFixupLoop hdr (fuel + 1) m del (some p) =
      some ((m.setRed b true).setRed p false) := by
  simp [ExtractFixupLoop, h, hd, hl, hb, hbr, h1, h2, hp, hpb]

theorem ExtractFixupLoop_L2blk {m : Mem K} {hdr del p b : Nat} (fuel : Nat)
    (h : Root m hdr ≠ some del) (hd : m.red_ del = false) (hl : m.left_ p = some del)
    (hb : m.right_ p = some b) (hbr : m.red_ b = false)
    (h1 : m.nullOrBlack (m.left_ b) = true) (h2 : m.nullOrBlack (m.right_ b) = true)
    (hp : m.red_ p = false) (hpb : p ≠ b) :
    ExtractFixupLoop hdr (fuel + 1) m del (some p) =
      ExtractFixupLoop hdr fuel (m.setRed b true) p (m.parent_ p) := by
  simp [ExtractFixupLoop, h, hd, hl, hb, hbr, h1, h2, hp, hpb]

theorem ExtractFixupLoop_L3b {m : Mem K} {hdr del p b br : Nat} (fuel : Nat)
    (h : Root m hdr ≠ some del) (hd : m.red_ del = false) (hl : m.left_ p = some del)
    (hb : m.right_ p = some b) (hbr : m.red_ b = false)
    (h2 : m.right_ b = some br) (hr2 : m.red_ br = true) (hpbr : p ≠ br) :
    ExtractFixupLoop hdr (fuel + 1) m del (some p) =
      RotateLeft (((m.setRed br false).setRed b (m.red_ p)).setRed p false) hdr p := by
  have f1 : m.nullOrBlack (some br) = false := by simp [Mem.nullOrBlack, hr2]
  simp [ExtractFixupLoop, h, hd, hl, hb, hbr, h2, f1, hpbr]

theorem ExtractFixupLoop_L3a {m m1 : Mem K} {hdr del p b bl b1 br1 : Nat} (fuel : Nat)
    (h : Root m hdr ≠ some del) (hd : m.red_ del = false) (hl : m.left_ p = some del)
    (hb : m.right_ p = some b) (hbr : m.red_ b = false)
    (h1 : m.left_ b = some bl) (hr1 : m.red_ bl = true)
    (h2 : m.nullOrBlack (m.right_ b) = true)
    (hrot : RotateRight ((m.setRed b true).setRed bl false) hdr b = some m1)
    (h' : Root m1 hdr ≠ some del) (hd' : m1.red_ del = false)
    (hl' : m1.left_ p = some del) (hb' : m1.right_ p = some b1) (hbr' : m1.red_ b1 = false)
    (h2' : m1.right_ b1 = some br1) (hr2' : m1.red_ br1 = true) :
    ExtractFixupLoop hdr (fuel + 1) m del (some p) =
      ExtractFixupLoop hdr (fuel + 1) m1 del (some p) := by
  have f1 : m.nullOrBlack (some bl) = false := by simp [Mem.nullOrBlack, hr1]
  have f2 : m.nonNullRed (some bl) = true := by simp [Mem.nonNullRed, hr1]
  have f3 : m1.nullOrBlack (some br1) = false := by simp [Mem.nullOrBlack, hr2']
  simp [ExtractFixupLoop, h, hd, hl, hb, hbr, f1, f2, f3, h2, hrot, h', hd', hl', hb', hbr',
    h1, hr1, h2']

/-- Right side, red brother. -/
theorem ExtractFixupLoop_R1 {m m1 : Mem K} {hdr del p b b1 : Nat} (fuel : Nat)
    (h : Root m hdr ≠ some del) (hd : m.red_ del = false) (hl : m.left_ p ≠ some del)
    (hb : m.left_ p = some b) (hbr : m.red_ b = true)
    (hrot : RotateRight ((m.setRed b (m.red_ p)).setRed p true) hdr p = some m1)
    (h' : Root m1 hdr ≠ some del) (hd' : m1.red_ del = false) (hp' : m1.parent_ del = some p)
    (hl' : m1.left_ p ≠ some del) (hb' : m1.left_ p = some b1) (hbr' : m1.red_ b1 = false) :
    ExtractFixupLoop hdr (fuel + 1) m del (some p) =
      ExtractFixupLoop hdr (fuel + 1) m1 del (some p) := by
  have e1 : del ≠ b := by rintro rfl; exact hl hb
  have e2 : del ≠ b1 := by rintro rfl; exact hl' hb'
  simp [ExtractFixupLoop, h, hd, hb, hbr, hrot, h', hd', hp', hb', hbr', e1, e2]

theorem ExtractFixupLoop_R2red {m : Mem K} {hdr del p b : Nat} (fuel : Nat)
    (h : Root m hdr ≠ some del) (hd : m.red_ del = false) (hl : m.left_ p ≠ some del)
    (hb : m.left_ p = some b) (hbr : m.red_ b = false)
    (h1 : m.nullOrBlack (m.right_ b) = true) (h2 : m.nullOrBlack (m.left_ b) = true)
    (hp : m.red_ p = true) (hpb : p ≠ b) :
    ExtractFixupLoop hdr (fuel + 1) m del (some p) =
      some ((m.setRed b true).setRed p false) := by
  have e1 : del ≠ b := by rintro rfl; exact hl hb
  simp [ExtractFixupLoop, h, hd, hb, hbr, h1, h2, hp, hpb, e1]

theorem ExtractFixupLoop_R2blk {m : Mem K} {hdr del p b : Nat} (fuel : Nat)
    (h : Root m hdr ≠ some del) (hd : m.red_ del = false) (hl : m.left_ p ≠ some del)
    (hb : m.left_ p = some b) (hbr : m.red_ b = false)
    (h1 : m.nullOrBlack (m.right_ b) = true) (h2 : m.nullOrBlack (m.left_ b) = true)
    (hp : m.red_ p = false) (hpb : p ≠ b) :
    ExtractFixupLoop hdr (fuel + 1) m del (some p) =
      ExtractFixupLoop hdr fuel (m.setRed b true) p (m.parent_ p) := by
  have e1 : del ≠ b := by rintro rfl; exact hl hb
  simp [ExtractFixupLoop, h, hd, hb, hbr, h1, h2, hp, hpb, e1]

theorem ExtractFixupLoop_R3b {m : Mem K} {hdr del p b bl : Nat} (fuel : Nat)
    (h : Root m hdr ≠ some del) (hd : m.red_ del = false) (hl : m.left_ p ≠ some del)
    (hb : m.left_ p = some b) (hbr : m.red_ b = false)
    (h2 : m.left_ b = some bl) (hr2 : m.red_ bl = true) (hpbl : p ≠ bl) :
    ExtractFixupLoop hdr (fuel + 1) m del (some p) =
      RotateRight (((m.setRed bl false).setRed b (m.red_ p)).setRed p false) hdr p := by
  have e1 : del ≠ b := by rintro rfl; exact hl hb
  have f1 : m.nullOrBlack (some bl) = false := by simp [Mem.nullOrBlack, hr2]
  simp [ExtractFixupLoop, h, hd, hb, hbr, h2, f1, hpbl, e1]

theorem ExtractFixupLoop_R3a {m m1 : Mem K} {hdr del p b br b1 bl1 : Nat} (fuel : Nat)
    (h : Root m hdr ≠ some del) (hd : m.red_ del = false) (hl : m.left_ p ≠ some del)
    (hb : m.left_ p = some b) (hbr : m.red_ b = false)
    (h1 : m.right_ b = some br) (hr1 : m.red_ br = true)
    (h2 : m.nullOrBlack (m.left_ b) = true)
    (hrot : RotateLeft ((m.setRed b true).setRed br false) hdr b = some m1)
    (h' : Root m1 hdr ≠ some del) (hd' : m1.red_ del = false)
    (hl' : m1.left_ p ≠ some del) (hb' : m1.left_ p = some b1) (hbr' : m1.red_ b1 = false)
    (h2' : m1.left_ b1 = some bl1) (hr2' : m1.red_ bl1 = true) :
    ExtractFixupLoop hdr (fuel + 1) m del (some p) =
      ExtractFixupLoop hdr (fuel + 1) m1 del (some p) := by
  have e1 : del ≠ b := by rintro rfl; exact hl hb
  have e2 : del ≠ b1 := by rintro rfl; exact hl' hb'
  have f1 : m.nullOrBlack (some br) = false := by simp [Mem.nullOrBlack, hr1]
  have f2 : m.nonNullRed (some br) = true := by simp [Mem.nonNullRed, hr1]
  have f3 : m1.nullOrBlack (some bl1) = false := by simp [Mem.nullOrBlack, hr2']
  simp [ExtractFixupLoop, h, hd, hb, hbr, f1, f2, f3, h2, hrot, h', hd', hb', hbr',
    h1, hr1, h2', e1, e2]

@[simp] theorem Leaf_nil (a : Nat) : Leaf a Sh.nil ↔ False := Iff.rfl

@[simp] theorem Leaf_node (a : Nat) (l : Sh) (x : Nat) (r : Sh) :
    Leaf a (Sh.node l x r) ↔ ((x = a ∧ l = Sh.nil ∧ r = Sh.nil) ∨ Leaf a l ∨ Leaf a r) := Iff.rfl

theorem Leaf.mem {a : Nat} {s : Sh} (h : Leaf a s) : a ∈ s.addrs := by
  induction s with
  | nil => exact h.elim
  | node l x r ihl ihr =>
    rcases h with ⟨rfl, -, -⟩ | h | h
    · simp
    · simp [ihl h]
    · simp [ihr h]

theorem Leaf_plug {a : Nat} (c : List Frame) {s : Sh} (h : Leaf a s) : Leaf a (plug c s) := by
  induction c generalizing s with
  | nil => exact h
  | cons f c ih =>
    cases f with
    | left x r => exact ih (Or.inr (Or.inl h))
    | right l x => exact ih (Or.inr (Or.inr h))

theorem Leaf.exists_plug {a : Nat} {s : Sh} (h : Leaf a s) :
    ∃ c, s = plug c (Sh.node Sh.nil a Sh.nil) := by
  induction s with
  | nil => exact h.elim
  | node l x r ihl ihr =>
    rcases h with ⟨rfl, rfl, rfl⟩ | h | h
    · exact ⟨[], rfl⟩
    · obtain ⟨c, e⟩ := ihl h
      exact ⟨c ++ [Frame.left x r], by simp [plug_append, e]⟩
    · obtain ⟨c, e⟩ := ihr h
      exact ⟨c ++ [Frame.right l x], by simp [plug_append, e]⟩

theorem WFz.parent_ptr {m : Mem K} {hdr : Nat} {c : List Frame} {s : Sh} {x : Nat}
    (h : WFz m hdr c s) (hp : s.ptr = some x) : m.parent_ x = some (ctxPar hdr c) := by
  cases s with
  | nil => simp at hp
  | node l y r =>
    simp only [Sh.ptr_node, Option.some.injEq] at hp
    subst hp
    exact h.parent_eq

theorem WFz.root_cons_ptr {m : Mem K} {hdr : Nat} {f : Frame} {c : List Frame} {s : Sh}
    {x : Nat} (h : WFz m hdr (f :: c) s) (hp : s.ptr = some x) : Root m hdr ≠ some x := by
  cases s with
  | nil => simp at hp
  | node l y r =>
    simp only [Sh.ptr_node, Option.some.injEq] at hp
    subst hp
    exact h.root_cons

theorem WFz.nodup_mem {m : Mem K} {hdr : Nat} {c : List Frame} {s : Sh} {x : Nat}
    (h : WFz m hdr c s) (hx : x ∈ s.addrs) : (hdr :: x :: ctxAddrs c).Nodup := by
  refine h.nodup.sublist ?_
  refine List.Sublist.cons₂ hdr ?_
  have : List.Sublist [x] s.addrs := List.singleton_sublist.2 hx
  simpa using this.append_right (ctxAddrs c)

theorem CtxRootBlk_of {red : Nat → Bool} {c : List Frame} {P Q : Prop} (hq : Q)
    (h : CtxRootBlk red c P) : CtxRootBlk red c Q := by
  cases c with
  | nil => exact hq
  | cons f c => exact h

theorem upd_agree {red red' : Nat → Bool} {L : List Nat} (a : Nat) (v : Bool)
    (h : ∀ y ∈ L, red' y = red y) : ∀ y ∈ L, upd red' a v y = upd red a v y := by
  intro y hy
  simp only [upd_apply, h y hy]

theorem ExtPost.rebase {m0 m m' : Mem K} {hdr a : Nat} {sh0 sh : Sh}
    (h : ExtPost m m' hdr a sh) (ha : sh.addrs = sh0.addrs)
    (hk : m.key_ = m0.key_) (hn : m.next = m0.next) : ExtPost m0 m' hdr a sh0 := by
  obtain ⟨sh', h1, h2, h3, h4, h5, h6, h7, h8⟩ := h
  exact ⟨sh', h1, h2.trans ha, h3, h4, h5, h6, h7.trans hk, h8.trans hn⟩

theorem CtxRootBlk_imp {red : Nat → Bool} {c : List Frame} {P Q : Prop} (hpq : P → Q)
    (h : CtxRootBlk red c P) : CtxRootBlk red c Q := by
  cases c with
  | nil => exact hpq h
  | cons f c => exact h

theorem ext_L2red {m : Mem K} {hdr a del p b : Nat} {c : List Frame} {S bl br : Sh}
    (fuel : Nat) (h : DelInv m hdr a (Frame.left p (Sh.node bl b br) :: c) S del)
    (hb : m.red_ b = false) (h1 : isBlk m.red_ bl) (h2 : isBlk m.red_ br)
    (hp : m.red_ p = true) :
    ∃ m', ExtractFixupLoop hdr (fuel + 1) m del (some p) = some m' ∧
      ExtPost m m' hdr a (plug (Frame.left p (Sh.node bl b br) :: c) S) := by
  obtain ⟨wf, ptr, blk, leaf, norr, bal, cnorr, cbal, croot⟩ := h
  have wfp := wf.up_left
  have wfb := wfp.down_right
  have hnd := wf.nodup
  have hnda := wf.nodup_mem leaf.mem
  have hndd := wf.nodup_mem (Sh.ptr_mem ptr)
  simp only [ctxAddrs, Sh.addrs_node, List.nodup_cons, List.mem_cons, List.mem_append,
    List.nodup_append, List.append_assoc, List.cons_append, not_or, List.disjoint_cons_right,
    List.disjoint_append_right, List.disjoint_cons_left, List.disjoint_append_left]
    at hnd hnda hndd
  have hbd : b ≠ del := by omega
  have hstep := ExtractFixupLoop_L2red fuel (wf.root_cons_ptr ptr) blk
    (by rw [wfp.left_eq, ptr]) wfp.right_eq hb
    (by rw [wfb.left_eq]; exact (nullOrBlack_ptr m bl).2 h1)
    (by rw [wfb.right_eq]; exact (nullOrBlack_ptr m br).2 h2) hp (by omega)
  refine ⟨_, hstep, ?_⟩
  have eS : ∀ y ∈ S.addrs, upd (upd m.red_ b true) p false y = m.red_ y := by
    intro y hy
    have hy' := wf.nodup_mem hy
    simp only [ctxAddrs, Sh.addrs_node, List.nodup_cons, List.mem_cons, List.mem_append,
      not_or] at hy'
    have e1 : y ≠ p := by omega
    have e2 : y ≠ b := by omega
    simp [e1, e2]
  simp only [CtxNoRR, CtxBal, CtxRootBlk, Frame.addr_left, Frame.sib_left, hp, hb, ctxTopBlk,
    forall_true_left, ite_true, Nat.add_zero, NoRR_node, Bal_node, bh_node, isBlk_node,
    Bool.false_eq_true, ite_false, false_implies, true_and] at cnorr cbal croot
  obtain ⟨⟨nbl, nbr⟩, ct, cn⟩ := cnorr
  obtain ⟨e1, ⟨e2, bbl, bbr⟩, cb⟩ := cbal
  refine ⟨_, ((WFz.setRed_iff _ _).2 ((WFz.setRed_iff _ _).2 wfp)).toWF, rfl,
    Leaf_plug c (by simp [leaf]), ?_, ?_, ?_, rfl, rfl⟩
  · rw [NoRR_plug]
    simp only [Mem.setRed_red, NoRR_node, isBlk_node]
    have nS := (NoRR_congr eS).2 norr
    have nB : NoRR (upd (upd m.red_ b true) p false) (Sh.node bl b br) :=
      ⟨fun _ => ⟨by simpa [hnd] using h1, by simpa [hnd] using h2⟩,
        by simpa [hnd] using nbl, by simpa [hnd] using nbr⟩
    refine ⟨⟨fun hh => by simp at hh, nS, nB⟩, ?_, Or.inr ?_⟩
    · simpa [hnd] using cn
    · simp
  · rw [isBlk_plug]
    simp only [Mem.setRed_red, isBlk_node]
    have : CtxRootBlk (upd (upd m.red_ b true) p false) c True := by simpa [hnd] using
      (CtxRootBlk_of trivial croot : CtxRootBlk m.red_ c True)
    exact CtxRootBlk_of (by simp) this
  · rw [Bal_plug]
    simp only [Mem.setRed_red]
    have hS := bh_congr (upd_agree a true eS)
    have x1 : bh (upd (upd (upd m.red_ b true) p false) a true) bl = bh m.red_ bl := by
      simp [hnd, hnda]
    have x2 : bh (upd (upd (upd m.red_ b true) p false) a true) br = bh m.red_ br := by
      simp [hnd, hnda]
    have c1 : upd (upd (upd m.red_ b true) p false) a true b = true := by
      simp [upd_apply]
      omega
    have c2 : upd (upd (upd m.red_ b true) p false) a true p = false := by
      simp [upd_apply]
      omega
    have bS := (Bal_congr (upd_agree a true eS)).2 bal
    have bB : Bal (upd (upd (upd m.red_ b true) p false) a true) (Sh.node bl b br) :=
      ⟨by rw [x1, x2]; omega,
        by simpa [hnd, hnda] using bbl, by simpa [hnd, hnda] using bbr⟩
    have hh : bh (upd (upd (upd m.red_ b true) p false) a true) (Sh.node S p (Sh.node bl b br)) =
        bh (upd m.red_ a true) S + 1 := by
      simp only [bh_node, hS, x1, x2, c1, c2]
      (try simp) <;> omega
    rw [hh]
    refine ⟨?_, by simpa [hnd, hnda] using cb⟩
    simp only [Bal_node, bh_node, hS, x1, x2, c1, c2] at bB ⊢
    exact ⟨by (try simp) <;> omega, bS, bB⟩

theorem ext_L2blk {m : Mem K} {hdr a del p b : Nat} {c : List Frame} {S bl br : Sh}
    (fuel : Nat) (h : DelInv m hdr a (Frame.left p (Sh.node bl b br) :: c) S del)
    (hb : m.red_ b = false) (h1 : isBlk m.red_ bl) (h2 : isBlk m.red_ br)
    (hp : m.red_ p = false) :
    ExtractFixupLoop hdr (fuel + 1) m del (some p) =
        ExtractFixupLoop hdr fuel (m.setRed b true) p ((m.setRed b true).parent_ p) ∧
      DelInv (m.setRed b true) hdr a c (Sh.node S p (Sh.node bl b br)) p := by
  obtain ⟨wf, ptr, blk, leaf, norr, bal, cnorr, cbal, croot⟩ := h
  have wfp := wf.up_left
  have wfb := wfp.down_right
  have hnd := wf.nodup
  have hnda := wf.nodup_mem leaf.mem
  have hndd := wf.nodup_mem (Sh.ptr_mem ptr)
  simp only [ctxAddrs, Sh.addrs_node, List.nodup_cons, List.mem_cons, List.mem_append,
    List.nodup_append, List.append_assoc, List.cons_append, not_or, List.disjoint_cons_right,
    List.disjoint_append_right, List.disjoint_cons_left, List.disjoint_append_left]
    at hnd hnda hndd
  have hbd : b ≠ del := by omega
  have hstep := ExtractFixupLoop_L2blk fuel (wf.root_cons_ptr ptr) blk
    (by rw [wfp.left_eq, ptr]) wfp.right_eq hb
    (by rw [wfb.left_eq]; exact (nullOrBlack_ptr m bl).2 h1)
    (by rw [wfb.right_eq]; exact (nullOrBlack_ptr m br).2 h2) hp (by omega)
  refine ⟨hstep, ?_⟩
  have eS : ∀ y ∈ S.addrs, upd m.red_ b true y = m.red_ y := by
    intro y hy
    have hy' := wf.nodup_mem hy
    simp only [ctxAddrs, Sh.addrs_node, List.nodup_cons, List.mem_cons, List.mem_append,
      not_or] at hy'
    have e2 : y ≠ b := by omega
    simp [e2]
  simp only [CtxNoRR, CtxBal, CtxRootBlk, Frame.addr_left, Frame.sib_left, hp, hb, ctxTopBlk,
    forall_true_left, ite_true, Nat.add_zero, NoRR_node, Bal_node, bh_node, isBlk_node,
    Bool.false_eq_true, ite_false, false_implies, true_and] at cnorr cbal croot
  obtain ⟨⟨nbl, nbr⟩, cn⟩ := cnorr
  obtain ⟨e1, ⟨e2, bbl, bbr⟩, cb⟩ := cbal
  have hS := bh_congr (upd_agree a true eS)
  have x1 : bh (upd (upd m.red_ b true) a true) bl = bh m.red_ bl := by
    simp [hnd, hnda]
  have x2 : bh (upd (upd m.red_ b true) a true) br = bh m.red_ br := by
    simp [hnd, hnda]
  have c1 : upd (upd m.red_ b true) a true b = true := by
    simp [upd_apply]
  have c2 : upd (upd m.red_ b true) a true p = false := by
    have : p ≠ a := by omega
    have : p ≠ b := by omega
    simp [*]
  have c3 : upd m.red_ b true p = false := by
    have : p ≠ b := by omega
    simp [*]
  refine ⟨(WFz.setRed_iff _ _).2 wfp, rfl, by simpa using c3, by simp [leaf], ?_, ?_, ?_, ?_, ?_⟩
  · simp only [Mem.setRed_red, NoRR_node, isBlk_node]
    have nS := (NoRR_congr eS).2 norr
    have nB : NoRR (upd m.red_ b true) (Sh.node bl b br) :=
      ⟨fun _ => ⟨by simpa [hnd] using h1, by simpa [hnd] using h2⟩,
        by simpa [hnd] using nbl, by simpa [hnd] using nbr⟩
    exact ⟨fun hh => by simp [c3] at hh, nS, nB⟩
  · simp only [Mem.setRed_red]
    have bS := (Bal_congr (upd_agree a true eS)).2 bal
    have bB : Bal (upd (upd m.red_ b true) a true) (Sh.node bl b br) :=
      ⟨by rw [x1, x2]; omega,
        by simpa [hnd, hnda] using bbl, by simpa [hnd, hnda] using bbr⟩
    simp only [Bal_node, bh_node, hS, x1, x2, c1] at bB ⊢
    exact ⟨by (try simp) <;> omega, bS, bB⟩
  · simpa [hnd] using cn
  · simp only [Mem.setRed_red]
    have hh : bh (upd (upd m.red_ b true) a true) (Sh.node S p (Sh.node bl b br)) =
        bh (upd m.red_ a true) S + 1 := by
      simp only [bh_node, hS, x1, x2, c1, c2]
      (try simp) <;> omega
    rw [hh]
    simpa [hnd] using cb
  · simpa [hnd] using (CtxRootBlk_of trivial croot : CtxRootBlk m.red_ c True)

theorem ext_L3b {m : Mem K} {hdr a del p b r : Nat} {c : List Frame} {S bl brl brr : Sh}
    (fuel : Nat)
    (h : DelInv m hdr a (Frame.left p (Sh.node bl b (Sh.node brl r brr)) :: c) S del)
    (hb : m.red_ b = false) (hr : m.red_ r = true) :
    ∃ m', ExtractFixupLoop hdr (fuel + 1) m del (some p) = some m' ∧
      ExtPost m m' hdr a (plug (Frame.left p (Sh.node bl b (Sh.node brl r brr)) :: c) S) := by
  obtain ⟨wf, ptr, blk, leaf, norr, bal, cnorr, cbal, croot⟩ := h
  have wfp := wf.up_left
  have wfb := wfp.down_right
  have hnd := wf.nodup
  have hnda := wf.nodup_mem leaf.mem
  have hndd := wf.nodup_mem (Sh.ptr_mem ptr)
  simp only [ctxAddrs, Sh.addrs_node, List.nodup_cons, List.mem_cons, List.mem_append,
    List.nodup_append, List.append_assoc, List.cons_append, not_or, List.disjoint_cons_right,
    List.disjoint_append_right, List.disjoint_cons_left, List.disjoint_append_left]
    at hnd hnda hndd
  have hbd : b ≠ del := by omega
  have hstep := ExtractFixupLoop_L3b fuel (wf.root_cons_ptr ptr) blk
    (by rw [wfp.left_eq, ptr]) wfp.right_eq hb
    wfb.right_eq hr (by omega)
  have wf3 : WFz (((m.setRed r false).setRed b (m.red_ p)).setRed p false) hdr c
      (Sh.node S p (Sh.node bl b (Sh.node brl r brr))) :=
    (WFz.setRed_iff _ _).2 ((WFz.setRed_iff _ _).2 ((WFz.setRed_iff _ _).2 wfp))
  obtain ⟨m4, hrot, wf4, hred4, hkey4, hnext4⟩ := RotateLeft_spec wf3
  refine ⟨m4, by rw [hstep, hrot], ?_⟩
  have eS : ∀ y ∈ S.addrs, upd (upd (upd m.red_ r false) b (m.red_ p)) p false y = m.red_ y := by
    intro y hy
    have hy' := wf.nodup_mem hy
    simp only [ctxAddrs, Sh.addrs_node, List.nodup_cons, List.mem_cons, List.mem_append,
      not_or] at hy'
    have e1 : y ≠ p := by omega
    have e2 : y ≠ b := by omega
    have e3 : y ≠ r := by omega
    simp [e1, e2, e3]
  obtain ⟨nB, ct, cn⟩ := cnorr
  obtain ⟨-, nbl, nBR⟩ := nB
  obtain ⟨iR, nbrl, nbrr⟩ := nBR
  obtain ⟨e1, bB, cb⟩ := cbal
  obtain ⟨e2, bbl, bBR⟩ := bB
  obtain ⟨e3, bbrl, bbrr⟩ := bBR
  simp only [Frame.addr_left, Frame.sib_left] at ct
  simp only [bh_node, hb, hr, ite_true, Bool.false_eq_true, ite_false] at e1 e2 e3
  have cp : upd (upd (upd m.red_ r false) b (m.red_ p)) p false p = false := by simp
  have cb0 : upd (upd (upd m.red_ r false) b (m.red_ p)) p false b = m.red_ p := by
    have : b ≠ p := by omega
    simp [this]
  have cr : upd (upd (upd m.red_ r false) b (m.red_ p)) p false r = false := by
    have : r ≠ p := by omega
    have : r ≠ b := by omega
    simp [*]
  have cp' : upd (upd (upd (upd m.red_ r false) b (m.red_ p)) p false) a true p = false := by
    have : p ≠ a := by omega
    simp [this]
  have cb' : upd (upd (upd (upd m.red_ r false) b (m.red_ p)) p false) a true b = m.red_ p := by
    have : b ≠ a := by omega
    rw [upd_ne _ _ this, cb0]
  have cr' : upd (upd (upd (upd m.red_ r false) b (m.red_ p)) p false) a true r = false := by
    have : r ≠ a := by omega
    rw [upd_ne _ _ this, cr]
  have hS := bh_congr (upd_agree a true eS)
  have x1 : bh (upd (upd (upd (upd m.red_ r false) b (m.red_ p)) p false) a true) bl =
      bh m.red_ bl := by simp [hnd, hnda]
  have x2 : bh (upd (upd (upd (upd m.red_ r false) b (m.red_ p)) p false) a true) brl =
      bh m.red_ brl := by simp [hnd, hnda]
  have x3 : bh (upd (upd (upd (upd m.red_ r false) b (m.red_ p)) p false) a true) brr =
      bh m.red_ brr := by simp [hnd, hnda]
  refine ⟨_, wf4.toWF, by simp [plug_addrs], Leaf_plug c (by simp [leaf]), ?_, ?_, ?_,
    by simp [hkey4], by simp [hnext4]⟩
  · rw [NoRR_plug, hred4]
    simp only [Mem.setRed_red]
    have nS := (NoRR_congr eS).2 norr
    have nbl' : NoRR (upd (upd (upd m.red_ r false) b (m.red_ p)) p false) bl := by
      simpa [hnd] using nbl
    have nbrl' : NoRR (upd (upd (upd m.red_ r false) b (m.red_ p)) p false) brl := by
      simpa [hnd] using nbrl
    have nbrr' : NoRR (upd (upd (upd m.red_ r false) b (m.red_ p)) p false) brr := by
      simpa [hnd] using nbrr
    have nP : NoRR (upd (upd (upd m.red_ r false) b (m.red_ p)) p false) (Sh.node S p bl) :=
      ⟨fun hh => by simp [cp] at hh, nS, nbl'⟩
    have nR : NoRR (upd (upd (upd m.red_ r false) b (m.red_ p)) p false) (Sh.node brl r brr) :=
      ⟨fun hh => by simp [cr] at hh, nbrl', nbrr'⟩
    have nT : NoRR (upd (upd (upd m.red_ r false) b (m.red_ p)) p false)
        (Sh.node (Sh.node S p bl) b (Sh.node brl r brr)) :=
      ⟨fun _ => ⟨cp, cr⟩, nP, nR⟩
    refine ⟨nT, by simpa [hnd] using cn, ?_⟩
    rcases Bool.eq_false_or_eq_true (m.red_ p) with hp | hp
    · exact Or.inl (by simpa [hnd] using (ct hp).2)
    · exact Or.inr (cb0.trans hp)
  · rw [isBlk_plug, hred4]
    simp only [Mem.setRed_red]
    have cr0 : CtxRootBlk m.red_ c (m.red_ p = false) := croot
    have cr1 : CtxRootBlk (upd (upd (upd m.red_ r false) b (m.red_ p)) p false) c
        (m.red_ p = false) := by
      rw [CtxRootBlk_upd, CtxRootBlk_upd, CtxRootBlk_upd]
      · exact cr0
      all_goals simp [hnd]
    exact CtxRootBlk_imp (fun hh => cb0.trans hh) cr1
  · rw [Bal_plug, hred4]
    simp only [Mem.setRed_red]
    have bS := (Bal_congr (upd_agree a true eS)).2 bal
    have bbl' : Bal (upd (upd (upd (upd m.red_ r false) b (m.red_ p)) p false) a true) bl := by
      simpa [hnd, hnda] using bbl
    have bbrl' : Bal (upd (upd (upd (upd m.red_ r false) b (m.red_ p)) p false) a true) brl := by
      simpa [hnd, hnda] using bbrl
    have bbrr' : Bal (upd (upd (upd (upd m.red_ r false) b (m.red_ p)) p false) a true) brr := by
      simpa [hnd, hnda] using bbrr
    have bP : Bal (upd (upd (upd (upd m.red_ r false) b (m.red_ p)) p false) a true)
        (Sh.node S p bl) :=
      ⟨by rw [hS, x1]; omega, bS, bbl'⟩
    have bR : Bal (upd (upd (upd (upd m.red_ r false) b (m.red_ p)) p false) a true)
        (Sh.node brl r brr) :=
      ⟨by rw [x2, x3]; omega, bbrl', bbrr'⟩
    have bT : Bal (upd (upd (upd (upd m.red_ r false) b (m.red_ p)) p false) a true)
        (Sh.node (Sh.node S p bl) b (Sh.node brl r brr)) :=
      ⟨by simp only [bh_node, hS, x1, x2, x3, cp', cr']; (try simp) <;> omega, bP, bR⟩
    refine ⟨bT, ?_⟩
    have hh : bh (upd (upd (upd (upd m.red_ r false) b (m.red_ p)) p false) a true)
        (Sh.node (Sh.node S p bl) b (Sh.node brl r brr)) =
        bh (upd m.red_ a true) S + 1 + (if m.red_ p = true then 0 else 1) := by
      simp only [bh_node, hS, x1, x2, x3, cp', cr', cb']
      cases m.red_ p <;> (try simp) <;> omega
    rw [hh]
    have hc : ∀ z ∈ ctxAddrs c,
        upd (upd (upd (upd m.red_ r false) b (m.red_ p)) p false) a true z = m.red_ z := by
      intro z hz
      have z1 : z ≠ a := by rintro rfl; simp [hnda] at hz
      have z2 : z ≠ p := by rintro rfl; simp [hnd] at hz
      have z3 : z ≠ b := by rintro rfl; simp [hnd] at hz
      have z4 : z ≠ r := by rintro rfl; simp [hnd] at hz
      simp [z1, z2, z3, z4]
    exact (CtxBal_congr hc _).2 cb

theorem ext_L3a {m : Mem K} {hdr a del p b l : Nat} {c : List Frame} {S bll blr br : Sh}
    (fuel : Nat)
    (h : DelInv m hdr a (Frame.left p (Sh.node (Sh.node bll l blr) b br) :: c) S del)
    (hb : m.red_ b = false) (hl : m.red_ l = true) (hbr : isBlk m.red_ br) :
    ∃ m1, ExtractFixupLoop hdr (fuel + 1) m del (some p) =
        ExtractFixupLoop hdr (fuel + 1) m1 del (some p) ∧
      DelInv m1 hdr a (Frame.left p (Sh.node bll l (Sh.node blr b br)) :: c) S del ∧
      m1.red_ l = false ∧ m1.red_ b = true ∧ m1.key_ = m.key_ ∧ m1.next = m.next := by
  obtain ⟨wf, ptr, blk, leaf, norr, bal, cnorr, cbal, croot⟩ := h
  have wfp := wf.up_left
  have wfb := wfp.down_right
  have hnd := wf.nodup
  have hnda := wf.nodup_mem leaf.mem
  have hndd := wf.nodup_mem (Sh.ptr_mem ptr)
  simp only [ctxAddrs, Sh.addrs_node, List.nodup_cons, List.mem_cons, List.mem_append,
    List.nodup_append, List.append_assoc, List.cons_append, not_or, List.disjoint_cons_right,
    List.disjoint_append_right, List.disjoint_cons_left, List.disjoint_append_left]
    at hnd hnda hndd
  have hbd : b ≠ del := by omega
  have hld : l ≠ del := by omega
  have wf2 : WFz ((m.setRed b true).setRed l false) hdr (Frame.right S p :: c)
      (Sh.node (Sh.node bll l blr) b br) := by
    have := (WFz.setRed_iff l false).2 ((WFz.setRed_iff b true).2 wfb)
    exact this
  obtain ⟨m1, hrot, wf1, hred1, hkey1, hnext1⟩ := RotateRight_spec wf2
  have wfp1 := wf1.up_right
  have wfS1 := wfp1.down_left
  have eS : ∀ y ∈ S.addrs, upd (upd m.red_ b true) l false y = m.red_ y := by
    intro y hy
    have hy' := wf.nodup_mem hy
    simp only [ctxAddrs, Sh.addrs_node, List.nodup_cons, List.mem_cons, List.mem_append,
      not_or] at hy'
    have e2 : y ≠ b := by omega
    have e3 : y ≠ l := by omega
    simp [e2, e3]
  have cl1 : upd (upd m.red_ b true) l false l = false := by simp
  have cb1 : upd (upd m.red_ b true) l false b = true := by
    have : b ≠ l := by omega
    simp [this]
  have cp1 : upd (upd m.red_ b true) l false p = m.red_ p := by
    have : p ≠ l := by omega
    have : p ≠ b := by omega
    simp [*]
  have hd1 : m1.red_ del = false := by
    rw [hred1]
    simp only [Mem.setRed_red]
    rw [eS del (Sh.ptr_mem ptr)]
    exact blk
  have hstep := ExtractFixupLoop_L3a fuel (wf.root_cons_ptr ptr) blk
    (by rw [wfp.left_eq, ptr]) wfp.right_eq hb
    wfb.left_eq hl (by rw [wfb.right_eq]; exact (nullOrBlack_ptr m br).2 hbr) hrot
    (wfS1.root_cons_ptr ptr) hd1
    (by rw [wfp1.left_eq, ptr]) wfp1.right_eq
    (by rw [hred1]; exact cl1) wf1.right_eq (by rw [hred1]; exact cb1)
  refine ⟨m1, hstep, ?_, by rw [hred1]; exact cl1, by rw [hred1]; exact cb1, by simp [hkey1],
    by simp [hnext1]⟩
  obtain ⟨nB, ct, cn⟩ := cnorr
  obtain ⟨-, nBL, nbr⟩ := nB
  obtain ⟨iL, nbll, nblr⟩ := nBL
  obtain ⟨ibll, iblr⟩ := iL hl
  obtain ⟨e1, bB, cb⟩ := cbal
  obtain ⟨e2, bBL, bbr⟩ := bB
  obtain ⟨e3, bbll, bblr⟩ := bBL
  simp only [Frame.addr_left, Frame.sib_left] at ct
  simp only [bh_node, hb, hl, ite_true, Bool.false_eq_true, ite_false] at e1 e2 e3
  have hS := bh_congr (upd_agree a true eS)
  have y1 : bh (upd (upd m.red_ b true) l false) bll = bh m.red_ bll := by simp [hnd]
  have y2 : bh (upd (upd m.red_ b true) l false) blr = bh m.red_ blr := by simp [hnd]
  have y3 : bh (upd (upd m.red_ b true) l false) br = bh m.red_ br := by simp [hnd]
  have nbll' : NoRR (upd (upd m.red_ b true) l false) bll := by simpa [hnd] using nbll
  have nblr' : NoRR (upd (upd m.red_ b true) l false) blr := by simpa [hnd] using nblr
  have nbr' : NoRR (upd (upd m.red_ b true) l false) br := by simpa [hnd] using nbr
  have iblr' : isBlk (upd (upd m.red_ b true) l false) blr := by simpa [hnd] using iblr
  have ibr' : isBlk (upd (upd m.red_ b true) l false) br := by simpa [hnd] using hbr
  have bbll' : Bal (upd (upd m.red_ b true) l false) bll := by simpa [hnd] using bbll
  have bblr' : Bal (upd (upd m.red_ b true) l false) blr := by simpa [hnd] using bblr
  have bbr' : Bal (upd (upd m.red_ b true) l false) br := by simpa [hnd] using bbr
  have nInner : NoRR (upd (upd m.red_ b true) l false) (Sh.node blr b br) :=
    ⟨fun _ => ⟨iblr', ibr'⟩, nblr', nbr'⟩
  have nNew : NoRR (upd (upd m.red_ b true) l false) (Sh.node bll l (Sh.node blr b br)) :=
    ⟨fun hh => by simp [cl1] at hh, nbll', nInner⟩
  have bInner : Bal (upd (upd m.red_ b true) l false) (Sh.node blr b br) :=
    ⟨by rw [y2, y3]; omega, bblr', bbr'⟩
  have bNew : Bal (upd (upd m.red_ b true) l false) (Sh.node bll l (Sh.node blr b br)) :=
    ⟨by simp only [bh_node, y1, y2, y3, cb1, cl1]; (try simp) <;> omega, bbll', bInner⟩
  have hNew : bh (upd (upd m.red_ b true) l false) (Sh.node bll l (Sh.node blr b br)) =
      bh (upd m.red_ a true) S + 1 := by
    simp only [bh_node, y1, y2, y3, cb1, cl1]
    (try simp) <;> omega
  have hc : ∀ z ∈ ctxAddrs c, upd (upd m.red_ b true) l false z = m.red_ z := by
    intro z hz
    have z3 : z ≠ b := by rintro rfl; simp [hnd] at hz
    have z4 : z ≠ l := by rintro rfl; simp [hnd] at hz
    simp [z3, z4]
  refine ⟨wfS1, ptr, hd1, leaf, ?_, ?_, ?_, ?_, ?_⟩
  · rw [hred1]
    exact (NoRR_congr eS).2 norr
  · rw [hred1]
    exact (Bal_congr (upd_agree a true eS)).2 bal
  · rw [hred1]
    simp only [Mem.setRed_red]
    refine ⟨nNew, ?_, (CtxNoRR_congr hc).2 cn⟩
    intro hh
    simp only [Frame.addr_left, cp1] at hh
    exact ⟨cl1, (ctxTopBlk_congr hc).2 (ct hh).2⟩
  · rw [hred1]
    simp only [Mem.setRed_red]
    rw [hS]
    refine ⟨hNew, bNew, ?_⟩
    rw [cp1]
    exact (CtxBal_congr hc _).2 cb
  · rw [hred1]
    simp only [Mem.setRed_red]
    have cr0 : CtxRootBlk m.red_ c (m.red_ p = false) := croot
    have cr1 := (CtxRootBlk_congr hc (m.red_ p = false)).2 cr0
    have cr2 : CtxRootBlk (upd (upd m.red_ b true) l false) c
        (upd (upd m.red_ b true) l false p = false) :=
      CtxRootBlk_imp (fun hh => cp1.trans hh) cr1
    exact cr2

theorem ext_L1 {m : Mem K} {hdr a del p b : Nat} {c : List Frame} {S bl br : Sh}
    (fuel : Nat) (h : DelInv m hdr a (Frame.left p (Sh.node bl b br) :: c) S del)
    (hb : m.red_ b = true) :
    ∃ m1 bll l blr, bl = (Sh.node bll l blr) ∧
      ExtractFixupLoop hdr (fuel + 1) m del (some p) =
        ExtractFixupLoop hdr (fuel + 1) m1 del (some p) ∧
      DelInv m1 hdr a (Frame.left p bl :: Frame.left b br :: c) S del ∧
      m1.red_ p = true ∧ m1.red_ l = false ∧ m1.key_ = m.key_ ∧ m1.next = m.next := by
  obtain ⟨wf, ptr, blk, leaf, norr, bal, cnorr, cbal, croot⟩ := h
  obtain ⟨nB, ct, cn⟩ := cnorr
  obtain ⟨iB, nbl, nbr⟩ := nB
  obtain ⟨ibl, ibr⟩ := iB hb
  obtain ⟨e1, bB, cb⟩ := cbal
  obtain ⟨e2, bbl, bbr⟩ := bB
  simp only [Frame.addr_left, Frame.sib_left] at ct
  simp only [bh_node, hb, ite_true] at e1 e2
  have hp : m.red_ p = false := by
    rcases Bool.eq_false_or_eq_true (m.red_ p) with hp | hp
    · have := (ct hp).1
      simp only [isBlk_node, hb] at this
      exact absurd this (by simp)
    · exact hp
  obtain ⟨bll, l, blr, rfl⟩ : ∃ bll l blr, bl = (Sh.node bll l blr) := by
    cases bl with
    | nil => simp only [bh_nil] at e1 e2; omega
    | node x y z => exact ⟨x, y, z, rfl⟩
  have hlb : m.red_ l = false := ibl
  have wfp := wf.up_left
  have hnd := wf.nodup
  have hnda := wf.nodup_mem leaf.mem
  have hndd := wf.nodup_mem (Sh.ptr_mem ptr)
  simp only [ctxAddrs, Sh.addrs_node, List.nodup_cons, List.mem_cons, List.mem_append,
    List.nodup_append, List.append_assoc, List.cons_append, not_or, List.disjoint_cons_right,
    List.disjoint_append_right, List.disjoint_cons_left, List.disjoint_append_left]
    at hnd hnda hndd
  have hbd : b ≠ del := by omega
  have hld : l ≠ del := by omega
  have wf2 : WFz ((m.setRed b (m.red_ p)).setRed p true) hdr c
      (Sh.node S p (Sh.node (Sh.node bll l blr) b br)) :=
    (WFz.setRed_iff _ _).2 ((WFz.setRed_iff _ _).2 wfp)
  obtain ⟨m1, hrot, wf1, hred1, hkey1, hnext1⟩ := RotateLeft_spec wf2
  have wfp1 := wf1.down_left
  have wfS1 := wfp1.down_left
  have eS : ∀ y ∈ S.addrs, upd (upd m.red_ b (m.red_ p)) p true y = m.red_ y := by
    intro y hy
    have hy' := wf.nodup_mem hy
    simp only [ctxAddrs, Sh.addrs_node, List.nodup_cons, List.mem_cons, List.mem_append,
      not_or] at hy'
    have e2 : y ≠ b := by omega
    have e3 : y ≠ p := by omega
    simp [e2, e3]
  have cp1 : upd (upd m.red_ b (m.red_ p)) p true p = true := by simp
  have cb1 : upd (upd m.red_ b (m.red_ p)) p true b = false := by
    have : b ≠ p := by omega
    simp [this, hp]
  have cl1 : upd (upd m.red_ b (m.red_ p)) p true l = false := by
    have : l ≠ p := by omega
    have : l ≠ b := by omega
    simp [*]
  have hd1 : m1.red_ del = false := by
    rw [hred1]
    simp only [Mem.setRed_red]
    rw [eS del (Sh.ptr_mem ptr)]
    exact blk
  have hstep := ExtractFixupLoop_L1 fuel (wf.root_cons_ptr ptr) blk
    (by rw [wfp.left_eq, ptr]) wfp.right_eq hb
    hrot (wfS1.root_cons_ptr ptr) hd1 (wfS1.parent_ptr ptr)
    (by rw [wfp1.left_eq, ptr]) wfp1.right_eq
    (by rw [hred1]; exact cl1)
  refine ⟨m1, bll, l, blr, rfl, hstep, ?_, by rw [hred1]; exact cp1,
    by rw [hred1]; exact cl1, by simp [hkey1], by simp [hnext1]⟩
  have hS := bh_congr (upd_agree a true eS)
  have hc : ∀ z ∈ ctxAddrs c, upd (upd m.red_ b (m.red_ p)) p true z = m.red_ z := by
    intro z hz
    have z3 : z ≠ b := by rintro rfl; simp [hnd] at hz
    have z4 : z ≠ p := by rintro rfl; simp [hnd] at hz
    simp [z3, z4]
  have hL : ∀ z ∈ ((Sh.node bll l blr)).addrs,
      upd (upd m.red_ b (m.red_ p)) p true z = m.red_ z := by
    intro z hz
    simp only [Sh.addrs_node, List.mem_append, List.mem_cons] at hz
    have z3 : z ≠ b := by
      rcases hz with hz | hz | hz <;> first | omega | (rintro rfl; simp [hnd] at hz)
    have z4 : z ≠ p := by
      rcases hz with hz | hz | hz <;> first | omega | (rintro rfl; simp [hnd] at hz)
    simp [z3, z4]
  have hR : ∀ z ∈ br.addrs, upd (upd m.red_ b (m.red_ p)) p true z = m.red_ z := by
    intro z hz
    have z3 : z ≠ b := by rintro rfl; simp [hnd] at hz
    have z4 : z ≠ p := by rintro rfl; simp [hnd] at hz
    simp [z3, z4]
  refine ⟨wfS1, ptr, hd1, leaf, ?_, ?_, ?_, ?_, ?_⟩
  · rw [hred1]
    exact (NoRR_congr eS).2 norr
  · rw [hred1]
    exact (Bal_congr (upd_agree a true eS)).2 bal
  · rw [hred1]
    simp only [Mem.setRed_red]
    refine ⟨(NoRR_congr hL).2 nbl, fun _ => ⟨cl1, cb1⟩, (NoRR_congr hR).2 nbr, ?_,
      (CtxNoRR_congr hc).2 cn⟩
    intro hh
    simp only [Frame.addr_left, cb1] at hh
    exact absurd hh (by simp)
  · rw [hred1]
    simp only [Mem.setRed_red]
    rw [hS]
    refine ⟨?_, (Bal_congr hL).2 bbl, ?_, (Bal_congr hR).2 bbr, ?_⟩
    · rw [bh_congr hL]
      simp only [bh_node] at e1 e2 ⊢
      omega
    · rw [bh_congr hR, cp1]
      simp only [bh_node] at e1 e2 ⊢
      simp only [ite_true]
      omega
    · rw [cp1, cb1]
      simp only [hp, ite_true, Bool.false_eq_true, ite_false, Nat.add_zero] at cb
      simp only [ite_true, Bool.false_eq_true, ite_false, Nat.add_zero]
      exact (CtxBal_congr hc _).2 cb
  · rw [hred1]
    simp only [Mem.setRed_red]
    have cr0 : CtxRootBlk m.red_ c (m.red_ p = false) := croot
    have cr1 := (CtxRootBlk_congr hc (m.red_ p = false)).2 cr0
    have cr2 : CtxRootBlk (upd (upd m.red_ b (m.red_ p)) p true) c
        (upd (upd m.red_ b (m.red_ p)) p true b = false) :=
      CtxRootBlk_imp (fun _ => cb1) cr1
    exact cr2

theorem ext_blackL {m : Mem K} {hdr a del p b : Nat} {c : List Frame} {S bl br : Sh}
    (fuel : Nat) (h : DelInv m hdr a (Frame.left p (Sh.node bl b br) :: c) S del)
    (hb : m.red_ b = false)
    (ht : m.red_ p = true ∨ ¬ isBlk m.red_ bl ∨ ¬ isBlk m.red_ br) :
    ∃ m', ExtractFixupLoop hdr (fuel + 1) m del (some p) = some m' ∧
      ExtPost m m' hdr a (plug (Frame.left p (Sh.node bl b br) :: c) S) := by
  rcases isBlk_or_red m.red_ br with h2 | ⟨brl, r, brr, rfl, hr⟩
  · rcases isBlk_or_red m.red_ bl with h1 | ⟨bll, l, blr, rfl, hl⟩
    · rcases ht with hp | hn | hn
      · exact ext_L2red fuel h hb h1 h2 hp
      · exact absurd h1 hn
      · exact absurd h2 hn
    · obtain ⟨m1, hstep, inv1, hl1, hb1, hk, hn⟩ := ext_L3a fuel h hb hl h2
      obtain ⟨m', hrun, post⟩ := ext_L3b fuel inv1 hl1 hb1
      exact ⟨m', hstep.trans hrun, post.rebase (by simp [plug_addrs]) hk hn⟩
  · exact ext_L3b fuel h hb hr

theorem ext_R2red {m : Mem K} {hdr a del p b : Nat} {c : List Frame} {S bl br : Sh}
    (fuel : Nat) (h : DelInv m hdr a (Frame.right (Sh.node br b bl) p :: c) S del)
    (hb : m.red_ b = false) (h1 : isBlk m.red_ bl) (h2 : isBlk m.red_ br)
    (hp : m.red_ p = true) :
    ∃ m', ExtractFixupLoop hdr (fuel + 1) m del (some p) = some m' ∧
      ExtPost m m' hdr a (plug (Frame.right (Sh.node br b bl) p :: c) S) := by
  obtain ⟨wf, ptr, blk, leaf, norr, bal, cnorr, cbal, croot⟩ := h
  have wfp := wf.up_right
  have wfb := wfp.down_left
  have hnd := wf.nodup
  have hnda := wf.nodup_mem leaf.mem
  have hndd := wf.nodup_mem (Sh.ptr_mem ptr)
  simp only [ctxAddrs, Sh.addrs_node, List.nodup_cons, List.mem_cons, List.mem_append,
    List.nodup_append, List.append_assoc, List.cons_append, not_or, List.disjoint_cons_right,
    List.disjoint_append_right, List.disjoint_cons_left, List.disjoint_append_left]
    at hnd hnda hndd
  have hbd : b ≠ del := by omega
  have hstep := ExtractFixupLoop_R2red fuel (wf.root_cons_ptr ptr) blk
    (by rw [wfp.left_eq]; simpa using hbd) wfp.left_eq hb
    (by rw [wfb.right_eq]; exact (nullOrBlack_ptr m bl).2 h1)
    (by rw [wfb.left_eq]; exact (nullOrBlack_ptr m br).2 h2) hp (by omega)
  refine ⟨_, hstep, ?_⟩
  have eS : ∀ y ∈ S.addrs, upd (upd m.red_ b true) p false y = m.red_ y := by
    intro y hy
    have hy' := wf.nodup_mem hy
    simp only [ctxAddrs, Sh.addrs_node, List.nodup_cons, List.mem_cons, List.mem_append,
      not_or] at hy'
    have e1 : y ≠ p := by omega
    have e2 : y ≠ b := by omega
    simp [e1, e2]
  simp only [CtxNoRR, CtxBal, CtxRootBlk, Frame.addr_right, Frame.sib_right, hp, hb, ctxTopBlk,
    forall_true_left, ite_true, Nat.add_zero, NoRR_node, Bal_node, bh_node, isBlk_node,
    Bool.false_eq_true, ite_false, false_implies, true_and] at cnorr cbal croot
  obtain ⟨⟨nbr, nbl⟩, ct, cn⟩ := cnorr
  obtain ⟨e1, ⟨e2, bbr, bbl⟩, cb⟩ := cbal
  refine ⟨_, ((WFz.setRed_iff _ _).2 ((WFz.setRed_iff _ _).2 wfp)).toWF, rfl,
    Leaf_plug c (by simp [leaf]), ?_, ?_, ?_, rfl, rfl⟩
  · rw [NoRR_plug]
    simp only [Mem.setRed_red, NoRR_node, isBlk_node]
    have nS := (NoRR_congr eS).2 norr
    have nB : NoRR (upd (upd m.red_ b true) p false) (Sh.node br b bl) :=
      ⟨fun _ => ⟨by simpa [hnd] using h2, by simpa [hnd] using h1⟩,
        by simpa [hnd] using nbr, by simpa [hnd] using nbl⟩
    refine ⟨⟨fun hh => by simp at hh, nB, nS⟩, ?_, Or.inr ?_⟩
    · simpa [hnd] using cn
    · simp
  · rw [isBlk_plug]
    simp only [Mem.setRed_red, isBlk_node]
    have : CtxRootBlk (upd (upd m.red_ b true) p false) c True := by simpa [hnd] using
      (CtxRootBlk_of trivial croot : CtxRootBlk m.red_ c True)
    exact CtxRootBlk_of (by simp) this
  · rw [Bal_plug]
    simp only [Mem.setRed_red]
    have hS := bh_congr (upd_agree a true eS)
    have x1 : bh (upd (upd (upd m.red_ b true) p false) a true) bl = bh m.red_ bl := by
      simp [hnd, hnda]
    have x2 : bh (upd (upd (upd m.red_ b true) p false) a true) br = bh m.red_ br := by
      simp [hnd, hnda]
    have c1 : upd (upd (upd m.red_ b true) p false) a true b = true := by
      simp [upd_apply]
      omega
    have c2 : upd (upd (upd m.red_ b true) p false) a true p = false := by
      simp [upd_apply]
      omega
    have bS := (Bal_congr (upd_agree a true eS)).2 bal
    have bB : Bal (upd (upd (upd m.red_ b true) p false) a true) (Sh.node br b bl) :=
      ⟨by rw [x1, x2]; omega,
        by simpa [hnd, hnda] using bbr, by simpa [hnd, hnda] using bbl⟩
    have hh : bh (upd (upd (upd m.red_ b true) p false) a true) (Sh.node (Sh.node br b bl) p S) =
        bh (upd m.red_ a true) S + 1 := by
      simp only [bh_node, hS, x1, x2, c1, c2]
      (try simp) <;> omega
    rw [hh]
    refine ⟨?_, by simpa [hnd, hnda] using cb⟩
    simp only [Bal_node, bh_node, hS, x1, x2, c1, c2] at bB ⊢
    exact ⟨by (try simp) <;> omega, bB, bS⟩

theorem ext_R2blk {m : Mem K} {hdr a del p b : Nat} {c : List Frame} {S bl br : Sh}
    (fuel : Nat) (h : DelInv m hdr a (Frame.right (Sh.node br b bl) p :: c) S del)
    (hb : m.red_ b = false) (h1 : isBlk m.red_ bl) (h2 : isBlk m.red_ br)
    (hp : m.red_ p = false) :
    ExtractFixupLoop hdr (fuel + 1) m del (some p) =
        ExtractFixupLoop hdr fuel (m.setRed b true) p ((m.setRed b true).parent_ p) ∧
      DelInv (m.setRed b true) hdr a c (Sh.node (Sh.node br b bl) p S) p := by
  obtain ⟨wf, ptr, blk, leaf, norr, bal, cnorr, cbal, croot⟩ := h
  have wfp := wf.up_right
  have wfb := wfp.down_left
  have hnd := wf.nodup
  have hnda := wf.nodup_mem leaf.mem
  have hndd := wf.nodup_mem (Sh.ptr_mem ptr)
  simp only [ctxAddrs, Sh.addrs_node, List.nodup_cons, List.mem_cons, List.mem_append,
    List.nodup_append, List.append_assoc, List.cons_append, not_or, List.disjoint_cons_right,
    List.disjoint_append_right, List.disjoint_cons_left, List.disjoint_append_left]
    at hnd hnda hndd
  have hbd : b ≠ del := by omega
  have hstep := ExtractFixupLoop_R2blk fuel (wf.root_cons_ptr ptr) blk
    (by rw [wfp.left_eq]; simpa using hbd) wfp.left_eq hb
    (by rw [wfb.right_eq]; exact (nullOrBlack_ptr m bl).2 h1)
    (by rw [wfb.left_eq]; exact (nullOrBlack_ptr m br).2 h2) hp (by omega)
  refine ⟨hstep, ?_⟩
  have eS : ∀ y ∈ S.addrs, upd m.red_ b true y = m.red_ y := by
    intro y hy
    have hy' := wf.nodup_mem hy
    simp only [ctxAddrs, Sh.addrs_node, List.nodup_cons, List.mem_cons, List.mem_append,
      not_or] at hy'
    have e2 : y ≠ b := by omega
    simp [e2]
  simp only [CtxNoRR, CtxBal, CtxRootBlk, Frame.addr_right, Frame.sib_right, hp, hb, ctxTopBlk,
    forall_true_left, ite_true, Nat.add_zero, NoRR_node, Bal_node, bh_node, isBlk_node,
    Bool.false_eq_true, ite_false, false_implies, true_and] at cnorr cbal croot
  obtain ⟨⟨nbr, nbl⟩, cn⟩ := cnorr
  obtain ⟨e1, ⟨e2, bbr, bbl⟩, cb⟩ := cbal
  have hS := bh_congr (upd_agree a true eS)
  have x1 : bh (upd (upd m.red_ b true) a true) bl = bh m.red_ bl := by
    simp [hnd, hnda]
  have x2 : bh (upd (upd m.red_ b true) a true) br = bh m.red_ br := by
    simp [hnd, hnda]
  have c1 : upd (upd m.red_ b true) a true b = true := by
    simp [upd_apply]
  have c2 : upd (upd m.red_ b true) a true p = false := by
    have : p ≠ a := by omega
    have : p ≠ b := by omega
    simp [*]
  have c3 : upd m.red_ b true p = false := by
    have : p ≠ b := by omega
    simp [*]
  refine ⟨(WFz.setRed_iff _ _).2 wfp, rfl, by simpa using c3, by simp [leaf], ?_, ?_, ?_, ?_, ?_⟩
  · simp only [Mem.setRed_red, NoRR_node, isBlk_node]
    have nS := (NoRR_congr eS).2 norr
    have nB : NoRR (upd m.red_ b true) (Sh.node br b bl) :=
      ⟨fun _ => ⟨by simpa [hnd] using h2, by simpa [hnd] using h1⟩,
        by simpa [hnd] using nbr, by simpa [hnd] using nbl⟩
    exact ⟨fun hh => by simp [c3] at hh, nB, nS⟩
  · simp only [Mem.setRed_red]
    have bS := (Bal_congr (upd_agree a true eS)).2 bal
    have bB : Bal (upd (upd m.red_ b true) a true) (Sh.node br b bl) :=
      ⟨by rw [x1, x2]; omega,
        by simpa [hnd, hnda] using bbr, by simpa [hnd, hnda] using bbl⟩
    simp only [Bal_node, bh_node, hS, x1, x2, c1] at bB ⊢
    exact ⟨by (try simp) <;> omega, bB, bS⟩
  · simpa [hnd] using cn
  · simp only [Mem.setRed_red]
    have hh : bh (upd (upd m.red_ b true) a true) (Sh.node (Sh.node br b bl) p S) =
        bh (upd m.red_ a true) S + 1 := by
      simp only [bh_node, hS, x1, x2, c1, c2]
      (try simp) <;> omega
    rw [hh]
    simpa [hnd] using cb
  · simpa [hnd] using (CtxRootBlk_of trivial croot : CtxRootBlk m.red_ c True)

theorem ext_R3b {m : Mem K} {hdr a del p b r : Nat} {c : List Frame} {S bl brl brr : Sh}
    (fuel : Nat)
    (h : DelInv m hdr a (Frame.right (Sh.node (Sh.node brr r brl) b bl) p :: c) S del)
    (hb : m.red_ b = false) (hr : m.red_ r = true) :
    ∃ m', ExtractFixupLoop hdr (fuel + 1) m del (some p) = some m' ∧
      ExtPost m m' hdr a (plug (Frame.right (Sh.node (Sh.node brr r brl) b bl) p :: c) S) := by
  obtain ⟨wf, ptr, blk, leaf, norr, bal, cnorr, cbal, croot⟩ := h
  have wfp := wf.up_right
  have wfb := wfp.down_left
  have hnd := wf.nodup
  have hnda := wf.nodup_mem leaf.mem
  have hndd := wf.nodup_mem (Sh.ptr_mem ptr)
  simp only [ctxAddrs, Sh.addrs_node, List.nodup_cons, List.mem_cons, List.mem_append,
    List.nodup_append, List.append_assoc, List.cons_append, not_or, List.disjoint_cons_right,
    List.disjoint_append_right, List.disjoint_cons_left, List.disjoint_append_left]
    at hnd hnda hndd
  have hbd : b ≠ del := by omega
  have hstep := ExtractFixupLoop_R3b fuel (wf.root_cons_ptr ptr) blk
    (by rw [wfp.left_eq]; simpa using hbd) wfp.left_eq hb
    wfb.left_eq hr (by omega)
  have wf3 : WFz (((m.setRed r false).setRed b (m.red_ p)).setRed p false) hdr c
      (Sh.node (Sh.node (Sh.node brr r brl) b bl) p S) :=
    (WFz.setRed_iff _ _).2 ((WFz.setRed_iff _ _).2 ((WFz.setRed_iff _ _).2 wfp))
  obtain ⟨m4, hrot, wf4, hred4, hkey4, hnext4⟩ := RotateRight_spec wf3
  refine ⟨m4, by rw [hstep, hrot], ?_⟩
  have eS : ∀ y ∈ S.addrs, upd (upd (upd m.red_ r false) b (m.red_ p)) p false y = m.red_ y := by
    intro y hy
    have hy' := wf.nodup_mem hy
    simp only [ctxAddrs, Sh.addrs_node, List.nodup_cons, List.mem_cons, List.mem_append,
      not_or] at hy'
    have e1 : y ≠ p := by omega
    have e2 : y ≠ b := by omega
    have e3 : y ≠ r := by omega
    simp [e1, e2, e3]
  obtain ⟨nB, ct, cn⟩ := cnorr
  obtain ⟨-, nBR, nbl⟩ := nB
  obtain ⟨iR, nbrr, nbrl⟩ := nBR
  obtain ⟨e1, bB, cb⟩ := cbal
  obtain ⟨e2, bBR, bbl⟩ := bB
  obtain ⟨e3, bbrr, bbrl⟩ := bBR
  simp only [Frame.addr_right, Frame.sib_right] at ct
  simp only [bh_node, hb, hr, ite_true, Bool.false_eq_true, ite_false] at e1 e2 e3
  have cp : upd (upd (upd m.red_ r false) b (m.red_ p)) p false p = false := by simp
  have cb0 : upd (upd (upd m.red_ r false) b (m.red_ p)) p false b = m.red_ p := by
    have : b ≠ p := by omega
    simp [this]
  have cr : upd (upd (upd m.red_ r false) b (m.red_ p)) p false r = false := by
    have : r ≠ p := by omega
    have : r ≠ b := by omega
    simp [*]
  have cp' : upd (upd (upd (upd m.red_ r false) b (m.red_ p)) p false) a true p = false := by
    have : p ≠ a := by omega
    simp [this]
  have cb' : upd (upd (upd (upd m.red_ r false) b (m.red_ p)) p false) a true b = m.red_ p := by
    have : b ≠ a := by omega
    rw [upd_ne _ _ this, cb0]
  have cr' : upd (upd (upd (upd m.red_ r false) b (m.red_ p)) p false) a true r = false := by
    have : r ≠ a := by omega
    rw [upd_ne _ _ this, cr]
  have hS := bh_congr (upd_agree a true eS)
  have x1 : bh (upd (upd (upd (upd m.red_ r false) b (m.red_ p)) p false) a true) bl =
      bh m.red_ bl := by simp [hnd, hnda]
  have x2 : bh (upd (upd (upd (upd m.red_ r false) b (m.red_ p)) p false) a true) brl =
      bh m.red_ brl := by simp [hnd, hnda]
  have x3 : bh (upd (upd (upd (upd m.red_ r false) b (m.red_ p)) p false) a true) brr =
      bh m.red_ brr := by simp [hnd, hnda]
  refine ⟨_, wf4.toWF, by simp [plug_addrs], Leaf_plug c (by simp [leaf]), ?_, ?_, ?_,
    by simp [hkey4], by simp [hnext4]⟩
  · rw [NoRR_plug, hred4]
    simp only [Mem.setRed_red]
    have nS := (NoRR_congr eS).2 norr
    have nbl' : NoRR (upd (upd (upd m.red_ r false) b (m.red_ p)) p false) bl := by
      simpa [hnd] using nbl
    have nbrl' : NoRR (upd (upd (upd m.red_ r false) b (m.red_ p)) p false) brl := by
      simpa [hnd] using nbrl
    have nbrr' : NoRR (upd (upd (upd m.red_ r false) b (m.red_ p)) p false) brr := by
      simpa [hnd] using nbrr
    have nP : NoRR (upd (upd (upd m.red_ r false) b (m.red_ p)) p false) (Sh.node bl p S) :=
      ⟨fun hh => by simp [cp] at hh, nbl', nS⟩
    have nR : NoRR (upd (upd (upd m.red_ r false) b (m.red_ p)) p false) (Sh.node brr r brl) :=
      ⟨fun hh => by simp [cr] at hh, nbrr', nbrl'⟩
    have nT : NoRR (upd (upd (upd m.red_ r false) b (m.red_ p)) p false)
        (Sh.node (Sh.node brr r brl) b (Sh.node bl p S)) :=
      ⟨fun _ => ⟨cr, cp⟩, nR, nP⟩
    refine ⟨nT, by simpa [hnd] using cn, ?_⟩
    rcases Bool.eq_false_or_eq_true (m.red_ p) with hp | hp
    · exact Or.inl (by simpa [hnd] using (ct hp).2)
    · exact Or.inr (cb0.trans hp)
  · rw [isBlk_plug, hred4]
    simp only [Mem.setRed_red]
    have cr0 : CtxRootBlk m.red_ c (m.red_ p = false) := croot
    have cr1 : CtxRootBlk (upd (upd (upd m.red_ r false) b (m.red_ p)) p false) c
        (m.red_ p = false) := by
      rw [CtxRootBlk_upd, CtxRootBlk_upd, CtxRootBlk_upd]
      · exact cr0
      all_goals simp [hnd]
    exact CtxRootBlk_imp (fun hh => cb0.trans hh) cr1
  · rw [Bal_plug, hred4]
    simp only [Mem.setRed_red]
    have bS := (Bal_congr (upd_agree a true eS)).2 bal
    have bbl' : Bal (upd (upd (upd (upd m.red_ r false) b (m.red_ p)) p false) a true) bl := by
      simpa [hnd, hnda] using bbl
    have bbrl' : Bal (upd (upd (upd (upd m.red_ r false) b (m.red_ p)) p false) a true) brl := by
      simpa [hnd, hnda] using bbrl
    have bbrr' : Bal (upd (upd (upd (upd m.red_ r false) b (m.red_ p)) p false) a true) brr := by
      simpa [hnd, hnda] using bbrr
    have bP : Bal (upd (upd (upd (upd m.red_ r false) b (m.red_ p)) p false) a true)
        (Sh.node bl p S) :=
      ⟨by rw [hS, x1]; omega, bbl', bS⟩
    have bR : Bal (upd (upd (upd (upd m.red_ r false) b (m.red_ p)) p false) a true)
        (Sh.node brr r brl) :=
      ⟨by rw [x2, x3]; omega, bbrr', bbrl'⟩
    have bT : Bal (upd (upd (upd (upd m.red_ r false) b (m.red_ p)) p false) a true)
        (Sh.node (Sh.node brr r brl) b (Sh.node bl p S)) :=
      ⟨by simp only [bh_node, hS, x1, x2, x3, cp', cr']; (try simp) <;> omega, bR, bP⟩
    refine ⟨bT, ?_⟩
    have hh : bh (upd (upd (upd (upd m.red_ r false) b (m.red_ p)) p false) a true)
        (Sh.node (Sh.node brr r brl) b (Sh.node bl p S)) =
        bh (upd m.red_ a true) S + 1 + (if m.red_ p = true then 0 else 1) := by
      simp only [bh_node, hS, x1, x2, x3, cp', cr', cb']
      cases m.red_ p <;> (try simp) <;> omega
    rw [hh]
    have hc : ∀ z ∈ ctxAddrs c,
        upd (upd (upd (upd m.red_ r false) b (m.red_ p)) p false) a true z = m.red_ z := by
      intro z hz
      have z1 : z ≠ a := by rintro rfl; simp [hnda] at hz
      have z2 : z ≠ p := by rintro rfl; simp [hnd] at hz
      have z3 : z ≠ b := by rintro rfl; simp [hnd] at hz
      have z4 : z ≠ r := by rintro rfl; simp [hnd] at hz
      simp [z1, z2, z3, z4]
    exact (CtxBal_congr hc _).2 cb

theorem ext_R3a {m : Mem K} {hdr a del p b l : Nat} {c : List Frame} {S bll blr br : Sh}
    (fuel : Nat)
    (h : DelInv m hdr a (Frame.right (Sh.node br b (Sh.node blr l bll)) p :: c) S del)
    (hb : m.red_ b = false) (hl : m.red_ l = true) (hbr : isBlk m.red_ br) :
    ∃ m1, ExtractFixupLoop hdr (fuel + 1) m del (some p) =
        ExtractFixupLoop hdr (fuel + 1) m1 del (some p) ∧
      DelInv m1 hdr a (Frame.right (Sh.node (Sh.node br b blr) l bll) p :: c) S del ∧
      m1.red_ l = false ∧ m1.red_ b = true ∧ m1.key_ = m.key_ ∧ m1.next = m.next := by
  obtain ⟨wf, ptr, blk, leaf, norr, bal, cnorr, cbal, croot⟩ := h
  have wfp := wf.up_right
  have wfb := wfp.down_left
  have hnd := wf.nodup
  have hnda := wf.nodup_mem leaf.mem
  have hndd := wf.nodup_mem (Sh.ptr_mem ptr)
  simp only [ctxAddrs, Sh.addrs_node, List.nodup_cons, List.mem_cons, List.mem_append,
    List.nodup_append, List.append_assoc, List.cons_append, not_or, List.disjoint_cons_right,
    List.disjoint_append_right, List.disjoint_cons_left, List.disjoint_append_left]
    at hnd hnda hndd
  have hbd : b ≠ del := by omega
  have hld : l ≠ del := by omega
  have wf2 : WFz ((m.setRed b true).setRed l false) hdr (Frame.left p S :: c)
      (Sh.node br b (Sh.node blr l bll)) := by
    have := (WFz.setRed_iff l false).2 ((WFz.setRed_iff b true).2 wfb)
    exact this
  obtain ⟨m1, hrot, wf1, hred1, hkey1, hnext1⟩ := RotateLeft_spec wf2
  have wfp1 := wf1.up_left
  have wfS1 := wfp1.down_right
  have eS : ∀ y ∈ S.addrs, upd (upd m.red_ b true) l false y = m.red_ y := by
    intro y hy
    have hy' := wf.nodup_mem hy
    simp only [ctxAddrs, Sh.addrs_node, List.nodup_cons, List.mem_cons, List.mem_append,
      not_or] at hy'
    have e2 : y ≠ b := by omega
    have e3 : y ≠ l := by omega
    simp [e2, e3]
  have cl1 : upd (upd m.red_ b true) l false l = false := by simp
  have cb1 : upd (upd m.red_ b true) l false b = true := by
    have : b ≠ l := by omega
    simp [this]
  have cp1 : upd (upd m.red_ b true) l false p = m.red_ p := by
    have : p ≠ l := by omega
    have : p ≠ b := by omega
    simp [*]
  have hd1 : m1.red_ del = false := by
    rw [hred1]
    simp only [Mem.setRed_red]
    rw [eS del (Sh.ptr_mem ptr)]
    exact blk
  have hstep := ExtractFixupLoop_R3a fuel (wf.root_cons_ptr ptr) blk
    (by rw [wfp.left_eq]; simpa using hbd) wfp.left_eq hb
    wfb.right_eq hl (by rw [wfb.left_eq]; exact (nullOrBlack_ptr m br).2 hbr) hrot
    (wfS1.root_cons_ptr ptr) hd1
    (by rw [wfp1.left_eq]; simpa using hld) wfp1.left_eq
    (by rw [hred1]; exact cl1) wf1.left_eq (by rw [hred1]; exact cb1)
  refine ⟨m1, hstep, ?_, by rw [hred1]; exact cl1, by rw [hred1]; exact cb1, by simp [hkey1],
    by simp [hnext1]⟩
  obtain ⟨nB, ct, cn⟩ := cnorr
  obtain ⟨-, nbr, nBL⟩ := nB
  obtain ⟨iL, nblr, nbll⟩ := nBL
  obtain ⟨iblr, ibll⟩ := iL hl
  obtain ⟨e1, bB, cb⟩ := cbal
  obtain ⟨e2, bbr, bBL⟩ := bB
  obtain ⟨e3, bblr, bbll⟩ := bBL
  simp only [Frame.addr_right, Frame.sib_right] at ct
  simp only [bh_node, hb, hl, ite_true, Bool.false_eq_true, ite_false] at e1 e2 e3
  have hS := bh_congr (upd_agree a true eS)
  have y1 : bh (upd (upd m.red_ b true) l false) bll = bh m.red_ bll := by simp [hnd]
  have y2 : bh (upd (upd m.red_ b true) l false) blr = bh m.red_ blr := by simp [hnd]
  have y3 : bh (upd (upd m.red_ b true) l false) br = bh m.red_ br := by simp [hnd]
  have nbll' : NoRR (upd (upd m.red_ b true) l false) bll := by simpa [hnd] using nbll
  have nblr' : NoRR (upd (upd m.red_ b true) l false) blr := by simpa [hnd] using nblr
  have nbr' : NoRR (upd (upd m.red_ b true) l false) br := by simpa [hnd] using nbr
  have iblr' : isBlk (upd (upd m.red_ b true) l false) blr := by simpa [hnd] using iblr
  have ibr' : isBlk (upd (upd m.red_ b true) l false) br := by simpa [hnd] using hbr
  have bbll' : Bal (upd (upd m.red_ b true) l false) bll := by simpa [hnd] using bbll
  have bblr' : Bal (upd (upd m.red_ b true) l false) blr := by simpa [hnd] using bblr
  have bbr' : Bal (upd (upd m.red_ b true) l false) br := by simpa [hnd] using bbr
  have nInner : NoRR (upd (upd m.red_ b true) l false) (Sh.node br b blr) :=
    ⟨fun _ => ⟨ibr', iblr'⟩, nbr', nblr'⟩
  have nNew : NoRR (upd (upd m.red_ b true) l false) (Sh.node (Sh.node br b blr) l bll) :=
    ⟨fun hh => by simp [cl1] at hh, nInner, nbll'⟩
  have bInner : Bal (upd (upd m.red_ b true) l false) (Sh.node br b blr) :=
    ⟨by rw [y2, y3]; omega, bbr', bblr'⟩
  have bNew : Bal (upd (upd m.red_ b true) l false) (Sh.node (Sh.node br b blr) l bll) :=
    ⟨by simp only [bh_node, y1, y2, y3, cb1, cl1]; (try simp) <;> omega, bInner, bbll'⟩
  have hNew : bh (upd (upd m.red_ b true) l false) (Sh.node (Sh.node br b blr) l bll) =
      bh (upd m.red_ a true) S + 1 := by
    simp only [bh_node, y1, y2, y3, cb1, cl1]
    (try simp) <;> omega
  have hc : ∀ z ∈ ctxAddrs c, upd (upd m.red_ b true) l false z = m.red_ z := by
    intro z hz
    have z3 : z ≠ b := by rintro rfl; simp [hnd] at hz
    have z4 : z ≠ l := by rintro rfl; simp [hnd] at hz
    simp [z3, z4]
  refine ⟨wfS1, ptr, hd1, leaf, ?_, ?_, ?_, ?_, ?_⟩
  · rw [hred1]
    exact (NoRR_congr eS).2 norr
  · rw [hred1]
    exact (Bal_congr (upd_agree a true eS)).2 bal
  · rw [hred1]
    simp only [Mem.setRed_red]
    refine ⟨nNew, ?_, (CtxNoRR_congr hc).2 cn⟩
    intro hh
    simp only [Frame.addr_right, cp1] at hh
    exact ⟨cl1, (ctxTopBlk_congr hc).2 (ct hh).2⟩
  · rw [hred1]
    simp only [Mem.setRed_red]
    rw [hS]
    refine ⟨hNew, bNew, ?_⟩
    rw [cp1]
    exact (CtxBal_congr hc _).2 cb
  · rw [hred1]
    simp only [Mem.setRed_red]
    have cr0 : CtxRootBlk m.red_ c (m.red_ p = false) := croot
    have cr1 := (CtxRootBlk_congr hc (m.red_ p = false)).2 cr0
    have cr2 : CtxRootBlk (upd (upd m.red_ b true) l false) c
        (upd (upd m.red_ b true) l false p = false) :=
      CtxRootBlk_imp (fun hh => cp1.trans hh) cr1
    exact cr2

theorem ext_R1 {m : Mem K} {hdr a del p b : Nat} {c : List Frame} {S bl br : Sh}
    (fuel : Nat) (h : DelInv m hdr a (Frame.right (Sh.node br b bl) p :: c) S del)
    (hb : m.red_ b = true) :
    ∃ m1 bll l blr, bl = (Sh.node blr l bll) ∧
      ExtractFixupLoop hdr (fuel + 1) m del (some p) =
        ExtractFixupLoop hdr (fuel + 1) m1 del (some p) ∧
      DelInv m1 hdr a (Frame.right bl p :: Frame.right br b :: c) S del ∧
      m1.red_ p = true ∧ m1.red_ l = false ∧ m1.key_ = m.key_ ∧ m1.next = m.next := by
  obtain ⟨wf, ptr, blk, leaf, norr, bal, cnorr, cbal, croot⟩ := h
  obtain ⟨nB, ct, cn⟩ := cnorr
  obtain ⟨iB, nbr, nbl⟩ := nB
  obtain ⟨ibr, ibl⟩ := iB hb
  obtain ⟨e1, bB, cb⟩ := cbal
  obtain ⟨e2, bbr, bbl⟩ := bB
  simp only [Frame.addr_right, Frame.sib_right] at ct
  simp only [bh_node, hb, ite_true] at e1 e2
  have hp : m.red_ p = false := by
    rcases Bool.eq_false_or_eq_true (m.red_ p) with hp | hp
    · have := (ct hp).1
      simp only [isBlk_node, hb] at this
      exact absurd this (by simp)
    · exact hp
  obtain ⟨blr, l, bll, rfl⟩ : ∃ blr l bll, bl = (Sh.node blr l bll) := by
    cases bl with
    | nil => simp only [bh_nil] at e1 e2; omega
    | node x y z => exact ⟨x, y, z, rfl⟩
  have hlb : m.red_ l = false := ibl
  have wfp := wf.up_right
  have hnd := wf.nodup
  have hnda := wf.nodup_mem leaf.mem
  have hndd := wf.nodup_mem (Sh.ptr_mem ptr)
  simp only [ctxAddrs, Sh.addrs_node, List.nodup_cons, List.mem_cons, List.mem_append,
    List.nodup_append, List.append_assoc, List.cons_append, not_or, List.disjoint_cons_right,
    List.disjoint_append_right, List.disjoint_cons_left, List.disjoint_append_left]
    at hnd hnda hndd
  have hbd : b ≠ del := by omega
  have hld : l ≠ del := by omega
  have wf2 : WFz ((m.setRed b (m.red_ p)).setRed p true) hdr c
      (Sh.node (Sh.node br b (Sh.node blr l bll)) p S) :=
    (WFz.setRed_iff _ _).2 ((WFz.setRed_iff _ _).2 wfp)
  obtain ⟨m1, hrot, wf1, hred1, hkey1, hnext1⟩ := RotateRight_spec wf2
  have wfp1 := wf1.down_right
  have wfS1 := wfp1.down_right
  have eS : ∀ y ∈ S.addrs, upd (upd m.red_ b (m.red_ p)) p true y = m.red_ y := by
    intro y hy
    have hy' := wf.nodup_mem hy
    simp only [ctxAddrs, Sh.addrs_node, List.nodup_cons, List.mem_cons, List.mem_append,
      not_or] at hy'
    have e2 : y ≠ b := by omega
    have e3 : y ≠ p := by omega
    simp [e2, e3]
  have cp1 : upd (upd m.red_ b (m.red_ p)) p true p = true := by simp
  have cb1 : upd (upd m.red_ b (m.red_ p)) p true b = false := by
    have : b ≠ p := by omega
    simp [this, hp]
  have cl1 : upd (upd m.red_ b (m.red_ p)) p true l = false := by
    have : l ≠ p := by omega
    have : l ≠ b := by omega
    simp [*]
  have hd1 : m1.red_ del = false := by
    rw [hred1]
    simp only [Mem.setRed_red]
    rw [eS del (Sh.ptr_mem ptr)]
    exact blk
  have hstep := ExtractFixupLoop_R1 fuel (wf.root_cons_ptr ptr) blk
    (by rw [wfp.left_eq]; simpa using hbd) wfp.left_eq hb
    hrot (wfS1.root_cons_ptr ptr) hd1 (wfS1.parent_ptr ptr)
    (by rw [wfp1.left_eq]; simpa using hld) wfp1.left_eq
    (by rw [hred1]; exact cl1)
  refine ⟨m1, bll, l, blr, rfl, hstep, ?_, by rw [hred1]; exact cp1,
    by rw [hred1]; exact cl1, by simp [hkey1], by simp [hnext1]⟩
  have hS := bh_congr (upd_agree a true eS)
  have hc : ∀ z ∈ ctxAddrs c, upd (upd m.red_ b (m.red_ p)) p true z = m.red_ z := by
    intro z hz
    have z3 : z ≠ b := by rintro rfl; simp [hnd] at hz
    have z4 : z ≠ p := by rintro rfl; simp [hnd] at hz
    simp [z3, z4]
  have hL : ∀ z ∈ ((Sh.node blr l bll)).addrs,
      upd (upd m.red_ b (m.red_ p)) p true z = m.red_ z := by
    intro z hz
    simp only [Sh.addrs_node, List.mem_append, List.mem_cons] at hz
    have z3 : z ≠ b := by
      rcases hz with hz | hz | hz <;> first | omega | (rintro rfl; simp [hnd] at hz)
    have z4 : z ≠ p := by
      rcases hz with hz | hz | hz <;> first | omega | (rintro rfl; simp [hnd] at hz)
    simp [z3, z4]
  have hR : ∀ z ∈ br.addrs, upd (upd m.red_ b (m.red_ p)) p true z = m.red_ z := by
    intro z hz
    have z3 : z ≠ b := by rintro rfl; simp [hnd] at hz
    have z4 : z ≠ p := by rintro rfl; simp [hnd] at hz
    simp [z3, z4]
  refine ⟨wfS1, ptr, hd1, leaf, ?_, ?_, ?_, ?_, ?_⟩
  · rw [hred1]
    exact (NoRR_congr eS).2 norr
  · rw [hred1]
    exact (Bal_congr (upd_agree a true eS)).2 bal
  · rw [hred1]
    simp only [Mem.setRed_red]
    refine ⟨(NoRR_congr hL).2 nbl, fun _ => ⟨cl1, cb1⟩, (NoRR_congr hR).2 nbr, ?_,
      (CtxNoRR_congr hc).2 cn⟩
    intro hh
    simp only [Frame.addr_right, cb1] at hh
    exact absurd hh (by simp)
  · rw [hred1]
    simp only [Mem.setRed_red]
    rw [hS]
    refine ⟨?_, (Bal_congr hL).2 bbl, ?_, (Bal_congr hR).2 bbr, ?_⟩
    · rw [bh_congr hL]
      simp only [bh_node] at e1 e2 ⊢
      omega
    · rw [bh_congr hR, cp1]
      simp only [bh_node] at e1 e2 ⊢
      simp only [ite_true]
      omega
    · rw [cp1, cb1]
      simp only [hp, ite_true, Bool.false_eq_true, ite_false, Nat.add_zero] at cb
      simp only [ite_true, Bool.false_eq_true, ite_false, Nat.add_zero]
      exact (CtxBal_congr hc _).2 cb
  · rw [hred1]
    simp only [Mem.setRed_red]
    have cr0 : CtxRootBlk m.red_ c (m.red_ p = false) := croot
    have cr1 := (CtxRootBlk_congr hc (m.red_ p = false)).2 cr0
    have cr2 : CtxRootBlk (upd (upd m.red_ b (m.red_ p)) p true) c
        (upd (upd m.red_ b (m.red_ p)) p true b = false) :=
      CtxRootBlk_imp (fun _ => cb1) cr1
    exact cr2

theorem ext_blackR {m : Mem K} {hdr a del p b : Nat} {c : List Frame} {S bl br : Sh}
    (fuel : Nat) (h : DelInv m hdr a (Frame.right (Sh.node br b bl) p :: c) S del)
    (hb : m.red_ b = false)
    (ht : m.red_ p = true ∨ ¬ isBlk m.red_ bl ∨ ¬ isBlk m.red_ br) :
    ∃ m', ExtractFixupLoop hdr (fuel + 1) m del (some p) = some m' ∧
      ExtPost m m' hdr a (plug (Frame.right (Sh.node br b bl) p :: c) S) := by
  rcases isBlk_or_red m.red_ br with h2 | ⟨brr, r, brl, rfl, hr⟩
  · rcases isBlk_or_red m.red_ bl with h1 | ⟨blr, l, bll, rfl, hl⟩
    · rcases ht with hp | hn | hn
      · exact ext_R2red fuel h hb h1 h2 hp
      · exact absurd h1 hn
      · exact absurd h2 hn
    · obtain ⟨m1, hstep, inv1, hl1, hb1, hk, hn⟩ := ext_R3a fuel h hb hl h2
      obtain ⟨m', hrun, post⟩ := ext_R3b fuel inv1 hl1 hb1
      exact ⟨m', hstep.trans hrun, post.rebase (by simp [plug_addrs]) hk hn⟩
  · exact ext_R3b fuel h hb hr

theorem isBlk_of_ptr {red : Nat → Bool} {s : Sh} {x : Nat} (hp : s.ptr = some x)
    (hb : red x = false) : isBlk red s := by
  cases s with
  | nil => trivial
  | node l y r =>
    simp only [Sh.ptr_node, Option.some.injEq] at hp
    subst hp
    exact hb

theorem ext_exit_root {m : Mem K} {hdr a del : Nat} {S : Sh} (fuel : Nat) (parent : Ptr)
    (h : DelInv m hdr a [] S del) :
    ∃ m', ExtractFixupLoop hdr (fuel + 1) m del parent = some m' ∧
      ExtPost m m' hdr a (plug [] S) := by
  refine ⟨m, ExtractFixupLoop_exit_root fuel parent (h.wf.root_nil.trans h.ptr), ?_⟩
  exact ⟨S, h.wf.toWF, rfl, h.leaf, h.norr, isBlk_of_ptr h.ptr h.blk, h.bal, rfl, rfl⟩

theorem ExtractFixupLoop_spec (hdr a : Nat) :
    ∀ (n : Nat) (c : List Frame) (m : Mem K) (fuel : Nat) (S : Sh) (del : Nat),
      c.length ≤ n → c.length < fuel → DelInv m hdr a c S del →
      ∃ m', ExtractFixupLoop hdr fuel m del (m.parent_ del) = some m' ∧
        ExtPost m m' hdr a (plug c S) := by
  intro n
  induction n with
  | zero =>
    intro c m fuel S del hn hf h
    have hc : c = [] := List.length_eq_zero.1 (Nat.le_zero.1 hn)
    subst hc
    obtain ⟨k, rfl⟩ : ∃ k, fuel = k + 1 := ⟨fuel - 1, by simp at hf; omega⟩
    exact ext_exit_root k _ h
  | succ n ih =>
    intro c m fuel S del hn hf h
    rcases c with _ | ⟨f, c⟩
    · obtain ⟨k, rfl⟩ : ∃ k, fuel = k + 1 := ⟨fuel - 1, by simp at hf; omega⟩
      exact ext_exit_root k _ h
    · obtain ⟨k, rfl⟩ : ∃ k, fuel = k + 1 := ⟨fuel - 1, by simp at hf; omega⟩
      have hpar : m.parent_ del = some f.addr := h.wf.parent_ptr h.ptr
      rw [hpar]
      simp only [List.length_cons] at hn hf
      cases f with
      | left p B =>
        obtain ⟨bl, b, br, rfl⟩ : ∃ bl b br, B = Sh.node bl b br := by
          have := h.cbal.1
          cases B with
          | nil => simp at this
          | node x y z => exact ⟨x, y, z, rfl⟩
        simp only [Frame.addr_left]
        rcases Bool.eq_false_or_eq_true (m.red_ b) with hb | hb
        · obtain ⟨m1, bll, l, blr, rfl, hstep, inv1, hp1, hl1, hk, hnx⟩ := ext_L1 k h hb
          obtain ⟨m', hrun, post⟩ := ext_blackL k inv1 hl1 (Or.inl hp1)
          exact ⟨m', hstep.trans hrun, post.rebase (by simp [plug_addrs]) hk hnx⟩
        · by_cases ht : m.red_ p = true ∨ ¬ isBlk m.red_ bl ∨ ¬ isBlk m.red_ br
          · exact ext_blackL k h hb ht
          · simp only [not_or, not_not, Bool.not_eq_true] at ht
            obtain ⟨hp, h1, h2⟩ := ht
            obtain ⟨hstep, inv⟩ := ext_L2blk k h hb h1 h2 hp
            obtain ⟨m', hrun, post⟩ := ih c _ k _ p (by omega) (by omega) inv
            exact ⟨m', hstep.trans hrun, post.rebase rfl rfl rfl⟩
      | right B p =>
        obtain ⟨br, b, bl, rfl⟩ : ∃ br b bl, B = Sh.node br b bl := by
          have := h.cbal.1
          cases B with
          | nil => simp at this
          | node x y z => exact ⟨x, y, z, rfl⟩
        simp only [Frame.addr_right]
        rcases Bool.eq_false_or_eq_true (m.red_ b) with hb | hb
        · obtain ⟨m1, bll, l, blr, rfl, hstep, inv1, hp1, hl1, hk, hnx⟩ := ext_R1 k h hb
          obtain ⟨m', hrun, post⟩ := ext_blackR k inv1 hl1 (Or.inl hp1)
          exact ⟨m', hstep.trans hrun, post.rebase (by simp [plug_addrs]) hk hnx⟩
        · by_cases ht : m.red_ p = true ∨ ¬ isBlk m.red_ bl ∨ ¬ isBlk m.red_ br
          · exact ext_blackR k h hb ht
          · simp only [not_or, not_not, Bool.not_eq_true] at ht
            obtain ⟨hp, h1, h2⟩ := ht
            obtain ⟨hstep, inv⟩ := ext_R2blk k h hb h1 h2 hp
            obtain ⟨m', hrun, post⟩ := ih c _ k _ p (by omega) (by omega) inv
            exact ⟨m', hstep.trans hrun, post.rebase rfl rfl rfl⟩

/-- `ExtractFixup` on a black leaf of a red-black tree terminates; afterwards the tree is
red-black once the leaf is taken out. -/
theorem ExtractFixup_spec {m : Mem K} {hdr a : Nat} {c : List Frame}
    (wf : WFz m hdr c (Sh.node Sh.nil a Sh.nil)) (hblk : m.red_ a = false)
    (rb : RB m.red_ (plug c (Sh.node Sh.nil a Sh.nil))) :
    ∃ m', ExtractFixup m hdr a = some m' ∧
      ExtPost m m' hdr a (plug c (Sh.node Sh.nil a Sh.nil)) := by
  have inv : DelInv m hdr a c (Sh.node Sh.nil a Sh.nil) a := by
    refine ⟨wf, rfl, hblk, by simp, by simp, by simp, ((NoRR_plug _ _ _).1 rb.noRedRed).2.1, ?_,
      CtxRootBlk_of trivial ((isBlk_plug _ _ _).1 rb.rootBlack)⟩
    have := ((Bal_plug _ _ _).1 rb.balanced).2
    simpa [hblk] using this
  have hlen := wf.ctx_length_lt
  exact ExtractFixupLoop_spec hdr a c.length c m m.next _ a (le_refl _) (by omega) inv

theorem swp_left (a y : Nat) : swp a y a = y := by simp [swp]

theorem swp_right (a y : Nat) : swp a y y = a := by
  unfold swp
  by_cases h : y = a <;> simp [h]

theorem swp_ne {a y x : Nat} (h1 : x ≠ a) (h2 : x ≠ y) : swp a y x = x := by
  simp [swp, h1, h2]

theorem swp_swp (a y x : Nat) : swp a y (swp a y x) = x := by
  unfold swp
  split_ifs <;> omega

theorem swp_inj (a y : Nat) : Function.Injective (swp a y) := by
  intro x z h
  have := congrArg (swp a y) h
  simpa [swp_swp] using this

theorem optmap_swp {a y : Nat} (p : Ptr) :
    Option.map (swp a y) p = if p = some a then some y else if p = some y then some a else p := by
  cases p with
  | none => simp
  | some x =>
    simp only [Option.map_some', Option.some.injEq, swp]
    split_ifs <;> rfl

namespace Sh

@[simp] theorem map_nil (f : Nat → Nat) : map f nil = nil := rfl

@[simp] theorem map_node (f : Nat → Nat) (l : Sh) (x : Nat) (r : Sh) :
    map f (node l x r) = node (map f l) (f x) (map f r) := rfl

theorem ptr_map (f : Nat → Nat) (s : Sh) : (map f s).ptr = s.ptr.map f := by
  cases s <;> rfl

theorem addrs_map (f : Nat → Nat) (s : Sh) : (map f s).addrs = s.addrs.map f := by
  induction s with
  | nil => rfl
  | node l x r ihl ihr => simp [ihl, ihr]

theorem map_id_of {f : Nat → Nat} {s : Sh} (h : ∀ x ∈ s.addrs, f x = x) : map f s = s := by
  induction s with
  | nil => rfl
  | node l x r ihl ihr =>
    simp only [map_node]
    rw [ihl (fun z hz => h z (by simp [hz])), ihr (fun z hz => h z (by simp [hz])),
      h x (by simp)]

end Sh

theorem plug_map (f : Nat → Nat) (c : List Frame) (s : Sh) :
    Sh.map f (plug c s) = plug (c.map (Frame.map f)) (Sh.map f s) := by
  induction c generalizing s with
  | nil => rfl
  | cons g c ih => cases g <;> simp [ih, Frame.map]

theorem ctx_map_id_of {f : Nat → Nat} {c : List Frame} (h : ∀ x ∈ ctxAddrs c, f x = x) :
    c.map (Frame.map f) = c := by
  induction c with
  | nil => rfl
  | cons g c ih =>
    have hc : ∀ x ∈ ctxAddrs c, f x = x := by
      intro x hx
      apply h
      cases g <;> simp [ctxAddrs, hx]
    cases g with
    | left a r =>
      simp only [List.map_cons, Frame.map, ih hc]
      rw [h a (by simp [ctxAddrs]), Sh.map_id_of (fun x hx => h x (by simp [ctxAddrs, hx]))]
    | right l a =>
      simp only [List.map_cons, Frame.map, ih hc]
      rw [h a (by simp [ctxAddrs]), Sh.map_id_of (fun x hx => h x (by simp [ctxAddrs, hx]))]

theorem bh_map {red red' : Nat → Bool} {f : Nat → Nat} {s : Sh}
    (h : ∀ x ∈ s.addrs, red' (f x) = red x) : bh red' (Sh.map f s) = bh red s := by
  induction s with
  | nil => rfl
  | node l x r ihl ihr =>
    simp only [Sh.map_node, bh_node, h x (by simp), ihl (fun z hz => h z (by simp [hz]))]

theorem Bal_map {red red' : Nat → Bool} {f : Nat → Nat} {s : Sh}
    (h : ∀ x ∈ s.addrs, red' (f x) = red x) : Bal red' (Sh.map f s) ↔ Bal red s := by
  induction s with
  | nil => simp
  | node l x r ihl ihr =>
    have hl : ∀ z ∈ l.addrs, red' (f z) = red z := fun z hz => h z (by simp [hz])
    have hr : ∀ z ∈ r.addrs, red' (f z) = red z := fun z hz => h z (by simp [hz])
    simp only [Sh.map_node, Bal_node, bh_map hl, bh_map hr, ihl hl, ihr hr]

theorem isBlk_map {red red' : Nat → Bool} {f : Nat → Nat} {s : Sh}
    (h : ∀ x ∈ s.addrs, red' (f x) = red x) : isBlk red' (Sh.map f s) ↔ isBlk red s := by
  cases s with
  | nil => simp
  | node l x r => simp only [Sh.map_node, isBlk_node, h x (by simp)]

theorem NoRR_map {red red' : Nat → Bool} {f : Nat → Nat} {s : Sh}
    (h : ∀ x ∈ s.addrs, red' (f x) = red x) : NoRR red' (Sh.map f s) ↔ NoRR red s := by
  induction s with
  | nil => simp
  | node l x r ihl ihr =>
    have hl : ∀ z ∈ l.addrs, red' (f z) = red z := fun z hz => h z (by simp [hz])
    have hr : ∀ z ∈ r.addrs, red' (f z) = red z := fun z hz => h z (by simp [hz])
    simp only [Sh.map_node, NoRR_node, isBlk_map hl, isBlk_map hr, ihl hl, ihr hr,
      h x (by simp)]

theorem RB_map {red red' : Nat → Bool} {f : Nat → Nat} {s : Sh}
    (h : ∀ x ∈ s.addrs, red' (f x) = red x) (rb : RB red s) : RB red' (Sh.map f s) :=
  ⟨(isBlk_map h).2 rb.rootBlack, (NoRR_map h).2 rb.noRedRed, (Bal_map h).2 rb.balanced⟩

theorem Rep_map {P L R P' L' R' : Nat → Ptr} {f : Nat → Nat} {s : Sh} {par : Ptr}
    (h : ∀ x ∈ s.addrs, P' (f x) = (P x).map f ∧ L' (f x) = (L x).map f ∧
      R' (f x) = (R x).map f)
    (hr : Rep P L R s par) : Rep P' L' R' (Sh.map f s) (par.map f) := by
  induction s generalizing par with
  | nil => trivial
  | node l x r ihl ihr =>
    obtain ⟨h1, h2, h3, h4, h5⟩ := hr
    have hx := h x (by simp)
    refine ⟨by rw [hx.1, h1], by rw [hx.2.1, h2, Sh.ptr_map], by rw [hx.2.2, h3, Sh.ptr_map],
      ?_, ?_⟩
    · exact ihl (fun z hz => h z (by simp [hz])) h4
    · exact ihr (fun z hz => h z (by simp [hz])) h5

/-- Renaming a well-formed tree by a renaming that the links follow. -/
theorem WF_map {m m' : Mem K} {hdr : Nat} {sh : Sh} {f : Nat → Nat} (wf : WF m hdr sh)
    (hf : Function.Injective f) (hh : f hdr = hdr)
    (h : ∀ x ∈ hdr :: sh.addrs, m'.parent_ (f x) = (m.parent_ x).map f ∧
      m'.left_ (f x) = (m.left_ x).map f ∧ m'.right_ (f x) = (m.right_ x).map f)
    (hb : ∀ x ∈ hdr :: sh.addrs, f x < m'.next) : WF m' hdr (Sh.map f sh) := by
  have h0 := h hdr (by simp)
  rw [hh] at h0
  refine ⟨by rw [h0.1, wf.root, Sh.ptr_map], by rw [h0.2.1, wf.hleft]; rfl,
    by rw [h0.2.2, wf.hright]; rfl, ?_, ?_, ?_⟩
  · have := @Rep_map _ _ _ m'.parent_ m'.left_ m'.right_ f _ _
      (fun x hx => h x (by simp [hx])) wf.rep
    simpa [hh] using this
  · have := wf.nodup.map hf
    simpa [hh, Sh.addrs_map] using this
  · intro x hx
    simp only [List.mem_cons, Sh.addrs_map, List.mem_map] at hx
    rcases hx with rfl | ⟨z, hz, rfl⟩
    · simpa [hh] using hb x (by simp)
    · exact hb z (by simp [hz])

/-- In a well-formed tree a left child points back to its parent. -/
theorem WF.left_child {m : Mem K} {hdr : Nat} {sh : Sh} {q x : Nat} (wf : WF m hdr sh)
    (hq : q ∈ sh.addrs) (h : m.left_ q = some x) :
    m.parent_ x = some q ∧ x ∈ sh.addrs ∧ m.right_ q ≠ some x ∧ x ≠ q := by
  obtain ⟨c, l, r, rfl⟩ := exists_plug_of_mem hq
  have wz := wf.toZ
  have hl := wz.left_eq
  rw [h] at hl
  cases l with
  | nil => simp at hl
  | node ll x' lr =>
    simp only [Sh.ptr_node, Option.some.injEq] at hl
    subst hl
    have hnd := wz.nodup
    simp only [Sh.addrs_node, List.nodup_cons, List.mem_cons, List.mem_append,
      List.nodup_append, List.append_assoc, List.cons_append, not_or,
      List.disjoint_cons_right, List.disjoint_append_right, List.disjoint_cons_left,
      List.disjoint_append_left] at hnd
    refine ⟨wz.down_left.parent_eq, by simp [plug_addrs], ?_, by omega⟩
    rw [wz.right_eq]
    intro e
    have := Sh.ptr_mem e
    simp [hnd] at this

/-- In a well-formed tree a right child points back to its parent. -/
theorem WF.right_child {m : Mem K} {hdr : Nat} {sh : Sh} {q x : Nat} (wf : WF m hdr sh)
    (hq : q ∈ sh.addrs) (h : m.right_ q = some x) :
    m.parent_ x = some q ∧ x ∈ sh.addrs ∧ m.left_ q ≠ some x ∧ x ≠ q := by
  obtain ⟨c, l, r, rfl⟩ := exists_plug_of_mem hq
  have wz := wf.toZ
  have hr := wz.right_eq
  rw [h] at hr
  cases r with
  | nil => simp at hr
  | node rl x' rr =>
    simp only [Sh.ptr_node, Option.some.injEq] at hr
    subst hr
    have hnd := wz.nodup
    simp only [Sh.addrs_node, List.nodup_cons, List.mem_cons, List.mem_append,
      List.nodup_append, List.append_assoc, List.cons_append, not_or,
      List.disjoint_cons_right, List.disjoint_append_right, List.disjoint_cons_left,
      List.disjoint_append_left] at hnd
    refine ⟨wz.down_right.parent_eq, by simp [plug_addrs], ?_, by omega⟩
    rw [wz.left_eq]
    intro e
    have := Sh.ptr_mem e
    simp [hnd] at this

/-- In a well-formed tree the parent link of a node leads to the header (for the root) or to
a node one of whose child links leads back. -/
theorem WF.parent_child {m : Mem K} {hdr : Nat} {sh : Sh} {x : Nat} (wf : WF m hdr sh)
    (hx : x ∈ sh.addrs) :
    (m.parent_ x = some hdr ∧ sh.ptr = some x) ∨
      ∃ q ∈ sh.addrs, m.parent_ x = some q ∧ (m.left_ q = some x ∨ m.right_ q = some x) := by
  obtain ⟨c, l, r, rfl⟩ := exists_plug_of_mem hx
  have wz := wf.toZ
  rcases c with _ | ⟨f, c⟩
  · exact Or.inl ⟨wz.parent_eq, rfl⟩
  · right
    cases f with
    | left q r' =>
      exact ⟨q, by simp [plug_addrs], wz.parent_eq, Or.inl wz.up_left.left_eq⟩
    | right l' q =>
      exact ⟨q, by simp [plug_addrs], wz.parent_eq, Or.inr wz.up_right.right_eq⟩

theorem WF.hdr_not_mem {m : Mem K} {hdr : Nat} {sh : Sh} (wf : WF m hdr sh) :
    hdr ∉ sh.addrs := (List.nodup_cons.1 wf.nodup).1

@[simp] theorem fixPar_left (m : Mem K) (ch : Ptr) (node : Nat) :
    (fixPar m ch node).left_ = m.left_ := by cases ch <;> rfl

@[simp] theorem fixPar_right (m : Mem K) (ch : Ptr) (node : Nat) :
    (fixPar m ch node).right_ = m.right_ := by cases ch <;> rfl

@[simp] theorem fixPar_red (m : Mem K) (ch : Ptr) (node : Nat) :
    (fixPar m ch node).red_ = m.red_ := by cases ch <;> rfl

@[simp] theorem fixPar_key (m : Mem K) (ch : Ptr) (node : Nat) :
    (fixPar m ch node).key_ = m.key_ := by cases ch <;> rfl

@[simp] theorem fixPar_next (m : Mem K) (ch : Ptr) (node : Nat) :
    (fixPar m ch node).next = m.next := by cases ch <;> rfl

theorem fixPar_parent (m : Mem K) (ch : Ptr) (node z : Nat) :
    (fixPar m ch node).parent_ z = if ch = some z then some node else m.parent_ z := by
  cases ch with
  | none => simp [fixPar]
  | some c =>
    simp only [fixPar, Mem.setParent_parent, upd_apply, Option.some.injEq]
    by_cases h : z = c
    · simp [h]
    · have : ¬ c = z := fun e => h e.symm
      simp [h, this]

theorem SwapNodes_eq (m : Mem K) (hdr node other : Nat) :
    SwapNodes m hdr node other = (do
      let op ← m.parent_ other
      let m1 := if m.left_ op = some other then m.setLeft op (some node)
        else m.setRight op (some node)
      let m2 ← relinkL m1 hdr node (some other)
      pure (swapTail m2 node other)) := rfl

theorem Rep_parent_mem {P L R : Nat → Ptr} {s : Sh} {par : Ptr} (h : Rep P L R s par)
    {y : Nat} (hy : y ∈ s.addrs) (hne : s.ptr ≠ some y) : ∃ q ∈ s.addrs, P y = some q := by
  induction s generalizing par with
  | nil => simp at hy
  | node l b r ihl ihr =>
    obtain ⟨h1, h2, h3, h4, h5⟩ := h
    simp only [Sh.addrs_node, List.mem_append, List.mem_cons] at hy
    rcases hy with hy | hy | hy
    · by_cases hp : l.ptr = some y
      · cases l with
        | nil => simp at hp
        | node ll y' lr =>
          simp only [Sh.ptr_node, Option.some.injEq] at hp
          subst hp
          exact ⟨b, by simp, h4.1⟩
      · obtain ⟨q, hq, e⟩ := ihl h4 hy hp
        exact ⟨q, by simp [hq], e⟩
    · exact absurd (by simp [hy]) hne
    · by_cases hp : r.ptr = some y
      · cases r with
        | nil => simp at hp
        | node rl y' rr =>
          simp only [Sh.ptr_node, Option.some.injEq] at hp
          subst hp
          exact ⟨b, by simp, h5.1⟩
      · obtain ⟨q, hq, e⟩ := ihr h5 hy hp
        exact ⟨q, by simp [hq], e⟩

theorem ctxPar_mem (hdr : Nat) (c : List Frame) : ctxPar hdr c ∈ hdr :: ctxAddrs c := by
  rcases c with _ | ⟨f, c⟩
  · simp
  · cases f <;> simp [ctxAddrs]

theorem optmap_inj {f : Nat → Nat} (hf : Function.Injective f) (p : Ptr) (x : Nat) :
    Option.map f p = some (f x) ↔ p = some x := by
  cases p with
  | none => simp
  | some z => simp [hf.eq_iff]

theorem swapTail_left (m : Mem K) (a y : Nat) :
    (swapTail m a y).left_ = upd (upd m.left_ a (m.left_ y)) y (m.left_ a) := by
  simp [swapTail]

theorem swapTail_right (m : Mem K) (a y : Nat) :
    (swapTail m a y).right_ = upd (upd m.right_ a (m.right_ y)) y (m.right_ a) := by
  simp [swapTail]

theorem swapTail_red (m : Mem K) (a y : Nat) :
    (swapTail m a y).red_ = upd (upd m.red_ a (m.red_ y)) y (m.red_ a) := by
  simp [swapTail]

theorem swapTail_key (m : Mem K) (a y : Nat) : (swapTail m a y).key_ = m.key_ := by
  simp [swapTail]

theorem swapTail_next (m : Mem K) (a y : Nat) : (swapTail m a y).next = m.next := by
  simp [swapTail]

theorem swapTail_parent (m : Mem K) (a y z : Nat) :
    (swapTail m a y).parent_ z =
      if upd (upd m.right_ a (m.right_ y)) y (m.right_ a) y = some z then some y
      else if upd (upd m.left_ a (m.left_ y)) y (m.left_ a) y = some z then some y
      else if upd (upd m.right_ a (m.right_ y)) y (m.right_ a) a = some z then some a
      else if upd (upd m.left_ a (m.left_ y)) y (m.left_ a) a = some z then some a
      else upd (upd m.parent_ a (m.parent_ y)) y (m.parent_ a) z := by
  simp [swapTail, fixPar_parent]

theorem upd_swp {α : Type} (F : Nat → α) {a y : Nat} (hay : a ≠ y) (x : Nat) :
    upd (upd F a (F y)) y (F a) (swp a y x) = F x := by
  unfold swp
  by_cases h1 : x = a
  · subst h1
    simp
  · by_cases h2 : x = y
    · subst h2
      simp [h1, hay]
    · simp [h1, h2]

theorem SwapNodes_spec {m : Mem K} {hdr a y : Nat} {c : List Frame} {l r : Sh}
    (wz : WFz m hdr c (Sh.node l a r)) (hy : y ∈ l.addrs ++ r.addrs) :
    ∃ m', SwapNodes m hdr a y = some m' ∧
      WF m' hdr (Sh.map (swp a y) (plug c (Sh.node l a r))) ∧
      (∀ x, m'.red_ (swp a y x) = m.red_ x) ∧ m'.key_ = m.key_ ∧ m'.next = m.next := by
  have wf := wz.toWF
  have hnd := wz.nodup
  simp only [Sh.addrs_node, List.nodup_cons, List.mem_cons, List.mem_append,
    List.nodup_append, List.append_assoc, List.cons_append, not_or,
    List.disjoint_cons_right, List.disjoint_append_right, List.disjoint_cons_left,
    List.disjoint_append_left] at hnd
  have hyS : y ∈ (Sh.node l a r).addrs := by
    simp only [List.mem_append] at hy
    simp only [Sh.addrs_node, List.mem_append, List.mem_cons]
    tauto
  have hay : a ≠ y := by
    rintro rfl
    simp [hnd] at hy
  have hT : ∀ z, z ∈ (plug c (Sh.node l a r)).addrs ↔
      z ∈ (Sh.node l a r).addrs ∨ z ∈ ctxAddrs c := by
    intro z
    rw [(plug_addrs_perm c _).mem_iff, List.mem_append]
  have hSC : ∀ z, z ∈ (Sh.node l a r).addrs → z ∉ hdr :: ctxAddrs c := by
    intro z hz hz'
    have hd := wz.nodup
    rw [List.nodup_cons, List.nodup_append] at hd
    simp only [List.mem_cons] at hz'
    rcases hz' with rfl | hz'
    · exact hd.1 (List.mem_append.2 (Or.inl hz))
    · exact hd.2.2.2 hz hz'
  have haS : a ∈ (Sh.node l a r).addrs := by simp
  have haT : a ∈ (plug c (Sh.node l a r)).addrs := (hT a).2 (Or.inl haS)
  have hyT : y ∈ (plug c (Sh.node l a r)).addrs := (hT y).2 (Or.inl hyS)
  have hhT : hdr ∉ (plug c (Sh.node l a r)).addrs := wf.hdr_not_mem
  obtain ⟨yp, hypS, hPy⟩ := Rep_parent_mem wz.rep hyS
    (by simp only [Sh.ptr_node, ne_eq, Option.some.injEq]; exact hay)
  have hypT : yp ∈ (plug c (Sh.node l a r)).addrs := (hT yp).2 (Or.inl hypS)
  have hyc : m.left_ yp = some y ∨ m.right_ yp = some y := by
    rcases wf.parent_child hyT with ⟨e, -⟩ | ⟨q, hq, e, hc⟩
    · rw [hPy] at e
      simp only [Option.some.injEq] at e
      subst e
      exact absurd hypT hhT
    · rw [hPy] at e
      simp only [Option.some.injEq] at e
      subst e
      exact hc
  have hPa : m.parent_ a = some (ctxPar hdr c) := wz.parent_eq
  have hapm := ctxPar_mem hdr c
  have hcase : (m.parent_ hdr = some a ∧ ctxPar hdr c = hdr) ∨
      (m.parent_ hdr ≠ some a ∧ ctxPar hdr c ∈ (plug c (Sh.node l a r)).addrs ∧
        (m.left_ (ctxPar hdr c) = some a ∨ m.right_ (ctxPar hdr c) = some a)) := by
    rcases c with _ | ⟨f, c'⟩
    · exact Or.inl ⟨wz.root_nil, rfl⟩
    · right
      refine ⟨wz.root_cons, (hT _).2 (Or.inr ?_), ?_⟩
      · cases f <;> simp [ctxAddrs]
      · cases f with
        | left q r' => exact Or.inl wz.up_left.left_eq
        | right l' q => exact Or.inr wz.up_right.right_eq
  generalize ctxPar hdr c = ap at hPa hapm hcase
  generalize hTdef : (plug c (Sh.node l a r)).addrs = T at hT haT hyT hhT hypT hcase
  have hapS : ap ∉ (Sh.node l a r).addrs := fun h => hSC ap h hapm
  have hapa : ap ≠ a := fun e => hapS (e ▸ haS)
  have hapy : ap ≠ y := fun e => hapS (e ▸ hyS)
  have hapyp : ap ≠ yp := fun e => hapS (e ▸ hypS)
  have hha : hdr ≠ a := fun e => hhT (e ▸ haT)
  have hhy : hdr ≠ y := fun e => hhT (e ▸ hyT)
  have hhyp : hdr ≠ yp := fun e => hhT (e ▸ hypT)
  have gL : ∀ z ∈ hdr :: T, ∀ x, m.left_ z = some x →
      m.parent_ x = some z ∧ x ∈ T ∧ m.right_ z ≠ some x ∧ x ≠ z := by
    intro z hz x hx
    rcases List.mem_cons.1 hz with rfl | hz
    · rw [wf.hleft] at hx
      cases hx
    · have := wf.left_child (hTdef ▸ hz) hx
      rw [hTdef] at this
      exact this
  have gR : ∀ z ∈ hdr :: T, ∀ x, m.right_ z = some x →
      m.parent_ x = some z ∧ x ∈ T ∧ m.left_ z ≠ some x ∧ x ≠ z := by
    intro z hz x hx
    rcases List.mem_cons.1 hz with rfl | hz
    · rw [wf.hright] at hx
      cases hx
    · have := wf.right_child (hTdef ▸ hz) hx
      rw [hTdef] at this
      exact this
  have gP : ∀ z ∈ T, ∀ q, m.parent_ z = some q → q ≠ hdr →
      m.left_ q = some z ∨ m.right_ q = some z := by
    intro z hz q hq hne
    rcases wf.parent_child (hTdef ▸ hz) with ⟨e, -⟩ | ⟨q', -, e, hc⟩
    · rw [hq] at e
      simp only [Option.some.injEq] at e
      exact absurd e hne
    · rw [hq] at e
      simp only [Option.some.injEq] at e
      subst e
      exact hc
  have hypy : yp ≠ y := by
    rintro rfl
    rcases hyc with h | h
    · exact (gL yp (by simp [hypT]) yp h).2.2.2 rfl
    · exact (gR yp (by simp [hypT]) yp h).2.2.2 rfl
  have eLa : ∀ z ∈ hdr :: T, (m.left_ z = some a ↔ z = ap ∧ m.left_ ap = some a) := by
    intro z hz
    constructor
    · intro h
      have := (gL z hz a h).1
      rw [hPa] at this
      simp only [Option.some.injEq] at this
      subst this
      exact ⟨rfl, h⟩
    · rintro ⟨rfl, h⟩
      exact h
  have eRa : ∀ z ∈ hdr :: T, (m.right_ z = some a ↔ z = ap ∧ m.right_ ap = some a) := by
    intro z hz
    constructor
    · intro h
      have := (gR z hz a h).1
      rw [hPa] at this
      simp only [Option.some.injEq] at this
      subst this
      exact ⟨rfl, h⟩
    · rintro ⟨rfl, h⟩
      exact h
  have eLy : ∀ z ∈ hdr :: T, (m.left_ z = some y ↔ z = yp ∧ m.left_ yp = some y) := by
    intro z hz
    constructor
    · intro h
      have := (gL z hz y h).1
      rw [hPy] at this
      simp only [Option.some.injEq] at this
      subst this
      exact ⟨rfl, h⟩
    · rintro ⟨rfl, h⟩
      exact h
  have eRy : ∀ z ∈ hdr :: T, (m.right_ z = some y ↔ z = yp ∧ m.right_ yp = some y) := by
    intro z hz
    constructor
    · intro h
      have := (gR z hz y h).1
      rw [hPy] at this
      simp only [Option.some.injEq] at this
      subst this
      exact ⟨rfl, h⟩
    · rintro ⟨rfl, h⟩
      exact h
  have nLRy : m.left_ yp = some y → m.right_ yp ≠ some y :=
    fun h => (gL yp (by simp [hypT]) y h).2.2.1
  have hapH0 : ap ∈ hdr :: T := by
    rcases List.mem_cons.1 hapm with e | h
    · simp [e]
    · exact List.mem_cons_of_mem _ ((hT ap).2 (Or.inr h))
  have nLRa : m.left_ ap = some a → m.right_ ap ≠ some a :=
    fun h => (gL ap hapH0 a h).2.2.1
  -- the first relinking
  obtain ⟨m1, hm1⟩ : ∃ m1, m1 = (if m.left_ yp = some y then m.setLeft yp (some a)
      else m.setRight yp (some a)) := ⟨_, rfl⟩
  have m1P : m1.parent_ = m.parent_ := by rw [hm1]; split_ifs <;> rfl
  have m1D : m1.red_ = m.red_ := by rw [hm1]; split_ifs <;> rfl
  have m1K : m1.key_ = m.key_ := by rw [hm1]; split_ifs <;> rfl
  have m1N : m1.next = m.next := by rw [hm1]; split_ifs <;> rfl
  have m1L : ∀ z ∈ hdr :: T,
      m1.left_ z = if m.left_ z = some y then some a else m.left_ z := by
    intro z hz
    have e := eLy z hz
    rw [hm1]
    by_cases hL : m.left_ yp = some y
    · simp only [hL, if_true, Mem.setLeft_left, upd_apply]
      by_cases hzy : z = yp
      · subst hzy
        simp [hL]
      · have : ¬ m.left_ z = some y := fun h => hzy (e.1 h).1
        simp [hzy, this]
    · have : ¬ m.left_ z = some y := fun h => hL (e.1 h).2
      simp [hL, this]
  have m1R : ∀ z ∈ hdr :: T,
      m1.right_ z = if m.right_ z = some y then some a else m.right_ z := by
    intro z hz
    have e := eRy z hz
    rw [hm1]
    by_cases hL : m.left_ yp = some y
    · have : ¬ m.right_ z = some y := fun h => nLRy hL (e.1 h).2
      simp [hL, this]
    · have hR : m.right_ yp = some y := hyc.resolve_left hL
      simp only [hL, if_false, Mem.setRight_right, upd_apply]
      by_cases hzy : z = yp
      · subst hzy
        simp [hR]
      · have : ¬ m.right_ z = some y := fun h => hzy (e.1 h).1
        simp [hzy, this]
  -- the second relinking
  obtain ⟨m2, hm2, m2P, m2L, m2R, m2D, m2K, m2N⟩ : ∃ m2, relinkL m1 hdr a (some y) = some m2 ∧
      (∀ z ∈ hdr :: T, m2.parent_ z =
        if z = hdr then Option.map (swp a y) (m.parent_ hdr) else m.parent_ z) ∧
      (∀ z ∈ hdr :: T, m2.left_ z = Option.map (swp a y) (m.left_ z)) ∧
      (∀ z ∈ hdr :: T, m2.right_ z = Option.map (swp a y) (m.right_ z)) ∧
      m2.red_ = m.red_ ∧ m2.key_ = m.key_ ∧ m2.next = m.next := by
    have hPhy : m.parent_ hdr ≠ some y := by
      intro h
      have hr := wf.root
      rw [h] at hr
      rcases wf.parent_child (hTdef ▸ hyT) with ⟨e, -⟩ | ⟨q, hq, e, hc⟩
      · rw [hPy] at e
        simp only [Option.some.injEq] at e
        exact hhyp e.symm
      · revert hr wf
        generalize plug c (Sh.node l a r) = sh
        intro wf hr
        cases sh with
        | nil => simp at hr
        | node sl sx sr =>
          simp only [Sh.ptr_node, Option.some.injEq] at hr
          subst hr
          have := wf.rep.1
          rw [hPy] at this
          simp only [Option.some.injEq] at this
          exact hhyp this.symm
    rcases hcase with ⟨hr, rfl⟩ | ⟨hr, hapT, hch⟩
    · refine ⟨m1.setParent ap (some y), by simp [relinkL, Root, m1P, hr], ?_, ?_, ?_, m1D, m1K,
        m1N⟩
      · intro z hz
        simp only [Mem.setParent_parent, upd_apply, m1P, hr, Option.map_some', swp_left]
      · intro z hz
        have e := eLa z hz
        have : ¬ m.left_ z = some a := by
          intro h
          rw [wf.hleft] at e
          simpa using (e.1 h).2
        simp only [Mem.setParent_left, m1L z hz, optmap_swp, this, if_false]
      · intro z hz
        have e := eRa z hz
        have : ¬ m.right_ z = some a := by
          intro h
          rw [wf.hright] at e
          simpa using (e.1 h).2
        simp only [Mem.setParent_right, m1R z hz, optmap_swp, this, if_false]
    · have hapH : ap ∈ hdr :: T := by simp [hapT]
      have hne : ap ≠ hdr := fun e => hhT (e ▸ hapT)
      have h1 : m1.left_ ap = m.left_ ap := by
        rw [m1L ap hapH]
        have : ¬ m.left_ ap = some y := fun h => hapyp ((eLy ap hapH).1 h).1
        simp [this]
      have h2 : m1.right_ ap = m.right_ ap := by
        rw [m1R ap hapH]
        have : ¬ m.right_ ap = some y := fun h => hapyp ((eRy ap hapH).1 h).1
        simp [this]
      have hP : ∀ z ∈ hdr :: T, m.parent_ z =
          if z = hdr then Option.map (swp a y) (m.parent_ hdr) else m.parent_ z := by
        intro z hz
        by_cases hzh : z = hdr
        · subst hzh
          simp only [if_true, optmap_swp, hr, hPhy, if_false]
        · simp [hzh]
      by_cases hL : m.left_ ap = some a
      · refine ⟨m1.setLeft ap (some y), by simp [relinkL, Root, m1P, hr, hPa, h1, hL], ?_, ?_, ?_,
          m1D, m1K, m1N⟩
        · intro z hz
          simp only [Mem.setLeft_parent, m1P]
          exact hP z hz
        · intro z hz
          have e := eLa z hz
          simp only [Mem.setLeft_left, upd_apply, optmap_swp]
          by_cases hz' : z = ap
          · subst hz'
            simp [hL]
          · have : ¬ m.left_ z = some a := fun h => hz' (e.1 h).1
            simp only [hz', if_false, this, m1L z hz]
        · intro z hz
          have e := eRa z hz
          have : ¬ m.right_ z = some a := fun h => nLRa hL (e.1 h).2
          simp only [Mem.setLeft_right, m1R z hz, optmap_swp, this, if_false]
      · have hR : m.right_ ap = some a := hch.resolve_left hL
        refine ⟨m1.setRight ap (some y), by simp [relinkL, Root, m1P, hr, hPa, h1, hL], ?_, ?_, ?_,
          m1D, m1K, m1N⟩
        · intro z hz
          simp only [Mem.setRight_parent, m1P]
          exact hP z hz
        · intro z hz
          have e := eLa z hz
          have : ¬ m.left_ z = some a := fun h => hL (e.1 h).2
          simp only [Mem.setRight_left, m1L z hz, optmap_swp, this, if_false]
        · intro z hz
          have e := eRa z hz
          simp only [Mem.setRight_right, upd_apply, optmap_swp]
          by_cases hz' : z = ap
          · subst hz'
            simp [hR]
          · have : ¬ m.right_ z = some a := fun h => hz' (e.1 h).1
            simp only [hz', if_false, this, m1R z hz]
  refine ⟨swapTail m2 a y, ?_, ?_, ?_, by rw [swapTail_key, m2K], by rw [swapTail_next, m2N]⟩
  · rw [SwapNodes_eq, hPy]
    simp only [Option.bind_eq_bind, Option.some_bind, ← hm1, hm2]
    rfl
  · refine WF_map wf (swp_inj a y) (swp_ne hha hhy) ?_ ?_
    · rw [hTdef]
      intro x hx
      have haH : a ∈ hdr :: T := by simp [haT]
      have hyH : y ∈ hdr :: T := by simp [hyT]
      refine ⟨?_, ?_, ?_⟩
      · have u1 : upd (upd m2.right_ a (m2.right_ y)) y (m2.right_ a) y =
            Option.map (swp a y) (m.right_ a) := by rw [upd_same, m2R a haH]
        have u2 : upd (upd m2.left_ a (m2.left_ y)) y (m2.left_ a) y =
            Option.map (swp a y) (m.left_ a) := by rw [upd_same, m2L a haH]
        have u3 : upd (upd m2.right_ a (m2.right_ y)) y (m2.right_ a) a =
            Option.map (swp a y) (m.right_ y) := by
          rw [upd_ne _ _ hay, upd_same, m2R y hyH]
        have u4 : upd (upd m2.left_ a (m2.left_ y)) y (m2.left_ a) a =
            Option.map (swp a y) (m.left_ y) := by
          rw [upd_ne _ _ hay, upd_same, m2L y hyH]
        simp only [swapTail_parent, u1, u2, u3, u4, upd_swp _ hay,
          optmap_inj (swp_inj a y)]
        by_cases h1 : m.right_ a = some x
        · rw [(gR a haH x h1).1]
          simp [h1, swp_left]
        by_cases h2 : m.left_ a = some x
        · rw [(gL a haH x h2).1]
          simp [h1, h2, swp_left]
        by_cases h3 : m.right_ y = some x
        · rw [(gR y hyH x h3).1]
          simp [h1, h2, h3, swp_right]
        by_cases h4 : m.left_ y = some x
        · rw [(gL y hyH x h4).1]
          simp [h1, h2, h3, h4, swp_right]
        simp only [h1, h2, h3, h4, if_false]
        rw [m2P x hx]
        by_cases hxh : x = hdr
        · simp [hxh]
        · have hxT : x ∈ T := by
            rcases List.mem_cons.1 hx with e | e
            · exact absurd e hxh
            · exact e
          have n1 : ¬ m.parent_ x = some a := by
            intro e
            rcases gP x hxT a e (fun e' => hha e'.symm) with e' | e'
            · exact h2 e'
            · exact h1 e'
          have n2 : ¬ m.parent_ x = some y := by
            intro e
            rcases gP x hxT y e (fun e' => hhy e'.symm) with e' | e'
            · exact h4 e'
            · exact h3 e'
          simp only [hxh, if_false, optmap_swp, n1, n2]
      · rw [swapTail_left, upd_swp _ hay, m2L x hx]
      · rw [swapTail_right, upd_swp _ hay, m2R x hx]
    · rw [hTdef]
      intro x hx
      rw [swapTail_next, m2N]
      have hb := wf.bound
      rw [hTdef] at hb
      unfold swp
      split_ifs
      · exact hb y (by simp [hyT])
      · exact hb a (by simp [haT])
      · exact hb x hx
  · intro x
    rw [swapTail_red, upd_swp _ hay, m2D]

theorem filter_ne_mid {X Y : List Nat} {a : Nat} (h : (X ++ a :: Y).Nodup) :
    (X ++ a :: Y).filter (fun x => decide (x ≠ a)) = X ++ Y := by
  simp only [List.nodup_append, List.nodup_cons, List.disjoint_cons_right] at h
  obtain ⟨-, ⟨haY, -⟩, haX, -⟩ := h
  have hX : X.filter (fun x => decide (x ≠ a)) = X :=
    List.filter_eq_self.2 (fun z hz => by
      have : z ≠ a := fun e => haX (e ▸ hz)
      simp [this])
  have hY : Y.filter (fun x => decide (x ≠ a)) = Y :=
    List.filter_eq_self.2 (fun z hz => by
      have : z ≠ a := fun e => haY (e ▸ hz)
      simp [this])
  rw [List.filter_append, hX, List.filter_cons_of_neg (by simp), hY]

theorem filter_ne_length {L : List Nat} {a : Nat} (h : L.Nodup) (ha : a ∈ L) :
    (L.filter (fun x => decide (x ≠ a))).length = L.length - 1 := by
  obtain ⟨X, Y, rfl⟩ := List.append_of_mem ha
  rw [filter_ne_mid h]
  simp

theorem map_swp_id {a y : Nat} {X : List Nat} (ha : a ∉ X) (hy : y ∉ X) :
    X.map (swp a y) = X := by
  have : ∀ z ∈ X, swp a y z = id z := by
    intro z hz
    exact swp_ne (fun e => ha (e ▸ hz)) (fun e => hy (e ▸ hz))
  rw [List.map_congr_left this, List.map_id]

/-- Exchanging two neighbours of a duplicate-free list does not change what is left once one
of them is removed. -/
theorem filter_map_swp_adj {X Y : List Nat} {a y : Nat} (h : (X ++ a :: y :: Y).Nodup) :
    ((X ++ a :: y :: Y).map (swp a y)).filter (fun x => decide (x ≠ a)) =
      (X ++ a :: y :: Y).filter (fun x => decide (x ≠ a)) := by
  have h' := h
  simp only [List.nodup_append, List.nodup_cons, List.disjoint_cons_right, List.mem_cons,
    not_or] at h'
  obtain ⟨-, ⟨⟨hay, haY⟩, hyY, -⟩, haX, hyX, -⟩ := h'
  have e : (X ++ a :: y :: Y).map (swp a y) = X ++ y :: a :: Y := by
    simp [map_swp_id haX hyX, map_swp_id haY hyY, swp_left, swp_right]
  rw [e, filter_ne_mid h]
  have h2 : ((X ++ [y]) ++ a :: Y).Nodup := by
    have : (X ++ a :: y :: Y).Perm ((X ++ [y]) ++ a :: Y) := by
      simp only [List.append_assoc, List.singleton_append]
      exact List.Perm.append_left X (List.Perm.swap y a Y)
    exact this.nodup_iff.1 h
  have := filter_ne_mid h2
  simp only [List.append_assoc, List.singleton_append] at this
  exact this

theorem filter_map_swp_adj' {X Y : List Nat} {a y : Nat} (h : (X ++ y :: a :: Y).Nodup) :
    ((X ++ y :: a :: Y).map (swp a y)).filter (fun x => decide (x ≠ a)) =
      (X ++ y :: a :: Y).filter (fun x => decide (x ≠ a)) := by
  have h' := h
  simp only [List.nodup_append, List.nodup_cons, List.disjoint_cons_right, List.mem_cons,
    not_or] at h'
  obtain ⟨-, ⟨⟨hya, hyY⟩, haY, -⟩, hyX, haX, -⟩ := h'
  have e : (X ++ y :: a :: Y).map (swp a y) = X ++ a :: y :: Y := by
    simp [map_swp_id haX hyX, map_swp_id haY hyY, swp_left, swp_right]
  rw [e]
  have h1 : (X ++ a :: y :: Y).Nodup := by
    have : (X ++ y :: a :: Y).Perm (X ++ a :: y :: Y) :=
      List.Perm.append_left X (List.Perm.swap a y Y)
    exact this.nodup_iff.1 h
  have h2 : ((X ++ [y]) ++ a :: Y).Nodup := by simpa using h
  rw [filter_ne_mid h1]
  have := filter_ne_mid h2
  simp only [List.append_assoc, List.singleton_append] at this
  exact this.symm

theorem nil_of_isBlk_bh {red : Nat → Bool} {s : Sh} (hb : isBlk red s) (h : bh red s = 0) :
    s = Sh.nil := by
  cases s with
  | nil => rfl
  | node l x r =>
    simp only [isBlk_node] at hb
    simp [hb] at h

/-- A subtree of black height zero without red-red pairs is empty or a single red node. -/
theorem red_leaf_of_bh {red : Nat → Bool} {rl rr : Sh} {x : Nat}
    (h0 : bh red (Sh.node rl x rr) = 0) (hB : Bal red (Sh.node rl x rr))
    (hN : NoRR red (Sh.node rl x rr)) : red x = true ∧ rl = Sh.nil ∧ rr = Sh.nil := by
  simp only [bh_node] at h0
  have hx : red x = true := by
    cases hr : red x
    · simp [hr] at h0
    · rfl
  simp only [hx, if_true, Nat.add_zero] at h0
  obtain ⟨e, -, -⟩ := hB
  obtain ⟨hi, -, -⟩ := hN
  obtain ⟨i1, i2⟩ := hi hx
  exact ⟨hx, nil_of_isBlk_bh i1 h0, nil_of_isBlk_bh i2 (e ▸ h0)⟩

theorem ExtractNode_eq (m : Mem K) (t : RBTree) (pos : Ptr) :
    ExtractNode m t pos =
      (if pos = End t then pure (m, t, none)
      else do
        let node ← pos
        let m ← swapSucc m t.header_ node
        let m ← swapChild m t.header_ node
        let m ← fixLeaf m t.header_ node
        let m ← relinkL m t.header_ node none
        pure (m.InitNode node, { t with size_ := t.size_ - 1 }, some node)) := rfl

/-- Taking a leaf out of the tree. -/
theorem unlink_spec {m : Mem K} {hdr a : Nat} {c : List Frame}
    (wz : WFz m hdr c (Sh.node Sh.nil a Sh.nil)) :
    ∃ m', relinkL m hdr a none = some m' ∧ WF (m'.InitNode a) hdr (plug c Sh.nil) ∧
      (∀ x, x ≠ a → (m'.InitNode a).red_ x = m.red_ x) ∧ (m'.InitNode a).key_ = m.key_ ∧
      (m'.InitNode a).next = m.next := by
  have hnd := wz.nodup
  simp only [Sh.addrs_node, Sh.addrs_nil, List.nil_append, List.nodup_cons, List.mem_cons,
    List.cons_append, not_or] at hnd
  obtain ⟨⟨hha, hhc⟩, hac, hcn⟩ := hnd
  have hrl := relinkL_eq none wz.repc wz.parent_eq hac
  refine ⟨_, hrl, ?_, ?_, ?_, ?_⟩
  · apply WFz.toWF
    have hrc := holeSet_repC none wz.repc (List.nodup_cons.2 ⟨hhc, hcn⟩)
    refine ⟨?_, trivial, ?_, ?_, ?_, ?_⟩
    · simp only [Mem.InitNode, Mem.setRed_parent, Mem.setRed_left, Mem.setRed_right,
        Mem.setRight_parent, Mem.setRight_left, Mem.setRight_right, Mem.setLeft_parent,
        Mem.setLeft_left, Mem.setLeft_right, Mem.setParent_parent, Mem.setParent_left,
        Mem.setParent_right, Sh.ptr_nil]
      rw [RepC_updP _ _ hha hac, RepC_updL _ _ hha hac, RepC_updR _ _ hha hac]
      exact hrc
    · simp only [Mem.InitNode, Mem.setRed_left, Mem.setRight_left, Mem.setLeft_left,
        Mem.setParent_left]
      rw [upd_ne' _ _ (Ne.symm hha), holeSet_left _ _ _ _ hhc]
      exact wz.hleft
    · simp only [Mem.InitNode, Mem.setRed_right, Mem.setRight_right]
      rw [upd_ne' _ _ (Ne.symm hha)]
      simp only [Mem.setLeft_right, Mem.setParent_right]
      rw [holeSet_right _ _ _ _ hhc]
      exact wz.hright
    · simpa using List.nodup_cons.2 ⟨hhc, hcn⟩
    · intro x hx
      simp only [Mem.InitNode, Mem.setRed_next, Mem.setRight_next, Mem.setLeft_next,
        Mem.setParent_next, holeSet_next]
      apply wz.bound
      simp only [Sh.addrs_nil, List.nil_append, List.mem_cons] at hx
      simp only [Sh.addrs_node, Sh.addrs_nil, List.nil_append, List.mem_cons, List.cons_append]
      tauto
  · intro x hx
    simp [Mem.InitNode, hx]
  · simp [Mem.InitNode]
  · simp [Mem.InitNode]

theorem WF.addrs_nodup {m : Mem K} {hdr : Nat} {sh : Sh} (wf : WF m hdr sh) :
    sh.addrs.Nodup := (List.nodup_cons.1 wf.nodup).2

theorem WFz.depth_le {m : Mem K} {hdr : Nat} {c : List Frame} {l r : Sh} {a : Nat}
    (wz : WFz m hdr c (Sh.node l a r)) : r.depth ≤ m.next := by
  have h1 := nodup_bound_length wz.nodup wz.bound
  have h2 := Sh.depth_le_length r
  simp only [Sh.addrs_node, List.length_cons, List.length_append] at h1
  omega

theorem swapSucc_spec {m : Mem K} {hdr a : Nat} {sh : Sh} (wf : WF m hdr sh)
    (rb : RB m.red_ sh) (ha : a ∈ sh.addrs) :
    ∃ m1 sh1 c1 l1 r1, swapSucc m hdr a = some m1 ∧ WF m1 hdr sh1 ∧ RB m1.red_ sh1 ∧
      sh1.addrs.filter (fun x => decide (x ≠ a)) = sh.addrs.filter (fun x => decide (x ≠ a)) ∧
      m1.key_ = m.key_ ∧ m1.next = m.next ∧ sh1 = plug c1 (Sh.node l1 a r1) ∧
      (l1 = Sh.nil ∨ r1 = Sh.nil) := by
  obtain ⟨c, l, r, rfl⟩ := exists_plug_of_mem ha
  have wz := wf.toZ
  by_cases hc : l ≠ Sh.nil ∧ r ≠ Sh.nil
  · obtain ⟨hl, hr⟩ := hc
    have hL : m.left_ a ≠ none := by
      rw [wz.left_eq]
      exact fun e => hl (Sh.ptr_eq_none.1 e)
    obtain ⟨rx, hrx⟩ : ∃ rx, r.ptr = some rx := by
      cases r with
      | nil => exact absurd rfl hr
      | node rl rx rr => exact ⟨rx, rfl⟩
    have hR : m.right_ a = some rx := by rw [wz.right_eq, hrx]
    obtain ⟨d, y, yr, hs, hal, e⟩ :=
      SearchMin_spec m r m.next (some a) rx hrx wz.rep.2.2.2.2 wz.depth_le
    have hyr : y ∈ r.addrs := by
      rw [hs, plug_addrs]
      simp
    obtain ⟨m', hsw, wf', hred, hk, hn⟩ := SwapNodes_spec wz (List.mem_append.2 (Or.inr hyr))
    have hlist : (plug c (Sh.node l a r)).addrs =
        (ctxBefore c ++ l.addrs) ++ a :: y :: (yr.addrs ++ ctxAfter d ++ ctxAfter c) := by
      rw [hs]
      simp [plug_addrs, ctxBefore_allLeft hal]
    refine ⟨m', _, d.map (Frame.map (swp a y)) ++
        Frame.right (Sh.map (swp a y) l) y :: c.map (Frame.map (swp a y)), Sh.nil,
      Sh.map (swp a y) yr, ?_, wf', RB_map (fun x _ => hred x) rb, ?_, hk, hn, ?_, Or.inl rfl⟩
    · simp [swapSucc, hL, hR, e, hsw]
    · rw [Sh.addrs_map, hlist]
      exact filter_map_swp_adj (hlist ▸ wf.addrs_nodup)
    · rw [hs]
      simp [plug_map, plug_append, swp_left, swp_right]
  · refine ⟨m, _, c, l, r, ?_, wf, rb, rfl, rfl, rfl, rfl, ?_⟩
    · have : ¬ (m.left_ a ≠ none ∧ m.right_ a ≠ none) := by
        rw [wz.left_eq, wz.right_eq]
        intro h
        exact hc ⟨fun e => h.1 (by rw [e]; rfl), fun e => h.2 (by rw [e]; rfl)⟩
      simp only [swapSucc, this, if_false]
      rfl
    · by_cases hl : l = Sh.nil
      · exact Or.inl hl
      · by_cases hr : r = Sh.nil
        · exact Or.inr hr
        · exact absurd ⟨hl, hr⟩ hc

theorem swapChild_spec {m : Mem K} {hdr a : Nat} {c : List Frame} {l r : Sh}
    (wf : WF m hdr (plug c (Sh.node l a r))) (rb : RB m.red_ (plug c (Sh.node l a r)))
    (h1 : l = Sh.nil ∨ r = Sh.nil) :
    ∃ m2 sh2, swapChild m hdr a = some m2 ∧ WF m2 hdr sh2 ∧ RB m2.red_ sh2 ∧
      sh2.addrs.filter (fun x => decide (x ≠ a)) =
        (plug c (Sh.node l a r)).addrs.filter (fun x => decide (x ≠ a)) ∧
      m2.key_ = m.key_ ∧ m2.next = m.next ∧ Leaf a sh2 := by
  have wz := wf.toZ
  have hB := ((Bal_plug _ _ _).1 rb.balanced).1
  have hN := ((NoRR_plug _ _ _).1 rb.noRedRed).1
  obtain ⟨e0, bl, br⟩ := hB
  obtain ⟨hi, nl, nr⟩ := hN
  cases l with
  | nil =>
    cases r with
    | nil =>
      refine ⟨m, _, ?_, wf, rb, rfl, rfl, rfl, Leaf_plug c (by simp)⟩
      have e1 : m.left_ a = none := wz.left_eq
      have e2 : m.right_ a = none := wz.right_eq
      simp only [swapChild, e1, e2, ne_eq, not_true_eq_false, false_and, and_false, or_self,
        if_false]
      rfl
    | node rl x rr =>
      obtain ⟨hx, rfl, rfl⟩ := red_leaf_of_bh (by simpa using e0.symm) br nr
      have hblk : m.red_ a = false := by
        rcases Bool.eq_false_or_eq_true (m.red_ a) with h | h
        · have := (hi h).2
          simp only [isBlk_node] at this
          rw [hx] at this
          exact absurd this (by simp)
        · exact h
      have e1 : m.left_ a = none := wz.left_eq
      have e2 : m.right_ a = some x := wz.right_eq
      obtain ⟨m', hsw, wf', hred, hk, hn⟩ :=
        SwapNodes_spec (y := x) wz (by simp)
      refine ⟨m', _, ?_, wf', RB_map (fun z _ => hred z) rb, ?_, hk, hn, ?_⟩
      · simp [swapChild, hblk, e1, e2, hsw]
      · have hlist : (plug c (Sh.node Sh.nil a (Sh.node Sh.nil x Sh.nil))).addrs =
            ctxBefore c ++ a :: x :: ctxAfter c := by
          simp [plug_addrs]
        rw [Sh.addrs_map, hlist]
        exact filter_map_swp_adj (hlist ▸ wf.addrs_nodup)
      · rw [plug_map]
        exact Leaf_plug _ (by simp [swp_left, swp_right])
  | node ll x lr =>
    cases r with
    | nil =>
      obtain ⟨hx, rfl, rfl⟩ := red_leaf_of_bh (by simpa using e0) bl nl
      have hblk : m.red_ a = false := by
        rcases Bool.eq_false_or_eq_true (m.red_ a) with h | h
        · have := (hi h).1
          simp only [isBlk_node] at this
          rw [hx] at this
          exact absurd this (by simp)
        · exact h
      have e1 : m.left_ a = some x := wz.left_eq
      have e2 : m.right_ a = none := wz.right_eq
      obtain ⟨m', hsw, wf', hred, hk, hn⟩ :=
        SwapNodes_spec (y := x) wz (by simp)
      refine ⟨m', _, ?_, wf', RB_map (fun z _ => hred z) rb, ?_, hk, hn, ?_⟩
      · simp [swapChild, hblk, e1, e2, hsw]
      · have hlist : (plug c (Sh.node (Sh.node Sh.nil x Sh.nil) a Sh.nil)).addrs =
            ctxBefore c ++ x :: a :: ctxAfter c := by
          simp [plug_addrs]
        rw [Sh.addrs_map, hlist]
        exact filter_map_swp_adj' (hlist ▸ wf.addrs_nodup)
      · rw [plug_map]
        exact Leaf_plug _ (by simp [swp_left, swp_right])
    | node rl z rr =>
      rcases h1 with h | h <;> cases h

theorem fixLeaf_spec {m : Mem K} {hdr a : Nat} {sh : Sh} (wf : WF m hdr sh)
    (rb : RB m.red_ sh) (hl : Leaf a sh) :
    ∃ m3, fixLeaf m hdr a = some m3 ∧ ExtPost m m3 hdr a sh := by
  obtain ⟨c, rfl⟩ := hl.exists_plug
  have wz := wf.toZ
  have e1 : m.left_ a = none := wz.left_eq
  have e2 : m.right_ a = none := wz.right_eq
  rcases Bool.eq_false_or_eq_true (m.red_ a) with hb | hb
  · refine ⟨m, by simp [fixLeaf, hb], _, wf, rfl, hl, rb.noRedRed, rb.rootBlack, ?_, rfl, rfl⟩
    refine (Bal_congr (fun z _ => ?_)).2 rb.balanced
    by_cases hz : z = a
    · subst hz
      simp [hb]
    · simp [hz]
  · obtain ⟨m3, h3, post⟩ := ExtractFixup_spec wz hb rb
    exact ⟨m3, by simp [fixLeaf, hb, e1, e2, h3], post⟩

/-- `ExtractNode` on a node of the tree: it returns the node, and leaves a red-black tree on
the other nodes, in their previous order, with their keys. -/
theorem ExtractNode_spec {m : Mem K} {t : RBTree} {sh : Sh} {a : Nat} (h : Inv m t sh)
    (ha : a ∈ sh.addrs) :
    ∃ m' sh', ExtractNode m t (some a) = some (m', { t with size_ := t.size_ - 1 }, some a) ∧
      Inv m' { t with size_ := t.size_ - 1 } sh' ∧
      sh'.addrs = sh.addrs.filter (fun x => decide (x ≠ a)) ∧
      m'.key_ = m.key_ ∧ m'.next = m.next := by
  obtain ⟨m1, sh1, c1, l1, r1, hA, wf1, rb1, f1, k1, n1, rfl, hlr⟩ :=
    swapSucc_spec h.wf h.rb ha
  obtain ⟨m2, sh2, hB, wf2, rb2, f2, k2, n2, leaf2⟩ := swapChild_spec wf1 rb1 hlr
  obtain ⟨m3, hC, sh3, wf3, ead, leaf3, norr3, blk3, bal3, k3, n3⟩ := fixLeaf_spec wf2 rb2 leaf2
  obtain ⟨c3, rfl⟩ := leaf3.exists_plug
  have wz3 := wf3.toZ
  obtain ⟨m4, hD, wf4, hred4, k4, n4⟩ := unlink_spec wz3
  have hnd3 := wz3.nodup
  simp only [Sh.addrs_node, Sh.addrs_nil, List.nil_append, List.nodup_cons, List.mem_cons,
    List.cons_append, not_or] at hnd3
  obtain ⟨⟨hha, hhc⟩, hac, hcn⟩ := hnd3
  have hne : (some a : Ptr) ≠ End t := by
    simp only [End, ne_eq, Option.some.injEq]
    rintro rfl
    exact h.wf.hdr_not_mem ha
  have haddr : (plug c3 Sh.nil).addrs = sh.addrs.filter (fun x => decide (x ≠ a)) := by
    rw [← f1, ← f2, ← ead]
    have e : (plug c3 (Sh.node Sh.nil a Sh.nil)).addrs = ctxBefore c3 ++ a :: ctxAfter c3 := by
      simp [plug_addrs]
    rw [e, filter_ne_mid (e ▸ wf3.addrs_nodup)]
    simp [plug_addrs]
  have hmem : ∀ z ∈ (plug c3 Sh.nil).addrs, z ≠ a := by
    intro z hz
    rw [(plug_addrs_perm c3 Sh.nil).mem_iff] at hz
    simp only [Sh.addrs_nil, List.nil_append] at hz
    rintro rfl
    exact hac hz
  refine ⟨m4.InitNode a, plug c3 Sh.nil, ?_, ⟨wf4, ?_, ?_⟩, haddr, ?_, ?_⟩
  · rw [ExtractNode_eq]
    simp [hne, hA, hB, hC, hD]
  · show t.size_ - 1 = (plug c3 Sh.nil).addrs.length
    rw [haddr, filter_ne_length h.wf.addrs_nodup ha, h.size]
  · refine (RB_congr (fun z hz => hred4 z (hmem z hz))).2 ⟨?_, ?_, ?_⟩
    · rw [isBlk_plug]
      exact CtxRootBlk_of trivial ((isBlk_plug _ _ _).1 blk3)
    · rw [NoRR_plug]
      exact ⟨trivial, ((NoRR_plug _ _ _).1 norr3).2.1, Or.inr trivial⟩
    · rw [Bal_plug]
      refine ⟨trivial, ?_⟩
      have := ((Bal_plug _ _ _).1 bal3).2
      simpa [hac] using this
  · rw [k4, k3, k2, k1]
  · rw [n4, n3, n2, n1]

/-- `Erase` at a node of the tree. -/
theorem Erase_spec {m : Mem K} {t : RBTree} {sh : Sh} {a : Nat} (h : Inv m t sh)
    (ha : a ∈ sh.addrs) :
    ∃ m' sh', Erase m t (some a) = some (m', { t with size_ := t.size_ - 1 }) ∧
      Inv m' { t with size_ := t.size_ - 1 } sh' ∧
      sh'.addrs = sh.addrs.filter (fun x => decide (x ≠ a)) ∧
      m'.key_ = m.key_ ∧ m'.next = m.next := by
  obtain ⟨m', sh', he, inv, hl, hk, hn⟩ := ExtractNode_spec h ha
  have hne : (some a : Ptr) ≠ End t := by
    simp only [End, ne_eq, Option.some.injEq]
    rintro rfl
    exact h.wf.hdr_not_mem ha
  exact ⟨m', sh', by simp [Erase, hne, he], inv, hl, hk, hn⟩

/-- `Erase` at `End()` does nothing. -/
theorem Erase_end (m : Mem K) (t : RBTree) : Erase m t (End t) = some (m, t) := by
  simp [Erase]

theorem Inv_mk0 [Inhabited K] (m0 : Mem K) :
    Inv (RBTree.mk0 m0).1 (RBTree.mk0 m0).2 Sh.nil := by
  refine ⟨⟨?_, ?_, ?_, trivial, by simp, ?_⟩, rfl, ⟨trivial, trivial, trivial⟩⟩
  · simp [RBTree.mk0, Mem.newNode]
  · simp [RBTree.mk0, Mem.newNode]
  · simp [RBTree.mk0, Mem.newNode]
  · intro a ha
    simp only [Sh.addrs_nil, List.mem_singleton] at ha
    subst ha
    simp [RBTree.mk0, Mem.newNode]

theorem Inv.alloc {m : Mem K} {t : RBTree} {sh : Sh} (h : Inv m t sh) (key : K) :
    Inv (m.newNode key).1 t sh := by
  obtain ⟨wf1, hfresh⟩ := h.wf.newNode key
  have hne : ∀ a ∈ sh.addrs, a ≠ m.next := fun a ha e => hfresh (by simp [← e, ha])
  exact ⟨wf1, h.size, (RB_congr (fun a ha => by simp [Mem.newNode, hne a ha])).2 h.rb⟩

theorem Ordered.alloc_keys {lt : K → K → Bool} {m : Mem K} {t : RBTree} {sh : Sh}
    (h : Inv m t sh) (hord : Ordered lt m.key_ sh.addrs) (key : K) :
    Ordered lt (m.newNode key).1.key_ sh.addrs := by
  obtain ⟨-, hfresh⟩ := h.wf.newNode key
  have hne : ∀ a ∈ sh.addrs, a ≠ m.next := fun a ha e => hfresh (by simp [← e, ha])
  exact (Ordered_congr (fun a ha => by simp [Mem.newNode, hne a ha])).2 hord

/-- `InsertKey` keeps the invariant and the order of the keys. -/
theorem insert_step {lt : K → K → Bool} (hlt : SWO lt) {m : Mem K} {t : RBTree} {sh : Sh}
    (h : Inv m t sh) (hord : Ordered lt m.key_ sh.addrs) (key : K) (uniq : Bool) :
    ∃ m' t' it ok sh', InsertKey lt m t key uniq = some (m', t', it, ok) ∧ Inv m' t' sh' ∧
      Ordered lt m'.key_ sh'.addrs := by
  rcases InsertKey_spec lt key uniq h with ⟨-, n, c, l, r, e, -⟩ |
    ⟨m', sh', c, e, inv', hs, ha, hdir, -, hk, -⟩
  · exact ⟨_, _, _, _, sh, e, h.alloc key, Ordered.alloc_keys h hord key⟩
  · refine ⟨_, _, _, _, sh', e, inv', ?_⟩
    rw [ha, hk]
    obtain ⟨-, hfresh⟩ := h.wf.newNode key
    have hx : m.next ∉ (plug c Sh.nil).addrs := by
      rw [← hs]
      exact fun hx => hfresh (by simp [hx])
    exact Ordered_insert hlt hdir (hs ▸ hord) hx

/-- `Erase` keeps the invariant and the order of the keys. -/
theorem erase_step {lt : K → K → Bool} {m : Mem K} {t : RBTree} {sh : Sh}
    (h : Inv m t sh) (hord : Ordered lt m.key_ sh.addrs) {a : Nat} (ha : a ∈ sh.addrs) :
    ∃ m' t' sh', Erase m t (some a) = some (m', t') ∧ Inv m' t' sh' ∧
      Ordered lt m'.key_ sh'.addrs := by
  obtain ⟨m', sh', he, inv, hl, hk, -⟩ := Erase_spec h ha
  refine ⟨m', _, sh', he, inv, ?_⟩
  rw [hl, hk]
  exact List.Pairwise.sublist (List.filter_sublist _) hord

/-- Every reachable state is a well-formed red-black tree whose keys are in order. -/
theorem reach_inv [Inhabited K] {lt : K → K → Bool} (hlt : SWO lt) {m : Mem K} {t : RBTree}
    (hr : Reachable lt m t) : ∃ sh, Inv m t sh ∧ Ordered lt m.key_ sh.addrs := by
  induction hr with
  | init m0 => exact ⟨Sh.nil, Inv_mk0 m0, List.Pairwise.nil⟩
  | insert key uniq _ he ih =>
    obtain ⟨sh, inv, hord⟩ := ih
    obtain ⟨m2, t2, it2, ok2, sh2, e2, inv2, hord2⟩ := insert_step hlt inv hord key uniq
    rw [e2] at he
    simp only [Option.some.injEq, Prod.mk.injEq] at he
    obtain ⟨rfl, rfl, -, -⟩ := he
    exact ⟨sh2, inv2, hord2⟩
  | erase pos _ hpos he ih =>
    obtain ⟨sh, inv, hord⟩ := ih
    rcases hpos with rfl | ⟨L, a, hL, ha, rfl⟩
    · rw [Erase_end] at he
      simp only [Option.some.injEq, Prod.mk.injEq] at he
      obtain ⟨rfl, rfl⟩ := he
      exact ⟨sh, inv, hord⟩
    · rw [toList_spec inv] at hL
      simp only [Option.some.injEq] at hL
      subst hL
      obtain ⟨m2, t2, sh2, e2, inv2, hord2⟩ := erase_step inv hord ha
      rw [e2] at he
      simp only [Option.some.injEq, Prod.mk.injEq] at he
      obtain ⟨rfl, rfl⟩ := he
      exact ⟨sh2, inv2, hord2⟩

theorem swo_ltN : SWO ltN := by
  refine ⟨?_, ?_, ?_⟩
  · intro a
    simp [ltN]
  · intro a b c h1 h2
    simp only [ltN, decide_eq_true_eq] at *
    omega
  · intro a b c h1 h2 h3 h4
    simp only [ltN, decide_eq_false_iff_not] at *
    constructor <;> omega

theorem beq_ltN (a b : Nat) : (a == b) = equiv ltN a b := by
  by_cases h : a = b
  · subst h
    simp [equiv, ltN]
  · have h1 : (a == b) = false := by simpa using h
    rw [h1]
    simp only [equiv, ltN]
    rcases Nat.lt_or_gt_of_ne h with h2 | h2
    · simp [h2]
    · simp [h2]

theorem insertItems_reachable [Inhabited K] (lt : K → K → Bool) (uniq : Bool) :
    ∀ (ks : List K) (s s' : Mem K × RBTree), Reachable lt s.1 s.2 →
      insertItems lt uniq ks s = some s' → Reachable lt s'.1 s'.2 := by
  intro ks
  induction ks with
  | nil =>
    intro s s' hr he
    simp only [insertItems, Option.some.injEq] at he
    subst he
    exact hr
  | cons k ks ih =>
    intro s s' hr he
    simp only [insertItems, Option.bind_eq_bind] at he
    cases hins : InsertKey lt s.1 s.2 k uniq with
    | none => simp [hins] at he
    | some r =>
      rw [hins] at he
      simp only [Option.some_bind] at he
      refine ih (r.1, r.2.1) s' ?_ he
      exact @Reachable.insert K _ lt s.1 s.2 r.1 r.2.1 r.2.2.1 r.2.2.2 k uniq hr hins

theorem getD_of_isSome {α : Type} {o : Option α} (d : α) (h : o.isSome = true) :
    o = some (o.getD d) := by
  cases o with
  | none => simp at h
  | some x => rfl

set_option maxRecDepth 100000 in
theorem exSet_eq :
    insertItems ltN true [5, 3, 8, 1, 4] (RBTree.mk0 Mem.init) = some exSet :=
  getD_of_isSome _ (by decide)

set_option maxRecDepth 100000 in
theorem exDup_eq :
    insertItems ltN false [3, 3, 3] (RBTree.mk0 Mem.init) = some exDup :=
  getD_of_isSome _ (by decide)

theorem exSet_reachable : Reachable ltN exSet.1 exSet.2 :=
  insertItems_reachable ltN true _ _ _ (Reachable.init Mem.init) exSet_eq

theorem exDup_reachable : Reachable ltN exDup.1 exDup.2 :=
  insertItems_reachable ltN false _ _ _ (Reachable.init Mem.init) exDup_eq

set_option maxRecDepth 100000 in
theorem exSet_wf : WF exSet.1 exSet.2.header_ shSet := by
  refine ⟨by decide, by decide, by decide, ?_, by decide, by decide⟩
  refine ⟨by decide, by decide, by decide, ⟨by decide, by decide, by decide,
    ⟨by decide, by decide, by decide, trivial, trivial⟩,
    ⟨by decide, by decide, by decide, trivial, trivial⟩⟩,
    ⟨by decide, by decide, by decide, trivial, trivial⟩⟩

set_option maxRecDepth 100000 in
theorem exSet_inv : Inv exSet.1 exSet.2 shSet := by
  refine ⟨exSet_wf, by decide, ⟨?_, ?_, ?_⟩⟩
  · simp only [shSet, isBlk_node]
    decide
  · simp only [shSet, NoRR_node, NoRR_nil, isBlk_node, isBlk_nil, and_true]
    decide
  · simp only [shSet, Bal_node, Bal_nil, bh_node, bh_nil, and_true]
    decide

set_option maxRecDepth 100000 in
theorem exSet_ordered : Ordered ltN exSet.1.key_ shSet.addrs := by
  unfold Ordered
  decide

set_option maxRecDepth 100000 in
theorem exDup_wf : WF exDup.1 exDup.2.header_ shDup := by
  refine ⟨by decide, by decide, by decide, ?_, by decide, by decide⟩
  exact ⟨by decide, by decide, by decide, ⟨by decide, by decide, by decide, trivial, trivial⟩,
    ⟨by decide, by decide, by decide, trivial, trivial⟩⟩

set_option maxRecDepth 100000 in
theorem exDup_inv : Inv exDup.1 exDup.2 shDup := by
  refine ⟨exDup_wf, by decide, ⟨?_, ?_, ?_⟩⟩
  · simp only [shDup, isBlk_node]
    decide
  · simp only [shDup, NoRR_node, NoRR_nil, isBlk_node, isBlk_nil, and_true]
    decide
  · simp only [shDup, Bal_node, Bal_nil, bh_node, bh_nil, and_true]
    decide

set_option maxRecDepth 100000 in
theorem exDup_ordered : Ordered ltN exDup.1.key_ shDup.addrs := by
  unfold Ordered
  decide

theorem Inv.facts {m : Mem K} {t : RBTree} {sh : Sh} (h : Inv m t sh) :
    WF m t.header_ sh ∧ isBlk m.red_ sh ∧ NoRR m.red_ sh ∧ Bal m.red_ sh ∧
      ∃ b : Int, BlackHeight m t = some b ∧ 0 ≤ b :=
  ⟨h.wf, h.rb.rootBlack, h.rb.noRedRed, h.rb.balanced, _, BlackHeight_of_Inv h,
    Int.ofNat_nonneg _⟩

theorem weakOrder_of_ordered {lt : K → K → Bool} {k : Nat → K} :
    ∀ {sh : Sh}, Ordered lt k sh.addrs → WeakOrder lt k sh := by
  intro sh
  induction sh with
  | nil => intro _; trivial
  | node l a r ihl ihr =>
    intro h
    unfold Ordered at h ihl ihr
    simp only [Sh.addrs_node, List.pairwise_append, List.pairwise_cons, List.mem_cons] at h
    obtain ⟨hl, ⟨har, hr⟩, hlr⟩ := h
    exact ⟨fun x hx => hlr x hx a (Or.inl rfl), fun x hx => har x hx, ihl hl, ihr hr⟩

theorem strictLeft_of_weak {lt : K → K → Bool} {k : Nat → K} :
    ∀ {sh : Sh}, WeakOrder lt k sh → sh.addrs.Nodup →
      (∀ x ∈ sh.addrs, ∀ y ∈ sh.addrs, x ≠ y → equiv lt (k x) (k y) = false) →
      StrictLeft lt k sh := by
  intro sh
  induction sh with
  | nil => intro _ _ _; trivial
  | node l a r ihl ihr =>
    intro hw hnd hne
    obtain ⟨h1, h2, h3, h4⟩ := hw
    simp only [Sh.addrs_node, List.nodup_append, List.nodup_cons, List.disjoint_cons_right]
      at hnd
    obtain ⟨hl, ⟨har, hr⟩, hal, -⟩ := hnd
    refine ⟨?_, h2, ihl h3 hl (fun x hx y hy => hne x (by simp [hx]) y (by simp [hy])),
      ihr h4 hr (fun x hx y hy => hne x (by simp [hx]) y (by simp [hy]))⟩
    intro x hx
    have hxa : x ≠ a := fun e => hal (e ▸ hx)
    have he := hne x (by simp [hx]) a (by simp) hxa
    have hw := h1 x hx
    simp only [equiv, hw, Bool.not_false, Bool.and_true, Bool.not_eq_false'] at he
    exact he

theorem CtxFind.toDirLower {lt : K → K → Bool} (hlt : SWO lt) {k : Nat → K} {key : K}
    {c : List Frame} (h : CtxFind lt k key c) : CtxDir (fun a => !lt (k a) key) c := by
  induction c with
  | nil => trivial
  | cons f c ih =>
    cases f with
    | left a r =>
      refine ⟨?_, ih h.2⟩
      simp [hlt.asymm h.1]
    | right l a =>
      refine ⟨?_, ih h.2.2⟩
      simp [h.2.1]

/-- Where `Find` walked off the tree, no node holds a key equivalent to the one sought. -/
theorem find_excludes {lt : K → K → Bool} (hlt : SWO lt) {k : Nat → K} {key : K}
    {c : List Frame} (hf : CtxFind lt k key c) (hord : Ordered lt k (plug c Sh.nil).addrs) :
    ∀ n ∈ (plug c Sh.nil).addrs, equiv lt (k n) key = false := by
  rw [plug_addrs] at hord
  have hup := ctx_partition (upper_mono hlt k key) c [] hf.toDir hord
  have hlo := ctx_partition (lower_mono hlt k key) c [] (hf.toDirLower hlt) hord
  intro n hn
  rw [plug_addrs] at hn
  simp only [Sh.addrs_nil, List.append_nil, List.mem_append] at hn
  rcases hn with hn | hn
  · have := hlo.1 n hn
    simp only [Bool.not_eq_false'] at this
    simp [equiv, this]
  · have := hup.2 n hn
    simp only at this
    simp [equiv, this]

/-- Unique-mode insertion of a key the tree already holds. -/
theorem insert_existing_spec {lt : K → K → Bool} (hlt : SWO lt) {m : Mem K} {t : RBTree}
    {sh : Sh} (h : Inv m t sh) (hord : Ordered lt m.key_ sh.addrs) (key : K)
    (hex : ∃ n ∈ sh.addrs, equiv lt (m.key_ n) key = true) :
    ∃ n, n ∈ sh.addrs ∧ equiv lt (m.key_ n) key = true ∧
      InsertKey lt m t key true = some ((m.newNode key).1, t, some n, false) := by
  rcases InsertKey_spec lt key true h with ⟨-, n, c, l, r, e, hs, h1, h2, -⟩ |
    ⟨m', sh', c, e, inv', hs, ha, hdir, hfind, hk, -⟩
  · refine ⟨n, ?_, ?_, e⟩
    · rw [hs, plug_addrs]
      simp
    · simp [equiv, h1, h2]
  · exfalso
    obtain ⟨n, hn, he⟩ := hex
    have := find_excludes hlt (hfind rfl) (hs ▸ hord) n (hs ▸ hn)
    rw [he] at this
    exact absurd this (by decide)

/-- Unique-mode insertion of a key the tree does not hold. -/
theorem insert_new_spec (lt : K → K → Bool) {m : Mem K} {t : RBTree} {sh : Sh}
    (h : Inv m t sh) (key : K) (hno : ∀ n ∈ sh.addrs, equiv lt (m.key_ n) key = false) :
    ∃ m' sh' c, InsertKey lt m t key true =
        some (m', { t with size_ := t.size_ + 1 }, some m.next, true) ∧
      Inv m' { t with size_ := t.size_ + 1 } sh' ∧ sh = plug c Sh.nil ∧
      sh'.addrs = (plug c (Sh.node Sh.nil m.next Sh.nil)).addrs ∧
      m'.key_ = upd m.key_ m.next key ∧ m.next ∉ sh.addrs := by
  have hfresh : m.next ∉ sh.addrs := fun hx => (h.wf.newNode key).2 (by simp [hx])
  rcases InsertKey_spec lt key true h with ⟨-, n, c, l, r, e, hs, h1, h2, -⟩ |
    ⟨m', sh', c, e, inv', hs, ha, hdir, hfind, hk, -⟩
  · exfalso
    have hn : n ∈ sh.addrs := by
      rw [hs, plug_addrs]
      simp
    have := hno n hn
    simp [equiv, h1, h2] at this
  · exact ⟨m', sh', c, e, inv', hs, ha, hk, hfresh⟩

/-- The keys in iteration order before and after an insertion at the hole of `c`. -/
theorem keys_insert {m m' : Mem K} {t t' : RBTree} {sh sh' : Sh} {c : List Frame} {key : K}
    (h : Inv m t sh) (h' : Inv m' t' sh') (hs : sh = plug c Sh.nil)
    (ha : sh'.addrs = (plug c (Sh.node Sh.nil m.next Sh.nil)).addrs)
    (hk : m'.key_ = upd m.key_ m.next key) (hfresh : m.next ∉ sh.addrs) :
    keys m t = some ((ctxBefore c).map m.key_ ++ (ctxAfter c).map m.key_) ∧
      keys m' t' = some ((ctxBefore c).map m.key_ ++ key :: (ctxAfter c).map m.key_) := by
  rw [keys_spec h, keys_spec h', ha, hs, hk, plug_addrs, plug_addrs]
  rw [hs, plug_addrs] at hfresh
  simp only [Sh.addrs_nil, List.append_nil, List.mem_append, not_or] at hfresh
  have e1 : (ctxBefore c).map (upd m.key_ m.next key) = (ctxBefore c).map m.key_ :=
    List.map_congr_left (fun a ha => upd_ne _ _ (fun e => hfresh.1 (e ▸ ha)))
  have e2 : (ctxAfter c).map (upd m.key_ m.next key) = (ctxAfter c).map m.key_ :=
    List.map_congr_left (fun a ha => upd_ne _ _ (fun e => hfresh.2 (e ▸ ha)))
  simp [e1, e2]

/-- Inserting pairwise inequivalent items one after another succeeds every time. -/
theorem insertItems_size (lt : K → K → Bool) :
    ∀ (items : List K) (s : Mem K × RBTree) (sh : Sh), Inv s.1 s.2 sh →
      items.Pairwise (fun a b => equiv lt a b = false) →
      (∀ k ∈ items, ∀ n ∈ sh.addrs, equiv lt (s.1.key_ n) k = false) →
      ∃ s', insertItems lt true items s = some s' ∧ s'.2.size_ = s.2.size_ + items.length := by
  intro items
  induction items with
  | nil =>
    intro s sh _ _ _
    exact ⟨s, rfl, rfl⟩
  | cons k ks ih =>
    intro s sh h hp hno
    rw [List.pairwise_cons] at hp
    obtain ⟨m', sh', c, e, inv', hs, ha, hk, hfresh⟩ :=
      insert_new_spec lt h k (hno k (by simp))
    have hno' : ∀ k' ∈ ks, ∀ n ∈ sh'.addrs, equiv lt (m'.key_ n) k' = false := by
      intro k' hk' n hn
      rw [ha, plug_addrs] at hn
      rw [hs, plug_addrs] at hfresh
      simp only [Sh.addrs_nil, List.append_nil, List.mem_append, not_or] at hfresh
      have hmem : ∀ z, z ∈ ctxBefore c ∨ z ∈ ctxAfter c → z ∈ sh.addrs := by
        intro z hz
        rw [hs, plug_addrs]
        simpa using hz
      simp only [Sh.addrs_node, Sh.addrs_nil, List.nil_append, List.mem_append,
        List.mem_cons, List.mem_singleton, List.not_mem_nil, or_false] at hn
      rcases hn with (hn | hn) | hn
      · have : n ≠ s.1.next := fun e => hfresh.1 (e ▸ hn)
        rw [hk, upd_ne _ _ this]
        exact hno k' (by simp [hk']) n (hmem n (Or.inl hn))
      · subst hn
        rw [hk, upd_same]
        exact hp.1 k' hk'
      · have : n ≠ s.1.next := fun e => hfresh.2 (e ▸ hn)
        rw [hk, upd_ne _ _ this]
        exact hno k' (by simp [hk']) n (hmem n (Or.inr hn))
    obtain ⟨s', e', hsz⟩ := ih (m', { s.2 with size_ := s.2.size_ + 1 }) sh' inv' hp.2 hno'
    refine ⟨s', ?_, ?_⟩
    · simp only [insertItems, e, Option.bind_eq_bind, Option.some_bind]
      exact e'
    · rw [hsz]
      simp only [List.length_cons]
      omega

theorem equiv_self {lt : K → K → Bool} (hlt : SWO lt) (a : K) : equiv lt a a = true := by
  simp [equiv, hlt.irrefl]

theorem equiv_comm (lt : K → K → Bool) (a b : K) : equiv lt a b = equiv lt b a := by
  simp [equiv, Bool.and_comm]

/-- C1: for every well-formed tree that satisfies the three red-black invariants and every
key, `InsertKey` in either uniqueness mode returns and leaves a well-formed tree in which the
root is black, no red node has a red child and every path from the root to a null link
crosses the same number of black nodes; `BlackHeight()` then is non-negative (not -1). -/
theorem C1_insert_keeps_red_black (lt : K → K → Bool) {m : Mem K} {t : RBTree} {sh : Sh}
    (key : K) (uniq : Bool) (h : Inv m t sh) :
    ∃ m' t' it ok sh', InsertKey lt m t key uniq = some (m', t', it, ok) ∧
      WF m' t'.header_ sh' ∧ isBlk m'.red_ sh' ∧ NoRR m'.red_ sh' ∧ Bal m'.red_ sh' ∧
      ∃ b : Int, BlackHeight m' t' = some b ∧ 0 ≤ b := by
  rcases InsertKey_spec lt key uniq h with ⟨-, n, c, l, r, e, -⟩ | ⟨m', sh', c, e, inv', -⟩
  · exact ⟨_, _, _, _, sh, e, (h.alloc key).facts⟩
  · exact ⟨_, _, _, _, sh', e, inv'.facts⟩

/-- Witness of C1: inserting 7 into the set `{5, 3, 8, 1, 4}`. -/
theorem C1_witness : Inv exSet.1 exSet.2 shSet ∧
    ∃ m' t' it ok sh', InsertKey ltN exSet.1 exSet.2 7 true = some (m', t', it, ok) ∧
      WF m' t'.header_ sh' ∧ isBlk m'.red_ sh' ∧ NoRR m'.red_ sh' ∧ Bal m'.red_ sh' ∧
      ∃ b : Int, BlackHeight m' t' = some b ∧ 0 ≤ b :=
  ⟨exSet_inv, C1_insert_keeps_red_black ltN 7 true exSet_inv⟩

/-- C2: for every well-formed tree that satisfies the red-black invariants and every node `a`
of it, `Erase` at `a` returns and leaves a well-formed tree in which the root (if any) is
black, no red node has a red child and every path from the root to a null link crosses the
same number of black nodes; the other nodes stay, in their order. -/
theorem C2_erase_keeps_red_black {m : Mem K} {t : RBTree} {sh : Sh} {a : Nat}
    (h : Inv m t sh) (ha : a ∈ sh.addrs) :
    ∃ m' t' sh', Erase m t (some a) = some (m', t') ∧
      WF m' t'.header_ sh' ∧ isBlk m'.red_ sh' ∧ NoRR m'.red_ sh' ∧ Bal m'.red_ sh' ∧
      (∃ b : Int, BlackHeight m' t' = some b ∧ 0 ≤ b) ∧
      sh'.addrs = sh.addrs.filter (fun x => decide (x ≠ a)) := by
  obtain ⟨m', sh', he, inv, hl, -, -⟩ := Erase_spec h ha
  obtain ⟨f1, f2, f3, f4, f5⟩ := inv.facts
  exact ⟨m', _, sh', he, f1, f2, f3, f4, f5, hl⟩

/-- Witness of C2: erasing the node of key 3 (two children) from the set `{5, 3, 8, 1, 4}`. -/
theorem C2_witness : Inv exSet.1 exSet.2 shSet ∧ 2 ∈ shSet.addrs ∧
    ∃ m' t' sh', Erase exSet.1 exSet.2 (some 2) = some (m', t') ∧
      WF m' t'.header_ sh' ∧ isBlk m'.red_ sh' ∧ NoRR m'.red_ sh' ∧ Bal m'.red_ sh' ∧
      (∃ b : Int, BlackHeight m' t' = some b ∧ 0 ≤ b) ∧
      sh'.addrs = shSet.addrs.filter (fun x => decide (x ≠ 2)) :=
  ⟨exSet_inv, by decide, C2_erase_keeps_red_black exSet_inv (by decide)⟩

set_option maxRecDepth 100000 in
/-- C3: in every state reached from the empty tree by `InsertKey` (either mode) and `Erase`,
the iteration from `Begin()` to `End()` returns, and no key it yields is less than a key
yielded before it (in particular than the one right before it); the unique inserts
5, 3, 8, 1, 4 iterate as 1, 3, 4, 5, 8. -/
theorem C3_iteration_sorted [Inhabited K] {lt : K → K → Bool} (hlt : SWO lt) {m : Mem K}
    {t : RBTree} (hr : Reachable lt m t) :
    (∃ ks, keys m t = some ks ∧ ks.Pairwise (fun a b => lt b a = false) ∧
      ks.Chain' (fun a b => lt b a = false)) ∧
    ((insertItems ltN true [5, 3, 8, 1, 4] (RBTree.mk0 Mem.init)).bind
      (fun s => keys s.1 s.2)) = some [1, 3, 4, 5, 8] := by
  obtain ⟨sh, inv, hord⟩ := reach_inv hlt hr
  have hp : (sh.addrs.map m.key_).Pairwise (fun a b => lt b a = false) :=
    List.pairwise_map.2 hord
  exact ⟨⟨_, keys_spec inv, hp, hp.chain'⟩, by decide⟩

/-- Witness of C3: the set `{5, 3, 8, 1, 4}`. -/
theorem C3_witness : SWO ltN ∧ Reachable ltN exSet.1 exSet.2 ∧
    ((∃ ks, keys exSet.1 exSet.2 = some ks ∧ ks.Pairwise (fun a b => ltN b a = false) ∧
      ks.Chain' (fun a b => ltN b a = false)) ∧
    ((insertItems ltN true [5, 3, 8, 1, 4] (RBTree.mk0 Mem.init)).bind
      (fun s => keys s.1 s.2)) = some [1, 3, 4, 5, 8]) :=
  ⟨swo_ltN, exSet_reachable, C3_iteration_sorted swo_ltN exSet_reachable⟩

set_option maxRecDepth 100000 in
/-- Counterexample to C4 as stated: in the multiset `{3, 3, 3}` the root (address 2, key 3)
has the left child at address 1 with the equal key 3, which is not less than the root's. -/
theorem C4_counterexample : Reachable ltN exDup.1 exDup.2 ∧
    WF exDup.1 exDup.2.header_ shDup ∧ exDup.1.left_ 2 = some 1 ∧ exDup.1.key_ 1 = 3 ∧
    exDup.1.key_ 2 = 3 ∧ ¬ StrictLeft ltN exDup.1.key_ shDup := by
  refine ⟨exDup_reachable, exDup_wf, by decide, by decide, by decide, ?_⟩
  intro h
  have h1 := h.1 1 (by decide)
  revert h1
  decide

/-- C4 (amended): in every reachable state, at every node no key of the left subtree is
greater than the node's key and no key of the right subtree is less than it; where the tree
holds no two equivalent keys, every key of a left subtree is less than the node's key. -/
theorem C4_weak_order [Inhabited K] {lt : K → K → Bool} (hlt : SWO lt) {m : Mem K}
    {t : RBTree} (hr : Reachable lt m t) :
    ∃ sh, WF m t.header_ sh ∧ WeakOrder lt m.key_ sh ∧
      ((∀ x ∈ sh.addrs, ∀ y ∈ sh.addrs, x ≠ y → equiv lt (m.key_ x) (m.key_ y) = false) →
        StrictLeft lt m.key_ sh) := by
  obtain ⟨sh, inv, hord⟩ := reach_inv hlt hr
  have hw := weakOrder_of_ordered hord
  exact ⟨sh, inv.wf, hw, strictLeft_of_weak hw inv.wf.addrs_nodup⟩

/-- Witness of C4 (amended): the multiset `{3, 3, 3}`. -/
theorem C4_witness : SWO ltN ∧ Reachable ltN exDup.1 exDup.2 ∧
    ∃ sh, WF exDup.1 exDup.2.header_ sh ∧ WeakOrder ltN exDup.1.key_ sh ∧
      ((∀ x ∈ sh.addrs, ∀ y ∈ sh.addrs, x ≠ y →
          equiv ltN (exDup.1.key_ x) (exDup.1.key_ y) = false) →
        StrictLeft ltN exDup.1.key_ sh) :=
  ⟨swo_ltN, exDup_reachable, C4_weak_order swo_ltN exDup_reachable⟩

/-- C5: for every well-formed ordered tree and every key to which a key of the tree is
equivalent, `InsertKey(key, true)` returns the iterator to a node holding an equivalent key
and `false`, and leaves the tree as it was: the same tree object (size), the same nodes in
the same shape, and every link, colour and key of the memory allocated before untouched. -/
theorem C5_unique_insert_existing {lt : K → K → Bool} (hlt : SWO lt) {m : Mem K}
    {t : RBTree} {sh : Sh} (h : Inv m t sh) (hord : Ordered lt m.key_ sh.addrs) (key : K)
    (hex : ∃ n ∈ sh.addrs, equiv lt (m.key_ n) key = true) :
    ∃ n m', n ∈ sh.addrs ∧ equiv lt (m.key_ n) key = true ∧
      InsertKey lt m t key true = some (m', t, some n, false) ∧ Inv m' t sh ∧
      keys m' t = keys m t ∧
      ∀ a, a < m.next → m'.parent_ a = m.parent_ a ∧ m'.left_ a = m.left_ a ∧
        m'.right_ a = m.right_ a ∧ m'.red_ a = m.red_ a ∧ m'.key_ a = m.key_ a := by
  obtain ⟨n, hn, he, e⟩ := insert_existing_spec hlt h hord key hex
  refine ⟨n, _, hn, he, e, h.alloc key, ?_, ?_⟩
  · rw [keys_spec (h.alloc key), keys_spec h]
    congr 1
    refine List.map_congr_left (fun a ha => ?_)
    have : a ≠ m.next := fun e' => (h.wf.newNode key).2 (by simp [← e', ha])
    simp [Mem.newNode, this]
  · intro a ha
    have : a ≠ m.next := by omega
    simp [Mem.newNode, this]

/-- Witness of C5: inserting 3 again into the set `{5, 3, 8, 1, 4}`. -/
theorem C5_witness : SWO ltN ∧ Inv exSet.1 exSet.2 shSet ∧
    Ordered ltN exSet.1.key_ shSet.addrs ∧
    (∃ n ∈ shSet.addrs, equiv ltN (exSet.1.key_ n) 3 = true) ∧
    ∃ n m', n ∈ shSet.addrs ∧ equiv ltN (exSet.1.key_ n) 3 = true ∧
      InsertKey ltN exSet.1 exSet.2 3 true = some (m', exSet.2, some n, false) ∧
      Inv m' exSet.2 shSet ∧ keys m' exSet.2 = keys exSet.1 exSet.2 ∧
      ∀ a, a < exSet.1.next → m'.parent_ a = exSet.1.parent_ a ∧
        m'.left_ a = exSet.1.left_ a ∧ m'.right_ a = exSet.1.right_ a ∧
        m'.red_ a = exSet.1.red_ a ∧ m'.key_ a = exSet.1.key_ a :=
  ⟨swo_ltN, exSet_inv, exSet_ordered, ⟨2, by decide, by decide⟩,
    C5_unique_insert_existing swo_ltN exSet_inv exSet_ordered 3 ⟨2, by decide, by decide⟩⟩

/-- C6: for every well-formed tree and every key to which no key of the tree is equivalent,
`InsertKey(key, true)` returns the iterator to a node holding `key` and `true`, `Size()` grows
by one and the keys in iteration order are the old ones with `key` put in; and inserting `N`
pairwise inequivalent items into an empty tree gives `Size() == N`. -/
theorem C6_unique_insert_new [Inhabited K] (lt : K → K → Bool) {m : Mem K} {t : RBTree}
    {sh : Sh} (h : Inv m t sh) (key : K)
    (hno : ∀ n ∈ sh.addrs, equiv lt (m.key_ n) key = false) (m0 : Mem K) (items : List K)
    (hitems : items.Pairwise (fun a b => equiv lt a b = false)) :
    (∃ m' t' it A B, InsertKey lt m t key true = some (m', t', some it, true) ∧
      m'.key_ it = key ∧ Size t' = Size t + 1 ∧ keys m t = some (A ++ B) ∧
      keys m' t' = some (A ++ key :: B)) ∧
    (∃ s, insertItems lt true items (RBTree.mk0 m0) = some s ∧ Size s.2 = items.length) := by
  constructor
  · obtain ⟨m', sh', c, e, inv', hs, ha, hk, hfresh⟩ := insert_new_spec lt h key hno
    obtain ⟨k1, k2⟩ := keys_insert h inv' hs ha hk hfresh
    exact ⟨m', _, m.next, _, _, e, by rw [hk, upd_same], rfl, k1, k2⟩
  · obtain ⟨s, e, hsz⟩ := insertItems_size lt items (RBTree.mk0 m0) Sh.nil (Inv_mk0 m0) hitems
      (fun _ _ n hn => by simp at hn)
    refine ⟨s, e, ?_⟩
    rw [Size, hsz]
    simp [RBTree.mk0]

set_option maxRecDepth 100000 in
/-- Witness of C6: inserting 7 into the set `{5, 3, 8, 1, 4}`, and building that set. -/
theorem C6_witness : Inv exSet.1 exSet.2 shSet ∧
    (∀ n ∈ shSet.addrs, equiv ltN (exSet.1.key_ n) 7 = false) ∧
    [5, 3, 8, 1, 4].Pairwise (fun a b => equiv ltN a b = false) ∧
    ((∃ m' t' it A B, InsertKey ltN exSet.1 exSet.2 7 true = some (m', t', some it, true) ∧
      m'.key_ it = 7 ∧ Size t' = Size exSet.2 + 1 ∧ keys exSet.1 exSet.2 = some (A ++ B) ∧
      keys m' t' = some (A ++ 7 :: B)) ∧
    (∃ s, insertItems ltN true [5, 3, 8, 1, 4] (RBTree.mk0 Mem.init) = some s ∧
      Size s.2 = [5, 3, 8, 1, 4].length)) :=
  ⟨exSet_inv, by decide, by decide,
    C6_unique_insert_new ltN exSet_inv 7 (by decide) Mem.init [5, 3, 8, 1, 4] (by decide)⟩

/-- C8: in every reachable state, over a key type whose `==` agrees with the equivalence of
the comparator, stepping with `++` from `Lower_Bound(key)` until `Upper_Bound(key)` visits
exactly the elements of the tree equivalent to `key`, in iteration order, and the number of
steps is `multiset::count(key)`, the number of elements equivalent to `key`. -/
theorem C8_equal_range [BEq K] [Inhabited K] {lt : K → K → Bool} (hlt : SWO lt)
    (hbeq : ∀ a b : K, (a == b) = equiv lt a b) {m : Mem K} {t : RBTree}
    (hr : Reachable lt m t) (key : K) :
    ∃ L lo hi, toList m t = some L ∧ Lower_Bound lt m t key = some lo ∧
      Upper_Bound lt m t key = some hi ∧
      iterFrom m hi (m.next + 1) lo = some (L.filter (fun a => equiv lt (m.key_ a) key)) ∧
      count lt m t key = some (L.filter (fun a => equiv lt (m.key_ a) key)).length := by
  obtain ⟨sh, inv, hord⟩ := reach_inv hlt hr
  obtain ⟨lo, hi, h1, h2, h3, h4⟩ := count_spec hlt hbeq inv hord key
  exact ⟨sh.addrs, lo, hi, toList_spec inv, h1, h2, h3, h4⟩

/-- Witness of C8: the key 3 in the multiset `{3, 3, 3}`. -/
theorem C8_witness : SWO ltN ∧ (∀ a b : Nat, (a == b) = equiv ltN a b) ∧
    Reachable ltN exDup.1 exDup.2 ∧
    ∃ L lo hi, toList exDup.1 exDup.2 = some L ∧ Lower_Bound ltN exDup.1 exDup.2 3 = some lo ∧
      Upper_Bound ltN exDup.1 exDup.2 3 = some hi ∧
      iterFrom exDup.1 hi (exDup.1.next + 1) lo =
        some (L.filter (fun a => equiv ltN (exDup.1.key_ a) 3)) ∧
      count ltN exDup.1 exDup.2 3 =
        some (L.filter (fun a => equiv ltN (exDup.1.key_ a) 3)).length :=
  ⟨swo_ltN, beq_ltN, exDup_reachable, C8_equal_range swo_ltN beq_ltN exDup_reachable 3⟩

/-- C9: in every reachable state and for every query key, `Lower_Bound(key)` returns the
iterator to the first element in iteration order whose key is not less than the query, and
`End()` if there is none; it returns `End()` exactly when every element is less than the
query (so also when the tree is empty). -/
theorem C9_lower_bound [Inhabited K] {lt : K → K → Bool} (hlt : SWO lt) {m : Mem K}
    {t : RBTree} (hr : Reachable lt m t) (key : K) :
    ∃ L, toList m t = some L ∧
      Lower_Bound lt m t key =
        some (some ((L.find? (fun a => !lt (m.key_ a) key)).getD t.header_)) ∧
      (Lower_Bound lt m t key = some (End t) ↔ ∀ a ∈ L, lt (m.key_ a) key = true) := by
  obtain ⟨sh, inv, hord⟩ := reach_inv hlt hr
  have hlb := Lower_Bound_spec hlt inv hord key
  refine ⟨sh.addrs, toList_spec inv, hlb, ?_⟩
  rw [hlb]
  simp only [End, Option.some.injEq]
  constructor
  · intro e
    cases hf : sh.addrs.find? (fun a => !lt (m.key_ a) key) with
    | none =>
      intro a ha
      have := List.find?_eq_none.1 hf a ha
      simpa using this
    | some x =>
      rw [hf] at e
      simp only [Option.getD_some] at e
      exact absurd (e ▸ List.mem_of_find?_eq_some hf) inv.wf.hdr_not_mem
  · intro hall
    have : sh.addrs.find? (fun a => !lt (m.key_ a) key) = none :=
      List.find?_eq_none.2 (fun a ha => by simp [hall a ha])
    rw [this]
    rfl

/-- Witness of C9: the query 4 in the multiset `{3, 3, 3}`. -/
theorem C9_witness : SWO ltN ∧ Reachable ltN exDup.1 exDup.2 ∧
    ∃ L, toList exDup.1 exDup.2 = some L ∧
      Lower_Bound ltN exDup.1 exDup.2 4 =
        some (some ((L.find? (fun a => !ltN (exDup.1.key_ a) 4)).getD exDup.2.header_)) ∧
      (Lower_Bound ltN exDup.1 exDup.2 4 = some (End exDup.2) ↔
        ∀ a ∈ L, ltN (exDup.1.key_ a) 4 = true) :=
  ⟨swo_ltN, exDup_reachable, C9_lower_bound swo_ltN exDup_reachable 4⟩

/-- C10: in every reachable state and for every query key, `Upper_Bound(key)` returns the
iterator to the first element in iteration order whose key is greater than the query, and
`End()` if there is none; it returns `End()` exactly when no element is greater than the
query. -/
theorem C10_upper_bound [Inhabited K] {lt : K → K → Bool} (hlt : SWO lt) {m : Mem K}
    {t : RBTree} (hr : Reachable lt m t) (key : K) :
    ∃ L, toList m t = some L ∧
      Upper_Bound lt m t key =
        some (some ((L.find? (fun a => lt key (m.key_ a))).getD t.header_)) ∧
      (Upper_Bound lt m t key = some (End t) ↔ ∀ a ∈ L, lt key (m.key_ a) = false) := by
  obtain ⟨sh, inv, hord⟩ := reach_inv hlt hr
  have hub := Upper_Bound_spec hlt inv hord key
  refine ⟨sh.addrs, toList_spec inv, hub, ?_⟩
  rw [hub]
  simp only [End, Option.some.injEq]
  constructor
  · intro e
    cases hf : sh.addrs.find? (fun a => lt key (m.key_ a)) with
    | none =>
      intro a ha
      have := List.find?_eq_none.1 hf a ha
      simpa using this
    | some x =>
      rw [hf] at e
      simp only [Option.getD_some] at e
      exact absurd (e ▸ List.mem_of_find?_eq_some hf) inv.wf.hdr_not_mem
  · intro hall
    have : sh.addrs.find? (fun a => lt key (m.key_ a)) = none :=
      List.find?_eq_none.2 (fun a ha => by simp [hall a ha])
    rw [this]
    rfl

/-- Witness of C10: the query 2 in the set `{5, 3, 8, 1, 4}`. -/
theorem C10_witness : SWO ltN ∧ Reachable ltN exSet.1 exSet.2 ∧
    ∃ L, toList exSet.1 exSet.2 = some L ∧
      Upper_Bound ltN exSet.1 exSet.2 2 =
        some (some ((L.find? (fun a => ltN 2 (exSet.1.key_ a))).getD exSet.2.header_)) ∧
      (Upper_Bound ltN exSet.1 exSet.2 2 = some (End exSet.2) ↔
        ∀ a ∈ L, ltN 2 (exSet.1.key_ a) = false) :=
  ⟨swo_ltN, exSet_reachable, C10_upper_bound swo_ltN exSet_reachable 2⟩

theorem equiv_trans {lt : K → K → Bool} (hlt : SWO lt) {a b c : K}
    (hab : equiv lt a b = true) (hbc : equiv lt b c = true) : equiv lt a c = true := by
  simp only [equiv, Bool.and_eq_true, Bool.not_eq_true'] at hab hbc ⊢
  exact hlt.incomp a b c hab.1 hab.2 hbc.1 hbc.2

/-- The private `Find` from the root of a well-formed tree. -/
theorem FindFrom_root (lt : K → K → Bool) {m : Mem K} {hdr : Nat} {sh : Sh} (key : K)
    (hwf : WF m hdr sh) :
    ∃ ret n, FindFrom lt m hdr key (Root m hdr) = some (ret, n) ∧
      FindRes lt m.key_ key sh (-1) hdr ret n := by
  have hlt := hwf.depth_lt
  obtain ⟨ret, n, hres, res⟩ := FindLoop_spec lt m key sh m.next (-1) hdr (some hdr) hwf.rep
    (by have := sh.depth_le_length; omega) (by decide)
  refine ⟨ret, n, ?_, res⟩
  unfold FindFrom Root
  rw [hwf.root]
  exact hres

/-- A key the tree does not hold is not found, whatever the order of the keys. -/
theorem Find_absent (lt : K → K → Bool) {m : Mem K} {t : RBTree} {sh : Sh} (key : K)
    (hwf : WF m t.header_ sh) (hno : ∀ n ∈ sh.addrs, equiv lt (m.key_ n) key = false) :
    Find lt m t key = some (End t) ∧ Contains lt m t key = some false := by
  obtain ⟨ret, n, e, res⟩ := FindFrom_root lt key hwf
  rcases res with ⟨-, d, l, r, hs, -, e1, e2⟩ | ⟨h0, -⟩
  · exfalso
    have hn : n ∈ sh.addrs := by
      rw [hs, plug_addrs]
      simp
    have := hno n hn
    simp [equiv, e1, e2] at this
  · simp [Find, Contains, e, h0, End]

/-- The public `Find` and `Contains` on a well-formed tree whose keys are in order. -/
theorem Find_spec {lt : K → K → Bool} (hlt : SWO lt) {m : Mem K} {t : RBTree} {sh : Sh}
    (key : K) (hwf : WF m t.header_ sh) (hord : Ordered lt m.key_ sh.addrs) :
    (∃ n, n ∈ sh.addrs ∧ equiv lt (m.key_ n) key = true ∧ Find lt m t key = some (some n) ∧
        Contains lt m t key = some true) ∨
    ((∀ n ∈ sh.addrs, equiv lt (m.key_ n) key = false) ∧ Find lt m t key = some (End t) ∧
        Contains lt m t key = some false) := by
  obtain ⟨ret, n, e, res⟩ := FindFrom_root lt key hwf
  rcases res with ⟨h0, d, l, r, hs, -, e1, e2⟩ | ⟨h0, d, hs, hc, -⟩
  · left
    refine ⟨n, ?_, ?_, ?_, ?_⟩
    · rw [hs, plug_addrs]
      simp
    · simp [equiv, e1, e2]
    · simp [Find, e, h0]
    · simp [Contains, e, h0]
  · right
    have hno := find_excludes hlt hc (hs ▸ hord)
    rw [← hs] at hno
    exact ⟨hno, Find_absent lt key hwf hno⟩

theorem pairwise_insert_mid {α : Type} {R : α → α → Prop} {A B : List α} {x : α}
    (h : (A ++ B).Pairwise R) (hl : ∀ a ∈ A, R a x) (hr : ∀ b ∈ B, R x b) :
    (A ++ x :: B).Pairwise R := by
  rw [List.pairwise_append] at h ⊢
  obtain ⟨hA, hB, hAB⟩ := h
  refine ⟨hA, List.pairwise_cons.2 ⟨hr, hB⟩, ?_⟩
  intro a ha b hb
  rcases List.mem_cons.1 hb with rfl | hb
  · exact hl a ha
  · exact hAB a ha b hb

theorem ReachableUniq.reachable [Inhabited K] {lt : K → K → Bool} {m : Mem K} {t : RBTree}
    (h : ReachableUniq lt m t) : Reachable lt m t := by
  induction h with
  | init m0 => exact Reachable.init m0
  | insert key _ he ih => exact Reachable.insert key true ih he
  | erase pos _ hpos he ih => exact Reachable.erase pos ih hpos he

/-- A tree built in unique mode holds no two equivalent keys. -/
theorem reachUniq_inv [Inhabited K] {lt : K → K → Bool} (hlt : SWO lt) {m : Mem K}
    {t : RBTree} (hr : ReachableUniq lt m t) :
    ∃ sh, Inv m t sh ∧ Ordered lt m.key_ sh.addrs ∧ NoEquiv lt m.key_ sh.addrs := by
  induction hr with
  | init m0 => exact ⟨Sh.nil, Inv_mk0 m0, List.Pairwise.nil, List.Pairwise.nil⟩
  | @insert m t m' t' it ok key _ he ih =>
    obtain ⟨sh, inv, hord, hne⟩ := ih
    rcases InsertKey_spec lt key true inv with ⟨-, n, c, l, r, e, hs, h1, h2, -⟩ |
      ⟨m2, sh2, c, e, inv2, hs, ha, hdir, hfind, hk, -⟩
    · rw [e] at he
      simp only [Option.some.injEq, Prod.mk.injEq] at he
      obtain ⟨rfl, rfl, -, -⟩ := he
      exact ⟨sh, inv.alloc key, Ordered.alloc_keys inv hord key, by
        unfold NoEquiv at hne ⊢
        refine hne.imp_of_mem ?_
        intro a b ha hb hab
        have hfresh : m.next ∉ sh.addrs := fun hx => (inv.wf.newNode key).2 (by simp [hx])
        have ha' : a ≠ m.next := fun e => hfresh (e ▸ ha)
        have hb' : b ≠ m.next := fun e => hfresh (e ▸ hb)
        simpa [Mem.newNode, upd_apply, ha', hb'] using hab⟩
    · rw [e] at he
      simp only [Option.some.injEq, Prod.mk.injEq] at he
      obtain ⟨rfl, rfl, -, -⟩ := he
      have hfresh : m.next ∉ sh.addrs := fun hx => (inv.wf.newNode key).2 (by simp [hx])
      have hex := find_excludes hlt (hfind rfl) (hs ▸ hord)
      rw [← hs] at hex
      refine ⟨sh2, inv2, ?_, ?_⟩
      · rw [ha, hk]
        exact Ordered_insert hlt hdir (hs ▸ hord) (hs ▸ hfresh)
      · unfold NoEquiv at hne ⊢
        rw [ha, hk, plug_addrs]
        rw [hs, plug_addrs] at hne hex hfresh
        simp only [Sh.addrs_nil, List.append_nil, Sh.addrs_node, List.nil_append,
          List.mem_append, not_or, List.append_assoc, List.cons_append] at hne hex hfresh ⊢
        have hold : (ctxBefore c ++ ctxAfter c).Pairwise
            (fun a b => equiv lt (upd m.key_ m.next key a) (upd m.key_ m.next key b) = false) := by
          refine hne.imp_of_mem ?_
          intro a b ha hb hab
          have ha' : a ≠ m.next := by
            rintro rfl
            rcases List.mem_append.1 ha with h | h
            · exact hfresh.1 h
            · exact hfresh.2 h
          have hb' : b ≠ m.next := by
            rintro rfl
            rcases List.mem_append.1 hb with h | h
            · exact hfresh.1 h
            · exact hfresh.2 h
          simpa [upd_apply, ha', hb'] using hab
        refine pairwise_insert_mid hold ?_ ?_
        · intro a ha
          have ha' : a ≠ m.next := fun e => hfresh.1 (e ▸ ha)
          simpa [upd_apply, ha'] using hex a (Or.inl ha)
        · intro b hb
          have hb' : b ≠ m.next := fun e => hfresh.2 (e ▸ hb)
          rw [equiv_comm]
          simpa [upd_apply, hb'] using hex b (Or.inr hb)
  | erase pos _ hpos he ih =>
    obtain ⟨sh, inv, hord, hne⟩ := ih
    rcases hpos with rfl | ⟨L, a, hL, ha, rfl⟩
    · rw [Erase_end] at he
      simp only [Option.some.injEq, Prod.mk.injEq] at he
      obtain ⟨rfl, rfl⟩ := he
      exact ⟨sh, inv, hord, hne⟩
    · rw [toList_spec inv] at hL
      simp only [Option.some.injEq] at hL
      subst hL
      obtain ⟨m2, sh2, e2, inv2, hl, hk, -⟩ := Erase_spec inv ha
      rw [e2] at he
      simp only [Option.some.injEq, Prod.mk.injEq] at he
      obtain ⟨rfl, rfl⟩ := he
      refine ⟨sh2, inv2, ?_, ?_⟩
      · rw [hl, hk]
        exact List.Pairwise.sublist (List.filter_sublist _) hord
      · unfold NoEquiv
        rw [hl, hk]
        exact List.Pairwise.sublist (List.filter_sublist _) hne

/-- Erasing the node `n` from a tree without equivalent keys leaves no key equivalent to
that of `n`. -/
theorem erase_removes_key {lt : K → K → Bool} (hlt : SWO lt) {m : Mem K} {t : RBTree}
    {sh : Sh} (inv : Inv m t sh) (hne : NoEquiv lt m.key_ sh.addrs) {n : Nat}
    (hn : n ∈ sh.addrs) (key : K) (he : equiv lt (m.key_ n) key = true) :
    ∃ m' sh', Erase m t (some n) = some (m', { t with size_ := t.size_ - 1 }) ∧
      Inv m' { t with size_ := t.size_ - 1 } sh' ∧
      ∀ a ∈ sh'.addrs, equiv lt (m'.key_ a) key = false := by
  obtain ⟨m2, sh2, e2, inv2, hl, hk, -⟩ := Erase_spec inv hn
  refine ⟨m2, sh2, e2, inv2, ?_⟩
  intro a ha
  rw [hl, List.mem_filter] at ha
  obtain ⟨ha, hane⟩ := ha
  have hane : a ≠ n := by simpa using hane
  rw [hk]
  cases hak : equiv lt (m.key_ a) key with
  | false => rfl
  | true =>
    exfalso
    have hkn : equiv lt key (m.key_ n) = true := by rw [equiv_comm]; exact he
    have han := equiv_trans hlt hak hkn
    obtain ⟨X, Y, hXY⟩ := List.append_of_mem hn
    unfold NoEquiv at hne
    rw [hXY, List.pairwise_append, List.pairwise_cons] at hne
    rw [hXY] at ha
    rcases List.mem_append.1 ha with h | h
    · have := hne.2.2 a h n (by simp)
      rw [han] at this
      exact absurd this (by decide)
    · rcases List.mem_cons.1 h with h | h
      · exact hane h
      · have := hne.2.1.1 a h
        rw [equiv_comm, han] at this
        exact absurd this (by decide)

theorem insertItems_reachableUniq [Inhabited K] (lt : K → K → Bool) :
    ∀ (ks : List K) (s s' : Mem K × RBTree), ReachableUniq lt s.1 s.2 →
      insertItems lt true ks s = some s' → ReachableUniq lt s'.1 s'.2 := by
  intro ks
  induction ks with
  | nil =>
    intro s s' hr he
    simp only [insertItems, Option.some.injEq] at he
    subst he
    exact hr
  | cons k ks ih =>
    intro s s' hr he
    simp only [insertItems, Option.bind_eq_bind] at he
    cases hins : InsertKey lt s.1 s.2 k true with
    | none => simp [hins] at he
    | some r =>
      rw [hins] at he
      simp only [Option.some_bind] at he
      refine ih (r.1, r.2.1) s' ?_ he
      exact @ReachableUniq.insert K _ lt s.1 s.2 r.1 r.2.1 r.2.2.1 r.2.2.2 k hr hins

theorem exSet_reachableUniq : ReachableUniq ltN exSet.1 exSet.2 :=
  insertItems_reachableUniq ltN _ _ _ (ReachableUniq.init Mem.init) exSet_eq

theorem neLoop_eq [BEq K] (m : Mem K) (stop : Ptr) :
    ∀ (fuel : Nat) (it itOther : Ptr),
      neLoop m stop fuel it itOther = (eqLoop m stop fuel it itOther).map (fun b => !b) := by
  intro fuel
  induction fuel with
  | zero => intro it itOther; rfl
  | succ k ih =>
    intro it itOther
    simp only [neLoop, eqLoop]
    by_cases h : it = stop
    · simp [h]
    · simp only [h, if_false]
      cases it with
      | none => rfl
      | some a =>
        cases itOther with
        | none => rfl
        | some b =>
          simp only [Option.bind_eq_bind, Option.some_bind]
          by_cases hk : (m.key_ a != m.key_ b) = true
          · simp [hk]
          · simp only [hk]
            cases NextNode m a with
            | none => rfl
            | some na =>
              cases NextNode m b with
              | none => rfl
              | some nb => simp [ih]

theorem opNe_eq [BEq K] (m : Mem K) (t other : RBTree) :
    opNe m t other = (opEq m t other).map (fun b => !b) := by
  unfold opNe opEq
  by_cases h : Size t ≠ Size other
  · simp [h]
  · simp only [h, if_false]
    cases BeginConst m t with
    | none => rfl
    | some it =>
      cases BeginConst m other with
      | none => rfl
      | some io => simp [neLoop_eq]

theorem beq_of_length_ne [BEq K] :
    ∀ (A B : List K), A.length ≠ B.length → (A == B) = false := by
  intro A
  induction A with
  | nil =>
    intro B h
    cases B with
    | nil => simp at h
    | cons b B => rfl
  | cons a A ih =>
    intro B h
    cases B with
    | nil => rfl
    | cons b B =>
      have := ih B (by simpa using h)
      simp [this]

/-- `Begin() const` on a well-formed tree: the first node if there is one, no result on the
empty tree (the null root is dereferenced). -/
theorem BeginConst_spec {m : Mem K} {t : RBTree} {sh : Sh} (hwf : WF m t.header_ sh) :
    BeginConst m t = sh.addrs.head?.map some := by
  unfold BeginConst Minimum
  cases hs : sh with
  | nil =>
    have hroot : Root m t.header_ = none := by
      have := hwf.root
      rw [hs] at this
      exact this
    simp [hroot]
  | node l a r =>
    rw [hs] at hwf
    have hroot : Root m t.header_ = some a := hwf.root
    have hd : (Sh.node l a r).depth ≤ m.next := by
      have := (Sh.node l a r).depth_le_length
      have := hwf.depth_lt
      omega
    obtain ⟨y, e, hy⟩ := SearchMin_head (s := Sh.node l a r) rfl hwf.rep hd
    simp only [hroot, e, Option.bind_eq_bind, Option.some_bind, hy]
    rfl

/-- The comparison loop run on two well-formed trees of the same memory from two positions
with equally many nodes ahead. -/
theorem eqLoop_spec [BEq K] {m : Mem K} {ha hb : Nat} {sa sb : Sh} (wa : WF m ha sa)
    (wb : WF m hb sb) :
    ∀ (postA postB preA preB : List Nat) (fuel : Nat), sa.addrs = preA ++ postA →
      sb.addrs = preB ++ postB → postA.length = postB.length → postA.length < fuel →
      eqLoop m (some ha) fuel (some (postA.headD ha)) (some (postB.headD hb)) =
        some (postA.map m.key_ == postB.map m.key_) := by
  intro postA
  induction postA with
  | nil =>
    intro postB preA preB fuel _ _ hl hf
    obtain ⟨k, rfl⟩ : ∃ k, fuel = k + 1 := ⟨fuel - 1, by omega⟩
    have : postB = [] := List.length_eq_zero.1 hl.symm
    subst this
    simp [eqLoop]
  | cons a postA ih =>
    intro postB preA preB fuel h1 h2 hl hf
    obtain ⟨k, rfl⟩ : ∃ k, fuel = k + 1 := ⟨fuel - 1, by omega⟩
    cases postB with
    | nil => simp at hl
    | cons b postB =>
      simp only [List.length_cons] at hf hl
      have hne : a ≠ ha := by
        rintro rfl
        have := wa.nodup
        rw [h1] at this
        simp at this
      have hna := NextNode_list wa h1
      have hnb := NextNode_list wb h2
      have := ih postB (preA ++ [a]) (preB ++ [b]) k (by simp [h1]) (by simp [h2])
        (by omega) (by omega)
      simp only [eqLoop, List.headD_cons, Option.some.injEq, hne, if_false, hna, hnb,
        Option.bind_eq_bind, Option.some_bind, this, List.map_cons, List.cons_beq_cons]
      by_cases hk : (m.key_ a == m.key_ b) = true
      · simp [hk, bne]
      · simp [hk, bne]

/-- `operator==` and `operator!=` on two well-formed trees of any shape. When both trees are
empty neither returns: `Begin() const` dereferences the null root. Otherwise `==` is the
comparison of the two key sequences and `!=` its negation. -/
theorem opEq_spec [BEq K] {m : Mem K} {t u : RBTree} {sa sb : Sh} (wa : WF m t.header_ sa)
    (wb : WF m u.header_ sb) (hsa : t.size_ = sa.addrs.length)
    (hsb : u.size_ = sb.addrs.length) :
    (sa = Sh.nil ∧ sb = Sh.nil → opEq m t u = none ∧ opNe m t u = none) ∧
    (¬ (sa = Sh.nil ∧ sb = Sh.nil) →
      opEq m t u = some (sa.addrs.map m.key_ == sb.addrs.map m.key_) ∧
      opNe m t u = some (!(sa.addrs.map m.key_ == sb.addrs.map m.key_))) := by
  have key : (sa = Sh.nil ∧ sb = Sh.nil → opEq m t u = none) ∧
      (¬ (sa = Sh.nil ∧ sb = Sh.nil) →
        opEq m t u = some (sa.addrs.map m.key_ == sb.addrs.map m.key_)) := by
    constructor
    · rintro ⟨rfl, rfl⟩
      simp only [Sh.addrs_nil, List.length_nil] at hsa hsb
      simp [opEq, Size, hsa, hsb, BeginConst_spec wa]
    · intro hne
      unfold opEq
      by_cases hsz : Size t ≠ Size u
      · rw [if_pos hsz, beq_of_length_ne]
        simpa [Size, hsa, hsb] using hsz
      · rw [if_neg hsz]
        have hlen : sa.addrs.length = sb.addrs.length := by
          simp only [Size, ne_eq, not_not] at hsz
          omega
        rw [BeginConst_spec wa, BeginConst_spec wb]
        cases hA : sa.addrs with
        | nil =>
          exfalso
          apply hne
          have h2 : sb.addrs = [] := by
            apply List.length_eq_zero.1
            rw [← hlen, hA]
            rfl
          constructor
          · cases sa with
            | nil => rfl
            | node l a r => simp at hA
          · cases sb with
            | nil => rfl
            | node l a r => simp at h2
        | cons a A =>
          cases hB : sb.addrs with
          | nil => rw [hA, hB] at hlen; simp at hlen
          | cons b B =>
            have := eqLoop_spec wa wb (a :: A) (b :: B) [] [] (m.next + 1) (by simp [hA])
              (by simp [hB]) (by rw [← hA, ← hB]; exact hlen)
              (by rw [← hA]; have := wa.depth_lt; omega)
            simpa [End] using this
  refine ⟨fun h => ⟨key.1 h, by rw [opNe_eq, key.1 h]; rfl⟩,
    fun h => ⟨key.2 h, by rw [opNe_eq, key.2 h]; rfl⟩⟩

theorem AgreeOn.refl (S : Nat → Prop) (m : Mem K) : AgreeOn S m m :=
  ⟨fun _ _ => rfl, fun _ _ => rfl, fun _ _ => rfl, fun _ _ => rfl, fun _ _ => rfl⟩

theorem AgreeOn.trans {S : Nat → Prop} {m1 m2 m3 : Mem K} (h1 : AgreeOn S m1 m2)
    (h2 : AgreeOn S m2 m3) : AgreeOn S m1 m3 :=
  ⟨fun x hx => (h2.parent x hx).trans (h1.parent x hx),
   fun x hx => (h2.left x hx).trans (h1.left x hx),
   fun x hx => (h2.right x hx).trans (h1.right x hx),
   fun x hx => (h2.red x hx).trans (h1.red x hx),
   fun x hx => (h2.key x hx).trans (h1.key x hx)⟩

theorem AgreeOn.mono {S T : Nat → Prop} {m m' : Mem K} (h : AgreeOn S m m')
    (hst : ∀ x, T x → S x) : AgreeOn T m m' :=
  ⟨fun x hx => h.parent x (hst x hx), fun x hx => h.left x (hst x hx),
   fun x hx => h.right x (hst x hx), fun x hx => h.red x (hst x hx),
   fun x hx => h.key x (hst x hx)⟩

theorem AgreeOn.symm {S : Nat → Prop} {m m' : Mem K} (h : AgreeOn S m m') : AgreeOn S m' m :=
  ⟨fun x hx => (h.parent x hx).symm, fun x hx => (h.left x hx).symm,
   fun x hx => (h.right x hx).symm, fun x hx => (h.red x hx).symm,
   fun x hx => (h.key x hx).symm⟩

theorem AgreeOn.setParent {S : Nat → Prop} {m m' : Mem K} (h : AgreeOn S m m') {a : Nat}
    (v : Ptr) (ha : ¬ S a) : AgreeOn S m (m'.setParent a v) := by
  refine ⟨fun x hx => ?_, h.left, h.right, h.red, h.key⟩
  have : x ≠ a := fun e => ha (e ▸ hx)
  simp [this, h.parent x hx]

theorem AgreeOn.setLeft {S : Nat → Prop} {m m' : Mem K} (h : AgreeOn S m m') {a : Nat}
    (v : Ptr) (ha : ¬ S a) : AgreeOn S m (m'.setLeft a v) := by
  refine ⟨h.parent, fun x hx => ?_, h.right, h.red, h.key⟩
  have : x ≠ a := fun e => ha (e ▸ hx)
  simp [this, h.left x hx]

theorem AgreeOn.setRight {S : Nat → Prop} {m m' : Mem K} (h : AgreeOn S m m') {a : Nat}
    (v : Ptr) (ha : ¬ S a) : AgreeOn S m (m'.setRight a v) := by
  refine ⟨h.parent, h.left, fun x hx => ?_, h.red, h.key⟩
  have : x ≠ a := fun e => ha (e ▸ hx)
  simp [this, h.right x hx]

theorem AgreeOn.offRed {S : Nat → Prop} {m m' : Mem K} (h : AgreeOn S m m') {a : Nat}
    (v : Bool) (ha : ¬ S a) : AgreeOn S m (m'.setRed a v) := by
  refine ⟨h.parent, h.left, h.right, fun x hx => ?_, h.key⟩
  have : x ≠ a := fun e => ha (e ▸ hx)
  simp [this, h.red x hx]

theorem AgreeOn.initNode {S : Nat → Prop} {m m' : Mem K} (h : AgreeOn S m m') {a : Nat}
    (ha : ¬ S a) : AgreeOn S m (m'.InitNode a) :=
  (((h.setParent none ha).setLeft none ha).setRight none ha).offRed true ha

theorem AgreeOn.offNew {S : Nat → Prop} {m m' : Mem K} (h : AgreeOn S m m') (key : K)
    (ha : ¬ S m'.next) : AgreeOn S m (m'.newNode key).1 := by
  have hne : ∀ x, S x → x ≠ m'.next := fun x hx e => ha (e ▸ hx)
  refine ⟨fun x hx => ?_, fun x hx => ?_, fun x hx => ?_, fun x hx => ?_, fun x hx => ?_⟩
  · simp [Mem.newNode, hne x hx, h.parent x hx]
  · simp [Mem.newNode, hne x hx, h.left x hx]
  · simp [Mem.newNode, hne x hx, h.right x hx]
  · simp [Mem.newNode, hne x hx, h.red x hx]
  · simp [Mem.newNode, hne x hx, h.key x hx]

/-- A well-formed tree stays one in every memory that agrees on its header and nodes and has
allocated at least as much. -/
theorem WF.agree_wf {m m' : Mem K} {hdr : Nat} {sh : Sh} {S : Nat → Prop} (h : WF m hdr sh)
    (ha : AgreeOn S m m') (hS : ∀ x ∈ hdr :: sh.addrs, S x) (hn : m.next ≤ m'.next) :
    WF m' hdr sh := by
  refine ⟨?_, ?_, ?_, ?_, h.nodup, fun a hx => Nat.lt_of_lt_of_le (h.bound a hx) hn⟩
  · rw [ha.parent hdr (hS hdr (by simp))]; exact h.root
  · rw [ha.left hdr (hS hdr (by simp))]; exact h.hleft
  · rw [ha.right hdr (hS hdr (by simp))]; exact h.hright
  · refine (Rep_congr (fun a hx => ?_) _).2 h.rep
    have := hS a (by simp [hx])
    exact ⟨ha.parent a this, ha.left a this, ha.right a this⟩

theorem Inv.agree_inv {m m' : Mem K} {t : RBTree} {sh : Sh} {S : Nat → Prop} (h : Inv m t sh)
    (ha : AgreeOn S m m') (hS : ∀ x ∈ t.header_ :: sh.addrs, S x) (hn : m.next ≤ m'.next) :
    Inv m' t sh :=
  ⟨h.wf.agree_wf ha hS hn, h.size,
    (RB_congr (fun a hx => ha.red a (hS a (by simp [hx])))).2 h.rb⟩

theorem AgreeOn.map_key {m m' : Mem K} {S : Nat → Prop} (ha : AgreeOn S m m') {L : List Nat}
    (hS : ∀ x ∈ L, S x) : L.map m'.key_ = L.map m.key_ :=
  List.map_congr_left (fun x hx => ha.key x (hS x hx))

/-- The recursion of `DeleteSubTree` over a subtree that the links realise returns. -/
theorem DeleteSubTree_spec (m : Mem K) :
    ∀ (s : Sh) (fuel : Nat) (par : Ptr), Rep m.parent_ m.left_ m.right_ s par →
      s.depth ≤ fuel → DeleteSubTree m fuel s.ptr = some () := by
  intro s
  induction s with
  | nil =>
    intro fuel par _ _
    cases fuel <;> rfl
  | node l a r ihl ihr =>
    intro fuel par hrep hd
    obtain ⟨k, rfl⟩ : ∃ k, fuel = k + 1 := ⟨fuel - 1, by simp at hd; omega⟩
    obtain ⟨-, hl, hr, repl, repr⟩ := hrep
    simp only [Sh.depth_node] at hd
    simp only [Sh.ptr_node, DeleteSubTree, hl, hr, ihl k (some a) repl (by omega),
      ihr k (some a) repr (by omega)]

/-- `Clear` on a well-formed tree: it returns, only the header's parent link is written, and
the tree is the empty one. -/
theorem Clear_spec {m : Mem K} {t : RBTree} {sh : Sh} (h : WF m t.header_ sh) :
    Clear m t = some (m.setParent t.header_ none, { t with size_ := 0 }) ∧
      WF (m.setParent t.header_ none) t.header_ Sh.nil := by
  have hd : sh.depth ≤ m.next := by
    have := sh.depth_le_length
    have := h.depth_lt
    omega
  have := DeleteSubTree_spec m sh m.next (some t.header_) h.rep hd
  constructor
  · unfold Clear Root
    rw [h.root, this]
  · refine ⟨by simp, by simpa using h.hleft, by simpa using h.hright, trivial, by simp, ?_⟩
    intro a ha
    simp only [Sh.addrs_nil, List.mem_singleton] at ha
    subst ha
    simpa using h.bound t.header_ (by simp)

theorem Inv_empty {m : Mem K} {t : RBTree} (h : WF m t.header_ Sh.nil) (hs : t.size_ = 0) :
    Inv m t Sh.nil :=
  ⟨h, hs, ⟨trivial, trivial, trivial⟩⟩

theorem copySh_length (s : Sh) : ∀ n, (copySh n s).addrs.length = s.addrs.length := by
  induction s with
  | nil => intro n; rfl
  | node l a r ihl ihr =>
    intro n
    simp [copySh, ihl, ihr]

theorem copySh_range (s : Sh) :
    ∀ n x, x ∈ (copySh n s).addrs → n ≤ x ∧ x < n + s.addrs.length := by
  induction s with
  | nil => intro n x h; simp [copySh] at h
  | node l a r ihl ihr =>
    intro n x h
    simp only [copySh, Sh.addrs_node, List.mem_append, List.mem_cons] at h
    simp only [Sh.addrs_node, List.length_append, List.length_cons]
    rcases h with h | rfl | h
    · have := ihl _ _ h
      omega
    · omega
    · have := ihr _ _ h
      omega

theorem copySh_nodup (s : Sh) : ∀ n, (copySh n s).addrs.Nodup := by
  induction s with
  | nil => intro n; simp [copySh]
  | node l a r ihl ihr =>
    intro n
    simp only [copySh, Sh.addrs_node, List.nodup_append, List.nodup_cons,
      List.disjoint_cons_right]
    refine ⟨ihl _, ⟨?_, ihr _⟩, ?_, ?_⟩
    · intro h
      have := copySh_range r _ _ h
      omega
    · intro h
      have := copySh_range l _ _ h
      omega
    · intro x hx hx'
      have := copySh_range l _ _ hx
      have := copySh_range r _ _ hx'
      omega

theorem copySh_ptr (s : Sh) (n x : Nat) (h : s.ptr = some x) : (copySh n s).ptr = some n := by
  cases s with
  | nil => simp at h
  | node l a r => rfl

theorem copySh_depth (s : Sh) : ∀ n, (copySh n s).depth = s.depth := by
  induction s with
  | nil => intro n; rfl
  | node l a r ihl ihr =>
    intro n
    simp [copySh, ihl, ihr]

theorem ColEq.bh_eq {red red' : Nat → Bool} :
    ∀ {s s' : Sh}, ColEq red red' s s' → bh red' s' = bh red s := by
  intro s
  induction s with
  | nil =>
    intro s' h
    cases s' with
    | nil => rfl
    | node _ _ _ => exact h.elim
  | node l a r ihl _ =>
    intro s' h
    cases s' with
    | nil => exact h.elim
    | node l' a' r' =>
      obtain ⟨h1, h2, -⟩ := h
      simp only [bh_node, h1, ihl h2]

theorem ColEq.isBlk_iff {red red' : Nat → Bool} {s s' : Sh} (h : ColEq red red' s s') :
    isBlk red' s' ↔ isBlk red s := by
  cases s with
  | nil =>
    cases s' with
    | nil => simp
    | node _ _ _ => exact h.elim
  | node l a r =>
    cases s' with
    | nil => exact h.elim
    | node l' a' r' => simp only [isBlk_node, h.1]

theorem ColEq.bal_iff {red red' : Nat → Bool} :
    ∀ {s s' : Sh}, ColEq red red' s s' → (Bal red' s' ↔ Bal red s) := by
  intro s
  induction s with
  | nil =>
    intro s' h
    cases s' with
    | nil => simp
    | node _ _ _ => exact h.elim
  | node l a r ihl ihr =>
    intro s' h
    cases s' with
    | nil => exact h.elim
    | node l' a' r' =>
      obtain ⟨-, h2, h3⟩ := h
      simp only [Bal_node, h2.bh_eq, h3.bh_eq, ihl h2, ihr h3]

theorem ColEq.norr_iff {red red' : Nat → Bool} :
    ∀ {s s' : Sh}, ColEq red red' s s' → (NoRR red' s' ↔ NoRR red s) := by
  intro s
  induction s with
  | nil =>
    intro s' h
    cases s' with
    | nil => simp
    | node _ _ _ => exact h.elim
  | node l a r ihl ihr =>
    intro s' h
    cases s' with
    | nil => exact h.elim
    | node l' a' r' =>
      obtain ⟨h1, h2, h3⟩ := h
      simp only [NoRR_node, h1, h2.isBlk_iff, h3.isBlk_iff, ihl h2, ihr h3]

theorem ColEq.rb {red red' : Nat → Bool} {s s' : Sh} (h : ColEq red red' s s')
    (hrb : RB red s) : RB red' s' :=
  ⟨h.isBlk_iff.2 hrb.rootBlack, h.norr_iff.2 hrb.noRedRed, h.bal_iff.2 hrb.balanced⟩

theorem ColEq.congr {red red' red1 red1' : Nat → Bool} :
    ∀ {s s' : Sh}, ColEq red red' s s' → (∀ a ∈ s.addrs, red1 a = red a) →
      (∀ a ∈ s'.addrs, red1' a = red' a) → ColEq red1 red1' s s' := by
  intro s
  induction s with
  | nil =>
    intro s' h _ _
    cases s' with
    | nil => trivial
    | node _ _ _ => exact h.elim
  | node l a r ihl ihr =>
    intro s' h h1 h2
    cases s' with
    | nil => exact h.elim
    | node l' a' r' =>
      obtain ⟨e, hl, hr⟩ := h
      refine ⟨?_, ihl hl (fun x hx => h1 x (by simp [hx])) (fun x hx => h2 x (by simp [hx])),
        ihr hr (fun x hx => h1 x (by simp [hx])) (fun x hx => h2 x (by simp [hx]))⟩
      rw [h1 a (by simp), h2 a' (by simp), e]

/-- A copy stays a copy when the memory holding it changes elsewhere. -/
theorem IsCopy.agree_copy {m m1 m2 : Mem K} {c c' : Sh} {par : Ptr} {S : Nat → Prop}
    (h : IsCopy m m1 c c' par) (ha : AgreeOn S m1 m2) (hS : ∀ x ∈ c'.addrs, S x) :
    IsCopy m m2 c c' par := by
  refine ⟨?_, ?_, ?_⟩
  · exact (Rep_congr (fun a hx => ⟨ha.parent a (hS a hx), ha.left a (hS a hx),
      ha.right a (hS a hx)⟩) _).2 h.rep
  · rw [ha.map_key hS]; exact h.keys
  · exact h.col.congr (fun _ _ => rfl) (fun a hx => ha.red a (hS a hx))

/-- A copy of a shape is a copy with respect to every memory that agrees on the source. -/
theorem IsCopy.source {m0 m m' : Mem K} {c c' : Sh} {par : Ptr} {S : Nat → Prop}
    (h : IsCopy m m' c c' par) (ha : AgreeOn S m0 m) (hS : ∀ x ∈ c.addrs, S x) :
    IsCopy m0 m' c c' par := by
  refine ⟨h.rep, ?_, ?_⟩
  · rw [h.keys, ha.map_key hS]
  · exact h.col.congr (fun a hx => (ha.red a (hS a hx)).symm) (fun _ _ => rfl)

theorem CopyNodes_succ (throws : K → Bool) (fuel : Nat) (m : Mem K) (node : Nat)
    (parent : Ptr) :
    CopyNodes throws (fuel + 1) m node parent =
      if throws (m.key_ node) then some (m, none)
      else
        match copyChild (CopyNodes throws fuel) Mem.setLeft (copyInit m node)
            ((copyInit m node).left_ node) m.next with
        | none => none
        | some (m3, true) => copyCatch m3 m.next
        | some (m3, false) =>
          match copyChild (CopyNodes throws fuel) Mem.setRight m3 (m3.right_ node) m.next with
          | none => none
          | some (m4, true) => copyCatch m4 m.next
          | some (m4, false) => some (m4.setParent m.next parent, some m.next) := rfl

theorem copyInit_next (m : Mem K) (node : Nat) : (copyInit m node).next = m.next + 1 := rfl

theorem copyInit_agree (m : Mem K) (node : Nat) :
    AgreeOn (fun x => x < m.next) m (copyInit m node) :=
  ((AgreeOn.refl (fun x => x < m.next) m).offNew _ (Nat.lt_irrefl _)).offRed _
    (Nat.lt_irrefl _)

theorem copyInit_mid (m : Mem K) {a : Nat} (ha : a < m.next) :
    CopyMid m (copyInit m a) a Sh.nil Sh.nil (m.next + 1) := by
  have hne : a ≠ m.next := by omega
  refine ⟨rfl, copyInit_agree m a, ?_, ?_, ?_, ?_, ⟨trivial, rfl, trivial⟩,
    ⟨trivial, rfl, trivial⟩⟩
  · simp [copyInit, Mem.newNode, copySh]
  · simp [copyInit, Mem.newNode, copySh]
  · simp [copyInit, Mem.newNode, hne]
  · simp [copyInit, Mem.newNode]

theorem not_mem_copySh {s : Sh} {n base : Nat} (h : n < base) : n ∉ (copySh base s).addrs := by
  intro hx
  have := copySh_range s _ _ hx
  omega

/-- The line `if (node->left_) copy->left_ = CopyNodes(node->left_, copy);` when the
recursive call behaves. -/
theorem copyChild_left {m m2 : Mem K} {a : Nat} {l : Sh}
    (cp : Mem K → Nat → Ptr → Option (Mem K × Ptr))
    (hmid : CopyMid m m2 a Sh.nil Sh.nil (m.next + 1))
    (hl : m2.left_ a = l.ptr) (hlb : ∀ x ∈ l.addrs, x < m.next)
    (hcp : ∀ x, l.ptr = some x →
      ∃ m', cp m2 x (some m.next) = some (m', some m2.next) ∧ CopyPost m2 m' l (some m.next)) :
    ∃ m3, copyChild cp Mem.setLeft m2 (m2.left_ a) m.next = some (m3, false) ∧
      CopyMid m m3 a l Sh.nil (m.next + 1 + l.addrs.length) := by
  have hn2 : m2.next = m.next + 1 := by simpa using hmid.next
  cases l with
  | nil =>
    refine ⟨m2, by rw [hl]; rfl, ?_⟩
    simpa using hmid
  | node ll x lr =>
    obtain ⟨m', e, post⟩ := hcp x rfl
    refine ⟨m'.setLeft m.next (some m2.next), by rw [hl]; simp [copyChild, e], ?_⟩
    have hc : m.next < m2.next := by omega
    have hag : AgreeOn (fun y => y ≠ m.next) m' (m'.setLeft m.next (some m2.next)) :=
      (AgreeOn.refl _ m').setLeft _ (by simp)
    have hnot : m.next ∉ (copySh (m.next + 1) (Sh.node ll x lr)).addrs :=
      not_mem_copySh (Nat.lt_succ_self _)
    refine ⟨?_, ?_, ?_, ?_, ?_, ?_, ?_, ⟨trivial, rfl, trivial⟩⟩
    · simp only [Mem.setLeft_next, post.next, hn2, Sh.addrs_nil, List.length_nil]
      omega
    · exact (hmid.agree.trans (post.agree.mono (fun y hy => by omega))).setLeft _
        (Nat.lt_irrefl _)
    · simp [hn2, copySh]
    · simp only [Mem.setLeft_right, post.agree.right _ hc, hmid.right, copySh]
    · simp only [Mem.setLeft_red, post.agree.red _ hc, hmid.red]
    · simp only [Mem.setLeft_key, post.agree.key _ hc, hmid.key]
    · have h1 : IsCopy m m' (Sh.node ll x lr) (copySh (m.next + 1) (Sh.node ll x lr))
          (some m.next) := by
        have := post.copy.source hmid.agree hlb
        rwa [hn2] at this
      exact h1.agree_copy hag (fun y hy e => hnot (e ▸ hy))

/-- The line `if (node->right_) copy->right_ = CopyNodes(node->right_, copy);` when the
recursive call behaves. -/
theorem copyChild_right {m m3 : Mem K} {a : Nat} {l r : Sh}
    (cp : Mem K → Nat → Ptr → Option (Mem K × Ptr))
    (hmid : CopyMid m m3 a l Sh.nil (m.next + 1 + l.addrs.length))
    (hr : m3.right_ a = r.ptr) (hrb : ∀ x ∈ r.addrs, x < m.next)
    (hcp : ∀ x, r.ptr = some x →
      ∃ m', cp m3 x (some m.next) = some (m', some m3.next) ∧ CopyPost m3 m' r (some m.next)) :
    ∃ m4, copyChild cp Mem.setRight m3 (m3.right_ a) m.next = some (m4, false) ∧
      CopyMid m m4 a l r (m.next + 1 + l.addrs.length) := by
  have hn3 : m3.next = m.next + 1 + l.addrs.length := by simpa using hmid.next
  cases r with
  | nil =>
    exact ⟨m3, by rw [hr]; rfl, hmid⟩
  | node rl x rr =>
    obtain ⟨m', e, post⟩ := hcp x rfl
    refine ⟨m'.setRight m.next (some m3.next), by rw [hr]; simp [copyChild, e], ?_⟩
    have hc : m.next < m3.next := by omega
    have hag : AgreeOn (fun y => y ≠ m.next) m' (m'.setRight m.next (some m3.next)) :=
      (AgreeOn.refl _ m').setRight _ (by simp)
    have hnotR : m.next ∉ (copySh (m.next + 1 + l.addrs.length) (Sh.node rl x rr)).addrs :=
      not_mem_copySh (by omega)
    have hnotL : m.next ∉ (copySh (m.next + 1) l).addrs := not_mem_copySh (Nat.lt_succ_self _)
    refine ⟨?_, ?_, ?_, ?_, ?_, ?_, ?_, ?_⟩
    · simp only [Mem.setRight_next, post.next, hn3]
    · exact (hmid.agree.trans (post.agree.mono (fun y hy => by omega))).setRight _
        (Nat.lt_irrefl _)
    · simp only [Mem.setRight_left, post.agree.left _ hc, hmid.left]
    · simp [hn3, copySh]
    · simp only [Mem.setRight_red, post.agree.red _ hc, hmid.red]
    · simp only [Mem.setRight_key, post.agree.key _ hc, hmid.key]
    · have h1 := hmid.copyL.agree_copy post.agree (fun y hy => by
        have := copySh_range l _ _ hy
        omega)
      exact h1.agree_copy hag (fun y hy e => hnotL (e ▸ hy))
    · have h1 : IsCopy m m' (Sh.node rl x rr)
          (copySh (m.next + 1 + l.addrs.length) (Sh.node rl x rr)) (some m.next) := by
        have := post.copy.source hmid.agree hrb
        rwa [hn3] at this
      exact h1.agree_copy hag (fun y hy e => hnotR (e ▸ hy))

/-- The last statements of `CopyNodes`: the parent link of the copy is set. -/
theorem copyMid_post {m m4 : Mem K} {a : Nat} {l r : Sh} (par : Ptr)
    (hmid : CopyMid m m4 a l r (m.next + 1 + l.addrs.length)) :
    CopyPost m (m4.setParent m.next par) (Sh.node l a r) par := by
  have hnotL : m.next ∉ (copySh (m.next + 1) l).addrs := not_mem_copySh (Nat.lt_succ_self _)
  have hnotR : m.next ∉ (copySh (m.next + 1 + l.addrs.length) r).addrs :=
    not_mem_copySh (by omega)
  refine ⟨?_, hmid.agree.setParent _ (Nat.lt_irrefl _), ?_, ?_, ?_⟩
  · simp only [Mem.setParent_next, hmid.next, Sh.addrs_node, List.length_append,
      List.length_cons]
    omega
  · simp only [copySh, Rep_node, Mem.setParent_parent, Mem.setParent_left,
      Mem.setParent_right, upd_same, true_and]
    exact ⟨hmid.left, hmid.right, (Rep_updP _ _ hnotL).2 hmid.copyL.rep,
      (Rep_updP _ _ hnotR).2 hmid.copyR.rep⟩
  · simp only [copySh, Sh.addrs_node, List.map_append, List.map_cons, Mem.setParent_key,
      hmid.copyL.keys, hmid.copyR.keys, hmid.key]
  · exact ⟨hmid.red, hmid.copyL.col, hmid.copyR.col⟩

/-- `CopyNodes` on a subtree none of whose keys throws when copied: the copy is built at the
fresh addresses, in pre-order, and nothing allocated before is written. -/
theorem CopyNodes_spec (throws : K → Bool) :
    ∀ (s : Sh) (fuel : Nat) (m : Mem K) (node : Nat) (par srcpar : Ptr),
      s.ptr = some node → Rep m.parent_ m.left_ m.right_ s srcpar →
      (∀ a ∈ s.addrs, a < m.next) → s.depth ≤ fuel →
      (∀ a ∈ s.addrs, throws (m.key_ a) = false) →
      ∃ m', CopyNodes throws fuel m node par = some (m', some m.next) ∧
        CopyPost m m' s par := by
  intro s
  induction s with
  | nil => intro fuel m node par srcpar h; simp at h
  | node l a r ihl ihr =>
    intro fuel m node par srcpar hp hrep hb hd hth
    simp only [Sh.ptr_node, Option.some.injEq] at hp
    subst hp
    obtain ⟨k, rfl⟩ : ∃ k, fuel = k + 1 := ⟨fuel - 1, by simp at hd; omega⟩
    obtain ⟨-, hl, hr, repl, repr⟩ := hrep
    simp only [Sh.depth_node] at hd
    have ha : a < m.next := hb a (by simp)
    have hlb : ∀ x ∈ l.addrs, x < m.next := fun x hx => hb x (by simp [hx])
    have hrb : ∀ x ∈ r.addrs, x < m.next := fun x hx => hb x (by simp [hx])
    have hmid := copyInit_mid m ha
    have repAt : ∀ {m2 : Mem K} (c : Sh), AgreeOn (fun x => x < m.next) m m2 →
        (∀ x ∈ c.addrs, x < m.next) → Rep m.parent_ m.left_ m.right_ c (some a) →
        Rep m2.parent_ m2.left_ m2.right_ c (some a) := by
      intro m2 c ag hcb hc
      exact (Rep_congr (fun y hy => ⟨ag.parent y (hcb y hy), ag.left y (hcb y hy),
        ag.right y (hcb y hy)⟩) _).2 hc
    obtain ⟨m3, e3, mid3⟩ := copyChild_left (l := l) (CopyNodes throws k) hmid
      (by rw [hmid.agree.left a ha, hl]) hlb (by
        intro x hx
        have hn2 : (copyInit m a).next = m.next + 1 := rfl
        exact ihl k (copyInit m a) x (some m.next) (some a) hx (repAt l hmid.agree hlb repl)
          (fun y hy => by have := hlb y hy; omega) (by omega)
          (fun y hy => by
            rw [hmid.agree.key y (hlb y hy)]
            exact hth y (by simp [hy])))
    obtain ⟨m4, e4, mid4⟩ := copyChild_right (r := r) (CopyNodes throws k) mid3
      (by rw [mid3.agree.right a ha, hr]) hrb (by
        intro x hx
        have hn3 : m3.next = m.next + 1 + l.addrs.length := by simpa using mid3.next
        exact ihr k m3 x (some m.next) (some a) hx (repAt r mid3.agree hrb repr)
          (fun y hy => by have := hrb y hy; omega) (by omega)
          (fun y hy => by
            rw [mid3.agree.key y (hrb y hy)]
            exact hth y (by simp [hy])))
    refine ⟨m4.setParent m.next par, ?_, copyMid_post par mid4⟩
    rw [CopyNodes_succ, if_neg (by simp [hth a (by simp)]), e3]
    simp only [e4]

theorem copySh_nil_iff (n : Nat) (s : Sh) : copySh n s = Sh.nil ↔ s = Sh.nil := by
  cases s <;> simp [copySh]

/-- `CopyTree` from a non-empty source none of whose keys throws: the destination is cleared
and takes the copy; nothing else allocated before is written. -/
theorem CopyTree_spec (throws : K → Bool) {m : Mem K} {t other : RBTree} {st so : Sh}
    (ht : WF m t.header_ st) (ho : Inv m other so) (hne : so ≠ Sh.nil)
    (hth : ∀ a ∈ so.addrs, throws (m.key_ a) = false) :
    ∃ m', CopyTree throws m t other =
        some (m', { header_ := t.header_, size_ := other.size_ }, false) ∧
      Inv m' { header_ := t.header_, size_ := other.size_ } (copySh m.next so) ∧
      (copySh m.next so).addrs.map m'.key_ = so.addrs.map m.key_ ∧
      AgreeOn (fun x => x < m.next ∧ x ≠ t.header_) m m' ∧ m.next ≤ m'.next := by
  cases hso : so with
  | nil => exact absurd hso hne
  | node l a r =>
    rw [hso] at ho hth
    have hsz : Size other ≠ 0 := by
      simp [Size, ho.size]
    have hroot : Root m other.header_ = some a := ho.wf.root
    have hb : ∀ x ∈ (Sh.node l a r).addrs, x < m.next :=
      fun x hx => ho.wf.bound x (List.mem_cons_of_mem _ hx)
    have hd : (Sh.node l a r).depth ≤ m.next := by
      have := (Sh.node l a r).depth_le_length
      have := ho.wf.depth_lt
      omega
    obtain ⟨m1, e1, post⟩ := CopyNodes_spec throws (Sh.node l a r) m.next m a none
      (some other.header_) rfl ho.wf.rep hb hd hth
    have hh : t.header_ < m.next := ht.bound _ (by simp)
    have hn1 : m.next ≤ m1.next := by rw [post.next]; omega
    have wt1 : WF m1 t.header_ st := ht.agree_wf post.agree ht.bound hn1
    obtain ⟨ec, -⟩ := Clear_spec wt1
    have hhc : t.header_ ≠ m.next := by omega
    refine ⟨((m1.setParent t.header_ none).setParent t.header_ (some m.next)).setParent m.next
      (some t.header_), ?_, ?_, ?_, ?_, ?_⟩
    · unfold CopyTree
      rw [if_neg hsz, hroot]
      simp only [e1, ec]
      simp [Root]
    · set s' := copySh m.next (Sh.node l a r) with hs'
      have hrange : ∀ x ∈ s'.addrs, m.next ≤ x ∧ x < m1.next := by
        intro x hx
        have := copySh_range _ _ _ hx
        rw [post.next]
        exact this
      have hnot : t.header_ ∉ s'.addrs := fun hx => by
        have := (hrange _ hx).1
        omega
      have hptr : s'.ptr = some m.next := rfl
      refine ⟨⟨?_, ?_, ?_, ?_, ?_, ?_⟩, ?_, ?_⟩
      · simp [hhc, hptr]
      · simpa using wt1.hleft
      · simpa using wt1.hright
      · have h1 := Rep_reparent (some t.header_) post.copy.rep (copySh_nodup _ _)
        rw [← hs'] at h1
        simp only [hptr] at h1
        refine (Rep_congr (fun x hx => ?_) _).2 h1
        have hxh : x ≠ t.header_ := fun e => hnot (e ▸ hx)
        refine ⟨?_, rfl, rfl⟩
        simp only [Mem.setParent_parent, upd_apply, hxh, if_false]
      · exact List.nodup_cons.2 ⟨hnot, copySh_nodup _ _⟩
      · intro x hx
        simp only [Mem.setParent_next]
        rcases List.mem_cons.1 hx with hx | hx
        · have hx' : x = t.header_ := hx
          omega
        · exact (hrange x hx).2
      · simp only [hs', copySh_length]
        exact ho.size
      · exact post.copy.col.rb ho.rb
    · simpa using post.copy.keys
    · exact (((post.agree.mono (fun x hx => hx.1)).setParent _ (fun h => h.2 rfl)).setParent _
        (fun h => h.2 rfl)).setParent _ (fun h => Nat.lt_irrefl _ h.1)
    · simpa using hn1

/-- `CopyTree` from an empty source does nothing. -/
theorem CopyTree_nil (throws : K → Bool) {m : Mem K} {t other : RBTree}
    (ho : Inv m other Sh.nil) : CopyTree throws m t other = some (m, t, false) := by
  have : Size other = 0 := ho.size
  simp [CopyTree, this]

/-- The copy constructor when no key copy throws: the new tree has the header `m.next`, the
size and the keys of the source, and nothing allocated before is written. -/
theorem copyConstruct_spec [Inhabited K] (throws : K → Bool) {m : Mem K} {other : RBTree}
    {so : Sh} (ho : Inv m other so) (hth : ∀ a ∈ so.addrs, throws (m.key_ a) = false) :
    ∃ m' s', copyConstruct throws m other =
        some (m', { header_ := m.next, size_ := other.size_ }, false) ∧
      Inv m' { header_ := m.next, size_ := other.size_ } s' ∧
      s'.addrs.map m'.key_ = so.addrs.map m.key_ ∧ (s' = Sh.nil ↔ so = Sh.nil) ∧
      AgreeOn (fun x => x < m.next) m m' ∧ m.next < m'.next := by
  have h0 : Inv (RBTree.mk0 m).1 (RBTree.mk0 m).2 Sh.nil := Inv_mk0 m
  have ho' : Inv (RBTree.mk0 m).1 other so := ho.alloc default
  have hag : AgreeOn (fun x => x < m.next) m (RBTree.mk0 m).1 :=
    (AgreeOn.refl (fun x => x < m.next) m).offNew default (Nat.lt_irrefl _)
  have hn0 : (RBTree.mk0 m).1.next = m.next + 1 := rfl
  have hh0 : (RBTree.mk0 m).2.header_ = m.next := rfl
  have hbs : ∀ x ∈ so.addrs, x < m.next :=
    fun x hx => ho.wf.bound x (List.mem_cons_of_mem _ hx)
  by_cases hso : so = Sh.nil
  · subst hso
    refine ⟨(RBTree.mk0 m).1, Sh.nil, ?_, ?_, rfl, by simp, hag, by omega⟩
    · have hs0 : other.size_ = 0 := ho.size
      unfold copyConstruct
      rw [CopyTree_nil throws ho', hs0]
      rfl
    · have hs0 : other.size_ = 0 := ho.size
      rw [hs0]
      exact h0
  · obtain ⟨m', e, inv, hk, ag, hn⟩ := CopyTree_spec throws h0.wf ho' hso (fun a ha => by
      rw [hag.key a (hbs a ha)]
      exact hth a ha)
    rw [hh0] at e inv
    refine ⟨m', _, e, inv, ?_, by simp [copySh_nil_iff, hso], ?_, by omega⟩
    · rw [hk, hag.map_key hbs]
    · refine hag.trans (ag.mono (fun x hx => ?_))
      rw [hn0, hh0]
      exact ⟨by omega, by omega⟩

/-- The statement `return *this;` of the assignment operators when no key copy throws: the
temporary is built and destroyed at fresh addresses. -/
theorem returnCopy_spec [Inhabited K] (throws : K → Bool) {m : Mem K} {t : RBTree} {sh : Sh}
    (h : Inv m t sh) (hth : ∀ a ∈ sh.addrs, throws (m.key_ a) = false) :
    ∃ m', returnCopy throws m t = some (m', t, false) ∧
      AgreeOn (fun x => x < m.next) m m' ∧ m.next ≤ m'.next := by
  obtain ⟨m1, s1, e, inv1, -, -, ag, hn⟩ := copyConstruct_spec throws h hth
  obtain ⟨ec, -⟩ := Clear_spec inv1.wf
  refine ⟨m1.setParent m.next none, ?_, ag.setParent _ (Nat.lt_irrefl _), ?_⟩
  · unfold returnCopy
    rw [e]
    simp only [destroy, ec, Option.map_some']
  · simp only [Mem.setParent_next]
    omega

/-- Copy assignment between two distinct trees when no key copy throws. -/
theorem copyAssign_spec [Inhabited K] (throws : K → Bool) {m : Mem K} {t other : RBTree}
    {st so : Sh} (ht : WF m t.header_ st) (ho : Inv m other so)
    (hdis : t.header_ ∉ other.header_ :: so.addrs)
    (hth : ∀ a ∈ so.addrs, throws (m.key_ a) = false) :
    ∃ m' s', copyAssign throws m t other =
        some (m', { header_ := t.header_, size_ := other.size_ }, false) ∧
      Inv m' { header_ := t.header_, size_ := other.size_ } s' ∧
      s'.addrs.map m'.key_ = so.addrs.map m.key_ ∧ (s' = Sh.nil ↔ so = Sh.nil) ∧
      AgreeOn (fun x => x < m.next ∧ x ≠ t.header_) m m' ∧ m.next ≤ m'.next := by
  have hhdr : t.header_ ≠ other.header_ := fun e => hdis (by simp [e])
  obtain ⟨ec, wf1⟩ := Clear_spec ht
  have ag1 : AgreeOn (fun x => x < m.next ∧ x ≠ t.header_) m (m.setParent t.header_ none) :=
    (AgreeOn.refl _ m).setParent _ (fun h => h.2 rfl)
  have hbs : ∀ x ∈ other.header_ :: so.addrs, x < m.next ∧ x ≠ t.header_ :=
    fun x hx => ⟨ho.wf.bound x hx, fun e => hdis (e ▸ hx)⟩
  have ho1 : Inv (m.setParent t.header_ none) other so := ho.agree_inv ag1 hbs (Nat.le_refl _)
  have hk1 : ∀ a ∈ so.addrs, throws ((m.setParent t.header_ none).key_ a) = false := hth
  unfold copyAssign
  rw [if_neg hhdr, ec]
  by_cases hso : so = Sh.nil
  · subst hso
    have hs0 : other.size_ = 0 := ho.size
    have inv1 : Inv (m.setParent t.header_ none) { t with size_ := 0 } Sh.nil :=
      Inv_empty wf1 rfl
    obtain ⟨m3, e3, ag3, hn3⟩ := returnCopy_spec throws inv1 (by simp)
    refine ⟨m3, Sh.nil, ?_, ?_, rfl, by simp, ?_, by simpa using hn3⟩
    · simp only [CopyTree_nil throws ho1, e3, hs0]
    · rw [hs0]
      exact inv1.agree_inv ag3 (fun x hx => by
        simp only [Sh.addrs_nil, List.mem_singleton] at hx
        subst hx
        exact wf1.bound _ (by simp)) hn3
    · exact ag1.trans (ag3.mono (fun x hx => hx.1))
  · obtain ⟨m2, e2, inv2, hk2, ag2, hn2⟩ :=
      CopyTree_spec throws (t := { t with size_ := 0 }) wf1 ho1 hso hk1
    have hk2' : ∀ a ∈ (copySh (m.setParent t.header_ none).next so).addrs,
        throws (m2.key_ a) = false := by
      intro a ha
      have h1 : m2.key_ a ∈ (copySh (m.setParent t.header_ none).next so).addrs.map m2.key_ :=
        List.mem_map_of_mem _ ha
      rw [hk2] at h1
      obtain ⟨b, hb, hbe⟩ := List.mem_map.1 h1
      rw [← hbe]
      exact hth b hb
    obtain ⟨m3, e3, ag3, hn3⟩ := returnCopy_spec throws inv2 hk2'
    refine ⟨m3, copySh m.next so, ?_, ?_, ?_, by simp [copySh_nil_iff, hso], ?_, ?_⟩
    · simp only [e2, e3]
    · exact inv2.agree_inv ag3 (fun x hx => inv2.wf.bound x hx) hn3
    · exact (ag3.map_key (fun x hx => inv2.wf.bound x (List.mem_cons_of_mem _ hx))).trans hk2
    · exact ag1.trans (ag2.trans (ag3.mono (fun x hx => by
        have : m.next ≤ m2.next := hn2
        omega)))
    · have : m.next ≤ m2.next := hn2
      omega

/-- Move assignment between two distinct trees when no key copy throws: `*this` takes over
the header and the size of `other`, and `other` is left with the cleared header of
`*this`. -/
theorem moveAssign_spec [Inhabited K] (throws : K → Bool) {m : Mem K} {t other : RBTree}
    {st so : Sh} (ht : WF m t.header_ st) (ho : Inv m other so)
    (hdis : t.header_ ∉ other.header_ :: so.addrs)
    (hth : ∀ a ∈ so.addrs, throws (m.key_ a) = false) :
    ∃ m', moveAssign throws m t other =
        some (m', other, { header_ := t.header_, size_ := 0 }) ∧
      Inv m' other so ∧ Inv m' { header_ := t.header_, size_ := 0 } Sh.nil ∧
      AgreeOn (fun x => x < m.next ∧ x ≠ t.header_) m m' ∧ m.next ≤ m'.next := by
  have hhdr : t.header_ ≠ other.header_ := fun e => hdis (by simp [e])
  obtain ⟨ec, wf1⟩ := Clear_spec ht
  have ag1 : AgreeOn (fun x => x < m.next ∧ x ≠ t.header_) m (m.setParent t.header_ none) :=
    (AgreeOn.refl _ m).setParent _ (fun h => h.2 rfl)
  have hbs : ∀ x ∈ other.header_ :: so.addrs, x < m.next ∧ x ≠ t.header_ :=
    fun x hx => ⟨ho.wf.bound x hx, fun e => hdis (e ▸ hx)⟩
  have ho1 : Inv (m.setParent t.header_ none) other so := ho.agree_inv ag1 hbs (Nat.le_refl _)
  obtain ⟨m3, e3, ag3, hn3⟩ := returnCopy_spec throws ho1 hth
  refine ⟨m3, ?_, ?_, ?_, ag1.trans (ag3.mono (fun x hx => hx.1)), by simpa using hn3⟩
  · unfold moveAssign
    rw [if_neg hhdr, ec]
    have : (Swap { t with size_ := 0 } other).1 = other := rfl
    simp only [this, e3]
    rfl
  · exact ho1.agree_inv ag3 (fun x hx => ho1.wf.bound x hx) hn3
  · have inv1 : Inv (m.setParent t.header_ none) { header_ := t.header_, size_ := 0 } Sh.nil :=
      Inv_empty wf1 rfl
    exact inv1.agree_inv ag3 (fun x hx => by
      simp only [Sh.addrs_nil, List.mem_singleton] at hx
      subst hx
      exact wf1.bound _ (by simp)) hn3

/-- Self-assignment (copy or move) when no key copy throws: only the temporary of
`return *this;` is built and destroyed. -/
theorem selfAssign_spec [Inhabited K] (throws : K → Bool) {m : Mem K} {t : RBTree} {sh : Sh}
    (h : Inv m t sh) (hth : ∀ a ∈ sh.addrs, throws (m.key_ a) = false) :
    ∃ m', copyAssign throws m t t = some (m', t, false) ∧
      moveAssign throws m t t = some (m', t, t) ∧
      AgreeOn (fun x => x < m.next) m m' ∧ m.next ≤ m'.next := by
  obtain ⟨m', e, ag, hn⟩ := returnCopy_spec throws h hth
  refine ⟨m', ?_, ?_, ag, hn⟩
  · simp [copyAssign, e]
  · simp [moveAssign, e]

theorem list_beq_refl [BEq K] (hrefl : ∀ k : K, (k == k) = true) :
    ∀ L : List K, (L == L) = true := by
  intro L
  induction L with
  | nil => rfl
  | cons a L ih =>
    have : ((a :: L) == (a :: L)) = ((a == a) && (L == L)) := rfl
    rw [this, hrefl, ih]
    rfl

/-- A tree that holds the keys of another one, place by place, compares equal to it, unless
both are empty: then `operator==` reads the null root. -/
theorem opEq_copy [BEq K] (hrefl : ∀ k : K, (k == k) = true) {m : Mem K} {c t : RBTree}
    {sc st : Sh} (hc : Inv m c sc) (ht : Inv m t st)
    (hk : sc.addrs.map m.key_ = st.addrs.map m.key_) (hnil : sc = Sh.nil ↔ st = Sh.nil) :
    opEq m c t = (if Size t = 0 then none else some true) := by
  have h := opEq_spec hc.wf ht.wf hc.size ht.size
  by_cases h0 : st = Sh.nil
  · have hs : Size t = 0 := by
      have := ht.size
      rw [h0] at this
      exact this
    rw [if_pos hs]
    exact (h.1 ⟨hnil.2 h0, h0⟩).1
  · have hs : Size t ≠ 0 := by
      have := ht.size
      cases st with
      | nil => exact absurd rfl h0
      | node l a r =>
        simp only [Sh.addrs_node, List.length_append, List.length_cons] at this
        unfold Size
        omega
    rw [if_neg hs, (h.2 (fun hh => h0 hh.2)).1, hk, list_beq_refl hrefl]

set_option maxRecDepth 100000 in
theorem exDest_wf : WF exDest.1 exDest.2.header_ shDest := by
  refine ⟨by decide, by decide, by decide, ?_, by decide, by decide⟩
  exact ⟨by decide, by decide, by decide, trivial,
    ⟨by decide, by decide, by decide, trivial, trivial⟩⟩

set_option maxRecDepth 100000 in
theorem exDest_inv : Inv exDest.1 exDest.2 shDest := by
  refine ⟨exDest_wf, by decide, ⟨?_, ?_, ?_⟩⟩
  · simp only [shDest, isBlk_node]
    decide
  · simp only [shDest, NoRR_node, NoRR_nil, isBlk_node, isBlk_nil, and_true]
    decide
  · simp only [shDest, Bal_node, Bal_nil, bh_node, bh_nil, and_true]
    decide

set_option maxRecDepth 100000 in
theorem exDest_src_wf : WF exDest.1 exSet.2.header_ shSet := by
  refine ⟨by decide, by decide, by decide, ?_, by decide, by decide⟩
  refine ⟨by decide, by decide, by decide, ⟨by decide, by decide, by decide,
    ⟨by decide, by decide, by decide, trivial, trivial⟩,
    ⟨by decide, by decide, by decide, trivial, trivial⟩⟩,
    ⟨by decide, by decide, by decide, trivial, trivial⟩⟩

set_option maxRecDepth 100000 in
theorem exDest_src_inv : Inv exDest.1 exSet.2 shSet := by
  refine ⟨exDest_src_wf, by decide, ⟨?_, ?_, ?_⟩⟩
  · simp only [shSet, isBlk_node]
    decide
  · simp only [shSet, NoRR_node, NoRR_nil, isBlk_node, isBlk_nil, and_true]
    decide
  · simp only [shSet, Bal_node, Bal_nil, bh_node, bh_nil, and_true]
    decide

theorem exEmpty_inv : Inv exEmpty.1 exEmpty.2 Sh.nil :=
  Inv_mk0 _

theorem exEmpty_fst_inv : Inv exEmpty.1 (RBTree.mk0 (Mem.init : Mem Nat)).2 Sh.nil :=
  (Inv_mk0 (Mem.init : Mem Nat)).alloc default

theorem InS_none (S : Nat → Prop) : InS S none := fun _ e => Option.noConfusion e

theorem InS_some {S : Nat → Prop} {a : Nat} (h : S a) : InS S (some a) :=
  fun _ e => (Option.some.inj e) ▸ h

theorem Local.of_closed {S : Nat → Prop} {m : Mem K} (h : Closed S m) : Local S m m :=
  ⟨h, AgreeOn.refl _ m, rfl, rfl⟩

theorem Local.comp {S : Nat → Prop} {m1 m2 m3 : Mem K} (h1 : Local S m1 m2)
    (h2 : Local S m2 m3) : Local S m1 m3 :=
  ⟨h2.closed, h1.agree.trans h2.agree, h2.next.trans h1.next, h2.key.trans h1.key⟩

theorem Local.wrParent {S : Nat → Prop} {m m' : Mem K} (h : Local S m m') {a : Nat} {v : Ptr}
    (ha : S a) (hv : InS S v) : Local S m (m'.setParent a v) := by
  refine ⟨⟨?_, h.closed.left, h.closed.right⟩, h.agree.setParent v (fun hn => hn ha), h.next,
    h.key⟩
  intro x b hx e
  simp only [Mem.setParent_parent, upd_apply] at e
  split at e
  · exact hv b e
  · exact h.closed.parent hx e

theorem Local.wrLeft {S : Nat → Prop} {m m' : Mem K} (h : Local S m m') {a : Nat} {v : Ptr}
    (ha : S a) (hv : InS S v) : Local S m (m'.setLeft a v) := by
  refine ⟨⟨h.closed.parent, ?_, h.closed.right⟩, h.agree.setLeft v (fun hn => hn ha), h.next,
    h.key⟩
  intro x b hx e
  simp only [Mem.setLeft_left, upd_apply] at e
  split at e
  · exact hv b e
  · exact h.closed.left hx e

theorem Local.wrRight {S : Nat → Prop} {m m' : Mem K} (h : Local S m m') {a : Nat} {v : Ptr}
    (ha : S a) (hv : InS S v) : Local S m (m'.setRight a v) := by
  refine ⟨⟨h.closed.parent, h.closed.left, ?_⟩, h.agree.setRight v (fun hn => hn ha), h.next,
    h.key⟩
  intro x b hx e
  simp only [Mem.setRight_right, upd_apply] at e
  split at e
  · exact hv b e
  · exact h.closed.right hx e

theorem Local.wrRed {S : Nat → Prop} {m m' : Mem K} (h : Local S m m') {a : Nat} (v : Bool)
    (ha : S a) : Local S m (m'.setRed a v) :=
  ⟨⟨h.closed.parent, h.closed.left, h.closed.right⟩, h.agree.offRed v (fun hn => hn ha),
    h.next, h.key⟩

theorem Local.wrInit {S : Nat → Prop} {m m' : Mem K} (h : Local S m m') {a : Nat}
    (ha : S a) : Local S m (m'.InitNode a) :=
  (((h.wrParent ha (InS_none S)).wrLeft ha (InS_none S)).wrRight ha
    (InS_none S)).wrRed true ha

theorem Closed.inParent {S : Nat → Prop} {m : Mem K} (h : Closed S m) {a : Nat} (ha : S a) :
    InS S (m.parent_ a) := fun _ e => h.parent ha e

theorem Closed.inLeft {S : Nat → Prop} {m : Mem K} (h : Closed S m) {a : Nat} (ha : S a) :
    InS S (m.left_ a) := fun _ e => h.left ha e

theorem Closed.inRight {S : Nat → Prop} {m : Mem K} (h : Closed S m) {a : Nat} (ha : S a) :
    InS S (m.right_ a) := fun _ e => h.right ha e

theorem relinkL_local {S : Nat → Prop} {m0 m m' : Mem K} {hdr node : Nat} {q : Ptr}
    (hL : Local S m0 m) (hh : S hdr) (hn : S node) (hq : InS S q)
    (e : relinkL m hdr node q = some m') : Local S m0 m' := by
  unfold relinkL at e
  split at e
  · cases e
    exact hL.wrParent hh hq
  · cases hp : m.parent_ node with
    | none => simp [hp] at e
    | some p =>
      have hps : S p := hL.closed.parent hn hp
      simp only [hp, Option.bind_eq_bind, Option.some_bind] at e
      split at e
      · cases e
        exact hL.wrLeft hps hq
      · cases e
        exact hL.wrRight hps hq

theorem relinkR_local {S : Nat → Prop} {m0 m m' : Mem K} {hdr node : Nat} {q : Ptr}
    (hL : Local S m0 m) (hh : S hdr) (hn : S node) (hq : InS S q)
    (e : relinkR m hdr node q = some m') : Local S m0 m' := by
  unfold relinkR at e
  split at e
  · cases e
    exact hL.wrParent hh hq
  · cases hp : m.parent_ node with
    | none => simp [hp] at e
    | some p =>
      have hps : S p := hL.closed.parent hn hp
      simp only [hp, Option.bind_eq_bind, Option.some_bind] at e
      split at e
      · cases e
        exact hL.wrRight hps hq
      · cases e
        exact hL.wrLeft hps hq

theorem RotateLeft_local {S : Nat → Prop} {m0 m m' : Mem K} {hdr node : Nat}
    (hL : Local S m0 m) (hh : S hdr) (hn : S node) (e : RotateLeft m hdr node = some m') :
    Local S m0 m' := by
  rw [RotateLeft_eq] at e
  cases hr : m.right_ node with
  | none => simp [hr] at e
  | some rn =>
    have hrn : S rn := hL.closed.right hn hr
    simp only [hr, Option.bind_eq_bind, Option.some_bind] at e
    have hL1 := hL.wrParent hrn (hL.closed.inParent hn)
    cases h2 : relinkL (m.setParent rn (m.parent_ node)) hdr node (some rn) with
    | none => simp [h2] at e
    | some m2 =>
      have hL2 := relinkL_local hL1 hh hn (InS_some hrn) h2
      simp only [h2, Option.some_bind, Option.pure_def, Option.some.injEq] at e
      subst e
      have hL3 := hL2.wrRight hn (hL2.closed.inLeft hrn)
      cases hrl : (m2.setRight node (m2.left_ rn)).left_ rn with
      | none =>
        simp only [hrl]
        exact (hL3.wrParent hn (InS_some hrn)).wrLeft hrn (InS_some hn)
      | some rl =>
        simp only [hrl]
        have hrls : S rl := hL3.closed.left hrn hrl
        exact ((hL3.wrParent hrls (InS_some hn)).wrParent hn (InS_some hrn)).wrLeft hrn
          (InS_some hn)

theorem RotateRight_local {S : Nat → Prop} {m0 m m' : Mem K} {hdr node : Nat}
    (hL : Local S m0 m) (hh : S hdr) (hn : S node) (e : RotateRight m hdr node = some m') :
    Local S m0 m' := by
  rw [RotateRight_eq] at e
  cases hr : m.left_ node with
  | none => simp [hr] at e
  | some rn =>
    have hrn : S rn := hL.closed.left hn hr
    simp only [hr, Option.bind_eq_bind, Option.some_bind] at e
    have hL1 := hL.wrParent hrn (hL.closed.inParent hn)
    cases h2 : relinkR (m.setParent rn (m.parent_ node)) hdr node (some rn) with
    | none => simp [h2] at e
    | some m2 =>
      have hL2 := relinkR_local hL1 hh hn (InS_some hrn) h2
      simp only [h2, Option.some_bind, Option.pure_def, Option.some.injEq] at e
      subst e
      have hL3 := hL2.wrLeft hn (hL2.closed.inRight hrn)
      cases hrl : (m2.setLeft node (m2.right_ rn)).right_ rn with
      | none =>
        simp only [hrl]
        exact (hL3.wrParent hn (InS_some hrn)).wrRight hrn (InS_some hn)
      | some rl =>
        simp only [hrl]
        have hrls : S rl := hL3.closed.right hrn hrl
        exact ((hL3.wrParent hrls (InS_some hn)).wrParent hn (InS_some hrn)).wrRight hrn
          (InS_some hn)

theorem fixTailR_local {S : Nat → Prop} {m0 m1 m' : Mem K} {hdr x n' fuel : Nat}
    (ih : ∀ (m : Mem K) (node : Nat) (m' : Mem K) (n' : Nat), Local S m0 m → S node →
      InsertFixupLoop hdr fuel m node = some (m', n') → Local S m0 m' ∧ S n')
    (hh : S hdr) (hL : Local S m0 m1) (hx : S x)
    (e : (Option.bind (m1.parent_ x) fun p1 =>
        Option.bind (m1.parent_ x) fun p2 =>
          Option.bind (m1.parent_ p2) fun g2 =>
            Option.bind (m1.parent_ x) fun p3 =>
              Option.bind (m1.parent_ p3) fun g3 =>
                (RotateRight ((m1.setRed p1 false).setRed g2 true) hdr g3).bind fun m =>
                  InsertFixupLoop hdr fuel m x) = some (m', n')) :
    Local S m0 m' ∧ S n' := by
  cases h1 : m1.parent_ x with
  | none => simp [h1] at e
  | some p1 =>
    have hp1 : S p1 := hL.closed.parent hx h1
    simp only [h1, Option.some_bind] at e
    cases h2 : m1.parent_ p1 with
    | none => simp [h2] at e
    | some g2 =>
      have hg2 : S g2 := hL.closed.parent hp1 h2
      simp only [h2, Option.some_bind] at e
      cases h3 : RotateRight ((m1.setRed p1 false).setRed g2 true) hdr g2 with
      | none => simp [h3] at e
      | some m2 =>
        simp only [h3, Option.some_bind] at e
        exact ih _ _ _ _ (RotateRight_local ((hL.wrRed false hp1).wrRed true hg2) hh hg2 h3)
          hx e

theorem fixTailL_local {S : Nat → Prop} {m0 m1 m' : Mem K} {hdr x n' fuel : Nat}
    (ih : ∀ (m : Mem K) (node : Nat) (m' : Mem K) (n' : Nat), Local S m0 m → S node →
      InsertFixupLoop hdr fuel m node = some (m', n') → Local S m0 m' ∧ S n')
    (hh : S hdr) (hL : Local S m0 m1) (hx : S x)
    (e : (Option.bind (m1.parent_ x) fun p1 =>
        Option.bind (m1.parent_ x) fun p2 =>
          Option.bind (m1.parent_ p2) fun g2 =>
            Option.bind (m1.parent_ x) fun p3 =>
              Option.bind (m1.parent_ p3) fun g3 =>
                (RotateLeft ((m1.setRed p1 false).setRed g2 true) hdr g3).bind fun m =>
                  InsertFixupLoop hdr fuel m x) = some (m', n')) :
    Local S m0 m' ∧ S n' := by
  cases h1 : m1.parent_ x with
  | none => simp [h1] at e
  | some p1 =>
    have hp1 : S p1 := hL.closed.parent hx h1
    simp only [h1, Option.some_bind] at e
    cases h2 : m1.parent_ p1 with
    | none => simp [h2] at e
    | some g2 =>
      have hg2 : S g2 := hL.closed.parent hp1 h2
      simp only [h2, Option.some_bind] at e
      cases h3 : RotateLeft ((m1.setRed p1 false).setRed g2 true) hdr g2 with
      | none => simp [h3] at e
      | some m2 =>
        simp only [h3, Option.some_bind] at e
        exact ih _ _ _ _ (RotateLeft_local ((hL.wrRed false hp1).wrRed true hg2) hh hg2 h3)
          hx e

theorem InsertFixupLoop_local {S : Nat → Prop} {m0 : Mem K} {hdr : Nat} (hh : S hdr) :
    ∀ (fuel : Nat) (m : Mem K) (node : Nat) (m' : Mem K) (n' : Nat), Local S m0 m → S node →
      InsertFixupLoop hdr fuel m node = some (m', n') → Local S m0 m' ∧ S n' := by
  intro fuel
  induction fuel with
  | zero =>
    intro m node m' n' _ _ e
    simp [InsertFixupLoop] at e
  | succ fuel ih =>
    intro m node m' n' hL hn e
    by_cases h : Root m hdr = some node
    · rw [InsertFixupLoop_exit_root _ h] at e
      cases e
      exact ⟨hL, hn⟩
    cases hp : m.parent_ node with
    | none => simp [InsertFixupLoop, h, hp] at e
    | some p =>
      have hps : S p := hL.closed.parent hn hp
      cases hb : m.red_ p with
      | false =>
        rw [InsertFixupLoop_exit_black _ h hp hb] at e
        cases e
        exact ⟨hL, hn⟩
      | true =>
        cases hg : m.parent_ p with
        | none => simp [InsertFixupLoop, h, hp, hb, hg] at e
        | some g =>
          have hgs : S g := hL.closed.parent hps hg
          by_cases hl : m.left_ g = some p
          · cases hu : m.nonNullRed (m.right_ g) with
            | true =>
              cases hur : m.right_ g with
              | none => simp [hur, Mem.nonNullRed] at hu
              | some u =>
                have hus : S u := hL.closed.right hgs hur
                have hured : m.red_ u = true := by simpa [hur, Mem.nonNullRed] using hu
                rw [InsertFixupLoop_recolorL fuel h hp hb hg hl hur hured] at e
                exact ih _ _ _ _ (((hL.wrRed false hps).wrRed false hus).wrRed true hgs)
                  hgs e
            | false =>
              by_cases hx : m.right_ p = some node
              · simp [InsertFixupLoop, h, hp, hb, hg, hl, hu, hx] at e
                cases hrot : RotateLeft m hdr p with
                | none => simp [hrot] at e
                | some m1 =>
                  simp only [hrot, Option.some_bind] at e
                  exact fixTailR_local ih hh (RotateLeft_local hL hh hps hrot) hps e
              · rw [InsertFixupLoop_zigzigL fuel h hp hb hg hl hu hx] at e
                cases hrot : RotateRight ((m.setRed p false).setRed g true) hdr g with
                | none => simp [hrot] at e
                | some m1 =>
                  simp only [hrot, Option.some_bind] at e
                  exact ih _ _ _ _
                    (RotateRight_local ((hL.wrRed false hps).wrRed true hgs) hh hgs hrot) hn e
          · have hl' : ¬ (some p = m.left_ g) := fun e => hl e.symm
            cases hu : m.nonNullRed (m.left_ g) with
            | true =>
              cases hur : m.left_ g with
              | none => simp [hur, Mem.nonNullRed] at hu
              | some u =>
                have hus : S u := hL.closed.left hgs hur
                have hured : m.red_ u = true := by simpa [hur, Mem.nonNullRed] using hu
                rw [InsertFixupLoop_recolorR fuel h hp hb hg hl hur hured] at e
                exact ih _ _ _ _ (((hL.wrRed false hps).wrRed false hus).wrRed true hgs)
                  hgs e
            | false =>
              by_cases hx : m.left_ p = some node
              · simp [InsertFixupLoop, h, hp, hb, hg, hl', hu, hx] at e
                cases hrot : RotateRight m hdr p with
                | none => simp [hrot] at e
                | some m1 =>
                  simp only [hrot, Option.some_bind] at e
                  exact fixTailL_local ih hh (RotateRight_local hL hh hps hrot) hps e
              · rw [InsertFixupLoop_zigzigR fuel h hp hb hg hl hu hx] at e
                cases hrot : RotateLeft ((m.setRed p false).setRed g true) hdr g with
                | none => simp [hrot] at e
                | some m1 =>
                  simp only [hrot, Option.some_bind] at e
                  exact ih _ _ _ _
                    (RotateLeft_local ((hL.wrRed false hps).wrRed true hgs) hh hgs hrot) hn e

theorem InsertFixup_local {S : Nat → Prop} {m0 m m' : Mem K} {hdr node : Nat}
    (hL : Local S m0 m) (hh : S hdr) (hn : S node) (e : InsertFixup m hdr node = some m') :
    Local S m0 m' := by
  unfold InsertFixup at e
  cases hl : InsertFixupLoop hdr m.next m node with
  | none => simp [hl] at e
  | some r =>
    obtain ⟨m1, n1⟩ := r
    obtain ⟨hL1, hn1⟩ := InsertFixupLoop_local hh _ _ _ _ _ hL hn hl
    simp only [hl, Option.bind_eq_bind, Option.some_bind] at e
    split at e
    · cases e
      exact hL1.wrRed false hn1
    · cases e
      exact hL1

theorem FindLoop_mem (lt : K → K → Bool) {S : Nat → Prop} {m : Mem K} (hc : Closed S m)
    (key : K) :
    ∀ (fuel : Nat) (ret : Int) (cur : Ptr) (par : Nat) (r : Int) (p : Nat), InS S cur → S par →
      FindLoop lt m key fuel ret cur par = some (r, p) → S p := by
  intro fuel
  induction fuel with
  | zero =>
    intro ret cur par r p _ hp e
    cases cur with
    | none =>
      simp only [FindLoop, Option.some.injEq, Prod.mk.injEq] at e
      exact e.2 ▸ hp
    | some c => simp [FindLoop] at e
  | succ fuel ih =>
    intro ret cur par r p hcur hp e
    cases cur with
    | none =>
      simp only [FindLoop, Option.some.injEq, Prod.mk.injEq] at e
      exact e.2 ▸ hp
    | some c =>
      have hcs : S c := hcur c rfl
      simp only [FindLoop] at e
      split at e
      · exact ih _ _ _ _ _ (hc.inLeft hcs) hcs e
      · split at e
        · exact ih _ _ _ _ _ (hc.inRight hcs) hcs e
        · simp only [Option.some.injEq, Prod.mk.injEq] at e
          exact e.2 ▸ hcs

theorem FindFrom_mem (lt : K → K → Bool) {S : Nat → Prop} {m : Mem K} (hc : Closed S m)
    {hdr : Nat} {key : K} {start : Ptr} {r : Int} {p : Nat} (hs : InS S start) (hh : S hdr)
    (e : FindFrom lt m hdr key start = some (r, p)) : S p :=
  FindLoop_mem lt hc key _ _ _ _ _ _ hs hh e

theorem InsertDescend_mem (lt : K → K → Bool) {S : Nat → Prop} {m : Mem K} (hc : Closed S m)
    {hdr : Nat} (hh : S hdr) (key : K) (uniq : Bool) :
    ∀ (fuel : Nat) (ret : Int) (par : Nat) (d : Nat ⊕ (Int × Nat)), S par →
      InsertDescend lt m hdr key uniq fuel ret par = some d →
      match d with
      | Sum.inl p => S p
      | Sum.inr (_, p) => S p := by
  intro fuel
  induction fuel with
  | zero =>
    intro ret par d _ e
    simp [InsertDescend] at e
  | succ fuel ih =>
    intro ret par d hp e
    simp only [InsertDescend] at e
    split at e
    · split at e
      · cases e
        exact hp
      · split at e
        · rename_i start hst
          cases hf : FindFrom lt m hdr key (some start) with
          | none => simp [hf] at e
          | some r =>
            obtain ⟨r1, r2⟩ := r
            simp only [hf, Option.bind_eq_bind, Option.some_bind] at e
            exact ih _ _ _ (FindFrom_mem lt hc (InS_some (hc.right hp hst)) hh hf) e
        · cases e
          exact hp
    · cases e
      exact hp

theorem linkNode_local {S : Nat → Prop} {m0 m : Mem K} (hL : Local S m0 m) (t : RBTree)
    {x par : Nat} (ret : Int) (hh : S t.header_) (hx : S x) (hp : S par) :
    Local S m0 (linkNode m t x ret par) := by
  unfold linkNode
  split
  · exact (hL.wrParent hh (InS_some hx)).wrParent hx (InS_some hh)
  · simp only []
    split
    · exact (hL.wrParent hx (InS_some hp)).wrLeft hp (InS_some hx)
    · exact (hL.wrParent hx (InS_some hp)).wrRight hp (InS_some hx)

/-- `InsertNode` reads and writes only inside a closed set that holds the header and the
node to insert. -/
theorem InsertNode_local (lt : K → K → Bool) {S : Nat → Prop} {m m' : Mem K} {t t' : RBTree}
    {x : Nat} {uniq : Bool} {it : Ptr} {ok : Bool} (hc : Closed S m) (hh : S t.header_)
    (hx : S x) (e : InsertNode lt m t x uniq = some (m', t', it, ok)) : Local S m m' := by
  rw [InsertNode_eq] at e
  cases hf : FindFrom lt m t.header_ (m.key_ x) (Root m t.header_) with
  | none => simp [hf] at e
  | some r =>
    obtain ⟨r1, r2⟩ := r
    have hr2 : S r2 := FindFrom_mem lt hc (hc.inParent hh) hh hf
    simp only [hf, Option.bind_eq_bind, Option.some_bind] at e
    cases hd : InsertDescend lt m t.header_ (m.key_ x) uniq m.next r1 r2 with
    | none => simp [hd] at e
    | some d =>
      have hds := InsertDescend_mem lt hc hh (m.key_ x) uniq _ _ _ _ hr2 hd
      simp only [hd, Option.some_bind] at e
      cases d with
      | inl p =>
        simp only [Option.pure_def, Option.some.injEq, Prod.mk.injEq] at e
        rw [← e.1]
        exact Local.of_closed hc
      | inr q =>
        obtain ⟨ret, par⟩ := q
        simp only [] at hds e
        cases hfix : InsertFixup (linkNode m t x ret par) t.header_ x with
        | none => simp [hfix] at e
        | some m2 =>
          simp only [hfix, Option.bind_eq_bind, Option.some_bind, Option.pure_def,
            Option.some.injEq, Prod.mk.injEq] at e
          rw [← e.1]
          exact InsertFixup_local (linkNode_local (Local.of_closed hc) t ret hh hx hds) hh hx hfix

theorem ExtractFixupLoop_succ (hdr fuel : Nat) (m : Mem K) (del : Nat) (parent : Ptr) :
    ExtractFixupLoop hdr (fuel + 1) m del parent =
      (if Root m hdr = some del ∨ m.red_ del = true then pure m
      else do
        let p ← parent
        if some del = m.left_ p then do
          let brother ← m.right_ p
          let (m, p, brother) ← efRedL m hdr del p brother
          efRestL hdr (ExtractFixupLoop hdr fuel) m p brother
        else do
          let brother ← m.left_ p
          let (m, p, brother) ← efRedR m hdr del p brother
          efRestR hdr (ExtractFixupLoop hdr fuel) m p brother) := rfl

theorem efRedL_local {S : Nat → Prop} {m0 m m1 : Mem K} {hdr del p b p1 b1 : Nat}
    (hL : Local S m0 m) (hh : S hdr) (hd : S del) (hp : S p) (hb : S b)
    (e : efRedL m hdr del p b = some (m1, p1, b1)) : Local S m0 m1 ∧ S p1 ∧ S b1 := by
  unfold efRedL at e
  split at e
  · cases hrot : RotateLeft ((m.setRed b (m.red_ p)).setRed p (m.red_ b)) hdr p with
    | none => simp [hrot] at e
    | some m2 =>
      have hL2 := RotateLeft_local ((hL.wrRed _ hb).wrRed _ hp) hh hp hrot
      simp only [hrot, Option.bind_eq_bind, Option.some_bind] at e
      cases h1 : m2.parent_ del with
      | none => simp [h1] at e
      | some q =>
        simp only [h1, Option.some_bind] at e
        cases h2 : m2.right_ q with
        | none => simp [h2] at e
        | some q2 =>
          simp only [h2, Option.some_bind, Option.pure_def, Option.some.injEq,
            Prod.mk.injEq] at e
          obtain ⟨rfl, rfl, rfl⟩ := e
          exact ⟨hL2, hL2.closed.parent hd h1, hL2.closed.right (hL2.closed.parent hd h1) h2⟩
  · simp only [Option.pure_def, Option.some.injEq, Prod.mk.injEq] at e
    obtain ⟨rfl, rfl, rfl⟩ := e
    exact ⟨hL, hp, hb⟩

theorem efRedR_local {S : Nat → Prop} {m0 m m1 : Mem K} {hdr del p b p1 b1 : Nat}
    (hL : Local S m0 m) (hh : S hdr) (hd : S del) (hp : S p) (hb : S b)
    (e : efRedR m hdr del p b = some (m1, p1, b1)) : Local S m0 m1 ∧ S p1 ∧ S b1 := by
  unfold efRedR at e
  split at e
  · cases hrot : RotateRight ((m.setRed b (m.red_ p)).setRed p (m.red_ b)) hdr p with
    | none => simp [hrot] at e
    | some m2 =>
      have hL2 := RotateRight_local ((hL.wrRed _ hb).wrRed _ hp) hh hp hrot
      simp only [hrot, Option.bind_eq_bind, Option.some_bind] at e
      cases h1 : m2.parent_ del with
      | none => simp [h1] at e
      | some q =>
        simp only [h1, Option.some_bind] at e
        cases h2 : m2.left_ q with
        | none => simp [h2] at e
        | some q2 =>
          simp only [h2, Option.some_bind, Option.pure_def, Option.some.injEq,
            Prod.mk.injEq] at e
          obtain ⟨rfl, rfl, rfl⟩ := e
          exact ⟨hL2, hL2.closed.parent hd h1, hL2.closed.left (hL2.closed.parent hd h1) h2⟩
  · simp only [Option.pure_def, Option.some.injEq, Prod.mk.injEq] at e
    obtain ⟨rfl, rfl, rfl⟩ := e
    exact ⟨hL, hp, hb⟩

theorem efNearL_local {S : Nat → Prop} {m0 m m1 : Mem K} {hdr p b b1 : Nat}
    (hL : Local S m0 m) (hh : S hdr) (hp : S p) (hb : S b)
    (e : efNearL m hdr p b = some (m1, b1)) : Local S m0 m1 ∧ S b1 := by
  unfold efNearL at e
  split at e
  · cases h0 : m.left_ b with
    | none => simp [h0] at e
    | some bl =>
      have hbl : S bl := hL.closed.left hb h0
      simp only [h0, Option.bind_eq_bind, Option.some_bind] at e
      cases hrot : RotateRight ((m.setRed b (m.red_ bl)).setRed bl (m.red_ b)) hdr b with
      | none => simp [hrot] at e
      | some m2 =>
        have hL2 := RotateRight_local ((hL.wrRed _ hb).wrRed _ hbl) hh hb hrot
        simp only [hrot, Option.some_bind] at e
        cases h2 : m2.right_ p with
        | none => simp [h2] at e
        | some q2 =>
          simp only [h2, Option.some_bind, Option.pure_def, Option.some.injEq,
            Prod.mk.injEq] at e
          obtain ⟨rfl, rfl⟩ := e
          exact ⟨hL2, hL2.closed.right hp h2⟩
  · simp only [Option.pure_def, Option.some.injEq, Prod.mk.injEq] at e
    obtain ⟨rfl, rfl⟩ := e
    exact ⟨hL, hb⟩

theorem efNearR_local {S : Nat → Prop} {m0 m m1 : Mem K} {hdr p b b1 : Nat}
    (hL : Local S m0 m) (hh : S hdr) (hp : S p) (hb : S b)
    (e : efNearR m hdr p b = some (m1, b1)) : Local S m0 m1 ∧ S b1 := by
  unfold efNearR at e
  split at e
  · cases h0 : m.right_ b with
    | none => simp [h0] at e
    | some bl =>
      have hbl : S bl := hL.closed.right hb h0
      simp only [h0, Option.bind_eq_bind, Option.some_bind] at e
      cases hrot : RotateLeft ((m.setRed b (m.red_ bl)).setRed bl (m.red_ b)) hdr b with
      | none => simp [hrot] at e
      | some m2 =>
        have hL2 := RotateLeft_local ((hL.wrRed _ hb).wrRed _ hbl) hh hb hrot
        simp only [hrot, Option.some_bind] at e
        cases h2 : m2.left_ p with
        | none => simp [h2] at e
        | some q2 =>
          simp only [h2, Option.some_bind, Option.pure_def, Option.some.injEq,
            Prod.mk.injEq] at e
          obtain ⟨rfl, rfl⟩ := e
          exact ⟨hL2, hL2.closed.left hp h2⟩
  · simp only [Option.pure_def, Option.some.injEq, Prod.mk.injEq] at e
    obtain ⟨rfl, rfl⟩ := e
    exact ⟨hL, hb⟩

theorem efRestL_local {S : Nat → Prop} {m0 m m' : Mem K} {hdr p b : Nat}
    {loop : Mem K → Nat → Ptr → Option (Mem K)}
    (ih : ∀ (m : Mem K) (del : Nat) (parent : Ptr) (m' : Mem K), Local S m0 m → S del →
      InS S parent → loop m del parent = some m' → Local S m0 m')
    (hL : Local S m0 m) (hh : S hdr) (hp : S p) (hb : S b)
    (e : efRestL hdr loop m p b = some m') : Local S m0 m' := by
  unfold efRestL at e
  split at e
  · simp only [] at e
    split at e
    · cases e
      exact (hL.wrRed true hb).wrRed false hp
    · exact ih _ _ _ _ (hL.wrRed true hb) hp ((hL.wrRed true hb).closed.inParent hp) e
  · cases hn : efNearL m hdr p b with
    | none => simp [hn] at e
    | some r =>
      obtain ⟨m1, b1⟩ := r
      obtain ⟨hL1, hb1⟩ := efNearL_local hL hh hp hb hn
      simp only [hn, Option.bind_eq_bind, Option.some_bind] at e
      cases h2 : m1.right_ b1 with
      | none => simp [h2] at e
      | some br =>
        have hbr : S br := hL1.closed.right hb1 h2
        simp only [h2, Option.some_bind] at e
        exact RotateLeft_local (((hL1.wrRed false hbr).wrRed _ hb1).wrRed false hp) hh hp e

theorem efRestR_local {S : Nat → Prop} {m0 m m' : Mem K} {hdr p b : Nat}
    {loop : Mem K → Nat → Ptr → Option (Mem K)}
    (ih : ∀ (m : Mem K) (del : Nat) (parent : Ptr) (m' : Mem K), Local S m0 m → S del →
      InS S parent → loop m del parent = some m' → Local S m0 m')
    (hL : Local S m0 m) (hh : S hdr) (hp : S p) (hb : S b)
    (e : efRestR hdr loop m p b = some m') : Local S m0 m' := by
  unfold efRestR at e
  split at e
  · simp only [] at e
    split at e
    · cases e
      exact (hL.wrRed true hb).wrRed false hp
    · exact ih _ _ _ _ (hL.wrRed true hb) hp ((hL.wrRed true hb).closed.inParent hp) e
  · cases hn : efNearR m hdr p b with
    | none => simp [hn] at e
    | some r =>
      obtain ⟨m1, b1⟩ := r
      obtain ⟨hL1, hb1⟩ := efNearR_local hL hh hp hb hn
      simp only [hn, Option.bind_eq_bind, Option.some_bind] at e
      cases h2 : m1.left_ b1 with
      | none => simp [h2] at e
      | some br =>
        have hbr : S br := hL1.closed.left hb1 h2
        simp only [h2, Option.some_bind] at e
        exact RotateRight_local (((hL1.wrRed false hbr).wrRed _ hb1).wrRed false hp) hh hp e

theorem ExtractFixupLoop_local {S : Nat → Prop} {m0 : Mem K} {hdr : Nat} (hh : S hdr) :
    ∀ (fuel : Nat) (m : Mem K) (del : Nat) (parent : Ptr) (m' : Mem K), Local S m0 m → S del →
      InS S parent → ExtractFixupLoop hdr fuel m del parent = some m' → Local S m0 m' := by
  intro fuel
  induction fuel with
  | zero =>
    intro m del parent m' _ _ _ e
    simp [ExtractFixupLoop] at e
  | succ fuel ih =>
    intro m del parent m' hL hd hpar e
    rw [ExtractFixupLoop_succ] at e
    split at e
    · cases e
      exact hL
    · cases parent with
      | none => simp at e
      | some p =>
        have hp : S p := hpar p rfl
        simp only [Option.bind_eq_bind, Option.some_bind] at e
        split at e
        · cases hb : m.right_ p with
          | none => simp [hb] at e
          | some b =>
            have hbs : S b := hL.closed.right hp hb
            simp only [hb, Option.some_bind] at e
            cases hr : efRedL m hdr del p b with
            | none => simp [hr] at e
            | some r =>
              obtain ⟨m1, p1, b1⟩ := r
              obtain ⟨hL1, hp1, hb1⟩ := efRedL_local hL hh hd hp hbs hr
              simp only [hr, Option.some_bind] at e
              exact efRestL_local ih hL1 hh hp1 hb1 e
        · cases hb : m.left_ p with
          | none => simp [hb] at e
          | some b =>
            have hbs : S b := hL.closed.left hp hb
            simp only [hb, Option.some_bind] at e
            cases hr : efRedR m hdr del p b with
            | none => simp [hr] at e
            | some r =>
              obtain ⟨m1, p1, b1⟩ := r
              obtain ⟨hL1, hp1, hb1⟩ := efRedR_local hL hh hd hp hbs hr
              simp only [hr, Option.some_bind] at e
              exact efRestR_local ih hL1 hh hp1 hb1 e

theorem ExtractFixup_local {S : Nat → Prop} {m0 m m' : Mem K} {hdr node : Nat}
    (hL : Local S m0 m) (hh : S hdr) (hn : S node) (e : ExtractFixup m hdr node = some m') :
    Local S m0 m' :=
  ExtractFixupLoop_local hh _ _ _ _ _ hL hn (hL.closed.inParent hn) e

theorem SearchMin_mem {S : Nat → Prop} {m : Mem K} (hc : Closed S m) :
    ∀ (fuel : Nat) (node y : Nat), S node → SearchMin m fuel node = some y → S y := by
  intro fuel
  induction fuel with
  | zero =>
    intro node y _ e
    simp [SearchMin] at e
  | succ fuel ih =>
    intro node y hn e
    simp only [SearchMin] at e
    split at e
    · rename_i l hl
      exact ih _ _ (hc.left hn hl) e
    · cases e
      exact hn

theorem fixPar_local {S : Nat → Prop} {m0 m : Mem K} (hL : Local S m0 m) {ch : Ptr}
    {node : Nat} (hch : InS S ch) (hn : S node) : Local S m0 (fixPar m ch node) := by
  cases ch with
  | none => exact hL
  | some c => exact hL.wrParent (hch c rfl) (InS_some hn)

theorem swapTail_local {S : Nat → Prop} {m0 m : Mem K} (hL : Local S m0 m) {node other : Nat}
    (hn : S node) (ho : S other) : Local S m0 (swapTail m node other) := by
  have h1 := (hL.wrParent hn (hL.closed.inParent ho)).wrParent ho (hL.closed.inParent hn)
  have h2 := (h1.wrLeft hn (h1.closed.inLeft ho)).wrLeft ho (h1.closed.inLeft hn)
  have h3 := (h2.wrRight hn (h2.closed.inRight ho)).wrRight ho (h2.closed.inRight hn)
  have h4 := (h3.wrRed (m.red_ other) hn).wrRed (m.red_ node) ho
  have h5 := fixPar_local h4 (h4.closed.inLeft hn) hn
  have h6 := fixPar_local h5 (h5.closed.inRight hn) hn
  have h7 := fixPar_local h6 (h6.closed.inLeft ho) ho
  exact fixPar_local h7 (h7.closed.inRight ho) ho

theorem SwapNodes_local {S : Nat → Prop} {m0 m m' : Mem K} {hdr node other : Nat}
    (hL : Local S m0 m) (hh : S hdr) (hn : S node) (ho : S other)
    (e : SwapNodes m hdr node other = some m') : Local S m0 m' := by
  rw [SwapNodes_eq] at e
  cases hp : m.parent_ other with
  | none => simp [hp] at e
  | some op =>
    have hop : S op := hL.closed.parent ho hp
    simp only [hp, Option.bind_eq_bind, Option.some_bind] at e
    have hL1 : Local S m0 (if m.left_ op = some other then m.setLeft op (some node)
        else m.setRight op (some node)) := by
      split
      · exact hL.wrLeft hop (InS_some hn)
      · exact hL.wrRight hop (InS_some hn)
    cases h2 : relinkL (if m.left_ op = some other then m.setLeft op (some node)
        else m.setRight op (some node)) hdr node (some other) with
    | none => simp [h2] at e
    | some m2 =>
      simp only [h2, Option.some_bind, Option.pure_def, Option.some.injEq] at e
      subst e
      exact swapTail_local (relinkL_local hL1 hh hn (InS_some ho) h2) hn ho

theorem swapSucc_local {S : Nat → Prop} {m0 m m' : Mem K} {hdr node : Nat}
    (hL : Local S m0 m) (hh : S hdr) (hn : S node) (e : swapSucc m hdr node = some m') :
    Local S m0 m' := by
  unfold swapSucc at e
  split at e
  · cases hr : m.right_ node with
    | none => simp [hr] at e
    | some r =>
      simp only [hr, Option.bind_eq_bind, Option.some_bind] at e
      cases hs : SearchMin m m.next r with
      | none => simp [hs] at e
      | some ch =>
        simp only [hs, Option.some_bind] at e
        exact SwapNodes_local hL hh hn
          (SearchMin_mem hL.closed _ _ _ (hL.closed.right hn hr) hs) e
  · cases e
    exact hL

theorem swapChild_local {S : Nat → Prop} {m0 m m' : Mem K} {hdr node : Nat}
    (hL : Local S m0 m) (hh : S hdr) (hn : S node) (e : swapChild m hdr node = some m') :
    Local S m0 m' := by
  unfold swapChild at e
  split at e
  · cases hc : (if m.left_ node ≠ none then m.left_ node else m.right_ node) with
    | none => simp [hc] at e
    | some ch =>
      have hch : S ch := by
        split at hc
        · exact hL.closed.left hn hc
        · exact hL.closed.right hn hc
      simp only [hc, Option.bind_eq_bind, Option.some_bind] at e
      exact SwapNodes_local hL hh hn hch e
  · cases e
    exact hL

theorem fixLeaf_local {S : Nat → Prop} {m0 m m' : Mem K} {hdr node : Nat}
    (hL : Local S m0 m) (hh : S hdr) (hn : S node) (e : fixLeaf m hdr node = some m') :
    Local S m0 m' := by
  unfold fixLeaf at e
  split at e
  · exact ExtractFixup_local hL hh hn e
  · cases e
    exact hL

/-- `ExtractNode` reads and writes only inside a closed set that holds the header and the
node to extract; the node comes out with null links, red. -/
theorem ExtractNode_local {S : Nat → Prop} {m m' : Mem K} {t t' : RBTree} {a : Nat} {r : Ptr}
    (hc : Closed S m) (hh : S t.header_) (ha : S a) (hne : a ≠ t.header_)
    (e : ExtractNode m t (some a) = some (m', t', r)) :
    Local S m m' ∧ r = some a ∧ m'.parent_ a = none ∧ m'.left_ a = none ∧
      m'.right_ a = none ∧ m'.red_ a = true := by
  rw [ExtractNode_eq] at e
  have hpos : (some a : Ptr) ≠ End t := by
    simp only [End, ne_eq, Option.some.injEq]
    exact hne
  rw [if_neg hpos] at e
  simp only [Option.bind_eq_bind, Option.some_bind] at e
  cases h1 : swapSucc m t.header_ a with
  | none => simp [h1] at e
  | some m1 =>
    have hL1 := swapSucc_local (Local.of_closed hc) hh ha h1
    simp only [h1, Option.some_bind] at e
    cases h2 : swapChild m1 t.header_ a with
    | none => simp [h2] at e
    | some m2 =>
      have hL2 := swapChild_local hL1 hh ha h2
      simp only [h2, Option.some_bind] at e
      cases h3 : fixLeaf m2 t.header_ a with
      | none => simp [h3] at e
      | some m3 =>
        have hL3 := fixLeaf_local hL2 hh ha h3
        simp only [h3, Option.some_bind] at e
        cases h4 : relinkL m3 t.header_ a none with
        | none => simp [h4] at e
        | some m4 =>
          have hL4 := relinkL_local hL3 hh ha (InS_none S) h4
          simp only [h4, Option.some_bind, Option.pure_def, Option.some.injEq,
            Prod.mk.injEq] at e
          obtain ⟨rfl, -, rfl⟩ := e
          refine ⟨hL4.wrInit ha, rfl, ?_, ?_, ?_, ?_⟩ <;> simp [Mem.InitNode]

theorem upd_self {α : Type} (f : Nat → α) (a : Nat) : upd f a (f a) = f := by
  funext x
  simp only [upd_apply]
  split
  · rename_i h
    rw [h]
  · rfl

theorem Rep.links {P L R : Nat → Ptr} :
    ∀ (s : Sh) (par : Ptr), Rep P L R s par → ∀ a ∈ s.addrs,
      (P a = par ∨ ∃ b ∈ s.addrs, P a = some b) ∧ (∀ b, L a = some b → b ∈ s.addrs) ∧
        (∀ b, R a = some b → b ∈ s.addrs) := by
  intro s
  induction s with
  | nil =>
    intro par _ a ha
    simp at ha
  | node l x r ihl ihr =>
    intro par h a ha
    obtain ⟨h1, h2, h3, h4, h5⟩ := h
    simp only [Sh.addrs_node, List.mem_append, List.mem_cons] at ha ⊢
    rcases ha with ha | rfl | ha
    · obtain ⟨hp, hl, hr⟩ := ihl _ h4 a ha
      refine ⟨Or.inr ?_, fun b e => Or.inl (hl b e), fun b e => Or.inl (hr b e)⟩
      rcases hp with hp | ⟨b, hb, hp⟩
      · exact ⟨x, Or.inr (Or.inl rfl), hp⟩
      · exact ⟨b, Or.inl hb, hp⟩
    · refine ⟨Or.inl h1, fun b e => Or.inl (Sh.ptr_mem (h2 ▸ e)), fun b e =>
        Or.inr (Or.inr (Sh.ptr_mem (h3 ▸ e)))⟩
    · obtain ⟨hp, hl, hr⟩ := ihr _ h5 a ha
      refine ⟨Or.inr ?_, fun b e => Or.inr (Or.inr (hl b e)),
        fun b e => Or.inr (Or.inr (hr b e))⟩
      rcases hp with hp | ⟨b, hb, hp⟩
      · exact ⟨x, Or.inr (Or.inl rfl), hp⟩
      · exact ⟨b, Or.inr (Or.inr hb), hp⟩

/-- The cells of a well-formed tree, header included, form a closed set. -/
theorem WF.closed {m : Mem K} {hdr : Nat} {sh : Sh} (h : WF m hdr sh) :
    Closed (fun a => a ∈ hdr :: sh.addrs) m := by
  refine ⟨?_, ?_, ?_⟩
  · intro a b ha e
    rcases List.mem_cons.1 ha with rfl | ha
    · rw [h.root] at e
      exact List.mem_cons_of_mem _ (Sh.ptr_mem e)
    · rcases (Rep.links _ _ h.rep a ha).1 with hp | ⟨c, hc, hp⟩
      · rw [hp] at e
        cases e
        exact List.mem_cons_self _ _
      · rw [hp] at e
        cases e
        exact List.mem_cons_of_mem _ hc
  · intro a b ha e
    rcases List.mem_cons.1 ha with rfl | ha
    · rw [h.hleft] at e
      cases e
    · exact List.mem_cons_of_mem _ ((Rep.links _ _ h.rep a ha).2.1 b e)
  · intro a b ha e
    rcases List.mem_cons.1 ha with rfl | ha
    · rw [h.hright] at e
      cases e
    · exact List.mem_cons_of_mem _ ((Rep.links _ _ h.rep a ha).2.2 b e)

/-- A closed set stays closed when a node with null links joins it. -/
theorem Closed.with_node {S : Nat → Prop} {m : Mem K} (h : Closed S m) {x : Nat}
    (hp : m.parent_ x = none) (hl : m.left_ x = none) (hr : m.right_ x = none) :
    Closed (fun a => S a ∨ a = x) m := by
  refine ⟨?_, ?_, ?_⟩
  · intro a b ha e
    rcases ha with ha | rfl
    · exact Or.inl (h.parent ha e)
    · rw [hp] at e
      cases e
  · intro a b ha e
    rcases ha with ha | rfl
    · exact Or.inl (h.left ha e)
    · rw [hl] at e
      cases e
  · intro a b ha e
    rcases ha with ha | rfl
    · exact Or.inl (h.right ha e)
    · rw [hr] at e
      cases e

/-- A tree whose cells lie outside the set of a local change is not affected by it. -/
theorem Inv.local {S : Nat → Prop} {m m' : Mem K} {t : RBTree} {sh : Sh} (h : Inv m t sh)
    (hL : Local S m m') (hdis : ∀ a ∈ t.header_ :: sh.addrs, ¬ S a) : Inv m' t sh :=
  h.agree_inv hL.agree hdis (Nat.le_of_eq hL.next.symm)

theorem NoEquiv.perm {lt : K → K → Bool} {k : Nat → K} {L L' : List Nat} (hp : L.Perm L')
    (h : NoEquiv lt k L) : NoEquiv lt k L' := by
  unfold NoEquiv at h ⊢
  refine (hp.pairwise_iff ?_).1 h
  intro a b hab
  rw [equiv_comm]
  exact hab

/-- Insertion of a detached node into a tree all of whose keys are in order: the node goes
in, the tree stays valid and ordered, and only the cells of the tree and of the node are
written. In unique mode the tree is supposed to hold no key equivalent to the node's. -/
theorem insertNode_step {lt : K → K → Bool} (hlt : SWO lt) {m : Mem K} {t : RBTree} {sh : Sh}
    {x : Nat} (uniq : Bool) (h : Inv m t sh) (hord : Ordered lt m.key_ sh.addrs)
    (hx1 : x ∉ t.header_ :: sh.addrs) (hx2 : x < m.next) (hp : m.parent_ x = none)
    (hl : m.left_ x = none) (hr : m.right_ x = none) (hred : m.red_ x = true)
    (hno : uniq = true → ∀ n ∈ sh.addrs, equiv lt (m.key_ n) (m.key_ x) = false) :
    ∃ m' sh', InsertNode lt m t x uniq =
        some (m', { t with size_ := t.size_ + 1 }, some x, true) ∧
      Inv m' { t with size_ := t.size_ + 1 } sh' ∧ Ordered lt m'.key_ sh'.addrs ∧
      sh'.addrs.Perm (x :: sh.addrs) ∧ m'.key_ = m.key_ ∧
      Local (fun a => a ∈ t.header_ :: sh.addrs ∨ a = x) m m' := by
  have hxs : x ∉ sh.addrs := fun hx => hx1 (List.mem_cons_of_mem _ hx)
  rcases InsertNode_spec lt uniq h.wf h.size h.rb hx1 hx2 hl hr hred with
    ⟨hu, n, c, l, r, -, hs, e1, e2, -⟩ | ⟨m', sh', c, e, wf', rb', hs, ha, hdir, -, hk, hn⟩
  · exfalso
    have hn : n ∈ sh.addrs := by
      rw [hs, plug_addrs]
      simp
    have := hno hu n hn
    simp [equiv, e1, e2] at this
  · have hperm : sh'.addrs.Perm (x :: sh.addrs) := by
      rw [ha, hs, plug_addrs, plug_addrs]
      simp only [Sh.addrs_node, Sh.addrs_nil, List.nil_append, List.append_nil,
        List.append_assoc, List.cons_append]
      exact List.perm_middle
    have hsz : t.size_ + 1 = sh'.addrs.length := by
      rw [hperm.length_eq, List.length_cons, h.size]
    refine ⟨m', sh', e, ⟨wf', hsz, rb'⟩, ?_, hperm, hk, ?_⟩
    · rw [ha, hk]
      have := Ordered_insert hlt hdir (hs ▸ hord) (hs ▸ hxs)
      rw [upd_self] at this
      exact this
    · exact InsertNode_local lt (h.wf.closed.with_node hp hl hr)
        (Or.inl (List.mem_cons_self _ _)) (Or.inr rfl) e

/-- Extraction of a node of a valid tree: the node comes out with null links, the other
nodes keep their order, and only cells of the tree are written. -/
theorem extractNode_step {m : Mem K} {t : RBTree} {sh : Sh} {a : Nat} (h : Inv m t sh)
    (ha : a ∈ sh.addrs) :
    ∃ m' sh', ExtractNode m t (some a) = some (m', { t with size_ := t.size_ - 1 }, some a) ∧
      Inv m' { t with size_ := t.size_ - 1 } sh' ∧
      sh'.addrs = sh.addrs.filter (fun x => decide (x ≠ a)) ∧ m'.key_ = m.key_ ∧
      Local (fun x => x ∈ t.header_ :: sh.addrs) m m' ∧ m'.parent_ a = none ∧
      m'.left_ a = none ∧ m'.right_ a = none ∧ m'.red_ a = true := by
  obtain ⟨m', sh', e, inv', hf, hk, -⟩ := ExtractNode_spec h ha
  have hne : a ≠ t.header_ := fun e => h.wf.hdr_not_mem (e ▸ ha)
  obtain ⟨hL, -, h1, h2, h3, h4⟩ := ExtractNode_local h.wf.closed (List.mem_cons_self _ _)
    (List.mem_cons_of_mem _ ha) hne e
  exact ⟨m', sh', e, inv', hf, hk, hL, h1, h2, h3, h4⟩

theorem heldIn_eq_true {lt : K → K → Bool} {k : Nat → K} {L : List Nat} {x : Nat} :
    heldIn lt k L x = true ↔ ∃ n ∈ L, equiv lt (k n) (k x) = true := by
  simp [heldIn, List.any_eq_true]

theorem heldIn_eq_false {lt : K → K → Bool} {k : Nat → K} {L : List Nat} {x : Nat} :
    heldIn lt k L x = false ↔ ∀ n ∈ L, equiv lt (k n) (k x) = false := by
  simp [heldIn, List.any_eq_false]

theorem heldIn_perm_cons {lt : K → K → Bool} {k : Nat → K} {L L' : List Nat} {q x : Nat}
    (hp : L'.Perm (q :: L)) (hq : equiv lt (k q) (k x) = false) :
    heldIn lt k L' x = heldIn lt k L x := by
  rw [Bool.eq_iff_iff, heldIn_eq_true, heldIn_eq_true]
  constructor
  · rintro ⟨n, hn, e⟩
    rcases List.mem_cons.1 (hp.mem_iff.1 hn) with rfl | hn'
    · rw [hq] at e
      exact absurd e (by decide)
    · exact ⟨n, hn', e⟩
  · rintro ⟨n, hn, e⟩
    exact ⟨n, hp.mem_iff.2 (List.mem_cons_of_mem _ hn), e⟩

theorem MergeLoop_end (lt : K → K → Bool) (fuel : Nat) (m : Mem K) (t other : RBTree) :
    MergeLoop lt (fuel + 1) m t other (End other) = some (m, t, other) := by
  simp [MergeLoop]

theorem MergeLoop_keep (lt : K → K → Bool) (fuel : Nat) {m : Mem K} {t other : RBTree}
    {q n : Nat} {nxt : Ptr} (hne : q ≠ other.header_)
    (hf : Find lt m t (m.key_ q) = some (some n)) (hnn : n ≠ t.header_)
    (hn : NextNode m q = some nxt) :
    MergeLoop lt (fuel + 1) m t other (some q) = MergeLoop lt fuel m t other nxt := by
  simp [MergeLoop, End, hne, hf, hnn, hn]

theorem MergeLoop_move (lt : K → K → Bool) (fuel : Nat) {m m1 m2 : Mem K}
    {t t2 other o1 : RBTree} {q : Nat} {nxt it2 : Ptr} {ok : Bool} (hne : q ≠ other.header_)
    (hf : Find lt m t (m.key_ q) = some (End t)) (hn : NextNode m q = some nxt)
    (he : ExtractNode m other (some q) = some (m1, o1, some q))
    (hi : InsertNode lt m1 t q true = some (m2, t2, it2, ok)) :
    MergeLoop lt (fuel + 1) m t other (some q) = MergeLoop lt fuel m2 t2 o1 nxt := by
  simp [MergeLoop, End, hne, hf, hn, he, hi]

/-- The loop of `Merge`, started with the iterator on the first node of `Q`, where the nodes
of `other` in order are `P ++ Q`: it returns; the nodes of `Q` whose key is equivalent to no
key of `*this` have moved to `*this`, the others are still in `other`, in their order. -/
theorem MergeLoop_spec {lt : K → K → Bool} (hlt : SWO lt) (k : Nat → K) :
    ∀ (Q P : List Nat) (fuel : Nat) (m : Mem K) (t other : RBTree) (sa sb : Sh),
      Q.length < fuel → m.key_ = k → Inv m t sa → Ordered lt k sa.addrs →
      NoEquiv lt k sa.addrs → Inv m other sb → sb.addrs = P ++ Q → NoEquiv lt k (P ++ Q) →
      (∀ x ∈ t.header_ :: sa.addrs, x ∉ other.header_ :: sb.addrs) →
      ∃ m' sa' sb' na nb,
        MergeLoop lt fuel m t other (some (Q.headD other.header_)) =
          some (m', { header_ := t.header_, size_ := na },
            { header_ := other.header_, size_ := nb }) ∧
        m'.key_ = k ∧ Inv m' { header_ := t.header_, size_ := na } sa' ∧
        Ordered lt k sa'.addrs ∧ NoEquiv lt k sa'.addrs ∧
        Inv m' { header_ := other.header_, size_ := nb } sb' ∧
        sb'.addrs = P ++ Q.filter (heldIn lt k sa.addrs) ∧
        sa'.addrs.Perm (sa.addrs ++ Q.filter (fun x => !heldIn lt k sa.addrs x)) ∧
        (∀ x ∈ t.header_ :: sa'.addrs, x ∉ other.header_ :: sb'.addrs) := by
  intro Q
  induction Q with
  | nil =>
    intro P fuel m t other sa sb hf hk hA ordA neA hB hsb _ hdis
    obtain ⟨f, rfl⟩ : ∃ f, fuel = f + 1 := ⟨fuel - 1, by omega⟩
    refine ⟨m, sa, sb, t.size_, other.size_, ?_, hk, hA, ordA, neA, hB, ?_, ?_, hdis⟩
    · exact MergeLoop_end lt f m t other
    · simpa using hsb
    · simp
  | cons q Q ih =>
    intro P fuel m t other sa sb hf hk hA ordA neA hB hsb neB hdis
    obtain ⟨f, rfl⟩ : ∃ f, fuel = f + 1 := ⟨fuel - 1, by omega⟩
    simp only [List.length_cons, Nat.add_lt_add_iff_right] at hf
    subst hk
    have hqB : q ∈ sb.addrs := by
      rw [hsb]
      simp
    have hqne : q ≠ other.header_ := fun e => hB.wf.hdr_not_mem (e ▸ hqB)
    have hnd : (P ++ q :: Q).Nodup := hsb ▸ hB.wf.addrs_nodup
    have hnext : NextNode m q = some (some (Q.headD other.header_)) :=
      NextNode_list hB.wf hsb
    have hqQ : ∀ y ∈ Q, equiv lt (m.key_ q) (m.key_ y) = false := by
      intro y hy
      unfold NoEquiv at neB
      rw [List.pairwise_append] at neB
      exact (List.pairwise_cons.1 neB.2.1).1 y hy
    simp only [List.headD_cons]
    rcases Find_spec hlt (m.key_ q) hA.wf ordA with ⟨n, hn, he, hfind, -⟩ | ⟨hno, hfind, -⟩
    · -- the key is held by `*this`: the node stays in `other`
      have hnn : n ≠ t.header_ := fun e => hA.wf.hdr_not_mem (e ▸ hn)
      have hheld : heldIn lt m.key_ sa.addrs q = true := heldIn_eq_true.2 ⟨n, hn, he⟩
      obtain ⟨m', sa', sb', na, nb, e, hk', hA', ordA', neA', hB', hsb', hperm, hdis'⟩ :=
        ih (P ++ [q]) f m t other sa sb hf rfl hA ordA neA hB (by simp [hsb])
          (by simpa using neB) hdis
      refine ⟨m', sa', sb', na, nb, ?_, hk', hA', ordA', neA', hB', ?_, ?_, hdis'⟩
      · rw [MergeLoop_keep lt f hqne hfind hnn hnext]
        exact e
      · rw [hsb', List.filter_cons_of_pos hheld]
        simp
      · rw [List.filter_cons_of_neg (by simp [hheld])]
        exact hperm
    · -- the key is new: the node moves
      have hheld : heldIn lt m.key_ sa.addrs q = false := heldIn_eq_false.2 hno
      obtain ⟨m1, sb1, e1, hB1, hsb1, hk1, hL1, hp1, hl1, hr1, hred1⟩ :=
        extractNode_step hB hqB
      have hsb1' : sb1.addrs = P ++ Q := by
        rw [hsb1, hsb]
        exact filter_ne_mid hnd
      have hA1 : Inv m1 t sa := hA.local hL1 (fun x hx hS => hdis x hx hS)
      have hqA : q ∉ t.header_ :: sa.addrs := fun hx =>
        hdis q hx (List.mem_cons_of_mem _ hqB)
      have hqb : q < m1.next := by
        rw [hL1.next]
        exact hB.wf.bound q (List.mem_cons_of_mem _ hqB)
      obtain ⟨m2, sa2, e2, hA2, ordA2, hperm2, hk2, hL2⟩ :=
        insertNode_step hlt true hA1 (hk1 ▸ ordA) hqA hqb hp1 hl1 hr1 hred1
          (fun _ n hn => by rw [hk1]; exact hno n hn)
      have hkey2 : m2.key_ = m.key_ := hk2.trans hk1
      have hqP : q ∉ P ++ Q := by
        simp only [List.nodup_append, List.nodup_cons, List.disjoint_cons_right] at hnd
        simp only [List.mem_append, not_or]
        exact ⟨hnd.2.2.1, hnd.2.1.1⟩
      have hB2 : Inv m2 { other with size_ := other.size_ - 1 } sb1 := by
        refine hB1.local hL2 ?_
        intro x hx hS
        rcases hS with hS | rfl
        · rcases List.mem_cons.1 hx with rfl | hx'
          · exact hdis _ hS (List.mem_cons_self _ _)
          · refine hdis x hS (List.mem_cons_of_mem _ ?_)
            rw [hsb1] at hx'
            exact List.mem_of_mem_filter hx'
        · rcases List.mem_cons.1 hx with e | hx'
          · exact hqne e
          · rw [hsb1'] at hx'
            exact hqP hx'
      have neA2 : NoEquiv lt m.key_ sa2.addrs := by
        refine NoEquiv.perm hperm2.symm ?_
        unfold NoEquiv at neA ⊢
        refine List.pairwise_cons.2 ⟨?_, neA⟩
        intro n hn
        rw [equiv_comm]
        exact hno n hn
      have hdis2 : ∀ x ∈ ({ t with size_ := t.size_ + 1 } : RBTree).header_ :: sa2.addrs,
          x ∉ ({ other with size_ := other.size_ - 1 } : RBTree).header_ :: sb1.addrs := by
        intro x hx hx'
        have hx1 : x ∈ other.header_ :: sb.addrs := by
          rcases List.mem_cons.1 hx' with rfl | h
          · exact List.mem_cons_self _ _
          · rw [hsb1] at h
            exact List.mem_cons_of_mem _ (List.mem_of_mem_filter h)
        rcases List.mem_cons.1 hx with rfl | h
        · exact hdis _ (List.mem_cons_self _ _) hx1
        · rcases List.mem_cons.1 (hperm2.mem_iff.1 h) with rfl | h'
          · rcases List.mem_cons.1 hx' with e | h''
            · exact hqne e
            · rw [hsb1'] at h''
              exact hqP h''
          · exact hdis x (List.mem_cons_of_mem _ h') hx1
      have neB2 : NoEquiv lt m.key_ (P ++ Q) := by
        unfold NoEquiv at neB ⊢
        exact neB.sublist (List.Sublist.append_left (List.sublist_cons_self q Q) P)
      obtain ⟨m', sa', sb', na, nb, e, hk', hA', ordA', neA', hB', hsb', hperm, hdis'⟩ :=
        ih P f m2 { t with size_ := t.size_ + 1 } { other with size_ := other.size_ - 1 }
          sa2 sb1 hf hkey2 hA2 (hkey2 ▸ ordA2) neA2 hB2 hsb1' neB2 hdis2
      have hfilt : ∀ y ∈ Q, heldIn lt m.key_ sa2.addrs y = heldIn lt m.key_ sa.addrs y :=
        fun y hy => heldIn_perm_cons hperm2 (hqQ y hy)
      refine ⟨m', sa', sb', na, nb, ?_, hk', hA', ordA', neA', hB', ?_, ?_, hdis'⟩
      · rw [MergeLoop_move lt f hqne hfind hnext e1 e2]
        exact e
      · rw [hsb', List.filter_cons_of_neg (by simp [hheld])]
        congr 1
        exact List.filter_congr hfilt
      · rw [List.filter_cons_of_pos (by simp [hheld])]
        refine hperm.trans ?_
        have : Q.filter (fun x => !heldIn lt m.key_ sa2.addrs x) =
            Q.filter (fun x => !heldIn lt m.key_ sa.addrs x) :=
          List.filter_congr (fun y hy => by rw [hfilt y hy])
        rw [this]
        exact (List.Perm.append_right _ hperm2).trans (by
          simp only [List.cons_append]
          exact List.perm_middle.symm)

/-- `Merge` on two distinct valid trees in order, without equivalent keys inside `other`: it
returns; the nodes of `other` whose key is equivalent to no key of `*this` have moved to
`*this`, the others are still in `other`, in their order. -/
theorem Merge_spec {lt : K → K → Bool} (hlt : SWO lt) {m : Mem K} {t other : RBTree}
    {sa sb : Sh} (hA : Inv m t sa) (ordA : Ordered lt m.key_ sa.addrs)
    (neA : NoEquiv lt m.key_ sa.addrs) (hB : Inv m other sb)
    (neB : NoEquiv lt m.key_ sb.addrs)
    (hdis : ∀ x ∈ t.header_ :: sa.addrs, x ∉ other.header_ :: sb.addrs) :
    ∃ m' sa' sb' na nb,
      Merge lt m t other = some (m', { header_ := t.header_, size_ := na },
        { header_ := other.header_, size_ := nb }) ∧
      m'.key_ = m.key_ ∧ Inv m' { header_ := t.header_, size_ := na } sa' ∧
      Ordered lt m.key_ sa'.addrs ∧ NoEquiv lt m.key_ sa'.addrs ∧
      Inv m' { header_ := other.header_, size_ := nb } sb' ∧
      sb'.addrs = sb.addrs.filter (heldIn lt m.key_ sa.addrs) ∧
      sa'.addrs.Perm (sa.addrs ++ sb.addrs.filter (fun x => !heldIn lt m.key_ sa.addrs x)) ∧
      (∀ x ∈ t.header_ :: sa'.addrs, x ∉ other.header_ :: sb'.addrs) := by
  have hne : t.header_ ≠ other.header_ := fun e =>
    hdis _ (List.mem_cons_self _ _) (e ▸ List.mem_cons_self _ _)
  have hlen : sb.addrs.length < m.next := by
    have := nodup_bound_length hB.wf.nodup hB.wf.bound
    simp only [List.length_cons] at this
    omega
  obtain ⟨m', sa', sb', na, nb, e, hk, hA', ordA', neA', hB', hsb', hperm, hdis'⟩ :=
    MergeLoop_spec hlt m.key_ sb.addrs [] m.next m t other sa sb hlen rfl hA ordA neA hB
      (by simp) (by simpa using neB) hdis
  refine ⟨m', sa', sb', na, nb, ?_, hk, hA', ordA', neA', hB', by simpa using hsb', hperm,
    hdis'⟩
  unfold Merge
  rw [if_pos hne, Begin_spec hB]
  exact e

theorem MergeMultiLoop_done (lt : K → K → Bool) (fuel : Nat) (m : Mem K) (t other : RBTree)
    (it : Ptr) (h : other.size_ = 0) :
    MergeMultiLoop lt (fuel + 1) m t other it = some (m, t, other) := by
  simp [MergeMultiLoop, h]

/-- One round of the loop of `MergeMulti` on a node without left child whose parent does not
hold it as right child. -/
theorem MergeMultiLoop_step (lt : K → K → Bool) (fuel : Nat) {m m2 : Mem K}
    {t t2 other : RBTree} {a up : Nat} {nxt it2 : Ptr} {ok : Bool} (hsz : 0 < other.size_)
    (hl : m.left_ a = none) (hp : m.parent_ a = some up) (hru : m.right_ up ≠ some a)
    (hra : m.right_ a ≠ some a) (hn : NextNode m a = some nxt)
    (hi : InsertNode lt (cutOut m a (m.right_ a) up) t a false = some (m2, t2, it2, ok)) :
    MergeMultiLoop lt (fuel + 1) m t other (some a) =
      MergeMultiLoop lt fuel m2 t2 { other with size_ := other.size_ - 1 } nxt := by
  cases hr : m.right_ a with
  | none =>
    rw [hr] at hi
    by_cases hlu : m.left_ up = some a
    · simp only [cutOut, hlu, if_true] at hi
      simp [MergeMultiLoop, hsz, hl, hr, hp, hn, hlu, hru, hi]
    · simp only [cutOut, hlu, if_false] at hi
      simp [MergeMultiLoop, hsz, hl, hr, hp, hn, hlu, hru, hi]
  | some x =>
    rw [hr] at hi hra
    have hxa : a ≠ x := fun e => hra (by rw [e])
    by_cases hlu : m.left_ up = some a
    · simp only [cutOut, hlu, if_true] at hi
      simp [MergeMultiLoop, hsz, hl, hr, hp, hn, hlu, hru, hi, hxa]
    · simp only [cutOut, hlu, if_false] at hi
      simp [MergeMultiLoop, hsz, hl, hr, hp, hn, hlu, hru, hi, hxa]

theorem spineAddrs_leftSpine (s : Sh) :
    ∀ acc, spineAddrs (leftSpine s acc) = s.addrs ++ spineAddrs acc := by
  induction s with
  | nil => intro acc; rfl
  | node l a r ihl _ =>
    intro acc
    simp [leftSpine, ihl, spineAddrs]

theorem spineTop_eq (top : Nat) (sp : List (Nat × Sh)) :
    spineTop top sp = (spineAddrs sp).headD top := by
  cases sp with
  | nil => rfl
  | cons x rest =>
    obtain ⟨a, r⟩ := x
    rfl

theorem spineAddrs_eq_nil {sp : List (Nat × Sh)} (h : spineAddrs sp = []) : sp = [] := by
  cases sp with
  | nil => rfl
  | cons x rest =>
    obtain ⟨a, r⟩ := x
    simp [spineAddrs] at h

theorem spineTop_mem (top : Nat) (sp : List (Nat × Sh)) :
    spineTop top sp ∈ top :: spineAddrs sp := by
  cases sp with
  | nil => simp [spineTop]
  | cons x rest =>
    obtain ⟨a, r⟩ := x
    simp [spineTop, spineAddrs]

/-- The left path of a subtree hung below a path is a path. -/
theorem leftSpine_rep {P L R : Nat → Ptr} {top : Nat} :
    ∀ (s : Sh) (acc : List (Nat × Sh)), Rep P L R s (some (spineTop top acc)) →
      (∀ x, s.ptr = some x →
        L (spineTop top acc) = some x ∨ L (spineTop top acc) = none) →
      SpineRep P L R top acc → (s = Sh.nil → headLeftNone L acc) →
      SpineRep P L R top (leftSpine s acc) ∧ headLeftNone L (leftSpine s acc) := by
  intro s
  induction s with
  | nil =>
    intro acc _ _ h hh
    exact ⟨h, hh rfl⟩
  | node l a r ihl _ =>
    intro acc hrep hl h _
    obtain ⟨h1, h2, h3, h4, h5⟩ := hrep
    refine ihl ((a, r) :: acc) h4 ?_ ⟨h1, h3, h5, hl a rfl, h⟩ ?_
    · intro x hx
      left
      show L a = some x
      rw [h2, hx]
    · intro hnil
      show L a = none
      rw [h2, hnil]
      rfl

theorem SearchMin_leftSpine (m : Mem K) (top : Nat) :
    ∀ (s : Sh) (acc : List (Nat × Sh)) (fuel : Nat) (par : Ptr) (x : Nat), s.ptr = some x →
      Rep m.parent_ m.left_ m.right_ s par → s.depth ≤ fuel →
      SearchMin m fuel x = some (spineTop top (leftSpine s acc)) := by
  intro s
  induction s with
  | nil =>
    intro acc fuel par x hx
    simp at hx
  | node l a r ihl _ =>
    intro acc fuel par x hx hrep hd
    simp only [Sh.ptr_node, Option.some.injEq] at hx
    subst hx
    obtain ⟨k, rfl⟩ : ∃ k, fuel = k + 1 := ⟨fuel - 1, by simp at hd; omega⟩
    obtain ⟨-, h2, -, h4, -⟩ := hrep
    simp only [Sh.depth_node] at hd
    cases l with
    | nil =>
      simp only [Sh.ptr_nil] at h2
      simp [SearchMin, h2, leftSpine, spineTop]
    | node ll la lr =>
      simp only [Sh.ptr_node] at h2
      simp only [SearchMin, h2]
      exact ihl ((a, r) :: acc) k (some a) la rfl h4 (by omega)

/-- A path stays a path when the memory changes neither the parent and right links of its
nodes nor their left links, the left link of the lowest node apart. -/
theorem SpineRep_congr {P L R P' L' R' : Nat → Ptr} {top : Nat} :
    ∀ sp : List (Nat × Sh), (top :: spineAddrs sp).Nodup →
      (∀ x ∈ spineAddrs sp, P' x = P x ∧ R' x = R x) →
      (∀ x ∈ top :: spineAddrs sp, x ≠ spineTop top sp → L' x = L x) →
      SpineRep P L R top sp → SpineRep P' L' R' top sp := by
  intro sp
  induction sp with
  | nil => intro _ _ _ _; trivial
  | cons x rest ih =>
    obtain ⟨a, r⟩ := x
    intro hnd hpr hl h
    obtain ⟨h1, h2, h3, h4, h5⟩ := h
    simp only [spineAddrs, List.nodup_cons, List.mem_cons, List.mem_append, not_or,
      List.nodup_append, List.cons_append] at hnd
    obtain ⟨⟨hta, htr, hts⟩, ⟨har, has⟩, hr, hs, hrs⟩ := hnd
    have hu : spineTop top rest ≠ a := by
      intro e
      have := spineTop_mem top rest
      rw [e] at this
      rcases List.mem_cons.1 this with e' | h'
      · exact hta e'.symm
      · exact has h'
    have hL : L' (spineTop top rest) = L (spineTop top rest) := by
      refine hl _ ?_ hu
      rcases List.mem_cons.1 (spineTop_mem top rest) with e | h'
      · rw [e]
        exact List.mem_cons_self _ _
      · exact List.mem_cons_of_mem _ (by simp [spineAddrs, h'])
    refine ⟨?_, ?_, ?_, ?_, ?_⟩
    · rw [(hpr a (by simp [spineAddrs])).1]
      exact h1
    · rw [(hpr a (by simp [spineAddrs])).2]
      exact h2
    · refine (Rep_congr (fun x hx => ?_) _).2 h3
      have hxa : x ≠ a := fun e => har (e ▸ hx)
      have := hpr x (by simp [spineAddrs, hx])
      exact ⟨this.1, hl x (by simp [spineAddrs, hx]) hxa, this.2⟩
    · rw [hL]
      exact h4
    · refine ih ?_ ?_ ?_ h5
      · exact List.nodup_cons.2 ⟨hts, hs⟩
      · intro x hx
        exact hpr x (by simp [spineAddrs, hx])
      · intro x hx _
        have hxa : x ≠ a := by
          rintro rfl
          rcases List.mem_cons.1 hx with e | h'
          · exact hta e.symm
          · exact has h'
        refine hl x ?_ hxa
        rcases List.mem_cons.1 hx with e | h'
        · rw [e]
          exact List.mem_cons_self _ _
        · exact List.mem_cons_of_mem _ (by simp [spineAddrs, h'])

/-- A well-formed tree, seen as the path down to its first node. -/
theorem WF.spine {m : Mem K} {hdr : Nat} {sh : Sh} (h : WF m hdr sh) :
    Spine m hdr (leftSpine sh []) := by
  obtain ⟨h1, h2⟩ := @leftSpine_rep m.parent_ m.left_ m.right_ hdr sh [] h.rep
    (fun _ _ => Or.inr h.hleft) trivial (fun _ => trivial)
  refine ⟨h1, h2, h.hleft, h.hright, ?_, ?_⟩
  · rw [spineAddrs_leftSpine]
    simpa [spineAddrs] using h.nodup
  · rw [spineAddrs_leftSpine]
    simpa [spineAddrs] using h.bound

/-- A path is not affected by a change of the memory outside its cells. -/
theorem Spine.agree_spine {S : Nat → Prop} {m m' : Mem K} {hdr : Nat} {sp : List (Nat × Sh)}
    (h : Spine m hdr sp) (ha : AgreeOn S m m') (hS : ∀ x ∈ hdr :: spineAddrs sp, S x)
    (hn : m.next ≤ m'.next) : Spine m' hdr sp := by
  refine ⟨?_, ?_, ?_, ?_, h.nodup, fun a hx => Nat.lt_of_lt_of_le (h.bound a hx) hn⟩
  · refine SpineRep_congr sp h.nodup (fun x hx => ?_) (fun x hx _ => ?_) h.rep
    · have := hS x (List.mem_cons_of_mem _ hx)
      exact ⟨ha.parent x this, ha.right x this⟩
    · exact ha.left x (hS x hx)
  · cases sp with
    | nil => trivial
    | cons x rest =>
      obtain ⟨a, r⟩ := x
      show m'.left_ a = none
      rw [ha.left a (hS a (by simp [spineAddrs]))]
      exact h.head
  · rw [ha.left hdr (hS hdr (by simp))]
    exact h.hleft
  · rw [ha.right hdr (hS hdr (by simp))]
    exact h.hright

/-- The facts about the lowest node of the path that one round of the loop reads. -/
theorem Spine.head_facts {m : Mem K} {hdr a : Nat} {r : Sh} {rest : List (Nat × Sh)}
    (h : Spine m hdr ((a, r) :: rest)) :
    m.left_ a = none ∧ m.parent_ a = some (spineTop hdr rest) ∧ m.right_ a = r.ptr ∧
      m.right_ (spineTop hdr rest) ≠ some a ∧ m.right_ a ≠ some a ∧
      a ≠ spineTop hdr rest ∧ a ≠ hdr ∧ a ∉ r.addrs ∧ a ∉ spineAddrs rest ∧
      (∀ y ∈ r.addrs, y ∉ hdr :: spineAddrs rest) ∧ (hdr :: spineAddrs rest).Nodup ∧
      r.addrs.Nodup := by
  obtain ⟨⟨h1, h2, h3, h4, h5⟩, hh, hl, hr, hnd, hb⟩ := h
  simp only [spineAddrs, List.nodup_cons, List.mem_cons, List.mem_append, not_or,
    List.nodup_append, List.cons_append] at hnd
  obtain ⟨⟨hta, htr, hts⟩, ⟨har, has⟩, hrn, hs, hrs⟩ := hnd
  have hau : a ≠ spineTop hdr rest := by
    intro e
    rcases List.mem_cons.1 (spineTop_mem hdr rest) with e' | h'
    · exact hta (e'.symm.trans e.symm)
    · exact has (e ▸ h')
  refine ⟨hh, h1, h2, ?_, ?_, hau, fun e => hta e.symm, har, has, ?_,
    List.nodup_cons.2 ⟨hts, hs⟩, hrn⟩
  · cases rest with
    | nil =>
      show m.right_ hdr ≠ some a
      rw [hr]
      exact fun e => Option.noConfusion e
    | cons y rest' =>
      obtain ⟨b, rb⟩ := y
      show m.right_ b ≠ some a
      obtain ⟨-, hb2, -⟩ := h5
      rw [hb2]
      intro e
      exact has (by simp [spineAddrs, Sh.ptr_mem e])
  · rw [h2]
    intro e
    exact har (Sh.ptr_mem e)
  · intro y hy hy'
    rcases List.mem_cons.1 hy' with rfl | h'
    · exact htr hy
    · exact List.disjoint_left.1 hrs hy h'

/-- The iterator step from the lowest node of the path. -/
theorem Spine.next {m : Mem K} {hdr a : Nat} {r : Sh} {rest : List (Nat × Sh)}
    (h : Spine m hdr ((a, r) :: rest)) :
    NextNode m a = some (some (spineTop hdr (leftSpine r rest))) := by
  obtain ⟨-, hp, hr, hru, -, -, -, -, -, -, -, -⟩ := h.head_facts
  have hlen : (hdr :: spineAddrs ((a, r) :: rest)).length ≤ m.next :=
    nodup_bound_length h.nodup h.bound
  simp only [spineAddrs, List.length_cons, List.length_append, List.cons_append] at hlen
  cases r with
  | nil =>
    simp only [Sh.ptr_nil] at hr
    obtain ⟨k, hk⟩ : ∃ k, m.next = k + 1 := ⟨m.next - 1, by omega⟩
    simp [NextNode, hr, hk, NextNodeUp, hp, hru, leftSpine]
  | node rl x rr =>
    simp only [Sh.ptr_node] at hr
    have hd : (Sh.node rl x rr).depth ≤ m.next := by
      have := (Sh.node rl x rr).depth_le_length
      omega
    have := SearchMin_leftSpine m hdr (Sh.node rl x rr) rest m.next (some a) x rfl h.rep.2.2.1 hd
    simp [NextNode, hr, this]

/-- Cutting out the lowest node of the path: what is left is the path from the next node;
the node comes out with null links, red; nothing outside the path is written. -/
theorem cutOut_spec {m : Mem K} {hdr a : Nat} {r : Sh} {rest : List (Nat × Sh)}
    (h : Spine m hdr ((a, r) :: rest)) :
    Spine (cutOut m a (m.right_ a) (spineTop hdr rest)) hdr (leftSpine r rest) ∧
      AgreeOn (fun x => x ∉ hdr :: spineAddrs ((a, r) :: rest)) m
        (cutOut m a (m.right_ a) (spineTop hdr rest)) ∧
      (cutOut m a (m.right_ a) (spineTop hdr rest)).next = m.next ∧
      (cutOut m a (m.right_ a) (spineTop hdr rest)).key_ = m.key_ ∧
      (cutOut m a (m.right_ a) (spineTop hdr rest)).parent_ a = none ∧
      (cutOut m a (m.right_ a) (spineTop hdr rest)).left_ a = none ∧
      (cutOut m a (m.right_ a) (spineTop hdr rest)).right_ a = none ∧
      (cutOut m a (m.right_ a) (spineTop hdr rest)).red_ a = true := by
  obtain ⟨hl, hp, hr, hru, hra, hau, hah, har, has, hrd, hnd', hrn⟩ := h.head_facts
  obtain ⟨⟨-, -, h3, h4, h5⟩, -, hhl, hhr, hnd, hb⟩ := h
  have hum : spineTop hdr rest ∈ hdr :: spineAddrs rest := spineTop_mem hdr rest
  -- the fields of the new memory
  have eP : ∀ y, y ≠ a → (cutOut m a (m.right_ a) (spineTop hdr rest)).parent_ y =
      (match r.ptr with
        | some x => upd m.parent_ x (some (spineTop hdr rest))
        | none => m.parent_) y := by
    intro y hy
    rw [hr]
    cases r.ptr <;> by_cases hc : m.left_ (spineTop hdr rest) = some a <;>
      simp [cutOut, Mem.InitNode, hc, hy]
  have eL : ∀ y, y ≠ a → y ≠ spineTop hdr rest →
      (cutOut m a (m.right_ a) (spineTop hdr rest)).left_ y = m.left_ y := by
    intro y hy hy'
    cases m.right_ a <;> by_cases hc : m.left_ (spineTop hdr rest) = some a <;>
      simp [cutOut, Mem.InitNode, hc, hy, hy']
  have eLu : (cutOut m a (m.right_ a) (spineTop hdr rest)).left_ (spineTop hdr rest) = none := by
    have hua : spineTop hdr rest ≠ a := fun e => hau e.symm
    cases m.right_ a <;> by_cases hc : m.left_ (spineTop hdr rest) = some a
    · simp [cutOut, Mem.InitNode, hc, hua]
    · rcases h4 with h4 | h4
      · exact absurd h4 hc
      · simp [cutOut, Mem.InitNode, hc, hua, h4]
    · simp [cutOut, Mem.InitNode, hc, hua]
    · rcases h4 with h4 | h4
      · exact absurd h4 hc
      · simp [cutOut, Mem.InitNode, hc, hua, h4]
  have eR : ∀ y, y ≠ a → (cutOut m a (m.right_ a) (spineTop hdr rest)).right_ y =
      m.right_ y := by
    intro y hy
    cases m.right_ a <;> by_cases hc : m.left_ (spineTop hdr rest) = some a <;>
      simp [cutOut, Mem.InitNode, hc, hy]
  have eRed : ∀ y, y ≠ a → (cutOut m a (m.right_ a) (spineTop hdr rest)).red_ y =
      m.red_ y := by
    intro y hy
    cases m.right_ a <;> by_cases hc : m.left_ (spineTop hdr rest) = some a <;>
      simp [cutOut, Mem.InitNode, hc, hy]
  have eK : (cutOut m a (m.right_ a) (spineTop hdr rest)).key_ = m.key_ := by
    cases m.right_ a <;> by_cases hc : m.left_ (spineTop hdr rest) = some a <;>
      simp [cutOut, Mem.InitNode, hc]
  have eN : (cutOut m a (m.right_ a) (spineTop hdr rest)).next = m.next := by
    cases m.right_ a <;> by_cases hc : m.left_ (spineTop hdr rest) = some a <;>
      simp [cutOut, Mem.InitNode, hc]
  have eA : (cutOut m a (m.right_ a) (spineTop hdr rest)).parent_ a = none ∧
      (cutOut m a (m.right_ a) (spineTop hdr rest)).left_ a = none ∧
      (cutOut m a (m.right_ a) (spineTop hdr rest)).right_ a = none ∧
      (cutOut m a (m.right_ a) (spineTop hdr rest)).red_ a = true := by
    cases m.right_ a <;> by_cases hc : m.left_ (spineTop hdr rest) = some a <;>
      simp [cutOut, Mem.InitNode, hc]
  have hrne : ∀ y ∈ r.addrs, y ≠ a ∧ y ≠ spineTop hdr rest := by
    intro y hy
    exact ⟨fun e => har (e ▸ hy), fun e => hrd y hy (e ▸ hum)⟩
  have hsne : ∀ y ∈ hdr :: spineAddrs rest, y ≠ a ∧ ∀ x, r.ptr = some x → y ≠ x := by
    intro y hy
    refine ⟨?_, ?_⟩
    · rintro rfl
      rcases List.mem_cons.1 hy with e | h'
      · exact hah e
      · exact has h'
    · rintro x hx rfl
      exact hrd y (Sh.ptr_mem hx) hy
  have ePs : ∀ y ∈ hdr :: spineAddrs rest,
      (cutOut m a (m.right_ a) (spineTop hdr rest)).parent_ y = m.parent_ y := by
    intro y hy
    rw [eP y (hsne y hy).1]
    cases hrp : r.ptr with
    | none => rfl
    | some x =>
      have : y ≠ x := (hsne y hy).2 x hrp
      simp [this]
  -- the path
  have hrep1 := Rep_reparent (some (spineTop hdr rest)) h3 hrn
  have hrep : Rep (cutOut m a (m.right_ a) (spineTop hdr rest)).parent_
      (cutOut m a (m.right_ a) (spineTop hdr rest)).left_
      (cutOut m a (m.right_ a) (spineTop hdr rest)).right_ r (some (spineTop hdr rest)) := by
    refine (Rep_congr (fun y hy => ?_) _).2 hrep1
    exact ⟨eP y (hrne y hy).1, eL y (hrne y hy).1 (hrne y hy).2, eR y (hrne y hy).1⟩
  have hsp : SpineRep (cutOut m a (m.right_ a) (spineTop hdr rest)).parent_
      (cutOut m a (m.right_ a) (spineTop hdr rest)).left_
      (cutOut m a (m.right_ a) (spineTop hdr rest)).right_ hdr rest := by
    refine SpineRep_congr rest hnd' (fun y hy => ?_) (fun y hy hne => ?_) h5
    · exact ⟨ePs y (List.mem_cons_of_mem _ hy),
        eR y (hsne y (List.mem_cons_of_mem _ hy)).1⟩
    · exact eL y (hsne y hy).1 hne
  obtain ⟨g1, g2⟩ := leftSpine_rep r rest hrep (fun _ _ => Or.inr eLu) hsp (by
    intro _
    cases rest with
    | nil => trivial
    | cons y rest' =>
      obtain ⟨b, rb⟩ := y
      exact eLu)
  have hsub : ∀ y ∈ hdr :: spineAddrs (leftSpine r rest),
      y ∈ hdr :: spineAddrs ((a, r) :: rest) := by
    intro y hy
    rw [spineAddrs_leftSpine] at hy
    simp only [spineAddrs, List.mem_cons, List.mem_append] at hy ⊢
    tauto
  refine ⟨⟨g1, g2, ?_, ?_, ?_, ?_⟩, ⟨?_, ?_, ?_, ?_, ?_⟩, eN, eK, eA⟩
  · by_cases e : hdr = spineTop hdr rest
    · exact (congrArg (cutOut m a (m.right_ a) (spineTop hdr rest)).left_ e).trans eLu
    · rw [eL hdr (fun e' => hah e'.symm) e]
      exact hhl
  · rw [eR hdr (fun e' => hah e'.symm)]
    exact hhr
  · rw [spineAddrs_leftSpine]
    simp only [spineAddrs, List.nodup_cons, List.mem_cons, List.mem_append, not_or,
      List.nodup_append, List.cons_append] at hnd ⊢
    obtain ⟨⟨hta, htr, hts⟩, ⟨-, -⟩, hrn', hs, hrs⟩ := hnd
    exact ⟨⟨htr, hts⟩, hrn', hs, hrs⟩
  · intro y hy
    rw [eN]
    exact hb y (hsub y hy)
  · intro y hy
    have hya : y ≠ a := fun e => hy (by simp [spineAddrs, e])
    rw [eP y hya]
    cases hrp : r.ptr with
    | none => rfl
    | some x =>
      have : y ≠ x := fun e => hy (by simp [spineAddrs, e, Sh.ptr_mem hrp])
      simp [this]
  · intro y hy
    have hya : y ≠ a := fun e => hy (by simp [spineAddrs, e])
    have hyu : y ≠ spineTop hdr rest := by
      rintro rfl
      apply hy
      rcases List.mem_cons.1 hum with e | h'
      · rw [e]
        exact List.mem_cons_self _ _
      · exact List.mem_cons_of_mem _ (by simp [spineAddrs, h'])
    exact eL y hya hyu
  · intro y hy
    exact eR y (fun e => hy (by simp [spineAddrs, e]))
  · intro y hy
    exact eRed y (fun e => hy (by simp [spineAddrs, e]))
  · intro y _
    rw [eK]

/-- C11: on every reachable tree (either insertion mode) and for every key, `Find` returns an
iterator on a node whose key is equivalent to the key when the tree holds such an element and
`End()` otherwise, and `Contains` is true exactly when `Find` does not return `End()`. -/
theorem C11_find_contains [Inhabited K] {lt : K → K → Bool} (hlt : SWO lt) {m : Mem K}
    {t : RBTree} (hr : Reachable lt m t) (key : K) :
    ∃ L p, toList m t = some L ∧ Find lt m t key = some p ∧
      Contains lt m t key = some (decide (p ≠ End t)) ∧
      ((∃ a ∈ L, equiv lt (m.key_ a) key = true) →
        ∃ n ∈ L, p = some n ∧ equiv lt (m.key_ n) key = true) ∧
      ((∀ a ∈ L, equiv lt (m.key_ a) key = false) → p = End t) := by
  obtain ⟨sh, inv, hord⟩ := reach_inv hlt hr
  refine ⟨sh.addrs, ?_⟩
  rcases Find_spec hlt key inv.wf hord with ⟨n, hn, he, hf, hc⟩ | ⟨hno, hf, hc⟩
  · have hne : (some n : Ptr) ≠ End t := by
      simp only [End, ne_eq, Option.some.injEq]
      rintro rfl
      exact inv.wf.hdr_not_mem hn
    refine ⟨some n, toList_spec inv, hf, by simp [hc, hne], fun _ => ⟨n, hn, rfl, he⟩, ?_⟩
    intro hall
    rw [hall n hn] at he
    exact absurd he (by decide)
  · refine ⟨End t, toList_spec inv, hf, by simp [hc], ?_, fun _ => rfl⟩
    rintro ⟨a, ha, he⟩
    rw [hno a ha] at he
    exact absurd he (by decide)

/-- Witness of C11: looking up 3 in the multiset `{3, 3, 3}`. -/
theorem C11_witness : SWO ltN ∧ Reachable ltN exDup.1 exDup.2 ∧
    ∃ L p, toList exDup.1 exDup.2 = some L ∧ Find ltN exDup.1 exDup.2 3 = some p ∧
      Contains ltN exDup.1 exDup.2 3 = some (decide (p ≠ End exDup.2)) ∧
      ((∃ a ∈ L, equiv ltN (exDup.1.key_ a) 3 = true) →
        ∃ n ∈ L, p = some n ∧ equiv ltN (exDup.1.key_ n) 3 = true) ∧
      ((∀ a ∈ L, equiv ltN (exDup.1.key_ a) 3 = false) → p = End exDup.2) :=
  ⟨swo_ltN, exDup_reachable, C11_find_contains swo_ltN exDup_reachable 3⟩

/-- C12: on every reachable tree and for every iterator on one of its nodes, `Erase` returns,
the nodes (hence the keys) from `Begin()` to `End()` afterwards are the previous ones with
exactly the erased one taken out, the others in the same order, and `Size()` has dropped by
one. -/
theorem C12_erase_sequence [Inhabited K] {lt : K → K → Bool} (hlt : SWO lt) {m : Mem K}
    {t : RBTree} (hr : Reachable lt m t) {L : List Nat} (hL : toList m t = some L) {a : Nat}
    (ha : a ∈ L) :
    ∃ m' t' pre post, Erase m t (some a) = some (m', t') ∧ L = pre ++ a :: post ∧
      a ∉ pre ++ post ∧ toList m' t' = some (pre ++ post) ∧
      keys m t = some (pre.map m.key_ ++ m.key_ a :: post.map m.key_) ∧
      keys m' t' = some (pre.map m.key_ ++ post.map m.key_) ∧ Size t' + 1 = Size t := by
  obtain ⟨sh, inv, -⟩ := reach_inv hlt hr
  rw [toList_spec inv] at hL
  simp only [Option.some.injEq] at hL
  subst hL
  obtain ⟨m', sh', he, inv', hl, hk, -⟩ := Erase_spec inv ha
  obtain ⟨pre, post, hpp⟩ := List.append_of_mem ha
  have hnd : (pre ++ a :: post).Nodup := hpp ▸ inv.wf.addrs_nodup
  have hfil := filter_ne_mid hnd
  rw [← hpp, ← hl] at hfil
  refine ⟨m', _, pre, post, he, hpp, ?_, ?_, ?_, ?_, ?_⟩
  · simp only [List.nodup_append, List.nodup_cons, List.disjoint_cons_right] at hnd
    simp only [List.mem_append, not_or]
    exact ⟨hnd.2.2.1, hnd.2.1.1⟩
  · rw [toList_spec inv', hfil]
  · rw [keys_spec inv, hpp]
    simp
  · rw [keys_spec inv', hfil, hk]
    simp
  · have hlen : 0 < sh.addrs.length := List.length_pos_of_mem ha
    have := inv.size
    simp only [Size]
    omega

/-- Witness of C12: erasing the node of key 3 from the set `{5, 3, 8, 1, 4}`. -/
theorem C12_witness : SWO ltN ∧ Reachable ltN exSet.1 exSet.2 ∧
    toList exSet.1 exSet.2 = some shSet.addrs ∧ 2 ∈ shSet.addrs ∧
    ∃ m' t' pre post, Erase exSet.1 exSet.2 (some 2) = some (m', t') ∧
      shSet.addrs = pre ++ 2 :: post ∧ 2 ∉ pre ++ post ∧ toList m' t' = some (pre ++ post) ∧
      keys exSet.1 exSet.2 =
        some (pre.map exSet.1.key_ ++ exSet.1.key_ 2 :: post.map exSet.1.key_) ∧
      keys m' t' = some (pre.map exSet.1.key_ ++ post.map exSet.1.key_) ∧
      Size t' + 1 = Size exSet.2 :=
  ⟨swo_ltN, exSet_reachable, toList_spec exSet_inv, by decide,
    C12_erase_sequence swo_ltN exSet_reachable (toList_spec exSet_inv) (by decide)⟩

/-- C13: on every tree built by unique-mode inserts (and erasures) and for every key `k` it
holds, `Find(k)` returns an iterator other than `End()`, and after `Erase(Find(k))` the
call `Find(k)` returns `End()` and `Contains(k)` is false. -/
theorem C13_erase_then_find [Inhabited K] {lt : K → K → Bool} (hlt : SWO lt) {m : Mem K}
    {t : RBTree} (hr : ReachableUniq lt m t) (k : K) {L : List Nat}
    (hL : toList m t = some L) (hk : ∃ a ∈ L, equiv lt (m.key_ a) k = true) :
    ∃ pos m' t', Find lt m t k = some pos ∧ pos ≠ End t ∧ Erase m t pos = some (m', t') ∧
      Find lt m' t' k = some (End t') ∧ Contains lt m' t' k = some false := by
  obtain ⟨sh, inv, hord, hne⟩ := reachUniq_inv hlt hr
  rw [toList_spec inv] at hL
  simp only [Option.some.injEq] at hL
  subst hL
  rcases Find_spec hlt k inv.wf hord with ⟨n, hn, he, hf, -⟩ | ⟨hno, -, -⟩
  · obtain ⟨m', sh', hE, inv', hno'⟩ := erase_removes_key hlt inv hne hn k he
    have hnE : (some n : Ptr) ≠ End t := by
      simp only [End, ne_eq, Option.some.injEq]
      rintro rfl
      exact inv.wf.hdr_not_mem hn
    have := Find_absent lt k inv'.wf hno'
    exact ⟨some n, m', _, hf, hnE, hE, this.1, this.2⟩
  · obtain ⟨a, ha, he⟩ := hk
    rw [hno a ha] at he
    exact absurd he (by decide)

set_option maxRecDepth 100000 in
/-- Witness of C13: erasing 3 from the set `{5, 3, 8, 1, 4}`. -/
theorem C13_witness : SWO ltN ∧ ReachableUniq ltN exSet.1 exSet.2 ∧
    toList exSet.1 exSet.2 = some shSet.addrs ∧
    (∃ a ∈ shSet.addrs, equiv ltN (exSet.1.key_ a) 3 = true) ∧
    ∃ pos m' t', Find ltN exSet.1 exSet.2 3 = some pos ∧ pos ≠ End exSet.2 ∧
      Erase exSet.1 exSet.2 pos = some (m', t') ∧
      Find ltN m' t' 3 = some (End t') ∧ Contains ltN m' t' 3 = some false :=
  ⟨swo_ltN, exSet_reachableUniq, toList_spec exSet_inv, ⟨2, by decide, by decide⟩,
    C13_erase_then_find swo_ltN exSet_reachableUniq 3 (toList_spec exSet_inv)
      ⟨2, by decide, by decide⟩⟩

/-- C14: erasing a miss changes nothing. On every well-formed tree `Erase(End())` returns
the memory and the tree object as they were, and for every key `k` to which no key of the
tree is equivalent `Find(k)` is `End()` and both `DeleteByKey(k)` and `Erase(Find(k))` return
the memory and the tree object as they were (hence the same size, keys, links and colours). -/
theorem C14_erase_miss (lt : K → K → Bool) {m : Mem K} {t : RBTree} {sh : Sh}
    (hwf : WF m t.header_ sh) (k : K)
    (hk : ∀ a ∈ sh.addrs, equiv lt (m.key_ a) k = false) :
    Erase m t (End t) = some (m, t) ∧ Find lt m t k = some (End t) ∧
      DeleteByKey lt m t k = some (m, t) ∧
      (Find lt m t k).bind (Erase m t) = some (m, t) := by
  have hf := (Find_absent lt k hwf hk).1
  refine ⟨Erase_end m t, hf, ?_, ?_⟩
  · simp [DeleteByKey, hf]
  · simp [hf, Erase_end]

set_option maxRecDepth 100000 in
/-- Witness of C14: erasing the absent key 7 from the set `{5, 3, 8, 1, 4}`. -/
theorem C14_witness : WF exSet.1 exSet.2.header_ shSet ∧
    (∀ a ∈ shSet.addrs, equiv ltN (exSet.1.key_ a) 7 = false) ∧
    Erase exSet.1 exSet.2 (End exSet.2) = some exSet ∧
    Find ltN exSet.1 exSet.2 7 = some (End exSet.2) ∧
    DeleteByKey ltN exSet.1 exSet.2 7 = some exSet ∧
    (Find ltN exSet.1 exSet.2 7).bind (Erase exSet.1 exSet.2) = some exSet :=
  ⟨exSet_wf, by decide, C14_erase_miss ltN exSet_wf 7 (by decide)⟩

/-- C17: for every valid tree `t` (the empty one included) none of whose key copies throws,
with a key comparison `==` that is reflexive: the copy constructor, and copy assignment into
every other valid tree `d`, return a tree with the `Size()` of `t` and the key sequence of `t`
from `Begin()` to `End()`, no cell of `t` is written (the tree `t` keeps its keys), and
self-assignment leaves the tree object and every cell allocated before as they were. The copy
compares equal to `t` under `operator==` when `t` is not empty; when `t` is empty
`operator==` does not return (its `Begin() const` reads the null root). -/
theorem C17_copy_equal [Inhabited K] [BEq K] (hrefl : ∀ k : K, (k == k) = true)
    (throws : K → Bool) {m : Mem K} {d t : RBTree} {sd st : Sh} (hd : Inv m d sd)
    (ht : Inv m t st) (hdis : d.header_ ∉ t.header_ :: st.addrs)
    (hth : ∀ a ∈ st.addrs, throws (m.key_ a) = false) :
    (∃ m' c L, copyConstruct throws m t = some (m', c, false) ∧ Size c = Size t ∧
      keys m t = some L ∧ keys m' c = some L ∧ keys m' t = some L ∧
      AgreeOn (fun x => x < m.next) m m' ∧
      opEq m' c t = (if Size t = 0 then none else some true)) ∧
    (∃ m' c L, copyAssign throws m d t = some (m', c, false) ∧ c.header_ = d.header_ ∧
      Size c = Size t ∧ keys m t = some L ∧ keys m' c = some L ∧ keys m' t = some L ∧
      AgreeOn (fun x => x < m.next ∧ x ≠ d.header_) m m' ∧
      opEq m' c t = (if Size t = 0 then none else some true)) ∧
    (∃ m' L, copyAssign throws m t t = some (m', t, false) ∧ keys m t = some L ∧
      keys m' t = some L ∧ AgreeOn (fun x => x < m.next) m m') := by
  have hb : ∀ x ∈ t.header_ :: st.addrs, x < m.next := fun x hx => ht.wf.bound x hx
  have hbs : ∀ x ∈ st.addrs, x < m.next := fun x hx => hb x (List.mem_cons_of_mem _ hx)
  refine ⟨?_, ?_, ?_⟩
  · obtain ⟨m', s', e, inv', hk, hnil, ag, hn⟩ := copyConstruct_spec throws ht hth
    have ht' : Inv m' t st := ht.agree_inv ag hb (Nat.le_of_lt hn)
    have hkt : st.addrs.map m'.key_ = st.addrs.map m.key_ := ag.map_key hbs
    refine ⟨m', _, st.addrs.map m.key_, e, rfl, keys_spec ht, ?_, ?_, ag,
      opEq_copy hrefl inv' ht' (hk.trans hkt.symm) hnil⟩
    · rw [keys_spec inv', hk]
    · rw [keys_spec ht', hkt]
  · obtain ⟨m', s', e, inv', hk, hnil, ag, hn⟩ := copyAssign_spec throws hd.wf ht hdis hth
    have hb' : ∀ x ∈ t.header_ :: st.addrs, x < m.next ∧ x ≠ d.header_ :=
      fun x hx => ⟨hb x hx, fun e => hdis (e ▸ hx)⟩
    have ht' : Inv m' t st := ht.agree_inv ag hb' hn
    have hkt : st.addrs.map m'.key_ = st.addrs.map m.key_ :=
      ag.map_key (fun x hx => hb' x (List.mem_cons_of_mem _ hx))
    refine ⟨m', _, st.addrs.map m.key_, e, rfl, rfl, keys_spec ht, ?_, ?_, ag,
      opEq_copy hrefl inv' ht' (hk.trans hkt.symm) hnil⟩
    · rw [keys_spec inv', hk]
    · rw [keys_spec ht', hkt]
  · obtain ⟨m', e, -, ag, hn⟩ := selfAssign_spec throws ht hth
    have ht' : Inv m' t st := ht.agree_inv ag hb hn
    refine ⟨m', st.addrs.map m.key_, e, keys_spec ht, ?_, ag⟩
    rw [keys_spec ht', ag.map_key hbs]

/-- Witness of C17: copying the empty tree `(RBTree.mk0 Mem.init).2`, by the constructor and
by assignment into the empty tree `exEmpty.2`; the comparison of the copy with its source does
not return. -/
theorem C17_witness : (∀ k : Nat, (k == k) = true) ∧ Inv exEmpty.1 exEmpty.2 Sh.nil ∧
    Inv exEmpty.1 (RBTree.mk0 (Mem.init : Mem Nat)).2 Sh.nil ∧
    exEmpty.2.header_ ∉ (RBTree.mk0 (Mem.init : Mem Nat)).2.header_ :: Sh.nil.addrs ∧
    (∀ a ∈ Sh.nil.addrs, (fun _ : Nat => false) (exEmpty.1.key_ a) = false) ∧
    ((∃ m' c L, copyConstruct (fun _ => false) exEmpty.1 (RBTree.mk0 (Mem.init : Mem Nat)).2 =
        some (m', c, false) ∧ Size c = Size (RBTree.mk0 (Mem.init : Mem Nat)).2 ∧
      keys exEmpty.1 (RBTree.mk0 (Mem.init : Mem Nat)).2 = some L ∧ keys m' c = some L ∧
      keys m' (RBTree.mk0 (Mem.init : Mem Nat)).2 = some L ∧
      AgreeOn (fun x => x < exEmpty.1.next) exEmpty.1 m' ∧
      opEq m' c (RBTree.mk0 (Mem.init : Mem Nat)).2 =
        (if Size (RBTree.mk0 (Mem.init : Mem Nat)).2 = 0 then none else some true)) ∧
    (∃ m' c L, copyAssign (fun _ => false) exEmpty.1 exEmpty.2
        (RBTree.mk0 (Mem.init : Mem Nat)).2 = some (m', c, false) ∧
      c.header_ = exEmpty.2.header_ ∧ Size c = Size (RBTree.mk0 (Mem.init : Mem Nat)).2 ∧
      keys exEmpty.1 (RBTree.mk0 (Mem.init : Mem Nat)).2 = some L ∧ keys m' c = some L ∧
      keys m' (RBTree.mk0 (Mem.init : Mem Nat)).2 = some L ∧
      AgreeOn (fun x => x < exEmpty.1.next ∧ x ≠ exEmpty.2.header_) exEmpty.1 m' ∧
      opEq m' c (RBTree.mk0 (Mem.init : Mem Nat)).2 =
        (if Size (RBTree.mk0 (Mem.init : Mem Nat)).2 = 0 then none else some true)) ∧
    (∃ m' L, copyAssign (fun _ => false) exEmpty.1 (RBTree.mk0 (Mem.init : Mem Nat)).2
        (RBTree.mk0 (Mem.init : Mem Nat)).2 =
        some (m', (RBTree.mk0 (Mem.init : Mem Nat)).2, false) ∧
      keys exEmpty.1 (RBTree.mk0 (Mem.init : Mem Nat)).2 = some L ∧
      keys m' (RBTree.mk0 (Mem.init : Mem Nat)).2 = some L ∧
      AgreeOn (fun x => x < exEmpty.1.next) exEmpty.1 m')) :=
  ⟨fun k => beq_self_eq_true k, exEmpty_inv, exEmpty_fst_inv, by decide, by decide,
    C17_copy_equal (fun k => beq_self_eq_true k) (fun _ => false) exEmpty_inv exEmpty_fst_inv
      (by decide) (by decide)⟩

/-- C18: for every two well-formed trees (of any shape and colouring) whose `size_` is the
number of their nodes: when both are empty neither `operator==` nor `operator!=` returns (the
`Begin() const` they call reads the null root); in every other case `operator==` returns
whether the two key sequences in iteration order have the same length and pairwise equal
keys, and `operator!=` returns the negation. -/
theorem C18_equality [BEq K] {m : Mem K} {a b : RBTree} {sa sb : Sh}
    (wa : WF m a.header_ sa) (wb : WF m b.header_ sb) (hsa : a.size_ = sa.addrs.length)
    (hsb : b.size_ = sb.addrs.length) :
    (Size a = 0 ∧ Size b = 0 → opEq m a b = none ∧ opNe m a b = none) ∧
    (¬ (Size a = 0 ∧ Size b = 0) →
      opEq m a b = some (sa.addrs.map m.key_ == sb.addrs.map m.key_) ∧
      opNe m a b = some (!(sa.addrs.map m.key_ == sb.addrs.map m.key_))) := by
  have hnil : ∀ {t : RBTree} {s : Sh}, t.size_ = s.addrs.length → (Size t = 0 ↔ s = Sh.nil) := by
    intro t s h
    unfold Size
    cases s with
    | nil => simpa using h
    | node l x r =>
      simp only [Sh.addrs_node, List.length_append, List.length_cons] at h
      simp only [reduceCtorEq, iff_false]
      omega
  have h := opEq_spec wa wb hsa hsb
  rw [hnil hsa, hnil hsb]
  exact h

/-- Witness of C18: the two empty trees of `exEmpty`, on which `operator==` does not
return. -/
theorem C18_witness : WF exEmpty.1 (RBTree.mk0 (Mem.init : Mem Nat)).2.header_ Sh.nil ∧
    WF exEmpty.1 exEmpty.2.header_ Sh.nil ∧
    (RBTree.mk0 (Mem.init : Mem Nat)).2.size_ = Sh.nil.addrs.length ∧
    exEmpty.2.size_ = Sh.nil.addrs.length ∧
    (Size (RBTree.mk0 (Mem.init : Mem Nat)).2 = 0 ∧ Size exEmpty.2 = 0 →
      opEq exEmpty.1 (RBTree.mk0 (Mem.init : Mem Nat)).2 exEmpty.2 = none ∧
      opNe exEmpty.1 (RBTree.mk0 (Mem.init : Mem Nat)).2 exEmpty.2 = none) ∧
    (¬ (Size (RBTree.mk0 (Mem.init : Mem Nat)).2 = 0 ∧ Size exEmpty.2 = 0) →
      opEq exEmpty.1 (RBTree.mk0 (Mem.init : Mem Nat)).2 exEmpty.2 =
        some (Sh.nil.addrs.map exEmpty.1.key_ == Sh.nil.addrs.map exEmpty.1.key_) ∧
      opNe exEmpty.1 (RBTree.mk0 (Mem.init : Mem Nat)).2 exEmpty.2 =
        some (!(Sh.nil.addrs.map exEmpty.1.key_ == Sh.nil.addrs.map exEmpty.1.key_))) :=
  ⟨exEmpty_fst_inv.wf, exEmpty_inv.wf, rfl, rfl,
    C18_equality exEmpty_fst_inv.wf exEmpty_inv.wf rfl rfl⟩

/-- C19: for every two distinct valid trees `a` and `b` such that no copy of a key of `b`
throws, move assignment `a = std::move(b)` returns, and so does the move constructor from
`b`: the tree that receives holds exactly the key sequence and the `Size()` that `b` had, and
is valid; `b` is left a valid empty tree, with `Size() == 0`, no key and
`Begin() == End()`. -/
theorem C19_move_transfers [Inhabited K] (throws : K → Bool) {m : Mem K} {a b : RBTree}
    {sa sb : Sh} (ha : Inv m a sa) (hb : Inv m b sb)
    (hdis : a.header_ ∉ b.header_ :: sb.addrs)
    (hth : ∀ x ∈ sb.addrs, throws (m.key_ x) = false) :
    (∃ m' a' b' L, moveAssign throws m a b = some (m', a', b') ∧ keys m b = some L ∧
      keys m' a' = some L ∧ Size a' = Size b ∧ Inv m' a' sb ∧
      Size b' = 0 ∧ Inv m' b' Sh.nil ∧ keys m' b' = some [] ∧
      Begin m' b' = some (End b')) ∧
    (∃ m' a' b' L, moveConstruct m b = (m', a', b') ∧ keys m b = some L ∧
      keys m' a' = some L ∧ Size a' = Size b ∧ Inv m' a' sb ∧
      Size b' = 0 ∧ Inv m' b' Sh.nil ∧ keys m' b' = some [] ∧
      Begin m' b' = some (End b')) := by
  have hbb : ∀ x ∈ b.header_ :: sb.addrs, x < m.next := fun x hx => hb.wf.bound x hx
  constructor
  · obtain ⟨m', e, invA, invB, ag, hn⟩ := moveAssign_spec throws ha.wf hb hdis hth
    have hkt : sb.addrs.map m'.key_ = sb.addrs.map m.key_ :=
      ag.map_key (fun x hx => ⟨hbb x (List.mem_cons_of_mem _ hx),
        fun e => hdis (e ▸ List.mem_cons_of_mem _ hx)⟩)
    refine ⟨m', _, _, sb.addrs.map m.key_, e, keys_spec hb, ?_, rfl, invA, rfl, invB, ?_, ?_⟩
    · rw [keys_spec invA, hkt]
    · rw [keys_spec invB]
      rfl
    · rw [Begin_spec invB]
      rfl
  · have invA : Inv (RBTree.mk0 m).1 b sb := hb.alloc default
    have invB : Inv (RBTree.mk0 m).1 (RBTree.mk0 m).2 Sh.nil := Inv_mk0 m
    have ag : AgreeOn (fun x => x < m.next) m (RBTree.mk0 m).1 :=
      (AgreeOn.refl (fun x => x < m.next) m).offNew default (Nat.lt_irrefl _)
    have hkt : sb.addrs.map (RBTree.mk0 m).1.key_ = sb.addrs.map m.key_ :=
      ag.map_key (fun x hx => hbb x (List.mem_cons_of_mem _ hx))
    refine ⟨(RBTree.mk0 m).1, b, (RBTree.mk0 m).2, sb.addrs.map m.key_, rfl, keys_spec hb,
      ?_, rfl, invA, rfl, invB, ?_, ?_⟩
    · rw [keys_spec invA, hkt]
    · rw [keys_spec invB]
      rfl
    · rw [Begin_spec invB]
      rfl

set_option maxRecDepth 100000 in
/-- Witness of C19: moving the set `{5, 3, 8, 1, 4}` into the set `{10, 20}`. -/
theorem C19_witness : Inv exDest.1 exDest.2 shDest ∧ Inv exDest.1 exSet.2 shSet ∧
    exDest.2.header_ ∉ exSet.2.header_ :: shSet.addrs ∧
    (∀ x ∈ shSet.addrs, (fun _ : Nat => false) (exDest.1.key_ x) = false) ∧
    ((∃ m' a' b' L, moveAssign (fun _ => false) exDest.1 exDest.2 exSet.2 =
        some (m', a', b') ∧ keys exDest.1 exSet.2 = some L ∧
      keys m' a' = some L ∧ Size a' = Size exSet.2 ∧ Inv m' a' shSet ∧
      Size b' = 0 ∧ Inv m' b' Sh.nil ∧ keys m' b' = some [] ∧
      Begin m' b' = some (End b')) ∧
    (∃ m' a' b' L, moveConstruct exDest.1 exSet.2 = (m', a', b') ∧
      keys exDest.1 exSet.2 = some L ∧
      keys m' a' = some L ∧ Size a' = Size exSet.2 ∧ Inv m' a' shSet ∧
      Size b' = 0 ∧ Inv m' b' Sh.nil ∧ keys m' b' = some [] ∧
      Begin m' b' = some (End b'))) :=
  ⟨exDest_inv, exDest_src_inv, by decide, fun _ _ => rfl,
    C19_move_transfers (fun _ => false) exDest_inv exDest_src_inv (by decide)
      (fun _ _ => rfl)⟩

/-- The loop of `MergeMulti`, started on what is left of `other`, the nodes `Q` in order: it
returns; every node of `Q` has moved to `*this`, which is a valid tree in order; `other` is
left with size 0 and a header without children. -/
theorem MergeMultiLoop_spec {lt : K → K → Bool} (hlt : SWO lt) :
    ∀ (Q : List Nat) (sp : List (Nat × Sh)) (fuel : Nat) (m : Mem K) (t other : RBTree)
      (sa : Sh), spineAddrs sp = Q → Q.length < fuel → other.size_ = Q.length →
      Spine m other.header_ sp → Inv m t sa → Ordered lt m.key_ sa.addrs →
      (∀ x ∈ t.header_ :: sa.addrs, x ∉ other.header_ :: Q) →
      ∃ m' sa' na,
        MergeMultiLoop lt fuel m t other (some (spineTop other.header_ sp)) =
          some (m', { header_ := t.header_, size_ := na },
            { header_ := other.header_, size_ := 0 }) ∧
        m'.key_ = m.key_ ∧ Inv m' { header_ := t.header_, size_ := na } sa' ∧
        Ordered lt m'.key_ sa'.addrs ∧ sa'.addrs.Perm (sa.addrs ++ Q) ∧
        Spine m' other.header_ [] ∧ other.header_ ∉ t.header_ :: sa'.addrs := by
  intro Q
  induction Q with
  | nil =>
    intro sp fuel m t other sa hsp hf hsz hS hA ordA hdis
    obtain ⟨f, rfl⟩ : ∃ f, fuel = f + 1 := ⟨fuel - 1, by omega⟩
    have hnil := spineAddrs_eq_nil hsp
    subst hnil
    have ho : other = { header_ := other.header_, size_ := 0 } := by
      cases other
      simp only [List.length_nil] at hsz
      simp [hsz]
    refine ⟨m, sa, t.size_, ?_, rfl, hA, ordA, by simp, hS, ?_⟩
    · rw [MergeMultiLoop_done lt f m t other _ hsz]
      exact congrArg (fun o => some (m, t, o)) ho
    · intro hx
      exact hdis _ hx (List.mem_cons_self _ _)
  | cons q Q ih =>
    intro sp fuel m t other sa hsp hf hsz hS hA ordA hdis
    obtain ⟨f, rfl⟩ : ∃ f, fuel = f + 1 := ⟨fuel - 1, by omega⟩
    simp only [List.length_cons, Nat.add_lt_add_iff_right] at hf
    cases sp with
    | nil => simp [spineAddrs] at hsp
    | cons y rest =>
      obtain ⟨a, r⟩ := y
      simp only [spineAddrs, List.cons_append, List.cons.injEq] at hsp
      obtain ⟨rfl, hQ⟩ := hsp
      have hQ' : spineAddrs (leftSpine r rest) = Q := by
        rw [spineAddrs_leftSpine]
        exact hQ
      obtain ⟨hl, hp, hr, hru, hra, hau, hah, har, has, hrd, hnd', hrn⟩ := hS.head_facts
      obtain ⟨hS3, ag3, hn3, hk3, hp3, hl3, hr3, hred3⟩ := cutOut_spec hS
      have hcells : spineAddrs ((a, r) :: rest) = a :: Q := by
        simp [spineAddrs, hQ]
      have hA3 : Inv (cutOut m a (m.right_ a) (spineTop other.header_ rest)) t sa := by
        refine hA.agree_inv ag3 (fun x hx => ?_) (Nat.le_of_eq hn3.symm)
        rw [hcells]
        exact hdis x hx
      have haA : a ∉ t.header_ :: sa.addrs := fun hx =>
        hdis a hx (by simp)
      have hab : a < (cutOut m a (m.right_ a) (spineTop other.header_ rest)).next := by
        rw [hn3]
        exact hS.bound a (by simp [spineAddrs])
      obtain ⟨m4, sa4, e4, hA4, ordA4, hperm4, hk4, hL4⟩ :=
        insertNode_step hlt false hA3 (hk3 ▸ ordA) haA hab hp3 hl3 hr3 hred3
          (fun hu => absurd hu (by decide))
      have haQ : a ∉ other.header_ :: Q := by
        have := hS.nodup
        rw [hcells] at this
        simp only [List.nodup_cons, List.mem_cons, not_or] at this ⊢
        exact ⟨fun e => this.1.1 e.symm, this.2.1⟩
      have hS4 : Spine m4 other.header_ (leftSpine r rest) := by
        refine hS3.agree_spine hL4.agree (fun x hx hSx => ?_) (Nat.le_of_eq hL4.next.symm)
        rw [hQ'] at hx
        rcases hSx with hSx | rfl
        · exact hdis x hSx (by
            rcases List.mem_cons.1 hx with e | h'
            · rw [e]
              exact List.mem_cons_self _ _
            · exact List.mem_cons_of_mem _ (List.mem_cons_of_mem _ h'))
        · exact haQ hx
      have hdis4 : ∀ x ∈ ({ t with size_ := t.size_ + 1 } : RBTree).header_ :: sa4.addrs,
          x ∉ ({ other with size_ := other.size_ - 1 } : RBTree).header_ :: Q := by
        intro x hx hx'
        have hx1 : x ∈ other.header_ :: a :: Q := by
          rcases List.mem_cons.1 hx' with e | h'
          · rw [e]
            exact List.mem_cons_self _ _
          · exact List.mem_cons_of_mem _ (List.mem_cons_of_mem _ h')
        rcases List.mem_cons.1 hx with rfl | h
        · exact hdis _ (List.mem_cons_self _ _) hx1
        · rcases List.mem_cons.1 (hperm4.mem_iff.1 h) with rfl | h'
          · exact haQ hx'
          · exact hdis x (List.mem_cons_of_mem _ h') hx1
      have hkey4 : m4.key_ = m.key_ := hk4.trans hk3
      obtain ⟨m', sa', na, e, hk', hA', ordA', hperm, hS', hh'⟩ :=
        ih (leftSpine r rest) f m4 { t with size_ := t.size_ + 1 }
          { other with size_ := other.size_ - 1 } sa4 hQ' hf
          (by simp only [hsz, List.length_cons]; omega) hS4 hA4 ordA4 hdis4
      refine ⟨m', sa', na, ?_, hk'.trans hkey4, hA', ordA', ?_, hS', hh'⟩
      · have hstep := @MergeMultiLoop_step K lt f _ _ _ _ other _ _ _ _ _
          (by rw [hsz]; simp) hl hp hru hra hS.next e4
        show MergeMultiLoop lt (f + 1) m t other (some a) = _
        rw [hstep]
        exact e
      · refine hperm.trans ?_
        exact (List.Perm.append_right _ hperm4).trans (by
          simp only [List.cons_append]
          exact List.perm_middle.symm)

/-- `MergeMulti` on two distinct valid trees, `*this` in order: it returns; every node of
`other` has moved to `*this`, which is a valid tree in order; `other` is a valid empty
tree. -/
theorem MergeMulti_spec {lt : K → K → Bool} (hlt : SWO lt) {m : Mem K} {t other : RBTree}
    {sa sb : Sh} (hA : Inv m t sa) (ordA : Ordered lt m.key_ sa.addrs) (hB : Inv m other sb)
    (hdis : ∀ x ∈ t.header_ :: sa.addrs, x ∉ other.header_ :: sb.addrs) :
    ∃ m' sa' na,
      MergeMulti lt m t other = some (m', { header_ := t.header_, size_ := na },
        { header_ := other.header_, size_ := 0 }) ∧
      m'.key_ = m.key_ ∧ Inv m' { header_ := t.header_, size_ := na } sa' ∧
      Ordered lt m'.key_ sa'.addrs ∧ sa'.addrs.Perm (sa.addrs ++ sb.addrs) ∧
      Inv m' { header_ := other.header_, size_ := 0 } Sh.nil := by
  have hsp : spineAddrs (leftSpine sb []) = sb.addrs := by
    rw [spineAddrs_leftSpine]
    simp [spineAddrs]
  obtain ⟨m', sa', na, e, hk, hA', ordA', hperm, hS', hh'⟩ :=
    MergeMultiLoop_spec hlt sb.addrs (leftSpine sb []) (other.size_ + 1) m t other sa hsp
      (by rw [hB.size]; omega) hB.size hB.wf.spine hA ordA hdis
  have hbegin : Begin m other = some (some (spineTop other.header_ (leftSpine sb []))) := by
    rw [Begin_spec hB, spineTop_eq, hsp]
  have hag : AgreeOn (fun x => x ≠ other.header_) m' (m'.setParent other.header_ none) :=
    (AgreeOn.refl _ m').setParent none (fun h => h rfl)
  refine ⟨m'.setParent other.header_ none, sa', na, ?_, hk, ?_, ordA', hperm, ?_⟩
  · unfold MergeMulti
    rw [hbegin]
    simp only [Option.bind_eq_bind, Option.some_bind, e, Option.pure_def]
  · exact hA'.agree_inv hag (fun x hx e => hh' (e ▸ hx)) (Nat.le_refl _)
  · refine Inv_empty ⟨by simp, by simpa using hS'.hleft, by simpa using hS'.hright, trivial,
      by simp, ?_⟩ rfl
    intro a ha
    simp only [Sh.addrs_nil, List.mem_singleton] at ha
    subst ha
    simpa using hS'.bound _ (List.mem_cons_self _ _)

set_option maxRecDepth 100000 in
theorem exOther_wf : WF exOther.1 exOther.2.header_ shOther := by
  refine ⟨by decide, by decide, by decide, ?_, by decide, by decide⟩
  exact ⟨by decide, by decide, by decide, ⟨by decide, by decide, by decide, trivial, trivial⟩,
    ⟨by decide, by decide, by decide, trivial, trivial⟩⟩

set_option maxRecDepth 100000 in
theorem exOther_inv : Inv exOther.1 exOther.2 shOther := by
  refine ⟨exOther_wf, by decide, ⟨?_, ?_, ?_⟩⟩
  · simp only [shOther, isBlk_node]
    decide
  · simp only [shOther, NoRR_node, NoRR_nil, isBlk_node, isBlk_nil, and_true]
    decide
  · simp only [shOther, Bal_node, Bal_nil, bh_node, bh_nil, and_true]
    decide

set_option maxRecDepth 100000 in
theorem exOther_src_wf : WF exOther.1 exSet.2.header_ shSet := by
  refine ⟨by decide, by decide, by decide, ?_, by decide, by decide⟩
  refine ⟨by decide, by decide, by decide, ⟨by decide, by decide, by decide,
    ⟨by decide, by decide, by decide, trivial, trivial⟩,
    ⟨by decide, by decide, by decide, trivial, trivial⟩⟩,
    ⟨by decide, by decide, by decide, trivial, trivial⟩⟩

set_option maxRecDepth 100000 in
theorem exOther_src_inv : Inv exOther.1 exSet.2 shSet := by
  refine ⟨exOther_src_wf, by decide, ⟨?_, ?_, ?_⟩⟩
  · simp only [shSet, isBlk_node]
    decide
  · simp only [shSet, NoRR_node, NoRR_nil, isBlk_node, isBlk_nil, and_true]
    decide
  · simp only [shSet, Bal_node, Bal_nil, bh_node, bh_nil, and_true]
    decide

set_option maxRecDepth 100000 in
theorem exOther_facts : Ordered ltN exOther.1.key_ shSet.addrs ∧
    NoEquiv ltN exOther.1.key_ shSet.addrs ∧ NoEquiv ltN exOther.1.key_ shOther.addrs ∧
    ∀ x ∈ exSet.2.header_ :: shSet.addrs, x ∉ exOther.2.header_ :: shOther.addrs := by
  refine ⟨?_, ?_, ?_, ?_⟩
  · unfold Ordered
    decide
  · unfold NoEquiv
    decide
  · unfold NoEquiv
    decide
  · decide

theorem heldIn_keys (lt : K → K → Bool) (k : Nat → K) (L : List Nat) (x : Nat) :
    heldIn lt k L x = (L.map k).any (fun ka => equiv lt ka (k x)) := by
  unfold heldIn
  induction L with
  | nil => rfl
  | cons a L ih => simp only [List.any_cons, List.map_cons, ih]

theorem filter_held_keys (lt : K → K → Bool) (k : Nat → K) (A B : List Nat) :
    (B.filter (heldIn lt k A)).map k =
      (B.map k).filter (fun kb => (A.map k).any (fun ka => equiv lt ka kb)) := by
  rw [List.filter_map]
  congr 1
  refine List.filter_congr (fun x _ => ?_)
  exact heldIn_keys lt k A x

theorem filter_not_held_keys (lt : K → K → Bool) (k : Nat → K) (A B : List Nat) :
    (B.filter (fun x => !heldIn lt k A x)).map k =
      (B.map k).filter (fun kb => !(A.map k).any (fun ka => equiv lt ka kb)) := by
  rw [List.filter_map]
  congr 1
  refine List.filter_congr (fun x _ => ?_)
  simp only [Function.comp, heldIn_keys lt k A x]

/-- Insertion into a valid empty tree, in either mode: the key goes in. -/
theorem insert_into_empty (lt : K → K → Bool) {m : Mem K} {t : RBTree} (h : Inv m t Sh.nil)
    (key : K) (uniq : Bool) :
    ∃ m' sh', InsertKey lt m t key uniq =
        some (m', { t with size_ := t.size_ + 1 }, some m.next, true) ∧
      Inv m' { t with size_ := t.size_ + 1 } sh' ∧
      keys m' { t with size_ := t.size_ + 1 } = some [key] := by
  rcases InsertKey_spec lt key uniq h with ⟨-, n, c, l, r, -, hs, -⟩ |
    ⟨m', sh', c, e, inv', hs, ha, -, -, hk, -⟩
  · exfalso
    have := congrArg Sh.addrs hs
    rw [plug_addrs] at this
    simp at this
  · have hc : c = [] := plug_nil_eq_nil.1 hs.symm
    subst hc
    refine ⟨m', sh', e, inv', ?_⟩
    rw [keys_spec inv', ha, hk]
    simp [plug]

/-- C15: for every two distinct valid trees `a` (`*this`) and `b` (`other`) in one memory,
`a` in order and neither holding two equivalent keys, `a.Merge(b)` returns; afterwards the
keys of `b` are exactly the keys it had that are equivalent to a key `a` had (in their
order), the keys of `a` are the keys it had together with the other keys of `b` (so every key
of `b` has an equivalent in `a`), and `Size(a) + Size(b)` is what it was. Both are valid
trees, `a` in order and without equivalent keys. -/
theorem C15_merge_unique {lt : K → K → Bool} (hlt : SWO lt) {m : Mem K} {a b : RBTree}
    {sa sb : Sh} (hA : Inv m a sa) (ordA : Ordered lt m.key_ sa.addrs)
    (neA : NoEquiv lt m.key_ sa.addrs) (hB : Inv m b sb)
    (neB : NoEquiv lt m.key_ sb.addrs)
    (hdis : ∀ x ∈ a.header_ :: sa.addrs, x ∉ b.header_ :: sb.addrs) :
    ∃ m' a' b' sa' sb' KA KB KA' KB', Merge lt m a b = some (m', a', b') ∧
      keys m a = some KA ∧ keys m b = some KB ∧
      keys m' a' = some KA' ∧ keys m' b' = some KB' ∧
      KB' = KB.filter (fun kb => KA.any (fun ka => equiv lt ka kb)) ∧
      KA'.Perm (KA ++ KB.filter (fun kb => !KA.any (fun ka => equiv lt ka kb))) ∧
      (∀ kb ∈ KB, ∃ ka ∈ KA', equiv lt ka kb = true) ∧
      Size a' + Size b' = Size a + Size b ∧
      Inv m' a' sa' ∧ Ordered lt m'.key_ sa'.addrs ∧ NoEquiv lt m'.key_ sa'.addrs ∧
      Inv m' b' sb' := by
  obtain ⟨m', sa', sb', na, nb, e, hk, hA', ordA', neA', hB', hsb', hperm, -⟩ :=
    Merge_spec hlt hA ordA neA hB neB hdis
  have hKB' : sb'.addrs.map m'.key_ = (sb.addrs.map m.key_).filter
      (fun kb => (sa.addrs.map m.key_).any (fun ka => equiv lt ka kb)) := by
    rw [hk, hsb']
    exact filter_held_keys lt m.key_ sa.addrs sb.addrs
  have hKA' : (sa'.addrs.map m'.key_).Perm (sa.addrs.map m.key_ ++
      (sb.addrs.map m.key_).filter
        (fun kb => !(sa.addrs.map m.key_).any (fun ka => equiv lt ka kb))) := by
    rw [hk, ← filter_not_held_keys lt m.key_ sa.addrs sb.addrs, ← List.map_append]
    exact hperm.map _
  refine ⟨m', _, _, sa', sb', sa.addrs.map m.key_, sb.addrs.map m.key_,
    sa'.addrs.map m'.key_, sb'.addrs.map m'.key_, e, keys_spec hA, keys_spec hB,
    keys_spec hA', keys_spec hB', hKB', hKA', ?_, ?_, hA', hk ▸ ordA', hk ▸ neA', hB'⟩
  · intro kb hkb
    by_cases hheld : (sa.addrs.map m.key_).any (fun ka => equiv lt ka kb) = true
    · obtain ⟨ka, hka, he⟩ := List.any_eq_true.1 hheld
      exact ⟨ka, hKA'.mem_iff.2 (List.mem_append_left _ hka), he⟩
    · refine ⟨kb, hKA'.mem_iff.2 (List.mem_append_right _ ?_), equiv_self hlt kb⟩
      exact List.mem_filter.2 ⟨hkb, by simpa using hheld⟩
  · have h1 : na = sa'.addrs.length := hA'.size
    have h2 : nb = sb'.addrs.length := hB'.size
    have h3 := hperm.length_eq
    have h4 := List.length_eq_length_filter_add (l := sb.addrs) (heldIn lt m.key_ sa.addrs)
    have h5 : a.size_ = sa.addrs.length := hA.size
    have h6 : b.size_ = sb.addrs.length := hB.size
    simp only [List.length_append] at h3
    rw [hsb'] at h2
    simp only [Size]
    omega

set_option maxRecDepth 100000 in
/-- Witness of C15: merging the set `{4, 10, 3}` into the set `{5, 3, 8, 1, 4}`. -/
theorem C15_witness : SWO ltN ∧ Inv exOther.1 exSet.2 shSet ∧
    Ordered ltN exOther.1.key_ shSet.addrs ∧ NoEquiv ltN exOther.1.key_ shSet.addrs ∧
    Inv exOther.1 exOther.2 shOther ∧ NoEquiv ltN exOther.1.key_ shOther.addrs ∧
    (∀ x ∈ exSet.2.header_ :: shSet.addrs, x ∉ exOther.2.header_ :: shOther.addrs) ∧
    ∃ m' a' b' sa' sb' KA KB KA' KB', Merge ltN exOther.1 exSet.2 exOther.2 =
        some (m', a', b') ∧
      keys exOther.1 exSet.2 = some KA ∧ keys exOther.1 exOther.2 = some KB ∧
      keys m' a' = some KA' ∧ keys m' b' = some KB' ∧
      KB' = KB.filter (fun kb => KA.any (fun ka => equiv ltN ka kb)) ∧
      KA'.Perm (KA ++ KB.filter (fun kb => !KA.any (fun ka => equiv ltN ka kb))) ∧
      (∀ kb ∈ KB, ∃ ka ∈ KA', equiv ltN ka kb = true) ∧
      Size a' + Size b' = Size exSet.2 + Size exOther.2 ∧
      Inv m' a' sa' ∧ Ordered ltN m'.key_ sa'.addrs ∧ NoEquiv ltN m'.key_ sa'.addrs ∧
      Inv m' b' sb' :=
  ⟨swo_ltN, exOther_src_inv, exOther_facts.1, exOther_facts.2.1, exOther_inv,
    exOther_facts.2.2.1, exOther_facts.2.2.2,
    C15_merge_unique swo_ltN exOther_src_inv exOther_facts.1 exOther_facts.2.1 exOther_inv
      exOther_facts.2.2.1 exOther_facts.2.2.2⟩

/-- C16: for every two distinct valid trees `a` (`*this`) and `b` (`other`) in one memory,
`a` in order, `a.MergeMulti(b)` returns; afterwards `b` is a valid empty tree (`Size() == 0`,
null root, `Begin() == End()`, and an insertion into it, in either mode, puts the key in),
`Size(a)` has grown by the size `b` had, the keys of `a` are the keys it had together with
the keys `b` had, and `a` is a valid red-black tree whose keys are in order. -/
theorem C16_merge_multi {lt : K → K → Bool} (hlt : SWO lt) {m : Mem K} {a b : RBTree}
    {sa sb : Sh} (hA : Inv m a sa) (ordA : Ordered lt m.key_ sa.addrs) (hB : Inv m b sb)
    (hdis : ∀ x ∈ a.header_ :: sa.addrs, x ∉ b.header_ :: sb.addrs) :
    ∃ m' a' b' sa' KA KB KA', MergeMulti lt m a b = some (m', a', b') ∧
      keys m a = some KA ∧ keys m b = some KB ∧ keys m' a' = some KA' ∧
      Inv m' b' Sh.nil ∧ Size b' = 0 ∧ Root m' b'.header_ = none ∧
      Begin m' b' = some (End b') ∧ keys m' b' = some [] ∧
      (∀ (key : K) (uniq : Bool), ∃ m2 b2 sh2,
        InsertKey lt m' b' key uniq = some (m2, b2, some m'.next, true) ∧ Inv m2 b2 sh2 ∧
          keys m2 b2 = some [key]) ∧
      Size a' = Size a + Size b ∧ KA'.Perm (KA ++ KB) ∧
      Inv m' a' sa' ∧ Ordered lt m'.key_ sa'.addrs := by
  obtain ⟨m', sa', na, e, hk, hA', ordA', hperm, hB'⟩ := MergeMulti_spec hlt hA ordA hB hdis
  refine ⟨m', _, _, sa', sa.addrs.map m.key_, sb.addrs.map m.key_, sa'.addrs.map m'.key_, e,
    keys_spec hA, keys_spec hB, keys_spec hA', hB', rfl, hB'.wf.root, ?_, ?_, ?_, ?_, ?_, hA',
    ordA'⟩
  · rw [Begin_spec hB']
    rfl
  · rw [keys_spec hB']
    rfl
  · intro key uniq
    obtain ⟨m2, sh2, e2, inv2, hk2⟩ := insert_into_empty lt hB' key uniq
    exact ⟨m2, _, sh2, e2, inv2, hk2⟩
  · have h1 : na = sa'.addrs.length := hA'.size
    have h3 := hperm.length_eq
    have h5 : a.size_ = sa.addrs.length := hA.size
    have h6 : b.size_ = sb.addrs.length := hB.size
    simp only [List.length_append] at h3
    simp only [Size]
    omega
  · rw [hk, ← List.map_append]
    exact hperm.map _

set_option maxRecDepth 100000 in
/-- Witness of C16: `MergeMulti` of the tree `{4, 10, 3}` into the tree `{5, 3, 8, 1, 4}`. -/
theorem C16_witness : SWO ltN ∧ Inv exOther.1 exSet.2 shSet ∧
    Ordered ltN exOther.1.key_ shSet.addrs ∧ Inv exOther.1 exOther.2 shOther ∧
    (∀ x ∈ exSet.2.header_ :: shSet.addrs, x ∉ exOther.2.header_ :: shOther.addrs) ∧
    ∃ m' a' b' sa' KA KB KA', MergeMulti ltN exOther.1 exSet.2 exOther.2 =
        some (m', a', b') ∧
      keys exOther.1 exSet.2 = some KA ∧ keys exOther.1 exOther.2 = some KB ∧
      keys m' a' = some KA' ∧
      Inv m' b' Sh.nil ∧ Size b' = 0 ∧ Root m' b'.header_ = none ∧
      Begin m' b' = some (End b') ∧ keys m' b' = some [] ∧
      (∀ (key : Nat) (uniq : Bool), ∃ m2 b2 sh2,
        InsertKey ltN m' b' key uniq = some (m2, b2, some m'.next, true) ∧ Inv m2 b2 sh2 ∧
          keys m2 b2 = some [key]) ∧
      Size a' = Size exSet.2 + Size exOther.2 ∧ KA'.Perm (KA ++ KB) ∧
      Inv m' a' sa' ∧ Ordered ltN m'.key_ sa'.addrs :=
  ⟨swo_ltN, exOther_src_inv, exOther_facts.1, exOther_inv, exOther_facts.2.2.2,
    C16_merge_multi swo_ltN exOther_src_inv exOther_facts.1 exOther_inv exOther_facts.2.2.2⟩

theorem DeleteSubTree_none (m : Mem K) (fuel : Nat) : DeleteSubTree m fuel none = some () := by
  cases fuel <;> rfl

/-- `CopyNodes` on a subtree one of whose keys throws when copied: the exception leaves the
function (the `catch` blocks on the way return), and nothing allocated before is written. -/
theorem CopyNodes_throw (throws : K → Bool) :
    ∀ (s : Sh) (fuel : Nat) (m : Mem K) (node : Nat) (par srcpar : Ptr),
      s.ptr = some node → Rep m.parent_ m.left_ m.right_ s srcpar →
      (∀ a ∈ s.addrs, a < m.next) → s.depth ≤ fuel →
      (∃ a ∈ s.addrs, throws (m.key_ a) = true) →
      ∃ m', CopyNodes throws fuel m node par = some (m', none) ∧ m.next ≤ m'.next ∧
        AgreeOn (fun x => x < m.next) m m' := by
  intro s
  induction s with
  | nil => intro fuel m node par srcpar h; simp at h
  | node l a r ihl ihr =>
    intro fuel m node par srcpar hp hrep hb hd hth
    simp only [Sh.ptr_node, Option.some.injEq] at hp
    subst hp
    obtain ⟨k, rfl⟩ : ∃ k, fuel = k + 1 := ⟨fuel - 1, by simp at hd; omega⟩
    obtain ⟨-, hl, hr, repl, repr⟩ := hrep
    simp only [Sh.depth_node] at hd
    have ha : a < m.next := hb a (by simp)
    have hlb : ∀ x ∈ l.addrs, x < m.next := fun x hx => hb x (by simp [hx])
    have hrb : ∀ x ∈ r.addrs, x < m.next := fun x hx => hb x (by simp [hx])
    by_cases hta : throws (m.key_ a) = true
    · exact ⟨m, by rw [CopyNodes_succ, if_pos hta], Nat.le_refl _, AgreeOn.refl _ m⟩
    have hmid := copyInit_mid m ha
    have hn2 : (copyInit m a).next = m.next + 1 := rfl
    have repAt : ∀ {m2 : Mem K} (c : Sh), AgreeOn (fun x => x < m.next) m m2 →
        (∀ x ∈ c.addrs, x < m.next) → Rep m.parent_ m.left_ m.right_ c (some a) →
        Rep m2.parent_ m2.left_ m2.right_ c (some a) := by
      intro m2 c ag hcb hc
      exact (Rep_congr (fun y hy => ⟨ag.parent y (hcb y hy), ag.left y (hcb y hy),
        ag.right y (hcb y hy)⟩) _).2 hc
    by_cases htl : ∃ x ∈ l.addrs, throws (m.key_ x) = true
    · -- the copy of the left subtree throws
      cases l with
      | nil =>
        obtain ⟨x, hx, -⟩ := htl
        simp at hx
      | node ll lx lr =>
        obtain ⟨m', e, hn', ag'⟩ := ihl k (copyInit m a) lx (some m.next) (some a) rfl
          (repAt _ hmid.agree hlb repl) (fun y hy => by have := hlb y hy; omega) (by omega)
          (by
            obtain ⟨x, hx, ht⟩ := htl
            exact ⟨x, hx, by rw [hmid.agree.key x (hlb x hx)]; exact ht⟩)
        have hleft : (copyInit m a).left_ a = some lx := by
          rw [hmid.agree.left a ha, hl]
          rfl
        have hc : m.next < (copyInit m a).next := by omega
        have hdl : m'.left_ m.next = none := by
          rw [ag'.left _ hc, hmid.left]
          rfl
        have hdr : m'.right_ m.next = none := by
          rw [ag'.right _ hc, hmid.right]
          rfl
        obtain ⟨f, hf⟩ : ∃ f, m'.next = f + 1 := ⟨m'.next - 1, by omega⟩
        have hdel : DeleteSubTree m' m'.next (some m.next) = some () := by
          rw [hf]
          simp only [DeleteSubTree, hdl, hdr, DeleteSubTree_none]
        refine ⟨m', ?_, by omega, hmid.agree.trans (ag'.mono (fun y hy => by omega))⟩
        rw [CopyNodes_succ, if_neg hta, hleft]
        simp only [copyChild, e, copyCatch, hdel, Option.map_some']
    · -- the copy of the right subtree throws
      have htr : ∃ x ∈ r.addrs, throws (m.key_ x) = true := by
        obtain ⟨x, hx, ht⟩ := hth
        simp only [Sh.addrs_node, List.mem_append, List.mem_cons] at hx
        rcases hx with hx | rfl | hx
        · exact absurd ⟨x, hx, ht⟩ htl
        · exact absurd ht hta
        · exact ⟨x, hx, ht⟩
      have hthl : ∀ y ∈ l.addrs, throws (m.key_ y) = false := by
        intro y hy
        cases h : throws (m.key_ y) with
        | false => rfl
        | true => exact absurd ⟨y, hy, h⟩ htl
      obtain ⟨m3, e3, mid3⟩ := copyChild_left (l := l) (CopyNodes throws k) hmid
        (by rw [hmid.agree.left a ha, hl]) hlb (by
          intro x hx
          exact CopyNodes_spec throws l k (copyInit m a) x (some m.next) (some a) hx
            (repAt l hmid.agree hlb repl) (fun y hy => by have := hlb y hy; omega) (by omega)
            (fun y hy => by
              rw [hmid.agree.key y (hlb y hy)]
              exact hthl y hy))
      have hn3 : m3.next = m.next + 1 + l.addrs.length := by simpa using mid3.next
      cases r with
      | nil =>
        obtain ⟨x, hx, -⟩ := htr
        simp at hx
      | node rl rx rr =>
        obtain ⟨m4, e4, hn4, ag4⟩ := ihr k m3 rx (some m.next) (some a) rfl
          (repAt _ mid3.agree hrb repr) (fun y hy => by have := hrb y hy; omega) (by omega)
          (by
            obtain ⟨x, hx, ht⟩ := htr
            exact ⟨x, hx, by rw [mid3.agree.key x (hrb x hx)]; exact ht⟩)
        have hright : m3.right_ a = some rx := by
          rw [mid3.agree.right a ha, hr]
          rfl
        have hc : m.next < m3.next := by omega
        have hdl : m4.left_ m.next = (copySh (m.next + 1) l).ptr := by
          rw [ag4.left _ hc, mid3.left]
        have hdr : m4.right_ m.next = none := by
          rw [ag4.right _ hc, mid3.right]
          rfl
        have hcl : IsCopy m m4 l (copySh (m.next + 1) l) (some m.next) :=
          mid3.copyL.agree_copy ag4 (fun y hy => by
            have := copySh_range l _ _ hy
            omega)
        have hdel : DeleteSubTree m4 m4.next (some m.next) = some () := by
          have hrep : Rep m4.parent_ m4.left_ m4.right_
              (Sh.node (copySh (m.next + 1) l) m.next Sh.nil) (m4.parent_ m.next) :=
            ⟨rfl, hdl, hdr, hcl.rep, trivial⟩
          refine DeleteSubTree_spec m4 _ m4.next _ hrep ?_
          have := l.depth_le_length
          simp only [Sh.depth_node, Sh.depth_nil, copySh_depth]
          omega
        refine ⟨m4, ?_, by omega, mid3.agree.trans (ag4.mono (fun y hy => by omega))⟩
        rw [CopyNodes_succ, if_neg hta, e3]
        simp only [hright, copyChild, e4, copyCatch, hdel, Option.map_some']

/-- `CopyTree` from a tree one of whose keys throws when copied: the exception is propagated
and the destination is as it was. -/
theorem CopyTree_throw (throws : K → Bool) {m : Mem K} {t other : RBTree} {so : Sh}
    (ho : Inv m other so) (hth : ∃ a ∈ so.addrs, throws (m.key_ a) = true) :
    ∃ m', CopyTree throws m t other = some (m', t, true) ∧ m.next ≤ m'.next ∧
      AgreeOn (fun x => x < m.next) m m' := by
  cases hso : so with
  | nil =>
    obtain ⟨a, ha, -⟩ := hth
    rw [hso] at ha
    simp at ha
  | node l a r =>
    rw [hso] at ho hth
    have hsz : Size other ≠ 0 := by
      simp [Size, ho.size]
    have hroot : Root m other.header_ = some a := ho.wf.root
    have hb : ∀ x ∈ (Sh.node l a r).addrs, x < m.next :=
      fun x hx => ho.wf.bound x (List.mem_cons_of_mem _ hx)
    have hd : (Sh.node l a r).depth ≤ m.next := by
      have := (Sh.node l a r).depth_le_length
      have := ho.wf.depth_lt
      omega
    obtain ⟨m1, e1, hn, ag⟩ := CopyNodes_throw throws (Sh.node l a r) m.next m a none
      (some other.header_) rfl ho.wf.rep hb hd hth
    refine ⟨m1, ?_, hn, ag⟩
    unfold CopyTree
    rw [if_neg hsz, hroot]
    simp only [e1]

/-- Copy assignment from a tree one of whose keys throws when copied, onto another tree: the
exception is propagated, and the destination is left empty. -/
theorem copyAssign_throw [Inhabited K] (throws : K → Bool) {m : Mem K} {t other : RBTree}
    {st so : Sh} (ht : WF m t.header_ st) (ho : Inv m other so)
    (hdis : t.header_ ∉ other.header_ :: so.addrs)
    (hth : ∃ a ∈ so.addrs, throws (m.key_ a) = true) :
    ∃ m', copyAssign throws m t other = some (m', { t with size_ := 0 }, true) ∧
      Inv m' { t with size_ := 0 } Sh.nil ∧ m.next ≤ m'.next ∧
      AgreeOn (fun x => x < m.next ∧ x ≠ t.header_) m m' := by
  have hhdr : t.header_ ≠ other.header_ := fun e => hdis (by simp [e])
  obtain ⟨ec, wf1⟩ := Clear_spec ht
  have ag1 : AgreeOn (fun x => x < m.next ∧ x ≠ t.header_) m (m.setParent t.header_ none) :=
    (AgreeOn.refl _ m).setParent _ (fun h => h.2 rfl)
  have hbs : ∀ x ∈ other.header_ :: so.addrs, x < m.next ∧ x ≠ t.header_ :=
    fun x hx => ⟨ho.wf.bound x hx, fun e => hdis (e ▸ hx)⟩
  have ho1 : Inv (m.setParent t.header_ none) other so :=
    ho.agree_inv ag1 hbs (Nat.le_refl _)
  have inv1 : Inv (m.setParent t.header_ none) { t with size_ := 0 } Sh.nil :=
    Inv_empty wf1 rfl
  obtain ⟨m2, e2, hn2, ag2⟩ := CopyTree_throw throws (t := { t with size_ := 0 }) ho1 hth
  refine ⟨m2, ?_, ?_, hn2, ag1.trans (ag2.mono (fun x hx => hx.1))⟩
  · unfold copyAssign
    rw [if_neg hhdr, ec]
    simp only [e2]
  · exact inv1.agree_inv ag2 (fun x hx => by
      simp only [Sh.addrs_nil, List.mem_singleton] at hx
      subst hx
      exact wf1.bound _ (by simp)) hn2

/-- C20: copy assignment is not strongly exception-safe. A valid tree `d` is assigned a valid
tree `t` with another header, one of whose keys throws when it is copied: the exception is
propagated, and the destination is left valid but with size 0 and no key, whatever it held
before, the source being as it was. `CopyTree` alone, on the same trees, propagates the
exception and leaves the destination with the size and the keys it had; the copy constructor
propagates the exception too. -/
theorem C20_assign_clears_first [Inhabited K] (throws : K → Bool) {m : Mem K} {d t : RBTree}
    {sd st : Sh} (hd : Inv m d sd) (ht : Inv m t st)
    (hdis : d.header_ ∉ t.header_ :: st.addrs)
    (hth : ∃ a ∈ st.addrs, throws (m.key_ a) = true) :
    ∃ KD KT, keys m d = some KD ∧ keys m t = some KT ∧ KD.length = Size d ∧
      (∃ m' d', copyAssign throws m d t = some (m', d', true) ∧ d'.header_ = d.header_ ∧
        Inv m' d' Sh.nil ∧ Size d' = 0 ∧ keys m' d' = some [] ∧ keys m' t = some KT) ∧
      (∃ m' d', CopyTree throws m d t = some (m', d', true) ∧ d' = d ∧ Inv m' d' sd ∧
        Size d' = Size d ∧ keys m' d' = some KD ∧ keys m' t = some KT) ∧
      (∃ m' c, copyConstruct throws m t = some (m', c, true) ∧ keys m' t = some KT) := by
  have hbt : ∀ x ∈ t.header_ :: st.addrs, x < m.next := ht.wf.bound
  have hbd : ∀ x ∈ d.header_ :: sd.addrs, x < m.next := hd.wf.bound
  refine ⟨sd.addrs.map m.key_, st.addrs.map m.key_, keys_spec hd, keys_spec ht, ?_, ?_, ?_, ?_⟩
  · rw [List.length_map]
    exact hd.size.symm
  · obtain ⟨m', e, inv', hn, ag⟩ := copyAssign_throw throws hd.wf ht hdis hth
    have ht' : Inv m' t st :=
      ht.agree_inv ag (fun x hx => ⟨hbt x hx, fun e => hdis (e ▸ hx)⟩) hn
    refine ⟨m', _, e, rfl, inv', rfl, ?_, ?_⟩
    · rw [keys_spec inv']
      rfl
    · rw [keys_spec ht']
      exact congrArg some (ag.map_key
        (fun x hx => ⟨hbt x (List.mem_cons_of_mem _ hx),
          fun e => hdis (e ▸ List.mem_cons_of_mem _ hx)⟩))
  · obtain ⟨m', e, hn, ag⟩ := CopyTree_throw throws (t := d) ht hth
    have hd' : Inv m' d sd := hd.agree_inv ag hbd hn
    have ht' : Inv m' t st := ht.agree_inv ag hbt hn
    refine ⟨m', d, e, rfl, hd', rfl, ?_, ?_⟩
    · rw [keys_spec hd']
      exact congrArg some (ag.map_key (fun x hx => hbd x (List.mem_cons_of_mem _ hx)))
    · rw [keys_spec ht']
      exact congrArg some (ag.map_key (fun x hx => hbt x (List.mem_cons_of_mem _ hx)))
  · have ht0 : Inv (RBTree.mk0 m).1 t st := ht.alloc default
    have hag : AgreeOn (fun x => x < m.next) m (RBTree.mk0 m).1 :=
      (AgreeOn.refl (fun x => x < m.next) m).offNew default (Nat.lt_irrefl _)
    have hn0 : (RBTree.mk0 m).1.next = m.next + 1 := rfl
    obtain ⟨m', e, hn, ag⟩ := CopyTree_throw throws (t := (RBTree.mk0 m).2) ht0 (by
      obtain ⟨a, ha, h⟩ := hth
      exact ⟨a, ha, by rw [hag.key a (hbt a (List.mem_cons_of_mem _ ha))]; exact h⟩)
    have ag' : AgreeOn (fun x => x < m.next) m m' :=
      hag.trans (ag.mono (fun x hx => by omega))
    have ht' : Inv m' t st := ht.agree_inv ag' hbt (by omega)
    refine ⟨m', _, e, ?_⟩
    rw [keys_spec ht']
    exact congrArg some (ag'.map_key (fun x hx => hbt x (List.mem_cons_of_mem _ hx)))

set_option maxRecDepth 100000 in
/-- Witness for C20: the set `exDest.2 = {10, 20}` is assigned the set
`exSet.2 = {5, 3, 8, 1, 4}` with a key type whose copy of the key 4 throws. The destination
holds the two keys before; after the assignment it holds none. -/
theorem C20_witness :
    Inv exDest.1 exDest.2 shDest ∧ Inv exDest.1 exSet.2 shSet ∧
    exDest.2.header_ ∉ exSet.2.header_ :: shSet.addrs ∧
    (∃ a ∈ shSet.addrs, (fun k : Nat => k == 4) (exDest.1.key_ a) = true) ∧
    keys exDest.1 exDest.2 = some [10, 20] ∧ Size exDest.2 = 2 ∧
    (copyAssign (fun k => k == 4) exDest.1 exDest.2 exSet.2).map
      (fun r => (r.2.2, Size r.2.1, keys r.1 r.2.1)) = some (true, 0, some []) ∧
    (CopyTree (fun k => k == 4) exDest.1 exDest.2 exSet.2).map
      (fun r => (r.2.2, Size r.2.1, keys r.1 r.2.1)) = some (true, 2, some [10, 20]) ∧
    (∃ KD KT, keys exDest.1 exDest.2 = some KD ∧ keys exDest.1 exSet.2 = some KT ∧
      KD.length = Size exDest.2 ∧
      (∃ m' d', copyAssign (fun k => k == 4) exDest.1 exDest.2 exSet.2 = some (m', d', true) ∧
        d'.header_ = exDest.2.header_ ∧ Inv m' d' Sh.nil ∧ Size d' = 0 ∧
        keys m' d' = some [] ∧ keys m' exSet.2 = some KT) ∧
      (∃ m' d', CopyTree (fun k => k == 4) exDest.1 exDest.2 exSet.2 = some (m', d', true) ∧
        d' = exDest.2 ∧ Inv m' d' shDest ∧ Size d' = Size exDest.2 ∧
        keys m' d' = some KD ∧ keys m' exSet.2 = some KT) ∧
      (∃ m' c, copyConstruct (fun k => k == 4) exDest.1 exSet.2 = some (m', c, true) ∧
        keys m' exSet.2 = some KT)) :=
  ⟨exDest_inv, exDest_src_inv, by decide, by decide, by decide, by decide, by decide,
    by decide,
    C20_assign_clears_first (fun k => k == 4) exDest_inv exDest_src_inv (by decide)
      (by decide)⟩

theorem AllRight_append {d c : List Frame} : AllRight (d ++ c) ↔ (AllRight d ∧ AllRight c) := by
  induction d with
  | nil => simp [AllRight]
  | cons f d ih => cases f <;> simp [AllRight, ih]

theorem ctxAfter_allRight {d : List Frame} (h : AllRight d) : ctxAfter d = [] := by
  induction d with
  | nil => rfl
  | cons f d ih =>
    cases f with
    | right l a => exact ih h
    | left a r => exact absurd h (by simp [AllRight])

theorem SearchMax_spec (m : Mem K) :
    ∀ (s : Sh) (fuel : Nat) (par : Ptr) (a : Nat), s.ptr = some a →
      Rep m.parent_ m.left_ m.right_ s par → s.depth ≤ fuel →
      ∃ d y yl, s = plug d (Sh.node yl y Sh.nil) ∧ AllRight d ∧ SearchMax m fuel a = some y := by
  intro s
  induction s with
  | nil => intro fuel par a h; simp at h
  | node l b r _ ihr =>
    intro fuel par a ha hrep hd
    simp only [Sh.ptr_node, Option.some.injEq] at ha
    subst ha
    obtain ⟨k, rfl⟩ : ∃ k, fuel = k + 1 := ⟨fuel - 1, by simp at hd; omega⟩
    obtain ⟨-, -, hr, -, repr⟩ := hrep
    simp only [Sh.depth_node] at hd
    cases r with
    | nil => exact ⟨[], b, l, rfl, trivial, by simp [SearchMax, hr]⟩
    | node rl x rr =>
      obtain ⟨d, y, yl, hs, hal, e⟩ := ihr k (some b) x rfl repr (by omega)
      refine ⟨d ++ [Frame.right l b], y, yl, by rw [plug_append, ← hs]; rfl,
        AllRight_append.2 ⟨hal, trivial⟩, ?_⟩
      simp only [SearchMax, hr, Sh.ptr_node]
      exact e

theorem SearchMax_last {m : Mem K} {s : Sh} {fuel : Nat} {par : Ptr} {a : Nat}
    (ha : s.ptr = some a) (hrep : Rep m.parent_ m.left_ m.right_ s par) (hd : s.depth ≤ fuel) :
    ∃ y, SearchMax m fuel a = some y ∧ s.addrs.reverse.head? = some y := by
  obtain ⟨d, y, yl, hs, hal, e⟩ := SearchMax_spec m s fuel par a ha hrep hd
  refine ⟨y, e, ?_⟩
  rw [hs, plug_addrs, ctxAfter_allRight hal]
  simp

theorem ctxPrev_eq (hdr : Nat) (c : List Frame) :
    ctxPrev hdr c = (ctxBefore c).reverse.headD hdr := by
  induction c with
  | nil => rfl
  | cons f c ih =>
    cases f with
    | left a r => simpa [ctxPrev, ctxBefore] using ih
    | right l a => simp [ctxPrev, ctxBefore]

theorem PrevNodeUp_spec (m : Mem K) (hdr : Nat) :
    ∀ (c : List Frame) (l : Sh) (a : Nat) (r : Sh) (fuel : Nat),
      WFz m hdr c (Sh.node l a r) → c.length < fuel →
      ∃ y, PrevNodeUp m fuel a = some y ∧ m.parent_ y = some (ctxPrev hdr c) := by
  intro c
  induction c with
  | nil =>
    intro l a r fuel wfz hf
    obtain ⟨k, rfl⟩ : ∃ k, fuel = k + 1 := ⟨fuel - 1, by omega⟩
    have hp : m.parent_ a = some hdr := wfz.parent_eq
    refine ⟨a, ?_, hp⟩
    simp [PrevNodeUp, hp, wfz.hleft]
  | cons f c ih =>
    intro l a r fuel wfz hf
    obtain ⟨k, rfl⟩ : ∃ k, fuel = k + 1 := ⟨fuel - 1, by omega⟩
    simp only [List.length_cons] at hf
    have hnd := wfz.nodup
    cases f with
    | right sib p =>
      have hp : m.parent_ a = some p := wfz.parent_eq
      have wfp := wfz.up_right
      have hl : m.left_ p ≠ some a := by
        rw [wfp.left_eq]; intro e
        have := Sh.ptr_mem e
        simp only [Sh.addrs_node, ctxAddrs, List.nodup_cons, List.mem_cons, List.mem_append,
          List.nodup_append, List.append_assoc, List.cons_append, not_or,
          List.disjoint_cons_right, List.disjoint_append_right, List.disjoint_cons_left,
          List.disjoint_append_left] at hnd
        simp [hnd] at this
      exact ⟨a, by simp [PrevNodeUp, hp, hl], hp⟩
    | left p sib =>
      have hp : m.parent_ a = some p := wfz.parent_eq
      have wfp := wfz.up_left
      have hl : m.left_ p = some a := wfp.left_eq
      obtain ⟨y, e, hy⟩ := ih (Sh.node l a r) p sib k wfp (by omega)
      exact ⟨y, by simp [PrevNodeUp, hp, hl, e], hy⟩

theorem PrevNode_spec {m : Mem K} {hdr : Nat} {c : List Frame} {l r : Sh} {a : Nat}
    (wfz : WFz m hdr c (Sh.node l a r)) :
    PrevNode m a = some (some ((ctxBefore c ++ l.addrs).reverse.headD hdr)) := by
  have hlen := wfz.ctx_length_lt
  cases l with
  | nil =>
    obtain ⟨y, e, hy⟩ := PrevNodeUp_spec m hdr c Sh.nil a r m.next wfz (by omega)
    have hl : m.left_ a = none := wfz.left_eq
    simp [PrevNode, hl, e, hy, ctxPrev_eq]
  | node ll b lr =>
    have hl : m.left_ a = some b := wfz.left_eq
    have hrep : Rep m.parent_ m.left_ m.right_ (Sh.node ll b lr) (some a) := wfz.rep.2.2.2.1
    have hd : (Sh.node ll b lr).depth ≤ m.next := by
      have := (Sh.node ll b lr).depth_le_length
      simp only [Sh.addrs_node, List.length_append, List.length_cons] at hlen this
      omega
    obtain ⟨y, e, hy⟩ := SearchMax_last (s := Sh.node ll b lr) rfl hrep hd
    have hh : (ctxBefore c ++ (Sh.node ll b lr).addrs).reverse.headD hdr = y := by
      cases hra : (Sh.node ll b lr).addrs.reverse with
      | nil => simp at hra
      | cons z zs =>
        rw [hra] at hy
        simp only [List.head?_cons, Option.some.injEq] at hy
        rw [List.reverse_append, hra, hy]
        rfl
    rw [hh]
    simp only [PrevNode, hl, e, Option.bind_eq_bind, Option.some_bind]
    rfl

/-- The predecessor of a node in terms of the in-order list of addresses. -/
theorem PrevNode_list {m : Mem K} {hdr : Nat} {sh : Sh} (hwf : WF m hdr sh) {pre post : List Nat}
    {a : Nat} (h : sh.addrs = pre ++ a :: post) :
    PrevNode m a = some (some (pre.reverse.headD hdr)) := by
  have ha : a ∈ sh.addrs := by rw [h]; simp
  obtain ⟨c, l, r, hs⟩ := exists_plug_of_mem ha
  subst hs
  have hnd : (plug c (Sh.node l a r)).addrs.Nodup := (List.nodup_cons.1 hwf.nodup).2
  have h2 : (plug c (Sh.node l a r)).addrs =
      (ctxBefore c ++ l.addrs) ++ a :: (r.addrs ++ ctxAfter c) := by
    rw [plug_addrs]; simp
  obtain ⟨e, -⟩ := nodup_split_unique hnd h h2
  rw [e]
  exact PrevNode_spec hwf.toZ

/-- `PrevNode` on the header returns the header's parent link, that is the root (null on an
empty tree): the header has no left child, and the root is not its own left child. -/
theorem PrevNode_header {m : Mem K} {hdr : Nat} {sh : Sh} (hwf : WF m hdr sh) :
    PrevNode m hdr = some sh.ptr := by
  have hb : hdr < m.next := hwf.bound hdr (List.mem_cons_self _ _)
  obtain ⟨k, hk⟩ : ∃ k, m.next = k + 1 := ⟨m.next - 1, by omega⟩
  have hup : PrevNodeUp m m.next hdr = some hdr := by
    rw [hk]
    cases hs : sh with
    | nil =>
      have hp : m.parent_ hdr = none := by rw [hwf.root, hs]; rfl
      simp [PrevNodeUp, hp]
    | node l a r =>
      have hp : m.parent_ hdr = some a := by rw [hwf.root, hs]; rfl
      have hl : m.left_ a ≠ some hdr := by
        intro e
        have := (hwf.left_child (by rw [hs]; simp) e).2.1
        exact hwf.hdr_not_mem this
      simp [PrevNodeUp, hp, hl]
  simp [PrevNode, hwf.hleft, hup, hwf.root]

/-- The last node in in-order is the root exactly when the root has no right child. -/
theorem last_eq_root_iff {m : Mem K} {hdr : Nat} {l r : Sh} {a : Nat}
    (hwf : WF m hdr (Sh.node l a r)) :
    (Sh.node l a r).addrs.reverse.head? = some a ↔ m.right_ a = none := by
  have hr : m.right_ a = r.ptr := hwf.rep.2.2.1
  have hnd := hwf.nodup
  simp only [Sh.addrs_node, List.nodup_cons, List.mem_cons, List.mem_append, List.nodup_append,
    not_or, List.disjoint_cons_right] at hnd
  rw [hr]
  cases r with
  | nil => simp
  | node rl b rr =>
    simp only [Sh.addrs_node, List.reverse_append, List.reverse_cons, List.append_assoc,
      Sh.ptr_node]
    constructor
    · intro e
      exfalso
      cases hrr : rr.addrs.reverse with
      | nil =>
        rw [hrr] at e
        simp only [List.nil_append, List.singleton_append, List.head?_cons,
          Option.some.injEq] at e
        simp [e] at hnd
      | cons z zs =>
        rw [hrr] at e
        simp only [List.cons_append, List.head?_cons, Option.some.injEq] at e
        have hz : z ∈ rr.addrs := by
          rw [← List.mem_reverse, hrr]
          simp
        subst e
        simp [hz] at hnd
    · intro e
      cases e

theorem inorder_spec (m : Mem K) :
    ∀ (s : Sh) (fuel : Nat) (par : Ptr), Rep m.parent_ m.left_ m.right_ s par →
      s.depth ≤ fuel → inorder m fuel s.ptr = some s.addrs := by
  intro s
  induction s with
  | nil =>
    intro fuel par _ _
    cases fuel <;> rfl
  | node l a r ihl ihr =>
    intro fuel par hrep hd
    obtain ⟨k, rfl⟩ : ∃ k, fuel = k + 1 := ⟨fuel - 1, by simp at hd; omega⟩
    obtain ⟨-, hl, hr, repl, repr⟩ := hrep
    simp only [Sh.depth_node] at hd
    simp only [Sh.ptr_node, inorder, hl, hr, ihl k _ repl (by omega), ihr k _ repr (by omega),
      Option.bind_eq_bind, Option.some_bind, Sh.addrs_node]
    rfl

theorem countNodes_spec (m : Mem K) :
    ∀ (s : Sh) (fuel : Nat) (par : Ptr), Rep m.parent_ m.left_ m.right_ s par →
      s.depth ≤ fuel → countNodes m fuel s.ptr = some s.addrs.length := by
  intro s
  induction s with
  | nil =>
    intro fuel par _ _
    cases fuel <;> rfl
  | node l a r ihl ihr =>
    intro fuel par hrep hd
    obtain ⟨k, rfl⟩ : ∃ k, fuel = k + 1 := ⟨fuel - 1, by simp at hd; omega⟩
    obtain ⟨-, hl, hr, repl, repr⟩ := hrep
    simp only [Sh.depth_node] at hd
    simp only [Sh.ptr_node, countNodes, hl, hr, ihl k _ repl (by omega),
      ihr k _ repr (by omega), Option.bind_eq_bind, Option.some_bind, Sh.addrs_node,
      List.length_append, List.length_cons]
    exact congrArg some (by omega)

/-- On a tree satisfying the invariant, the recursive traversal from the root lists the
nodes, as many as `Size()` says. -/
theorem Inv.traversal {m : Mem K} {t : RBTree} {sh : Sh} (h : Inv m t sh) :
    inorder m m.next (Root m t.header_) = some sh.addrs ∧
      countNodes m m.next (Root m t.header_) = some (Size t) := by
  have hd : sh.depth ≤ m.next := by
    have := sh.depth_le_length
    have := h.wf.depth_lt
    omega
  unfold Root
  rw [h.wf.root]
  refine ⟨inorder_spec m sh m.next _ h.wf.rep hd, ?_⟩
  rw [countNodes_spec m sh m.next _ h.wf.rep hd]
  exact congrArg some h.size.symm

theorem WF.links_ok {m : Mem K} {hdr : Nat} {sh : Sh} (wf : WF m hdr sh) :
    LinksOK m hdr sh.addrs := by
  refine ⟨?_, ?_, ?_⟩
  · rw [wf.root]
    cases sh <;> simp
  · intro r hr
    unfold Root at hr
    rw [wf.root] at hr
    cases sh with
    | nil => simp at hr
    | node l a rr =>
      simp only [Sh.ptr_node, Option.some.injEq] at hr
      subst hr
      exact ⟨wf.rep.1, by simp⟩
  · intro n hn
    refine ⟨fun c hc => ?_, fun c hc => ?_, ?_, ?_⟩
    · have := wf.left_child hn hc
      exact ⟨this.1, this.2.1⟩
    · have := wf.right_child hn hc
      exact ⟨this.1, this.2.1⟩
    · rcases wf.parent_child hn with ⟨e, -⟩ | ⟨q, -, e, -⟩ <;> simp [e]
    · rcases wf.parent_child hn with ⟨e, -⟩ | ⟨q, hq, e, -⟩
      · exact ⟨hdr, e, Or.inl rfl⟩
      · exact ⟨q, e, Or.inr hq⟩

/-- Stepping forward `i` times from the node that heads `post` reaches the `i`-th node of
`post`, the header after all of them. -/
theorem advance_spec {m : Mem K} {hdr : Nat} {sh : Sh} (hwf : WF m hdr sh) :
    ∀ (i : Nat) (pre post : List Nat), sh.addrs = pre ++ post → i ≤ post.length →
      advance m i (some (post.headD hdr)) = some (some ((post.drop i).headD hdr)) := by
  intro i
  induction i with
  | zero =>
    intro pre post _ _
    rfl
  | succ i ih =>
    intro pre post h hi
    cases post with
    | nil => simp at hi
    | cons a post =>
      simp only [List.length_cons, Nat.add_le_add_iff_right] at hi
      have hnext := NextNode_list hwf h
      have := ih (pre ++ [a]) post (by simp [h]) hi
      simp only [advance, List.headD_cons, Option.bind_eq_bind, Option.some_bind, hnext,
        List.drop_succ_cons]
      exact this

/-- Stepping backward `i` times from the node that ends `pre` reaches the `i`-th node of `pre`
from the end, the header after all of them. -/
theorem retreat_spec {m : Mem K} {hdr : Nat} {sh : Sh} (hwf : WF m hdr sh) :
    ∀ (i : Nat) (rpre post : List Nat), sh.addrs = rpre.reverse ++ post → i ≤ rpre.length →
      retreat m i (some (rpre.headD hdr)) = some (some ((rpre.drop i).headD hdr)) := by
  intro i
  induction i with
  | zero =>
    intro rpre post _ _
    rfl
  | succ i ih =>
    intro rpre post h hi
    cases rpre with
    | nil => simp at hi
    | cons a rpre =>
      simp only [List.length_cons, Nat.add_le_add_iff_right] at hi
      have h' : sh.addrs = rpre.reverse ++ a :: post := by
        rw [h]
        simp
      have hprev := PrevNode_list hwf h'
      rw [List.reverse_reverse] at hprev
      have := ih rpre (a :: post) h' hi
      simp only [retreat, List.headD_cons, Option.bind_eq_bind, Option.some_bind, hprev,
        List.drop_succ_cons]
      exact this

theorem Sh.paths_ne_nil (s : Sh) : s.paths ≠ [] := by
  induction s with
  | nil => simp [Sh.paths]
  | node l a r ihl _ =>
    simp only [Sh.paths, ne_eq, List.map_eq_nil_iff, List.append_eq_nil, not_and]
    exact fun h => absurd h ihl

theorem rootPaths_spec (m : Mem K) :
    ∀ (s : Sh) (fuel : Nat) (par : Ptr), Rep m.parent_ m.left_ m.right_ s par →
      s.depth ≤ fuel → rootPaths m fuel s.ptr = some s.paths := by
  intro s
  induction s with
  | nil =>
    intro fuel par _ _
    cases fuel <;> rfl
  | node l a r ihl ihr =>
    intro fuel par hrep hd
    obtain ⟨k, rfl⟩ : ∃ k, fuel = k + 1 := ⟨fuel - 1, by simp at hd; omega⟩
    obtain ⟨-, hl, hr, repl, repr⟩ := hrep
    simp only [Sh.depth_node] at hd
    simp only [Sh.ptr_node, rootPaths, hl, hr, ihl k _ repl (by omega),
      ihr k _ repr (by omega), Option.bind_eq_bind, Option.some_bind, Sh.paths]
    rfl

/-- In a balanced shape every path from the root to a null link holds `bh` black nodes, the
root counted. -/
theorem blacks_of_Bal (m : Mem K) :
    ∀ (s : Sh), Bal m.red_ s → ∀ p ∈ s.paths, blacks m p = bh m.red_ s := by
  intro s
  induction s with
  | nil =>
    intro _ p hp
    simp only [Sh.paths, List.mem_singleton] at hp
    subst hp
    rfl
  | node l a r ihl ihr =>
    intro hb p hp
    obtain ⟨e, bl, br⟩ := hb
    simp only [Sh.paths, List.mem_map, List.mem_append] at hp
    obtain ⟨q, hq, rfl⟩ := hp
    have hq' : blacks m q = bh m.red_ l := by
      rcases hq with hq | hq
      · exact ihl bl q hq
      · rw [e]
        exact ihr br q hq
    simp only [blacks, bh_node] at hq' ⊢
    cases hr : m.red_ a <;> simp [List.filter_cons, hr, hq']

/-- `BlackHeight()` on a tree satisfying the invariant: the number of black nodes of every
path from the root to a null link, the root counted. -/
theorem BlackHeight_paths {m : Mem K} {t : RBTree} {sh : Sh} (h : Inv m t sh) :
    ∃ P, rootPaths m m.next (Root m t.header_) = some P ∧ P ≠ [] ∧
      ∀ p ∈ P, BlackHeight m t = some (blacks m p : Int) := by
  have hd : sh.depth ≤ m.next := by
    have := sh.depth_le_length
    have := h.wf.depth_lt
    omega
  refine ⟨sh.paths, ?_, sh.paths_ne_nil, fun p hp => ?_⟩
  · unfold Root
    rw [h.wf.root]
    exact rootPaths_spec m sh m.next _ h.wf.rep hd
  · rw [BlackHeight_of_Inv h, blacks_of_Bal m sh h.rb.balanced p hp]

/-- On a non-empty tree satisfying the invariant every path starts at the black root, so the
black nodes below the root are one fewer than `BlackHeight()` returns. -/
theorem BlackHeight_tail {m : Mem K} {t : RBTree} {sh : Sh} (h : Inv m t sh)
    (hne : sh ≠ Sh.nil) :
    ∀ p ∈ sh.paths, BlackHeight m t = some ((blacks m p.tail : Int) + 1) := by
  intro p hp
  rw [BlackHeight_of_Inv h, ← blacks_of_Bal m sh h.rb.balanced p hp]
  cases sh with
  | nil => exact absurd rfl hne
  | node l a r =>
    simp only [Sh.paths, List.mem_map, List.mem_append] at hp
    obtain ⟨q, -, rfl⟩ := hp
    have hblk : m.red_ a = false := h.rb.rootBlack
    simp [blacks, List.filter_cons, hblk]

set_option maxRecDepth 100000 in
theorem exOne_eq : insertItems ltN true [5] (RBTree.mk0 Mem.init) = some exOne :=
  getD_of_isSome _ (by decide)

theorem exOne_reachable : Reachable ltN exOne.1 exOne.2 :=
  insertItems_reachable ltN true _ _ _ (Reachable.init Mem.init) exOne_eq

set_option maxRecDepth 100000 in
theorem exOne_inv : Inv exOne.1 exOne.2 shOne := by
  refine ⟨⟨by decide, by decide, by decide, ?_, by decide, by decide⟩, by decide, ⟨?_, ?_, ?_⟩⟩
  · exact ⟨by decide, by decide, by decide, trivial, trivial⟩
  · simp only [shOne, isBlk_node]
    decide
  · simp only [shOne, NoRR_node, NoRR_nil, isBlk_node, isBlk_nil, and_true]
    decide
  · simp only [shOne, Bal_node, Bal_nil, bh_node, bh_nil, and_true]

theorem drop_headD (L : List Nat) (d i : Nat) : (L.drop i).headD d = (L[i]?).getD d := by
  rw [List.headD_eq_head?_getD, List.head?_drop]

/-- C23: on every reachable tree, `InsertKey` (any key, either mode) and `Erase` (at any node
of the tree) return, and afterwards the links are consistent: the header's parent is null
exactly when the tree is empty, the root's parent is the header, the children of every node
of the tree point back to it, and every node of the tree has a non-null parent. -/
theorem C23_links_consistent [Inhabited K] {lt : K → K → Bool} (hlt : SWO lt) {m : Mem K}
    {t : RBTree} (hr : Reachable lt m t) :
    (∀ key uniq, ∃ m' t' it ok L', InsertKey lt m t key uniq = some (m', t', it, ok) ∧
      toList m' t' = some L' ∧ L'.length = Size t' ∧ LinksOK m' t'.header_ L') ∧
    (∀ L a, toList m t = some L → a ∈ L → ∃ m' t' L', Erase m t (some a) = some (m', t') ∧
      toList m' t' = some L' ∧ L'.length = Size t' ∧ LinksOK m' t'.header_ L') := by
  obtain ⟨sh, inv, hord⟩ := reach_inv hlt hr
  constructor
  · intro key uniq
    obtain ⟨m', t', it, ok, sh', e, inv', -⟩ := insert_step hlt inv hord key uniq
    exact ⟨m', t', it, ok, sh'.addrs, e, toList_spec inv', inv'.size.symm, inv'.wf.links_ok⟩
  · intro L a hL ha
    rw [toList_spec inv] at hL
    simp only [Option.some.injEq] at hL
    subst hL
    obtain ⟨m', sh', e, inv', -⟩ := Erase_spec inv ha
    exact ⟨m', _, sh'.addrs, e, toList_spec inv', inv'.size.symm, inv'.wf.links_ok⟩

/-- Witness of C23: the set `{5, 3, 8, 1, 4}`. -/
theorem C23_witness : SWO ltN ∧ Reachable ltN exSet.1 exSet.2 ∧
    ((∀ key uniq, ∃ m' t' it ok L',
      InsertKey ltN exSet.1 exSet.2 key uniq = some (m', t', it, ok) ∧
      toList m' t' = some L' ∧ L'.length = Size t' ∧ LinksOK m' t'.header_ L') ∧
    (∀ L a, toList exSet.1 exSet.2 = some L → a ∈ L → ∃ m' t' L',
      Erase exSet.1 exSet.2 (some a) = some (m', t') ∧
      toList m' t' = some L' ∧ L'.length = Size t' ∧ LinksOK m' t'.header_ L')) :=
  ⟨swo_ltN, exSet_reachable, C23_links_consistent swo_ltN exSet_reachable⟩

/-- C24: on every reachable tree the iteration from `Begin()` by `operator++` returns and
visits the nodes in the order of the recursive in-order traversal from the root (left subtree,
node, right subtree), each node once and none of them the header; after `i < Size()` steps
the iterator is on the `i`-th node of that traversal, and after exactly `Size()` steps it is
`End()`. -/
theorem C24_forward_iteration [Inhabited K] {lt : K → K → Bool} (hlt : SWO lt) {m : Mem K}
    {t : RBTree} (hr : Reachable lt m t) :
    ∃ L b, inorder m m.next (Root m t.header_) = some L ∧ L.Nodup ∧ t.header_ ∉ L ∧
      L.length = Size t ∧ Begin m t = some b ∧ toList m t = some L ∧
      (∀ i, i < Size t → ∃ a, L[i]? = some a ∧ advance m i b = some (some a) ∧
        some a ≠ End t) ∧
      advance m (Size t) b = some (End t) := by
  obtain ⟨sh, inv, -⟩ := reach_inv hlt hr
  have hsz : sh.addrs.length = Size t := inv.size.symm
  refine ⟨sh.addrs, _, inv.traversal.1, inv.wf.addrs_nodup, inv.wf.hdr_not_mem, hsz,
    Begin_spec inv, toList_spec inv, ?_, ?_⟩
  · intro i hi
    rw [← hsz] at hi
    have hadv := advance_spec inv.wf i [] sh.addrs rfl (Nat.le_of_lt hi)
    rw [drop_headD, List.getElem?_eq_getElem hi] at hadv
    refine ⟨sh.addrs[i], List.getElem?_eq_getElem hi, hadv, ?_⟩
    simp only [End, ne_eq, Option.some.injEq]
    intro e
    exact inv.wf.hdr_not_mem (e ▸ List.getElem_mem _)
  · have hadv := advance_spec inv.wf sh.addrs.length [] sh.addrs rfl (Nat.le_refl _)
    rw [List.drop_length] at hadv
    rw [← hsz]
    exact hadv

/-- Witness of C24: the set `{5, 3, 8, 1, 4}`. -/
theorem C24_witness : SWO ltN ∧ Reachable ltN exSet.1 exSet.2 ∧
    ∃ L b, inorder exSet.1 exSet.1.next (Root exSet.1 exSet.2.header_) = some L ∧ L.Nodup ∧
      exSet.2.header_ ∉ L ∧ L.length = Size exSet.2 ∧ Begin exSet.1 exSet.2 = some b ∧
      toList exSet.1 exSet.2 = some L ∧
      (∀ i, i < Size exSet.2 → ∃ a, L[i]? = some a ∧ advance exSet.1 i b = some (some a) ∧
        some a ≠ End exSet.2) ∧
      advance exSet.1 (Size exSet.2) b = some (End exSet.2) :=
  ⟨swo_ltN, exSet_reachable, C24_forward_iteration swo_ltN exSet_reachable⟩

/-- C28, amended: on every tree satisfying the red-black invariants `BlackHeight()` returns
the number of black nodes of every path from the root down to a null link, the root itself
counted; on a non-empty tree this is one more than the number of black nodes below the
root. -/
theorem C28_black_height_counts_root {m : Mem K} {t : RBTree} {sh : Sh} (h : Inv m t sh) :
    ∃ P, rootPaths m m.next (Root m t.header_) = some P ∧ P ≠ [] ∧
      (∀ p ∈ P, BlackHeight m t = some (blacks m p : Int)) ∧
      (Size t ≠ 0 → ∀ p ∈ P, BlackHeight m t = some ((blacks m p.tail : Int) + 1)) := by
  obtain ⟨P, hP, hne, hall⟩ := BlackHeight_paths h
  refine ⟨P, hP, hne, hall, fun hs p hp => ?_⟩
  have hsh : sh ≠ Sh.nil := by
    rintro rfl
    exact hs h.size
  have hd : sh.depth ≤ m.next := by
    have := sh.depth_le_length
    have := h.wf.depth_lt
    omega
  have hP' : rootPaths m m.next (Root m t.header_) = some sh.paths := by
    unfold Root
    rw [h.wf.root]
    exact rootPaths_spec m sh m.next _ h.wf.rep hd
  rw [hP] at hP'
  simp only [Option.some.injEq] at hP'
  subst hP'
  exact BlackHeight_tail h hsh p hp

set_option maxRecDepth 100000 in
/-- Witness of C28: the set `{5, 3, 8, 1, 4}`. -/
theorem C28_witness : Inv exSet.1 exSet.2 shSet ∧
    ∃ P, rootPaths exSet.1 exSet.1.next (Root exSet.1 exSet.2.header_) = some P ∧ P ≠ [] ∧
      (∀ p ∈ P, BlackHeight exSet.1 exSet.2 = some (blacks exSet.1 p : Int)) ∧
      (Size exSet.2 ≠ 0 → ∀ p ∈ P,
        BlackHeight exSet.1 exSet.2 = some ((blacks exSet.1 p.tail : Int) + 1)) :=
  ⟨exSet_inv, C28_black_height_counts_root exSet_inv⟩

set_option maxRecDepth 100000 in
/-- Counterexample to C28 as stated: the set `{5}` satisfies the red-black invariants, its
two paths from the root to a null link hold the root alone, so no black node apart from the
root, and `BlackHeight()` returns 1, not 0. -/
theorem C28_counterexample : Reachable ltN exOne.1 exOne.2 ∧ Inv exOne.1 exOne.2 shOne ∧
    Size exOne.2 = 1 ∧
    rootPaths exOne.1 exOne.1.next (Root exOne.1 exOne.2.header_) = some [[1], [1]] ∧
    blacks exOne.1 ([1] : List Nat).tail = 0 ∧ BlackHeight exOne.1 exOne.2 = some 1 := by
  refine ⟨exOne_reachable, exOne_inv, by decide, by decide, by decide, by decide⟩

/-- C29: on every reachable tree, whose nodes in iteration order are `L`, and for every node
`a` of it: `PrevNode` returns the node right before `a` in `L`, and the header when `a` is the
first; `NextNode` returns the node right after `a`, and the header when `a` is the last; and
when `a` is not the last, `PrevNode` of `NextNode` of `a` is `a`. -/
theorem C29_prev_mirrors_next [Inhabited K] {lt : K → K → Bool} (hlt : SWO lt) {m : Mem K}
    {t : RBTree} (hr : Reachable lt m t) {L : List Nat} (hL : toList m t = some L) :
    ∀ pre a post, L = pre ++ a :: post →
      (pre = [] → PrevNode m a = some (End t)) ∧
      (∀ pre' b, pre = pre' ++ [b] → PrevNode m a = some (some b)) ∧
      (post = [] → NextNode m a = some (End t)) ∧
      (∀ c post', post = c :: post' → NextNode m a = some (some c) ∧
        PrevNode m c = some (some a) ∧ (NextNode m a).bind (fun n => n.bind (PrevNode m)) =
          some (some a)) := by
  obtain ⟨sh, inv, -⟩ := reach_inv hlt hr
  rw [toList_spec inv] at hL
  simp only [Option.some.injEq] at hL
  subst hL
  intro pre a post h
  have hp := PrevNode_list inv.wf h
  have hn := NextNode_list inv.wf h
  refine ⟨?_, ?_, ?_, ?_⟩
  · rintro rfl
    exact hp
  · rintro pre' b rfl
    rw [hp]
    simp
  · rintro rfl
    exact hn
  · rintro c post' rfl
    have h' : sh.addrs = (pre ++ [a]) ++ c :: post' := by
      rw [h]
      simp
    have hp' := PrevNode_list inv.wf h'
    have hpc : PrevNode m c = some (some a) := by
      rw [hp']
      simp
    refine ⟨hn, hpc, ?_⟩
    rw [hn]
    exact hpc

/-- Witness of C29: the set `{5, 3, 8, 1, 4}`. -/
theorem C29_witness : SWO ltN ∧ Reachable ltN exSet.1 exSet.2 ∧
    toList exSet.1 exSet.2 = some shSet.addrs ∧
    ∀ pre a post, shSet.addrs = pre ++ a :: post →
      (pre = [] → PrevNode exSet.1 a = some (End exSet.2)) ∧
      (∀ pre' b, pre = pre' ++ [b] → PrevNode exSet.1 a = some (some b)) ∧
      (post = [] → NextNode exSet.1 a = some (End exSet.2)) ∧
      (∀ c post', post = c :: post' → NextNode exSet.1 a = some (some c) ∧
        PrevNode exSet.1 c = some (some a) ∧
        (NextNode exSet.1 a).bind (fun n => n.bind (PrevNode exSet.1)) = some (some a)) :=
  ⟨swo_ltN, exSet_reachable, toList_spec exSet_inv,
    C29_prev_mirrors_next swo_ltN exSet_reachable (toList_spec exSet_inv)⟩

set_option maxRecDepth 100000 in
/-- C30: decrementing `End()` does not yield the maximum. On every reachable tree `PrevNode`
applied to the header returns the header's parent link, the root; on a non-empty tree the
root is the last node of the iteration exactly when it has no right child. In the set
`{5, 3, 8, 1, 4}` (header 0) the decrement of `End()` lands on the root, node 1 of key 5,
and the walk backward from there visits the nodes of keys 4, 3, 1 and then the header: the
maximum 8 is never visited. -/
theorem C30_dec_end_is_root [Inhabited K] {lt : K → K → Bool} (hlt : SWO lt) {m : Mem K}
    {t : RBTree} (hr : Reachable lt m t) :
    PrevNode m t.header_ = some (Root m t.header_) ∧
    (∀ L, toList m t = some L → L ≠ [] → ∃ r mx, Root m t.header_ = some r ∧
      L.getLast? = some mx ∧ PrevNode m t.header_ = some (some r) ∧
      (r = mx ↔ m.right_ r = none)) ∧
    (keys exSet.1 exSet.2 = some [1, 3, 4, 5, 8] ∧
      exSet.2.header_ = 0 ∧
      (List.range 6).map (fun i => retreat exSet.1 i (End exSet.2)) =
        [some (some 0), some (some 1), some (some 5), some (some 2), some (some 4),
          some (some 0)] ∧
      [1, 5, 2, 4].map exSet.1.key_ = [5, 4, 3, 1]) := by
  obtain ⟨sh, inv, -⟩ := reach_inv hlt hr
  have hroot : Root m t.header_ = sh.ptr := inv.wf.root
  refine ⟨by rw [hroot]; exact PrevNode_header inv.wf, ?_, by decide, by decide, by decide,
    by decide⟩
  intro L hL hne
  rw [toList_spec inv] at hL
  simp only [Option.some.injEq] at hL
  subst hL
  cases hs : sh with
  | nil => rw [hs] at hne; exact absurd rfl hne
  | node l a r =>
    rw [hs] at inv hroot
    cases hlast : (Sh.node l a r).addrs.getLast? with
    | none =>
      rw [List.getLast?_eq_none_iff] at hlast
      simp at hlast
    | some mx =>
      refine ⟨a, mx, hroot, rfl, by rw [PrevNode_header inv.wf]; rfl, ?_⟩
      rw [← last_eq_root_iff inv.wf, List.head?_reverse, hlast]
      simp only [Option.some.injEq]
      exact eq_comm

set_option maxRecDepth 100000 in
/-- Witness of C30: the set `{5, 3, 8, 1, 4}`, whose root holds 5 and has a right child. -/
theorem C30_witness : SWO ltN ∧ Reachable ltN exSet.1 exSet.2 ∧
    exSet.1.right_ 1 = some 3 ∧ exSet.1.key_ 1 = 5 ∧ exSet.1.key_ 3 = 8 ∧
    (PrevNode exSet.1 exSet.2.header_ = some (Root exSet.1 exSet.2.header_) ∧
    (∀ L, toList exSet.1 exSet.2 = some L → L ≠ [] → ∃ r mx,
      Root exSet.1 exSet.2.header_ = some r ∧
      L.getLast? = some mx ∧ PrevNode exSet.1 exSet.2.header_ = some (some r) ∧
      (r = mx ↔ exSet.1.right_ r = none)) ∧
    (keys exSet.1 exSet.2 = some [1, 3, 4, 5, 8] ∧
      exSet.2.header_ = 0 ∧
      (List.range 6).map (fun i => retreat exSet.1 i (End exSet.2)) =
        [some (some 0), some (some 1), some (some 5), some (some 2), some (some 4),
          some (some 0)] ∧
      [1, 5, 2, 4].map exSet.1.key_ = [5, 4, 3, 1])) :=
  ⟨swo_ltN, exSet_reachable, by decide, by decide, by decide,
    C30_dec_end_is_root swo_ltN exSet_reachable⟩

/-- The nodes before and after the place where `InsertKey` links a new node: no node before
holds a greater key than `key`, every node after does. -/
theorem insert_place {lt : K → K → Bool} (hlt : SWO lt) {m : Mem K} {sh : Sh}
    {c : List Frame} {key : K} (hord : Ordered lt m.key_ sh.addrs) (hs : sh = plug c Sh.nil)
    (hdir : CtxDir (fun a => lt key (m.key_ a)) c) :
    sh.addrs = ctxBefore c ++ ctxAfter c ∧ (∀ b ∈ ctxBefore c, lt key (m.key_ b) = false) ∧
      (∀ a ∈ ctxAfter c, lt key (m.key_ a) = true) := by
  have ha : sh.addrs = ctxBefore c ++ ctxAfter c := by
    rw [hs, plug_addrs]
    simp
  have hord' : Ordered lt m.key_ (ctxBefore c ++ [] ++ ctxAfter c) := by
    rw [List.append_nil, ← ha]
    exact hord
  obtain ⟨h1, h2⟩ := ctx_partition (upper_mono hlt m.key_ key) c [] hdir hord'
  exact ⟨ha, h1, h2⟩

/-- C26: on every reachable tree and for every key, the duplicate-mode `InsertKey` returns
with success; the nodes in iteration order, before `A ++ M ++ B`, are `A ++ M ++ x :: B`
afterwards, where `x` is the new node, `A` the nodes of lesser keys, `M` the nodes of keys
equivalent to `key` and `B` the nodes of greater keys; and `NextNode` of the new node is what
`Upper_Bound(key)` returns, the first node of `B`, or `End()` if there is none. -/
theorem C26_duplicate_after_equals [Inhabited K] {lt : K → K → Bool} (hlt : SWO lt)
    {m : Mem K} {t : RBTree} (hr : Reachable lt m t) (key : K) :
    ∃ m' t' x A M B, InsertKey lt m t key false = some (m', t', some x, true) ∧
      toList m t = some (A ++ M ++ B) ∧ toList m' t' = some (A ++ M ++ x :: B) ∧
      m'.key_ x = key ∧ (∀ n ∈ A ++ M ++ B, m'.key_ n = m.key_ n) ∧
      (∀ a ∈ A, lt (m.key_ a) key = true) ∧
      (∀ e ∈ M, equiv lt (m.key_ e) key = true) ∧
      (∀ b ∈ B, lt key (m.key_ b) = true) ∧
      NextNode m' x = Upper_Bound lt m' t' key ∧
      NextNode m' x = some (some (B.headD t'.header_)) := by
  obtain ⟨sh, inv, hord⟩ := reach_inv hlt hr
  have hfresh : m.next ∉ sh.addrs := fun hx => (inv.wf.newNode key).2 (by simp [hx])
  rcases InsertKey_spec lt key false inv with ⟨hu, -⟩ |
    ⟨m', sh', c, e, inv', hs, ha, hdir, -, hk, -⟩
  · exact absurd hu (by decide)
  obtain ⟨hsa, h1, h2⟩ := insert_place hlt hord hs hdir
  have hsa' : sh'.addrs = ctxBefore c ++ m.next :: ctxAfter c := by
    rw [ha, plug_addrs]
    simp
  have hordB : Ordered lt m.key_ (ctxBefore c) := by
    rw [hsa] at hord
    exact (List.pairwise_append.1 hord).1
  obtain ⟨A, M, B', hsplit, hA, hM, hB'⟩ := three_split hlt hordB key
  have hB'nil : B' = [] := by
    cases B' with
    | nil => rfl
    | cons b B' =>
      have hb1 := hB' b (by simp)
      have hb2 := h1 b (by rw [hsplit]; simp)
      rw [hb1] at hb2
      exact absurd hb2 (by decide)
  subst hB'nil
  rw [List.append_nil] at hsplit
  have hold : ∀ n ∈ sh.addrs, m'.key_ n = m.key_ n := by
    intro n hn
    rw [hk]
    exact upd_ne _ _ (fun e => hfresh (e ▸ hn))
  have hnew : m'.key_ m.next = key := by
    rw [hk]
    exact upd_same _ _ _
  have hord' : Ordered lt m'.key_ sh'.addrs := by
    rw [ha, hk]
    exact Ordered_insert hlt hdir (hs ▸ hord) (hs ▸ hfresh)
  have hnext : NextNode m' m.next = some (some ((ctxAfter c).headD t.header_)) :=
    NextNode_list inv'.wf hsa'
  have hub : Upper_Bound lt m' { t with size_ := t.size_ + 1 } key =
      some (some ((ctxAfter c).headD t.header_)) := by
    rw [Upper_Bound_spec hlt inv' hord' key, hsa']
    have hpre : ∀ b ∈ ctxBefore c ++ [m.next], (fun a => lt key (m'.key_ a)) b = false := by
      intro b hb
      rcases List.mem_append.1 hb with hb | hb
      · show lt key (m'.key_ b) = false
        rw [hold b (by rw [hsa]; simp [hb])]
        exact h1 b hb
      · simp only [List.mem_singleton] at hb
        subst hb
        show lt key (m'.key_ m.next) = false
        rw [hnew]
        exact hlt.irrefl key
    have hpost : ∀ a ∈ ctxAfter c, (fun a => lt key (m'.key_ a)) a = true := by
      intro a ha'
      show lt key (m'.key_ a) = true
      rw [hold a (by rw [hsa]; simp [ha'])]
      exact h2 a ha'
    have := find?_partition hpre hpost
    simp only [List.append_assoc, List.singleton_append] at this
    rw [this, List.headD_eq_head?_getD]
  refine ⟨m', _, m.next, A, M, ctxAfter c, e, ?_, ?_, hnew, ?_, hA, ?_, h2, ?_, hnext⟩
  · rw [toList_spec inv, hsa, hsplit]
  · rw [toList_spec inv', hsa', hsplit]
  · intro n hn
    exact hold n (by rw [hsa, hsplit]; exact hn)
  · intro x hx
    have := hM x hx
    simp [equiv, this.1, this.2]
  · rw [hnext, hub]

/-- Witness of C26: the key 3 inserted in duplicate mode into the tree `{5, 3, 8, 1, 4}`. -/
theorem C26_witness : SWO ltN ∧ Reachable ltN exSet.1 exSet.2 ∧
    ∃ m' t' x A M B, InsertKey ltN exSet.1 exSet.2 3 false = some (m', t', some x, true) ∧
      toList exSet.1 exSet.2 = some (A ++ M ++ B) ∧ toList m' t' = some (A ++ M ++ x :: B) ∧
      m'.key_ x = 3 ∧ (∀ n ∈ A ++ M ++ B, m'.key_ n = exSet.1.key_ n) ∧
      (∀ a ∈ A, ltN (exSet.1.key_ a) 3 = true) ∧
      (∀ e ∈ M, equiv ltN (exSet.1.key_ e) 3 = true) ∧
      (∀ b ∈ B, ltN 3 (exSet.1.key_ b) = true) ∧
      NextNode m' x = Upper_Bound ltN m' t' 3 ∧
      NextNode m' x = some (some (B.headD t'.header_)) :=
  ⟨swo_ltN, exSet_reachable, C26_duplicate_after_equals swo_ltN exSet_reachable 3⟩

/-- C27: on every reachable tree, whose nodes in iteration order are `L`: `Erase` at a node
`a` of the tree leaves the key stored at every address as it was, and the nodes in iteration
order afterwards are those of `L` other than `a`, in the same order; `InsertKey` leaves the
key of every node of `L` as it was, and the nodes in iteration order afterwards, the new
node `m.next` left out, are `L`. Whether `a` has two children makes no difference. -/
theorem C27_keys_never_move [Inhabited K] {lt : K → K → Bool} (hlt : SWO lt) {m : Mem K}
    {t : RBTree} (hr : Reachable lt m t) {L : List Nat} (hL : toList m t = some L) :
    (∀ a ∈ L, ∃ m' t', Erase m t (some a) = some (m', t') ∧ m'.key_ = m.key_ ∧
      toList m' t' = some (L.filter (fun n => decide (n ≠ a))) ∧
      keys m' t' = some ((L.filter (fun n => decide (n ≠ a))).map m.key_)) ∧
    (∀ key uniq, ∃ m' t' it ok L', InsertKey lt m t key uniq = some (m', t', it, ok) ∧
      (∀ n ∈ L, m'.key_ n = m.key_ n) ∧ toList m' t' = some L' ∧
      L'.filter (fun n => decide (n ≠ m.next)) = L ∧
      (ok = true → it = some m.next ∧ m.next ∈ L' ∧ m'.key_ m.next = key) ∧
      (ok = false → L' = L)) := by
  obtain ⟨sh, inv, hord⟩ := reach_inv hlt hr
  rw [toList_spec inv] at hL
  simp only [Option.some.injEq] at hL
  subst hL
  have hfresh : m.next ∉ sh.addrs := fun hx =>
    Nat.lt_irrefl _ (inv.wf.bound _ (List.mem_cons_of_mem _ hx))
  have hfil : sh.addrs.filter (fun n => decide (n ≠ m.next)) = sh.addrs := by
    rw [List.filter_eq_self]
    intro n hn
    simp only [ne_eq, decide_not, Bool.not_eq_true', decide_eq_false_iff_not]
    exact fun e => hfresh (e ▸ hn)
  constructor
  · intro a ha
    obtain ⟨m', sh', e, inv', hl, hk, -⟩ := Erase_spec inv ha
    refine ⟨m', _, e, hk, ?_, ?_⟩
    · rw [toList_spec inv', hl]
    · rw [keys_spec inv', hl, hk]
  · intro key uniq
    rcases InsertKey_spec lt key uniq inv with ⟨-, n, c, l, r, e, -⟩ |
      ⟨m', sh', c, e, inv', hs, ha, -, -, hk, -⟩
    · refine ⟨_, _, _, _, sh.addrs, e, ?_, toList_spec (inv.alloc key), hfil,
        fun h => absurd h (by decide), fun _ => rfl⟩
      intro n hn
      have : n ≠ m.next := fun e => hfresh (e ▸ hn)
      simp [Mem.newNode, this]
    · have hsa : sh.addrs = ctxBefore c ++ ctxAfter c := by
        rw [hs, plug_addrs]
        simp
      have hsa' : sh'.addrs = ctxBefore c ++ m.next :: ctxAfter c := by
        rw [ha, plug_addrs]
        simp
      have hnd : (ctxBefore c ++ m.next :: ctxAfter c).Nodup := hsa' ▸ inv'.wf.addrs_nodup
      refine ⟨m', _, _, _, sh'.addrs, e, ?_, toList_spec inv', ?_,
        fun _ => ⟨rfl, by rw [hsa']; simp, by rw [hk]; exact upd_same _ _ _⟩,
        fun h => absurd h (by decide)⟩
      · intro n hn
        rw [hk]
        exact upd_ne _ _ (fun e => hfresh (e ▸ hn))
      · rw [hsa', hsa]
        exact filter_ne_mid hnd

set_option maxRecDepth 100000 in
/-- Witness of C27: the set `{5, 3, 8, 1, 4}`, whose root (node 1, key 5) has two
children. -/
theorem C27_witness : SWO ltN ∧ Reachable ltN exSet.1 exSet.2 ∧
    toList exSet.1 exSet.2 = some shSet.addrs ∧ exSet.1.left_ 1 = some 2 ∧
    exSet.1.right_ 1 = some 3 ∧ 1 ∈ shSet.addrs ∧
    ((∀ a ∈ shSet.addrs, ∃ m' t', Erase exSet.1 exSet.2 (some a) = some (m', t') ∧
      m'.key_ = exSet.1.key_ ∧
      toList m' t' = some (shSet.addrs.filter (fun n => decide (n ≠ a))) ∧
      keys m' t' = some ((shSet.addrs.filter (fun n => decide (n ≠ a))).map exSet.1.key_)) ∧
    (∀ key uniq, ∃ m' t' it ok L',
      InsertKey ltN exSet.1 exSet.2 key uniq = some (m', t', it, ok) ∧
      (∀ n ∈ shSet.addrs, m'.key_ n = exSet.1.key_ n) ∧ toList m' t' = some L' ∧
      L'.filter (fun n => decide (n ≠ exSet.1.next)) = shSet.addrs ∧
      (ok = true → it = some exSet.1.next ∧ exSet.1.next ∈ L' ∧
        m'.key_ exSet.1.next = key) ∧
      (ok = false → L' = shSet.addrs))) :=
  ⟨swo_ltN, exSet_reachable, toList_spec exSet_inv, by decide, by decide, by decide,
    C27_keys_never_move swo_ltN exSet_reachable (toList_spec exSet_inv)⟩

theorem cells_eq {m : Mem K} {t : RBTree} {sh : Sh} (h : Inv m t sh) :
    cells m t = t.header_ :: sh.addrs := by
  simp [cells, toList_spec h]

theorem cells_bound {m : Mem K} {t : RBTree} {sh : Sh} (h : Inv m t sh) :
    ∀ x ∈ cells m t, x < m.next := by
  rw [cells_eq h]
  exact h.wf.bound

theorem Good.of_frame {lt : K → K → Bool} {m m' : Mem K} {t : RBTree} {S : Nat → Prop}
    (h : Good lt m t) (ag : AgreeOn S m m') (hS : ∀ x ∈ cells m t, S x)
    (hn : m.next ≤ m'.next) : Good lt m' t ∧ cells m' t = cells m t := by
  obtain ⟨sh, inv, hord⟩ := h
  rw [cells_eq inv] at hS
  have inv' : Inv m' t sh := inv.agree_inv ag hS hn
  refine ⟨⟨sh, inv', ?_⟩, by rw [cells_eq inv, cells_eq inv']⟩
  exact (Ordered_congr (fun a ha => ag.key a (hS a (List.mem_cons_of_mem _ ha)))).2 hord

theorem WorldInv.of_perm {lt : K → K → Bool} {m : Mem K} {ts ts' : List RBTree}
    (h : WorldInv lt m ts) (hp : ts.Perm ts') : WorldInv lt m ts' := by
  refine ⟨fun t ht => h.1 t (hp.mem_iff.2 ht), ?_⟩
  refine (hp.pairwise_iff ?_).1 h.2
  intro t u htu x hx hx'
  exact htu x hx' hx

/-- The frame rule: an operation that turns the trees `olds` into the trees `news`, writes
only cells of `olds` and fresh cells, and gives `news` no other cells than those, keeps the
invariant of all the live trees. -/
theorem WorldInv.of_step {lt : K → K → Bool} {m m' : Mem K} (olds news : List RBTree)
    {ts : List RBTree} (h : WorldInv lt m (olds ++ ts))
    (ag : AgreeOn (fun x => x < m.next ∧ ∀ t ∈ olds, x ∉ cells m t) m m')
    (hn : m.next ≤ m'.next) (hgood : ∀ t ∈ news, Good lt m' t)
    (hapart : news.Pairwise (fun t u => ∀ x ∈ cells m' t, x ∉ cells m' u))
    (hsub : ∀ t ∈ news, ∀ x ∈ cells m' t, (∃ o ∈ olds, x ∈ cells m o) ∨ m.next ≤ x) :
    WorldInv lt m' (news ++ ts) := by
  obtain ⟨hg, hp⟩ := h
  rw [List.pairwise_append] at hp
  obtain ⟨-, hpt, hcross⟩ := hp
  have hb : ∀ u ∈ ts, ∀ x ∈ cells m u, x < m.next := by
    intro u hu
    obtain ⟨su, inv, -⟩ := hg u (List.mem_append_right _ hu)
    exact cells_bound inv
  have hfr : ∀ u ∈ ts, Good lt m' u ∧ cells m' u = cells m u := by
    intro u hu
    refine (hg u (List.mem_append_right _ hu)).of_frame ag (fun x hx => ⟨hb u hu x hx, ?_⟩) hn
    intro o ho hxo
    exact hcross o ho u hu x hxo hx
  refine ⟨?_, ?_⟩
  · intro t ht
    rcases List.mem_append.1 ht with ht | ht
    · exact hgood t ht
    · exact (hfr t ht).1
  · rw [List.pairwise_append]
    refine ⟨hapart, ?_, ?_⟩
    · refine hpt.imp_of_mem ?_
      intro t u ht hu htu
      rw [(hfr t ht).2, (hfr u hu).2]
      exact htu
    · intro t ht u hu x hx
      rw [(hfr u hu).2]
      rcases hsub t ht x hx with ⟨o, ho, hxo⟩ | hge
      · exact hcross o ho u hu x hxo
      · intro hxu
        have := hb u hu x hxu
        omega

/-- The frame of `InsertKey`: only cells of the tree and the new node are written. -/
theorem InsertKey_frame (lt : K → K → Bool) {m m' : Mem K} {t t' : RBTree} {sh : Sh} {key : K}
    {uniq : Bool} {it : Ptr} {ok : Bool} (h : Inv m t sh)
    (e : InsertKey lt m t key uniq = some (m', t', it, ok)) :
    AgreeOn (fun x => x < m.next ∧ x ∉ t.header_ :: sh.addrs) m m' ∧ m.next ≤ m'.next := by
  have h1 : Inv (m.newNode key).1 t sh := h.alloc key
  have hfresh : m.next ∉ t.header_ :: sh.addrs := (h.wf.newNode key).2
  have hc : Closed (fun a => a ∈ t.header_ :: sh.addrs ∨ a = m.next) (m.newNode key).1 :=
    h1.wf.closed.with_node (by simp [Mem.newNode]) (by simp [Mem.newNode])
      (by simp [Mem.newNode])
  have hL := InsertNode_local lt hc (Or.inl (List.mem_cons_self _ _)) (Or.inr rfl) e
  have ag0 : AgreeOn (fun x => x < m.next ∧ x ∉ t.header_ :: sh.addrs) m (m.newNode key).1 :=
    (AgreeOn.refl _ m).offNew key (fun hx => Nat.lt_irrefl _ hx.1)
  refine ⟨ag0.trans (hL.agree.mono ?_), ?_⟩
  · intro x hx hS
    rcases hS with hS | hS
    · exact hx.2 hS
    · have := hx.1
      omega
  · rw [hL.next]
    simp [Mem.newNode]

/-- The step of the invariant for `InsertKey`. -/
theorem WorldInv.of_insert {lt : K → K → Bool} (hlt : SWO lt) {m m' : Mem K} {t t' : RBTree}
    {ts : List RBTree} {key : K} {uniq : Bool} {it : Ptr} {ok : Bool}
    (h : WorldInv lt m (t :: ts)) (e : InsertKey lt m t key uniq = some (m', t', it, ok)) :
    WorldInv lt m' (t' :: ts) := by
  obtain ⟨sh, inv, hord⟩ := h.1 t (List.mem_cons_self _ _)
  obtain ⟨ag, hn⟩ := InsertKey_frame lt inv e
  obtain ⟨m2, t2, it2, ok2, sh2, e2, inv2, hord2⟩ := insert_step hlt inv hord key uniq
  rw [e] at e2
  simp only [Option.some.injEq, Prod.mk.injEq] at e2
  obtain ⟨rfl, rfl, -, -⟩ := e2
  have hcells : ∀ x ∈ sh2.addrs, x ∈ sh.addrs ∨ m.next ≤ x := by
    rcases InsertKey_spec lt key uniq inv with ⟨-, n, c, l, r, e3, -⟩ |
      ⟨m3, sh3, c, e3, inv3, hs, ha, -⟩
    · rw [e] at e3
      simp only [Option.some.injEq, Prod.mk.injEq] at e3
      obtain ⟨rfl, rfl, -, -⟩ := e3
      have := (toList_spec inv2).symm.trans (toList_spec (inv.alloc key))
      simp only [Option.some.injEq] at this
      intro x hx
      exact Or.inl (this ▸ hx)
    · rw [e] at e3
      simp only [Option.some.injEq, Prod.mk.injEq] at e3
      obtain ⟨rfl, rfl, -, -⟩ := e3
      have := (toList_spec inv2).symm.trans (toList_spec inv3)
      simp only [Option.some.injEq] at this
      intro x hx
      rw [this, ha, plug_addrs] at hx
      rw [hs, plug_addrs]
      simp only [Sh.addrs_node, Sh.addrs_nil, List.nil_append, List.append_nil,
        List.mem_append, List.mem_cons, List.not_mem_nil, or_false] at hx ⊢
      rcases hx with (hx | hx) | hx
      · exact Or.inl (Or.inl hx)
      · exact Or.inr (by omega)
      · exact Or.inl (Or.inr hx)
  have hhdr : t'.header_ = t.header_ := by
    have h1 := inv2.wf.root
    rcases InsertKey_spec lt key uniq inv with ⟨-, n, c, l, r, e3, -⟩ |
      ⟨m3, sh3, c, e3, -⟩
    · rw [e] at e3
      simp only [Option.some.injEq, Prod.mk.injEq] at e3
      exact congrArg RBTree.header_ e3.2.1
    · rw [e] at e3
      simp only [Option.some.injEq, Prod.mk.injEq] at e3
      rw [e3.2.1]
  refine WorldInv.of_step [t] [t'] h (ag.mono ?_) hn ?_ (List.pairwise_singleton _ _) ?_
  · intro x hx
    refine ⟨hx.1, ?_⟩
    have := hx.2 t (List.mem_singleton_self _)
    rwa [cells_eq inv] at this
  · intro u hu
    rw [List.mem_singleton] at hu
    subst hu
    exact ⟨sh2, inv2, hord2⟩
  · intro u hu x hx
    rw [List.mem_singleton] at hu
    subst hu
    rw [cells_eq inv2, hhdr] at hx
    rcases List.mem_cons.1 hx with rfl | hx
    · exact Or.inl ⟨t, List.mem_singleton_self _, by rw [cells_eq inv]; simp⟩
    · rcases hcells x hx with h1 | h1
      · exact Or.inl ⟨t, List.mem_singleton_self _, by rw [cells_eq inv]; simp [h1]⟩
      · exact Or.inr h1

/-- The frame rule for an operation on one tree. -/
theorem WorldInv.of_unary {lt : K → K → Bool} {m m' : Mem K} {t t' : RBTree}
    {ts : List RBTree} (h : WorldInv lt m (t :: ts))
    (ag : AgreeOn (fun x => x < m.next ∧ x ∉ cells m t) m m') (hn : m.next ≤ m'.next)
    (hg : Good lt m' t') (hsub : ∀ x ∈ cells m' t', x ∈ cells m t ∨ m.next ≤ x) :
    WorldInv lt m' (t' :: ts) := by
  refine WorldInv.of_step [t] [t'] h (ag.mono ?_) hn ?_ (List.pairwise_singleton _ _) ?_
  · intro x hx
    exact ⟨hx.1, hx.2 t (List.mem_singleton_self _)⟩
  · intro u hu
    rw [List.mem_singleton] at hu
    subst hu
    exact hg
  · intro u hu x hx
    rw [List.mem_singleton] at hu
    subst hu
    rcases hsub x hx with h1 | h1
    · exact Or.inl ⟨t, List.mem_singleton_self _, h1⟩
    · exact Or.inr h1

/-- The frame rule for an operation on two trees. -/
theorem WorldInv.of_binary {lt : K → K → Bool} {m m' : Mem K} {t u t' u' : RBTree}
    {ts : List RBTree} (h : WorldInv lt m (t :: u :: ts))
    (ag : AgreeOn (fun x => x < m.next ∧ x ∉ cells m t ∧ x ∉ cells m u) m m')
    (hn : m.next ≤ m'.next) (hg1 : Good lt m' t') (hg2 : Good lt m' u')
    (hap : ∀ x ∈ cells m' t', x ∉ cells m' u')
    (hsub1 : ∀ x ∈ cells m' t', x ∈ cells m t ∨ x ∈ cells m u ∨ m.next ≤ x)
    (hsub2 : ∀ x ∈ cells m' u', x ∈ cells m t ∨ x ∈ cells m u ∨ m.next ≤ x) :
    WorldInv lt m' (t' :: u' :: ts) := by
  refine WorldInv.of_step [t, u] [t', u'] h (ag.mono ?_) hn ?_ ?_ ?_
  · intro x hx
    exact ⟨hx.1, hx.2 t (by simp), hx.2 u (by simp)⟩
  · intro v hv
    simp only [List.mem_cons, List.mem_singleton, List.not_mem_nil, or_false] at hv
    rcases hv with rfl | rfl
    · exact hg1
    · exact hg2
  · simp only [List.pairwise_cons, List.mem_singleton, forall_eq, List.not_mem_nil,
      false_implies, implies_true, List.Pairwise.nil, and_true]
    exact hap
  · intro v hv x hx
    simp only [List.mem_cons, List.mem_singleton, List.not_mem_nil, or_false] at hv
    have : x ∈ cells m t ∨ x ∈ cells m u ∨ m.next ≤ x := by
      rcases hv with rfl | rfl
      · exact hsub1 x hx
      · exact hsub2 x hx
    rcases this with h1 | h1 | h1
    · exact Or.inl ⟨t, by simp, h1⟩
    · exact Or.inl ⟨u, by simp, h1⟩
    · exact Or.inr h1

/-- The frame rule for an operation on one tree that makes a second one. -/
theorem WorldInv.of_grow {lt : K → K → Bool} {m m' : Mem K} {t c t' : RBTree}
    {ts : List RBTree} (h : WorldInv lt m (t :: ts))
    (ag : AgreeOn (fun x => x < m.next ∧ x ∉ cells m t) m m') (hn : m.next ≤ m'.next)
    (hg1 : Good lt m' c) (hg2 : Good lt m' t') (hap : ∀ x ∈ cells m' c, x ∉ cells m' t')
    (hsub1 : ∀ x ∈ cells m' c, x ∈ cells m t ∨ m.next ≤ x)
    (hsub2 : ∀ x ∈ cells m' t', x ∈ cells m t ∨ m.next ≤ x) :
    WorldInv lt m' (c :: t' :: ts) := by
  refine WorldInv.of_step [t] [c, t'] h (ag.mono ?_) hn ?_ ?_ ?_
  · intro x hx
    exact ⟨hx.1, hx.2 t (by simp)⟩
  · intro v hv
    simp only [List.mem_cons, List.mem_singleton, List.not_mem_nil, or_false] at hv
    rcases hv with rfl | rfl
    · exact hg1
    · exact hg2
  · simp only [List.pairwise_cons, List.mem_singleton, forall_eq, List.not_mem_nil,
      false_implies, implies_true, List.Pairwise.nil, and_true]
    exact hap
  · intro v hv x hx
    simp only [List.mem_cons, List.mem_singleton, List.not_mem_nil, or_false] at hv
    have : x ∈ cells m t ∨ m.next ≤ x := by
      rcases hv with rfl | rfl
      · exact hsub1 x hx
      · exact hsub2 x hx
    rcases this with h1 | h1
    · exact Or.inl ⟨t, by simp, h1⟩
    · exact Or.inr h1

/-- The default constructor adds a good tree at a fresh cell. -/
theorem WorldInv.of_create [Inhabited K] {lt : K → K → Bool} {m : Mem K} {ts : List RBTree}
    (h : WorldInv lt m ts) : WorldInv lt (RBTree.mk0 m).1 ((RBTree.mk0 m).2 :: ts) := by
  have inv0 : Inv (RBTree.mk0 m).1 (RBTree.mk0 m).2 Sh.nil := Inv_mk0 m
  refine WorldInv.of_step [] [(RBTree.mk0 m).2] h ?_ ?_ ?_ (List.pairwise_singleton _ _) ?_
  · exact ((AgreeOn.refl (fun x => x < m.next) m).offNew default (Nat.lt_irrefl _)).mono
      (fun x hx => hx.1)
  · show m.next ≤ m.next + 1
    omega
  · intro u hu
    rw [List.mem_singleton] at hu
    subst hu
    exact ⟨Sh.nil, inv0, List.Pairwise.nil⟩
  · intro u hu x hx
    rw [List.mem_singleton] at hu
    subst hu
    rw [cells_eq inv0] at hx
    simp only [Sh.addrs_nil, List.mem_singleton] at hx
    subst hx
    exact Or.inr (Nat.le_refl _)

/-- `Erase` at a node of the tree, with its frame. -/
theorem Erase_frame {lt : K → K → Bool} {m : Mem K} {t : RBTree} {sh : Sh} {a : Nat}
    (h : Inv m t sh) (hord : Ordered lt m.key_ sh.addrs) (ha : a ∈ sh.addrs) :
    ∃ m' t', Erase m t (some a) = some (m', t') ∧
      ExtractNode m t (some a) = some (m', t', some a) ∧ Good lt m' t' ∧
      (∀ x ∈ cells m' t', x ∈ cells m t) ∧
      AgreeOn (fun x => x ∉ cells m t) m m' ∧ m'.next = m.next := by
  obtain ⟨m', sh', e, inv', hf, hk, hL, -⟩ := extractNode_step h ha
  have hne : (some a : Ptr) ≠ End t := by
    simp only [End, ne_eq, Option.some.injEq]
    rintro rfl
    exact h.wf.hdr_not_mem ha
  refine ⟨m', _, by simp [Erase, hne, e], e, ⟨sh', inv', ?_⟩, ?_, ?_, hL.next⟩
  · rw [hf, hk]
    exact List.Pairwise.sublist (List.filter_sublist _) hord
  · intro x hx
    rw [cells_eq inv'] at hx
    rw [cells_eq h]
    rcases List.mem_cons.1 hx with rfl | hx
    · exact List.mem_cons_self _ _
    · rw [hf] at hx
      exact List.mem_cons_of_mem _ (List.mem_of_mem_filter hx)
  · rw [cells_eq h]
    exact hL.agree

/-- The step of the invariant for `Erase`. -/
theorem WorldInv.of_erase {lt : K → K → Bool} {m m' : Mem K} {t t' : RBTree}
    {ts : List RBTree} {pos : Ptr} (h : WorldInv lt m (t :: ts))
    (hpos : pos = End t ∨ ∃ L a, toList m t = some L ∧ a ∈ L ∧ pos = some a)
    (e : Erase m t pos = some (m', t')) : WorldInv lt m' (t' :: ts) := by
  obtain ⟨sh, inv, hord⟩ := h.1 t (List.mem_cons_self _ _)
  rcases hpos with rfl | ⟨L, a, hL, ha, rfl⟩
  · rw [Erase_end] at e
    simp only [Option.some.injEq, Prod.mk.injEq] at e
    obtain ⟨rfl, rfl⟩ := e
    exact h
  · rw [toList_spec inv] at hL
    simp only [Option.some.injEq] at hL
    subst hL
    obtain ⟨m2, t2, e2, -, hg, hsub, ag, hn⟩ := Erase_frame inv hord ha
    rw [e] at e2
    simp only [Option.some.injEq, Prod.mk.injEq] at e2
    obtain ⟨rfl, rfl⟩ := e2
    exact h.of_unary (ag.mono (fun x hx => hx.2)) (Nat.le_of_eq hn.symm) hg
      (fun x hx => Or.inl (hsub x hx))

/-- The step of the invariant for `DeleteByKey`. -/
theorem WorldInv.of_deleteByKey {lt : K → K → Bool} (hlt : SWO lt) {m m' : Mem K}
    {t t' : RBTree} {ts : List RBTree} {key : K} (h : WorldInv lt m (t :: ts))
    (e : DeleteByKey lt m t key = some (m', t')) : WorldInv lt m' (t' :: ts) := by
  obtain ⟨sh, inv, hord⟩ := h.1 t (List.mem_cons_self _ _)
  rcases Find_spec hlt key inv.wf hord with ⟨n, hn, -, hf, -⟩ | ⟨-, hf, -⟩
  · have hne : (some n : Ptr) ≠ End t := by
      simp only [End, ne_eq, Option.some.injEq]
      rintro rfl
      exact inv.wf.hdr_not_mem hn
    obtain ⟨m2, t2, -, e2, hg, hsub, ag, hnx⟩ := Erase_frame inv hord hn
    simp only [DeleteByKey, hf, Option.bind_eq_bind, Option.some_bind, hne, if_false, e2,
      Option.pure_def, Option.some.injEq, Prod.mk.injEq] at e
    obtain ⟨rfl, rfl⟩ := e
    exact h.of_unary (ag.mono (fun x hx => hx.2)) (Nat.le_of_eq hnx.symm) hg
      (fun x hx => Or.inl (hsub x hx))
  · simp only [DeleteByKey, hf, Option.bind_eq_bind, Option.some_bind, if_true,
      Option.pure_def, Option.some.injEq, Prod.mk.injEq] at e
    obtain ⟨rfl, rfl⟩ := e
    exact h

/-- `Clear` on a tree satisfying the invariant, with its frame. -/
theorem Clear_frame (lt : K → K → Bool) {m : Mem K} {t : RBTree} {sh : Sh} (h : Inv m t sh) :
    Clear m t = some (m.setParent t.header_ none, { t with size_ := 0 }) ∧
      Inv (m.setParent t.header_ none) { t with size_ := 0 } Sh.nil ∧
      Good lt (m.setParent t.header_ none) { t with size_ := 0 } ∧
      cells (m.setParent t.header_ none) { t with size_ := 0 } = [t.header_] ∧
      AgreeOn (fun x => x ∉ cells m t) m (m.setParent t.header_ none) := by
  obtain ⟨ec, wf1⟩ := Clear_spec h.wf
  have inv1 : Inv (m.setParent t.header_ none) { t with size_ := 0 } Sh.nil :=
    Inv_empty wf1 rfl
  refine ⟨ec, inv1, ⟨Sh.nil, inv1, List.Pairwise.nil⟩, by rw [cells_eq inv1]; rfl, ?_⟩
  refine (AgreeOn.refl _ m).setParent none (fun hx => hx ?_)
  rw [cells_eq h]
  exact List.mem_cons_self _ _

/-- The step of the invariant for `Clear`. -/
theorem WorldInv.of_clear {lt : K → K → Bool} {m m' : Mem K} {t t' : RBTree}
    {ts : List RBTree} (h : WorldInv lt m (t :: ts)) (e : Clear m t = some (m', t')) :
    WorldInv lt m' (t' :: ts) := by
  obtain ⟨sh, inv, -⟩ := h.1 t (List.mem_cons_self _ _)
  obtain ⟨ec, -, hg, hc, ag⟩ := Clear_frame lt inv
  rw [e] at ec
  simp only [Option.some.injEq, Prod.mk.injEq] at ec
  obtain ⟨rfl, rfl⟩ := ec
  refine h.of_unary (ag.mono (fun x hx => hx.2)) (Nat.le_refl _) hg (fun x hx => Or.inl ?_)
  rw [hc, List.mem_singleton] at hx
  subst hx
  rw [cells_eq inv]
  exact List.mem_cons_self _ _

/-- The step of the invariant for the destructor: the tree leaves the live trees. -/
theorem WorldInv.of_destroy {lt : K → K → Bool} {m m' : Mem K} {t : RBTree}
    {ts : List RBTree} (h : WorldInv lt m (t :: ts)) (e : destroy m t = some m') :
    WorldInv lt m' ts := by
  obtain ⟨sh, inv, -⟩ := h.1 t (List.mem_cons_self _ _)
  obtain ⟨ec, -, -, -, ag⟩ := Clear_frame lt inv
  simp only [destroy, ec, Option.map_some', Option.some.injEq] at e
  subst e
  refine WorldInv.of_step [t] [] h (ag.mono ?_) (Nat.le_refl _) ?_ List.Pairwise.nil ?_
  · intro x hx
    exact hx.2 t (List.mem_singleton_self _)
  · intro u hu
    simp at hu
  · intro u hu
    simp at hu

/-- The loop of `Merge` on two good trees, whatever keys they hold: it returns, both trees
are good afterwards, they have no other cells than before, and no other cell is written. -/
theorem MergeLoop_inv {lt : K → K → Bool} (hlt : SWO lt) (k : Nat → K) (n0 : Nat)
    (cA cB : List Nat) :
    ∀ (Q P : List Nat) (fuel : Nat) (m : Mem K) (t other : RBTree) (sa sb : Sh),
      Q.length < fuel → m.key_ = k → m.next = n0 → Inv m t sa → Ordered lt k sa.addrs →
      Inv m other sb → Ordered lt k sb.addrs → sb.addrs = P ++ Q →
      (∀ x ∈ t.header_ :: sa.addrs, x ∉ other.header_ :: sb.addrs) →
      (∀ x ∈ t.header_ :: sa.addrs, x ∈ cA ∨ x ∈ cB) →
      (∀ x ∈ other.header_ :: sb.addrs, x ∈ cA ∨ x ∈ cB) →
      ∃ m' sa' sb' na nb,
        MergeLoop lt fuel m t other (some (Q.headD other.header_)) =
          some (m', { header_ := t.header_, size_ := na },
            { header_ := other.header_, size_ := nb }) ∧
        m'.key_ = k ∧ m'.next = n0 ∧ Inv m' { header_ := t.header_, size_ := na } sa' ∧
        Ordered lt k sa'.addrs ∧ Inv m' { header_ := other.header_, size_ := nb } sb' ∧
        Ordered lt k sb'.addrs ∧
        (∀ x ∈ t.header_ :: sa'.addrs, x ∉ other.header_ :: sb'.addrs) ∧
        (∀ x ∈ t.header_ :: sa'.addrs, x ∈ cA ∨ x ∈ cB) ∧
        (∀ x ∈ other.header_ :: sb'.addrs, x ∈ cA ∨ x ∈ cB) ∧
        AgreeOn (fun x => x ∉ cA ∧ x ∉ cB) m m' := by
  intro Q
  induction Q with
  | nil =>
    intro P fuel m t other sa sb hf hk hn hA ordA hB ordB hsb hdis hcA hcB
    obtain ⟨f, rfl⟩ : ∃ f, fuel = f + 1 := ⟨fuel - 1, by omega⟩
    exact ⟨m, sa, sb, t.size_, other.size_, MergeLoop_end lt f m t other, hk, hn, hA, ordA,
      hB, ordB, hdis, hcA, hcB, AgreeOn.refl _ m⟩
  | cons q Q ih =>
    intro P fuel m t other sa sb hf hk hn hA ordA hB ordB hsb hdis hcA hcB
    obtain ⟨f, rfl⟩ : ∃ f, fuel = f + 1 := ⟨fuel - 1, by omega⟩
    simp only [List.length_cons, Nat.add_lt_add_iff_right] at hf
    subst hk
    have hqB : q ∈ sb.addrs := by
      rw [hsb]
      simp
    have hqne : q ≠ other.header_ := fun e => hB.wf.hdr_not_mem (e ▸ hqB)
    have hnd : (P ++ q :: Q).Nodup := hsb ▸ hB.wf.addrs_nodup
    have hnext : NextNode m q = some (some (Q.headD other.header_)) :=
      NextNode_list hB.wf hsb
    simp only [List.headD_cons]
    rcases Find_spec hlt (m.key_ q) hA.wf ordA with ⟨n, hn', he, hfind, -⟩ | ⟨hno, hfind, -⟩
    · -- the key is held by `*this`: the node stays in `other`
      have hnn : n ≠ t.header_ := fun e => hA.wf.hdr_not_mem (e ▸ hn')
      obtain ⟨m', sa', sb', na, nb, e, r⟩ :=
        ih (P ++ [q]) f m t other sa sb hf rfl hn hA ordA hB ordB (by simp [hsb]) hdis hcA hcB
      refine ⟨m', sa', sb', na, nb, ?_, r⟩
      rw [MergeLoop_keep lt f hqne hfind hnn hnext]
      exact e
    · -- the key is new: the node moves
      obtain ⟨m1, sb1, e1, hB1, hsb1, hk1, hL1, hp1, hl1, hr1, hred1⟩ :=
        extractNode_step hB hqB
      have hsb1' : sb1.addrs = P ++ Q := by
        rw [hsb1, hsb]
        exact filter_ne_mid hnd
      have hA1 : Inv m1 t sa := hA.local hL1 (fun x hx hS => hdis x hx hS)
      have hqA : q ∉ t.header_ :: sa.addrs := fun hx =>
        hdis q hx (List.mem_cons_of_mem _ hqB)
      have hqb : q < m1.next := by
        rw [hL1.next]
        exact hB.wf.bound q (List.mem_cons_of_mem _ hqB)
      obtain ⟨m2, sa2, e2, hA2, ordA2, hperm2, hk2, hL2⟩ :=
        insertNode_step hlt true hA1 (hk1 ▸ ordA) hqA hqb hp1 hl1 hr1 hred1
          (fun _ n hn => by rw [hk1]; exact hno n hn)
      have hkey2 : m2.key_ = m.key_ := hk2.trans hk1
      have hqP : q ∉ P ++ Q := by
        simp only [List.nodup_append, List.nodup_cons, List.disjoint_cons_right] at hnd
        simp only [List.mem_append, not_or]
        exact ⟨hnd.2.2.1, hnd.2.1.1⟩
      have hB2 : Inv m2 { other with size_ := other.size_ - 1 } sb1 := by
        refine hB1.local hL2 ?_
        intro x hx hS
        rcases hS with hS | rfl
        · rcases List.mem_cons.1 hx with rfl | hx'
          · exact hdis _ hS (List.mem_cons_self _ _)
          · refine hdis x hS (List.mem_cons_of_mem _ ?_)
            rw [hsb1] at hx'
            exact List.mem_of_mem_filter hx'
        · rcases List.mem_cons.1 hx with e | hx'
          · exact hqne e
          · rw [hsb1'] at hx'
            exact hqP hx'
      have hsub1 : ∀ x ∈ sb1.addrs, x ∈ sb.addrs := by
        intro x hx
        rw [hsb1] at hx
        exact List.mem_of_mem_filter hx
      have hdis2 : ∀ x ∈ ({ t with size_ := t.size_ + 1 } : RBTree).header_ :: sa2.addrs,
          x ∉ ({ other with size_ := other.size_ - 1 } : RBTree).header_ :: sb1.addrs := by
        intro x hx hx'
        have hx1 : x ∈ other.header_ :: sb.addrs := by
          rcases List.mem_cons.1 hx' with rfl | h
          · exact List.mem_cons_self _ _
          · exact List.mem_cons_of_mem _ (hsub1 x h)
        rcases List.mem_cons.1 hx with rfl | h
        · exact hdis _ (List.mem_cons_self _ _) hx1
        · rcases List.mem_cons.1 (hperm2.mem_iff.1 h) with rfl | h'
          · rcases List.mem_cons.1 hx' with e | h''
            · exact hqne e
            · rw [hsb1'] at h''
              exact hqP h''
          · exact hdis x (List.mem_cons_of_mem _ h') hx1
      have hcA2 : ∀ x ∈ ({ t with size_ := t.size_ + 1 } : RBTree).header_ :: sa2.addrs,
          x ∈ cA ∨ x ∈ cB := by
        intro x hx
        rcases List.mem_cons.1 hx with rfl | h
        · exact hcA _ (List.mem_cons_self _ _)
        · rcases List.mem_cons.1 (hperm2.mem_iff.1 h) with rfl | h'
          · exact hcB _ (List.mem_cons_of_mem _ hqB)
          · exact hcA x (List.mem_cons_of_mem _ h')
      have hcB2 : ∀ x ∈ ({ other with size_ := other.size_ - 1 } : RBTree).header_ ::
          sb1.addrs, x ∈ cA ∨ x ∈ cB := by
        intro x hx
        rcases List.mem_cons.1 hx with rfl | h
        · exact hcB _ (List.mem_cons_self _ _)
        · exact hcB x (List.mem_cons_of_mem _ (hsub1 x h))
      have ordB1 : Ordered lt m.key_ sb1.addrs := by
        rw [hsb1]
        exact List.Pairwise.sublist (List.filter_sublist _) ordB
      obtain ⟨m', sa', sb', na, nb, e, hk', hn', hA', ordA', hB', ordB', hdis', hcA', hcB',
          ag'⟩ :=
        ih P f m2 { t with size_ := t.size_ + 1 } { other with size_ := other.size_ - 1 }
          sa2 sb1 hf hkey2 (by rw [hL2.next, hL1.next, hn]) hA2 (hkey2 ▸ ordA2) hB2 ordB1
          hsb1' hdis2 hcA2 hcB2
      refine ⟨m', sa', sb', na, nb, ?_, hk', hn', hA', ordA', hB', ordB', hdis', hcA', hcB',
        ?_⟩
      · rw [MergeLoop_move lt f hqne hfind hnext e1 e2]
        exact e
      · have ag1 : AgreeOn (fun x => x ∉ cA ∧ x ∉ cB) m m1 :=
          hL1.agree.mono (fun x hx hS => by
            rcases hcB x hS with h | h
            · exact hx.1 h
            · exact hx.2 h)
        have ag2 : AgreeOn (fun x => x ∉ cA ∧ x ∉ cB) m1 m2 :=
          hL2.agree.mono (fun x hx hS => by
            have : x ∈ cA ∨ x ∈ cB := by
              rcases hS with hS | rfl
              · exact hcA x hS
              · exact hcB _ (List.mem_cons_of_mem _ hqB)
            rcases this with h | h
            · exact hx.1 h
            · exact hx.2 h)
        exact (ag1.trans ag2).trans ag'

/-- `Merge` on two good trees without a common cell, with its frame. -/
theorem Merge_frame {lt : K → K → Bool} (hlt : SWO lt) {m : Mem K} {t other : RBTree}
    (hA : Good lt m t) (hB : Good lt m other) (hdis : ∀ x ∈ cells m t, x ∉ cells m other) :
    ∃ m' t' o', Merge lt m t other = some (m', t', o') ∧ m'.next = m.next ∧
      Good lt m' t' ∧ Good lt m' o' ∧ (∀ x ∈ cells m' t', x ∉ cells m' o') ∧
      (∀ x ∈ cells m' t', x ∈ cells m t ∨ x ∈ cells m other) ∧
      (∀ x ∈ cells m' o', x ∈ cells m t ∨ x ∈ cells m other) ∧
      AgreeOn (fun x => x ∉ cells m t ∧ x ∉ cells m other) m m' := by
  obtain ⟨sa, invA, ordA⟩ := hA
  obtain ⟨sb, invB, ordB⟩ := hB
  rw [cells_eq invA, cells_eq invB] at hdis
  have hne : t.header_ ≠ other.header_ := fun e =>
    hdis _ (List.mem_cons_self _ _) (e ▸ List.mem_cons_self _ _)
  have hlen : sb.addrs.length < m.next := by
    have := nodup_bound_length invB.wf.nodup invB.wf.bound
    simp only [List.length_cons] at this
    omega
  obtain ⟨m', sa', sb', na, nb, e, hk, hn, hA', ordA', hB', ordB', hdis', hcA', hcB', ag⟩ :=
    MergeLoop_inv hlt m.key_ m.next (t.header_ :: sa.addrs) (other.header_ :: sb.addrs)
      sb.addrs [] m.next m t other sa sb hlen rfl rfl invA ordA invB ordB (by simp) hdis
      (fun x hx => Or.inl hx) (fun x hx => Or.inr hx)
  refine ⟨m', _, _, ?_, hn, ⟨sa', hA', hk ▸ ordA'⟩, ⟨sb', hB', hk ▸ ordB'⟩, ?_, ?_, ?_, ?_⟩
  · unfold Merge
    rw [if_pos hne, Begin_spec invB]
    exact e
  · rw [cells_eq hA', cells_eq hB']
    exact hdis'
  · rw [cells_eq hA', cells_eq invA, cells_eq invB]
    exact hcA'
  · rw [cells_eq hB', cells_eq invA, cells_eq invB]
    exact hcB'
  · rw [cells_eq invA, cells_eq invB]
    exact ag

/-- The step of the invariant for `Merge` between two live trees. -/
theorem WorldInv.of_merge {lt : K → K → Bool} (hlt : SWO lt) {m m' : Mem K}
    {t u t' u' : RBTree} {ts : List RBTree} (h : WorldInv lt m (t :: u :: ts))
    (e : Merge lt m t u = some (m', t', u')) : WorldInv lt m' (t' :: u' :: ts) := by
  have hA := h.1 t (by simp)
  have hB := h.1 u (by simp)
  have hdis : ∀ x ∈ cells m t, x ∉ cells m u := (List.pairwise_cons.1 h.2).1 u (by simp)
  obtain ⟨m2, t2, u2, e2, hn, hg1, hg2, hap, hs1, hs2, ag⟩ := Merge_frame hlt hA hB hdis
  rw [e] at e2
  simp only [Option.some.injEq, Prod.mk.injEq] at e2
  obtain ⟨rfl, rfl, rfl⟩ := e2
  refine h.of_binary (ag.mono (fun x hx => hx.2)) (Nat.le_of_eq hn.symm) hg1 hg2 hap ?_ ?_
  · intro x hx
    rcases hs1 x hx with h1 | h1
    · exact Or.inl h1
    · exact Or.inr (Or.inl h1)
  · intro x hx
    rcases hs2 x hx with h1 | h1
    · exact Or.inl h1
    · exact Or.inr (Or.inl h1)

/-- `Merge` of a tree into itself does nothing. -/
theorem WorldInv.of_mergeSelf {lt : K → K → Bool} {m m' : Mem K} {t t' u' : RBTree}
    {ts : List RBTree} (h : WorldInv lt m (t :: ts))
    (e : Merge lt m t t = some (m', t', u')) : WorldInv lt m' (t' :: ts) := by
  simp only [Merge, ne_eq, not_true_eq_false, if_false, Option.some.injEq,
    Prod.mk.injEq] at e
  obtain ⟨rfl, rfl, -⟩ := e
  exact h

/-- The loop of `MergeMulti` allocates nothing and writes only cells of the two trees. -/
theorem MergeMultiLoop_frame {lt : K → K → Bool} (hlt : SWO lt) (n0 : Nat) (cA cB : List Nat) :
    ∀ (Q : List Nat) (sp : List (Nat × Sh)) (fuel : Nat) (m : Mem K) (t other : RBTree)
      (sa : Sh), spineAddrs sp = Q → Q.length < fuel → other.size_ = Q.length →
      m.next = n0 → Spine m other.header_ sp → Inv m t sa → Ordered lt m.key_ sa.addrs →
      (∀ x ∈ t.header_ :: sa.addrs, x ∉ other.header_ :: Q) →
      (∀ x ∈ t.header_ :: sa.addrs, x ∈ cA ∨ x ∈ cB) →
      (∀ x ∈ other.header_ :: Q, x ∈ cA ∨ x ∈ cB) →
      ∃ m' ta tb,
        MergeMultiLoop lt fuel m t other (some (spineTop other.header_ sp)) =
          some (m', ta, tb) ∧ m'.next = n0 ∧ AgreeOn (fun x => x ∉ cA ∧ x ∉ cB) m m' := by
  intro Q
  induction Q with
  | nil =>
    intro sp fuel m t other sa hsp hf hsz hn hS hA ordA hdis hcA hcB
    obtain ⟨f, rfl⟩ : ∃ f, fuel = f + 1 := ⟨fuel - 1, by omega⟩
    exact ⟨m, t, other, MergeMultiLoop_done lt f m t other _ hsz, hn, AgreeOn.refl _ m⟩
  | cons q Q ih =>
    intro sp fuel m t other sa hsp hf hsz hn hS hA ordA hdis hcA hcB
    obtain ⟨f, rfl⟩ : ∃ f, fuel = f + 1 := ⟨fuel - 1, by omega⟩
    simp only [List.length_cons, Nat.add_lt_add_iff_right] at hf
    cases sp with
    | nil => simp [spineAddrs] at hsp
    | cons y rest =>
      obtain ⟨a, r⟩ := y
      simp only [spineAddrs, List.cons_append, List.cons.injEq] at hsp
      obtain ⟨rfl, hQ⟩ := hsp
      have hQ' : spineAddrs (leftSpine r rest) = Q := by
        rw [spineAddrs_leftSpine]
        exact hQ
      obtain ⟨hl, hp, hr, hru, hra, hau, hah, har, has, hrd, hnd', hrn⟩ := hS.head_facts
      obtain ⟨hS3, ag3, hn3, hk3, hp3, hl3, hr3, hred3⟩ := cutOut_spec hS
      have hcells : spineAddrs ((a, r) :: rest) = a :: Q := by
        simp [spineAddrs, hQ]
      have hA3 : Inv (cutOut m a (m.right_ a) (spineTop other.header_ rest)) t sa := by
        refine hA.agree_inv ag3 (fun x hx => ?_) (Nat.le_of_eq hn3.symm)
        rw [hcells]
        exact hdis x hx
      have haA : a ∉ t.header_ :: sa.addrs := fun hx =>
        hdis a hx (by simp)
      have hab : a < (cutOut m a (m.right_ a) (spineTop other.header_ rest)).next := by
        rw [hn3]
        exact hS.bound a (by simp [spineAddrs])
      obtain ⟨m4, sa4, e4, hA4, ordA4, hperm4, hk4, hL4⟩ :=
        insertNode_step hlt false hA3 (hk3 ▸ ordA) haA hab hp3 hl3 hr3 hred3
          (fun hu => absurd hu (by decide))
      have haQ : a ∉ other.header_ :: Q := by
        have := hS.nodup
        rw [hcells] at this
        simp only [List.nodup_cons, List.mem_cons, not_or] at this ⊢
        exact ⟨fun e => this.1.1 e.symm, this.2.1⟩
      have hS4 : Spine m4 other.header_ (leftSpine r rest) := by
        refine hS3.agree_spine hL4.agree (fun x hx hSx => ?_) (Nat.le_of_eq hL4.next.symm)
        rw [hQ'] at hx
        rcases hSx with hSx | rfl
        · exact hdis x hSx (by
            rcases List.mem_cons.1 hx with e | h'
            · rw [e]
              exact List.mem_cons_self _ _
            · exact List.mem_cons_of_mem _ (List.mem_cons_of_mem _ h'))
        · exact haQ hx
      have hdis4 : ∀ x ∈ ({ t with size_ := t.size_ + 1 } : RBTree).header_ :: sa4.addrs,
          x ∉ ({ other with size_ := other.size_ - 1 } : RBTree).header_ :: Q := by
        intro x hx hx'
        have hx1 : x ∈ other.header_ :: a :: Q := by
          rcases List.mem_cons.1 hx' with e | h'
          · rw [e]
            exact List.mem_cons_self _ _
          · exact List.mem_cons_of_mem _ (List.mem_cons_of_mem _ h')
        rcases List.mem_cons.1 hx with rfl | h
        · exact hdis _ (List.mem_cons_self _ _) hx1
        · rcases List.mem_cons.1 (hperm4.mem_iff.1 h) with rfl | h'
          · exact haQ hx'
          · exact hdis x (List.mem_cons_of_mem _ h') hx1
      have hcA4 : ∀ x ∈ ({ t with size_ := t.size_ + 1 } : RBTree).header_ :: sa4.addrs,
          x ∈ cA ∨ x ∈ cB := by
        intro x hx
        rcases List.mem_cons.1 hx with rfl | h
        · exact hcA _ (List.mem_cons_self _ _)
        · rcases List.mem_cons.1 (hperm4.mem_iff.1 h) with rfl | h'
          · exact hcB _ (by simp)
          · exact hcA x (List.mem_cons_of_mem _ h')
      have hcB4 : ∀ x ∈ ({ other with size_ := other.size_ - 1 } : RBTree).header_ :: Q,
          x ∈ cA ∨ x ∈ cB := by
        intro x hx
        rcases List.mem_cons.1 hx with e | h
        · exact hcB x (by rw [e]; exact List.mem_cons_self _ _)
        · exact hcB x (List.mem_cons_of_mem _ (List.mem_cons_of_mem _ h))
      have hkey4 : m4.key_ = m.key_ := hk4.trans hk3
      obtain ⟨m', ta, tb, e, hn', ag'⟩ :=
        ih (leftSpine r rest) f m4 { t with size_ := t.size_ + 1 }
          { other with size_ := other.size_ - 1 } sa4 hQ' hf
          (by simp only [hsz, List.length_cons]; omega) (by rw [hL4.next, hn3, hn]) hS4 hA4
          ordA4 hdis4 hcA4 hcB4
      refine ⟨m', ta, tb, ?_, hn', ?_⟩
      · have hstep := @MergeMultiLoop_step K lt f _ _ _ _ other _ _ _ _ _
          (by rw [hsz]; simp) hl hp hru hra hS.next e4
        show MergeMultiLoop lt (f + 1) m t other (some a) = _
        rw [hstep]
        exact e
      · have ag1 : AgreeOn (fun x => x ∉ cA ∧ x ∉ cB) m
            (cutOut m a (m.right_ a) (spineTop other.header_ rest)) :=
          ag3.mono (fun x hx hS' => by
            rw [hcells] at hS'
            rcases hcB x hS' with h | h
            · exact hx.1 h
            · exact hx.2 h)
        have ag2 : AgreeOn (fun x => x ∉ cA ∧ x ∉ cB)
            (cutOut m a (m.right_ a) (spineTop other.header_ rest)) m4 :=
          hL4.agree.mono (fun x hx hS' => by
            have : x ∈ cA ∨ x ∈ cB := by
              rcases hS' with hS' | rfl
              · exact hcA x hS'
              · exact hcB _ (by simp)
            rcases this with h | h
            · exact hx.1 h
            · exact hx.2 h)
        exact (ag1.trans ag2).trans ag'

/-- `MergeMulti` on two good trees without a common cell, with its frame. -/
theorem MergeMulti_frame {lt : K → K → Bool} (hlt : SWO lt) {m : Mem K} {t other : RBTree}
    (hA : Good lt m t) (hB : Good lt m other) (hdis : ∀ x ∈ cells m t, x ∉ cells m other) :
    ∃ m' t' o', MergeMulti lt m t other = some (m', t', o') ∧ m'.next = m.next ∧
      Good lt m' t' ∧ Good lt m' o' ∧ (∀ x ∈ cells m' t', x ∉ cells m' o') ∧
      (∀ x ∈ cells m' t', x ∈ cells m t ∨ x ∈ cells m other) ∧
      (∀ x ∈ cells m' o', x ∈ cells m t ∨ x ∈ cells m other) ∧
      AgreeOn (fun x => x ∉ cells m t ∧ x ∉ cells m other) m m' := by
  obtain ⟨sa, invA, ordA⟩ := hA
  obtain ⟨sb, invB, -⟩ := hB
  rw [cells_eq invA, cells_eq invB] at hdis
  obtain ⟨m', sa', na, e, hk, hA', ordA', hperm, hB'⟩ := MergeMulti_spec hlt invA ordA invB hdis
  have hsp : spineAddrs (leftSpine sb []) = sb.addrs := by
    rw [spineAddrs_leftSpine]
    simp [spineAddrs]
  obtain ⟨m1, ta, tb, e1, hn1, ag1⟩ :=
    MergeMultiLoop_frame hlt m.next (t.header_ :: sa.addrs) (other.header_ :: sb.addrs)
      sb.addrs (leftSpine sb []) (other.size_ + 1) m t other sa hsp
      (by rw [invB.size]; omega) invB.size rfl invB.wf.spine invA ordA hdis
      (fun x hx => Or.inl hx) (fun x hx => Or.inr hx)
  have hbegin : Begin m other = some (some (spineTop other.header_ (leftSpine sb []))) := by
    rw [Begin_spec invB, spineTop_eq, hsp]
  have e' := e
  unfold MergeMulti at e'
  rw [hbegin] at e'
  simp only [Option.bind_eq_bind, Option.some_bind, e1, Option.pure_def, Option.some.injEq,
    Prod.mk.injEq] at e'
  obtain ⟨hm, -, htb⟩ := e'
  have hhdr : tb.header_ = other.header_ := by rw [htb]
  refine ⟨m', _, _, e, ?_, ⟨sa', hA', ordA'⟩, ⟨Sh.nil, hB', List.Pairwise.nil⟩, ?_, ?_, ?_,
    ?_⟩
  · rw [← hm]
    exact hn1
  · rw [cells_eq hA', cells_eq hB']
    intro x hx hx'
    simp only [Sh.addrs_nil, List.mem_singleton] at hx'
    subst hx'
    rcases List.mem_cons.1 hx with e2 | hx
    · exact hdis _ (List.mem_cons_self _ _) (e2 ▸ List.mem_cons_self _ _)
    · rcases List.mem_append.1 (hperm.mem_iff.1 hx) with h1 | h1
      · exact hdis _ (List.mem_cons_of_mem _ h1) (List.mem_cons_self _ _)
      · exact invB.wf.hdr_not_mem h1
  · rw [cells_eq hA', cells_eq invA, cells_eq invB]
    intro x hx
    rcases List.mem_cons.1 hx with rfl | hx
    · exact Or.inl (List.mem_cons_self _ _)
    · rcases List.mem_append.1 (hperm.mem_iff.1 hx) with h1 | h1
      · exact Or.inl (List.mem_cons_of_mem _ h1)
      · exact Or.inr (List.mem_cons_of_mem _ h1)
  · rw [cells_eq hB', cells_eq invA, cells_eq invB]
    intro x hx
    simp only [Sh.addrs_nil, List.mem_singleton] at hx
    subst hx
    exact Or.inr (List.mem_cons_self _ _)
  · rw [cells_eq invA, cells_eq invB, ← hm, hhdr]
    exact ag1.setParent none (fun hx => hx.2 (List.mem_cons_self _ _))

/-- The step of the invariant for `MergeMulti` between two live trees. -/
theorem WorldInv.of_mergeMulti {lt : K → K → Bool} (hlt : SWO lt) {m m' : Mem K}
    {t u t' u' : RBTree} {ts : List RBTree} (h : WorldInv lt m (t :: u :: ts))
    (e : MergeMulti lt m t u = some (m', t', u')) : WorldInv lt m' (t' :: u' :: ts) := by
  have hA := h.1 t (by simp)
  have hB := h.1 u (by simp)
  have hdis : ∀ x ∈ cells m t, x ∉ cells m u := (List.pairwise_cons.1 h.2).1 u (by simp)
  obtain ⟨m2, t2, u2, e2, hn, hg1, hg2, hap, hs1, hs2, ag⟩ := MergeMulti_frame hlt hA hB hdis
  rw [e] at e2
  simp only [Option.some.injEq, Prod.mk.injEq] at e2
  obtain ⟨rfl, rfl, rfl⟩ := e2
  refine h.of_binary (ag.mono (fun x hx => hx.2)) (Nat.le_of_eq hn.symm) hg1 hg2 hap ?_ ?_
  · intro x hx
    rcases hs1 x hx with h1 | h1
    · exact Or.inl h1
    · exact Or.inr (Or.inl h1)
  · intro x hx
    rcases hs2 x hx with h1 | h1
    · exact Or.inl h1
    · exact Or.inr (Or.inl h1)

theorem Ordered_of_map_eq {lt : K → K → Bool} {k k' : Nat → K} {L L' : List Nat}
    (h : L'.map k' = L.map k) (hord : Ordered lt k L) : Ordered lt k' L' := by
  unfold Ordered at hord ⊢
  have h1 : (L.map k).Pairwise (fun a b => lt b a = false) := List.pairwise_map.2 hord
  rw [← h] at h1
  exact List.pairwise_map.1 h1

theorem throws_of_map_eq {throws : K → Bool} {k k' : Nat → K} {L L' : List Nat}
    (h : L'.map k' = L.map k) (hth : ∀ a ∈ L, throws (k a) = false) :
    ∀ a ∈ L', throws (k' a) = false := by
  intro a ha
  have : k' a ∈ L.map k := h ▸ List.mem_map_of_mem k' ha
  obtain ⟨b, hb, e⟩ := List.mem_map.1 this
  rw [← e]
  exact hth b hb

theorem RBTree.eta (t : RBTree) : ({ header_ := t.header_, size_ := t.size_ } : RBTree) = t := by
  cases t
  rfl

/-- Either some key of the tree throws when copied, or none does. -/
theorem throws_cases (throws : K → Bool) (k : Nat → K) (L : List Nat) :
    (∃ a ∈ L, throws (k a) = true) ∨ (∀ a ∈ L, throws (k a) = false) := by
  by_cases h : ∃ a ∈ L, throws (k a) = true
  · exact Or.inl h
  · right
    intro a ha
    cases hc : throws (k a) with
    | false => rfl
    | true => exact absurd ⟨a, ha, hc⟩ h

/-- The copy constructor on a good tree, whatever the key copies do: when a key copy
throws, the exception is propagated and nothing allocated before is written; otherwise the
new tree is good, made of fresh cells. -/
theorem copyConstruct_cases [Inhabited K] {lt : K → K → Bool} (throws : K → Bool) {m : Mem K}
    {t : RBTree} {sh : Sh} (inv : Inv m t sh) (hord : Ordered lt m.key_ sh.addrs) :
    ∃ m' c flag, copyConstruct throws m t = some (m', c, flag) ∧
      AgreeOn (fun x => x < m.next) m m' ∧ m.next < m'.next ∧
      (flag = true → ∃ a ∈ sh.addrs, throws (m.key_ a) = true) ∧
      (flag = false → (∀ a ∈ sh.addrs, throws (m.key_ a) = false) ∧ Good lt m' c ∧
        ∀ x ∈ cells m' c, m.next ≤ x) := by
  have h0 : Inv (RBTree.mk0 m).1 (RBTree.mk0 m).2 Sh.nil := Inv_mk0 m
  have ho' : Inv (RBTree.mk0 m).1 t sh := inv.alloc default
  have hag : AgreeOn (fun x => x < m.next) m (RBTree.mk0 m).1 :=
    (AgreeOn.refl (fun x => x < m.next) m).offNew default (Nat.lt_irrefl _)
  have hn0 : (RBTree.mk0 m).1.next = m.next + 1 := rfl
  have hh0 : (RBTree.mk0 m).2.header_ = m.next := rfl
  have hbs : ∀ x ∈ sh.addrs, x < m.next :=
    fun x hx => inv.wf.bound x (List.mem_cons_of_mem _ hx)
  rcases throws_cases throws m.key_ sh.addrs with hth | hth
  · obtain ⟨m1, e1, hn1, ag1⟩ := CopyTree_throw throws (t := (RBTree.mk0 m).2) ho' (by
      obtain ⟨a, ha, h⟩ := hth
      exact ⟨a, ha, by rw [hag.key a (hbs a ha)]; exact h⟩)
    refine ⟨m1, _, true, e1, hag.trans (ag1.mono (fun x hx => by omega)), by omega,
      fun _ => hth, fun h => absurd h (by decide)⟩
  · by_cases hso : sh = Sh.nil
    · subst hso
      refine ⟨(RBTree.mk0 m).1, (RBTree.mk0 m).2, false, CopyTree_nil throws ho', hag,
        by omega, fun h => absurd h (by decide), fun _ => ⟨hth, ⟨Sh.nil, h0, List.Pairwise.nil⟩,
          ?_⟩⟩
      rw [cells_eq h0]
      intro x hx
      simp only [Sh.addrs_nil, List.mem_singleton] at hx
      rw [hx, hh0]
    · obtain ⟨m1, e1, inv1, hk1, ag1, hn1⟩ := CopyTree_spec throws h0.wf ho' hso (fun a ha => by
        rw [hag.key a (hbs a ha)]
        exact hth a ha)
      refine ⟨m1, _, false, e1, hag.trans (ag1.mono (fun x hx => ⟨by omega, by omega⟩)),
        by omega, fun h => absurd h (by decide), fun _ => ⟨hth, ⟨_, inv1, ?_⟩, ?_⟩⟩
      · refine Ordered_of_map_eq (hk1.trans (hag.map_key hbs)) hord
      · rw [cells_eq inv1]
        intro x hx
        rcases List.mem_cons.1 hx with rfl | hx
        · exact Nat.le_of_eq hh0.symm
        · have := (copySh_range sh _ x hx).1
          omega

/-- The statement `return *this;` of the assignment operators, whatever the key copies do:
the tree object is handed back, and nothing allocated before is written. -/
theorem returnCopy_frame [Inhabited K] {lt : K → K → Bool} (throws : K → Bool) {m : Mem K}
    {t : RBTree} {sh : Sh} (inv : Inv m t sh) (hord : Ordered lt m.key_ sh.addrs) :
    ∃ m' flag, returnCopy throws m t = some (m', t, flag) ∧
      AgreeOn (fun x => x < m.next) m m' ∧ m.next ≤ m'.next ∧
      (flag = true → ∃ a ∈ sh.addrs, throws (m.key_ a) = true) := by
  obtain ⟨m1, c, flag, e, ag, hn, hT, hF⟩ := copyConstruct_cases throws inv hord
  cases flag with
  | true =>
    refine ⟨m1, true, ?_, ag, Nat.le_of_lt hn, hT⟩
    unfold returnCopy
    rw [e]
  | false =>
    obtain ⟨m2, e2, ag2, hn2⟩ := returnCopy_spec throws inv (hF rfl).1
    exact ⟨m2, false, e2, ag2, hn2, fun h => absurd h (by decide)⟩

/-- The step of the invariant for the copy constructor. -/
theorem WorldInv.of_copyConstruct [Inhabited K] {lt : K → K → Bool} {throws : K → Bool}
    {m m' : Mem K} {t c : RBTree} {flag : Bool} {ts : List RBTree}
    (h : WorldInv lt m (t :: ts)) (e : copyConstruct throws m t = some (m', c, flag)) :
    (flag = false → WorldInv lt m' (c :: t :: ts)) ∧ (flag = true → WorldInv lt m' (t :: ts)) := by
  have hg := h.1 t (List.mem_cons_self _ _)
  obtain ⟨sh, inv, hord⟩ := hg
  obtain ⟨m1, c1, f1, e1, ag, hn, -, hF⟩ := copyConstruct_cases throws inv hord
  rw [e] at e1
  simp only [Option.some.injEq, Prod.mk.injEq] at e1
  obtain ⟨rfl, rfl, rfl⟩ := e1
  have hfr := (h.1 t (List.mem_cons_self _ _)).of_frame ag (cells_bound inv) (Nat.le_of_lt hn)
  constructor
  · intro hf
    obtain ⟨-, hgc, hfresh⟩ := hF hf
    refine h.of_grow (ag.mono (fun x hx => hx.1)) (Nat.le_of_lt hn) hgc hfr.1 ?_
      (fun x hx => Or.inr (hfresh x hx)) (fun x hx => Or.inl (hfr.2 ▸ hx))
    intro x hx hx'
    rw [hfr.2] at hx'
    have := cells_bound inv x hx'
    have := hfresh x hx
    omega
  · intro _
    exact h.of_unary (ag.mono (fun x hx => hx.1)) (Nat.le_of_lt hn) hfr.1
      (fun x hx => Or.inl (hfr.2 ▸ hx))

/-- The step of the invariant for the copy assignment of a tree to itself. -/
theorem WorldInv.of_copyAssignSelf [Inhabited K] {lt : K → K → Bool} {throws : K → Bool}
    {m m' : Mem K} {t t' : RBTree} {flag : Bool} {ts : List RBTree}
    (h : WorldInv lt m (t :: ts)) (e : copyAssign throws m t t = some (m', t', flag)) :
    WorldInv lt m' (t' :: ts) := by
  obtain ⟨sh, inv, hord⟩ := h.1 t (List.mem_cons_self _ _)
  obtain ⟨m1, f1, e1, ag, hn, -⟩ := returnCopy_frame throws inv hord
  simp only [copyAssign, if_true, e1, Option.some.injEq, Prod.mk.injEq] at e
  obtain ⟨rfl, rfl, -⟩ := e
  have hfr := (h.1 t (List.mem_cons_self _ _)).of_frame ag (cells_bound inv) hn
  exact h.of_unary (ag.mono (fun x hx => hx.1)) hn hfr.1 (fun x hx => Or.inl (hfr.2 ▸ hx))

/-- The step of the invariant for the move assignment of a tree to itself. -/
theorem WorldInv.of_moveAssignSelf [Inhabited K] {lt : K → K → Bool} {throws : K → Bool}
    {m m' : Mem K} {t t' t'' : RBTree} {ts : List RBTree}
    (h : WorldInv lt m (t :: ts)) (e : moveAssign throws m t t = some (m', t', t'')) :
    WorldInv lt m' (t' :: ts) := by
  obtain ⟨sh, inv, hord⟩ := h.1 t (List.mem_cons_self _ _)
  obtain ⟨m1, f1, e1, ag, hn, -⟩ := returnCopy_frame throws inv hord
  have hfr := (h.1 t (List.mem_cons_self _ _)).of_frame ag (cells_bound inv) hn
  cases f1 with
  | true => simp [moveAssign, e1] at e
  | false =>
    simp only [moveAssign, if_true, e1, Option.some.injEq, Prod.mk.injEq] at e
    obtain ⟨rfl, rfl, -⟩ := e
    exact h.of_unary (ag.mono (fun x hx => hx.1)) hn hfr.1 (fun x hx => Or.inl (hfr.2 ▸ hx))

/-- The step of the invariant for the move constructor. -/
theorem WorldInv.of_moveConstruct [Inhabited K] {lt : K → K → Bool} {m m' : Mem K}
    {t a t' : RBTree} {ts : List RBTree} (h : WorldInv lt m (t :: ts))
    (e : moveConstruct m t = (m', a, t')) : WorldInv lt m' (a :: t' :: ts) := by
  simp only [moveConstruct, Swap, Prod.mk.injEq] at e
  obtain ⟨rfl, rfl, rfl⟩ := e
  rw [RBTree.eta t]
  have h1 := h.of_create
  exact h1.of_perm (List.Perm.swap _ _ _)

/-- Copy assignment between two good trees without a common cell, whatever the key copies
do: it returns, the destination is good afterwards, made of its header and fresh cells, and
apart from the cells of the destination nothing allocated before is written. -/
theorem copyAssign_cases [Inhabited K] {lt : K → K → Bool} (throws : K → Bool) {m : Mem K}
    {d t : RBTree} (hd : Good lt m d) (ht : Good lt m t)
    (hdis : ∀ x ∈ cells m d, x ∉ cells m t) :
    ∃ m' d' flag, copyAssign throws m d t = some (m', d', flag) ∧ m.next ≤ m'.next ∧
      AgreeOn (fun x => x < m.next ∧ x ∉ cells m d) m m' ∧ Good lt m' d' ∧
      (∀ x ∈ cells m' d', x ∈ cells m d ∨ m.next ≤ x) := by
  obtain ⟨sd, invd, -⟩ := hd
  obtain ⟨st, invt, ordt⟩ := ht
  have hdc : d.header_ ∈ cells m d := by
    rw [cells_eq invd]
    exact List.mem_cons_self _ _
  have hne : d.header_ ≠ t.header_ := by
    intro e
    refine hdis _ hdc ?_
    rw [cells_eq invt, e]
    exact List.mem_cons_self _ _
  obtain ⟨ec, inv1, hg1, hc1, ag1⟩ := Clear_frame lt invd
  have hbt : ∀ x ∈ cells m t, x ∉ cells m d := fun x hx hx' => hdis x hx' hx
  have invt1 : Inv (m.setParent d.header_ none) t st := by
    refine invt.agree_inv ag1 (fun x hx => hbt x ?_) (Nat.le_refl _)
    rw [cells_eq invt]
    exact hx
  have hn1 : (m.setParent d.header_ none).next = m.next := rfl
  have hk1 : (m.setParent d.header_ none).key_ = m.key_ := rfl
  have hbst : ∀ x ∈ st.addrs, x < m.next :=
    fun x hx => invt.wf.bound x (List.mem_cons_of_mem _ hx)
  have hdb : d.header_ < m.next := invd.wf.bound _ (List.mem_cons_self _ _)
  have ag1' : AgreeOn (fun x => x < m.next ∧ x ∉ cells m d) m (m.setParent d.header_ none) :=
    ag1.mono (fun x hx => hx.2)
  have hsub0 : ∀ x ∈ cells (m.setParent d.header_ none) { d with size_ := 0 },
      x ∈ cells m d ∨ m.next ≤ x := by
    intro x hx
    rw [hc1, List.mem_singleton] at hx
    exact Or.inl (hx ▸ hdc)
  unfold copyAssign
  rw [if_neg hne, ec]
  rcases throws_cases throws m.key_ st.addrs with hth | hth
  · -- a key copy throws: the destination stays cleared
    obtain ⟨m2, e2, hn2, ag2⟩ := CopyTree_throw throws
      (t := ({ d with size_ := 0 } : RBTree)) invt1 hth
    refine ⟨m2, ({ d with size_ := 0 } : RBTree), true, by simp only [e2], by omega,
      ag1'.trans (ag2.mono (fun x hx => hx.1)), ?_, ?_⟩
    · have := hg1.of_frame ag2 (cells_bound inv1) hn2
      exact this.1
    · intro x hx
      have := (hg1.of_frame ag2 (cells_bound inv1) hn2).2
      rw [this] at hx
      exact hsub0 x hx
  · by_cases hso : st = Sh.nil
    · -- nothing to copy
      subst hso
      have e2 := CopyTree_nil throws (t := ({ d with size_ := 0 } : RBTree)) invt1
      have ord1 : Ordered lt (m.setParent d.header_ none).key_ Sh.nil.addrs :=
        List.Pairwise.nil
      obtain ⟨m3, f3, e3, ag3, hn3, -⟩ := returnCopy_frame throws inv1 ord1
      have hfr := hg1.of_frame ag3 (cells_bound inv1) hn3
      refine ⟨m3, ({ d with size_ := 0 } : RBTree), f3, by simp only [e2, e3], by omega,
        ag1'.trans (ag3.mono (fun x hx => hx.1)), hfr.1, ?_⟩
      intro x hx
      rw [hfr.2] at hx
      exact hsub0 x hx
    · -- the copy is made
      obtain ⟨m2, e2, inv2, hk2, ag2, hn2⟩ := CopyTree_spec throws inv1.wf invt1 hso hth
      have ord2 : Ordered lt m2.key_ (copySh m.next st).addrs :=
        Ordered_of_map_eq hk2 ordt
      obtain ⟨m3, f3, e3, ag3, hn3, -⟩ := returnCopy_frame throws inv2 ord2
      have hg2 : Good lt m2 { header_ := d.header_, size_ := t.size_ } :=
        ⟨_, inv2, ord2⟩
      have hfr := hg2.of_frame ag3 (cells_bound inv2) hn3
      refine ⟨m3, ({ header_ := d.header_, size_ := t.size_ } : RBTree), f3,
        by simp only [e2, e3], by omega, ?_, hfr.1, ?_⟩
      · refine (ag1'.trans (ag2.mono (fun x hx => ⟨hx.1, fun e => hx.2 (e ▸ hdc)⟩))).trans
          (ag3.mono (fun x hx => ?_))
        have := hx.1
        omega
      · intro x hx
        rw [hfr.2, cells_eq inv2] at hx
        rcases List.mem_cons.1 hx with rfl | hx
        · exact Or.inl hdc
        · exact Or.inr (copySh_range st _ x hx).1

/-- The step of the invariant for the copy assignment between two live trees. -/
theorem WorldInv.of_copyAssign [Inhabited K] {lt : K → K → Bool} {throws : K → Bool}
    {m m' : Mem K} {d t d' : RBTree} {flag : Bool} {ts : List RBTree}
    (h : WorldInv lt m (d :: t :: ts)) (e : copyAssign throws m d t = some (m', d', flag)) :
    WorldInv lt m' (d' :: t :: ts) := by
  have hd := h.1 d (by simp)
  have ht := h.1 t (by simp)
  have hdis : ∀ x ∈ cells m d, x ∉ cells m t := (List.pairwise_cons.1 h.2).1 t (by simp)
  obtain ⟨m2, d2, f2, e2, hn, ag, hg, hsub⟩ := copyAssign_cases throws hd ht hdis
  rw [e] at e2
  simp only [Option.some.injEq, Prod.mk.injEq] at e2
  obtain ⟨rfl, rfl, -⟩ := e2
  obtain ⟨st, invt, -⟩ := ht
  have hfr := (h.1 t (by simp)).of_frame ag
    (fun x hx => ⟨cells_bound invt x hx, fun hx' => hdis x hx' hx⟩) hn
  refine h.of_binary (ag.mono (fun x hx => ⟨hx.1, hx.2.1⟩)) hn hg hfr.1 ?_ ?_ ?_
  · intro x hx hx'
    rw [hfr.2] at hx'
    rcases hsub x hx with h1 | h1
    · exact hdis x h1 hx'
    · have := cells_bound invt x hx'
      omega
  · intro x hx
    rcases hsub x hx with h1 | h1
    · exact Or.inl h1
    · exact Or.inr (Or.inr h1)
  · intro x hx
    rw [hfr.2] at hx
    exact Or.inr (Or.inl hx)

/-- The step of the invariant for the move assignment between two live trees. -/
theorem WorldInv.of_moveAssign [Inhabited K] {lt : K → K → Bool} {throws : K → Bool}
    {m m' : Mem K} {d t d' t' : RBTree} {ts : List RBTree}
    (h : WorldInv lt m (d :: t :: ts)) (e : moveAssign throws m d t = some (m', d', t')) :
    WorldInv lt m' (d' :: t' :: ts) := by
  have hd := h.1 d (by simp)
  have ht := h.1 t (by simp)
  have hdis : ∀ x ∈ cells m d, x ∉ cells m t := (List.pairwise_cons.1 h.2).1 t (by simp)
  obtain ⟨sd, invd, -⟩ := hd
  obtain ⟨st, invt, ordt⟩ := ht
  have hdc : d.header_ ∈ cells m d := by
    rw [cells_eq invd]
    exact List.mem_cons_self _ _
  have hne : d.header_ ≠ t.header_ := by
    intro e
    refine hdis _ hdc ?_
    rw [cells_eq invt, e]
    exact List.mem_cons_self _ _
  obtain ⟨ec, inv1, hg1, hc1, ag1⟩ := Clear_frame lt invd
  have invt1 : Inv (m.setParent d.header_ none) t st := by
    refine invt.agree_inv ag1 (fun x hx hx' => hdis x hx' ?_) (Nat.le_refl _)
    rw [cells_eq invt]
    exact hx
  obtain ⟨m2, f2, e2, ag2, hn2, -⟩ := returnCopy_frame throws invt1 ordt
  have hsw1 : (Swap ({ d with size_ := 0 } : RBTree) t).1 = t := RBTree.eta t
  have hsw2 : (Swap ({ d with size_ := 0 } : RBTree) t).2 = { d with size_ := 0 } := rfl
  unfold moveAssign at e
  rw [if_neg hne, ec] at e
  simp only [hsw1, e2] at e
  cases f2 with
  | true => simp at e
  | false =>
    simp only [Option.some.injEq, Prod.mk.injEq] at e
    obtain ⟨rfl, rfl, rfl⟩ := e
    have hn1 : (m.setParent d.header_ none).next = m.next := rfl
    have hgt1 : Good lt (m.setParent d.header_ none) t := ⟨st, invt1, ordt⟩
    have hfrt := hgt1.of_frame ag2 (cells_bound invt1) hn2
    have hfrd := hg1.of_frame ag2 (cells_bound inv1) hn2
    have hct : cells (m.setParent d.header_ none) t = cells m t := by
      rw [cells_eq invt1, cells_eq invt]
    have h' := h.of_perm (List.Perm.swap t d ts)
    show WorldInv lt m2 (t :: ({ d with size_ := 0 } : RBTree) :: ts)
    refine h'.of_binary ?_ (by omega) hfrt.1 hfrd.1 ?_ ?_ ?_
    · refine (ag1.mono (fun x hx => hx.2.2)).trans (ag2.mono (fun x hx => ?_))
      have := hx.1
      omega
    · intro x hx hx'
      rw [hfrt.2, hct] at hx
      rw [hfrd.2, hc1, List.mem_singleton] at hx'
      exact hdis _ hdc (hx' ▸ hx)
    · intro x hx
      rw [hfrt.2, hct] at hx
      exact Or.inl hx
    · intro x hx
      rw [hfrd.2, hc1, List.mem_singleton] at hx
      exact Or.inr (Or.inl (hx ▸ hdc))

/-- Every state a program reaches satisfies the invariant of the live trees. -/
theorem world_inv [Inhabited K] {lt : K → K → Bool} (hlt : SWO lt) {m : Mem K}
    {ts : List RBTree} (hw : World lt m ts) : WorldInv lt m ts := by
  induction hw with
  | init => exact ⟨fun t ht => by simp at ht, List.Pairwise.nil⟩
  | reorder _ hp ih => exact ih.of_perm hp
  | create _ ih => exact ih.of_create
  | destroy _ e ih => exact ih.of_destroy e
  | insert key uniq _ e ih => exact ih.of_insert hlt e
  | erase pos _ hpos e ih => exact ih.of_erase hpos e
  | deleteByKey key _ e ih => exact ih.of_deleteByKey hlt e
  | clear _ e ih => exact ih.of_clear e
  | merge _ e ih => exact ih.of_merge hlt e
  | mergeSelf _ e ih => exact ih.of_mergeSelf e
  | mergeMulti _ e ih => exact ih.of_mergeMulti hlt e
  | @swap m t u ts _ ih =>
    have := ih.of_perm (List.Perm.swap u t ts)
    simp only [Swap]
    rw [RBTree.eta u, RBTree.eta t]
    exact this
  | copyConstruct throws _ e ih => exact (ih.of_copyConstruct e).1 rfl
  | copyConstructThrow throws _ e ih => exact (ih.of_copyConstruct e).2 rfl
  | copyAssign throws _ e ih => exact ih.of_copyAssign e
  | copyAssignSelf throws _ e ih => exact ih.of_copyAssignSelf e
  | moveConstruct _ e ih => exact ih.of_moveConstruct e
  | moveAssign throws _ e ih => exact ih.of_moveAssign e
  | moveAssignSelf throws _ e ih => exact ih.of_moveAssignSelf e

theorem insertItems_world [Inhabited K] (lt : K → K → Bool) (uniq : Bool)
    (ts : List RBTree) :
    ∀ (ks : List K) (s s' : Mem K × RBTree), World lt s.1 (s.2 :: ts) →
      insertItems lt uniq ks s = some s' → World lt s'.1 (s'.2 :: ts) := by
  intro ks
  induction ks with
  | nil =>
    intro s s' hw he
    simp only [insertItems, Option.some.injEq] at he
    subst he
    exact hw
  | cons k ks ih =>
    intro s s' hw he
    simp only [insertItems, Option.bind_eq_bind] at he
    cases hi : InsertKey lt s.1 s.2 k uniq with
    | none => simp [hi] at he
    | some r =>
      obtain ⟨m1, t1, it, ok⟩ := r
      rw [hi] at he
      exact ih (m1, t1) s' (World.insert k uniq hw hi) he

set_option maxRecDepth 100000 in
theorem exOther_eq :
    insertItems ltN true [4, 10, 3] (RBTree.mk0 exSet.1) = some exOther :=
  getD_of_isSome _ (by decide)

/-- The two sets `{4, 10, 3}` and `{5, 3, 8, 1, 4}` of one program. -/
theorem exOther_world : World ltN exOther.1 [exOther.2, exSet.2] := by
  have h0 : World ltN (RBTree.mk0 (Mem.init : Mem Nat)).1 [(RBTree.mk0 Mem.init).2] :=
    World.create World.init
  have h1 : World ltN exSet.1 [exSet.2] := insertItems_world ltN true [] _ _ _ h0 exSet_eq
  exact insertItems_world ltN true [exSet.2] _ _ _ (World.create h1) exOther_eq

/-- C22: in every state a program reaches from the empty memory by the default, copy and move
constructors, `InsertKey` (either mode, accepted or rejected), `Erase`, `DeleteByKey`,
`Merge`, `MergeMulti`, `Clear`, `Swap`, the copy and move assignments and the destructor,
for every live tree the number of nodes reached from the root along the child links is
`Size()`; they are the nodes the recursive in-order traversal lists and the iteration from
`Begin()` to `End()` visits, each once. -/
theorem C22_size_counts_nodes [Inhabited K] {lt : K → K → Bool} (hlt : SWO lt) {m : Mem K}
    {ts : List RBTree} (hw : World lt m ts) :
    ∀ t ∈ ts, countNodes m m.next (Root m t.header_) = some (Size t) ∧
      ∃ L, inorder m m.next (Root m t.header_) = some L ∧ toList m t = some L ∧ L.Nodup ∧
        L.length = Size t := by
  intro t ht
  obtain ⟨sh, inv, -⟩ := (world_inv hlt hw).1 t ht
  exact ⟨inv.traversal.2, sh.addrs, inv.traversal.1, toList_spec inv, inv.wf.addrs_nodup,
    inv.size.symm⟩

/-- Witness of C22: the program that holds the sets `{4, 10, 3}` and `{5, 3, 8, 1, 4}`. -/
theorem C22_witness : SWO ltN ∧ World ltN exOther.1 [exOther.2, exSet.2] ∧
    ∀ t ∈ [exOther.2, exSet.2],
      countNodes exOther.1 exOther.1.next (Root exOther.1 t.header_) = some (Size t) ∧
      ∃ L, inorder exOther.1 exOther.1.next (Root exOther.1 t.header_) = some L ∧
        toList exOther.1 t = some L ∧ L.Nodup ∧ L.length = Size t :=
  ⟨swo_ltN, exOther_world, C22_size_counts_nodes swo_ltN exOther_world⟩

theorem InsertManyLoop_eq (lt : K → K → Bool) (uniq : Bool) :
    ∀ (ks : List K) (m : Mem K) (t : RBTree) (res : List (Ptr × Bool)),
      InsertManyLoop lt uniq ks m t res =
        (insertEach lt uniq ks m t).map (fun s => (s.1, s.2.1, res ++ s.2.2)) := by
  intro ks
  induction ks with
  | nil =>
    intro m t res
    simp [InsertManyLoop, insertEach]
  | cons k ks ih =>
    intro m t res
    simp only [InsertManyLoop, insertEach, InsertKey, Option.bind_eq_bind]
    cases hi : InsertNode lt (m.newNode k).1 t (m.newNode k).2 uniq with
    | none => rfl
    | some r =>
      simp only [Option.some_bind, ih]
      cases insertEach lt uniq ks r.1 r.2.1 with
      | none => rfl
      | some s => simp

theorem insertEach_items (lt : K → K → Bool) (uniq : Bool) :
    ∀ (ks : List K) (m : Mem K) (t : RBTree),
      (insertEach lt uniq ks m t).map (fun s => (s.1, s.2.1)) =
        insertItems lt uniq ks (m, t) := by
  intro ks
  induction ks with
  | nil =>
    intro m t
    rfl
  | cons k ks ih =>
    intro m t
    simp only [insertEach, insertItems, Option.bind_eq_bind]
    cases hi : InsertKey lt m t k uniq with
    | none => rfl
    | some r =>
      simp only [Option.some_bind, ← ih]
      cases insertEach lt uniq ks r.1 r.2.1 with
      | none => rfl
      | some s => rfl

theorem while_split {p : K → Bool} {A B : List K} (hA : ∀ a ∈ A, p a = true)
    (hB : ∀ b ∈ B, p b = false) : (A ++ B).takeWhile p = A ∧ (A ++ B).dropWhile p = B := by
  induction A with
  | nil =>
    cases B with
    | nil => simp
    | cons b B => simp [List.takeWhile, List.dropWhile, hB b (by simp)]
  | cons a A ih =>
    have := ih (fun x hx => hA x (by simp [hx]))
    simp [List.takeWhile, List.dropWhile, hA a (by simp), this]

/-- `InsertKey` on a tree satisfying the invariant, in terms of the keys: the flag, and the
keys afterwards. -/
theorem InsertKey_keys {lt : K → K → Bool} (hlt : SWO lt) {m : Mem K} {t : RBTree} {sh : Sh}
    (inv : Inv m t sh) (hord : Ordered lt m.key_ sh.addrs) (k : K) (uniq : Bool) :
    ∃ m' t' it sh', InsertKey lt m t k uniq =
        some (m', t', it, !(uniq && (sh.addrs.map m.key_).any (fun x => equiv lt x k))) ∧
      Inv m' t' sh' ∧ Ordered lt m'.key_ sh'.addrs ∧
      sh'.addrs.map m'.key_ = insKey lt uniq (sh.addrs.map m.key_) k := by
  have hfresh : m.next ∉ sh.addrs := fun hx => (inv.wf.newNode k).2 (by simp [hx])
  have hany : (sh.addrs.map m.key_).any (fun x => equiv lt x k) = true ↔
      ∃ n ∈ sh.addrs, equiv lt (m.key_ n) k = true := by
    simp [List.any_eq_true]
  by_cases hc : uniq = true ∧ ∃ n ∈ sh.addrs, equiv lt (m.key_ n) k = true
  · obtain ⟨hu, hex⟩ := hc
    subst hu
    obtain ⟨n, hn, -, e⟩ := insert_existing_spec hlt inv hord k hex
    have ha := hany.2 hex
    refine ⟨_, _, _, sh, by rw [e, ha]; rfl, inv.alloc k, Ordered.alloc_keys inv hord k, ?_⟩
    have hk : sh.addrs.map (m.newNode k).1.key_ = sh.addrs.map m.key_ :=
      List.map_congr_left (fun a ha' => by
        have : a ≠ m.next := fun e => hfresh (e ▸ ha')
        simp [Mem.newNode, this])
    rw [hk]
    simp [insKey, ha]
  · have hflag : (uniq && (sh.addrs.map m.key_).any (fun x => equiv lt x k)) = false := by
      cases hu : uniq with
      | false => rfl
      | true =>
        simp only [Bool.true_and]
        cases ha : (sh.addrs.map m.key_).any (fun x => equiv lt x k) with
        | false => rfl
        | true => exact absurd ⟨hu, hany.1 ha⟩ hc
    rcases InsertKey_spec lt k uniq inv with ⟨hu, n, c, l, r, e, hs, h1, h2, -⟩ |
      ⟨m', sh', c, e, inv', hs, ha, hdir, -, hk, -⟩
    · exfalso
      refine hc ⟨hu, n, ?_, by simp [equiv, h1, h2]⟩
      rw [hs, plug_addrs]
      simp
    · obtain ⟨hsa, hp1, hp2⟩ := insert_place hlt hord hs hdir
      have hord' : Ordered lt m'.key_ sh'.addrs := by
        rw [ha, hk]
        exact Ordered_insert hlt hdir (hs ▸ hord) (hs ▸ hfresh)
      refine ⟨m', _, _, sh', by rw [e, hflag]; rfl, inv', hord', ?_⟩
      have hkeys := (keys_insert inv inv' hs ha hk hfresh).2
      rw [keys_spec inv'] at hkeys
      simp only [Option.some.injEq] at hkeys
      rw [hkeys, hsa, List.map_append]
      have hsplit := while_split (p := fun x => !lt k x)
        (A := (ctxBefore c).map m.key_) (B := (ctxAfter c).map m.key_)
        (by
          intro a ha'
          obtain ⟨b, hb, rfl⟩ := List.mem_map.1 ha'
          simp [hp1 b hb])
        (by
          intro a ha'
          obtain ⟨b, hb, rfl⟩ := List.mem_map.1 ha'
          simp [hp2 b hb])
      simp only [insKey, hflag, Bool.false_eq_true, if_false, hsplit.1, hsplit.2,
        ← List.map_append, ← hsa, hflag]
      rw [hsa, List.map_append] at hflag ⊢
      simp only [hflag, Bool.false_eq_true, if_false, hsplit.1, hsplit.2]

/-- The successive calls of `InsertKey` on a tree satisfying the invariant: they return, with
one pair per key; the flags and the keys afterwards are those computed from the keys. -/
theorem insertEach_spec {lt : K → K → Bool} (hlt : SWO lt) (uniq : Bool) :
    ∀ (ks : List K) (m : Mem K) (t : RBTree) (sh : Sh), Inv m t sh →
      Ordered lt m.key_ sh.addrs →
      ∃ m' t' res sh', insertEach lt uniq ks m t = some (m', t', res) ∧ Inv m' t' sh' ∧
        Ordered lt m'.key_ sh'.addrs ∧ res.length = ks.length ∧
        res.map Prod.snd = flagsOf lt uniq (sh.addrs.map m.key_) ks ∧
        sh'.addrs.map m'.key_ = ks.foldl (insKey lt uniq) (sh.addrs.map m.key_) := by
  intro ks
  induction ks with
  | nil =>
    intro m t sh inv hord
    exact ⟨m, t, [], sh, rfl, inv, hord, rfl, rfl, rfl⟩
  | cons k ks ih =>
    intro m t sh inv hord
    obtain ⟨m1, t1, it, sh1, e1, inv1, ord1, hk1⟩ := InsertKey_keys hlt inv hord k uniq
    obtain ⟨m', t', res, sh', e, inv', ord', hlen, hfl, hkeys⟩ := ih m1 t1 sh1 inv1 ord1
    refine ⟨m', t',
      (it, !(uniq && (sh.addrs.map m.key_).any (fun x => equiv lt x k))) :: res, sh', ?_,
      inv', ord', by simp [hlen], ?_, ?_⟩
    · simp only [insertEach, e1, Option.bind_eq_bind, Option.some_bind, e]
      rfl
    · simp only [List.map_cons, flagsOf, hfl, hk1]
    · rw [hkeys, hk1]
      rfl

theorem any_insKey {lt : K → K → Bool} (hlt : SWO lt) (KA : List K) (k y : K) :
    (insKey lt true KA k).any (fun x => equiv lt x y) =
      (KA ++ [k]).any (fun x => equiv lt x y) := by
  rw [Bool.eq_iff_iff]
  simp only [List.any_eq_true, List.mem_append, List.mem_singleton]
  by_cases hc : KA.any (fun x => equiv lt x k) = true
  · simp only [insKey, Bool.true_and, hc, if_true]
    constructor
    · rintro ⟨x, hx, e⟩
      exact ⟨x, Or.inl hx, e⟩
    · rintro ⟨x, hx | rfl, e⟩
      · exact ⟨x, hx, e⟩
      · obtain ⟨z, hz, ez⟩ := List.any_eq_true.1 hc
        exact ⟨z, hz, equiv_trans hlt ez e⟩
  · simp only [insKey, Bool.true_and, hc, Bool.false_eq_true, if_false, List.mem_append,
      List.mem_cons]
    have hmem : ∀ x, x ∈ KA ↔
        (x ∈ KA.takeWhile (fun x => !lt k x) ∨ x ∈ KA.dropWhile (fun x => !lt k x)) := by
      intro x
      rw [← List.mem_append, List.takeWhile_append_dropWhile]
    constructor
    · rintro ⟨x, hx | rfl | hx, e⟩
      · exact ⟨x, Or.inl ((hmem x).2 (Or.inl hx)), e⟩
      · exact ⟨x, Or.inr rfl, e⟩
      · exact ⟨x, Or.inl ((hmem x).2 (Or.inr hx)), e⟩
    · rintro ⟨x, hx | rfl, e⟩
      · rcases (hmem x).1 hx with h | h
        · exact ⟨x, Or.inl h, e⟩
        · exact ⟨x, Or.inr (Or.inr h), e⟩
      · exact ⟨x, Or.inr (Or.inl rfl), e⟩

/-- In unique mode the `i`-th flag is false exactly when the `i`-th key is equivalent to a
key held before the batch or to an earlier key of the batch. -/
theorem flagsOf_getElem {lt : K → K → Bool} (hlt : SWO lt) :
    ∀ (ks KA : List K) (i : Nat) (hi : i < ks.length),
      (flagsOf lt true KA ks)[i]? =
        some (!((KA ++ ks.take i).any (fun x => equiv lt x ks[i]))) := by
  intro ks
  induction ks with
  | nil =>
    intro KA i hi
    simp at hi
  | cons k ks ih =>
    intro KA i hi
    cases i with
    | zero => simp [flagsOf]
    | succ i =>
      simp only [List.length_cons, Nat.add_lt_add_iff_right] at hi
      simp only [flagsOf, List.getElem?_cons_succ, ih _ i hi, List.take_succ_cons,
        List.getElem_cons_succ, Option.some.injEq]
      congr 1
      have h1 := any_insKey hlt KA k ks[i]
      rw [List.any_append, h1, List.any_append, List.any_append]
      simp only [List.any_cons, List.any_nil, Bool.or_false]
      cases KA.any (fun x => equiv lt x ks[i]) <;> cases equiv lt k ks[i] <;> rfl

theorem flagsOf_multi (lt : K → K → Bool) :
    ∀ (ks KA : List K), ∀ b ∈ flagsOf lt false KA ks, b = true := by
  intro ks
  induction ks with
  | nil =>
    intro KA b hb
    simp [flagsOf] at hb
  | cons k ks ih =>
    intro KA b hb
    simp only [flagsOf, Bool.false_and, Bool.not_false, List.mem_cons] at hb
    rcases hb with rfl | hb
    · rfl
    · exact ih _ b hb

theorem insKey_ne_nil (lt : K → K → Bool) (uniq : Bool) (KA : List K) (k : K) :
    insKey lt uniq KA k ≠ [] := by
  unfold insKey
  split
  · rename_i h
    simp only [Bool.and_eq_true] at h
    intro e
    rw [e] at h
    simp at h
  · simp

theorem foldl_insKey_ne_nil (lt : K → K → Bool) (uniq : Bool) :
    ∀ (ks KA : List K), (KA ≠ [] ∨ ks ≠ []) → ks.foldl (insKey lt uniq) KA ≠ [] := by
  intro ks
  induction ks with
  | nil =>
    intro KA h
    rcases h with h | h
    · exact h
    · exact absurd rfl h
  | cons k ks ih =>
    intro KA _
    exact ih _ (Or.inl (insKey_ne_nil lt uniq KA k))

theorem foldl_insKey_length (lt : K → K → Bool) :
    ∀ (ks KA : List K), (ks.foldl (insKey lt false) KA).length = KA.length + ks.length := by
  intro ks
  induction ks with
  | nil =>
    intro KA
    rfl
  | cons k ks ih =>
    intro KA
    rw [List.foldl_cons, ih]
    have : (insKey lt false KA k).length = KA.length + 1 := by
      simp only [insKey, Bool.false_and, Bool.false_eq_true, if_false,
        List.length_append, List.length_cons]
      have := congrArg List.length
        (List.takeWhile_append_dropWhile (fun x => !lt k x) KA)
      rw [List.length_append] at this
      omega
    rw [this, List.length_cons]
    omega

/-- Successive insertions into a tree made of cells from `n0` on write nothing below `n0`. -/
theorem insertEach_fresh (lt : K → K → Bool) (uniq : Bool) (n0 : Nat) :
    ∀ (ks : List K) (m : Mem K) (t : RBTree) (sh : Sh), Inv m t sh →
      (∀ x ∈ t.header_ :: sh.addrs, n0 ≤ x) →
      ∀ m' t' res, insertEach lt uniq ks m t = some (m', t', res) →
        AgreeOn (fun x => x < n0) m m' ∧ m.next ≤ m'.next := by
  intro ks
  induction ks with
  | nil =>
    intro m t sh _ _ m' t' res e
    simp only [insertEach, Option.some.injEq, Prod.mk.injEq] at e
    obtain ⟨rfl, -, -⟩ := e
    exact ⟨AgreeOn.refl _ m, Nat.le_refl _⟩
  | cons k ks ih =>
    intro m t sh inv hfr m' t' res e
    simp only [insertEach, Option.bind_eq_bind] at e
    cases hi : InsertKey lt m t k uniq with
    | none => simp [hi] at e
    | some r =>
      obtain ⟨m1, t1, it, ok⟩ := r
      rw [hi] at e
      simp only [Option.some_bind] at e
      cases hs : insertEach lt uniq ks m1 t1 with
      | none => simp [hs] at e
      | some s =>
        obtain ⟨m2, t2, res2⟩ := s
        rw [hs] at e
        simp only [Option.some_bind, Option.pure_def, Option.some.injEq, Prod.mk.injEq] at e
        obtain ⟨rfl, -, -⟩ := e
        obtain ⟨ag, hn⟩ := InsertKey_frame lt inv hi
        have hb : t.header_ < m.next := inv.wf.bound _ (List.mem_cons_self _ _)
        have hh := hfr _ (List.mem_cons_self _ _)
        have ag' : AgreeOn (fun x => x < n0) m m1 :=
          ag.mono (fun x hx => ⟨by omega, fun hc => by have := hfr x hc; omega⟩)
        have key : ∃ sh1, Inv m1 t1 sh1 ∧ ∀ x ∈ t1.header_ :: sh1.addrs, n0 ≤ x := by
          rcases InsertKey_spec lt k uniq inv with ⟨-, n, c, l, r, e3, -⟩ |
            ⟨m3, sh3, c, e3, inv3, hs3, ha3, -⟩
          · rw [hi] at e3
            simp only [Option.some.injEq, Prod.mk.injEq] at e3
            obtain ⟨rfl, rfl, -, -⟩ := e3
            exact ⟨sh, inv.alloc k, hfr⟩
          · rw [hi] at e3
            simp only [Option.some.injEq, Prod.mk.injEq] at e3
            obtain ⟨rfl, rfl, -, -⟩ := e3
            refine ⟨sh3, inv3, ?_⟩
            intro x hx
            rcases List.mem_cons.1 hx with rfl | hx
            · exact hh
            · rw [ha3, plug_addrs] at hx
              have hsa : sh.addrs = ctxBefore c ++ ctxAfter c := by
                rw [hs3, plug_addrs]
                simp
              simp only [Sh.addrs_node, Sh.addrs_nil, List.nil_append, List.append_nil,
                List.mem_append, List.mem_cons, List.not_mem_nil, or_false] at hx
              rcases hx with (hx | hx) | hx
              · exact hfr x (List.mem_cons_of_mem _ (by rw [hsa]; simp [hx]))
              · omega
              · exact hfr x (List.mem_cons_of_mem _ (by rw [hsa]; simp [hx]))
        obtain ⟨sh1, inv1, hfr1⟩ := key
        obtain ⟨ag2, hn2⟩ := ih m1 t1 sh1 inv1 hfr1 _ _ _ hs
        exact ⟨ag'.trans ag2, by omega⟩

/-- C21: `Insert_Many(k1..kn)` is the sequence of calls `InsertKey(ki, true)` in order with the
pairs they return, and `Insert_Many_Multi(k1..kn)` the sequence of calls
`InsertKey(ki, false)`, on any state. On a reachable tree both return, with `n` pairs; in
unique mode the `i`-th flag is false exactly when `ki` is equivalent to a key the tree held or
to an earlier key of the batch, in duplicate mode every flag is true; the keys afterwards are
the keys before with the `ki` put in one by one. An empty set filled by `insert_many` is in
the same state as the set made by the initializer-list constructor from the same memory; and
when the second set is made after the first in the same memory, both hold the same keys in
the same order, have the same size, and (the list not being empty) `operator==` returns
true. -/
theorem C21_insert_many [Inhabited K] [BEq K] (hrefl : ∀ k : K, (k == k) = true)
    {lt : K → K → Bool} (hlt : SWO lt) {m : Mem K} {t : RBTree} (hr : Reachable lt m t)
    (ks : List K) :
    Insert_Many lt m t ks = insertEach lt true ks m t ∧
    Insert_Many_Multi lt m t ks = insertEach lt false ks m t ∧
    (∃ m' t' res KA, Insert_Many lt m t ks = some (m', t', res) ∧ Reachable lt m' t' ∧
      keys m t = some KA ∧ res.length = ks.length ∧
      (∀ i (hi : i < ks.length), ∃ it, res[i]? =
        some (it, !((KA ++ ks.take i).any (fun x => equiv lt x ks[i])))) ∧
      keys m' t' = some (ks.foldl (insKey lt true) KA)) ∧
    (∃ m' t' res KA, Insert_Many_Multi lt m t ks = some (m', t', res) ∧ Reachable lt m' t' ∧
      keys m t = some KA ∧ res.length = ks.length ∧ (∀ p ∈ res, p.2 = true) ∧
      Size t' = Size t + ks.length ∧ keys m' t' = some (ks.foldl (insKey lt false) KA)) ∧
    (∀ m0 : Mem K, (Insert_Many lt (RBTree.mk0 m0).1 (RBTree.mk0 m0).2 ks).map
      (fun r => (r.1, r.2.1)) = insertItems lt true ks (RBTree.mk0 m0)) ∧
    (∀ m0 : Mem K, ∃ m1 t1 res m2 t2 KS,
      Insert_Many lt (RBTree.mk0 m0).1 (RBTree.mk0 m0).2 ks = some (m1, t1, res) ∧
      insertItems lt true ks (RBTree.mk0 m1) = some (m2, t2) ∧
      keys m2 t1 = some KS ∧ keys m2 t2 = some KS ∧ Size t1 = Size t2 ∧
      (ks ≠ [] → opEq m2 t1 t2 = some true)) := by
  have hIM : ∀ (uniq : Bool) (m : Mem K) (t : RBTree),
      InsertManyLoop lt uniq ks m t [] = insertEach lt uniq ks m t := by
    intro uniq m t
    rw [InsertManyLoop_eq]
    cases insertEach lt uniq ks m t with
    | none => rfl
    | some s => simp
  obtain ⟨sh, inv, hord⟩ := reach_inv hlt hr
  have hreach : ∀ (uniq : Bool) m' t' res, insertEach lt uniq ks m t = some (m', t', res) →
      Reachable lt m' t' := by
    intro uniq m' t' res e
    have := insertEach_items lt uniq ks m t
    rw [e] at this
    exact insertItems_reachable lt uniq ks (m, t) (m', t') hr this.symm
  refine ⟨hIM true m t, hIM false m t, ?_, ?_, ?_, ?_⟩
  · obtain ⟨m', t', res, sh', e, inv', -, hlen, hfl, hkeys⟩ :=
      insertEach_spec hlt true ks m t sh inv hord
    refine ⟨m', t', res, sh.addrs.map m.key_, (hIM true m t).trans e, hreach true _ _ _ e,
      keys_spec inv, hlen, ?_, by rw [keys_spec inv', hkeys]⟩
    intro i hi
    have h1 := flagsOf_getElem hlt ks (sh.addrs.map m.key_) i hi
    rw [← hfl, List.getElem?_map] at h1
    cases hres : res[i]? with
    | none => simp [hres] at h1
    | some p =>
      rw [hres] at h1
      simp only [Option.map_some', Option.some.injEq] at h1
      exact ⟨p.1, by rw [← h1]⟩
  · obtain ⟨m', t', res, sh', e, inv', -, hlen, hfl, hkeys⟩ :=
      insertEach_spec hlt false ks m t sh inv hord
    refine ⟨m', t', res, sh.addrs.map m.key_, (hIM false m t).trans e, hreach false _ _ _ e,
      keys_spec inv, hlen, ?_, ?_, by rw [keys_spec inv', hkeys]⟩
    · intro p hp
      exact flagsOf_multi lt ks _ p.2 (hfl ▸ List.mem_map_of_mem Prod.snd hp)
    · have h1 : (sh'.addrs.map m'.key_).length = (sh.addrs.map m.key_).length + ks.length := by
        rw [hkeys]
        exact foldl_insKey_length lt ks _
      simp only [List.length_map] at h1
      simp only [Size, inv'.size, inv.size, h1]
  · intro m0
    show (InsertManyLoop lt true ks _ _ []).map _ = _
    rw [hIM]
    exact insertEach_items lt true ks _ _
  · intro m0
    have inv0 : Inv (RBTree.mk0 m0).1 (RBTree.mk0 m0).2 Sh.nil := Inv_mk0 m0
    obtain ⟨m1, t1, res, sh1, e1, inv1, -, -, -, hk1⟩ :=
      insertEach_spec hlt true ks _ _ Sh.nil inv0 List.Pairwise.nil
    have inv0' : Inv (RBTree.mk0 m1).1 (RBTree.mk0 m1).2 Sh.nil := Inv_mk0 m1
    obtain ⟨m2, t2, res2, sh2, e2, inv2, -, -, -, hk2⟩ :=
      insertEach_spec hlt true ks _ _ Sh.nil inv0' List.Pairwise.nil
    obtain ⟨ag2, hn2⟩ := insertEach_fresh lt true m1.next ks _ _ Sh.nil inv0'
      (fun x hx => by
        simp only [Sh.addrs_nil, List.mem_singleton] at hx
        subst hx
        exact Nat.le_refl _) _ _ _ e2
    have ag1 : AgreeOn (fun x => x < m1.next) m1 (RBTree.mk0 m1).1 :=
      (AgreeOn.refl (fun x => x < m1.next) m1).offNew default (Nat.lt_irrefl _)
    have ag := ag1.trans ag2
    have hn : m1.next ≤ m2.next := by
      have : (RBTree.mk0 m1).1.next = m1.next + 1 := rfl
      omega
    have inv1' : Inv m2 t1 sh1 := inv1.agree_inv ag inv1.wf.bound hn
    have hkey1 : sh1.addrs.map m2.key_ = sh1.addrs.map m1.key_ :=
      ag.map_key (fun x hx => inv1.wf.bound x (List.mem_cons_of_mem _ hx))
    have hitems : insertItems lt true ks (RBTree.mk0 m1) = some (m2, t2) := by
      have := insertEach_items lt true ks (RBTree.mk0 m1).1 (RBTree.mk0 m1).2
      rw [e2] at this
      exact this.symm
    have hsame : sh1.addrs.map m2.key_ = sh2.addrs.map m2.key_ := by
      rw [hkey1, hk1, hk2]
      rfl
    refine ⟨m1, t1, res, m2, t2, sh1.addrs.map m2.key_, (hIM true _ _).trans e1, hitems,
      keys_spec inv1', by rw [keys_spec inv2, hsame], ?_, ?_⟩
    · have := congrArg List.length hsame
      simp only [List.length_map] at this
      simp only [Size, inv1'.size, inv2.size, this]
    · intro hne
      have hne2 : ¬ (sh1 = Sh.nil ∧ sh2 = Sh.nil) := by
        rintro ⟨-, h2⟩
        have h3 := foldl_insKey_ne_nil lt true ks [] (Or.inr hne)
        apply h3
        have : (Sh.nil.addrs.map (RBTree.mk0 m1).1.key_ : List K) = [] := rfl
        rw [this] at hk2
        rw [← hk2, h2]
        rfl
      rw [((opEq_spec inv1'.wf inv2.wf inv1'.size inv2.size).2 hne2).1, hsame,
        list_beq_refl hrefl]

/-- Witness of C21: the keys 3, 7, 7 inserted at once into the set `{5, 3, 8, 1, 4}`. -/
theorem C21_witness : (∀ k : Nat, (k == k) = true) ∧ SWO ltN ∧
    Reachable ltN exSet.1 exSet.2 ∧
    (Insert_Many ltN exSet.1 exSet.2 [3, 7, 7] = insertEach ltN true [3, 7, 7] exSet.1 exSet.2 ∧
    Insert_Many_Multi ltN exSet.1 exSet.2 [3, 7, 7] =
      insertEach ltN false [3, 7, 7] exSet.1 exSet.2 ∧
    (∃ m' t' res KA, Insert_Many ltN exSet.1 exSet.2 [3, 7, 7] = some (m', t', res) ∧
      Reachable ltN m' t' ∧ keys exSet.1 exSet.2 = some KA ∧
      res.length = [3, 7, 7].length ∧
      (∀ i (hi : i < [3, 7, 7].length), ∃ it, res[i]? =
        some (it, !((KA ++ [3, 7, 7].take i).any (fun x => equiv ltN x [3, 7, 7][i])))) ∧
      keys m' t' = some ([3, 7, 7].foldl (insKey ltN true) KA)) ∧
    (∃ m' t' res KA, Insert_Many_Multi ltN exSet.1 exSet.2 [3, 7, 7] = some (m', t', res) ∧
      Reachable ltN m' t' ∧ keys exSet.1 exSet.2 = some KA ∧
      res.length = [3, 7, 7].length ∧ (∀ p ∈ res, p.2 = true) ∧
      Size t' = Size exSet.2 + [3, 7, 7].length ∧
      keys m' t' = some ([3, 7, 7].foldl (insKey ltN false) KA)) ∧
    (∀ m0 : Mem Nat, (Insert_Many ltN (RBTree.mk0 m0).1 (RBTree.mk0 m0).2 [3, 7, 7]).map
      (fun r => (r.1, r.2.1)) = insertItems ltN true [3, 7, 7] (RBTree.mk0 m0)) ∧
    (∀ m0 : Mem Nat, ∃ m1 t1 res m2 t2 KS,
      Insert_Many ltN (RBTree.mk0 m0).1 (RBTree.mk0 m0).2 [3, 7, 7] = some (m1, t1, res) ∧
      insertItems ltN true [3, 7, 7] (RBTree.mk0 m1) = some (m2, t2) ∧
      keys m2 t1 = some KS ∧ keys m2 t2 = some KS ∧ Size t1 = Size t2 ∧
      (([3, 7, 7] : List Nat) ≠ [] → opEq m2 t1 t2 = some true))) :=
  ⟨fun k => beq_self_eq_true k, swo_ltN, exSet_reachable,
    C21_insert_many (fun k => beq_self_eq_true k) swo_ltN exSet_reachable [3, 7, 7]⟩

/-- The last round of the fix-up loop with a black uncle, the node on the outer side: the
node is still red afterwards, and it is not the root. -/
theorem fix_zigzigL_red {m : Mem K} {hdr x p g : Nat} {c : List Frame} {l r fsib u : Sh}
    (fuel : Nat)
    (h : FixInv m hdr (Frame.left p fsib :: Frame.left g u :: c) (Sh.node l x r) x)
    (hr : m.red_ p = true) (hu : isBlk m.red_ u) :
    ∃ m', InsertFixupLoop hdr (fuel + 1 + 1) m x = some (m', x) ∧ m'.red_ x = true ∧
      Root m' hdr ≠ some x := by
  obtain ⟨wf, -, hx, norr, bal, cnorr, cbal, croot⟩ := h
  have wfp := wf.up_left
  have wfg := wfp.up_left
  have hnd := wfg.nodup
  simp only [Sh.addrs_node, List.nodup_cons, List.mem_cons, List.mem_append, List.nodup_append,
    List.append_assoc, List.cons_append, not_or, List.disjoint_cons_right,
    List.disjoint_append_right, List.disjoint_cons_left, List.disjoint_append_left] at hnd
  have hxr : m.right_ p ≠ some x := by
    rw [wfp.right_eq]; intro e
    have := Sh.ptr_mem e
    simp [hnd] at this
  have hpx : m.parent_ x = some p := wf.parent_eq
  have hpp : m.parent_ p = some g := wfp.parent_eq
  have hstep := InsertFixupLoop_zigzigL (fuel + 1) wf.root_cons hpx hr hpp
    wfg.left_eq (by rw [wfg.right_eq]; exact (nonNullRed_ptr m u).2 hu) hxr
  have wfg2 : WFz ((m.setRed p false).setRed g true) hdr c
      (Sh.node (Sh.node (Sh.node l x r) p fsib) g u) :=
    (WFz.setRed_iff _ _).2 ((WFz.setRed_iff _ _).2 wfg)
  obtain ⟨m3, hrot, wf3, hred3, hkey3, hnext3⟩ := RotateRight_spec wfg2
  have wfx3 : WFz m3 hdr (Frame.left p (Sh.node fsib g u) :: c) (Sh.node l x r) :=
    wf3.down_left
  have hpx3 : m3.parent_ x = some p := wfx3.parent_eq
  have hexit := @InsertFixupLoop_exit_black K m3 hdr x p fuel wfx3.root_cons hpx3
    (by simp [hred3, hnd])
  refine ⟨m3, by rw [hstep, hrot]; simpa using hexit, ?_, wfx3.root_cons⟩
  rw [hred3]
  simp [hnd, hx]

/-- The last round of the fix-up loop with a black uncle, the node on the outer side: the
node is still red afterwards, and it is not the root. -/
theorem fix_zigzigR_red {m : Mem K} {hdr x p g : Nat} {c : List Frame} {l r fsib u : Sh}
    (fuel : Nat)
    (h : FixInv m hdr (Frame.right fsib p :: Frame.right u g :: c) (Sh.node l x r) x)
    (hr : m.red_ p = true) (hu : isBlk m.red_ u) :
    ∃ m', InsertFixupLoop hdr (fuel + 1 + 1) m x = some (m', x) ∧ m'.red_ x = true ∧
      Root m' hdr ≠ some x := by
  obtain ⟨wf, -, hx, norr, bal, cnorr, cbal, croot⟩ := h
  have wfp := wf.up_right
  have wfg := wfp.up_right
  have hnd := wfg.nodup
  simp only [Sh.addrs_node, List.nodup_cons, List.mem_cons, List.mem_append, List.nodup_append,
    List.append_assoc, List.cons_append, not_or, List.disjoint_cons_right,
    List.disjoint_append_right, List.disjoint_cons_left, List.disjoint_append_left] at hnd
  have hxl : m.left_ p ≠ some x := by
    rw [wfp.left_eq]; intro e
    have := Sh.ptr_mem e
    simp [hnd] at this
  have hgl : m.left_ g ≠ some p := by
    rw [wfg.left_eq]; intro e
    have := Sh.ptr_mem e
    simp [hnd] at this
  have hpx : m.parent_ x = some p := wf.parent_eq
  have hpp : m.parent_ p = some g := wfp.parent_eq
  have hstep := InsertFixupLoop_zigzigR (fuel + 1) wf.root_cons hpx hr hpp
    hgl (by rw [wfg.left_eq]; exact (nonNullRed_ptr m u).2 hu) hxl
  have wfg2 : WFz ((m.setRed p false).setRed g true) hdr c
      (Sh.node u g (Sh.node fsib p (Sh.node l x r))) :=
    (WFz.setRed_iff _ _).2 ((WFz.setRed_iff _ _).2 wfg)
  obtain ⟨m3, hrot, wf3, hred3, hkey3, hnext3⟩ := RotateLeft_spec wfg2
  have wfx3 : WFz m3 hdr (Frame.right (Sh.node u g fsib) p :: c) (Sh.node l x r) :=
    wf3.down_right
  have hpx3 : m3.parent_ x = some p := wfx3.parent_eq
  have hexit := @InsertFixupLoop_exit_black K m3 hdr x p fuel wfx3.root_cons hpx3
    (by simp [hred3, hnd])
  refine ⟨m3, by rw [hstep, hrot]; simpa using hexit, ?_, wfx3.root_cons⟩
  rw [hred3]
  simp [hnd, hx]

/-- The last round of the fix-up loop with a black uncle, the node on the inner side: the
former parent is red afterwards, and it is not the root. -/
theorem fix_zigzagL_red {m : Mem K} {hdr x p g : Nat} {c : List Frame} {l r fsib u : Sh}
    (fuel : Nat)
    (h : FixInv m hdr (Frame.right fsib p :: Frame.left g u :: c) (Sh.node l x r) x)
    (hr : m.red_ p = true) (hu : isBlk m.red_ u) :
    ∃ m', InsertFixupLoop hdr (fuel + 1 + 1) m x = some (m', p) ∧ m'.red_ p = true ∧
      Root m' hdr ≠ some p := by
  obtain ⟨wf, -, hx, norr, bal, cnorr, cbal, croot⟩ := h
  have wfp := wf.up_right
  have wfg := wfp.up_left
  have hnd := wfg.nodup
  simp only [Sh.addrs_node, List.nodup_cons, List.mem_cons, List.mem_append, List.nodup_append,
    List.append_assoc, List.cons_append, not_or, List.disjoint_cons_right,
    List.disjoint_append_right, List.disjoint_cons_left, List.disjoint_append_left] at hnd
  obtain ⟨m1, hrot, wf1, hred1, hkey1, hnext1⟩ := RotateLeft_spec wfp
  have wfp1 : WFz m1 hdr (Frame.left x r :: Frame.left g u :: c) (Sh.node fsib p l) :=
    wf1.down_left
  have wfx1 := wfp1.up_left
  have wfg1 := wfx1.up_left
  have hpx : m.parent_ x = some p := wf.parent_eq
  have hpp : m.parent_ p = some g := wfp.parent_eq
  have hpp1 : m1.parent_ p = some x := wfp1.parent_eq
  have hpx1 : m1.parent_ x = some g := wfx1.parent_eq
  have hunc : m.nonNullRed (m.right_ g) = false := by
    rw [wfg.right_eq]; exact (nonNullRed_ptr m u).2 hu
  have hunc1 : m1.nonNullRed (m1.right_ g) = false := by
    rw [wfg1.right_eq]; exact (nonNullRed_ptr m1 u).2 (by rw [hred1]; exact hu)
  have hstep := InsertFixupLoop_zigzagL (fuel + 1) wf.root_cons hpx hr hpp wfg.left_eq hunc
    wfp.right_eq hrot hpp1 hpx1
  have hxr1 : m1.right_ x ≠ some p := by
    rw [wfx1.right_eq]; intro e
    have := Sh.ptr_mem e
    simp [hnd] at this
  have hstep1 := InsertFixupLoop_zigzigL (fuel + 1) wfp1.root_cons hpp1
    (by rw [hred1]; exact hx) hpx1 wfg1.left_eq hunc1 hxr1
  simp only [CtxNoRR, CtxBal, CtxRootBlk, Frame.addr_left, Frame.sib_left, Frame.addr_right,
    Frame.sib_right, hr, ctxTopBlk, forall_true_left, ite_true, Nat.add_zero] at cnorr cbal croot
  obtain ⟨nf, ⟨bf, bg⟩, nu, hgu, cn⟩ := cnorr
  obtain ⟨e1, bf', e2, bu, cb⟩ := cbal
  simp only [NoRR_node, Bal_node, bh_node, hx, ite_true, Nat.add_zero, forall_true_left]
    at norr bal e1 e2 cb
  have inv1 : FixInv m1 hdr (Frame.left x r :: Frame.left g u :: c) (Sh.node fsib p l) p := by
    refine ⟨wfp1, rfl, by rw [hred1]; exact hr, ?_, ?_, ?_, ?_, ?_⟩
    · rw [hred1]
      simp only [NoRR_node]
      exact ⟨fun _ => ⟨bf, norr.1.1⟩, nf, norr.2.1⟩
    · rw [hred1]
      simp only [Bal_node]
      exact ⟨e1, bf', bal.2.1⟩
    · rw [hred1]
      simp only [CtxNoRR, Frame.addr_left, Frame.sib_left, ctxTopBlk]
      exact ⟨norr.2.2, fun _ => ⟨norr.1.2, bg⟩, nu, hgu, cn⟩
    · rw [hred1]
      simp only [CtxBal, bh_node, hr, hx, ite_true, Nat.add_zero]
      exact ⟨by omega, bal.2.2, by omega, bu, by rw [e1]; exact cb⟩
    · rw [hred1]
      exact croot
  obtain ⟨m', hl, hred', hroot'⟩ := fix_zigzigL_red fuel inv1 (by rw [hred1]; exact hx)
    (by rw [hred1]; exact hu)
  refine ⟨m', ?_, hred', hroot'⟩
  rw [hstep, ← hstep1]
  exact hl

/-- The last round of the fix-up loop with a black uncle, the node on the inner side: the
former parent is red afterwards, and it is not the root. -/
theorem fix_zigzagR_red {m : Mem K} {hdr x p g : Nat} {c : List Frame} {l r fsib u : Sh}
    (fuel : Nat)
    (h : FixInv m hdr (Frame.left p fsib :: Frame.right u g :: c) (Sh.node l x r) x)
    (hr : m.red_ p = true) (hu : isBlk m.red_ u) :
    ∃ m', InsertFixupLoop hdr (fuel + 1 + 1) m x = some (m', p) ∧ m'.red_ p = true ∧
      Root m' hdr ≠ some p := by
  obtain ⟨wf, -, hx, norr, bal, cnorr, cbal, croot⟩ := h
  have wfp := wf.up_left
  have wfg := wfp.up_right
  have hnd := wfg.nodup
  simp only [Sh.addrs_node, List.nodup_cons, List.mem_cons, List.mem_append, List.nodup_append,
    List.append_assoc, List.cons_append, not_or, List.disjoint_cons_right,
    List.disjoint_append_right, List.disjoint_cons_left, List.disjoint_append_left] at hnd
  obtain ⟨m1, hrot, wf1, hred1, hkey1, hnext1⟩ := RotateRight_spec wfp
  have wfp1 : WFz m1 hdr (Frame.right l x :: Frame.right u g :: c) (Sh.node r p fsib) :=
    wf1.down_right
  have wfx1 := wfp1.up_right
  have wfg1 := wfx1.up_right
  have hpx : m.parent_ x = some p := wf.parent_eq
  have hpp : m.parent_ p = some g := wfp.parent_eq
  have hpp1 : m1.parent_ p = some x := wfp1.parent_eq
  have hpx1 : m1.parent_ x = some g := wfx1.parent_eq
  have hgl : m.left_ g ≠ some p := by
    rw [wfg.left_eq]; intro e
    have := Sh.ptr_mem e
    simp [hnd] at this
  have hgl1 : m1.left_ g ≠ some x := by
    rw [wfg1.left_eq]; intro e
    have := Sh.ptr_mem e
    simp [hnd] at this
  have hunc : m.nonNullRed (m.left_ g) = false := by
    rw [wfg.left_eq]; exact (nonNullRed_ptr m u).2 hu
  have hunc1 : m1.nonNullRed (m1.left_ g) = false := by
    rw [wfg1.left_eq]; exact (nonNullRed_ptr m1 u).2 (by rw [hred1]; exact hu)
  have hstep := InsertFixupLoop_zigzagR (fuel + 1) wf.root_cons hpx hr hpp hgl hunc
    wfp.left_eq hrot hpp1 hpx1
  have hxl1 : m1.left_ x ≠ some p := by
    rw [wfx1.left_eq]; intro e
    have := Sh.ptr_mem e
    simp [hnd] at this
  have hstep1 := InsertFixupLoop_zigzigR (fuel + 1) wfp1.root_cons hpp1
    (by rw [hred1]; exact hx) hpx1 hgl1 hunc1 hxl1
  simp only [CtxNoRR, CtxBal, CtxRootBlk, Frame.addr_left, Frame.sib_left, Frame.addr_right,
    Frame.sib_right, hr, ctxTopBlk, forall_true_left, ite_true, Nat.add_zero] at cnorr cbal croot
  obtain ⟨nf, ⟨bf, bg⟩, nu, hgu, cn⟩ := cnorr
  obtain ⟨e1, bf', e2, bu, cb⟩ := cbal
  simp only [NoRR_node, Bal_node, bh_node, hx, ite_true, Nat.add_zero, forall_true_left]
    at norr bal e1 e2 cb
  have inv1 : FixInv m1 hdr (Frame.right l x :: Frame.right u g :: c) (Sh.node r p fsib) p := by
    refine ⟨wfp1, rfl, by rw [hred1]; exact hr, ?_, ?_, ?_, ?_, ?_⟩
    · rw [hred1]
      simp only [NoRR_node]
      exact ⟨fun _ => ⟨norr.1.2, bf⟩, norr.2.2, nf⟩
    · rw [hred1]
      simp only [Bal_node]
      exact ⟨by omega, bal.2.2, bf'⟩
    · rw [hred1]
      simp only [CtxNoRR, Frame.addr_right, Frame.sib_right, ctxTopBlk]
      exact ⟨norr.2.1, fun _ => ⟨norr.1.1, bg⟩, nu, hgu, cn⟩
    · rw [hred1]
      simp only [CtxBal, bh_node, hr, hx, ite_true, Nat.add_zero]
      exact ⟨by omega, bal.2.1, by omega, bu, by rw [← bal.1]; exact cb⟩
    · rw [hred1]
      exact croot
  obtain ⟨m', hl, hred', hroot'⟩ := fix_zigzigR_red fuel inv1 (by rw [hred1]; exact hx)
    (by rw [hred1]; exact hu)
  refine ⟨m', ?_, hred', hroot'⟩
  rw [hstep, ← hstep1]
  exact hl

theorem red_after_recolor {m : Mem K} {p ua g x : Nat} (hx : m.red_ x = true) (h1 : x ≠ p)
    (h2 : x ≠ ua) (h3 : x ≠ g) :
    (((m.setRed p false).setRed ua false).setRed g true).red_ x = true := by
  simp [Mem.setRed, upd, h1, h2, h3, hx]

set_option maxHeartbeats 1000000 in
/-- The fix-up loop entered at a red node that is not the root, or that has a red node below
it, returns with a red node that is not the root. -/
theorem InsertFixupLoop_red (hdr : Nat) :
    ∀ (n : Nat) (c : List Frame) (m : Mem K) (fuel : Nat) (l : Sh) (x : Nat) (r : Sh),
      c.length ≤ n → c.length < fuel → FixInv m hdr c (Sh.node l x r) x →
      (c = [] → ∃ y, y ∈ l.addrs ++ r.addrs ∧ m.red_ y = true) →
      ∃ m' node' y, InsertFixupLoop hdr fuel m x = some (m', node') ∧
        y ∈ (plug c (Sh.node l x r)).addrs ∧ m'.red_ y = true ∧ Root m' hdr ≠ some y := by
  have hroot : ∀ (m : Mem K) (fuel : Nat) (l : Sh) (x : Nat) (r : Sh), 0 < fuel →
      FixInv m hdr [] (Sh.node l x r) x → (∃ y, y ∈ l.addrs ++ r.addrs ∧ m.red_ y = true) →
      ∃ m' node' y, InsertFixupLoop hdr fuel m x = some (m', node') ∧
        y ∈ (plug [] (Sh.node l x r)).addrs ∧ m'.red_ y = true ∧ Root m' hdr ≠ some y := by
    intro m fuel l x r hf h ⟨y, hy, hyr⟩
    obtain ⟨k, rfl⟩ : ∃ k, fuel = k + 1 := ⟨fuel - 1, by omega⟩
    have hnd := h.wf.nodup
    simp only [Sh.addrs_node, List.nodup_cons, List.mem_cons, List.mem_append,
      List.nodup_append, List.append_assoc, List.cons_append, not_or,
      List.disjoint_cons_right, List.disjoint_append_right, List.disjoint_cons_left,
      List.disjoint_append_left] at hnd
    refine ⟨m, x, y, InsertFixupLoop_exit_root k h.wf.root_nil, ?_, hyr, ?_⟩
    · simp only [plug, Sh.addrs_node, List.mem_append, List.mem_cons]
      rcases List.mem_append.1 hy with h1 | h1
      · exact Or.inl h1
      · exact Or.inr (Or.inr h1)
    · rw [h.wf.root_nil]
      simp only [Sh.ptr_node, ne_eq, Option.some.injEq]
      rintro rfl
      rcases List.mem_append.1 hy with h1 | h1
      · simp [h1] at hnd
      · simp [h1] at hnd
  intro n
  induction n with
  | zero =>
    intro c m fuel l x r hn hf h hy
    have hc : c = [] := List.length_eq_zero.1 (Nat.le_zero.1 hn)
    subst hc
    exact hroot m fuel l x r (by simpa using hf) h (hy rfl)
  | succ n ih =>
    intro c m fuel l x r hn hf h hy
    rcases c with _ | ⟨f, c⟩
    · exact hroot m fuel l x r (by simpa using hf) h (hy rfl)
    · obtain ⟨k, rfl⟩ : ∃ k, fuel = k + 1 := ⟨fuel - 1, by simp at hf; omega⟩
      have hxm : x ∈ (plug (f :: c) (Sh.node l x r)).addrs := by
        rw [plug_addrs]
        simp
      cases hb : m.red_ f.addr
      · exact ⟨m, x, x, InsertFixupLoop_exit_black k h.wf.root_cons h.wf.parent_eq hb, hxm,
          h.red, h.wf.root_cons⟩
      · rcases c with _ | ⟨g, c⟩
        · have := h.croot
          simp [CtxRootBlk, hb] at this
        · obtain ⟨k, rfl⟩ : ∃ j, k = j + 1 := ⟨k - 1, by simp at hf; omega⟩
          simp only [List.length_cons] at hn hf
          cases f with
          | left p fsib =>
            have hpm : p ∈ (plug (Frame.left p fsib :: g :: c) (Sh.node l x r)).addrs := by
              rw [plug_addrs]
              simp [ctxBefore, ctxAfter]
            cases g with
            | left g u =>
              rcases isBlk_or_red m.red_ u with hu | ⟨ul, ua, ur, rfl, hur⟩
              · obtain ⟨m', hl, hred, hrt⟩ := fix_zigzigL_red k h hb hu
                exact ⟨m', x, x, hl, hxm, hred, hrt⟩
              · obtain ⟨hstep, inv⟩ := fix_recolorLL (k + 1) h hb hur
                have hnd := inv.wf.nodup
                simp only [Sh.addrs_node, List.nodup_cons, List.mem_cons, List.mem_append,
                  List.nodup_append, List.append_assoc, List.cons_append, not_or,
                  List.disjoint_cons_right, List.disjoint_append_right,
                  List.disjoint_cons_left, List.disjoint_append_left] at hnd
                obtain ⟨m', node', y, hl, hy', hred, hrt⟩ :=
                  ih c _ (k + 1) _ g _ (by omega) (by omega) inv
                    (fun _ => ⟨x, by simp, red_after_recolor h.red (by tauto) (by tauto)
                      (by tauto)⟩)
                exact ⟨m', node', y, by rw [hstep]; exact hl, by simpa [plug] using hy', hred,
                  hrt⟩
            | right u g =>
              rcases isBlk_or_red m.red_ u with hu | ⟨ul, ua, ur, rfl, hur⟩
              · obtain ⟨m', hl, hred, hrt⟩ := fix_zigzagR_red k h hb hu
                exact ⟨m', p, p, hl, hpm, hred, hrt⟩
              · obtain ⟨hstep, inv⟩ := fix_recolorLR (k + 1) h hb hur
                have hnd := inv.wf.nodup
                simp only [Sh.addrs_node, List.nodup_cons, List.mem_cons, List.mem_append,
                  List.nodup_append, List.append_assoc, List.cons_append, not_or,
                  List.disjoint_cons_right, List.disjoint_append_right,
                  List.disjoint_cons_left, List.disjoint_append_left] at hnd
                obtain ⟨m', node', y, hl, hy', hred, hrt⟩ :=
                  ih c _ (k + 1) _ g _ (by omega) (by omega) inv
                    (fun _ => ⟨x, by simp, red_after_recolor h.red (by tauto) (by tauto)
                      (by tauto)⟩)
                exact ⟨m', node', y, by rw [hstep]; exact hl, by simpa [plug] using hy', hred,
                  hrt⟩
          | right fsib p =>
            have hpm : p ∈ (plug (Frame.right fsib p :: g :: c) (Sh.node l x r)).addrs := by
              rw [plug_addrs]
              simp [ctxBefore, ctxAfter]
            cases g with
            | left g u =>
              rcases isBlk_or_red m.red_ u with hu | ⟨ul, ua, ur, rfl, hur⟩
              · obtain ⟨m', hl, hred, hrt⟩ := fix_zigzagL_red k h hb hu
                exact ⟨m', p, p, hl, hpm, hred, hrt⟩
              · obtain ⟨hstep, inv⟩ := fix_recolorRL (k + 1) h hb hur
                have hnd := inv.wf.nodup
                simp only [Sh.addrs_node, List.nodup_cons, List.mem_cons, List.mem_append,
                  List.nodup_append, List.append_assoc, List.cons_append, not_or,
                  List.disjoint_cons_right, List.disjoint_append_right,
                  List.disjoint_cons_left, List.disjoint_append_left] at hnd
                obtain ⟨m', node', y, hl, hy', hred, hrt⟩ :=
                  ih c _ (k + 1) _ g _ (by omega) (by omega) inv
                    (fun _ => ⟨x, by simp, red_after_recolor h.red (by tauto) (by tauto)
                      (by tauto)⟩)
                exact ⟨m', node', y, by rw [hstep]; exact hl, by simpa [plug] using hy', hred,
                  hrt⟩
            | right u g =>
              rcases isBlk_or_red m.red_ u with hu | ⟨ul, ua, ur, rfl, hur⟩
              · obtain ⟨m', hl, hred, hrt⟩ := fix_zigzigR_red k h hb hu
                exact ⟨m', x, x, hl, hxm, hred, hrt⟩
              · obtain ⟨hstep, inv⟩ := fix_recolorRR (k + 1) h hb hur
                have hnd := inv.wf.nodup
                simp only [Sh.addrs_node, List.nodup_cons, List.mem_cons, List.mem_append,
                  List.nodup_append, List.append_assoc, List.cons_append, not_or,
                  List.disjoint_cons_right, List.disjoint_append_right,
                  List.disjoint_cons_left, List.disjoint_append_left] at hnd
                obtain ⟨m', node', y, hl, hy', hred, hrt⟩ :=
                  ih c _ (k + 1) _ g _ (by omega) (by omega) inv
                    (fun _ => ⟨x, by simp, red_after_recolor h.red (by tauto) (by tauto)
                      (by tauto)⟩)
                exact ⟨m', node', y, by rw [hstep]; exact hl, by simpa [plug] using hy', hred,
                  hrt⟩

/-- The fix-up of an insertion below an existing node leaves a red node in the tree. -/
theorem InsertFixup_red {m : Mem K} {hdr : Nat} {c : List Frame} {l r : Sh} {x : Nat}
    (h : FixInv m hdr c (Sh.node l x r) x)
    (hy : c = [] → ∃ y, y ∈ l.addrs ++ r.addrs ∧ m.red_ y = true) :
    ∃ m' y, InsertFixup m hdr x = some m' ∧ y ∈ (plug c (Sh.node l x r)).addrs ∧
      m'.red_ y = true := by
  have hlen := h.wf.ctx_length_lt
  obtain ⟨m', node', y, hl, hym, hred, hrt⟩ :=
    InsertFixupLoop_red hdr c.length c m m.next l x r (Nat.le_refl _) (by omega) h hy
  unfold InsertFixup
  simp only [hl, Option.bind_eq_bind, Option.some_bind]
  by_cases hr : Root m' hdr = some node'
  · simp only [hr, if_true]
    refine ⟨_, y, rfl, hym, ?_⟩
    have hne : y ≠ node' := by
      rintro rfl
      exact hrt hr
    simp [Mem.setRed, upd, hne, hred]
  · simp only [hr, if_false]
    exact ⟨_, y, rfl, hym, hred⟩

/-- An accepted `InsertNode` into a non-empty tree leaves a red node in the tree. -/
theorem InsertNode_red (lt : K → K → Bool) {m m' : Mem K} {t t' : RBTree} {sh : Sh} {x : Nat}
    {it : Ptr} (uniq : Bool) (hwf : WF m t.header_ sh) (hsz : t.size_ = sh.addrs.length)
    (hrb : RB m.red_ sh) (hx1 : x ∉ t.header_ :: sh.addrs) (hx2 : x < m.next)
    (hl : m.left_ x = none) (hr : m.right_ x = none) (hred : m.red_ x = true)
    (hne : sh ≠ Sh.nil) (he : InsertNode lt m t x uniq = some (m', t', it, true)) :
    ∃ y, y ∈ x :: sh.addrs ∧ m'.red_ y = true := by
  obtain ⟨r, res, hfind, hdesc, hres⟩ := descend_spec lt (m.key_ x) uniq hwf
  rw [InsertNode_eq] at he
  simp only [hfind, hdesc, Option.bind_eq_bind, Option.some_bind] at he
  rcases res with n | ⟨ret, par⟩
  · simp at he
  · obtain ⟨c, hs, hdir, hfc, hat⟩ := hres
    subst hs
    have wfz := hwf.toZ
    have hmem : x ∉ t.header_ :: ctxAddrs c := by
      intro h
      apply hx1
      simp only [List.mem_cons] at h ⊢
      rcases h with h | h
      · exact Or.inl h
      · exact Or.inr ((plug_addrs_perm c Sh.nil).mem_iff.2 (by simpa using h))
    obtain ⟨wfl, hredl, hkeyl, hnextl⟩ := @linkNode_spec K _ _ _ ret par _ wfz hat
      (by rw [hsz]; exact plug_addrs_length_zero) hmem hx2 hl hr
    have inv : FixInv (linkNode m t x ret par) t.header_ c (Sh.node Sh.nil x Sh.nil) x := by
      refine ⟨wfl, rfl, by rw [hredl]; exact hred, ?_, ?_, ?_, ?_, ?_⟩
      · simp
      · simp
      · rw [hredl]; exact ((NoRR_plug _ _ _).1 hrb.noRedRed).2.1
      · rw [hredl]
        have := ((Bal_plug _ _ _).1 hrb.balanced).2
        simpa [hred] using this
      · rw [hredl]
        simpa using (isBlk_plug _ _ _).1 hrb.rootBlack
    have hc : c ≠ [] := by
      rintro rfl
      exact hne rfl
    obtain ⟨m2, y, hfix, hy, hredy⟩ := InsertFixup_red inv (fun h => absurd h hc)
    simp only [hfix, Option.some_bind, Option.pure_def, Option.some.injEq, Prod.mk.injEq] at he
    refine ⟨y, ?_, he.1 ▸ hredy⟩
    rw [plug_addrs] at hy ⊢
    simp only [Sh.addrs_node, Sh.addrs_nil, List.nil_append, List.append_nil, List.mem_append,
      List.mem_cons, List.mem_singleton, List.not_mem_nil, or_false] at hy ⊢
    tauto

/-- An accepted `InsertKey` into a non-empty tree leaves a red node among the nodes of the
tree. -/
theorem InsertKey_red (lt : K → K → Bool) {m m' : Mem K} {t t' : RBTree} {sh : Sh} {it : Ptr}
    (key : K) (uniq : Bool) (h : Inv m t sh) (hne : sh ≠ Sh.nil)
    (he : InsertKey lt m t key uniq = some (m', t', it, true)) :
    ∃ y, y ∈ m.next :: sh.addrs ∧ m'.red_ y = true := by
  obtain ⟨wf1, hfresh⟩ := h.wf.newNode key
  have hne1 : ∀ a ∈ sh.addrs, a ≠ m.next := fun a ha e => hfresh (by simp [← e, ha])
  have hrb : RB (m.newNode key).1.red_ sh :=
    (RB_congr (fun a ha => by simp [Mem.newNode, hne1 a ha])).2 h.rb
  unfold InsertKey at he
  exact InsertNode_red lt (x := m.next) uniq wf1 h.size hrb hfresh
    (by simp [Mem.newNode]) (by simp [Mem.newNode]) (by simp [Mem.newNode])
    (by simp [Mem.newNode]) hne he

/-- A balanced shape without red-red pairs has at least `2 ^ bh - 1` nodes and as many more as
it has red nodes. -/
theorem bh_lower (red : Nat → Bool) :
    ∀ s : Sh, Bal red s → 2 ^ bh red s + s.addrs.countP red ≤ s.addrs.length + 1 := by
  intro s
  induction s with
  | nil => intro _; simp
  | node l a r ihl ihr =>
    intro hb
    rw [Bal_node] at hb
    have h1 := ihl hb.2.1
    have h2 := ihr hb.2.2
    have h3 : r.addrs.countP red ≤ r.addrs.length := List.countP_le_length _
    simp only [bh_node, Sh.addrs_node, List.countP_append, List.countP_cons, List.length_append,
      List.length_cons]
    rw [hb.1] at h1 ⊢
    cases red a
    · simp only [Bool.false_eq_true, if_false, Nat.pow_succ]
      omega
    · simp only [if_true, Nat.add_zero]
      omega

/-- A balanced shape without red-red pairs has fewer than `4 ^ bh` nodes if its root is black
and fewer than `2 * 4 ^ bh` nodes anyway. -/
theorem bh_upper (red : Nat → Bool) :
    ∀ s : Sh, Bal red s → NoRR red s →
      s.addrs.length + 1 ≤ 2 * 4 ^ bh red s ∧ (isBlk red s → s.addrs.length + 1 ≤ 4 ^ bh red s) := by
  intro s
  induction s with
  | nil => intro _ _; simp
  | node l a r ihl ihr =>
    intro hb hn
    rw [Bal_node] at hb
    rw [NoRR_node] at hn
    obtain ⟨l1, l2⟩ := ihl hb.2.1 hn.2.1
    obtain ⟨r1, r2⟩ := ihr hb.2.2 hn.2.2
    simp only [bh_node, Sh.addrs_node, List.length_append, List.length_cons, isBlk]
    rw [← hb.1] at r1 r2
    cases hra : red a
    · simp only [Bool.false_eq_true, if_false, Nat.pow_succ, forall_true_left]
      omega
    · have := hn.1 hra
      have l3 := l2 this.1
      have r3 := r2 this.2
      simp only [if_true, Nat.add_zero, Bool.true_eq_false, false_implies, and_true]
      omega

/-- The black height of a red-black tree of six nodes, and of one of seven nodes not all
black, is 2. -/
theorem bh_six_seven {red : Nat → Bool} {s : Sh} (h : RB red s) :
    (s.addrs.length = 6 → bh red s = 2) ∧
      (s.addrs.length = 7 → (∃ y, y ∈ s.addrs ∧ red y = true) → bh red s = 2) := by
  have h1 := bh_lower red s h.balanced
  have h2 := (bh_upper red s h.balanced h.noRedRed).2 h.rootBlack
  have key : ∀ b : Nat, 2 ^ b ≤ 7 → 7 ≤ 4 ^ b → b = 2 := by
    intro b hb1 hb2
    rcases b with _ | _ | _ | b
    · simp at hb2
    · simp at hb2
    · rfl
    · have : 2 ^ 3 ≤ 2 ^ (b + 1 + 1 + 1) := Nat.pow_le_pow_right (by decide) (by omega)
      simp only [Nat.reducePow] at this
      omega
  constructor
  · intro h6
    rw [h6] at h1 h2
    exact key _ (by omega) (by omega)
  · rintro h7 ⟨y, hy, hr⟩
    have hpos : 0 < s.addrs.countP red := List.countP_pos_iff.2 ⟨y, hy, hr⟩
    rw [h7] at h1 h2
    refine key _ (by omega) ?_
    have : 4 ^ 1 < 4 ^ bh red s ∨ bh red s ≤ 1 := by
      rcases Nat.lt_or_ge 1 (bh red s) with h | h
      · exact Or.inl (Nat.pow_lt_pow_right (by decide) h)
      · exact Or.inr h
    rcases this with h | h
    · omega
    · have := Nat.pow_le_pow_right (show 0 < 4 by decide) h
      omega

/-- Unique-mode insertion of keys that are pairwise not equivalent, none of them equivalent to
a key of the tree: every one is accepted, and when the last one goes into a non-empty tree
some node of the result is red. -/
theorem insertItems_distinct (lt : K → K → Bool) :
    ∀ (ks : List K) (m : Mem K) (t : RBTree) (sh : Sh), Inv m t sh →
      ks.Pairwise (fun a b => equiv lt a b = false) →
      (∀ k ∈ ks, ∀ n ∈ sh.addrs, equiv lt (m.key_ n) k = false) →
      ∃ m' t' sh', insertItems lt true ks (m, t) = some (m', t') ∧ Inv m' t' sh' ∧
        sh'.addrs.length = sh.addrs.length + ks.length ∧
        (ks ≠ [] → 2 ≤ sh.addrs.length + ks.length →
          ∃ y, y ∈ sh'.addrs ∧ m'.red_ y = true) := by
  intro ks
  induction ks with
  | nil =>
    intro m t sh inv _ _
    exact ⟨m, t, sh, rfl, inv, rfl, fun h => absurd rfl h⟩
  | cons k ks ih =>
    intro m t sh inv hp hno
    rw [List.pairwise_cons] at hp
    obtain ⟨m1, sh1, c, e, inv1, hs, ha, hk, hfresh⟩ :=
      insert_new_spec lt inv k (hno k (List.mem_cons_self _ _))
    have hlen1 : sh1.addrs.length = sh.addrs.length + 1 := by
      have h1 := inv1.size
      have h2 := inv.size
      simp only at h1
      omega
    have hmem1 : ∀ n, n ∈ sh1.addrs ↔ n = m.next ∨ n ∈ sh.addrs := by
      intro n
      rw [ha, hs, plug_addrs, plug_addrs]
      simp only [Sh.addrs_node, Sh.addrs_nil, List.nil_append, List.append_nil,
        List.mem_append, List.mem_cons, List.mem_singleton, List.not_mem_nil, or_false]
      tauto
    have hno1 : ∀ k' ∈ ks, ∀ n ∈ sh1.addrs, equiv lt (m1.key_ n) k' = false := by
      intro k' hk' n hn
      rw [hk]
      rcases (hmem1 n).1 hn with rfl | hn
      · rw [upd_same]
        exact hp.1 k' hk'
      · have hne : n ≠ m.next := fun e => hfresh (e ▸ hn)
        rw [upd_ne _ _ hne]
        exact hno k' (List.mem_cons_of_mem _ hk') n hn
    have hstep : insertItems lt true (k :: ks) (m, t) =
        insertItems lt true ks (m1, { t with size_ := t.size_ + 1 }) := by
      simp only [insertItems, e, Option.bind_eq_bind, Option.some_bind]
    by_cases hks : ks = []
    · subst hks
      refine ⟨m1, _, sh1, by rw [hstep]; rfl, inv1, by simpa using hlen1, ?_⟩
      intro _ h2
      have hne : sh ≠ Sh.nil := by
        rintro rfl
        simp at h2
      obtain ⟨y, hy, hr⟩ := InsertKey_red lt k true inv hne e
      exact ⟨y, (hmem1 y).2 (by simpa using hy), hr⟩
    · obtain ⟨m', t', sh', e', inv', hl', hred'⟩ := ih m1 _ sh1 inv1 hp.2 hno1
      refine ⟨m', t', sh', by rw [hstep]; exact e', inv', ?_, ?_⟩
      · rw [hl', hlen1, List.length_cons]
        omega
      · intro _ _
        refine hred' hks ?_
        have : 0 < ks.length := List.length_pos.2 hks
        omega

/-- C25: for every seven keys that are pairwise distinct for the comparator (no two
equivalent), inserting them in unique mode into an empty tree returns a tree of seven nodes
with a root; erasing the element stored at the root returns, leaves the six other nodes in
their order with their keys, and leaves `BlackHeight()` equal to the value it had before the
erase (which is 2). -/
theorem C25_erase_root_keeps_black_height [Inhabited K] (lt : K → K → Bool) (m0 : Mem K)
    (ks : List K) (hlen : ks.length = 7)
    (hd : ks.Pairwise (fun a b => equiv lt a b = false)) :
    ∃ m t r m' t' L, insertItems lt true ks (RBTree.mk0 m0) = some (m, t) ∧ Size t = 7 ∧
      Root m t.header_ = some r ∧ toList m t = some L ∧ r ∈ L ∧
      Erase m t (some r) = some (m', t') ∧ Size t' = 6 ∧
      toList m' t' = some (L.filter (fun x => decide (x ≠ r))) ∧ m'.key_ = m.key_ ∧
      BlackHeight m t = some 2 ∧ BlackHeight m' t' = BlackHeight m t := by
  obtain ⟨m, t, sh, e, inv, hl, hred⟩ :=
    insertItems_distinct lt ks (RBTree.mk0 m0).1 (RBTree.mk0 m0).2 Sh.nil (Inv_mk0 m0) hd
      (fun _ _ n hn => by simp at hn)
  simp only [Sh.addrs_nil, List.length_nil, Nat.zero_add, hlen] at hl hred
  have hks : ks ≠ [] := by
    rintro rfl
    simp at hlen
  obtain ⟨y, hy, hyr⟩ := hred hks (by decide)
  have hsz : t.size_ = 7 := inv.size.trans hl
  cases sh with
  | nil => simp at hl
  | node l r rr =>
    have hroot : Root m t.header_ = some r := inv.wf.root
    have hr : r ∈ (Sh.node l r rr).addrs := by simp
    obtain ⟨m', sh', ee, inv', ha', hk', -⟩ := Erase_spec inv hr
    have hsz' : sh'.addrs.length = 6 := by
      have := inv'.size
      simp only [hsz] at this
      exact this.symm
    have hb := (bh_six_seven inv.rb).2 hl ⟨y, hy, hyr⟩
    have hb' := (bh_six_seven inv'.rb).1 hsz'
    refine ⟨m, t, r, m', _, _, e, hsz, hroot, toList_spec inv, hr, ee, ?_, ?_, hk', ?_, ?_⟩
    · show t.size_ - 1 = 6
      omega
    · rw [toList_spec inv', ha']
    · rw [BlackHeight_of_Inv inv, hb]
      rfl
    · rw [BlackHeight_of_Inv inv, BlackHeight_of_Inv inv', hb, hb']

/-- Witness of C25: the keys 1, 2, 3, 4, 5, 6, 7 inserted in that order. -/
theorem C25_witness : [1, 2, 3, 4, 5, 6, 7].length = 7 ∧
    [1, 2, 3, 4, 5, 6, 7].Pairwise (fun a b => equiv ltN a b = false) ∧
    ∃ m t r m' t' L,
      insertItems ltN true [1, 2, 3, 4, 5, 6, 7] (RBTree.mk0 Mem.init) = some (m, t) ∧
      Size t = 7 ∧ Root m t.header_ = some r ∧ toList m t = some L ∧ r ∈ L ∧
      Erase m t (some r) = some (m', t') ∧ Size t' = 6 ∧
      toList m' t' = some (L.filter (fun x => decide (x ≠ r))) ∧ m'.key_ = m.key_ ∧
      BlackHeight m t = some 2 ∧ BlackHeight m' t' = BlackHeight m t :=
  ⟨rfl, by decide,
    C25_erase_root_keeps_black_height ltN Mem.init [1, 2, 3, 4, 5, 6, 7] rfl (by decide)⟩

theorem size_zero_iff_nil {m : Mem K} {t : RBTree} {sh : Sh} (h : Inv m t sh) :
    Size t = 0 ↔ sh = Sh.nil := by
  unfold Size
  rw [h.size]
  cases sh with
  | nil => simp
  | node l x r => simp

/-- C31: for every valid tree, `Begin() const` returns what the non-const `Begin()` returns
as long as the tree is not empty; on an empty tree the non-const `Begin()` returns `End()`,
but `Minimum()` reads the null root, so `Begin() const` has no result, and neither have
`operator==` and `operator!=` between two empty trees. -/
theorem C31_const_begin_empty [BEq K] {m : Mem K} {t : RBTree} {sh : Sh} (h : Inv m t sh) :
    (Size t ≠ 0 → BeginConst m t = Begin m t ∧ ∃ a, a ∈ sh.addrs ∧
      BeginConst m t = some (some a)) ∧
    (Size t = 0 → Root m t.header_ = none ∧ Minimum m t.header_ = none ∧
      BeginConst m t = none ∧ Begin m t = some (End t) ∧
      ∀ (u : RBTree) (su : Sh), Inv m u su → Size u = 0 →
        opEq m t u = none ∧ opNe m t u = none) := by
  constructor
  · intro h0
    have hne : sh ≠ Sh.nil := fun e => h0 ((size_zero_iff_nil h).2 e)
    rw [BeginConst_spec h.wf, Begin_spec h]
    cases hs : sh.addrs with
    | nil =>
      cases sh with
      | nil => exact absurd rfl hne
      | node l x r => simp at hs
    | cons a L => exact ⟨rfl, a, List.mem_cons_self _ _, rfl⟩
  · intro h0
    have hs : sh = Sh.nil := (size_zero_iff_nil h).1 h0
    subst hs
    have hroot : Root m t.header_ = none := h.wf.root
    refine ⟨hroot, by simp [Minimum, hroot], by simp [BeginConst, Minimum, hroot], ?_, ?_⟩
    · rw [Begin_spec h]
      rfl
    · intro u su hu hu0
      have hsu : su = Sh.nil := (size_zero_iff_nil hu).1 hu0
      subst hsu
      exact (opEq_spec h.wf hu.wf h.size hu.size).1 ⟨rfl, rfl⟩

/-- Witness of C31: the two empty trees of `exEmpty`; `Begin() const` has no result on
either, and `operator==` none between them. -/
theorem C31_witness : Inv exEmpty.1 exEmpty.2 Sh.nil ∧
    Inv exEmpty.1 (RBTree.mk0 (Mem.init : Mem Nat)).2 Sh.nil ∧
    BeginConst exEmpty.1 exEmpty.2 = none ∧
    Begin exEmpty.1 exEmpty.2 = some (End exEmpty.2) ∧
    opEq exEmpty.1 exEmpty.2 (RBTree.mk0 (Mem.init : Mem Nat)).2 = none ∧
    opNe exEmpty.1 exEmpty.2 (RBTree.mk0 (Mem.init : Mem Nat)).2 = none :=
  have h := (C31_const_begin_empty exEmpty_inv).2 (by decide)
  ⟨exEmpty_inv, exEmpty_fst_inv, h.2.2.1, h.2.2.2.1,
    h.2.2.2.2 _ _ exEmpty_fst_inv (by decide)⟩

/-- In a balanced shape without red-red pairs the depth is at most twice the black height,
plus one when the root is red. -/
theorem depth_le_bh (red : Nat → Bool) :
    ∀ s : Sh, Bal red s → NoRR red s →
      s.depth ≤ 2 * bh red s + 1 ∧ (isBlk red s → s.depth ≤ 2 * bh red s) := by
  intro s
  induction s with
  | nil => intro _ _; simp
  | node l a r ihl ihr =>
    intro hb hn
    rw [Bal_node] at hb
    rw [NoRR_node] at hn
    obtain ⟨l1, l2⟩ := ihl hb.2.1 hn.2.1
    obtain ⟨r1, r2⟩ := ihr hb.2.2 hn.2.2
    simp only [bh_node, Sh.depth_node, isBlk]
    rw [← hb.1] at r1 r2
    cases hra : red a
    · simp only [Bool.false_eq_true, if_false, forall_true_left]
      omega
    · have := hn.1 hra
      have l3 := l2 this.1
      have r3 := r2 this.2
      simp only [if_true, Nat.add_zero, Bool.true_eq_false, false_implies, and_true]
      omega

/-- No path from the root to a null link is longer than the depth of the shape. -/
theorem paths_length_le : ∀ s : Sh, ∀ p ∈ s.paths, p.length ≤ s.depth := by
  intro s
  induction s with
  | nil =>
    intro p hp
    simp only [Sh.paths, List.mem_singleton] at hp
    subst hp
    simp
  | node l a r ihl ihr =>
    intro p hp
    simp only [Sh.paths, List.mem_map, List.mem_append] at hp
    obtain ⟨q, hq, rfl⟩ := hp
    simp only [List.length_cons, Sh.depth_node]
    rcases hq with hq | hq
    · have := ihl q hq
      omega
    · have := ihr q hq
      omega

/-- The depth of a red-black tree of `n` nodes is at most `2 * log2 (n + 1)`. -/
theorem depth_le_log {red : Nat → Bool} {s : Sh} (h : RB red s) :
    s.depth ≤ 2 * Nat.log 2 (s.addrs.length + 1) := by
  have h1 := bh_lower red s h.balanced
  have h2 := (depth_le_bh red s h.balanced h.noRedRed).2 h.rootBlack
  have h3 : bh red s ≤ Nat.log 2 (s.addrs.length + 1) :=
    Nat.le_log_of_pow_le (by decide) (by omega)
  omega

/-- The loop of `Find` runs through at most `depth` rounds. -/
theorem FindLoop_fuel (lt : K → K → Bool) (m : Mem K) (key : K) :
    ∀ (s : Sh) (par : Ptr) (ret : Int) (p : Nat), Rep m.parent_ m.left_ m.right_ s par →
      ∃ res, ∀ fuel, s.depth ≤ fuel → FindLoop lt m key fuel ret s.ptr p = some res := by
  intro s
  induction s with
  | nil =>
    intro par ret p _
    refine ⟨(ret, p), fun fuel _ => ?_⟩
    cases fuel <;> rfl
  | node l a r ihl ihr =>
    intro par ret p hrep
    obtain ⟨-, hl, hr, repl, repr⟩ := hrep
    obtain ⟨r1, h1⟩ := ihl (some a) (-1) a repl
    obtain ⟨r2, h2⟩ := ihr (some a) 1 a repr
    by_cases c1 : lt key (m.key_ a) = true
    · refine ⟨r1, fun fuel hf => ?_⟩
      obtain ⟨k, rfl⟩ : ∃ k, fuel = k + 1 := ⟨fuel - 1, by simp at hf; omega⟩
      simp only [Sh.depth_node] at hf
      simp only [Sh.ptr_node, FindLoop, c1, if_true, hl]
      exact h1 k (by omega)
    · by_cases c2 : lt (m.key_ a) key = true
      · refine ⟨r2, fun fuel hf => ?_⟩
        obtain ⟨k, rfl⟩ : ∃ k, fuel = k + 1 := ⟨fuel - 1, by simp at hf; omega⟩
        simp only [Sh.depth_node] at hf
        simp only [Sh.ptr_node, FindLoop, c1, c2, if_true, if_false, hr]
        exact h2 k (by omega)
      · refine ⟨(0, a), fun fuel hf => ?_⟩
        obtain ⟨k, rfl⟩ : ∃ k, fuel = k + 1 := ⟨fuel - 1, by simp at hf; omega⟩
        simp [FindLoop, c1, c2]

/-- The loop of `Lower_Bound` runs through at most `depth` rounds. -/
theorem LowerBoundLoop_fuel (lt : K → K → Bool) (m : Mem K) (key : K) :
    ∀ (s : Sh) (par : Ptr) (res : Ptr), Rep m.parent_ m.left_ m.right_ s par →
      ∃ out, ∀ fuel, s.depth ≤ fuel → LowerBoundLoop lt m key fuel s.ptr res = some out := by
  intro s
  induction s with
  | nil =>
    intro par res _
    refine ⟨res, fun fuel _ => ?_⟩
    cases fuel <;> rfl
  | node l a r ihl ihr =>
    intro par res hrep
    obtain ⟨-, hl, hr, repl, repr⟩ := hrep
    obtain ⟨r1, h1⟩ := ihl (some a) (some a) repl
    obtain ⟨r2, h2⟩ := ihr (some a) res repr
    by_cases c1 : lt (m.key_ a) key = false
    · refine ⟨r1, fun fuel hf => ?_⟩
      obtain ⟨k, rfl⟩ : ∃ k, fuel = k + 1 := ⟨fuel - 1, by simp at hf; omega⟩
      simp only [Sh.depth_node] at hf
      simp only [Sh.ptr_node, LowerBoundLoop, c1, if_true, hl]
      exact h1 k (by omega)
    · refine ⟨r2, fun fuel hf => ?_⟩
      obtain ⟨k, rfl⟩ : ∃ k, fuel = k + 1 := ⟨fuel - 1, by simp at hf; omega⟩
      simp only [Sh.depth_node] at hf
      simp only [Sh.ptr_node, LowerBoundLoop, c1, if_false, hr]
      exact h2 k (by omega)

/-- The loop of `Upper_Bound` runs through at most `depth` rounds. -/
theorem UpperBoundLoop_fuel (lt : K → K → Bool) (m : Mem K) (key : K) :
    ∀ (s : Sh) (par : Ptr) (res : Ptr), Rep m.parent_ m.left_ m.right_ s par →
      ∃ out, ∀ fuel, s.depth ≤ fuel → UpperBoundLoop lt m key fuel s.ptr res = some out := by
  intro s
  induction s with
  | nil =>
    intro par res _
    refine ⟨res, fun fuel _ => ?_⟩
    cases fuel <;> rfl
  | node l a r ihl ihr =>
    intro par res hrep
    obtain ⟨-, hl, hr, repl, repr⟩ := hrep
    obtain ⟨r1, h1⟩ := ihl (some a) (some a) repl
    obtain ⟨r2, h2⟩ := ihr (some a) res repr
    by_cases c1 : lt key (m.key_ a) = true
    · refine ⟨r1, fun fuel hf => ?_⟩
      obtain ⟨k, rfl⟩ : ∃ k, fuel = k + 1 := ⟨fuel - 1, by simp at hf; omega⟩
      simp only [Sh.depth_node] at hf
      simp only [Sh.ptr_node, UpperBoundLoop, c1, if_true, hl]
      exact h1 k (by omega)
    · refine ⟨r2, fun fuel hf => ?_⟩
      obtain ⟨k, rfl⟩ : ∃ k, fuel = k + 1 := ⟨fuel - 1, by simp at hf; omega⟩
      simp only [Sh.depth_node] at hf
      simp only [Sh.ptr_node, UpperBoundLoop, c1, if_false, hr]
      exact h2 k (by omega)

/-- C32: in every reachable tree with `n = Size()` elements, every path from the root down to
a null link has at most `2 * log2 (n + 1)` nodes (the logarithm rounded down), and for every
key the descent loops of `Find`, `Lower_Bound` and `Upper_Bound` return their result within
that many rounds: run with any bound of at least `2 * log2 (n + 1)` rounds they return what
the methods return. -/
theorem C32_height_logarithmic [Inhabited K] {lt : K → K → Bool} (hlt : SWO lt) {m : Mem K}
    {t : RBTree} (hr : Reachable lt m t) :
    ∃ P, rootPaths m m.next (Root m t.header_) = some P ∧ P ≠ [] ∧
      (∀ p ∈ P, p.length ≤ 2 * Nat.log 2 (Size t + 1)) ∧
      ∀ key : K, ∃ f lo up, FindFrom lt m t.header_ key (Root m t.header_) = some f ∧
        Lower_Bound lt m t key = some lo ∧ Upper_Bound lt m t key = some up ∧
        ∀ fuel, 2 * Nat.log 2 (Size t + 1) ≤ fuel →
          FindLoop lt m key fuel (-1) (Root m t.header_) t.header_ = some f ∧
          LowerBoundLoop lt m key fuel (Root m t.header_) (End t) = some lo ∧
          UpperBoundLoop lt m key fuel (Root m t.header_) (End t) = some up := by
  obtain ⟨sh, inv, -⟩ := reach_inv hlt hr
  have hd : sh.depth ≤ 2 * Nat.log 2 (Size t + 1) := by
    have := depth_le_log inv.rb
    unfold Size
    rw [inv.size]
    exact this
  have hdn : sh.depth ≤ m.next := by
    have h1 := sh.depth_le_length
    have h2 := inv.wf.depth_lt
    omega
  have hroot : Root m t.header_ = sh.ptr := inv.wf.root
  refine ⟨sh.paths, ?_, Sh.paths_ne_nil sh, ?_, ?_⟩
  · rw [hroot]
    exact rootPaths_spec m sh m.next _ inv.wf.rep (by omega)
  · intro p hp
    exact (paths_length_le sh p hp).trans hd
  · intro key
    obtain ⟨f, hf⟩ := FindLoop_fuel lt m key sh _ (-1) t.header_ inv.wf.rep
    obtain ⟨lo, hlo⟩ := LowerBoundLoop_fuel lt m key sh _ (End t) inv.wf.rep
    obtain ⟨up, hup⟩ := UpperBoundLoop_fuel lt m key sh _ (End t) inv.wf.rep
    rw [hroot]
    refine ⟨f, lo, up, hf m.next hdn, ?_, ?_, ?_⟩
    · unfold Lower_Bound
      rw [hroot]
      exact hlo m.next hdn
    · unfold Upper_Bound
      rw [hroot]
      exact hup m.next hdn
    · intro fuel hfu
      exact ⟨hf fuel (by omega), hlo fuel (by omega), hup fuel (by omega)⟩

/-- Witness of C32: the set `{5, 3, 8, 1, 4}`. -/
theorem C32_witness : SWO ltN ∧ Reachable ltN exSet.1 exSet.2 ∧
    ∃ P, rootPaths exSet.1 exSet.1.next (Root exSet.1 exSet.2.header_) = some P ∧ P ≠ [] ∧
      (∀ p ∈ P, p.length ≤ 2 * Nat.log 2 (Size exSet.2 + 1)) ∧
      ∀ key : Nat, ∃ f lo up,
        FindFrom ltN exSet.1 exSet.2.header_ key (Root exSet.1 exSet.2.header_) = some f ∧
        Lower_Bound ltN exSet.1 exSet.2 key = some lo ∧
        Upper_Bound ltN exSet.1 exSet.2 key = some up ∧
        ∀ fuel, 2 * Nat.log 2 (Size exSet.2 + 1) ≤ fuel →
          FindLoop ltN exSet.1 key fuel (-1) (Root exSet.1 exSet.2.header_)
            exSet.2.header_ = some f ∧
          LowerBoundLoop ltN exSet.1 key fuel (Root exSet.1 exSet.2.header_)
            (End exSet.2) = some lo ∧
          UpperBoundLoop ltN exSet.1 key fuel (Root exSet.1 exSet.2.header_)
            (End exSet.2) = some up :=
  ⟨swo_ltN, exSet_reachable, C32_height_logarithmic swo_ltN exSet_reachable⟩

theorem efRestL_mono {hdr : Nat} {g1 g2 : Mem K → Nat → Ptr → Option (Mem K)}
    (hg : ∀ m p q x, g1 m p q = some x → g2 m p q = some x) {m : Mem K} {p b : Nat}
    {x : Mem K} (h : efRestL hdr g1 m p b = some x) : efRestL hdr g2 m p b = some x := by
  unfold efRestL at h ⊢
  by_cases c1 : m.red_ b = false ∧ m.nullOrBlack (m.left_ b) ∧ m.nullOrBlack (m.right_ b)
  · rw [if_pos c1] at h ⊢
    by_cases c2 : (m.setRed b true).red_ p = true
    · simp only [c2, if_true] at h ⊢
      exact h
    · simp only [c2, if_false] at h ⊢
      exact hg _ _ _ _ h
  · rw [if_neg c1] at h ⊢
    exact h

theorem efRestR_mono {hdr : Nat} {g1 g2 : Mem K → Nat → Ptr → Option (Mem K)}
    (hg : ∀ m p q x, g1 m p q = some x → g2 m p q = some x) {m : Mem K} {p b : Nat}
    {x : Mem K} (h : efRestR hdr g1 m p b = some x) : efRestR hdr g2 m p b = some x := by
  unfold efRestR at h ⊢
  by_cases c1 : m.red_ b = false ∧ m.nullOrBlack (m.left_ b) ∧ m.nullOrBlack (m.right_ b)
  · rw [if_pos c1] at h ⊢
    by_cases c2 : (m.setRed b true).red_ p = true
    · simp only [c2, if_true] at h ⊢
      exact h
    · simp only [c2, if_false] at h ⊢
      exact hg _ _ _ _ h
  · rw [if_neg c1] at h ⊢
    exact h

/-- A result of the `ExtractFixup` loop does not depend on the bound on its rounds. -/
theorem ExtractFixupLoop_mono (hdr : Nat) :
    ∀ (fuel : Nat) (m : Mem K) (del : Nat) (parent : Ptr) (x : Mem K),
      ExtractFixupLoop hdr fuel m del parent = some x →
      ExtractFixupLoop hdr (fuel + 1) m del parent = some x := by
  intro fuel
  induction fuel with
  | zero =>
    intro m del parent x h
    simp [ExtractFixupLoop] at h
  | succ k ih =>
    intro m del parent x h
    rw [ExtractFixupLoop_succ] at h ⊢
    by_cases hc : Root m hdr = some del ∨ m.red_ del = true
    · rw [if_pos hc] at h ⊢
      exact h
    · rw [if_neg hc] at h ⊢
      cases parent with
      | none => simp at h
      | some p =>
        simp only [Option.bind_eq_bind, Option.some_bind] at h ⊢
        by_cases hs : some del = m.left_ p
        · rw [if_pos hs] at h ⊢
          cases hb : m.right_ p with
          | none => simp [hb] at h
          | some b =>
            rw [hb] at h
            simp only [Option.some_bind] at h ⊢
            cases hr : efRedL m hdr del p b with
            | none => simp [hr] at h
            | some r =>
              rw [hr] at h
              simp only [Option.some_bind] at h ⊢
              exact efRestL_mono ih h
        · rw [if_neg hs] at h ⊢
          cases hb : m.left_ p with
          | none => simp [hb] at h
          | some b =>
            rw [hb] at h
            simp only [Option.some_bind] at h ⊢
            cases hr : efRedR m hdr del p b with
            | none => simp [hr] at h
            | some r =>
              rw [hr] at h
              simp only [Option.some_bind] at h ⊢
              exact efRestR_mono ih h

theorem ExtractFixupLoop_mono_le (hdr : Nat) {fuel fuel' : Nat} (hle : fuel ≤ fuel')
    {m : Mem K} {del : Nat} {parent : Ptr} {x : Mem K}
    (h : ExtractFixupLoop hdr fuel m del parent = some x) :
    ExtractFixupLoop hdr fuel' m del parent = some x := by
  induction hle with
  | refl => exact h
  | step _ ih => exact ExtractFixupLoop_mono hdr _ _ _ _ _ ih

/-- A path of the shape runs through the context down to any path of the subtree in the
hole. -/
theorem paths_plug (c : List Frame) :
    ∀ (s : Sh), ∀ q ∈ s.paths, ∃ p ∈ (plug c s).paths, p.length = c.length + q.length := by
  induction c with
  | nil =>
    intro s q hq
    exact ⟨q, hq, by simp⟩
  | cons f c ih =>
    intro s q hq
    cases f with
    | left a r =>
      obtain ⟨p, hp, hlen⟩ := ih (Sh.node s a r) (a :: q) (by
        simp only [Sh.paths, List.mem_map, List.mem_append]
        exact ⟨q, Or.inl hq, rfl⟩)
      refine ⟨p, hp, ?_⟩
      simp only [List.length_cons] at hlen ⊢
      omega
    | right l a =>
      obtain ⟨p, hp, hlen⟩ := ih (Sh.node l a s) (a :: q) (by
        simp only [Sh.paths, List.mem_map, List.mem_append]
        exact ⟨q, Or.inr hq, rfl⟩)
      refine ⟨p, hp, ?_⟩
      simp only [List.length_cons] at hlen ⊢
      omega

/-- C33: in a tree that satisfies the red-black invariants, for every black node `a` without
children that is not the root (the node `ExtractNode` hands to `ExtractFixup`):
`ExtractFixup(a)` returns, so it reads no null pointer, neither for the brother nor for the
far nephew; in the first round the brother exists; run with any bound on the rounds of the
loop that is at least the height of the tree (the length of its longest path from the root
to a null link) the loop returns the same result; afterwards `a` still has no children and
the tree has the same nodes with the same keys. -/
theorem C33_extract_fixup_safe {m : Mem K} {t : RBTree} {sh : Sh} {a : Nat} (h : Inv m t sh)
    (ha : a ∈ sh.addrs) (hl : m.left_ a = none) (hr : m.right_ a = none)
    (hb : m.red_ a = false) (hnr : Root m t.header_ ≠ some a) :
    ∃ m' P sh' p b, ExtractFixup m t.header_ a = some m' ∧
      m.parent_ a = some p ∧
      ((m.left_ p = some a ∧ m.right_ p = some b) ∨
        (m.left_ p ≠ some a ∧ m.right_ p = some a ∧ m.left_ p = some b)) ∧
      rootPaths m m.next (Root m t.header_) = some P ∧
      (∀ fuel, (∀ q ∈ P, q.length ≤ fuel) →
        ExtractFixupLoop t.header_ fuel m a (m.parent_ a) = some m') ∧
      m'.left_ a = none ∧ m'.right_ a = none ∧ WF m' t.header_ sh' ∧
      sh'.addrs = sh.addrs ∧ m'.key_ = m.key_ := by
  obtain ⟨c, l, r, rfl⟩ := exists_plug_of_mem ha
  have wz := h.wf.toZ
  have el : l = Sh.nil := Sh.ptr_eq_none.1 (wz.left_eq ▸ hl)
  have er : r = Sh.nil := Sh.ptr_eq_none.1 (wz.right_eq ▸ hr)
  subst el er
  obtain ⟨m', hfix, sh', wf', haddr, hleaf, -, -, -, hkey, -⟩ := ExtractFixup_spec wz hb h.rb
  have hpaths : rootPaths m m.next (Root m t.header_) =
      some (plug c (Sh.node Sh.nil a Sh.nil)).paths := by
    have h1 := (plug c (Sh.node Sh.nil a Sh.nil)).depth_le_length
    have h2 := h.wf.depth_lt
    rw [show Root m t.header_ = (plug c (Sh.node Sh.nil a Sh.nil)).ptr from h.wf.root]
    exact rootPaths_spec m _ m.next _ h.wf.rep (by omega)
  have hfuel : ∀ fuel, (∀ q ∈ (plug c (Sh.node Sh.nil a Sh.nil)).paths, q.length ≤ fuel) →
      ExtractFixupLoop t.header_ fuel m a (m.parent_ a) = some m' := by
    intro fuel hq
    obtain ⟨p, hp, hlen⟩ := paths_plug c (Sh.node Sh.nil a Sh.nil) [a] (by simp [Sh.paths])
    have hcf : c.length < fuel := by
      have := hq p hp
      simp only [List.length_singleton] at hlen
      omega
    have inv : DelInv m t.header_ a c (Sh.node Sh.nil a Sh.nil) a := by
      refine ⟨wz, rfl, hb, by simp, by simp, by simp,
        ((NoRR_plug _ _ _).1 h.rb.noRedRed).2.1, ?_,
        CtxRootBlk_of trivial ((isBlk_plug _ _ _).1 h.rb.rootBlack)⟩
      have := ((Bal_plug _ _ _).1 h.rb.balanced).2
      simpa [hb] using this
    obtain ⟨m2, h2, -⟩ :=
      ExtractFixupLoop_spec t.header_ a c.length c m fuel _ a (le_refl _) hcf inv
    have e1 := ExtractFixupLoop_mono_le t.header_ (Nat.le_max_left fuel m.next) h2
    have e2 := ExtractFixupLoop_mono_le t.header_ (Nat.le_max_right fuel m.next)
      (show ExtractFixupLoop t.header_ m.next m a (m.parent_ a) = some m' from hfix)
    rw [e1] at e2
    rw [h2, e2]
  obtain ⟨c', hs'⟩ := hleaf.exists_plug
  subst hs'
  have wz' := wf'.toZ
  have hcb := ((Bal_plug _ _ _).1 h.rb.balanced).2
  simp only [bh_node, bh_nil, hb, Bool.false_eq_true, if_false, Nat.zero_add] at hcb
  rcases c with _ | ⟨f, c⟩
  · exact absurd wz.root_nil hnr
  · cases f with
    | left p B =>
      obtain ⟨bl, b, br, rfl⟩ : ∃ bl b br, B = Sh.node bl b br := by
        have := hcb.1
        cases B with
        | nil => simp at this
        | node x y z => exact ⟨x, y, z, rfl⟩
      have wzp := wz.up_left
      exact ⟨m', _, _, p, b, hfix, wz.parent_eq, Or.inl ⟨wzp.left_eq, wzp.right_eq⟩, hpaths,
        hfuel, wz'.left_eq, wz'.right_eq, wf', haddr, hkey⟩
    | right B p =>
      obtain ⟨bl, b, br, rfl⟩ : ∃ bl b br, B = Sh.node bl b br := by
        have := hcb.1
        cases B with
        | nil => simp at this
        | node x y z => exact ⟨x, y, z, rfl⟩
      have wzp := wz.up_right
      have hne : m.left_ p ≠ some a := by
        rw [wzp.left_eq]
        simp only [Sh.ptr_node, ne_eq, Option.some.injEq]
        rintro rfl
        have hnd := wzp.nodup
        simp only [Sh.addrs_node, List.nodup_cons, List.mem_cons, List.mem_append,
          List.nodup_append, List.append_assoc, List.cons_append, not_or,
          List.disjoint_cons_right, List.disjoint_append_right, List.disjoint_cons_left,
          List.disjoint_append_left] at hnd
        simp at hnd
      exact ⟨m', _, _, p, b, hfix, wz.parent_eq, Or.inr ⟨hne, wzp.right_eq, wzp.left_eq⟩,
        hpaths, hfuel, wz'.left_eq, wz'.right_eq, wf', haddr, hkey⟩

set_option maxRecDepth 100000 in
/-- Witness of C33: the node of key 8 in the set `{5, 3, 8, 1, 4}`, a black right child
without children. -/
theorem C33_witness : Inv exSet.1 exSet.2 shSet ∧ 3 ∈ shSet.addrs ∧
    exSet.1.left_ 3 = none ∧ exSet.1.right_ 3 = none ∧ exSet.1.red_ 3 = false ∧
    Root exSet.1 exSet.2.header_ ≠ some 3 ∧
    ∃ m' P sh' p b, ExtractFixup exSet.1 exSet.2.header_ 3 = some m' ∧
      exSet.1.parent_ 3 = some p ∧
      ((exSet.1.left_ p = some 3 ∧ exSet.1.right_ p = some b) ∨
        (exSet.1.left_ p ≠ some 3 ∧ exSet.1.right_ p = some 3 ∧ exSet.1.left_ p = some b)) ∧
      rootPaths exSet.1 exSet.1.next (Root exSet.1 exSet.2.header_) = some P ∧
      (∀ fuel, (∀ q ∈ P, q.length ≤ fuel) →
        ExtractFixupLoop exSet.2.header_ fuel exSet.1 3 (exSet.1.parent_ 3) = some m') ∧
      m'.left_ 3 = none ∧ m'.right_ 3 = none ∧ WF m' exSet.2.header_ sh' ∧
      sh'.addrs = shSet.addrs ∧ m'.key_ = exSet.1.key_ :=
  ⟨exSet_inv, by decide, by decide, by decide, by decide, by decide,
    C33_extract_fixup_safe exSet_inv (by decide) (by decide) (by decide) (by decide)
      (by decide)⟩

/-- The renamed links, together with the well-formedness they give (`WF_map`). -/
theorem WF_map_links {m m' : Mem K} {hdr : Nat} {sh : Sh} {f : Nat → Nat} (wf : WF m hdr sh)
    (hf : Function.Injective f) (hh : f hdr = hdr)
    (h : ∀ x ∈ hdr :: sh.addrs, m'.parent_ (f x) = (m.parent_ x).map f ∧
      m'.left_ (f x) = (m.left_ x).map f ∧ m'.right_ (f x) = (m.right_ x).map f)
    (hb : ∀ x ∈ hdr :: sh.addrs, f x < m'.next) :
    (∀ x ∈ hdr :: sh.addrs, m'.parent_ (f x) = (m.parent_ x).map f ∧
      m'.left_ (f x) = (m.left_ x).map f ∧ m'.right_ (f x) = (m.right_ x).map f) ∧
    WF m' hdr (Sh.map f sh) :=
  ⟨h, WF_map wf hf hh h hb⟩

/-- `SwapNodes(a, y)` on two nodes of a well-formed tree, where `y` is neither the root nor
the parent of `a` nor the left child of the parent of `a`: the links of the result are the
links of the tree with `a` and `y` exchanged, and so are the colours. -/
theorem SwapNodes_general {m : Mem K} {hdr a y : Nat} {sh : Sh} (wf : WF m hdr sh)
    (ha : a ∈ sh.addrs) (hy : y ∈ sh.addrs) (hay : a ≠ y) (hyr : m.parent_ hdr ≠ some y)
    (hpy : m.parent_ a ≠ some y) (hsib : ∀ p, m.parent_ a = some p → m.left_ p ≠ some y) :
    ∃ m', SwapNodes m hdr a y = some m' ∧
      ((∀ x ∈ hdr :: sh.addrs, m'.parent_ (swp a y x) = (m.parent_ x).map (swp a y) ∧
        m'.left_ (swp a y x) = (m.left_ x).map (swp a y) ∧
        m'.right_ (swp a y x) = (m.right_ x).map (swp a y)) ∧
      WF m' hdr (Sh.map (swp a y) sh)) ∧
      (∀ x, m'.red_ (swp a y x) = m.red_ x) ∧ m'.key_ = m.key_ ∧ m'.next = m.next := by
  have hhT : hdr ∉ sh.addrs := wf.hdr_not_mem
  have haT : a ∈ sh.addrs := ha
  have hyT : y ∈ sh.addrs := hy
  obtain ⟨yp, hypT, hPy, hyc⟩ : ∃ yp, yp ∈ sh.addrs ∧ m.parent_ y = some yp ∧
      (m.left_ yp = some y ∨ m.right_ yp = some y) := by
    rcases wf.parent_child hy with ⟨-, e⟩ | ⟨q, hq, e, hc⟩
    · exact absurd (wf.root.trans e) hyr
    · exact ⟨q, hq, e, hc⟩
  obtain ⟨ap, hPa, hcase⟩ : ∃ ap, m.parent_ a = some ap ∧
      ((m.parent_ hdr = some a ∧ ap = hdr) ∨
        (m.parent_ hdr ≠ some a ∧ ap ∈ sh.addrs ∧
          (m.left_ ap = some a ∨ m.right_ ap = some a))) := by
    rcases wf.parent_child ha with ⟨e, e'⟩ | ⟨q, hq, e, hc⟩
    · exact ⟨hdr, e, Or.inl ⟨wf.root.trans e', rfl⟩⟩
    · refine ⟨q, e, Or.inr ⟨?_, hq, hc⟩⟩
      intro h
      have hp : sh.ptr = some a := wf.root.symm.trans h
      have hrep := wf.rep
      cases sh with
      | nil => simp at hp
      | node l x r =>
        simp only [Sh.ptr_node, Option.some.injEq] at hp
        subst hp
        have := hrep.1
        rw [e] at this
        simp only [Option.some.injEq] at this
        exact hhT (this ▸ hq)
  have hnl : ¬ m.left_ ap = some y := hsib ap hPa
  have hapy : ap ≠ y := fun e => hpy (e ▸ hPa)
  generalize hTdef : sh.addrs = T at haT hyT hhT hypT hcase
  have hha : hdr ≠ a := fun e => hhT (e ▸ haT)
  have hhy : hdr ≠ y := fun e => hhT (e ▸ hyT)
  have hhyp : hdr ≠ yp := fun e => hhT (e ▸ hypT)
  have gL : ∀ z ∈ hdr :: T, ∀ x, m.left_ z = some x →
      m.parent_ x = some z ∧ x ∈ T ∧ m.right_ z ≠ some x ∧ x ≠ z := by
    intro z hz x hx
    rcases List.mem_cons.1 hz with rfl | hz
    · rw [wf.hleft] at hx
      cases hx
    · have := wf.left_child (hTdef ▸ hz) hx
      rw [hTdef] at this
      exact this
  have gR : ∀ z ∈ hdr :: T, ∀ x, m.right_ z = some x →
      m.parent_ x = some z ∧ x ∈ T ∧ m.left_ z ≠ some x ∧ x ≠ z := by
    intro z hz x hx
    rcases List.mem_cons.1 hz with rfl | hz
    · rw [wf.hright] at hx
      cases hx
    · have := wf.right_child (hTdef ▸ hz) hx
      rw [hTdef] at this
      exact this
  have gP : ∀ z ∈ T, ∀ q, m.parent_ z = some q → q ≠ hdr →
      m.left_ q = some z ∨ m.right_ q = some z := by
    intro z hz q hq hne
    rcases wf.parent_child (hTdef ▸ hz) with ⟨e, -⟩ | ⟨q', -, e, hc⟩
    · rw [hq] at e
      simp only [Option.some.injEq] at e
      exact absurd e hne
    · rw [hq] at e
      simp only [Option.some.injEq] at e
      subst e
      exact hc
  have hypy : yp ≠ y := by
    rintro rfl
    rcases hyc with h | h
    · exact (gL yp (by simp [hypT]) yp h).2.2.2 rfl
    · exact (gR yp (by simp [hypT]) yp h).2.2.2 rfl
  have eLa : ∀ z ∈ hdr :: T, (m.left_ z = some a ↔ z = ap ∧ m.left_ ap = some a) := by
    intro z hz
    constructor
    · intro h
      have := (gL z hz a h).1
      rw [hPa] at this
      simp only [Option.some.injEq] at this
      subst this
      exact ⟨rfl, h⟩
    · rintro ⟨rfl, h⟩
      exact h
  have eRa : ∀ z ∈ hdr :: T, (m.right_ z = some a ↔ z = ap ∧ m.right_ ap = some a) := by
    intro z hz
    constructor
    · intro h
      have := (gR z hz a h).1
      rw [hPa] at this
      simp only [Option.some.injEq] at this
      subst this
      exact ⟨rfl, h⟩
    · rintro ⟨rfl, h⟩
      exact h
  have eLy : ∀ z ∈ hdr :: T, (m.left_ z = some y ↔ z = yp ∧ m.left_ yp = some y) := by
    intro z hz
    constructor
    · intro h
      have := (gL z hz y h).1
      rw [hPy] at this
      simp only [Option.some.injEq] at this
      subst this
      exact ⟨rfl, h⟩
    · rintro ⟨rfl, h⟩
      exact h
  have eRy : ∀ z ∈ hdr :: T, (m.right_ z = some y ↔ z = yp ∧ m.right_ yp = some y) := by
    intro z hz
    constructor
    · intro h
      have := (gR z hz y h).1
      rw [hPy] at this
      simp only [Option.some.injEq] at this
      subst this
      exact ⟨rfl, h⟩
    · rintro ⟨rfl, h⟩
      exact h
  have nLRy : m.left_ yp = some y → m.right_ yp ≠ some y :=
    fun h => (gL yp (by simp [hypT]) y h).2.2.1
  have hapH0 : ap ∈ hdr :: T := by
    rcases hcase with ⟨-, e⟩ | ⟨-, h, -⟩
    · simp [e]
    · exact List.mem_cons_of_mem _ h
  have nLRa : m.left_ ap = some a → m.right_ ap ≠ some a :=
    fun h => (gL ap hapH0 a h).2.2.1
  -- the first relinking
  obtain ⟨m1, hm1⟩ : ∃ m1, m1 = (if m.left_ yp = some y then m.setLeft yp (some a)
      else m.setRight yp (some a)) := ⟨_, rfl⟩
  have m1P : m1.parent_ = m.parent_ := by rw [hm1]; split_ifs <;> rfl
  have m1D : m1.red_ = m.red_ := by rw [hm1]; split_ifs <;> rfl
  have m1K : m1.key_ = m.key_ := by rw [hm1]; split_ifs <;> rfl
  have m1N : m1.next = m.next := by rw [hm1]; split_ifs <;> rfl
  have m1L : ∀ z ∈ hdr :: T,
      m1.left_ z = if m.left_ z = some y then some a else m.left_ z := by
    intro z hz
    have e := eLy z hz
    rw [hm1]
    by_cases hL : m.left_ yp = some y
    · simp only [hL, if_true, Mem.setLeft_left, upd_apply]
      by_cases hzy : z = yp
      · subst hzy
        simp [hL]
      · have : ¬ m.left_ z = some y := fun h => hzy (e.1 h).1
        simp [hzy, this]
    · have : ¬ m.left_ z = some y := fun h => hL (e.1 h).2
      simp [hL, this]
  have m1R : ∀ z ∈ hdr :: T,
      m1.right_ z = if m.right_ z = some y then some a else m.right_ z := by
    intro z hz
    have e := eRy z hz
    rw [hm1]
    by_cases hL : m.left_ yp = some y
    · have : ¬ m.right_ z = some y := fun h => nLRy hL (e.1 h).2
      simp [hL, this]
    · have hR : m.right_ yp = some y := hyc.resolve_left hL
      simp only [hL, if_false, Mem.setRight_right, upd_apply]
      by_cases hzy : z = yp
      · subst hzy
        simp [hR]
      · have : ¬ m.right_ z = some y := fun h => hzy (e.1 h).1
        simp [hzy, this]
  -- the second relinking
  obtain ⟨m2, hm2, m2P, m2L, m2R, m2D, m2K, m2N⟩ : ∃ m2, relinkL m1 hdr a (some y) = some m2 ∧
      (∀ z ∈ hdr :: T, m2.parent_ z =
        if z = hdr then Option.map (swp a y) (m.parent_ hdr) else m.parent_ z) ∧
      (∀ z ∈ hdr :: T, m2.left_ z = Option.map (swp a y) (m.left_ z)) ∧
      (∀ z ∈ hdr :: T, m2.right_ z = Option.map (swp a y) (m.right_ z)) ∧
      m2.red_ = m.red_ ∧ m2.key_ = m.key_ ∧ m2.next = m.next := by
    have hPhy : m.parent_ hdr ≠ some y := hyr
    rcases hcase with ⟨hr, rfl⟩ | ⟨hr, hapT, hch⟩
    · refine ⟨m1.setParent ap (some y), by simp [relinkL, Root, m1P, hr], ?_, ?_, ?_, m1D, m1K,
        m1N⟩
      · intro z hz
        simp only [Mem.setParent_parent, upd_apply, m1P, hr, Option.map_some', swp_left]
      · intro z hz
        have e := eLa z hz
        have : ¬ m.left_ z = some a := by
          intro h
          rw [wf.hleft] at e
          simpa using (e.1 h).2
        simp only [Mem.setParent_left, m1L z hz, optmap_swp, this, if_false]
      · intro z hz
        have e := eRa z hz
        have : ¬ m.right_ z = some a := by
          intro h
          rw [wf.hright] at e
          simpa using (e.1 h).2
        simp only [Mem.setParent_right, m1R z hz, optmap_swp, this, if_false]
    · have hapH : ap ∈ hdr :: T := by simp [hapT]
      have hne : ap ≠ hdr := fun e => hhT (e ▸ hapT)
      have h1 : m1.left_ ap = m.left_ ap := by
        rw [m1L ap hapH]
        simp [hnl]
      have hP : ∀ z ∈ hdr :: T, m.parent_ z =
          if z = hdr then Option.map (swp a y) (m.parent_ hdr) else m.parent_ z := by
        intro z hz
        by_cases hzh : z = hdr
        · subst hzh
          simp only [if_true, optmap_swp, hr, hPhy, if_false]
        · simp [hzh]
      by_cases hL : m.left_ ap = some a
      · refine ⟨m1.setLeft ap (some y), by simp [relinkL, Root, m1P, hr, hPa, h1, hL], ?_, ?_, ?_,
          m1D, m1K, m1N⟩
        · intro z hz
          simp only [Mem.setLeft_parent, m1P]
          exact hP z hz
        · intro z hz
          have e := eLa z hz
          simp only [Mem.setLeft_left, upd_apply, optmap_swp]
          by_cases hz' : z = ap
          · subst hz'
            simp [hL]
          · have : ¬ m.left_ z = some a := fun h => hz' (e.1 h).1
            simp only [hz', if_false, this, m1L z hz]
        · intro z hz
          have e := eRa z hz
          have : ¬ m.right_ z = some a := fun h => nLRa hL (e.1 h).2
          simp only [Mem.setLeft_right, m1R z hz, optmap_swp, this, if_false]
      · have hR : m.right_ ap = some a := hch.resolve_left hL
        refine ⟨m1.setRight ap (some y), by simp [relinkL, Root, m1P, hr, hPa, h1, hL], ?_, ?_, ?_,
          m1D, m1K, m1N⟩
        · intro z hz
          simp only [Mem.setRight_parent, m1P]
          exact hP z hz
        · intro z hz
          have e := eLa z hz
          have : ¬ m.left_ z = some a := fun h => hL (e.1 h).2
          simp only [Mem.setRight_left, m1L z hz, optmap_swp, this, if_false]
        · intro z hz
          have e := eRa z hz
          simp only [Mem.setRight_right, upd_apply, optmap_swp]
          by_cases hz' : z = ap
          · subst hz'
            simp [hR]
          · have : ¬ m.right_ z = some a := fun h => hz' (e.1 h).1
            simp only [hz', if_false, this, m1R z hz]
  refine ⟨swapTail m2 a y, ?_, ?_, ?_, by rw [swapTail_key, m2K], by rw [swapTail_next, m2N]⟩
  · rw [SwapNodes_eq, hPy]
    simp only [Option.bind_eq_bind, Option.some_bind, ← hm1, hm2]
    rfl
  · rw [← hTdef]
    refine WF_map_links wf (swp_inj a y) (swp_ne hha hhy) ?_ ?_
    · rw [hTdef]
      intro x hx
      have haH : a ∈ hdr :: T := by simp [haT]
      have hyH : y ∈ hdr :: T := by simp [hyT]
      refine ⟨?_, ?_, ?_⟩
      · have u1 : upd (upd m2.right_ a (m2.right_ y)) y (m2.right_ a) y =
            Option.map (swp a y) (m.right_ a) := by rw [upd_same, m2R a haH]
        have u2 : upd (upd m2.left_ a (m2.left_ y)) y (m2.left_ a) y =
            Option.map (swp a y) (m.left_ a) := by rw [upd_same, m2L a haH]
        have u3 : upd (upd m2.right_ a (m2.right_ y)) y (m2.right_ a) a =
            Option.map (swp a y) (m.right_ y) := by
          rw [upd_ne _ _ hay, upd_same, m2R y hyH]
        have u4 : upd (upd m2.left_ a (m2.left_ y)) y (m2.left_ a) a =
            Option.map (swp a y) (m.left_ y) := by
          rw [upd_ne _ _ hay, upd_same, m2L y hyH]
        simp only [swapTail_parent, u1, u2, u3, u4, upd_swp _ hay,
          optmap_inj (swp_inj a y)]
        by_cases h1 : m.right_ a = some x
        · rw [(gR a haH x h1).1]
          simp [h1, swp_left]
        by_cases h2 : m.left_ a = some x
        · rw [(gL a haH x h2).1]
          simp [h1, h2, swp_left]
        by_cases h3 : m.right_ y = some x
        · rw [(gR y hyH x h3).1]
          simp [h1, h2, h3, swp_right]
        by_cases h4 : m.left_ y = some x
        · rw [(gL y hyH x h4).1]
          simp [h1, h2, h3, h4, swp_right]
        simp only [h1, h2, h3, h4, if_false]
        rw [m2P x hx]
        by_cases hxh : x = hdr
        · simp [hxh]
        · have hxT : x ∈ T := by
            rcases List.mem_cons.1 hx with e | e
            · exact absurd e hxh
            · exact e
          have n1 : ¬ m.parent_ x = some a := by
            intro e
            rcases gP x hxT a e (fun e' => hha e'.symm) with e' | e'
            · exact h2 e'
            · exact h1 e'
          have n2 : ¬ m.parent_ x = some y := by
            intro e
            rcases gP x hxT y e (fun e' => hhy e'.symm) with e' | e'
            · exact h4 e'
            · exact h3 e'
          simp only [hxh, if_false, optmap_swp, n1, n2]
      · rw [swapTail_left, upd_swp _ hay, m2L x hx]
      · rw [swapTail_right, upd_swp _ hay, m2R x hx]
    · rw [hTdef]
      intro x hx
      rw [swapTail_next, m2N]
      have hb := wf.bound
      rw [hTdef] at hb
      unfold swp
      split_ifs
      · exact hb y (by simp [hyT])
      · exact hb a (by simp [haT])
      · exact hb x hx
  · intro x
    rw [swapTail_red, upd_swp _ hay, m2D]

/-- The ancestors of a node are the nodes of the frames of its context. -/
theorem ancestors_spec {m : Mem K} {hdr : Nat} :
    ∀ (c : List Frame) (fuel : Nat) (l : Sh) (a : Nat) (r : Sh),
      WFz m hdr c (Sh.node l a r) → c.length < fuel →
      ancestors m hdr fuel a = c.map Frame.addr := by
  intro c
  induction c with
  | nil =>
    intro fuel l a r wz hf
    obtain ⟨k, rfl⟩ : ∃ k, fuel = k + 1 := ⟨fuel - 1, by simp at hf; omega⟩
    have hp : m.parent_ a = some hdr := wz.parent_eq
    simp [ancestors, hp]
  | cons f c ih =>
    intro fuel l a r wz hf
    obtain ⟨k, rfl⟩ : ∃ k, fuel = k + 1 := ⟨fuel - 1, by simp at hf; omega⟩
    simp only [List.length_cons] at hf
    have hp : m.parent_ a = some f.addr := wz.parent_eq
    have hne : f.addr ≠ hdr := by
      have hnd := wz.nodup
      intro e
      rw [List.nodup_cons] at hnd
      apply hnd.1
      rw [← e]
      cases f <;> simp [ctxAddrs]
    cases f with
    | left p s =>
      have := ih k _ p _ wz.up_left (by omega)
      simp only [Frame.addr_left] at hp hne
      simp [ancestors, hp, hne, this]
    | right s p =>
      have := ih k _ p _ wz.up_right (by omega)
      simp only [Frame.addr_right] at hp hne
      simp [ancestors, hp, hne, this]

/-- The root of a plugged shape is the node of one of the frames. -/
theorem plug_ptr_frame : ∀ (c : List Frame) (s : Sh), c ≠ [] →
    ∃ f ∈ c, (plug c s).ptr = some f.addr := by
  intro c
  induction c with
  | nil => intro s h; exact absurd rfl h
  | cons f c ih =>
    intro s _
    rcases c with _ | ⟨g, c⟩
    · refine ⟨f, List.mem_cons_self _ _, ?_⟩
      cases f <;> rfl
    · cases f with
      | left a r =>
        obtain ⟨f', hf', e⟩ := ih (Sh.node s a r) (by simp)
        exact ⟨f', List.mem_cons_of_mem _ hf', e⟩
      | right l a =>
        obtain ⟨f', hf', e⟩ := ih (Sh.node l a s) (by simp)
        exact ⟨f', List.mem_cons_of_mem _ hf', e⟩

/-- The root and the parent of a node are among its ancestors. -/
theorem not_ancestor {m : Mem K} {hdr a y : Nat} {sh : Sh} (wf : WF m hdr sh)
    (ha : a ∈ sh.addrs) (hy : y ∈ sh.addrs) (hay : a ≠ y)
    (hanc : y ∉ ancestors m hdr m.next a) :
    m.parent_ hdr ≠ some y ∧ m.parent_ a ≠ some y := by
  obtain ⟨c, l, r, rfl⟩ := exists_plug_of_mem ha
  have wz := wf.toZ
  have hlen := wz.ctx_length_lt
  rw [ancestors_spec c m.next l a r wz (by omega)] at hanc
  constructor
  · intro h
    rcases c with _ | ⟨f, c⟩
    · have := wz.root_nil
      unfold Root at this
      rw [h] at this
      simp only [Sh.ptr_node, Option.some.injEq] at this
      exact hay this.symm
    · obtain ⟨f', hf', e⟩ := plug_ptr_frame (f :: c) (Sh.node l a r) (by simp)
      have hr := wf.root
      rw [h, e] at hr
      simp only [Option.some.injEq] at hr
      exact hanc (List.mem_map.2 ⟨f', hf', hr.symm⟩)
  · intro h
    rcases c with _ | ⟨f, c⟩
    · have hp : m.parent_ a = some hdr := wz.parent_eq
      rw [h] at hp
      simp only [Option.some.injEq] at hp
      exact wf.hdr_not_mem (hp ▸ hy)
    · have hp : m.parent_ a = some f.addr := wz.parent_eq
      rw [h] at hp
      simp only [Option.some.injEq] at hp
      exact hanc (List.mem_map.2 ⟨f, List.mem_cons_self _ _, hp.symm⟩)

set_option maxRecDepth 100000 in
theorem exSwap_eq : SwapNodes exSet.1 exSet.2.header_ 3 2 = some exSwap :=
  getD_of_isSome _ (by decide)

theorem swp_mem {a b x : Nat} {L : List Nat} (ha : a ∈ L) (hb : b ∈ L) (hx : x ∈ L) :
    swp a b x ∈ L := by
  unfold swp
  split_ifs
  · exact hb
  · exact ha
  · exact hx

/-- C34: for every tree with consistent links and any two distinct nodes `a` and `b` of it,
where `b` is not an ancestor of `a` and `b` is not the left child of the parent of `a` (so
`b` can be a child or any other descendant of `a`, `a` can be the root, and the two can sit
in different subtrees): `SwapNodes(a, b)` returns the tree in which `a` and `b` have
exchanged their places. The links of the result are consistent; the parent, left and right
link of every node and of the header are those of the node in its place before, with `a`
and `b` exchanged; `a` and `b` have exchanged their colours and every other node keeps its
colour; no key changes; no node is linked to itself. -/
theorem C34_swap_nodes {m : Mem K} {hdr a b : Nat} {sh : Sh} (wf : WF m hdr sh)
    (ha : a ∈ sh.addrs) (hb : b ∈ sh.addrs) (hab : a ≠ b)
    (hanc : b ∉ ancestors m hdr m.next a)
    (hsib : ∀ p, m.parent_ a = some p → m.left_ p ≠ some b) :
    ∃ m', SwapNodes m hdr a b = some m' ∧ WF m' hdr (Sh.map (swp a b) sh) ∧
      LinksOK m' hdr (sh.addrs.map (swp a b)) ∧
      (∀ x ∈ hdr :: sh.addrs, m'.parent_ (swp a b x) = (m.parent_ x).map (swp a b) ∧
        m'.left_ (swp a b x) = (m.left_ x).map (swp a b) ∧
        m'.right_ (swp a b x) = (m.right_ x).map (swp a b)) ∧
      m'.red_ a = m.red_ b ∧ m'.red_ b = m.red_ a ∧
      (∀ x, x ≠ a → x ≠ b → m'.red_ x = m.red_ x) ∧ m'.key_ = m.key_ ∧
      (∀ x ∈ sh.addrs, m'.parent_ x ≠ some x ∧ m'.left_ x ≠ some x ∧ m'.right_ x ≠ some x) := by
  obtain ⟨hyr, hpy⟩ := not_ancestor wf ha hb hab hanc
  obtain ⟨m', e, ⟨hlinks, wf'⟩, hred, hkey, -⟩ := SwapNodes_general wf ha hb hab hyr hpy hsib
  have hmem : ∀ x ∈ sh.addrs, x ∈ (Sh.map (swp a b) sh).addrs := by
    intro x hx
    rw [Sh.addrs_map]
    refine List.mem_map.2 ⟨swp a b x, swp_mem ha hb hx, swp_swp a b x⟩
  refine ⟨m', e, wf', ?_, hlinks, ?_, ?_, ?_, hkey, ?_⟩
  · have := wf'.links_ok
    rw [Sh.addrs_map] at this
    exact this
  · have := hred b
    rw [swp_right] at this
    exact this
  · have := hred a
    rw [swp_left] at this
    exact this
  · intro x h1 h2
    have := hred x
    rw [swp_ne h1 h2] at this
    exact this
  · intro x hx
    have hx' := hmem x hx
    refine ⟨?_, ?_, ?_⟩
    · intro h
      rcases wf'.parent_child hx' with ⟨e1, -⟩ | ⟨q, hq, e1, hc⟩
      · rw [h] at e1
        simp only [Option.some.injEq] at e1
        exact wf'.hdr_not_mem (e1 ▸ hx')
      · rw [h] at e1
        simp only [Option.some.injEq] at e1
        subst e1
        rcases hc with hc | hc
        · exact (wf'.left_child hx' hc).2.2.2 rfl
        · exact (wf'.right_child hx' hc).2.2.2 rfl
    · intro h
      exact (wf'.left_child hx' h).2.2.2 rfl
    · intro h
      exact (wf'.right_child hx' h).2.2.2 rfl

set_option maxRecDepth 100000 in
/-- Witness of C34: in the set `{5, 3, 8, 1, 4}`, `a` the root (key 5) and `b` its right
child (key 8). -/
theorem C34_witness : WF exSet.1 exSet.2.header_ shSet ∧ 1 ∈ shSet.addrs ∧ 3 ∈ shSet.addrs ∧
    3 ∉ ancestors exSet.1 exSet.2.header_ exSet.1.next 1 ∧
    exSet.1.parent_ 1 = some exSet.2.header_ ∧ exSet.1.left_ exSet.2.header_ ≠ some 3 ∧
    exSet.1.right_ 1 = some 3 ∧
    ∃ m', SwapNodes exSet.1 exSet.2.header_ 1 3 = some m' ∧
      WF m' exSet.2.header_ (Sh.map (swp 1 3) shSet) ∧
      LinksOK m' exSet.2.header_ (shSet.addrs.map (swp 1 3)) ∧
      (∀ x ∈ exSet.2.header_ :: shSet.addrs,
        m'.parent_ (swp 1 3 x) = (exSet.1.parent_ x).map (swp 1 3) ∧
        m'.left_ (swp 1 3 x) = (exSet.1.left_ x).map (swp 1 3) ∧
        m'.right_ (swp 1 3 x) = (exSet.1.right_ x).map (swp 1 3)) ∧
      m'.red_ 1 = exSet.1.red_ 3 ∧ m'.red_ 3 = exSet.1.red_ 1 ∧
      (∀ x, x ≠ 1 → x ≠ 3 → m'.red_ x = exSet.1.red_ x) ∧ m'.key_ = exSet.1.key_ ∧
      (∀ x ∈ shSet.addrs,
        m'.parent_ x ≠ some x ∧ m'.left_ x ≠ some x ∧ m'.right_ x ≠ some x) :=
  ⟨exSet_wf, by decide, by decide, by decide, by decide, by decide, by decide,
    C34_swap_nodes exSet_wf (by decide) (by decide) (by decide) (by decide) (by
      intro p hp
      have e : exSet.1.parent_ 1 = some 0 := by decide
      rw [e] at hp
      simp only [Option.some.injEq] at hp
      subst hp
      decide)⟩

set_option maxRecDepth 100000 in
/-- Counterexample of C34: in the set `{5, 3, 8, 1, 4}` let `a` be the node of key 8 (address
3, the right child of the root, no children) and `b` the node of key 3 (address 2, the left
child of the root, with the children 4 and 5); `b` is not an ancestor of `a`. After
`SwapNodes(a, b)` the root still has `b` as its left and `a` as its right child, while the
children of `b` have moved below `a`: the two nodes have not exchanged their places, the
result is not the tree with `a` and `b` exchanged, and its in-order sequence of nodes is
`2, 1, 4, 3, 5` instead of `4, 3, 5, 1, 2`. -/
theorem C34_counterexample : WF exSet.1 exSet.2.header_ shSet ∧ 3 ∈ shSet.addrs ∧
    2 ∈ shSet.addrs ∧ ancestors exSet.1 exSet.2.header_ exSet.1.next 3 = [1] ∧
    exSet.2.header_ = 0 ∧
    (List.range 6).map (fun i => (exSet.1.parent_ i, exSet.1.left_ i, exSet.1.right_ i)) =
      [(some 1, none, none), (some 0, some 2, some 3), (some 1, some 4, some 5),
        (some 1, none, none), (some 2, none, none), (some 2, none, none)] ∧
    SwapNodes exSet.1 exSet.2.header_ 3 2 = some exSwap ∧
    (List.range 6).map (fun i => (exSwap.parent_ i, exSwap.left_ i, exSwap.right_ i)) =
      [(some 1, none, none), (some 0, some 2, some 3), (some 1, none, none),
        (some 1, some 4, some 5), (some 3, none, none), (some 3, none, none)] ∧
    inorder exSwap exSwap.next (Root exSwap exSet.2.header_) = some [2, 1, 4, 3, 5] ∧
    (Sh.map (swp 3 2) shSet).addrs = [4, 3, 5, 1, 2] ∧
    ¬ WF exSwap exSet.2.header_ (Sh.map (swp 3 2) shSet) :=
  ⟨exSet_wf, by decide, by decide, by decide, by decide, by decide, exSwap_eq, by decide,
    by decide, by decide, fun h => absurd h.rep.2.1 (by decide)⟩

end s21
